import Mathlib

/-!
# Boykov–Kolmogorov max-flow solver (`src/maxflow/graph.cpp`)

A shallow embedding of the solver of `graph.cpp` and a verification of its
specification.

Modelling conventions.

* Pointers into the node and arc arenas are arena indices (`Nat`); a nullable
  pointer is an `Option Nat`.  The arenas are total maps from indices to
  records, `node_num` / `arc_num` bound the allocated part.
* The `parent` field, which holds `NULL`, one of the sentinels `TERMINAL`,
  `ORPHAN`, or a real arc, is the tagged sum `ArcPtr`.
* `captype`, `tcaptype`, `flowtype` are instantiated with the integers; the
  `int` counters `TIME`, `TS`, `DIST`, `maxflow_iteration` are unbounded
  (no wrap-around is modelled).
* The orphan list (cells of `nodeptr_block` linked from `orphan_first`, with
  `orphan_last` pointing at the last cell while the list is non-empty) is the
  list of the node indices stored in its cells.
* Every `while`/`for` loop over pointers is a recursion on a step budget; a
  loop that exhausts the budget yields `Res.fuel`, a dereference of `NULL`
  or of a sentinel yields `Res.fault`.  The source and sink variants of a
  procedure, which differ only in the side tested, share one definition with
  a `sink` flag.
-/

namespace Maxflow

/-- Values of `node::parent`: `NULL`, `TERMINAL`, `ORPHAN`, or a real arc. -/
inductive ArcPtr where
  | null : ArcPtr
  | terminal : ArcPtr
  | orphan : ArcPtr
  | arc (a : Nat) : ArcPtr
deriving DecidableEq

/-- The `node` record of `graph.h`. -/
structure Node where
  first : Option Nat := none
  next : Option Nat := none
  parent : ArcPtr := ArcPtr.null
  is_sink : Bool := false
  TS : Int := 0
  DIST : Int := 0
  tr_cap : Int := 0
  is_marked : Bool := false
  is_in_changed_list : Bool := false
deriving DecidableEq

/-- The `arc` record of `graph.h`. -/
structure Arc where
  head : Nat := 0
  next : Option Nat := none
  sister : Nat := 0
  r_cap : Int := 0
deriving DecidableEq

/-- The solver state: both arenas, the two active queues, the orphan list, the
changed list and the counters. -/
structure Graph where
  node_num : Nat := 0
  arc_num : Nat := 0
  nodes : Nat → Node := fun _ => {}
  arcs : Nat → Arc := fun _ => {}
  queue_first0 : Option Nat := none
  queue_last0 : Option Nat := none
  queue_first1 : Option Nat := none
  queue_last1 : Option Nat := none
  orphans : List Nat := []
  TIME : Int := 0
  flow : Int := 0
  maxflow_iteration : Nat := 0
  changed_list : Option (List Nat) := none
  error_function : Bool := true

/-- Result of a loop: a value, an exhausted step budget, or a dereference of
`NULL` / a sentinel. -/
inductive Res (α : Type) where
  | ok (a : α) : Res α
  | fuel : Res α
  | fault : Res α

/-- Sequencing of two computations that may give up. -/
def Res.bind {α β : Type} (x : Res α) (k : α → Res β) : Res β :=
  match x with
  | Res.ok a => k a
  | Res.fuel => Res.fuel
  | Res.fault => Res.fault

/-- The constant `INFINITE_D`, `(int)(((unsigned)-1)/2)`. -/
def INFINITE_D : Int := 2147483647

/-- Pointwise update of an arena. -/
def upd {α : Type} (f : Nat → α) (i : Nat) (v : α) : Nat → α :=
  fun j => if j = i then v else f j

namespace Graph

/-- Write `i->next`. -/
def setNext (g : Graph) (i : Nat) (v : Option Nat) : Graph :=
  { g with nodes := upd g.nodes i { g.nodes i with next := v } }

/-- Write `i->parent`. -/
def setParent (g : Graph) (i : Nat) (v : ArcPtr) : Graph :=
  { g with nodes := upd g.nodes i { g.nodes i with parent := v } }

/-- Write `i->is_sink`. -/
def setSink (g : Graph) (i : Nat) (v : Bool) : Graph :=
  { g with nodes := upd g.nodes i { g.nodes i with is_sink := v } }

/-- Write `i->TS`. -/
def setTS (g : Graph) (i : Nat) (v : Int) : Graph :=
  { g with nodes := upd g.nodes i { g.nodes i with TS := v } }

/-- Write `i->DIST`. -/
def setDIST (g : Graph) (i : Nat) (v : Int) : Graph :=
  { g with nodes := upd g.nodes i { g.nodes i with DIST := v } }

/-- Write `i->tr_cap`. -/
def setTrCap (g : Graph) (i : Nat) (v : Int) : Graph :=
  { g with nodes := upd g.nodes i { g.nodes i with tr_cap := v } }

/-- Write `i->is_marked`. -/
def setMarked (g : Graph) (i : Nat) (v : Bool) : Graph :=
  { g with nodes := upd g.nodes i { g.nodes i with is_marked := v } }

/-- Write `i->is_in_changed_list`. -/
def setInChanged (g : Graph) (i : Nat) (v : Bool) : Graph :=
  { g with nodes := upd g.nodes i { g.nodes i with is_in_changed_list := v } }

/-- Write `a->r_cap`. -/
def setRCap (g : Graph) (a : Nat) (v : Int) : Graph :=
  { g with arcs := upd g.arcs a { g.arcs a with r_cap := v } }

/-- Write `queue_first[0]` and `queue_last[0]`. -/
def setQueue0 (g : Graph) (first last : Option Nat) : Graph :=
  { g with queue_first0 := first, queue_last0 := last }

/-- Write `queue_first[0]`. -/
def setFirst0 (g : Graph) (first : Option Nat) : Graph :=
  { g with queue_first0 := first }

/-- Write `queue_first[1]` and `queue_last[1]`. -/
def setQueue1 (g : Graph) (first last : Option Nat) : Graph :=
  { g with queue_first1 := first, queue_last1 := last }

/-- Write `queue_last[1]`. -/
def setLast1 (g : Graph) (last : Option Nat) : Graph :=
  { g with queue_last1 := last }

/-- Replace the orphan list. -/
def setOrphans (g : Graph) (l : List Nat) : Graph :=
  { g with orphans := l }

/-- Write `TIME`. -/
def setTIME (g : Graph) (t : Int) : Graph :=
  { g with TIME := t }

/-- Write `flow`. -/
def setFlow (g : Graph) (v : Int) : Graph :=
  { g with flow := v }

/-- Write `maxflow_iteration`. -/
def setIteration (g : Graph) (k : Nat) : Graph :=
  { g with maxflow_iteration := k }

/-- Write `changed_list`. -/
def setChanged (g : Graph) (l : Option (List Nat)) : Graph :=
  { g with changed_list := l }

end Graph

/-! ## Active queue, orphan list, changed list (graph.cpp 163–244) -/

/-- `Graph::set_active`. -/
def set_active (g : Graph) (i : Nat) : Graph :=
  if (g.nodes i).next = none then
    match g.queue_last1 with
    | some l => ((g.setNext l (some i)).setLast1 (some i)).setNext i (some i)
    | none => (g.setQueue1 (some i) (some i)).setNext i (some i)
  else g

/-- The swap at the top of `next_active`: the first queue is replaced by the
second one, which becomes empty. -/
def rotate_queues (g : Graph) : Graph :=
  (g.setQueue0 g.queue_first1 g.queue_last1).setQueue1 none none

/-- The removal of the front node `i` of the first queue in `next_active`. -/
def pop_active (g : Graph) (i : Nat) : Graph :=
  (if (g.nodes i).next = some i then g.setQueue0 none none
   else g.setFirst0 (g.nodes i).next).setNext i none

/-- The test `if (!(i=queue_first[0]))` at the top of `next_active` with the
swap it guards. -/
def refill (g : Graph) : Graph :=
  if g.queue_first0 = none then rotate_queues g else g

/-- `Graph::next_active`: the `while (1)` loop, one iteration per step of the
budget.  Returns the state and the node returned (`none` for `NULL`). -/
def next_active : Nat → Graph → Res (Graph × Option Nat)
  | 0, _ => Res.fuel
  | f + 1, g =>
    match (refill g).queue_first0 with
    | none => Res.ok (refill g, none)
    | some i =>
      if ((pop_active (refill g) i).nodes i).parent ≠ ArcPtr.null then
        Res.ok (pop_active (refill g) i, some i)
      else next_active f (pop_active (refill g) i)

/-- `Graph::set_orphan_front`. -/
def set_orphan_front (g : Graph) (i : Nat) : Graph :=
  (g.setParent i ArcPtr.orphan).setOrphans (i :: g.orphans)

/-- `Graph::set_orphan_rear`. -/
def set_orphan_rear (g : Graph) (i : Nat) : Graph :=
  (g.setParent i ArcPtr.orphan).setOrphans (g.orphans ++ [i])

/-- `Graph::add_to_changed_list`. -/
def add_to_changed_list (g : Graph) (i : Nat) : Graph :=
  match g.changed_list with
  | some l =>
    if (g.nodes i).is_in_changed_list = true then g
    else (g.setChanged (some (l ++ [i]))).setInChanged i true
  | none => g

/-! ## Cold initialisation (graph.cpp 248–286) -/

/-- The first statements of the body of the `for` loop of `maxflow_init`:
`i->next = NULL; i->is_marked = 0; i->is_in_changed_list = 0; i->TS = TIME`. -/
def init_clear (g : Graph) (i : Nat) : Graph :=
  (((g.setNext i none).setMarked i false).setInChanged i false).setTS i g.TIME

/-- Body of the `for` loop of `maxflow_init` for node `i`. -/
def init_node (g : Graph) (i : Nat) : Graph :=
  if ((init_clear g i).nodes i).tr_cap > 0 then
    (set_active (((init_clear g i).setSink i false).setParent i ArcPtr.terminal) i).setDIST i 1
  else if ((init_clear g i).nodes i).tr_cap < 0 then
    (set_active (((init_clear g i).setSink i true).setParent i ArcPtr.terminal) i).setDIST i 1
  else (init_clear g i).setParent i ArcPtr.null

/-- The `for (i=nodes; i<node_last; i++)` loop of `maxflow_init` over the first
`k` nodes. -/
def init_nodes (g : Graph) : Nat → Graph
  | 0 => g
  | k + 1 => init_node (init_nodes g k) k

/-- `Graph::maxflow_init`. -/
def maxflow_init (g : Graph) : Graph :=
  init_nodes ((((g.setQueue0 none none).setQueue1 none none).setOrphans []).setTIME 0) g.node_num

/-! ## Augmentation (graph.cpp 373–440) -/

/-- Loop 1a of `augment`: bottleneck along the source tree, started at node `i`
with the running minimum `b`. -/
def bottleneck_source (g : Graph) : Nat → Nat → Int → Res Int
  | 0, _, _ => Res.fuel
  | f + 1, i, b =>
    match (g.nodes i).parent with
    | ArcPtr.terminal => Res.ok (if b > (g.nodes i).tr_cap then (g.nodes i).tr_cap else b)
    | ArcPtr.arc a =>
      bottleneck_source g f (g.arcs a).head
        (if b > (g.arcs (g.arcs a).sister).r_cap then (g.arcs (g.arcs a).sister).r_cap else b)
    | ArcPtr.null => Res.fault
    | ArcPtr.orphan => Res.fault

/-- Loop 1b of `augment`: bottleneck along the sink tree. -/
def bottleneck_sink (g : Graph) : Nat → Nat → Int → Res Int
  | 0, _, _ => Res.fuel
  | f + 1, i, b =>
    match (g.nodes i).parent with
    | ArcPtr.terminal => Res.ok (if b > - (g.nodes i).tr_cap then - (g.nodes i).tr_cap else b)
    | ArcPtr.arc a =>
      bottleneck_sink g f (g.arcs a).head (if b > (g.arcs a).r_cap then (g.arcs a).r_cap else b)
    | ArcPtr.null => Res.fault
    | ArcPtr.orphan => Res.fault

/-- The update of the root `i` that ends loop 2a (`delta = -bottleneck`) or
loop 2b (`delta = bottleneck`) of `augment`. -/
def push_root (g : Graph) (i : Nat) (delta : Int) : Graph :=
  if ((g.setTrCap i ((g.nodes i).tr_cap + delta)).nodes i).tr_cap = 0 then
    set_orphan_front (g.setTrCap i ((g.nodes i).tr_cap + delta)) i
  else g.setTrCap i ((g.nodes i).tr_cap + delta)

/-- The push over the arc pair `up`, `down`: `up->r_cap += b`, then
`down->r_cap -= b`. -/
def push_pair (g : Graph) (up down : Nat) (b : Int) : Graph :=
  (g.setRCap up ((g.arcs up).r_cap + b)).setRCap down
    (((g.setRCap up ((g.arcs up).r_cap + b)).arcs down).r_cap - b)

/-- Body of loop 2a of `augment` for node `i` with parent arc `a`. -/
def push_source_arc (g : Graph) (i a : Nat) (b : Int) : Graph :=
  if ((push_pair g a (g.arcs a).sister b).arcs (g.arcs a).sister).r_cap = 0 then
    set_orphan_front (push_pair g a (g.arcs a).sister b) i
  else push_pair g a (g.arcs a).sister b

/-- Body of loop 2b of `augment` for node `i` with parent arc `a`. -/
def push_sink_arc (g : Graph) (i a : Nat) (b : Int) : Graph :=
  if ((push_pair g (g.arcs a).sister a b).arcs a).r_cap = 0 then
    set_orphan_front (push_pair g (g.arcs a).sister a b) i
  else push_pair g (g.arcs a).sister a b

/-- Loop 2a of `augment` with the root update that follows it. -/
def push_source (b : Int) : Nat → Graph → Nat → Res Graph
  | 0, _, _ => Res.fuel
  | f + 1, g, i =>
    match (g.nodes i).parent with
    | ArcPtr.terminal => Res.ok (push_root g i (-b))
    | ArcPtr.arc a => push_source b f (push_source_arc g i a b) (g.arcs a).head
    | ArcPtr.null => Res.fault
    | ArcPtr.orphan => Res.fault

/-- Loop 2b of `augment` with the root update that follows it. -/
def push_sink (b : Int) : Nat → Graph → Nat → Res Graph
  | 0, _, _ => Res.fuel
  | f + 1, g, i =>
    match (g.nodes i).parent with
    | ArcPtr.terminal => Res.ok (push_root g i b)
    | ArcPtr.arc a => push_sink b f (push_sink_arc g i a b) (g.arcs a).head
    | ArcPtr.null => Res.fault
    | ArcPtr.orphan => Res.fault

/-- The bottleneck computed by step 1 of `augment(middle_arc)`. -/
def bottleneck (F : Nat) (g : Graph) (m : Nat) : Res Int :=
  (bottleneck_source g F (g.arcs (g.arcs m).sister).head (g.arcs m).r_cap).bind fun b =>
    bottleneck_sink g F (g.arcs m).head b

/-- `Graph::augment`. -/
def augment (F : Nat) (g : Graph) (m : Nat) : Res Graph :=
  (bottleneck F g m).bind fun b =>
    (push_source b F (push_pair g (g.arcs m).sister m b) (g.arcs (g.arcs m).sister).head).bind
      fun g3 =>
        (push_sink b F g3 (g3.arcs m).head).bind fun g4 => Res.ok (g4.setFlow (g4.flow + b))

/-! ## Adoption (graph.cpp 444–602) -/

/-- The loop "checking the origin of j" of `process_source_orphan` and
`process_sink_orphan`, started at `j` with hop count `d`. -/
def origin_check : Nat → Graph → Nat → Int → Res (Graph × Int)
  | 0, _, _, _ => Res.fuel
  | f + 1, g, j, d =>
    if (g.nodes j).TS = g.TIME then Res.ok (g, d + (g.nodes j).DIST)
    else
      match (g.nodes j).parent with
      | ArcPtr.terminal => Res.ok ((g.setTS j g.TIME).setDIST j 1, d + 1)
      | ArcPtr.orphan => Res.ok (g, INFINITE_D)
      | ArcPtr.arc a => origin_check f g (g.arcs a).head (d + 1)
      | ArcPtr.null => Res.fault

/-- The loop "set marks along the path" of both orphan procedures. -/
def set_marks : Nat → Graph → Nat → Int → Res Graph
  | 0, _, _, _ => Res.fuel
  | f + 1, g, j, d =>
    if (g.nodes j).TS = g.TIME then Res.ok g
    else
      match (g.nodes j).parent with
      | ArcPtr.arc a => set_marks f ((g.setTS j g.TIME).setDIST j d) (g.arcs a).head (d - 1)
      | ArcPtr.null => Res.fault
      | ArcPtr.terminal => Res.fault
      | ArcPtr.orphan => Res.fault

/-- The residual tested on arc `a0` when looking for a parent: `a0->sister->r_cap`
in the source tree, `a0->r_cap` in the sink tree. -/
def orphan_rcap (g : Graph) (sink : Bool) (a0 : Nat) : Int :=
  if sink = true then (g.arcs a0).r_cap else (g.arcs (g.arcs a0).sister).r_cap

/-- The loop "trying to find a new parent" of `process_source_orphan`
(`sink = false`) and `process_sink_orphan` (`sink = true`); the state carries
`a0_min` and `d_min`. -/
def find_parent (F : Nat) (sink : Bool) :
    Nat → Graph → Option Nat → Option Nat → Int → Res (Graph × Option Nat × Int)
  | _, g, none, amin, dmin => Res.ok (g, amin, dmin)
  | 0, _, some _, _, _ => Res.fuel
  | f + 1, g, some a0, amin, dmin =>
    if orphan_rcap g sink a0 ≠ 0 ∧ (g.nodes (g.arcs a0).head).is_sink = sink ∧
        (g.nodes (g.arcs a0).head).parent ≠ ArcPtr.null then
      (origin_check F g (g.arcs a0).head 0).bind fun r =>
        if r.2 < INFINITE_D then
          (set_marks F r.1 (g.arcs a0).head r.2).bind fun g2 =>
            if r.2 < dmin then find_parent F sink f g2 (g.arcs a0).next (some a0) r.2
            else find_parent F sink f g2 (g.arcs a0).next amin dmin
        else find_parent F sink f r.1 (g.arcs a0).next amin dmin
    else find_parent F sink f g (g.arcs a0).next amin dmin

/-- Body of the loop "process neighbors" for the arc `a0` out of `i`. -/
def neighbor_step (g : Graph) (sink : Bool) (i a0 : Nat) : Graph :=
  if (g.nodes (g.arcs a0).head).is_sink = sink ∧
      (g.nodes (g.arcs a0).head).parent ≠ ArcPtr.null then
    match (g.nodes (g.arcs a0).head).parent with
    | ArcPtr.arc p =>
      if (g.arcs p).head = i then
        set_orphan_rear
          (if orphan_rcap g sink a0 ≠ 0 then set_active g (g.arcs a0).head else g)
          (g.arcs a0).head
      else if orphan_rcap g sink a0 ≠ 0 then set_active g (g.arcs a0).head else g
    | ArcPtr.null => if orphan_rcap g sink a0 ≠ 0 then set_active g (g.arcs a0).head else g
    | ArcPtr.terminal => if orphan_rcap g sink a0 ≠ 0 then set_active g (g.arcs a0).head else g
    | ArcPtr.orphan => if orphan_rcap g sink a0 ≠ 0 then set_active g (g.arcs a0).head else g
  else g

/-- The loop "process neighbors" of both orphan procedures, run when no parent
was found for `i`. -/
def process_neighbors (sink : Bool) (i : Nat) : Nat → Graph → Option Nat → Res Graph
  | _, g, none => Res.ok g
  | 0, _, some _ => Res.fuel
  | f + 1, g, some a0 => process_neighbors sink i f (neighbor_step g sink i a0) (g.arcs a0).next

/-- The assignment `i->parent = a0_min` with the labels set when a parent was
found. -/
def adopt_parent (g : Graph) (i amin : Nat) (dmin : Int) : Graph :=
  ((g.setParent i (ArcPtr.arc amin)).setTS i g.TIME).setDIST i (dmin + 1)

/-- `Graph::process_source_orphan` (`sink = false`) and
`Graph::process_sink_orphan` (`sink = true`). -/
def process_orphan (F : Nat) (sink : Bool) (g : Graph) (i : Nat) : Res Graph :=
  (find_parent F sink F g (g.nodes i).first none INFINITE_D).bind fun r =>
    match r.2.1 with
    | some amin => Res.ok (adopt_parent r.1 i amin r.2.2)
    | none =>
      process_neighbors sink i F (add_to_changed_list (r.1.setParent i ArcPtr.null) i)
        (r.1.nodes i).first

/-- `Graph::process_source_orphan`. -/
def process_source_orphan (F : Nat) (g : Graph) (i : Nat) : Res Graph :=
  process_orphan F false g i

/-- `Graph::process_sink_orphan`. -/
def process_sink_orphan (F : Nat) (g : Graph) (i : Nat) : Res Graph :=
  process_orphan F true g i

/-- The loop `while ((np=orphan_first)) ...` that pops the first orphan and
processes it, until the orphan list is empty. -/
def drain_orphans (F : Nat) : Nat → Graph → Res Graph
  | 0, _ => Res.fuel
  | f + 1, g =>
    match g.orphans with
    | [] => Res.ok g
    | i :: rest =>
      (if (g.nodes i).is_sink = true then process_sink_orphan F (g.setOrphans rest) i
       else process_source_orphan F (g.setOrphans rest) i).bind fun g1 => drain_orphans F f g1

/-- The adoption stage of the main loop: the first cell is cut off the rest of
the list (`np_next`), the one-element list is drained, and the rest is resumed. -/
def adoption (F : Nat) : Nat → Graph → Res Graph
  | 0, _ => Res.fuel
  | f + 1, g =>
    match g.orphans with
    | [] => Res.ok g
    | i :: np_next =>
      (drain_orphans F F (g.setOrphans [i])).bind fun g1 => adoption F f (g1.setOrphans np_next)

/-! ## Growth (graph.cpp 640–694) -/

/-- The residual tested on arc `a` during growth from a node of the given
tree: `a->r_cap` for the source tree, `a->sister->r_cap` for the sink tree. -/
def grow_rcap (g : Graph) (sink : Bool) (a : Nat) : Int :=
  if sink = true then (g.arcs (g.arcs a).sister).r_cap else (g.arcs a).r_cap

/-- The labels written to `j` when it hangs below `i` through arc `a`:
`j->parent = a->sister`, `j->TS = i->TS`, `j->DIST = i->DIST + 1`. -/
def attach (g : Graph) (i j a : Nat) : Graph :=
  ((g.setParent j (ArcPtr.arc (g.arcs a).sister)).setTS j (g.nodes i).TS).setDIST j
    ((g.nodes i).DIST + 1)

/-- The branch `if (!j->parent)` of the growth scan: the free node `j` joins
the tree of `i`. -/
def grow_adopt (g : Graph) (sink : Bool) (i a : Nat) : Graph :=
  add_to_changed_list
    (set_active (attach (g.setSink (g.arcs a).head sink) i (g.arcs a).head a) (g.arcs a).head)
    (g.arcs a).head

/-- The growth scan from active node `i` (`sink = i->is_sink`).  The result is
the value of `a` after the loop: `none` when the list was exhausted, the
boundary arc oriented source to sink otherwise. -/
def grow (sink : Bool) (i : Nat) : Nat → Graph → Option Nat → Res (Graph × Option Nat)
  | _, g, none => Res.ok (g, none)
  | 0, _, some _ => Res.fuel
  | f + 1, g, some a =>
    if grow_rcap g sink a ≠ 0 then
      if (g.nodes (g.arcs a).head).parent = ArcPtr.null then
        grow sink i f (grow_adopt g sink i a) (g.arcs a).next
      else if (g.nodes (g.arcs a).head).is_sink ≠ sink then
        Res.ok (g, some (if sink = true then (g.arcs a).sister else a))
      else if (g.nodes (g.arcs a).head).TS ≤ (g.nodes i).TS ∧
          (g.nodes (g.arcs a).head).DIST > (g.nodes i).DIST then
        grow sink i f (attach g i (g.arcs a).head a) (g.arcs a).next
      else grow sink i f g (g.arcs a).next
    else grow sink i f g (g.arcs a).next

/-! ## Tree-reuse initialisation (graph.cpp 288–371) -/

/-- The residual tested in the neighbour loop of `maxflow_reuse_trees_init` for
a node moved to the tree `sink`: `a->r_cap` (source), `a->sister->r_cap`
(sink). -/
def reuse_rcap (g : Graph) (sink : Bool) (a : Nat) : Int :=
  if sink = true then (g.arcs (g.arcs a).sister).r_cap else (g.arcs a).r_cap

/-- The first test of the neighbour loop: `if (j->parent == a->sister)
set_orphan_rear(j)`. -/
def reuse_orphan_child (g : Graph) (a : Nat) : Graph :=
  if (g.nodes (g.arcs a).head).parent = ArcPtr.arc (g.arcs a).sister then
    set_orphan_rear g (g.arcs a).head
  else g

/-- Body of the neighbour loop of `maxflow_reuse_trees_init` for arc `a`. -/
def reuse_step (g : Graph) (sink : Bool) (a : Nat) : Graph :=
  if (g.nodes (g.arcs a).head).is_marked = false then
    if ((reuse_orphan_child g a).nodes (g.arcs a).head).parent ≠ ArcPtr.null ∧
        ((reuse_orphan_child g a).nodes (g.arcs a).head).is_sink ≠ sink ∧
        reuse_rcap (reuse_orphan_child g a) sink a > 0 then
      set_active (reuse_orphan_child g a) (g.arcs a).head
    else reuse_orphan_child g a
  else g

/-- The neighbour loop of `maxflow_reuse_trees_init` for a node that has just
been moved to the tree `sink`. -/
def reuse_neighbors (sink : Bool) : Nat → Graph → Option Nat → Res Graph
  | _, g, none => Res.ok g
  | 0, _, some _ => Res.fuel
  | f + 1, g, some a => reuse_neighbors sink f (reuse_step g sink a) (g.arcs a).next

/-- The statements that open an iteration of the queue loop of
`maxflow_reuse_trees_init`: `i->next = NULL; i->is_marked = 0; set_active(i)`. -/
def reuse_enter (g : Graph) (i : Nat) : Graph :=
  set_active ((g.setNext i none).setMarked i false) i

/-- The statements that close an iteration for a node with a terminal arc:
`i->parent = TERMINAL; i->TS = TIME; i->DIST = 1`. -/
def make_root (g : Graph) (i : Nat) : Graph :=
  ((g.setParent i ArcPtr.terminal).setTS i g.TIME).setDIST i 1

/-- The loop `while ((i=queue))` of `maxflow_reuse_trees_init`. -/
def reuse_queue (F : Nat) : Nat → Graph → Option Nat → Res Graph
  | _, g, none => Res.ok g
  | 0, _, some _ => Res.fuel
  | f + 1, g, some i =>
    if ((reuse_enter g i).nodes i).tr_cap = 0 then
      reuse_queue F f
        (if ((reuse_enter g i).nodes i).parent ≠ ArcPtr.null then
          set_orphan_rear (reuse_enter g i) i else reuse_enter g i)
        (if (g.nodes i).next = some i then none else (g.nodes i).next)
    else if ((reuse_enter g i).nodes i).parent = ArcPtr.null ∨
        ((reuse_enter g i).nodes i).is_sink ≠ decide (((reuse_enter g i).nodes i).tr_cap < 0) then
      (reuse_neighbors (decide (((reuse_enter g i).nodes i).tr_cap < 0)) F
        ((reuse_enter g i).setSink i (decide (((reuse_enter g i).nodes i).tr_cap < 0)))
        ((reuse_enter g i).nodes i).first).bind fun g3 =>
          reuse_queue F f (make_root (add_to_changed_list g3 i) i)
            (if (g.nodes i).next = some i then none else (g.nodes i).next)
    else
      reuse_queue F f (make_root (reuse_enter g i) i)
        (if (g.nodes i).next = some i then none else (g.nodes i).next)

/-- `Graph::maxflow_reuse_trees_init`. -/
def maxflow_reuse_trees_init (F : Nat) (g : Graph) : Res Graph :=
  (reuse_queue F F
    ((((g.setQueue0 none none).setQueue1 none none).setOrphans []).setTIME (g.TIME + 1))
    g.queue_first1).bind fun g2 => drain_orphans F F g2

/-! ## Main driver (graph.cpp 606–739) -/

/-- The statements at the top of the main loop that clear the active flag of
`current_node`. -/
def clear_current (g : Graph) (current_node : Option Nat) : Graph :=
  match current_node with
  | some c => g.setNext c none
  | none => g

/-- The node `i` in hand after the test `if (!i->parent) i = NULL`. -/
def keep_current (g : Graph) (current_node : Option Nat) : Option Nat :=
  match current_node with
  | some c => if ((clear_current g (some c)).nodes c).parent = ArcPtr.null then none else some c
  | none => none

/-- The selection of the node to grow from: `current_node` when it still has a
parent, `next_active()` otherwise. -/
def pick_active (F : Nat) (g : Graph) (current_node : Option Nat) : Res (Graph × Option Nat) :=
  match keep_current g current_node with
  | some i => Res.ok (clear_current g current_node, some i)
  | none => next_active F (clear_current g current_node)

/-- The `while (1)` main loop of `maxflow`, entered with `current_node`. -/
def main_loop (F : Nat) : Nat → Graph → Option Nat → Res Graph
  | 0, _, _ => Res.fuel
  | f + 1, g, current_node =>
    (pick_active F g current_node).bind fun p =>
      match p.2 with
      | none => Res.ok p.1
      | some i =>
        (grow (p.1.nodes i).is_sink i F p.1 (p.1.nodes i).first).bind fun r =>
          match r.2 with
          | some m =>
            (augment F ((r.1.setTIME (r.1.TIME + 1)).setNext i (some i)) m).bind fun g5 =>
              (adoption F F g5).bind fun g6 => main_loop F f g6 (some i)
          | none => main_loop F f (r.1.setTIME (r.1.TIME + 1)) none

/-- What a call of `maxflow` does: it returns the flow, leaving a state; it
ends the process through `exit(1)` after a contract violation (`reported` is
the message handed to the error callback, when there is one); or the model
gives up (budget exhausted, sentinel dereferenced). -/
inductive Outcome where
  | returned (g : Graph) (flow : Int) : Outcome
  | exit (g : Graph) (reported : Option String) : Outcome
  | fuel : Outcome
  | fault : Outcome

/-- The initialisation chosen by `maxflow` followed by the main loop. -/
def solve (F : Nat) (g : Graph) (reuse_trees : Bool) : Res Graph :=
  (if reuse_trees = true then maxflow_reuse_trees_init F g else Res.ok (maxflow_init g)).bind
    fun g1 => main_loop F F g1 none

/-- `Graph::maxflow(reuse_trees, _changed_list)`; `F` bounds the number of
iterations of every loop. -/
def maxflow (F : Nat) (g : Graph) (reuse_trees : Bool) (changed : Option (List Nat)) : Outcome :=
  if (g.setChanged changed).maxflow_iteration = 0 ∧ reuse_trees = true then
    Outcome.exit (g.setChanged changed)
      (if g.error_function = true then
        some "reuse_trees cannot be used in the first call to maxflow()!" else none)
  else if (g.setChanged changed).changed_list.isSome = true ∧ reuse_trees = false then
    Outcome.exit (g.setChanged changed)
      (if g.error_function = true then
        some "changed_list cannot be used without reuse_trees!" else none)
  else
    match solve F (g.setChanged changed) reuse_trees with
    | Res.ok g2 => Outcome.returned (g2.setIteration (g2.maxflow_iteration + 1)) g2.flow
    | Res.fuel => Outcome.fuel
    | Res.fault => Outcome.fault

/-! ## Collaborators declared in `graph.h` -/

/-- Modelled from the spec: `new(...)` of `graph.h` "constructs an empty graph"
(no nodes, no arcs, `flow = 0`, `maxflow_iteration = 0`). -/
def Graph.empty : Graph := {}

/-- Modelled from the spec: `add_node(k)` of `graph.h`, "append k nodes with zero
terminal capacity, zero flags, null links". -/
def add_node (g : Graph) (k : Nat) : Graph :=
  { g with node_num := g.node_num + k,
           nodes := fun i => if g.node_num ≤ i ∧ i < g.node_num + k then {} else g.nodes i }

/-- Modelled from the spec: `add_tweights(i, src_cap, snk_cap)` of `graph.h`, "the
stored tr_cap is updated by src_cap − snk_cap (additive), and accumulated flow
is advanced by min(src_cap, snk_cap)". -/
def add_tweights (g : Graph) (i : Nat) (src_cap snk_cap : Int) : Graph :=
  (g.setTrCap i ((g.nodes i).tr_cap + (src_cap - snk_cap))).setFlow (g.flow + min src_cap snk_cap)

/-- Modelled from the spec: `add_edge(i, j, cap, rev_cap)` of `graph.h`, "append
paired arcs with the given residual capacities; they become part of i.first
and j.first lists".  The pair takes the next two arena slots and each arc is
linked in at the head of its owner's list. -/
def add_edge (g : Graph) (i j : Nat) (cap rev_cap : Int) : Graph :=
  let a := g.arc_num
  let a_rev := g.arc_num + 1
  let arc_a : Arc := { head := j, next := (g.nodes i).first, sister := a_rev, r_cap := cap }
  let g1 : Graph :=
    { g with arc_num := g.arc_num + 2, arcs := upd g.arcs a arc_a,
             nodes := upd g.nodes i { g.nodes i with first := some a } }
  let arc_rev : Arc := { head := i, next := (g1.nodes j).first, sister := a, r_cap := rev_cap }
  { g1 with arcs := upd g1.arcs a_rev arc_rev,
            nodes := upd g1.nodes j { g1.nodes j with first := some a_rev } }

/-- Modelled from the spec: `mark_node(i)` of `graph.h`, "places i in queue 1 so
the next reuse-init will re-examine it", and sets `is_marked`. -/
def mark_node (g : Graph) (i : Nat) : Graph :=
  (set_active g i).setMarked i true

/-- Modelled from the spec: `set_rcap(a, v)` of `graph.h`, which overwrites the
residual of arc `a`. -/
def set_rcap (g : Graph) (a : Nat) (v : Int) : Graph :=
  g.setRCap a v

/-- Modelled from the spec: `set_trcap(i, v)` of `graph.h`, which overwrites the
terminal residual of node `i`. -/
def set_trcap (g : Graph) (i : Nat) (v : Int) : Graph :=
  g.setTrCap i v

/-- The two answers of `what_segment`. -/
inductive termtype where
  | SOURCE : termtype
  | SINK : termtype
deriving DecidableEq

/-- Modelled from the spec: `what_segment(i)` of `graph.h`, "SOURCE if
`i.parent != null && !i.is_sink`, else SINK". -/
def what_segment (g : Graph) (i : Nat) : termtype :=
  if (g.nodes i).parent ≠ ArcPtr.null ∧ (g.nodes i).is_sink = false then termtype.SOURCE
  else termtype.SINK

end Maxflow

namespace Maxflow

/-! ## Observations on the result of a call -/

/-- The flow returned by a call of `maxflow`, when it returns. -/
def Outcome.flow? : Outcome → Option Int
  | Outcome.returned _ fl => some fl
  | Outcome.exit _ _ => none
  | Outcome.fuel => none
  | Outcome.fault => none

/-- The state left by a call of `maxflow`, when it returns. -/
def Outcome.state? : Outcome → Option Graph
  | Outcome.returned g _ => some g
  | Outcome.exit _ _ => none
  | Outcome.fuel => none
  | Outcome.fault => none

/-- The call ended the process after a contract violation. -/
def Outcome.isExit : Outcome → Bool
  | Outcome.returned _ _ => false
  | Outcome.exit _ _ => true
  | Outcome.fuel => false
  | Outcome.fault => false

/-! ## The scenarios of the specification -/

/-- Scenario 1: nodes 0 and 1, `add_tweights(0, 5, 0)`, `add_tweights(1, 0, 3)`,
`add_edge(0, 1, 4, 0)`. -/
def scenario1 : Graph :=
  add_edge (add_tweights (add_tweights (add_node Graph.empty 2) 0 5 0) 1 0 3) 0 1 4 0

/-- The state left by the cold solve of scenario 1 (scenario 1 itself if the
call does not return). -/
def scenario1_solved : Graph :=
  ((maxflow 6 scenario1 false none).state?).getD scenario1

/-- Scenario 4: the solved scenario 1, `set_rcap` of the arc 0→1 (arc 0) to 1,
then `mark_node(0); mark_node(1)`. -/
def scenario4 : Graph :=
  mark_node (mark_node (set_rcap scenario1_solved 0 1) 0) 1

/-- Scenario 6 (diamond): nodes 0..3, terminals `(0,+10,0)` and `(3,0,+10)`, edges
0→1 (7), 0→2 (5), 1→3 (3), 2→3 (6), 1→2 (2). -/
def diamond : Graph :=
  add_edge (add_edge (add_edge (add_edge (add_edge
    (add_tweights (add_tweights (add_node Graph.empty 4) 0 10 0) 3 0 10)
    0 1 7 0) 0 2 5 0) 1 3 3 0) 2 3 6 0) 1 2 2 0

/-- A state for a tree-reuse solve with a changed list: scenario 1 after one
(notional) earlier solve, with nodes 0 and 1 marked. -/
def reuse_demo : Graph :=
  mark_node (mark_node (scenario1.setIteration 1) 0) 1

/-- The state left by the tree-reuse solve of `reuse_demo` with an empty changed
list. -/
def reuse_demo_solved : Graph :=
  ((maxflow 5 reuse_demo true (some [])).state?).getD reuse_demo

/-! ## Relations between states -/

/-- Two states that agree on everything except the `TS` and `DIST` labels of
their nodes. -/
structure LabelEq (g g' : Graph) : Prop where
  node_num : g'.node_num = g.node_num
  arc_num : g'.arc_num = g.arc_num
  arcs : g'.arcs = g.arcs
  queue_first0 : g'.queue_first0 = g.queue_first0
  queue_last0 : g'.queue_last0 = g.queue_last0
  queue_first1 : g'.queue_first1 = g.queue_first1
  queue_last1 : g'.queue_last1 = g.queue_last1
  orphans : g'.orphans = g.orphans
  TIME : g'.TIME = g.TIME
  flow : g'.flow = g.flow
  maxflow_iteration : g'.maxflow_iteration = g.maxflow_iteration
  changed_list : g'.changed_list = g.changed_list
  error_function : g'.error_function = g.error_function
  first : ∀ i, (g'.nodes i).first = (g.nodes i).first
  next : ∀ i, (g'.nodes i).next = (g.nodes i).next
  parent : ∀ i, (g'.nodes i).parent = (g.nodes i).parent
  is_sink : ∀ i, (g'.nodes i).is_sink = (g.nodes i).is_sink
  tr_cap : ∀ i, (g'.nodes i).tr_cap = (g.nodes i).tr_cap
  is_marked : ∀ i, (g'.nodes i).is_marked = (g.nodes i).is_marked
  is_in_changed_list : ∀ i, (g'.nodes i).is_in_changed_list = (g.nodes i).is_in_changed_list

/-! ## Well-formed graphs -/

/-- The node an arc leaves: `a->sister->head`. -/
def Graph.tail (g : Graph) (a : Nat) : Nat := (g.arcs (g.arcs a).sister).head

/-- The arcs met from pointer `p` by following `next`, at most `f` of them. -/
def arc_list (arcs : Nat → Arc) : Nat → Option Nat → List Nat
  | _, none => []
  | 0, some _ => []
  | f + 1, some a => a :: arc_list arcs f (arcs a).next

/-- The arc list of node `i`: `i->first`, then `next` links (an arena of
`arc_num` arcs has no longer list). -/
def arcs_of (g : Graph) (i : Nat) : List Nat :=
  arc_list g.arcs g.arc_num (g.nodes i).first

/-- The list `l` is the whole chain of `next` links from pointer `p` to `NULL`. -/
def IsArcList (arcs : Nat → Arc) : Option Nat → List Nat → Prop
  | p, [] => p = none
  | p, a :: l => p = some a ∧ IsArcList arcs (arcs a).next l

/-- `IsArcList` can be checked by running down the list. -/
instance decIsArcList (arcs : Nat → Arc) :
    (p : Option Nat) → (l : List Nat) → Decidable (IsArcList arcs p l)
  | p, [] => inferInstanceAs (Decidable (p = none))
  | p, a :: l =>
    @instDecidableAnd (p = some a) (IsArcList arcs (arcs a).next l) inferInstance
      (decIsArcList arcs (arcs a).next l)

/-- Well-formed graphs: finite arc lists that hold exactly the arcs leaving
their node, involutive sister links, and in-range indices. -/
structure WellFormed (g : Graph) : Prop where
  lists : ∀ i < g.node_num, IsArcList g.arcs (g.nodes i).first (arcs_of g i)
  owner : ∀ i < g.node_num, ∀ a ∈ arcs_of g i, a < g.arc_num ∧ g.tail a = i
  sister : ∀ a < g.arc_num, (g.arcs a).sister < g.arc_num ∧
    (g.arcs (g.arcs a).sister).sister = a
  head : ∀ a < g.arc_num, (g.arcs a).head < g.node_num
  listed : ∀ a < g.arc_num, a ∈ arcs_of g (g.tail a)

/-- The static part of two states agrees: arena sizes, arc lists, heads and
sister links. -/
structure SameShape (g g' : Graph) : Prop where
  node_num : g'.node_num = g.node_num
  arc_num : g'.arc_num = g.arc_num
  head : ∀ a, (g'.arcs a).head = (g.arcs a).head
  next : ∀ a, (g'.arcs a).next = (g.arcs a).next
  sister : ∀ a, (g'.arcs a).sister = (g.arcs a).sister
  first : ∀ i, (g'.nodes i).first = (g.nodes i).first

/-! ## Footprints -/

/-- The mutable parts of the state. -/
inductive Field where
  | next : Field
  | parent : Field
  | is_sink : Field
  | TS : Field
  | DIST : Field
  | tr_cap : Field
  | is_marked : Field
  | in_changed : Field
  | r_cap : Field
  | queue0 : Field
  | queue1 : Field
  | orphans : Field
  | TIME : Field
  | flow : Field
  | iteration : Field
  | changed : Field
deriving DecidableEq

/-- One elementary write, tagged with the part of the state it writes. -/
inductive Write : Field → Graph → Graph → Prop where
  | setNext (g : Graph) (i : Nat) (v : Option Nat) : Write Field.next g (g.setNext i v)
  | setParent (g : Graph) (i : Nat) (v : ArcPtr) : Write Field.parent g (g.setParent i v)
  | setSink (g : Graph) (i : Nat) (v : Bool) : Write Field.is_sink g (g.setSink i v)
  | setTS (g : Graph) (i : Nat) (v : Int) : Write Field.TS g (g.setTS i v)
  | setDIST (g : Graph) (i : Nat) (v : Int) : Write Field.DIST g (g.setDIST i v)
  | setTrCap (g : Graph) (i : Nat) (v : Int) : Write Field.tr_cap g (g.setTrCap i v)
  | setMarked (g : Graph) (i : Nat) (v : Bool) : Write Field.is_marked g (g.setMarked i v)
  | setInChanged (g : Graph) (i : Nat) (v : Bool) :
      Write Field.in_changed g (g.setInChanged i v)
  | setRCap (g : Graph) (a : Nat) (v : Int) : Write Field.r_cap g (g.setRCap a v)
  | setQueue0 (g : Graph) (a b : Option Nat) : Write Field.queue0 g (g.setQueue0 a b)
  | setFirst0 (g : Graph) (a : Option Nat) : Write Field.queue0 g (g.setFirst0 a)
  | setQueue1 (g : Graph) (a b : Option Nat) : Write Field.queue1 g (g.setQueue1 a b)
  | setLast1 (g : Graph) (a : Option Nat) : Write Field.queue1 g (g.setLast1 a)
  | setOrphans (g : Graph) (l : List Nat) : Write Field.orphans g (g.setOrphans l)
  | setTIME (g : Graph) (t : Int) : Write Field.TIME g (g.setTIME t)
  | setFlow (g : Graph) (v : Int) : Write Field.flow g (g.setFlow v)
  | setIteration (g : Graph) (k : Nat) : Write Field.iteration g (g.setIteration k)
  | setChanged (g : Graph) (l : Option (List Nat)) : Write Field.changed g (g.setChanged l)

/-- `g'` comes from `g` by a sequence of elementary writes to the parts listed
in `K`. -/
inductive Writes (K : List Field) : Graph → Graph → Prop where
  | refl (g : Graph) : Writes K g g
  | step {g g1 g2 : Graph} {k : Field} : k ∈ K → Write k g g1 → Writes K g1 g2 → Writes K g g2

/-- The parts of the state written by the growth scan. -/
def growFields : List Field :=
  [Field.is_sink, Field.parent, Field.TS, Field.DIST, Field.next, Field.queue1, Field.changed,
    Field.in_changed]

/-- The parts of the state written by `next_active`. -/
def activeFields : List Field := [Field.next, Field.queue0, Field.queue1]

/-- The parts of the state written by `augment`. -/
def augmentFields : List Field :=
  [Field.r_cap, Field.tr_cap, Field.parent, Field.orphans, Field.flow]

/-- The parts of the state written by the adoption of orphans. -/
def adoptFields : List Field :=
  [Field.TS, Field.DIST, Field.parent, Field.changed, Field.in_changed, Field.next, Field.queue1,
    Field.orphans]

/-- The parts of the state written by the tree-reuse initialisation. -/
def reuseFields : List Field :=
  [Field.TS, Field.DIST, Field.parent, Field.changed, Field.in_changed, Field.next, Field.queue1,
    Field.orphans, Field.queue0, Field.TIME, Field.is_marked, Field.is_sink]

/-- The parts of the state written by the cold initialisation. -/
def initFields : List Field :=
  [Field.TS, Field.DIST, Field.parent, Field.in_changed, Field.next, Field.queue1,
    Field.orphans, Field.queue0, Field.TIME, Field.is_marked, Field.is_sink]

/-- The parts of the state written by the main loop. -/
def loopFields : List Field :=
  [Field.is_sink, Field.parent, Field.TS, Field.DIST, Field.next, Field.queue0, Field.queue1,
    Field.changed, Field.in_changed, Field.r_cap, Field.tr_cap, Field.orphans, Field.flow,
    Field.TIME]

/-- The parts of the state written by a solve. -/
def solveFields : List Field :=
  [Field.is_sink, Field.parent, Field.TS, Field.DIST, Field.next, Field.queue0, Field.queue1,
    Field.changed, Field.in_changed, Field.r_cap, Field.tr_cap, Field.orphans, Field.flow,
    Field.TIME, Field.is_marked]

/-! ## Tree membership and the changed list -/

/-- The segment a node is assigned to: free (`parent == NULL`), source tree or
sink tree. -/
inductive Segment where
  | free : Segment
  | source : Segment
  | sink : Segment
deriving DecidableEq

/-- The segment assignment of node `i` in state `g`. -/
def segment (g : Graph) (i : Nat) : Segment :=
  if (g.nodes i).parent = ArcPtr.null then Segment.free
  else if (g.nodes i).is_sink = true then Segment.sink else Segment.source

/-- Node `i` is recorded in the changed list or has a parent. -/
def Tracked (g : Graph) (i : Nat) : Prop :=
  (g.nodes i).is_in_changed_list = true ∨ (g.nodes i).parent ≠ ArcPtr.null

/-- How the changed list of `g'` extends the one of `g`: indices are only
appended, each appended index belongs to a node newly flagged, and a node
whose segment differs is flagged. -/
structure ChangeLog (g g' : Graph) : Prop where
  ext : ∃ l added, g.changed_list = some l ∧ g'.changed_list = some (l ++ added) ∧
    added.Nodup ∧ ∀ i, i ∈ added ↔
      ((g'.nodes i).is_in_changed_list = true ∧ (g.nodes i).is_in_changed_list = false)
  mono : ∀ i, (g.nodes i).is_in_changed_list = true → (g'.nodes i).is_in_changed_list = true
  seg : ∀ i, (g'.nodes i).is_in_changed_list = true ∨ segment g' i = segment g i
  keep : ∀ i, Tracked g i → Tracked g' i

/-- The invariant of a solve with respect to its entry state `g0`: the changed
list extends the one at entry as `ChangeLog` says, and every pending orphan is
tracked. -/
def CLInv (g0 g : Graph) : Prop :=
  ChangeLog g0 g ∧ ∀ i ∈ g.orphans, Tracked g i

end Maxflow

namespace Maxflow

/-! ## The invariants of the solver -/

/-- The nodes of `q`, in order, are chained by `next` from `first` to `last`, the
last one pointing at itself. -/
def IsQueue (nodes : Nat → Node) : Option Nat → Option Nat → List Nat → Prop
  | first, last, [] => first = none ∧ last = none
  | first, last, [x] => first = some x ∧ last = some x ∧ (nodes x).next = some x
  | first, last, x :: y :: r =>
    first = some x ∧ (nodes x).next = some y ∧ IsQueue nodes (some y) last (y :: r)

/-- Active-queue soundness: the two queues hold the lists `q0` and `q1` without
repetition, and a node with a non-null `next` is in one of them or is the
current node, which is in neither. -/
structure QueueInv (g : Graph) (cur : Option Nat) (q0 q1 : List Nat) : Prop where
  queue0 : IsQueue g.nodes g.queue_first0 g.queue_last0 q0
  queue1 : IsQueue g.nodes g.queue_first1 g.queue_last1 q1
  nodup : (q0 ++ q1).Nodup
  complete : ∀ i < g.node_num, (g.nodes i).next ≠ none → i ∈ q0 ∨ i ∈ q1 ∨ cur = some i
  current : ∀ c, cur = some c → c ∉ q0 ∧ c ∉ q1
  bound : ∀ i, i ∈ q0 ∨ i ∈ q1 → i < g.node_num

/-- Node `j` belongs to the tree `sink`: it has a parent and its `is_sink` is
`sink`. -/
def InTree (g : Graph) (sink : Bool) (j : Nat) : Prop :=
  (g.nodes j).parent ≠ ArcPtr.null ∧ (g.nodes j).is_sink = sink

/-- The passive-frontier property at node `x`: if `x` is a tree node outside
the active queue, every arc out of it with positive residual (in the direction
of its tree) leads to a node of the same tree; while the neighbours of a node
`freed` that has just left that tree are being re-activated, the arc may lead
to `freed`. -/
def PFnode (g : Graph) (freed : Option Nat) (x : Nat) : Prop :=
  (g.nodes x).next = none → (g.nodes x).parent ≠ ArcPtr.null →
    ∀ a ∈ arcs_of g x, 0 < grow_rcap g (g.nodes x).is_sink a →
      InTree g (g.nodes x).is_sink (g.arcs a).head ∨
        (freed = some (g.arcs a).head ∧
          (g.nodes (g.arcs a).head).is_sink = (g.nodes x).is_sink)

/-- The passive-frontier property at every node but `skip`. -/
def PassiveFrontier (g : Graph) (skip freed : Option Nat) : Prop :=
  ∀ x < g.node_num, skip ≠ some x → PFnode g freed x

/-- Tree consistency: a parent arc leaves its node and leads to a node of the
same tree; while the children of a node `e` that has just been freed are being
orphaned, the head of a parent arc may be `e`. -/
def TreeInv (g : Graph) (e : Option Nat) : Prop :=
  ∀ i < g.node_num, ∀ a, (g.nodes i).parent = ArcPtr.arc a →
    a < g.arc_num ∧ g.tail a = i ∧ (g.nodes (g.arcs a).head).is_sink = (g.nodes i).is_sink ∧
      ((g.nodes (g.arcs a).head).parent ≠ ArcPtr.null ∨ e = some (g.arcs a).head)

/-- The pending orphans (those of the list and those set aside in `pend`) are
distinct nodes whose parent is `ORPHAN`. -/
structure OrphanInv (g : Graph) (pend : List Nat) : Prop where
  nodup : (g.orphans ++ pend).Nodup
  parent : ∀ x, x ∈ g.orphans ∨ x ∈ pend → (g.nodes x).parent = ArcPtr.orphan
  bound : ∀ x, x ∈ g.orphans ∨ x ∈ pend → x < g.node_num

/-- The invariants of the solve: a well-formed graph, sound queues around the
current node `cur`, the passive-frontier property (but at `skip`, up to arcs
into `freed`), tree consistency (up to children of `freed`) and sound pending
orphans. -/
structure Inv (g : Graph) (cur skip freed : Option Nat) (pend : List Nat) : Prop where
  wf : WellFormed g
  queue : ∃ q0 q1, QueueInv g cur q0 q1
  frontier : PassiveFrontier g skip freed
  tree : TreeInv g freed
  orphans : OrphanInv g pend

end Maxflow

namespace Maxflow

/-- The invariant of the growth scan from node `i` of the tree `sink`: `i` has
been taken out of the queues, has a parent, and the passive-frontier property
holds at every other node. -/
structure GrowInv (g : Graph) (i : Nat) (sink : Bool) : Prop where
  inv : Inv g (some i) (some i) none []
  next : (g.nodes i).next = none
  parent : (g.nodes i).parent ≠ ArcPtr.null
  is_sink : (g.nodes i).is_sink = sink
  bound : i < g.node_num
  orphans : g.orphans = []

/-- A boundary arc: an arc of the arena from a node of the source tree to a node
of the sink tree. -/
structure Boundary (g : Graph) (m : Nat) : Prop where
  bound : m < g.arc_num
  tail : InTree g false (g.tail m)
  head : InTree g true (g.arcs m).head

end Maxflow

namespace Maxflow

/-- The invariant of the main loop at the top of an iteration entered with
`current_node = c`: a resting state (no orphan pending, the passive-frontier
property everywhere) in which `c`, when there is one, carries the active flag. -/
def LoopInv (g : Graph) (c : Option Nat) : Prop :=
  Inv g c none none [] ∧ g.orphans = [] ∧
    ∀ i, c = some i → (g.nodes i).next ≠ none ∧ i < g.node_num

/-- The parent walk from node `i`: the parent arcs of `l`, followed in order,
lead to the root `r`, whose parent is `TERMINAL`. -/
def IsPath (g : Graph) : Nat → List Nat → Nat → Prop
  | i, [], r => (g.nodes i).parent = ArcPtr.terminal ∧ r = i
  | i, a :: l, r => (g.nodes i).parent = ArcPtr.arc a ∧ IsPath g (g.arcs a).head l r

/-- The nodes of the parent walk from `i` along the arcs `l`. -/
def pathNodes (g : Graph) (i : Nat) (l : List Nat) : List Nat :=
  i :: l.map fun a => (g.arcs a).head

/-- Residual invariants: arc residuals are non-negative, and a root of the
source tree has positive terminal residual, a root of the sink tree negative. -/
structure Resid (g : Graph) : Prop where
  nonneg : ∀ a < g.arc_num, 0 ≤ (g.arcs a).r_cap
  source : ∀ x < g.node_num, (g.nodes x).parent = ArcPtr.terminal →
    (g.nodes x).is_sink = false → 0 < (g.nodes x).tr_cap
  sink : ∀ x < g.node_num, (g.nodes x).parent = ArcPtr.terminal →
    (g.nodes x).is_sink = true → (g.nodes x).tr_cap < 0

/-- Terminal invariants: a node with positive terminal residual is a root of
the source tree, one with negative terminal residual a root of the sink tree. -/
structure Terminals (g : Graph) : Prop where
  pos : ∀ x < g.node_num, 0 < (g.nodes x).tr_cap →
    (g.nodes x).parent = ArcPtr.terminal ∧ (g.nodes x).is_sink = false
  neg : ∀ x < g.node_num, (g.nodes x).tr_cap < 0 →
    (g.nodes x).parent = ArcPtr.terminal ∧ (g.nodes x).is_sink = true

/-- Membership in the source side of the cut read off a state: the nodes with
a parent and `is_sink` false. -/
def inSource (g : Graph) (i : Nat) : Bool :=
  decide ((g.nodes i).parent ≠ ArcPtr.null) && !(g.nodes i).is_sink

/-- The indicator of a node set, as an integer. -/
def ind (S : Nat → Bool) (i : Nat) : Int := if S i = true then 1 else 0

/-- The residual capacity of the arcs that leave the node set `S`. -/
def arcCut (g : Graph) (S : Nat → Bool) : Int :=
  ∑ a ∈ Finset.range g.arc_num,
    if S (g.tail a) = true ∧ S (g.arcs a).head = false then (g.arcs a).r_cap else 0

/-- The terminal capacity of the cut `S`: `max(tr_cap, 0)` over the nodes
outside `S` plus `max(-tr_cap, 0)` over the nodes of `S`. -/
def termCut (g : Graph) (S : Nat → Bool) : Int :=
  ∑ x ∈ Finset.range g.node_num,
    if S x = true then max (- (g.nodes x).tr_cap) 0 else max (g.nodes x).tr_cap 0

/-- The capacity of the cut `S` in the residuals of `g`. -/
def cutCap (g : Graph) (S : Nat → Bool) : Int := arcCut g S + termCut g S

/-- The invariants kept by every step of `augment`: the structural invariants
of the solve, with the orphans made so far in the list, and the residual
invariants. -/
structure AugInv (g : Graph) (c : Option Nat) : Prop where
  inv : Inv g c none none []
  resid : Resid g

/-- What a step of `augment` may do to a state: it writes residuals, terminal
residuals, parents, the orphan list and the flow, and a parent is only ever
replaced by `ORPHAN`. -/
structure AugRel (g g' : Graph) : Prop where
  writes : Writes augmentFields g g'
  parent : ∀ x, (g'.nodes x).parent = (g.nodes x).parent ∨
    ((g.nodes x).parent ≠ ArcPtr.null ∧ (g.nodes x).parent ≠ ArcPtr.orphan ∧
      (g'.nodes x).parent = ArcPtr.orphan)

/-- The side `s` of the forest is untouched between `g` and `g'`: the nodes
with `is_sink = s` keep parent and terminal residual, the arcs between two such
nodes keep their residual. -/
structure SideFrame (s : Bool) (g g' : Graph) : Prop where
  parent : ∀ x, (g.nodes x).is_sink = s → (g'.nodes x).parent = (g.nodes x).parent
  tr_cap : ∀ x, (g.nodes x).is_sink = s → (g'.nodes x).tr_cap = (g.nodes x).tr_cap
  r_cap : ∀ e, (g.nodes (g.tail e)).is_sink = s → (g.nodes (g.arcs e).head).is_sink = s →
    (g'.arcs e).r_cap = (g.arcs e).r_cap

/-- A change of the residual of arc `e` cannot break the passive-frontier
property: both ends of `e` are in the same tree, or neither end is a passive
node that looks at `e`. -/
def PushSafe (g : Graph) (e : Nat) : Prop :=
  (InTree g (g.nodes (g.tail e)).is_sink (g.arcs e).head ∧
      InTree g (g.nodes (g.arcs e).head).is_sink (g.tail e)) ∨
    (((g.nodes (g.tail e)).next ≠ none ∨ (g.nodes (g.tail e)).is_sink = true) ∧
      ((g.nodes (g.arcs e).head).next ≠ none ∨ (g.nodes (g.arcs e).head).is_sink = false))

/-- The invariants kept by every step of the adoption stage, with the orphans
set aside in `pend`: the structural invariants, the residual invariants, and
the active flag of the current node. -/
structure AdInv (g : Graph) (c : Option Nat) (pend : List Nat) : Prop where
  inv : Inv g c none none pend
  resid : Resid g
  cur : ∀ i, c = some i → (g.nodes i).next ≠ none ∧ i < g.node_num

/-- What a step outside `augment` may do to a state, besides what its footprint
`K` says: the roots (nodes whose parent is `TERMINAL`) stay the same. -/
structure StepRel (K : List Field) (g g' : Graph) : Prop where
  writes : Writes K g g'
  roots : ∀ x, (g'.nodes x).parent = ArcPtr.terminal ↔ (g.nodes x).parent = ArcPtr.terminal

/-- Label invariants: a root has `DIST = 1`, a node with a parent `DIST ≥ 1`. -/
structure Labels (g : Graph) : Prop where
  root : ∀ x < g.node_num, (g.nodes x).parent = ArcPtr.terminal → (g.nodes x).DIST = 1
  tree : ∀ x < g.node_num, (g.nodes x).parent ≠ ArcPtr.null → 1 ≤ (g.nodes x).DIST

end Maxflow

namespace Maxflow

/-- What a step of the loop over the neighbours of a freed node may do: it
writes within the footprint of the adoption stage, never clears an active
flag, and changes a parent only from an arc to `ORPHAN`. -/
structure NbRel (g g' : Graph) : Prop where
  writes : Writes adoptFields g g'
  next : ∀ x, (g.nodes x).next ≠ none → (g'.nodes x).next ≠ none
  parent : ∀ x, (g'.nodes x).parent = (g.nodes x).parent ∨
    ∃ p, (g.nodes x).parent = ArcPtr.arc p ∧ (g'.nodes x).parent = ArcPtr.orphan

/-- The state `g` seen as an arena of `k` nodes only. -/
def Graph.trunc (g : Graph) (k : Nat) : Graph := { g with node_num := k }

/-- The invariant of the `for` loop of `maxflow_init` after `k` nodes: the
queues are sound over the nodes done; a node done is a root of the source tree
if its terminal residual is positive, a root of the sink tree if it is
negative, free otherwise, and a root is active and has `DIST = 1`. -/
structure InitInv (g : Graph) (k : Nat) : Prop where
  queue : ∃ q1, QueueInv (g.trunc k) none [] q1
  kind : ∀ x < k, (g.nodes x).parent = ArcPtr.terminal ∨ (g.nodes x).parent = ArcPtr.null
  pos : ∀ x < k, 0 < (g.nodes x).tr_cap →
    (g.nodes x).parent = ArcPtr.terminal ∧ (g.nodes x).is_sink = false
  neg : ∀ x < k, (g.nodes x).tr_cap < 0 →
    (g.nodes x).parent = ArcPtr.terminal ∧ (g.nodes x).is_sink = true
  zero : ∀ x < k, (g.nodes x).tr_cap = 0 → (g.nodes x).parent = ArcPtr.null
  root : ∀ x < k, (g.nodes x).parent ≠ ArcPtr.null →
    (g.nodes x).next ≠ none ∧ (g.nodes x).DIST = 1
  orphans : g.orphans = []

end Maxflow

namespace Maxflow

/-- The value of a computation of the model, or `d` when it did not return. -/
def Res.getD {α : Type} (x : Res α) (d : α) : α :=
  match x with
  | Res.ok v => v
  | Res.fuel => d
  | Res.fault => d

/-- Scenario 1 at the call of `augment` of its cold solve: node 0 has been taken
from the queue, the growth scan from it has stopped at the arc 0→1 (arc 0),
`TIME` has been incremented and node 0 is the current node. -/
def scenario1_grown : Graph :=
  ((pop_active (refill (maxflow_init scenario1)) 0).setTIME 1).setNext 0 (some 0)

/-- Scenario 1 after that augmentation, with the orphan it makes (node 1) taken
off the orphan list, as at the call of `process_sink_orphan`. -/
def scenario1_orphan : Graph :=
  ((augment 2 scenario1_grown 0).getD scenario1_grown).setOrphans []

/-- The bottleneck as the specification states it: the minimum of `m.r_cap`,
`a.sister.r_cap` for every parent arc `a` of the source-side path `ls`, `tr_cap`
of the source root `rs`, `a.r_cap` for every parent arc `a` of the sink-side
path `lt`, and `-tr_cap` of the sink root `rt`. -/
def bottleneck_value (g : Graph) (m : Nat) (ls : List Nat) (rs : Nat) (lt : List Nat)
    (rt : Nat) : Int :=
  (((ls.map fun a => (g.arcs (g.arcs a).sister).r_cap) ++ [(g.nodes rs).tr_cap]) ++
    ((lt.map fun a => (g.arcs a).r_cap) ++ [- (g.nodes rt).tr_cap])).foldl min (g.arcs m).r_cap

/-- The effect of a run of pushes of `b`: each arc gains `b` for every
occurrence in `up` and loses `b` for every occurrence in `down`; the terminal
residual of the root `r` changes by `d`; the nodes of `new` are made orphans at
the front of the orphan list; `flow` and everything else `augment` does not
write stay. -/
structure WalkEffect (g g' : Graph) (b : Int) (up down new : List Nat) (r : Nat) (d : Int) :
    Prop where
  writes : Writes augmentFields g g'
  flow : g'.flow = g.flow
  r_cap : ∀ e, (g'.arcs e).r_cap =
    (g.arcs e).r_cap + b * ((up.count e : Int) - (down.count e : Int))
  tr_cap : ∀ x, (g'.nodes x).tr_cap =
    if x = r then (g.nodes x).tr_cap + d else (g.nodes x).tr_cap
  orphans : g'.orphans = new ++ g.orphans
  parent : ∀ x, (g'.nodes x).parent = if x ∈ new then ArcPtr.orphan else (g.nodes x).parent

end Maxflow

namespace Maxflow

/-- The diamond at the first call of `augment` of its cold solve: node 0 has
been grown (nodes 1 and 2 joined the source tree), node 3 has been taken from
the queue, its growth scan has stopped at the arc 2→3 (arc 6), `TIME` has been
incremented and node 3 is the current node. -/
def diamond_grown : Graph :=
  let p1 := ((pick_active 4 (maxflow_init diamond) none).getD (diamond, none)).1
  let r1 := ((grow false 0 4 p1 (p1.nodes 0).first).getD (p1, none)).1
  let p2 := ((pick_active 4 (r1.setTIME (r1.TIME + 1)) none).getD (r1, none)).1
  let r2 := ((grow true 3 4 p2 (p2.nodes 3).first).getD (p2, none)).1
  (r2.setTIME (r2.TIME + 1)).setNext 3 (some 3)

end Maxflow

namespace Maxflow

/-- The states at the top of an iteration of the `while (1)` loop of `maxflow`,
with the value of `current_node` there, when the loop is entered in the state
`g0` with `current_node = c0`: the entry state, and the state reached from such
a state by one iteration that did not leave the loop (a growth scan that found
no boundary arc, or one followed by `augment` and the adoption stage). -/
inductive LoopTop (F : Nat) (g0 : Graph) (c0 : Option Nat) : Graph → Option Nat → Prop where
  | entry : LoopTop F g0 c0 g0 c0
  | grown {g g1 g3 : Graph} {c : Option Nat} {i : Nat} :
    LoopTop F g0 c0 g c → pick_active F g c = Res.ok (g1, some i) →
    grow (g1.nodes i).is_sink i F g1 (g1.nodes i).first = Res.ok (g3, none) →
    LoopTop F g0 c0 (g3.setTIME (g3.TIME + 1)) none
  | augmented {g g1 g3 g5 g6 : Graph} {c : Option Nat} {i m : Nat} :
    LoopTop F g0 c0 g c → pick_active F g c = Res.ok (g1, some i) →
    grow (g1.nodes i).is_sink i F g1 (g1.nodes i).first = Res.ok (g3, some m) →
    augment F ((g3.setTIME (g3.TIME + 1)).setNext i (some i)) m = Res.ok g5 →
    adoption F F g5 = Res.ok g6 → LoopTop F g0 c0 g6 (some i)

/-- The state in which the main loop of a solve is entered: the result of
`maxflow_init`, or of `maxflow_reuse_trees_init` for a tree-reuse solve. -/
def SolveEntry (F : Nat) (g : Graph) (reuse_trees : Bool) (g1 : Graph) : Prop :=
  if reuse_trees = true then maxflow_reuse_trees_init F g = Res.ok g1 else g1 = maxflow_init g

/-- Tree non-saturation: the parent arc of a source-side node has residual
towards the node (`a->sister->r_cap > 0`), the parent arc of a sink-side node
has residual towards the parent (`a->r_cap > 0`). -/
def Unsat (g : Graph) : Prop :=
  ∀ x < g.node_num, ∀ a, (g.nodes x).parent = ArcPtr.arc a →
    ((g.nodes x).is_sink = false → 0 < (g.arcs (g.arcs a).sister).r_cap) ∧
    ((g.nodes x).is_sink = true → 0 < (g.arcs a).r_cap)

/-- Every node whose parent is `ORPHAN` is in the orphan list or among the
orphans set aside in `pend`. -/
def OrphansListed (g : Graph) (pend : List Nat) : Prop :=
  ∀ x < g.node_num, (g.nodes x).parent = ArcPtr.orphan → x ∈ g.orphans ∨ x ∈ pend

end Maxflow

namespace Maxflow

/-- The entry condition of a tree-reuse solve, with `q` the list of the marked
nodes: the graph is well formed with non-negative residuals; the second queue
holds exactly the marked nodes and no other node carries the active flag; the
trees are consistent, no node is its own parent and no orphan is left; every unmarked node satisfies the
passive-frontier property, terminal non-saturation and tree-edge
non-saturation.  (A marked node is one whose terminal residual or incident
residuals may have been edited.) -/
structure ReuseEntry (g : Graph) (q : List Nat) : Prop where
  wf : WellFormed g
  nonneg : ∀ a < g.arc_num, 0 ≤ (g.arcs a).r_cap
  queue : IsQueue g.nodes g.queue_first1 g.queue_last1 q
  nodup : q.Nodup
  bound : ∀ x ∈ q, x < g.node_num
  active : ∀ x < g.node_num, (g.nodes x).next ≠ none → x ∈ q
  marks : ∀ x < g.node_num, (g.nodes x).is_marked = true ↔ x ∈ q
  tree : TreeInv g none
  no_loop : ∀ x < g.node_num, ∀ a, (g.nodes x).parent = ArcPtr.arc a → (g.arcs a).head ≠ x
  no_orphan : ∀ x < g.node_num, (g.nodes x).parent ≠ ArcPtr.orphan
  frontier : PassiveFrontier g none none
  source : ∀ x < g.node_num, x ∉ q → (g.nodes x).parent = ArcPtr.terminal →
    (g.nodes x).is_sink = false → 0 < (g.nodes x).tr_cap
  sink : ∀ x < g.node_num, x ∉ q → (g.nodes x).parent = ArcPtr.terminal →
    (g.nodes x).is_sink = true → (g.nodes x).tr_cap < 0
  unsat : ∀ x < g.node_num, x ∉ q → ∀ a, (g.nodes x).parent = ArcPtr.arc a →
    ((g.nodes x).is_sink = false → 0 < (g.arcs (g.arcs a).sister).r_cap) ∧
    ((g.nodes x).is_sink = true → 0 < (g.arcs a).r_cap)

/-- The part of the invariant of the queue loop of `maxflow_reuse_trees_init`
that holds at every step: `rest` is what is left of the old queue, chained from
the cursor `p`; the marked nodes are those of `rest`; the orphan list is sound
and complete. -/
structure ReuseCore (g : Graph) (p : Option Nat) (rest : List Nat) : Prop where
  wf : WellFormed g
  nonneg : ∀ a < g.arc_num, 0 ≤ (g.arcs a).r_cap
  queue : ∃ q1 l, QueueInv (g.setQueue0 p l) none rest q1
  queue0 : g.queue_first0 = none ∧ g.queue_last0 = none
  marks : ∀ x < g.node_num, (g.nodes x).is_marked = true ↔ x ∈ rest
  orphans : OrphanInv g []
  listed : OrphansListed g []
  rest_parent : ∀ x ∈ rest, (g.nodes x).parent ≠ ArcPtr.orphan
  no_loop : ∀ x < g.node_num, ∀ a, (g.nodes x).parent = ArcPtr.arc a → (g.arcs a).head ≠ x

/-- Tree consistency during the tree-reuse initialisation: a parent arc leaves
its node and leads to a node with a parent; it leads to a node of the same side
unless the node is still marked or is excepted by `exc`. -/
def ReuseTree (g : Graph) (rest : List Nat) (exc : Nat → Nat → Prop) : Prop :=
  ∀ x < g.node_num, ∀ a, (g.nodes x).parent = ArcPtr.arc a →
    a < g.arc_num ∧ g.tail a = x ∧ (g.nodes (g.arcs a).head).parent ≠ ArcPtr.null ∧
      (x ∉ rest → ¬ exc x a → (g.nodes (g.arcs a).head).is_sink = (g.nodes x).is_sink)

/-- The passive-frontier property during the tree-reuse initialisation, up to
the arcs excepted by `exc`. -/
def ReuseFrontier (g : Graph) (exc : Nat → Nat → Prop) : Prop :=
  ∀ x < g.node_num, (g.nodes x).next = none → (g.nodes x).parent ≠ ArcPtr.null →
    ∀ a ∈ arcs_of g x, 0 < grow_rcap g (g.nodes x).is_sink a →
      InTree g (g.nodes x).is_sink (g.arcs a).head ∨ exc x a

/-- Non-saturation during the tree-reuse initialisation, for the nodes not
excepted by `exc`: roots have terminal residual of the sign of their tree, and
parent arcs have residual. -/
structure ReuseSat (g : Graph) (exc : Nat → Prop) : Prop where
  source : ∀ x < g.node_num, ¬ exc x → (g.nodes x).parent = ArcPtr.terminal →
    (g.nodes x).is_sink = false → 0 < (g.nodes x).tr_cap
  sink : ∀ x < g.node_num, ¬ exc x → (g.nodes x).parent = ArcPtr.terminal →
    (g.nodes x).is_sink = true → (g.nodes x).tr_cap < 0
  unsat : ∀ x < g.node_num, ¬ exc x → ∀ a, (g.nodes x).parent = ArcPtr.arc a →
    ((g.nodes x).is_sink = false → 0 < (g.arcs (g.arcs a).sister).r_cap) ∧
    ((g.nodes x).is_sink = true → 0 < (g.arcs a).r_cap)

/-- The invariant of the queue loop of `maxflow_reuse_trees_init` between two
iterations. -/
structure ReuseInv (g : Graph) (p : Option Nat) (rest : List Nat) : Prop where
  core : ReuseCore g p rest
  tree : ReuseTree g rest fun _ _ => False
  frontier : ReuseFrontier g fun _ _ => False
  sat : ReuseSat g fun x => x ∈ rest

/-- The invariant of the neighbour loop of `maxflow_reuse_trees_init` for the
node `i` moved to the tree `sink`, with the arcs `post` of `i` still to scan:
the children of `i` behind those arcs still hang below it, and the passive
nodes of the other tree behind those arcs have not been activated yet. -/
structure ReuseNbInv (g : Graph) (p : Option Nat) (rest : List Nat) (i : Nat) (sink : Bool)
    (post : List Nat) : Prop where
  core : ReuseCore g p rest
  tree : ReuseTree g rest fun x a => x = i ∨ ((g.arcs a).head = i ∧ (g.arcs a).sister ∈ post)
  frontier : ReuseFrontier g fun x a =>
    (g.arcs a).head = i ∧ (g.arcs a).sister ∈ post ∧ (g.nodes x).is_sink ≠ sink
  sat : ReuseSat g fun x => x ∈ rest ∨ x = i
  bound : i < g.node_num
  is_sink : (g.nodes i).is_sink = sink
  next : (g.nodes i).next ≠ none
  fresh : i ∉ rest
  parent : (g.nodes i).parent ≠ ArcPtr.orphan

end Maxflow

namespace Maxflow

/-- Monotone labels: for a node with a real parent arc, `TS` does not exceed the
parent's `TS`, and if they are equal `DIST` is greater than the parent's. -/
def Mono (g : Graph) : Prop :=
  ∀ x < g.node_num, ∀ a, (g.nodes x).parent = ArcPtr.arc a →
    (g.nodes x).TS ≤ (g.nodes (g.arcs a).head).TS ∧
      ((g.nodes x).TS = (g.nodes (g.arcs a).head).TS →
        (g.nodes (g.arcs a).head).DIST < (g.nodes x).DIST)

/-- No time stamp is ahead of `TIME`. -/
def TSle (g : Graph) : Prop := ∀ x < g.node_num, (g.nodes x).TS ≤ g.TIME

/-- Monotone labels for the nodes that do not carry the current stamp. -/
def MonoU (g : Graph) : Prop :=
  ∀ x < g.node_num, (g.nodes x).TS ≠ g.TIME → ∀ a, (g.nodes x).parent = ArcPtr.arc a →
    (g.nodes x).TS ≤ (g.nodes (g.arcs a).head).TS ∧
      ((g.nodes x).TS = (g.nodes (g.arcs a).head).TS →
        (g.nodes (g.arcs a).head).DIST < (g.nodes x).DIST)

/-- A node that carries the current stamp (`TS = TIME`) has a parent walk to a
root, and its `DIST` is the number of nodes of that walk. -/
def StampD (g : Graph) : Prop :=
  ∀ x < g.node_num, (g.nodes x).TS = g.TIME →
    ∃ l r, IsPath g x l r ∧ (g.nodes x).DIST = (l.length : Int) + 1

/-- The label invariants of the adoption stage: stamped nodes know their
distance, unstamped nodes have monotone labels, no stamp is ahead of `TIME`,
and the parent of a stamped node is stamped, except for the node `e` that
`set_marks` has just stamped. -/
structure AdL (g : Graph) (e : Option Nat) : Prop where
  stamp : StampD g
  mono : MonoU g
  ts_le : TSle g
  closed : ∀ x < g.node_num, e ≠ some x → (g.nodes x).TS = g.TIME →
    ∀ a, (g.nodes x).parent = ArcPtr.arc a → (g.nodes (g.arcs a).head).TS = g.TIME

/-- The label invariants of the queue loop of the tree-reuse initialisation:
the stamped nodes are unmarked roots with `DIST = 1`, unstamped nodes have
monotone labels, and no stamp is ahead of `TIME`. -/
structure ReuseL (g : Graph) : Prop where
  root : ∀ x < g.node_num, (g.nodes x).TS = g.TIME →
    (g.nodes x).parent = ArcPtr.terminal ∧ (g.nodes x).DIST = 1 ∧ (g.nodes x).is_marked = false
  mono : MonoU g
  ts_le : TSle g

/-- The parent links form chains: a parent arc leads to a node of the arena
that has a parent. -/
def Chain (g : Graph) : Prop :=
  ∀ x < g.node_num, ∀ a, (g.nodes x).parent = ArcPtr.arc a →
    (g.arcs a).head < g.node_num ∧ (g.nodes (g.arcs a).head).parent ≠ ArcPtr.null

/-- The state `g'` is `g` with more nodes stamped: nothing but `TS` and `DIST`
differs, a stamped node keeps its labels, and a node that is not stamped in `g'`
has the labels it had. -/
structure Marks (g g' : Graph) : Prop where
  labelEq : LabelEq g g'
  keep : ∀ x, (g.nodes x).TS = g.TIME →
    (g'.nodes x).TS = g.TIME ∧ (g'.nodes x).DIST = (g.nodes x).DIST
  same : ∀ x, (g'.nodes x).TS ≠ g.TIME →
    (g'.nodes x).TS = (g.nodes x).TS ∧ (g'.nodes x).DIST = (g.nodes x).DIST

/-- The parent walk from node `i` along the arcs `l` ends at the node `r`,
whose parent is `ORPHAN`. -/
def OrphanPath (g : Graph) : Nat → List Nat → Nat → Prop
  | i, [], r => (g.nodes i).parent = ArcPtr.orphan ∧ r = i
  | i, a :: l, r => (g.nodes i).parent = ArcPtr.arc a ∧ OrphanPath g (g.arcs a).head l r

/-- The node `y` is above the node `x` in the order of the labels: its `TS` is
greater, or equal with a smaller `DIST`. -/
def above (g : Graph) (y x : Nat) : Prop :=
  (g.nodes x).TS < (g.nodes y).TS ∨
    ((g.nodes x).TS = (g.nodes y).TS ∧ (g.nodes y).DIST < (g.nodes x).DIST)

/-- Decision of `above`. -/
def aboveb (g : Graph) (y x : Nat) : Bool :=
  decide ((g.nodes x).TS < (g.nodes y).TS) ||
    (decide ((g.nodes x).TS = (g.nodes y).TS) && decide ((g.nodes y).DIST < (g.nodes x).DIST))

/-- The rank of a node: the number of nodes of the arena above it.  It
decreases along a parent arc with monotone labels, so a parent walk over such
arcs has no cycle. -/
def rank (g : Graph) (x : Nat) : Nat :=
  ((Finset.range g.node_num).filter fun y => aboveb g y x = true).card

/-- The arc `a0` out of an orphan is a valid candidate of the tree `sink` with
verified distance `d`: it has residual towards the orphan, its head is in the
tree, and the parent walk of its head reaches a root over `d` nodes. -/
def Cand (g : Graph) (sink : Bool) (a0 : Nat) (d : Int) : Prop :=
  orphan_rcap g sink a0 ≠ 0 ∧ (g.nodes (g.arcs a0).head).is_sink = sink ∧
    ∃ l r, IsPath g (g.arcs a0).head l r ∧ d = (l.length : Int) + 1

/-- The state of the search for a new parent after the arcs `pre`: `dmin` is
below the distance of every candidate among them, and `amin`, when set, is a
candidate of distance `dmin` whose head is stamped with that distance. -/
def Best (g : Graph) (sink : Bool) (pre : List Nat) (amin : Option Nat) (dmin : Int) : Prop :=
  (∀ a ∈ pre, ∀ d, Cand g sink a d → dmin ≤ d) ∧ dmin ≤ INFINITE_D ∧
    match amin with
    | none => dmin = INFINITE_D
    | some am => am ∈ pre ∧ Cand g sink am dmin ∧ dmin < INFINITE_D ∧
        (g.nodes (g.arcs am).head).TS = g.TIME ∧ (g.nodes (g.arcs am).head).DIST = dmin

end Maxflow

namespace Maxflow

/-- The entry condition of a solve: for a cold solve, a well-formed graph with
non-negative residuals; for a tree-reuse solve, the entry condition of the
tree-reuse initialisation for some list of marked nodes. -/
def SolveReady (g : Graph) (reuse_trees : Bool) : Prop :=
  if reuse_trees = true then ∃ q, ReuseEntry g q
  else WellFormed g ∧ ∀ a < g.arc_num, 0 ≤ (g.arcs a).r_cap

/-- The labels at the entry of a solve: nothing is asked of a cold solve, which
resets the labels; a tree-reuse solve starts from monotone labels with no stamp
ahead of `TIME`, as a solve leaves them. -/
def LabelReady (g : Graph) (reuse_trees : Bool) : Prop :=
  reuse_trees = true → Mono g ∧ TSle g

/-- The result `g1` of processing the orphan `i` of the tree `sink` in the state
`g`, as the specification states it: if some arc out of `i` is a candidate, `i`
ends with a candidate of least distance `dmin` as its parent, stamped, with
`DIST = dmin + 1`; if none is, `i` ends with a null parent. -/
def AdoptionResult (g : Graph) (sink : Bool) (i : Nat) (g1 : Graph) : Prop :=
  ((∃ a0 ∈ arcs_of g i, ∃ d, Cand g sink a0 d) →
    ∃ am dmin, am ∈ arcs_of g i ∧ Cand g sink am dmin ∧
      (∀ a0 ∈ arcs_of g i, ∀ d, Cand g sink a0 d → dmin ≤ d) ∧
      (g1.nodes i).parent = ArcPtr.arc am ∧ (g1.nodes i).TS = g.TIME ∧
      (g1.nodes i).DIST = dmin + 1) ∧
  ((¬ ∃ a0 ∈ arcs_of g i, ∃ d, Cand g sink a0 d) → (g1.nodes i).parent = ArcPtr.null)

/-- The diamond after the first augmentation of its cold solve, with the orphan
it makes (node 2) taken off the orphan list, as at the call of
`process_source_orphan`. -/
def diamond_orphan : Graph :=
  ((augment 2 diamond_grown 6).getD diamond_grown).setOrphans []

/-- The invariants of the main loop used for the value of the flow: the base
invariants, the monotone labels, the terminal invariants with the label bounds,
and the potential (flow plus capacity of any cut) of the state `g0`. -/
def FlowInv (g0 g : Graph) (c : Option Nat) : Prop :=
  (LoopInv g c ∧ Resid g) ∧ (Mono g ∧ TSle g) ∧ (Terminals g ∧ Labels g) ∧
    ∀ S, g.flow + cutCap g S = g0.flow + cutCap g0 S

/-- Tree non-saturation as the specification states it: a node whose parent is
`TERMINAL` has `tr_cap < 0` if `is_sink` and `tr_cap > 0` otherwise; a node whose
parent is a real arc `a` has `a.sister.r_cap > 0` if it is source-side and
`a.r_cap > 0` if it is sink-side. -/
def NonSaturation (g : Graph) : Prop :=
  ∀ i < g.node_num,
    ((g.nodes i).parent = ArcPtr.terminal →
      ((g.nodes i).is_sink = true → (g.nodes i).tr_cap < 0) ∧
      ((g.nodes i).is_sink = false → 0 < (g.nodes i).tr_cap)) ∧
    ∀ a, (g.nodes i).parent = ArcPtr.arc a →
      ((g.nodes i).is_sink = false → 0 < (g.arcs (g.arcs a).sister).r_cap) ∧
      ((g.nodes i).is_sink = true → 0 < (g.arcs a).r_cap)

/-- The passive-frontier property as the specification states it, with
`current_node = c`: for every node `i` with a parent and a null `next` that is
not the current node, every arc `a` out of a source-side `i` with `a.r_cap > 0`,
and every arc `a` out of a sink-side `i` with `a.sister.r_cap > 0`, leads to a
node with a parent on the side of `i`. -/
def FrontierSpec (g : Graph) (c : Option Nat) : Prop :=
  ∀ i < g.node_num, (g.nodes i).parent ≠ ArcPtr.null → (g.nodes i).next = none → c ≠ some i →
    ((g.nodes i).is_sink = false → ∀ a ∈ arcs_of g i, 0 < (g.arcs a).r_cap →
      (g.nodes (g.arcs a).head).parent ≠ ArcPtr.null ∧
        (g.nodes (g.arcs a).head).is_sink = false) ∧
    ((g.nodes i).is_sink = true → ∀ a ∈ arcs_of g i, 0 < (g.arcs (g.arcs a).sister).r_cap →
      (g.nodes (g.arcs a).head).parent ≠ ArcPtr.null ∧
        (g.nodes (g.arcs a).head).is_sink = true)

/-- The state `g'` has the shape of `g` and, for every sister pair of `g`, the
same sum of the two residuals. -/
def PairsKept (g g' : Graph) : Prop :=
  SameShape g g' ∧ ∀ e < g.arc_num,
    (g'.arcs e).r_cap + (g'.arcs (g.arcs e).sister).r_cap =
      (g.arcs e).r_cap + (g.arcs (g.arcs e).sister).r_cap

/-- No residual is written: `g'` has the `r_cap` of every arc and the `tr_cap`
of every node of `g`. -/
def SameResiduals (g g' : Graph) : Prop :=
  (∀ e, (g'.arcs e).r_cap = (g.arcs e).r_cap) ∧ ∀ x, (g'.nodes x).tr_cap = (g.nodes x).tr_cap

end Maxflow

namespace Maxflow

/-- The terminal invariants at the nodes that satisfy `P`: such a node with
positive terminal residual is a root of the source tree, one with negative
terminal residual a root of the sink tree. -/
def TermOn (g : Graph) (P : Nat → Prop) : Prop :=
  ∀ x < g.node_num, P x →
    (0 < (g.nodes x).tr_cap →
      (g.nodes x).parent = ArcPtr.terminal ∧ (g.nodes x).is_sink = false) ∧
    ((g.nodes x).tr_cap < 0 →
      (g.nodes x).parent = ArcPtr.terminal ∧ (g.nodes x).is_sink = true)

/-- The state left by a completed solve: every node is passive, there is no
orphan, and the invariants of the solve hold. -/
structure Solved (s : Graph) : Prop where
  inv : Inv s none none none []
  orphans : s.orphans = []
  queue : QueueInv s none [] []
  resid : Resid s
  unsat : Unsat s
  listed : OrphansListed s []
  mono : Mono s
  ts_le : TSle s
  terminals : Terminals s
  labels : Labels s

/-- The state `g` is the state `s` after edits of residuals and terminal
residuals with the nodes `q` marked: the trees and the labels are those of `s`;
`q` is the second queue, its nodes are the marked nodes and the only nodes with
an active flag; residuals are non-negative; an arc whose residual differs from
`s` has both ends marked, and a node whose terminal residual differs is
marked; the count of solves is that of `s`. -/
structure EditedFrom (s g : Graph) (q : List Nat) : Prop where
  shape : SameShape s g
  parent : ∀ x, (g.nodes x).parent = (s.nodes x).parent
  is_sink : ∀ x, (g.nodes x).is_sink = (s.nodes x).is_sink
  TS : ∀ x, (g.nodes x).TS = (s.nodes x).TS
  DIST : ∀ x, (g.nodes x).DIST = (s.nodes x).DIST
  TIME : g.TIME = s.TIME
  queue : IsQueue g.nodes g.queue_first1 g.queue_last1 q
  nodup : q.Nodup
  bound : ∀ x ∈ q, x < g.node_num
  active : ∀ x < g.node_num, (g.nodes x).next ≠ none → x ∈ q
  marks : ∀ x < g.node_num, (g.nodes x).is_marked = true ↔ x ∈ q
  nonneg : ∀ a < g.arc_num, 0 ≤ (g.arcs a).r_cap
  r_cap : ∀ a < g.arc_num, (g.arcs a).r_cap ≠ (s.arcs a).r_cap →
    g.tail a ∈ q ∧ (g.arcs a).head ∈ q
  tr_cap : ∀ x < g.node_num, (g.nodes x).tr_cap ≠ (s.nodes x).tr_cap → x ∈ q
  iteration : g.maxflow_iteration = s.maxflow_iteration

/-- The entry condition of a tree-reuse solve together with the conditions on
the labels and on the terminal residuals of the unmarked nodes. -/
structure ReuseReady (g : Graph) (q : List Nat) : Prop where
  entry : ReuseEntry g q
  mono : Mono g
  ts_le : TSle g
  labels : Labels g
  terminals : TermOn g fun x => x ∉ q

/-- The states left by completed solves: a cold solve of a well-formed graph
with non-negative residuals, or a tree-reuse solve of a state obtained from such
a state by edits with the edited nodes marked. -/
inductive Completed : Graph → Prop where
  | cold {F : Nat} {g s : Graph} {cl : Option (List Nat)} {fl : Int} :
    WellFormed g → (∀ a < g.arc_num, 0 ≤ (g.arcs a).r_cap) →
    maxflow F g false cl = Outcome.returned s fl → Completed s
  | reuse {F : Nat} {s g s' : Graph} {q : List Nat} {cl : Option (List Nat)} {fl : Int} :
    Completed s → EditedFrom s g q →
    maxflow F g true cl = Outcome.returned s' fl → Completed s'

/-- The solved scenario 1 after an edit: the terminal residual of node 1 is set
to -2 (two more units of capacity to the sink) and node 1 is marked. -/
def reuse_edit : Graph :=
  mark_node (set_trcap scenario1_solved 1 (-2)) 1

end Maxflow

namespace Maxflow

/-- The number of nodes with a parent (tree nodes and orphans). -/
def nonnullCount (g : Graph) : Nat :=
  ((Finset.range g.node_num).filter fun x => (g.nodes x).parent ≠ ArcPtr.null).card

/-- The number of nodes whose parent is `ORPHAN`. -/
def orphanCount (g : Graph) : Nat :=
  ((Finset.range g.node_num).filter fun x => (g.nodes x).parent = ArcPtr.orphan).card

/-- The number of nodes with an active flag (a non-null `next`). -/
def activeCount (g : Graph) : Nat :=
  ((Finset.range g.node_num).filter fun x => (g.nodes x).next ≠ none).card

/-- The number of free nodes. -/
def freeCount (g : Graph) : Nat :=
  ((Finset.range g.node_num).filter fun x => (g.nodes x).parent = ArcPtr.null).card

/-- The measure of the orphan drain: it decreases with every orphan processed,
since an adopted orphan is one orphan less and a freed orphan is one node with
a parent less. -/
def drainMeasure (g : Graph) : Nat :=
  (g.node_num + 1) * nonnullCount g + orphanCount g

/-- The measure of the iterations without augmentation: such an iteration takes
the active flag of a node, and sets a flag only on a free node that it
adopts. -/
def growMeasure (g : Graph) : Nat := activeCount g + 2 * freeCount g

/-- The flow still to be found: the entry flow plus the capacity of the cut
around the source terminal alone, minus the flow found so far. -/
def flowRoom (g0 g : Graph) : Nat :=
  (g0.flow + cutCap g0 (fun _ => false) - g.flow).toNat

/-- The measure of the main loop: it decreases with every iteration, by an
augmentation (one unit of flow at least) or by the measure of the iterations
without augmentation. -/
def loopMeasure (g0 g : Graph) : Nat :=
  flowRoom g0 g * (3 * g.node_num + 1) + growMeasure g

/-- All the invariants of the main loop together. -/
def FullInv (g0 g : Graph) (c : Option Nat) : Prop :=
  FlowInv g0 g c ∧ Unsat g ∧ OrphansListed g []

/-- A fuel that suffices for a cold solve of `g`: it covers the arc lists, the
parent walks, the orphan drains and the iterations of the main loop. -/
def solveFuel (g : Graph) : Nat :=
  (g.node_num + 1) * (g.node_num + 1) + g.arc_num + 2 +
    ((cutCap g fun _ => false).toNat + 1) * (3 * g.node_num + 1)

end Maxflow

namespace Maxflow

/-- The entry state that the interface requires of a solve: a well-formed graph
with non-negative residuals for a solve from scratch; for a tree-reuse solve the
state left by a completed solve and edits with the edited nodes marked, as
`ReuseReady` describes it. -/
def EntryReady (g : Graph) (reuse_trees : Bool) : Prop :=
  if reuse_trees = true then ∃ q, ReuseReady g q
  else WellFormed g ∧ ∀ a < g.arc_num, 0 ≤ (g.arcs a).r_cap

/-- Whether a computation of the model returned. -/
def Res.isOk {α : Type} (x : Res α) : Bool :=
  match x with
  | Res.ok _ => true
  | Res.fuel => false
  | Res.fault => false

/-- The second component of the pair returned by `pick_active` or by the growth
scan, when it returned. -/
def Res.found? (x : Res (Graph × Option Nat)) : Option (Option Nat) :=
  match x with
  | Res.ok r => some r.2
  | Res.fuel => none
  | Res.fault => none

/-! ## A graph whose solve rewires a node during growth -/

/-- Two source roots 0 and 2 (terminal capacity 5 each), a sink root 3 (terminal
capacity 5), edges 0→1 (3), 2→1 (3), 1→3 (4): node 1 is adopted by node 0, then
rewired below node 2 by the growth scan from node 2. -/
def rewire_demo : Graph :=
  add_edge (add_edge (add_edge
    (add_tweights (add_tweights (add_tweights (add_node Graph.empty 4) 0 5 0) 2 5 0) 3 0 5)
    0 1 3 0) 2 1 3 0) 1 3 4 0

/-- The state of `rewire_demo` at the entry of the main loop of its cold
solve. -/
def rewire_init : Graph := maxflow_init (rewire_demo.setChanged none)

/-- First iteration: node 0 has been taken from the queue. -/
def rewire_pick1 : Graph := ((pick_active 9 rewire_init none).getD (rewire_init, none)).1

/-- First iteration: the state left by the growth scan from node 0, which
adopts node 1. -/
def rewire_grow1 : Graph :=
  ((grow (rewire_pick1.nodes 0).is_sink 0 9 rewire_pick1 (rewire_pick1.nodes 0).first).getD
    (rewire_pick1, none)).1

/-- The top of the second iteration. -/
def rewire_top1 : Graph := rewire_grow1.setTIME (rewire_grow1.TIME + 1)

/-- Second iteration: node 2 has been taken from the queue. -/
def rewire_pick2 : Graph := ((pick_active 9 rewire_top1 none).getD (rewire_top1, none)).1

/-- Second iteration: the state left by the growth scan from node 2, which
rewires node 1 (`j.parent = a.sister`, the arc 1→2). -/
def rewire_grow2 : Graph :=
  ((grow (rewire_pick2.nodes 2).is_sink 2 9 rewire_pick2 (rewire_pick2.nodes 2).first).getD
    (rewire_pick2, none)).1

/-- The top of the third iteration. -/
def rewire_top2 : Graph := rewire_grow2.setTIME (rewire_grow2.TIME + 1)

/-- Third iteration: node 3 has been taken from the queue. -/
def rewire_pick3 : Graph := ((pick_active 9 rewire_top2 none).getD (rewire_top2, none)).1

/-- Third iteration: the state left by the growth scan from node 3, which stops
at the boundary arc 1→3 (arc 4). -/
def rewire_grow3 : Graph :=
  ((grow (rewire_pick3.nodes 3).is_sink 3 9 rewire_pick3 (rewire_pick3.nodes 3).first).getD
    (rewire_pick3, none)).1

/-- The state at the call `augment(4)` of the third iteration. -/
def rewire_call : Graph := (rewire_grow3.setTIME (rewire_grow3.TIME + 1)).setNext 3 (some 3)

/-! ## A graph whose solve frees an orphan with children -/

/-- A sink root 0 (terminal capacity 1), a source root 3 (terminal capacity 5),
edges 2→0 (3), two parallel edges 1→0 (2, reverse 1), 4→2 (3), 3→4 (3). -/
def child_demo : Graph :=
  add_edge (add_edge (add_edge (add_edge (add_edge
    (add_tweights (add_tweights (add_node Graph.empty 5) 0 0 1) 3 5 0)
    2 0 3 0) 1 0 2 1) 1 0 2 1) 4 2 3 0) 3 4 3 0

/-- The state of `child_demo` at the first call of `augment` of its cold solve:
node 0 has adopted nodes 1 and 2 into the sink tree, node 3 has adopted node 4,
node 1 has been grown and is passive, and the growth scan from node 2 has
stopped at the arc 4→2 (arc 6). -/
def child_grown : Graph :=
  let p1 := ((pick_active 6 (maxflow_init child_demo) none).getD (child_demo, none)).1
  let r1 := ((grow true 0 6 p1 (p1.nodes 0).first).getD (p1, none)).1
  let p2 := ((pick_active 6 (r1.setTIME (r1.TIME + 1)) none).getD (r1, none)).1
  let r2 := ((grow false 3 6 p2 (p2.nodes 3).first).getD (p2, none)).1
  let p3 := ((pick_active 6 (r2.setTIME (r2.TIME + 1)) none).getD (r2, none)).1
  let r3 := ((grow true 1 6 p3 (p3.nodes 1).first).getD (p3, none)).1
  let p4 := ((pick_active 6 (r3.setTIME (r3.TIME + 1)) none).getD (r3, none)).1
  let r4 := ((grow true 2 6 p4 (p4.nodes 2).first).getD (p4, none)).1
  (r4.setTIME (r4.TIME + 1)).setNext 2 (some 2)

/-- The state after that augmentation, which saturates the terminal arc of node
0, with the orphan it makes (node 0) taken off the orphan list, as at the call
of `process_sink_orphan`, in a solve that records an (empty so far) changed
list.  Nodes 1 and 2 are children of node 0; node 1 hangs below it through one
of two parallel arcs and is passive. -/
def child_orphan : Graph :=
  (((augment 6 child_grown 6).getD child_grown).setOrphans []).setChanged (some [])

end Maxflow

namespace Maxflow

/-! ## Field-wise behaviour of the elementary writes -/

@[simp] theorem setNext_nodes_first (g : Graph) (i j : Nat) (v : Option Nat) :
    ((g.setNext i v).nodes j).first = (g.nodes j).first := by
  by_cases h : j = i <;> simp [Graph.setNext, upd, h]

@[simp] theorem setNext_nodes_next (g : Graph) (i j : Nat) (v : Option Nat) :
    ((g.setNext i v).nodes j).next = if j = i then v else (g.nodes j).next := by
  by_cases h : j = i <;> simp [Graph.setNext, upd, h]

@[simp] theorem setNext_nodes_parent (g : Graph) (i j : Nat) (v : Option Nat) :
    ((g.setNext i v).nodes j).parent = (g.nodes j).parent := by
  by_cases h : j = i <;> simp [Graph.setNext, upd, h]

@[simp] theorem setNext_nodes_is_sink (g : Graph) (i j : Nat) (v : Option Nat) :
    ((g.setNext i v).nodes j).is_sink = (g.nodes j).is_sink := by
  by_cases h : j = i <;> simp [Graph.setNext, upd, h]

@[simp] theorem setNext_nodes_TS (g : Graph) (i j : Nat) (v : Option Nat) :
    ((g.setNext i v).nodes j).TS = (g.nodes j).TS := by
  by_cases h : j = i <;> simp [Graph.setNext, upd, h]

@[simp] theorem setNext_nodes_DIST (g : Graph) (i j : Nat) (v : Option Nat) :
    ((g.setNext i v).nodes j).DIST = (g.nodes j).DIST := by
  by_cases h : j = i <;> simp [Graph.setNext, upd, h]

@[simp] theorem setNext_nodes_tr_cap (g : Graph) (i j : Nat) (v : Option Nat) :
    ((g.setNext i v).nodes j).tr_cap = (g.nodes j).tr_cap := by
  by_cases h : j = i <;> simp [Graph.setNext, upd, h]

@[simp] theorem setNext_nodes_is_marked (g : Graph) (i j : Nat) (v : Option Nat) :
    ((g.setNext i v).nodes j).is_marked = (g.nodes j).is_marked := by
  by_cases h : j = i <;> simp [Graph.setNext, upd, h]

@[simp] theorem setNext_nodes_is_in_changed_list (g : Graph) (i j : Nat) (v : Option Nat) :
    ((g.setNext i v).nodes j).is_in_changed_list = (g.nodes j).is_in_changed_list := by
  by_cases h : j = i <;> simp [Graph.setNext, upd, h]

@[simp] theorem setNext_node_num (g : Graph) (i : Nat) (v : Option Nat) :
    (g.setNext i v).node_num = g.node_num := rfl

@[simp] theorem setNext_arc_num (g : Graph) (i : Nat) (v : Option Nat) :
    (g.setNext i v).arc_num = g.arc_num := rfl

@[simp] theorem setNext_arcs (g : Graph) (i : Nat) (v : Option Nat) :
    (g.setNext i v).arcs = g.arcs := rfl

@[simp] theorem setNext_queue_first0 (g : Graph) (i : Nat) (v : Option Nat) :
    (g.setNext i v).queue_first0 = g.queue_first0 := rfl

@[simp] theorem setNext_queue_last0 (g : Graph) (i : Nat) (v : Option Nat) :
    (g.setNext i v).queue_last0 = g.queue_last0 := rfl

@[simp] theorem setNext_queue_first1 (g : Graph) (i : Nat) (v : Option Nat) :
    (g.setNext i v).queue_first1 = g.queue_first1 := rfl

@[simp] theorem setNext_queue_last1 (g : Graph) (i : Nat) (v : Option Nat) :
    (g.setNext i v).queue_last1 = g.queue_last1 := rfl

@[simp] theorem setNext_orphans (g : Graph) (i : Nat) (v : Option Nat) :
    (g.setNext i v).orphans = g.orphans := rfl

@[simp] theorem setNext_TIME (g : Graph) (i : Nat) (v : Option Nat) :
    (g.setNext i v).TIME = g.TIME := rfl

@[simp] theorem setNext_flow (g : Graph) (i : Nat) (v : Option Nat) :
    (g.setNext i v).flow = g.flow := rfl

@[simp] theorem setNext_maxflow_iteration (g : Graph) (i : Nat) (v : Option Nat) :
    (g.setNext i v).maxflow_iteration = g.maxflow_iteration := rfl

@[simp] theorem setNext_changed_list (g : Graph) (i : Nat) (v : Option Nat) :
    (g.setNext i v).changed_list = g.changed_list := rfl

@[simp] theorem setNext_error_function (g : Graph) (i : Nat) (v : Option Nat) :
    (g.setNext i v).error_function = g.error_function := rfl

@[simp] theorem setParent_nodes_first (g : Graph) (i j : Nat) (v : ArcPtr) :
    ((g.setParent i v).nodes j).first = (g.nodes j).first := by
  by_cases h : j = i <;> simp [Graph.setParent, upd, h]

@[simp] theorem setParent_nodes_next (g : Graph) (i j : Nat) (v : ArcPtr) :
    ((g.setParent i v).nodes j).next = (g.nodes j).next := by
  by_cases h : j = i <;> simp [Graph.setParent, upd, h]

@[simp] theorem setParent_nodes_parent (g : Graph) (i j : Nat) (v : ArcPtr) :
    ((g.setParent i v).nodes j).parent = if j = i then v else (g.nodes j).parent := by
  by_cases h : j = i <;> simp [Graph.setParent, upd, h]

@[simp] theorem setParent_nodes_is_sink (g : Graph) (i j : Nat) (v : ArcPtr) :
    ((g.setParent i v).nodes j).is_sink = (g.nodes j).is_sink := by
  by_cases h : j = i <;> simp [Graph.setParent, upd, h]

@[simp] theorem setParent_nodes_TS (g : Graph) (i j : Nat) (v : ArcPtr) :
    ((g.setParent i v).nodes j).TS = (g.nodes j).TS := by
  by_cases h : j = i <;> simp [Graph.setParent, upd, h]

@[simp] theorem setParent_nodes_DIST (g : Graph) (i j : Nat) (v : ArcPtr) :
    ((g.setParent i v).nodes j).DIST = (g.nodes j).DIST := by
  by_cases h : j = i <;> simp [Graph.setParent, upd, h]

@[simp] theorem setParent_nodes_tr_cap (g : Graph) (i j : Nat) (v : ArcPtr) :
    ((g.setParent i v).nodes j).tr_cap = (g.nodes j).tr_cap := by
  by_cases h : j = i <;> simp [Graph.setParent, upd, h]

@[simp] theorem setParent_nodes_is_marked (g : Graph) (i j : Nat) (v : ArcPtr) :
    ((g.setParent i v).nodes j).is_marked = (g.nodes j).is_marked := by
  by_cases h : j = i <;> simp [Graph.setParent, upd, h]

@[simp] theorem setParent_nodes_is_in_changed_list (g : Graph) (i j : Nat) (v : ArcPtr) :
    ((g.setParent i v).nodes j).is_in_changed_list = (g.nodes j).is_in_changed_list := by
  by_cases h : j = i <;> simp [Graph.setParent, upd, h]

@[simp] theorem setParent_node_num (g : Graph) (i : Nat) (v : ArcPtr) :
    (g.setParent i v).node_num = g.node_num := rfl

@[simp] theorem setParent_arc_num (g : Graph) (i : Nat) (v : ArcPtr) :
    (g.setParent i v).arc_num = g.arc_num := rfl

@[simp] theorem setParent_arcs (g : Graph) (i : Nat) (v : ArcPtr) :
    (g.setParent i v).arcs = g.arcs := rfl

@[simp] theorem setParent_queue_first0 (g : Graph) (i : Nat) (v : ArcPtr) :
    (g.setParent i v).queue_first0 = g.queue_first0 := rfl

@[simp] theorem setParent_queue_last0 (g : Graph) (i : Nat) (v : ArcPtr) :
    (g.setParent i v).queue_last0 = g.queue_last0 := rfl

@[simp] theorem setParent_queue_first1 (g : Graph) (i : Nat) (v : ArcPtr) :
    (g.setParent i v).queue_first1 = g.queue_first1 := rfl

@[simp] theorem setParent_queue_last1 (g : Graph) (i : Nat) (v : ArcPtr) :
    (g.setParent i v).queue_last1 = g.queue_last1 := rfl

@[simp] theorem setParent_orphans (g : Graph) (i : Nat) (v : ArcPtr) :
    (g.setParent i v).orphans = g.orphans := rfl

@[simp] theorem setParent_TIME (g : Graph) (i : Nat) (v : ArcPtr) :
    (g.setParent i v).TIME = g.TIME := rfl

@[simp] theorem setParent_flow (g : Graph) (i : Nat) (v : ArcPtr) :
    (g.setParent i v).flow = g.flow := rfl

@[simp] theorem setParent_maxflow_iteration (g : Graph) (i : Nat) (v : ArcPtr) :
    (g.setParent i v).maxflow_iteration = g.maxflow_iteration := rfl

@[simp] theorem setParent_changed_list (g : Graph) (i : Nat) (v : ArcPtr) :
    (g.setParent i v).changed_list = g.changed_list := rfl

@[simp] theorem setParent_error_function (g : Graph) (i : Nat) (v : ArcPtr) :
    (g.setParent i v).error_function = g.error_function := rfl

@[simp] theorem setSink_nodes_first (g : Graph) (i j : Nat) (v : Bool) :
    ((g.setSink i v).nodes j).first = (g.nodes j).first := by
  by_cases h : j = i <;> simp [Graph.setSink, upd, h]

@[simp] theorem setSink_nodes_next (g : Graph) (i j : Nat) (v : Bool) :
    ((g.setSink i v).nodes j).next = (g.nodes j).next := by
  by_cases h : j = i <;> simp [Graph.setSink, upd, h]

@[simp] theorem setSink_nodes_parent (g : Graph) (i j : Nat) (v : Bool) :
    ((g.setSink i v).nodes j).parent = (g.nodes j).parent := by
  by_cases h : j = i <;> simp [Graph.setSink, upd, h]

@[simp] theorem setSink_nodes_is_sink (g : Graph) (i j : Nat) (v : Bool) :
    ((g.setSink i v).nodes j).is_sink = if j = i then v else (g.nodes j).is_sink := by
  by_cases h : j = i <;> simp [Graph.setSink, upd, h]

@[simp] theorem setSink_nodes_TS (g : Graph) (i j : Nat) (v : Bool) :
    ((g.setSink i v).nodes j).TS = (g.nodes j).TS := by
  by_cases h : j = i <;> simp [Graph.setSink, upd, h]

@[simp] theorem setSink_nodes_DIST (g : Graph) (i j : Nat) (v : Bool) :
    ((g.setSink i v).nodes j).DIST = (g.nodes j).DIST := by
  by_cases h : j = i <;> simp [Graph.setSink, upd, h]

@[simp] theorem setSink_nodes_tr_cap (g : Graph) (i j : Nat) (v : Bool) :
    ((g.setSink i v).nodes j).tr_cap = (g.nodes j).tr_cap := by
  by_cases h : j = i <;> simp [Graph.setSink, upd, h]

@[simp] theorem setSink_nodes_is_marked (g : Graph) (i j : Nat) (v : Bool) :
    ((g.setSink i v).nodes j).is_marked = (g.nodes j).is_marked := by
  by_cases h : j = i <;> simp [Graph.setSink, upd, h]

@[simp] theorem setSink_nodes_is_in_changed_list (g : Graph) (i j : Nat) (v : Bool) :
    ((g.setSink i v).nodes j).is_in_changed_list = (g.nodes j).is_in_changed_list := by
  by_cases h : j = i <;> simp [Graph.setSink, upd, h]

@[simp] theorem setSink_node_num (g : Graph) (i : Nat) (v : Bool) :
    (g.setSink i v).node_num = g.node_num := rfl

@[simp] theorem setSink_arc_num (g : Graph) (i : Nat) (v : Bool) :
    (g.setSink i v).arc_num = g.arc_num := rfl

@[simp] theorem setSink_arcs (g : Graph) (i : Nat) (v : Bool) :
    (g.setSink i v).arcs = g.arcs := rfl

@[simp] theorem setSink_queue_first0 (g : Graph) (i : Nat) (v : Bool) :
    (g.setSink i v).queue_first0 = g.queue_first0 := rfl

@[simp] theorem setSink_queue_last0 (g : Graph) (i : Nat) (v : Bool) :
    (g.setSink i v).queue_last0 = g.queue_last0 := rfl

@[simp] theorem setSink_queue_first1 (g : Graph) (i : Nat) (v : Bool) :
    (g.setSink i v).queue_first1 = g.queue_first1 := rfl

@[simp] theorem setSink_queue_last1 (g : Graph) (i : Nat) (v : Bool) :
    (g.setSink i v).queue_last1 = g.queue_last1 := rfl

@[simp] theorem setSink_orphans (g : Graph) (i : Nat) (v : Bool) :
    (g.setSink i v).orphans = g.orphans := rfl

@[simp] theorem setSink_TIME (g : Graph) (i : Nat) (v : Bool) :
    (g.setSink i v).TIME = g.TIME := rfl

@[simp] theorem setSink_flow (g : Graph) (i : Nat) (v : Bool) :
    (g.setSink i v).flow = g.flow := rfl

@[simp] theorem setSink_maxflow_iteration (g : Graph) (i : Nat) (v : Bool) :
    (g.setSink i v).maxflow_iteration = g.maxflow_iteration := rfl

@[simp] theorem setSink_changed_list (g : Graph) (i : Nat) (v : Bool) :
    (g.setSink i v).changed_list = g.changed_list := rfl

@[simp] theorem setSink_error_function (g : Graph) (i : Nat) (v : Bool) :
    (g.setSink i v).error_function = g.error_function := rfl

@[simp] theorem setTS_nodes_first (g : Graph) (i j : Nat) (v : Int) :
    ((g.setTS i v).nodes j).first = (g.nodes j).first := by
  by_cases h : j = i <;> simp [Graph.setTS, upd, h]

@[simp] theorem setTS_nodes_next (g : Graph) (i j : Nat) (v : Int) :
    ((g.setTS i v).nodes j).next = (g.nodes j).next := by
  by_cases h : j = i <;> simp [Graph.setTS, upd, h]

@[simp] theorem setTS_nodes_parent (g : Graph) (i j : Nat) (v : Int) :
    ((g.setTS i v).nodes j).parent = (g.nodes j).parent := by
  by_cases h : j = i <;> simp [Graph.setTS, upd, h]

@[simp] theorem setTS_nodes_is_sink (g : Graph) (i j : Nat) (v : Int) :
    ((g.setTS i v).nodes j).is_sink = (g.nodes j).is_sink := by
  by_cases h : j = i <;> simp [Graph.setTS, upd, h]

@[simp] theorem setTS_nodes_TS (g : Graph) (i j : Nat) (v : Int) :
    ((g.setTS i v).nodes j).TS = if j = i then v else (g.nodes j).TS := by
  by_cases h : j = i <;> simp [Graph.setTS, upd, h]

@[simp] theorem setTS_nodes_DIST (g : Graph) (i j : Nat) (v : Int) :
    ((g.setTS i v).nodes j).DIST = (g.nodes j).DIST := by
  by_cases h : j = i <;> simp [Graph.setTS, upd, h]

@[simp] theorem setTS_nodes_tr_cap (g : Graph) (i j : Nat) (v : Int) :
    ((g.setTS i v).nodes j).tr_cap = (g.nodes j).tr_cap := by
  by_cases h : j = i <;> simp [Graph.setTS, upd, h]

@[simp] theorem setTS_nodes_is_marked (g : Graph) (i j : Nat) (v : Int) :
    ((g.setTS i v).nodes j).is_marked = (g.nodes j).is_marked := by
  by_cases h : j = i <;> simp [Graph.setTS, upd, h]

@[simp] theorem setTS_nodes_is_in_changed_list (g : Graph) (i j : Nat) (v : Int) :
    ((g.setTS i v).nodes j).is_in_changed_list = (g.nodes j).is_in_changed_list := by
  by_cases h : j = i <;> simp [Graph.setTS, upd, h]

@[simp] theorem setTS_node_num (g : Graph) (i : Nat) (v : Int) :
    (g.setTS i v).node_num = g.node_num := rfl

@[simp] theorem setTS_arc_num (g : Graph) (i : Nat) (v : Int) :
    (g.setTS i v).arc_num = g.arc_num := rfl

@[simp] theorem setTS_arcs (g : Graph) (i : Nat) (v : Int) :
    (g.setTS i v).arcs = g.arcs := rfl

@[simp] theorem setTS_queue_first0 (g : Graph) (i : Nat) (v : Int) :
    (g.setTS i v).queue_first0 = g.queue_first0 := rfl

@[simp] theorem setTS_queue_last0 (g : Graph) (i : Nat) (v : Int) :
    (g.setTS i v).queue_last0 = g.queue_last0 := rfl

@[simp] theorem setTS_queue_first1 (g : Graph) (i : Nat) (v : Int) :
    (g.setTS i v).queue_first1 = g.queue_first1 := rfl

@[simp] theorem setTS_queue_last1 (g : Graph) (i : Nat) (v : Int) :
    (g.setTS i v).queue_last1 = g.queue_last1 := rfl

@[simp] theorem setTS_orphans (g : Graph) (i : Nat) (v : Int) :
    (g.setTS i v).orphans = g.orphans := rfl

@[simp] theorem setTS_TIME (g : Graph) (i : Nat) (v : Int) :
    (g.setTS i v).TIME = g.TIME := rfl

@[simp] theorem setTS_flow (g : Graph) (i : Nat) (v : Int) :
    (g.setTS i v).flow = g.flow := rfl

@[simp] theorem setTS_maxflow_iteration (g : Graph) (i : Nat) (v : Int) :
    (g.setTS i v).maxflow_iteration = g.maxflow_iteration := rfl

@[simp] theorem setTS_changed_list (g : Graph) (i : Nat) (v : Int) :
    (g.setTS i v).changed_list = g.changed_list := rfl

@[simp] theorem setTS_error_function (g : Graph) (i : Nat) (v : Int) :
    (g.setTS i v).error_function = g.error_function := rfl

@[simp] theorem setDIST_nodes_first (g : Graph) (i j : Nat) (v : Int) :
    ((g.setDIST i v).nodes j).first = (g.nodes j).first := by
  by_cases h : j = i <;> simp [Graph.setDIST, upd, h]

@[simp] theorem setDIST_nodes_next (g : Graph) (i j : Nat) (v : Int) :
    ((g.setDIST i v).nodes j).next = (g.nodes j).next := by
  by_cases h : j = i <;> simp [Graph.setDIST, upd, h]

@[simp] theorem setDIST_nodes_parent (g : Graph) (i j : Nat) (v : Int) :
    ((g.setDIST i v).nodes j).parent = (g.nodes j).parent := by
  by_cases h : j = i <;> simp [Graph.setDIST, upd, h]

@[simp] theorem setDIST_nodes_is_sink (g : Graph) (i j : Nat) (v : Int) :
    ((g.setDIST i v).nodes j).is_sink = (g.nodes j).is_sink := by
  by_cases h : j = i <;> simp [Graph.setDIST, upd, h]

@[simp] theorem setDIST_nodes_TS (g : Graph) (i j : Nat) (v : Int) :
    ((g.setDIST i v).nodes j).TS = (g.nodes j).TS := by
  by_cases h : j = i <;> simp [Graph.setDIST, upd, h]

@[simp] theorem setDIST_nodes_DIST (g : Graph) (i j : Nat) (v : Int) :
    ((g.setDIST i v).nodes j).DIST = if j = i then v else (g.nodes j).DIST := by
  by_cases h : j = i <;> simp [Graph.setDIST, upd, h]

@[simp] theorem setDIST_nodes_tr_cap (g : Graph) (i j : Nat) (v : Int) :
    ((g.setDIST i v).nodes j).tr_cap = (g.nodes j).tr_cap := by
  by_cases h : j = i <;> simp [Graph.setDIST, upd, h]

@[simp] theorem setDIST_nodes_is_marked (g : Graph) (i j : Nat) (v : Int) :
    ((g.setDIST i v).nodes j).is_marked = (g.nodes j).is_marked := by
  by_cases h : j = i <;> simp [Graph.setDIST, upd, h]

@[simp] theorem setDIST_nodes_is_in_changed_list (g : Graph) (i j : Nat) (v : Int) :
    ((g.setDIST i v).nodes j).is_in_changed_list = (g.nodes j).is_in_changed_list := by
  by_cases h : j = i <;> simp [Graph.setDIST, upd, h]

@[simp] theorem setDIST_node_num (g : Graph) (i : Nat) (v : Int) :
    (g.setDIST i v).node_num = g.node_num := rfl

@[simp] theorem setDIST_arc_num (g : Graph) (i : Nat) (v : Int) :
    (g.setDIST i v).arc_num = g.arc_num := rfl

@[simp] theorem setDIST_arcs (g : Graph) (i : Nat) (v : Int) :
    (g.setDIST i v).arcs = g.arcs := rfl

@[simp] theorem setDIST_queue_first0 (g : Graph) (i : Nat) (v : Int) :
    (g.setDIST i v).queue_first0 = g.queue_first0 := rfl

@[simp] theorem setDIST_queue_last0 (g : Graph) (i : Nat) (v : Int) :
    (g.setDIST i v).queue_last0 = g.queue_last0 := rfl

@[simp] theorem setDIST_queue_first1 (g : Graph) (i : Nat) (v : Int) :
    (g.setDIST i v).queue_first1 = g.queue_first1 := rfl

@[simp] theorem setDIST_queue_last1 (g : Graph) (i : Nat) (v : Int) :
    (g.setDIST i v).queue_last1 = g.queue_last1 := rfl

@[simp] theorem setDIST_orphans (g : Graph) (i : Nat) (v : Int) :
    (g.setDIST i v).orphans = g.orphans := rfl

@[simp] theorem setDIST_TIME (g : Graph) (i : Nat) (v : Int) :
    (g.setDIST i v).TIME = g.TIME := rfl

@[simp] theorem setDIST_flow (g : Graph) (i : Nat) (v : Int) :
    (g.setDIST i v).flow = g.flow := rfl

@[simp] theorem setDIST_maxflow_iteration (g : Graph) (i : Nat) (v : Int) :
    (g.setDIST i v).maxflow_iteration = g.maxflow_iteration := rfl

@[simp] theorem setDIST_changed_list (g : Graph) (i : Nat) (v : Int) :
    (g.setDIST i v).changed_list = g.changed_list := rfl

@[simp] theorem setDIST_error_function (g : Graph) (i : Nat) (v : Int) :
    (g.setDIST i v).error_function = g.error_function := rfl

@[simp] theorem setTrCap_nodes_first (g : Graph) (i j : Nat) (v : Int) :
    ((g.setTrCap i v).nodes j).first = (g.nodes j).first := by
  by_cases h : j = i <;> simp [Graph.setTrCap, upd, h]

@[simp] theorem setTrCap_nodes_next (g : Graph) (i j : Nat) (v : Int) :
    ((g.setTrCap i v).nodes j).next = (g.nodes j).next := by
  by_cases h : j = i <;> simp [Graph.setTrCap, upd, h]

@[simp] theorem setTrCap_nodes_parent (g : Graph) (i j : Nat) (v : Int) :
    ((g.setTrCap i v).nodes j).parent = (g.nodes j).parent := by
  by_cases h : j = i <;> simp [Graph.setTrCap, upd, h]

@[simp] theorem setTrCap_nodes_is_sink (g : Graph) (i j : Nat) (v : Int) :
    ((g.setTrCap i v).nodes j).is_sink = (g.nodes j).is_sink := by
  by_cases h : j = i <;> simp [Graph.setTrCap, upd, h]

@[simp] theorem setTrCap_nodes_TS (g : Graph) (i j : Nat) (v : Int) :
    ((g.setTrCap i v).nodes j).TS = (g.nodes j).TS := by
  by_cases h : j = i <;> simp [Graph.setTrCap, upd, h]

@[simp] theorem setTrCap_nodes_DIST (g : Graph) (i j : Nat) (v : Int) :
    ((g.setTrCap i v).nodes j).DIST = (g.nodes j).DIST := by
  by_cases h : j = i <;> simp [Graph.setTrCap, upd, h]

@[simp] theorem setTrCap_nodes_tr_cap (g : Graph) (i j : Nat) (v : Int) :
    ((g.setTrCap i v).nodes j).tr_cap = if j = i then v else (g.nodes j).tr_cap := by
  by_cases h : j = i <;> simp [Graph.setTrCap, upd, h]

@[simp] theorem setTrCap_nodes_is_marked (g : Graph) (i j : Nat) (v : Int) :
    ((g.setTrCap i v).nodes j).is_marked = (g.nodes j).is_marked := by
  by_cases h : j = i <;> simp [Graph.setTrCap, upd, h]

@[simp] theorem setTrCap_nodes_is_in_changed_list (g : Graph) (i j : Nat) (v : Int) :
    ((g.setTrCap i v).nodes j).is_in_changed_list = (g.nodes j).is_in_changed_list := by
  by_cases h : j = i <;> simp [Graph.setTrCap, upd, h]

@[simp] theorem setTrCap_node_num (g : Graph) (i : Nat) (v : Int) :
    (g.setTrCap i v).node_num = g.node_num := rfl

@[simp] theorem setTrCap_arc_num (g : Graph) (i : Nat) (v : Int) :
    (g.setTrCap i v).arc_num = g.arc_num := rfl

@[simp] theorem setTrCap_arcs (g : Graph) (i : Nat) (v : Int) :
    (g.setTrCap i v).arcs = g.arcs := rfl

@[simp] theorem setTrCap_queue_first0 (g : Graph) (i : Nat) (v : Int) :
    (g.setTrCap i v).queue_first0 = g.queue_first0 := rfl

@[simp] theorem setTrCap_queue_last0 (g : Graph) (i : Nat) (v : Int) :
    (g.setTrCap i v).queue_last0 = g.queue_last0 := rfl

@[simp] theorem setTrCap_queue_first1 (g : Graph) (i : Nat) (v : Int) :
    (g.setTrCap i v).queue_first1 = g.queue_first1 := rfl

@[simp] theorem setTrCap_queue_last1 (g : Graph) (i : Nat) (v : Int) :
    (g.setTrCap i v).queue_last1 = g.queue_last1 := rfl

@[simp] theorem setTrCap_orphans (g : Graph) (i : Nat) (v : Int) :
    (g.setTrCap i v).orphans = g.orphans := rfl

@[simp] theorem setTrCap_TIME (g : Graph) (i : Nat) (v : Int) :
    (g.setTrCap i v).TIME = g.TIME := rfl

@[simp] theorem setTrCap_flow (g : Graph) (i : Nat) (v : Int) :
    (g.setTrCap i v).flow = g.flow := rfl

@[simp] theorem setTrCap_maxflow_iteration (g : Graph) (i : Nat) (v : Int) :
    (g.setTrCap i v).maxflow_iteration = g.maxflow_iteration := rfl

@[simp] theorem setTrCap_changed_list (g : Graph) (i : Nat) (v : Int) :
    (g.setTrCap i v).changed_list = g.changed_list := rfl

@[simp] theorem setTrCap_error_function (g : Graph) (i : Nat) (v : Int) :
    (g.setTrCap i v).error_function = g.error_function := rfl

@[simp] theorem setMarked_nodes_first (g : Graph) (i j : Nat) (v : Bool) :
    ((g.setMarked i v).nodes j).first = (g.nodes j).first := by
  by_cases h : j = i <;> simp [Graph.setMarked, upd, h]

@[simp] theorem setMarked_nodes_next (g : Graph) (i j : Nat) (v : Bool) :
    ((g.setMarked i v).nodes j).next = (g.nodes j).next := by
  by_cases h : j = i <;> simp [Graph.setMarked, upd, h]

@[simp] theorem setMarked_nodes_parent (g : Graph) (i j : Nat) (v : Bool) :
    ((g.setMarked i v).nodes j).parent = (g.nodes j).parent := by
  by_cases h : j = i <;> simp [Graph.setMarked, upd, h]

@[simp] theorem setMarked_nodes_is_sink (g : Graph) (i j : Nat) (v : Bool) :
    ((g.setMarked i v).nodes j).is_sink = (g.nodes j).is_sink := by
  by_cases h : j = i <;> simp [Graph.setMarked, upd, h]

@[simp] theorem setMarked_nodes_TS (g : Graph) (i j : Nat) (v : Bool) :
    ((g.setMarked i v).nodes j).TS = (g.nodes j).TS := by
  by_cases h : j = i <;> simp [Graph.setMarked, upd, h]

@[simp] theorem setMarked_nodes_DIST (g : Graph) (i j : Nat) (v : Bool) :
    ((g.setMarked i v).nodes j).DIST = (g.nodes j).DIST := by
  by_cases h : j = i <;> simp [Graph.setMarked, upd, h]

@[simp] theorem setMarked_nodes_tr_cap (g : Graph) (i j : Nat) (v : Bool) :
    ((g.setMarked i v).nodes j).tr_cap = (g.nodes j).tr_cap := by
  by_cases h : j = i <;> simp [Graph.setMarked, upd, h]

@[simp] theorem setMarked_nodes_is_marked (g : Graph) (i j : Nat) (v : Bool) :
    ((g.setMarked i v).nodes j).is_marked = if j = i then v else (g.nodes j).is_marked := by
  by_cases h : j = i <;> simp [Graph.setMarked, upd, h]

@[simp] theorem setMarked_nodes_is_in_changed_list (g : Graph) (i j : Nat) (v : Bool) :
    ((g.setMarked i v).nodes j).is_in_changed_list = (g.nodes j).is_in_changed_list := by
  by_cases h : j = i <;> simp [Graph.setMarked, upd, h]

@[simp] theorem setMarked_node_num (g : Graph) (i : Nat) (v : Bool) :
    (g.setMarked i v).node_num = g.node_num := rfl

@[simp] theorem setMarked_arc_num (g : Graph) (i : Nat) (v : Bool) :
    (g.setMarked i v).arc_num = g.arc_num := rfl

@[simp] theorem setMarked_arcs (g : Graph) (i : Nat) (v : Bool) :
    (g.setMarked i v).arcs = g.arcs := rfl

@[simp] theorem setMarked_queue_first0 (g : Graph) (i : Nat) (v : Bool) :
    (g.setMarked i v).queue_first0 = g.queue_first0 := rfl

@[simp] theorem setMarked_queue_last0 (g : Graph) (i : Nat) (v : Bool) :
    (g.setMarked i v).queue_last0 = g.queue_last0 := rfl

@[simp] theorem setMarked_queue_first1 (g : Graph) (i : Nat) (v : Bool) :
    (g.setMarked i v).queue_first1 = g.queue_first1 := rfl

@[simp] theorem setMarked_queue_last1 (g : Graph) (i : Nat) (v : Bool) :
    (g.setMarked i v).queue_last1 = g.queue_last1 := rfl

@[simp] theorem setMarked_orphans (g : Graph) (i : Nat) (v : Bool) :
    (g.setMarked i v).orphans = g.orphans := rfl

@[simp] theorem setMarked_TIME (g : Graph) (i : Nat) (v : Bool) :
    (g.setMarked i v).TIME = g.TIME := rfl

@[simp] theorem setMarked_flow (g : Graph) (i : Nat) (v : Bool) :
    (g.setMarked i v).flow = g.flow := rfl

@[simp] theorem setMarked_maxflow_iteration (g : Graph) (i : Nat) (v : Bool) :
    (g.setMarked i v).maxflow_iteration = g.maxflow_iteration := rfl

@[simp] theorem setMarked_changed_list (g : Graph) (i : Nat) (v : Bool) :
    (g.setMarked i v).changed_list = g.changed_list := rfl

@[simp] theorem setMarked_error_function (g : Graph) (i : Nat) (v : Bool) :
    (g.setMarked i v).error_function = g.error_function := rfl

@[simp] theorem setInChanged_nodes_first (g : Graph) (i j : Nat) (v : Bool) :
    ((g.setInChanged i v).nodes j).first = (g.nodes j).first := by
  by_cases h : j = i <;> simp [Graph.setInChanged, upd, h]

@[simp] theorem setInChanged_nodes_next (g : Graph) (i j : Nat) (v : Bool) :
    ((g.setInChanged i v).nodes j).next = (g.nodes j).next := by
  by_cases h : j = i <;> simp [Graph.setInChanged, upd, h]

@[simp] theorem setInChanged_nodes_parent (g : Graph) (i j : Nat) (v : Bool) :
    ((g.setInChanged i v).nodes j).parent = (g.nodes j).parent := by
  by_cases h : j = i <;> simp [Graph.setInChanged, upd, h]

@[simp] theorem setInChanged_nodes_is_sink (g : Graph) (i j : Nat) (v : Bool) :
    ((g.setInChanged i v).nodes j).is_sink = (g.nodes j).is_sink := by
  by_cases h : j = i <;> simp [Graph.setInChanged, upd, h]

@[simp] theorem setInChanged_nodes_TS (g : Graph) (i j : Nat) (v : Bool) :
    ((g.setInChanged i v).nodes j).TS = (g.nodes j).TS := by
  by_cases h : j = i <;> simp [Graph.setInChanged, upd, h]

@[simp] theorem setInChanged_nodes_DIST (g : Graph) (i j : Nat) (v : Bool) :
    ((g.setInChanged i v).nodes j).DIST = (g.nodes j).DIST := by
  by_cases h : j = i <;> simp [Graph.setInChanged, upd, h]

@[simp] theorem setInChanged_nodes_tr_cap (g : Graph) (i j : Nat) (v : Bool) :
    ((g.setInChanged i v).nodes j).tr_cap = (g.nodes j).tr_cap := by
  by_cases h : j = i <;> simp [Graph.setInChanged, upd, h]

@[simp] theorem setInChanged_nodes_is_marked (g : Graph) (i j : Nat) (v : Bool) :
    ((g.setInChanged i v).nodes j).is_marked = (g.nodes j).is_marked := by
  by_cases h : j = i <;> simp [Graph.setInChanged, upd, h]

@[simp] theorem setInChanged_nodes_is_in_changed_list (g : Graph) (i j : Nat) (v : Bool) :
    ((g.setInChanged i v).nodes j).is_in_changed_list = if j = i then v else (g.nodes j).is_in_changed_list := by
  by_cases h : j = i <;> simp [Graph.setInChanged, upd, h]

@[simp] theorem setInChanged_node_num (g : Graph) (i : Nat) (v : Bool) :
    (g.setInChanged i v).node_num = g.node_num := rfl

@[simp] theorem setInChanged_arc_num (g : Graph) (i : Nat) (v : Bool) :
    (g.setInChanged i v).arc_num = g.arc_num := rfl

@[simp] theorem setInChanged_arcs (g : Graph) (i : Nat) (v : Bool) :
    (g.setInChanged i v).arcs = g.arcs := rfl

@[simp] theorem setInChanged_queue_first0 (g : Graph) (i : Nat) (v : Bool) :
    (g.setInChanged i v).queue_first0 = g.queue_first0 := rfl

@[simp] theorem setInChanged_queue_last0 (g : Graph) (i : Nat) (v : Bool) :
    (g.setInChanged i v).queue_last0 = g.queue_last0 := rfl

@[simp] theorem setInChanged_queue_first1 (g : Graph) (i : Nat) (v : Bool) :
    (g.setInChanged i v).queue_first1 = g.queue_first1 := rfl

@[simp] theorem setInChanged_queue_last1 (g : Graph) (i : Nat) (v : Bool) :
    (g.setInChanged i v).queue_last1 = g.queue_last1 := rfl

@[simp] theorem setInChanged_orphans (g : Graph) (i : Nat) (v : Bool) :
    (g.setInChanged i v).orphans = g.orphans := rfl

@[simp] theorem setInChanged_TIME (g : Graph) (i : Nat) (v : Bool) :
    (g.setInChanged i v).TIME = g.TIME := rfl

@[simp] theorem setInChanged_flow (g : Graph) (i : Nat) (v : Bool) :
    (g.setInChanged i v).flow = g.flow := rfl

@[simp] theorem setInChanged_maxflow_iteration (g : Graph) (i : Nat) (v : Bool) :
    (g.setInChanged i v).maxflow_iteration = g.maxflow_iteration := rfl

@[simp] theorem setInChanged_changed_list (g : Graph) (i : Nat) (v : Bool) :
    (g.setInChanged i v).changed_list = g.changed_list := rfl

@[simp] theorem setInChanged_error_function (g : Graph) (i : Nat) (v : Bool) :
    (g.setInChanged i v).error_function = g.error_function := rfl

@[simp] theorem setRCap_arcs_head (g : Graph) (a b : Nat) (v : Int) :
    ((g.setRCap a v).arcs b).head = (g.arcs b).head := by
  by_cases h : b = a <;> simp [Graph.setRCap, upd, h]

@[simp] theorem setRCap_arcs_next (g : Graph) (a b : Nat) (v : Int) :
    ((g.setRCap a v).arcs b).next = (g.arcs b).next := by
  by_cases h : b = a <;> simp [Graph.setRCap, upd, h]

@[simp] theorem setRCap_arcs_sister (g : Graph) (a b : Nat) (v : Int) :
    ((g.setRCap a v).arcs b).sister = (g.arcs b).sister := by
  by_cases h : b = a <;> simp [Graph.setRCap, upd, h]

@[simp] theorem setRCap_arcs_r_cap (g : Graph) (a b : Nat) (v : Int) :
    ((g.setRCap a v).arcs b).r_cap = if b = a then v else (g.arcs b).r_cap := by
  by_cases h : b = a <;> simp [Graph.setRCap, upd, h]

@[simp] theorem setRCap_node_num (g : Graph) (a : Nat) (v : Int) :
    (g.setRCap a v).node_num = g.node_num := rfl

@[simp] theorem setRCap_arc_num (g : Graph) (a : Nat) (v : Int) :
    (g.setRCap a v).arc_num = g.arc_num := rfl

@[simp] theorem setRCap_nodes (g : Graph) (a : Nat) (v : Int) :
    (g.setRCap a v).nodes = g.nodes := rfl

@[simp] theorem setRCap_queue_first0 (g : Graph) (a : Nat) (v : Int) :
    (g.setRCap a v).queue_first0 = g.queue_first0 := rfl

@[simp] theorem setRCap_queue_last0 (g : Graph) (a : Nat) (v : Int) :
    (g.setRCap a v).queue_last0 = g.queue_last0 := rfl

@[simp] theorem setRCap_queue_first1 (g : Graph) (a : Nat) (v : Int) :
    (g.setRCap a v).queue_first1 = g.queue_first1 := rfl

@[simp] theorem setRCap_queue_last1 (g : Graph) (a : Nat) (v : Int) :
    (g.setRCap a v).queue_last1 = g.queue_last1 := rfl

@[simp] theorem setRCap_orphans (g : Graph) (a : Nat) (v : Int) :
    (g.setRCap a v).orphans = g.orphans := rfl

@[simp] theorem setRCap_TIME (g : Graph) (a : Nat) (v : Int) :
    (g.setRCap a v).TIME = g.TIME := rfl

@[simp] theorem setRCap_flow (g : Graph) (a : Nat) (v : Int) :
    (g.setRCap a v).flow = g.flow := rfl

@[simp] theorem setRCap_maxflow_iteration (g : Graph) (a : Nat) (v : Int) :
    (g.setRCap a v).maxflow_iteration = g.maxflow_iteration := rfl

@[simp] theorem setRCap_changed_list (g : Graph) (a : Nat) (v : Int) :
    (g.setRCap a v).changed_list = g.changed_list := rfl

@[simp] theorem setRCap_error_function (g : Graph) (a : Nat) (v : Int) :
    (g.setRCap a v).error_function = g.error_function := rfl

@[simp] theorem setQueue0_node_num (g : Graph) (first : Option Nat) (last : Option Nat) :
    (g.setQueue0 first last).node_num = g.node_num := rfl

@[simp] theorem setQueue0_arc_num (g : Graph) (first : Option Nat) (last : Option Nat) :
    (g.setQueue0 first last).arc_num = g.arc_num := rfl

@[simp] theorem setQueue0_nodes (g : Graph) (first : Option Nat) (last : Option Nat) :
    (g.setQueue0 first last).nodes = g.nodes := rfl

@[simp] theorem setQueue0_arcs (g : Graph) (first : Option Nat) (last : Option Nat) :
    (g.setQueue0 first last).arcs = g.arcs := rfl

@[simp] theorem setQueue0_queue_first0 (g : Graph) (first : Option Nat) (last : Option Nat) :
    (g.setQueue0 first last).queue_first0 = first := rfl

@[simp] theorem setQueue0_queue_last0 (g : Graph) (first : Option Nat) (last : Option Nat) :
    (g.setQueue0 first last).queue_last0 = last := rfl

@[simp] theorem setQueue0_queue_first1 (g : Graph) (first : Option Nat) (last : Option Nat) :
    (g.setQueue0 first last).queue_first1 = g.queue_first1 := rfl

@[simp] theorem setQueue0_queue_last1 (g : Graph) (first : Option Nat) (last : Option Nat) :
    (g.setQueue0 first last).queue_last1 = g.queue_last1 := rfl

@[simp] theorem setQueue0_orphans (g : Graph) (first : Option Nat) (last : Option Nat) :
    (g.setQueue0 first last).orphans = g.orphans := rfl

@[simp] theorem setQueue0_TIME (g : Graph) (first : Option Nat) (last : Option Nat) :
    (g.setQueue0 first last).TIME = g.TIME := rfl

@[simp] theorem setQueue0_flow (g : Graph) (first : Option Nat) (last : Option Nat) :
    (g.setQueue0 first last).flow = g.flow := rfl

@[simp] theorem setQueue0_maxflow_iteration (g : Graph) (first : Option Nat) (last : Option Nat) :
    (g.setQueue0 first last).maxflow_iteration = g.maxflow_iteration := rfl

@[simp] theorem setQueue0_changed_list (g : Graph) (first : Option Nat) (last : Option Nat) :
    (g.setQueue0 first last).changed_list = g.changed_list := rfl

@[simp] theorem setQueue0_error_function (g : Graph) (first : Option Nat) (last : Option Nat) :
    (g.setQueue0 first last).error_function = g.error_function := rfl

@[simp] theorem setFirst0_node_num (g : Graph) (first : Option Nat) :
    (g.setFirst0 first).node_num = g.node_num := rfl

@[simp] theorem setFirst0_arc_num (g : Graph) (first : Option Nat) :
    (g.setFirst0 first).arc_num = g.arc_num := rfl

@[simp] theorem setFirst0_nodes (g : Graph) (first : Option Nat) :
    (g.setFirst0 first).nodes = g.nodes := rfl

@[simp] theorem setFirst0_arcs (g : Graph) (first : Option Nat) :
    (g.setFirst0 first).arcs = g.arcs := rfl

@[simp] theorem setFirst0_queue_first0 (g : Graph) (first : Option Nat) :
    (g.setFirst0 first).queue_first0 = first := rfl

@[simp] theorem setFirst0_queue_last0 (g : Graph) (first : Option Nat) :
    (g.setFirst0 first).queue_last0 = g.queue_last0 := rfl

@[simp] theorem setFirst0_queue_first1 (g : Graph) (first : Option Nat) :
    (g.setFirst0 first).queue_first1 = g.queue_first1 := rfl

@[simp] theorem setFirst0_queue_last1 (g : Graph) (first : Option Nat) :
    (g.setFirst0 first).queue_last1 = g.queue_last1 := rfl

@[simp] theorem setFirst0_orphans (g : Graph) (first : Option Nat) :
    (g.setFirst0 first).orphans = g.orphans := rfl

@[simp] theorem setFirst0_TIME (g : Graph) (first : Option Nat) :
    (g.setFirst0 first).TIME = g.TIME := rfl

@[simp] theorem setFirst0_flow (g : Graph) (first : Option Nat) :
    (g.setFirst0 first).flow = g.flow := rfl

@[simp] theorem setFirst0_maxflow_iteration (g : Graph) (first : Option Nat) :
    (g.setFirst0 first).maxflow_iteration = g.maxflow_iteration := rfl

@[simp] theorem setFirst0_changed_list (g : Graph) (first : Option Nat) :
    (g.setFirst0 first).changed_list = g.changed_list := rfl

@[simp] theorem setFirst0_error_function (g : Graph) (first : Option Nat) :
    (g.setFirst0 first).error_function = g.error_function := rfl

@[simp] theorem setQueue1_node_num (g : Graph) (first : Option Nat) (last : Option Nat) :
    (g.setQueue1 first last).node_num = g.node_num := rfl

@[simp] theorem setQueue1_arc_num (g : Graph) (first : Option Nat) (last : Option Nat) :
    (g.setQueue1 first last).arc_num = g.arc_num := rfl

@[simp] theorem setQueue1_nodes (g : Graph) (first : Option Nat) (last : Option Nat) :
    (g.setQueue1 first last).nodes = g.nodes := rfl

@[simp] theorem setQueue1_arcs (g : Graph) (first : Option Nat) (last : Option Nat) :
    (g.setQueue1 first last).arcs = g.arcs := rfl

@[simp] theorem setQueue1_queue_first0 (g : Graph) (first : Option Nat) (last : Option Nat) :
    (g.setQueue1 first last).queue_first0 = g.queue_first0 := rfl

@[simp] theorem setQueue1_queue_last0 (g : Graph) (first : Option Nat) (last : Option Nat) :
    (g.setQueue1 first last).queue_last0 = g.queue_last0 := rfl

@[simp] theorem setQueue1_queue_first1 (g : Graph) (first : Option Nat) (last : Option Nat) :
    (g.setQueue1 first last).queue_first1 = first := rfl

@[simp] theorem setQueue1_queue_last1 (g : Graph) (first : Option Nat) (last : Option Nat) :
    (g.setQueue1 first last).queue_last1 = last := rfl

@[simp] theorem setQueue1_orphans (g : Graph) (first : Option Nat) (last : Option Nat) :
    (g.setQueue1 first last).orphans = g.orphans := rfl

@[simp] theorem setQueue1_TIME (g : Graph) (first : Option Nat) (last : Option Nat) :
    (g.setQueue1 first last).TIME = g.TIME := rfl

@[simp] theorem setQueue1_flow (g : Graph) (first : Option Nat) (last : Option Nat) :
    (g.setQueue1 first last).flow = g.flow := rfl

@[simp] theorem setQueue1_maxflow_iteration (g : Graph) (first : Option Nat) (last : Option Nat) :
    (g.setQueue1 first last).maxflow_iteration = g.maxflow_iteration := rfl

@[simp] theorem setQueue1_changed_list (g : Graph) (first : Option Nat) (last : Option Nat) :
    (g.setQueue1 first last).changed_list = g.changed_list := rfl

@[simp] theorem setQueue1_error_function (g : Graph) (first : Option Nat) (last : Option Nat) :
    (g.setQueue1 first last).error_function = g.error_function := rfl

@[simp] theorem setLast1_node_num (g : Graph) (last : Option Nat) :
    (g.setLast1 last).node_num = g.node_num := rfl

@[simp] theorem setLast1_arc_num (g : Graph) (last : Option Nat) :
    (g.setLast1 last).arc_num = g.arc_num := rfl

@[simp] theorem setLast1_nodes (g : Graph) (last : Option Nat) :
    (g.setLast1 last).nodes = g.nodes := rfl

@[simp] theorem setLast1_arcs (g : Graph) (last : Option Nat) :
    (g.setLast1 last).arcs = g.arcs := rfl

@[simp] theorem setLast1_queue_first0 (g : Graph) (last : Option Nat) :
    (g.setLast1 last).queue_first0 = g.queue_first0 := rfl

@[simp] theorem setLast1_queue_last0 (g : Graph) (last : Option Nat) :
    (g.setLast1 last).queue_last0 = g.queue_last0 := rfl

@[simp] theorem setLast1_queue_first1 (g : Graph) (last : Option Nat) :
    (g.setLast1 last).queue_first1 = g.queue_first1 := rfl

@[simp] theorem setLast1_queue_last1 (g : Graph) (last : Option Nat) :
    (g.setLast1 last).queue_last1 = last := rfl

@[simp] theorem setLast1_orphans (g : Graph) (last : Option Nat) :
    (g.setLast1 last).orphans = g.orphans := rfl

@[simp] theorem setLast1_TIME (g : Graph) (last : Option Nat) :
    (g.setLast1 last).TIME = g.TIME := rfl

@[simp] theorem setLast1_flow (g : Graph) (last : Option Nat) :
    (g.setLast1 last).flow = g.flow := rfl

@[simp] theorem setLast1_maxflow_iteration (g : Graph) (last : Option Nat) :
    (g.setLast1 last).maxflow_iteration = g.maxflow_iteration := rfl

@[simp] theorem setLast1_changed_list (g : Graph) (last : Option Nat) :
    (g.setLast1 last).changed_list = g.changed_list := rfl

@[simp] theorem setLast1_error_function (g : Graph) (last : Option Nat) :
    (g.setLast1 last).error_function = g.error_function := rfl

@[simp] theorem setOrphans_node_num (g : Graph) (l : List Nat) :
    (g.setOrphans l).node_num = g.node_num := rfl

@[simp] theorem setOrphans_arc_num (g : Graph) (l : List Nat) :
    (g.setOrphans l).arc_num = g.arc_num := rfl

@[simp] theorem setOrphans_nodes (g : Graph) (l : List Nat) :
    (g.setOrphans l).nodes = g.nodes := rfl

@[simp] theorem setOrphans_arcs (g : Graph) (l : List Nat) :
    (g.setOrphans l).arcs = g.arcs := rfl

@[simp] theorem setOrphans_queue_first0 (g : Graph) (l : List Nat) :
    (g.setOrphans l).queue_first0 = g.queue_first0 := rfl

@[simp] theorem setOrphans_queue_last0 (g : Graph) (l : List Nat) :
    (g.setOrphans l).queue_last0 = g.queue_last0 := rfl

@[simp] theorem setOrphans_queue_first1 (g : Graph) (l : List Nat) :
    (g.setOrphans l).queue_first1 = g.queue_first1 := rfl

@[simp] theorem setOrphans_queue_last1 (g : Graph) (l : List Nat) :
    (g.setOrphans l).queue_last1 = g.queue_last1 := rfl

@[simp] theorem setOrphans_orphans (g : Graph) (l : List Nat) :
    (g.setOrphans l).orphans = l := rfl

@[simp] theorem setOrphans_TIME (g : Graph) (l : List Nat) :
    (g.setOrphans l).TIME = g.TIME := rfl

@[simp] theorem setOrphans_flow (g : Graph) (l : List Nat) :
    (g.setOrphans l).flow = g.flow := rfl

@[simp] theorem setOrphans_maxflow_iteration (g : Graph) (l : List Nat) :
    (g.setOrphans l).maxflow_iteration = g.maxflow_iteration := rfl

@[simp] theorem setOrphans_changed_list (g : Graph) (l : List Nat) :
    (g.setOrphans l).changed_list = g.changed_list := rfl

@[simp] theorem setOrphans_error_function (g : Graph) (l : List Nat) :
    (g.setOrphans l).error_function = g.error_function := rfl

@[simp] theorem setTIME_node_num (g : Graph) (t : Int) :
    (g.setTIME t).node_num = g.node_num := rfl

@[simp] theorem setTIME_arc_num (g : Graph) (t : Int) :
    (g.setTIME t).arc_num = g.arc_num := rfl

@[simp] theorem setTIME_nodes (g : Graph) (t : Int) :
    (g.setTIME t).nodes = g.nodes := rfl

@[simp] theorem setTIME_arcs (g : Graph) (t : Int) :
    (g.setTIME t).arcs = g.arcs := rfl

@[simp] theorem setTIME_queue_first0 (g : Graph) (t : Int) :
    (g.setTIME t).queue_first0 = g.queue_first0 := rfl

@[simp] theorem setTIME_queue_last0 (g : Graph) (t : Int) :
    (g.setTIME t).queue_last0 = g.queue_last0 := rfl

@[simp] theorem setTIME_queue_first1 (g : Graph) (t : Int) :
    (g.setTIME t).queue_first1 = g.queue_first1 := rfl

@[simp] theorem setTIME_queue_last1 (g : Graph) (t : Int) :
    (g.setTIME t).queue_last1 = g.queue_last1 := rfl

@[simp] theorem setTIME_orphans (g : Graph) (t : Int) :
    (g.setTIME t).orphans = g.orphans := rfl

@[simp] theorem setTIME_TIME (g : Graph) (t : Int) :
    (g.setTIME t).TIME = t := rfl

@[simp] theorem setTIME_flow (g : Graph) (t : Int) :
    (g.setTIME t).flow = g.flow := rfl

@[simp] theorem setTIME_maxflow_iteration (g : Graph) (t : Int) :
    (g.setTIME t).maxflow_iteration = g.maxflow_iteration := rfl

@[simp] theorem setTIME_changed_list (g : Graph) (t : Int) :
    (g.setTIME t).changed_list = g.changed_list := rfl

@[simp] theorem setTIME_error_function (g : Graph) (t : Int) :
    (g.setTIME t).error_function = g.error_function := rfl

@[simp] theorem setFlow_node_num (g : Graph) (v : Int) :
    (g.setFlow v).node_num = g.node_num := rfl

@[simp] theorem setFlow_arc_num (g : Graph) (v : Int) :
    (g.setFlow v).arc_num = g.arc_num := rfl

@[simp] theorem setFlow_nodes (g : Graph) (v : Int) :
    (g.setFlow v).nodes = g.nodes := rfl

@[simp] theorem setFlow_arcs (g : Graph) (v : Int) :
    (g.setFlow v).arcs = g.arcs := rfl

@[simp] theorem setFlow_queue_first0 (g : Graph) (v : Int) :
    (g.setFlow v).queue_first0 = g.queue_first0 := rfl

@[simp] theorem setFlow_queue_last0 (g : Graph) (v : Int) :
    (g.setFlow v).queue_last0 = g.queue_last0 := rfl

@[simp] theorem setFlow_queue_first1 (g : Graph) (v : Int) :
    (g.setFlow v).queue_first1 = g.queue_first1 := rfl

@[simp] theorem setFlow_queue_last1 (g : Graph) (v : Int) :
    (g.setFlow v).queue_last1 = g.queue_last1 := rfl

@[simp] theorem setFlow_orphans (g : Graph) (v : Int) :
    (g.setFlow v).orphans = g.orphans := rfl

@[simp] theorem setFlow_TIME (g : Graph) (v : Int) :
    (g.setFlow v).TIME = g.TIME := rfl

@[simp] theorem setFlow_flow (g : Graph) (v : Int) :
    (g.setFlow v).flow = v := rfl

@[simp] theorem setFlow_maxflow_iteration (g : Graph) (v : Int) :
    (g.setFlow v).maxflow_iteration = g.maxflow_iteration := rfl

@[simp] theorem setFlow_changed_list (g : Graph) (v : Int) :
    (g.setFlow v).changed_list = g.changed_list := rfl

@[simp] theorem setFlow_error_function (g : Graph) (v : Int) :
    (g.setFlow v).error_function = g.error_function := rfl

@[simp] theorem setIteration_node_num (g : Graph) (k : Nat) :
    (g.setIteration k).node_num = g.node_num := rfl

@[simp] theorem setIteration_arc_num (g : Graph) (k : Nat) :
    (g.setIteration k).arc_num = g.arc_num := rfl

@[simp] theorem setIteration_nodes (g : Graph) (k : Nat) :
    (g.setIteration k).nodes = g.nodes := rfl

@[simp] theorem setIteration_arcs (g : Graph) (k : Nat) :
    (g.setIteration k).arcs = g.arcs := rfl

@[simp] theorem setIteration_queue_first0 (g : Graph) (k : Nat) :
    (g.setIteration k).queue_first0 = g.queue_first0 := rfl

@[simp] theorem setIteration_queue_last0 (g : Graph) (k : Nat) :
    (g.setIteration k).queue_last0 = g.queue_last0 := rfl

@[simp] theorem setIteration_queue_first1 (g : Graph) (k : Nat) :
    (g.setIteration k).queue_first1 = g.queue_first1 := rfl

@[simp] theorem setIteration_queue_last1 (g : Graph) (k : Nat) :
    (g.setIteration k).queue_last1 = g.queue_last1 := rfl

@[simp] theorem setIteration_orphans (g : Graph) (k : Nat) :
    (g.setIteration k).orphans = g.orphans := rfl

@[simp] theorem setIteration_TIME (g : Graph) (k : Nat) :
    (g.setIteration k).TIME = g.TIME := rfl

@[simp] theorem setIteration_flow (g : Graph) (k : Nat) :
    (g.setIteration k).flow = g.flow := rfl

@[simp] theorem setIteration_maxflow_iteration (g : Graph) (k : Nat) :
    (g.setIteration k).maxflow_iteration = k := rfl

@[simp] theorem setIteration_changed_list (g : Graph) (k : Nat) :
    (g.setIteration k).changed_list = g.changed_list := rfl

@[simp] theorem setIteration_error_function (g : Graph) (k : Nat) :
    (g.setIteration k).error_function = g.error_function := rfl

@[simp] theorem setChanged_node_num (g : Graph) (l : Option (List Nat)) :
    (g.setChanged l).node_num = g.node_num := rfl

@[simp] theorem setChanged_arc_num (g : Graph) (l : Option (List Nat)) :
    (g.setChanged l).arc_num = g.arc_num := rfl

@[simp] theorem setChanged_nodes (g : Graph) (l : Option (List Nat)) :
    (g.setChanged l).nodes = g.nodes := rfl

@[simp] theorem setChanged_arcs (g : Graph) (l : Option (List Nat)) :
    (g.setChanged l).arcs = g.arcs := rfl

@[simp] theorem setChanged_queue_first0 (g : Graph) (l : Option (List Nat)) :
    (g.setChanged l).queue_first0 = g.queue_first0 := rfl

@[simp] theorem setChanged_queue_last0 (g : Graph) (l : Option (List Nat)) :
    (g.setChanged l).queue_last0 = g.queue_last0 := rfl

@[simp] theorem setChanged_queue_first1 (g : Graph) (l : Option (List Nat)) :
    (g.setChanged l).queue_first1 = g.queue_first1 := rfl

@[simp] theorem setChanged_queue_last1 (g : Graph) (l : Option (List Nat)) :
    (g.setChanged l).queue_last1 = g.queue_last1 := rfl

@[simp] theorem setChanged_orphans (g : Graph) (l : Option (List Nat)) :
    (g.setChanged l).orphans = g.orphans := rfl

@[simp] theorem setChanged_TIME (g : Graph) (l : Option (List Nat)) :
    (g.setChanged l).TIME = g.TIME := rfl

@[simp] theorem setChanged_flow (g : Graph) (l : Option (List Nat)) :
    (g.setChanged l).flow = g.flow := rfl

@[simp] theorem setChanged_maxflow_iteration (g : Graph) (l : Option (List Nat)) :
    (g.setChanged l).maxflow_iteration = g.maxflow_iteration := rfl

@[simp] theorem setChanged_changed_list (g : Graph) (l : Option (List Nat)) :
    (g.setChanged l).changed_list = l := rfl

@[simp] theorem setChanged_error_function (g : Graph) (l : Option (List Nat)) :
    (g.setChanged l).error_function = g.error_function := rfl

end Maxflow

namespace Maxflow

/-! ## What the compound writes leave unchanged -/

@[simp] theorem set_active_nodes_first (g : Graph) (i : Nat) (x : Nat) :
    ((set_active g i).nodes x).first = (g.nodes x).first := by
  unfold set_active
  repeat' split
  all_goals simp

@[simp] theorem set_active_nodes_parent (g : Graph) (i : Nat) (x : Nat) :
    ((set_active g i).nodes x).parent = (g.nodes x).parent := by
  unfold set_active
  repeat' split
  all_goals simp

@[simp] theorem set_active_nodes_is_sink (g : Graph) (i : Nat) (x : Nat) :
    ((set_active g i).nodes x).is_sink = (g.nodes x).is_sink := by
  unfold set_active
  repeat' split
  all_goals simp

@[simp] theorem set_active_nodes_TS (g : Graph) (i : Nat) (x : Nat) :
    ((set_active g i).nodes x).TS = (g.nodes x).TS := by
  unfold set_active
  repeat' split
  all_goals simp

@[simp] theorem set_active_nodes_DIST (g : Graph) (i : Nat) (x : Nat) :
    ((set_active g i).nodes x).DIST = (g.nodes x).DIST := by
  unfold set_active
  repeat' split
  all_goals simp

@[simp] theorem set_active_nodes_tr_cap (g : Graph) (i : Nat) (x : Nat) :
    ((set_active g i).nodes x).tr_cap = (g.nodes x).tr_cap := by
  unfold set_active
  repeat' split
  all_goals simp

@[simp] theorem set_active_nodes_is_marked (g : Graph) (i : Nat) (x : Nat) :
    ((set_active g i).nodes x).is_marked = (g.nodes x).is_marked := by
  unfold set_active
  repeat' split
  all_goals simp

@[simp] theorem set_active_nodes_is_in_changed_list (g : Graph) (i : Nat) (x : Nat) :
    ((set_active g i).nodes x).is_in_changed_list = (g.nodes x).is_in_changed_list := by
  unfold set_active
  repeat' split
  all_goals simp

@[simp] theorem set_active_node_num (g : Graph) (i : Nat) :
    (set_active g i).node_num = g.node_num := by
  unfold set_active
  repeat' split
  all_goals simp

@[simp] theorem set_active_arc_num (g : Graph) (i : Nat) :
    (set_active g i).arc_num = g.arc_num := by
  unfold set_active
  repeat' split
  all_goals simp

@[simp] theorem set_active_queue_first0 (g : Graph) (i : Nat) :
    (set_active g i).queue_first0 = g.queue_first0 := by
  unfold set_active
  repeat' split
  all_goals simp

@[simp] theorem set_active_queue_last0 (g : Graph) (i : Nat) :
    (set_active g i).queue_last0 = g.queue_last0 := by
  unfold set_active
  repeat' split
  all_goals simp

@[simp] theorem set_active_orphans (g : Graph) (i : Nat) :
    (set_active g i).orphans = g.orphans := by
  unfold set_active
  repeat' split
  all_goals simp

@[simp] theorem set_active_TIME (g : Graph) (i : Nat) :
    (set_active g i).TIME = g.TIME := by
  unfold set_active
  repeat' split
  all_goals simp

@[simp] theorem set_active_flow (g : Graph) (i : Nat) :
    (set_active g i).flow = g.flow := by
  unfold set_active
  repeat' split
  all_goals simp

@[simp] theorem set_active_maxflow_iteration (g : Graph) (i : Nat) :
    (set_active g i).maxflow_iteration = g.maxflow_iteration := by
  unfold set_active
  repeat' split
  all_goals simp

@[simp] theorem set_active_changed_list (g : Graph) (i : Nat) :
    (set_active g i).changed_list = g.changed_list := by
  unfold set_active
  repeat' split
  all_goals simp

@[simp] theorem set_active_error_function (g : Graph) (i : Nat) :
    (set_active g i).error_function = g.error_function := by
  unfold set_active
  repeat' split
  all_goals simp

@[simp] theorem set_active_arcs (g : Graph) (i : Nat) :
    (set_active g i).arcs = g.arcs := by
  unfold set_active
  repeat' split
  all_goals simp

@[simp] theorem rotate_queues_nodes_first (g : Graph) (x : Nat) :
    ((rotate_queues g).nodes x).first = (g.nodes x).first := by
  unfold rotate_queues
  simp

@[simp] theorem rotate_queues_nodes_next (g : Graph) (x : Nat) :
    ((rotate_queues g).nodes x).next = (g.nodes x).next := by
  unfold rotate_queues
  simp

@[simp] theorem rotate_queues_nodes_parent (g : Graph) (x : Nat) :
    ((rotate_queues g).nodes x).parent = (g.nodes x).parent := by
  unfold rotate_queues
  simp

@[simp] theorem rotate_queues_nodes_is_sink (g : Graph) (x : Nat) :
    ((rotate_queues g).nodes x).is_sink = (g.nodes x).is_sink := by
  unfold rotate_queues
  simp

@[simp] theorem rotate_queues_nodes_TS (g : Graph) (x : Nat) :
    ((rotate_queues g).nodes x).TS = (g.nodes x).TS := by
  unfold rotate_queues
  simp

@[simp] theorem rotate_queues_nodes_DIST (g : Graph) (x : Nat) :
    ((rotate_queues g).nodes x).DIST = (g.nodes x).DIST := by
  unfold rotate_queues
  simp

@[simp] theorem rotate_queues_nodes_tr_cap (g : Graph) (x : Nat) :
    ((rotate_queues g).nodes x).tr_cap = (g.nodes x).tr_cap := by
  unfold rotate_queues
  simp

@[simp] theorem rotate_queues_nodes_is_marked (g : Graph) (x : Nat) :
    ((rotate_queues g).nodes x).is_marked = (g.nodes x).is_marked := by
  unfold rotate_queues
  simp

@[simp] theorem rotate_queues_nodes_is_in_changed_list (g : Graph) (x : Nat) :
    ((rotate_queues g).nodes x).is_in_changed_list = (g.nodes x).is_in_changed_list := by
  unfold rotate_queues
  simp

@[simp] theorem rotate_queues_node_num (g : Graph) :
    (rotate_queues g).node_num = g.node_num := by
  unfold rotate_queues
  simp

@[simp] theorem rotate_queues_arc_num (g : Graph) :
    (rotate_queues g).arc_num = g.arc_num := by
  unfold rotate_queues
  simp

@[simp] theorem rotate_queues_orphans (g : Graph) :
    (rotate_queues g).orphans = g.orphans := by
  unfold rotate_queues
  simp

@[simp] theorem rotate_queues_TIME (g : Graph) :
    (rotate_queues g).TIME = g.TIME := by
  unfold rotate_queues
  simp

@[simp] theorem rotate_queues_flow (g : Graph) :
    (rotate_queues g).flow = g.flow := by
  unfold rotate_queues
  simp

@[simp] theorem rotate_queues_maxflow_iteration (g : Graph) :
    (rotate_queues g).maxflow_iteration = g.maxflow_iteration := by
  unfold rotate_queues
  simp

@[simp] theorem rotate_queues_changed_list (g : Graph) :
    (rotate_queues g).changed_list = g.changed_list := by
  unfold rotate_queues
  simp

@[simp] theorem rotate_queues_error_function (g : Graph) :
    (rotate_queues g).error_function = g.error_function := by
  unfold rotate_queues
  simp

@[simp] theorem rotate_queues_arcs (g : Graph) :
    (rotate_queues g).arcs = g.arcs := by
  unfold rotate_queues
  simp

@[simp] theorem rotate_queues_nodes (g : Graph) :
    (rotate_queues g).nodes = g.nodes := by
  unfold rotate_queues
  simp

@[simp] theorem refill_nodes_first (g : Graph) (x : Nat) :
    ((refill g).nodes x).first = (g.nodes x).first := by
  unfold refill rotate_queues
  repeat' split
  all_goals simp

@[simp] theorem refill_nodes_next (g : Graph) (x : Nat) :
    ((refill g).nodes x).next = (g.nodes x).next := by
  unfold refill rotate_queues
  repeat' split
  all_goals simp

@[simp] theorem refill_nodes_parent (g : Graph) (x : Nat) :
    ((refill g).nodes x).parent = (g.nodes x).parent := by
  unfold refill rotate_queues
  repeat' split
  all_goals simp

@[simp] theorem refill_nodes_is_sink (g : Graph) (x : Nat) :
    ((refill g).nodes x).is_sink = (g.nodes x).is_sink := by
  unfold refill rotate_queues
  repeat' split
  all_goals simp

@[simp] theorem refill_nodes_TS (g : Graph) (x : Nat) :
    ((refill g).nodes x).TS = (g.nodes x).TS := by
  unfold refill rotate_queues
  repeat' split
  all_goals simp

@[simp] theorem refill_nodes_DIST (g : Graph) (x : Nat) :
    ((refill g).nodes x).DIST = (g.nodes x).DIST := by
  unfold refill rotate_queues
  repeat' split
  all_goals simp

@[simp] theorem refill_nodes_tr_cap (g : Graph) (x : Nat) :
    ((refill g).nodes x).tr_cap = (g.nodes x).tr_cap := by
  unfold refill rotate_queues
  repeat' split
  all_goals simp

@[simp] theorem refill_nodes_is_marked (g : Graph) (x : Nat) :
    ((refill g).nodes x).is_marked = (g.nodes x).is_marked := by
  unfold refill rotate_queues
  repeat' split
  all_goals simp

@[simp] theorem refill_nodes_is_in_changed_list (g : Graph) (x : Nat) :
    ((refill g).nodes x).is_in_changed_list = (g.nodes x).is_in_changed_list := by
  unfold refill rotate_queues
  repeat' split
  all_goals simp

@[simp] theorem refill_node_num (g : Graph) :
    (refill g).node_num = g.node_num := by
  unfold refill rotate_queues
  repeat' split
  all_goals simp

@[simp] theorem refill_arc_num (g : Graph) :
    (refill g).arc_num = g.arc_num := by
  unfold refill rotate_queues
  repeat' split
  all_goals simp

@[simp] theorem refill_orphans (g : Graph) :
    (refill g).orphans = g.orphans := by
  unfold refill rotate_queues
  repeat' split
  all_goals simp

@[simp] theorem refill_TIME (g : Graph) :
    (refill g).TIME = g.TIME := by
  unfold refill rotate_queues
  repeat' split
  all_goals simp

@[simp] theorem refill_flow (g : Graph) :
    (refill g).flow = g.flow := by
  unfold refill rotate_queues
  repeat' split
  all_goals simp

@[simp] theorem refill_maxflow_iteration (g : Graph) :
    (refill g).maxflow_iteration = g.maxflow_iteration := by
  unfold refill rotate_queues
  repeat' split
  all_goals simp

@[simp] theorem refill_changed_list (g : Graph) :
    (refill g).changed_list = g.changed_list := by
  unfold refill rotate_queues
  repeat' split
  all_goals simp

@[simp] theorem refill_error_function (g : Graph) :
    (refill g).error_function = g.error_function := by
  unfold refill rotate_queues
  repeat' split
  all_goals simp

@[simp] theorem refill_arcs (g : Graph) :
    (refill g).arcs = g.arcs := by
  unfold refill rotate_queues
  repeat' split
  all_goals simp

@[simp] theorem refill_nodes (g : Graph) :
    (refill g).nodes = g.nodes := by
  unfold refill rotate_queues
  repeat' split
  all_goals simp

@[simp] theorem pop_active_nodes_first (g : Graph) (i : Nat) (x : Nat) :
    ((pop_active g i).nodes x).first = (g.nodes x).first := by
  unfold pop_active
  repeat' split
  all_goals simp

@[simp] theorem pop_active_nodes_parent (g : Graph) (i : Nat) (x : Nat) :
    ((pop_active g i).nodes x).parent = (g.nodes x).parent := by
  unfold pop_active
  repeat' split
  all_goals simp

@[simp] theorem pop_active_nodes_is_sink (g : Graph) (i : Nat) (x : Nat) :
    ((pop_active g i).nodes x).is_sink = (g.nodes x).is_sink := by
  unfold pop_active
  repeat' split
  all_goals simp

@[simp] theorem pop_active_nodes_TS (g : Graph) (i : Nat) (x : Nat) :
    ((pop_active g i).nodes x).TS = (g.nodes x).TS := by
  unfold pop_active
  repeat' split
  all_goals simp

@[simp] theorem pop_active_nodes_DIST (g : Graph) (i : Nat) (x : Nat) :
    ((pop_active g i).nodes x).DIST = (g.nodes x).DIST := by
  unfold pop_active
  repeat' split
  all_goals simp

@[simp] theorem pop_active_nodes_tr_cap (g : Graph) (i : Nat) (x : Nat) :
    ((pop_active g i).nodes x).tr_cap = (g.nodes x).tr_cap := by
  unfold pop_active
  repeat' split
  all_goals simp

@[simp] theorem pop_active_nodes_is_marked (g : Graph) (i : Nat) (x : Nat) :
    ((pop_active g i).nodes x).is_marked = (g.nodes x).is_marked := by
  unfold pop_active
  repeat' split
  all_goals simp

@[simp] theorem pop_active_nodes_is_in_changed_list (g : Graph) (i : Nat) (x : Nat) :
    ((pop_active g i).nodes x).is_in_changed_list = (g.nodes x).is_in_changed_list := by
  unfold pop_active
  repeat' split
  all_goals simp

@[simp] theorem pop_active_node_num (g : Graph) (i : Nat) :
    (pop_active g i).node_num = g.node_num := by
  unfold pop_active
  repeat' split
  all_goals simp

@[simp] theorem pop_active_arc_num (g : Graph) (i : Nat) :
    (pop_active g i).arc_num = g.arc_num := by
  unfold pop_active
  repeat' split
  all_goals simp

@[simp] theorem pop_active_queue_first1 (g : Graph) (i : Nat) :
    (pop_active g i).queue_first1 = g.queue_first1 := by
  unfold pop_active
  repeat' split
  all_goals simp

@[simp] theorem pop_active_queue_last1 (g : Graph) (i : Nat) :
    (pop_active g i).queue_last1 = g.queue_last1 := by
  unfold pop_active
  repeat' split
  all_goals simp

@[simp] theorem pop_active_orphans (g : Graph) (i : Nat) :
    (pop_active g i).orphans = g.orphans := by
  unfold pop_active
  repeat' split
  all_goals simp

@[simp] theorem pop_active_TIME (g : Graph) (i : Nat) :
    (pop_active g i).TIME = g.TIME := by
  unfold pop_active
  repeat' split
  all_goals simp

@[simp] theorem pop_active_flow (g : Graph) (i : Nat) :
    (pop_active g i).flow = g.flow := by
  unfold pop_active
  repeat' split
  all_goals simp

@[simp] theorem pop_active_maxflow_iteration (g : Graph) (i : Nat) :
    (pop_active g i).maxflow_iteration = g.maxflow_iteration := by
  unfold pop_active
  repeat' split
  all_goals simp

@[simp] theorem pop_active_changed_list (g : Graph) (i : Nat) :
    (pop_active g i).changed_list = g.changed_list := by
  unfold pop_active
  repeat' split
  all_goals simp

@[simp] theorem pop_active_error_function (g : Graph) (i : Nat) :
    (pop_active g i).error_function = g.error_function := by
  unfold pop_active
  repeat' split
  all_goals simp

@[simp] theorem pop_active_arcs (g : Graph) (i : Nat) :
    (pop_active g i).arcs = g.arcs := by
  unfold pop_active
  repeat' split
  all_goals simp

@[simp] theorem set_orphan_front_nodes_first (g : Graph) (i : Nat) (x : Nat) :
    ((set_orphan_front g i).nodes x).first = (g.nodes x).first := by
  unfold set_orphan_front
  simp

@[simp] theorem set_orphan_front_nodes_next (g : Graph) (i : Nat) (x : Nat) :
    ((set_orphan_front g i).nodes x).next = (g.nodes x).next := by
  unfold set_orphan_front
  simp

@[simp] theorem set_orphan_front_nodes_is_sink (g : Graph) (i : Nat) (x : Nat) :
    ((set_orphan_front g i).nodes x).is_sink = (g.nodes x).is_sink := by
  unfold set_orphan_front
  simp

@[simp] theorem set_orphan_front_nodes_TS (g : Graph) (i : Nat) (x : Nat) :
    ((set_orphan_front g i).nodes x).TS = (g.nodes x).TS := by
  unfold set_orphan_front
  simp

@[simp] theorem set_orphan_front_nodes_DIST (g : Graph) (i : Nat) (x : Nat) :
    ((set_orphan_front g i).nodes x).DIST = (g.nodes x).DIST := by
  unfold set_orphan_front
  simp

@[simp] theorem set_orphan_front_nodes_tr_cap (g : Graph) (i : Nat) (x : Nat) :
    ((set_orphan_front g i).nodes x).tr_cap = (g.nodes x).tr_cap := by
  unfold set_orphan_front
  simp

@[simp] theorem set_orphan_front_nodes_is_marked (g : Graph) (i : Nat) (x : Nat) :
    ((set_orphan_front g i).nodes x).is_marked = (g.nodes x).is_marked := by
  unfold set_orphan_front
  simp

@[simp] theorem set_orphan_front_nodes_is_in_changed_list (g : Graph) (i : Nat) (x : Nat) :
    ((set_orphan_front g i).nodes x).is_in_changed_list = (g.nodes x).is_in_changed_list := by
  unfold set_orphan_front
  simp

@[simp] theorem set_orphan_front_node_num (g : Graph) (i : Nat) :
    (set_orphan_front g i).node_num = g.node_num := by
  unfold set_orphan_front
  simp

@[simp] theorem set_orphan_front_arc_num (g : Graph) (i : Nat) :
    (set_orphan_front g i).arc_num = g.arc_num := by
  unfold set_orphan_front
  simp

@[simp] theorem set_orphan_front_queue_first0 (g : Graph) (i : Nat) :
    (set_orphan_front g i).queue_first0 = g.queue_first0 := by
  unfold set_orphan_front
  simp

@[simp] theorem set_orphan_front_queue_last0 (g : Graph) (i : Nat) :
    (set_orphan_front g i).queue_last0 = g.queue_last0 := by
  unfold set_orphan_front
  simp

@[simp] theorem set_orphan_front_queue_first1 (g : Graph) (i : Nat) :
    (set_orphan_front g i).queue_first1 = g.queue_first1 := by
  unfold set_orphan_front
  simp

@[simp] theorem set_orphan_front_queue_last1 (g : Graph) (i : Nat) :
    (set_orphan_front g i).queue_last1 = g.queue_last1 := by
  unfold set_orphan_front
  simp

@[simp] theorem set_orphan_front_TIME (g : Graph) (i : Nat) :
    (set_orphan_front g i).TIME = g.TIME := by
  unfold set_orphan_front
  simp

@[simp] theorem set_orphan_front_flow (g : Graph) (i : Nat) :
    (set_orphan_front g i).flow = g.flow := by
  unfold set_orphan_front
  simp

@[simp] theorem set_orphan_front_maxflow_iteration (g : Graph) (i : Nat) :
    (set_orphan_front g i).maxflow_iteration = g.maxflow_iteration := by
  unfold set_orphan_front
  simp

@[simp] theorem set_orphan_front_changed_list (g : Graph) (i : Nat) :
    (set_orphan_front g i).changed_list = g.changed_list := by
  unfold set_orphan_front
  simp

@[simp] theorem set_orphan_front_error_function (g : Graph) (i : Nat) :
    (set_orphan_front g i).error_function = g.error_function := by
  unfold set_orphan_front
  simp

@[simp] theorem set_orphan_front_arcs (g : Graph) (i : Nat) :
    (set_orphan_front g i).arcs = g.arcs := by
  unfold set_orphan_front
  simp

@[simp] theorem set_orphan_rear_nodes_first (g : Graph) (i : Nat) (x : Nat) :
    ((set_orphan_rear g i).nodes x).first = (g.nodes x).first := by
  unfold set_orphan_rear
  simp

@[simp] theorem set_orphan_rear_nodes_next (g : Graph) (i : Nat) (x : Nat) :
    ((set_orphan_rear g i).nodes x).next = (g.nodes x).next := by
  unfold set_orphan_rear
  simp

@[simp] theorem set_orphan_rear_nodes_is_sink (g : Graph) (i : Nat) (x : Nat) :
    ((set_orphan_rear g i).nodes x).is_sink = (g.nodes x).is_sink := by
  unfold set_orphan_rear
  simp

@[simp] theorem set_orphan_rear_nodes_TS (g : Graph) (i : Nat) (x : Nat) :
    ((set_orphan_rear g i).nodes x).TS = (g.nodes x).TS := by
  unfold set_orphan_rear
  simp

@[simp] theorem set_orphan_rear_nodes_DIST (g : Graph) (i : Nat) (x : Nat) :
    ((set_orphan_rear g i).nodes x).DIST = (g.nodes x).DIST := by
  unfold set_orphan_rear
  simp

@[simp] theorem set_orphan_rear_nodes_tr_cap (g : Graph) (i : Nat) (x : Nat) :
    ((set_orphan_rear g i).nodes x).tr_cap = (g.nodes x).tr_cap := by
  unfold set_orphan_rear
  simp

@[simp] theorem set_orphan_rear_nodes_is_marked (g : Graph) (i : Nat) (x : Nat) :
    ((set_orphan_rear g i).nodes x).is_marked = (g.nodes x).is_marked := by
  unfold set_orphan_rear
  simp

@[simp] theorem set_orphan_rear_nodes_is_in_changed_list (g : Graph) (i : Nat) (x : Nat) :
    ((set_orphan_rear g i).nodes x).is_in_changed_list = (g.nodes x).is_in_changed_list := by
  unfold set_orphan_rear
  simp

@[simp] theorem set_orphan_rear_node_num (g : Graph) (i : Nat) :
    (set_orphan_rear g i).node_num = g.node_num := by
  unfold set_orphan_rear
  simp

@[simp] theorem set_orphan_rear_arc_num (g : Graph) (i : Nat) :
    (set_orphan_rear g i).arc_num = g.arc_num := by
  unfold set_orphan_rear
  simp

@[simp] theorem set_orphan_rear_queue_first0 (g : Graph) (i : Nat) :
    (set_orphan_rear g i).queue_first0 = g.queue_first0 := by
  unfold set_orphan_rear
  simp

@[simp] theorem set_orphan_rear_queue_last0 (g : Graph) (i : Nat) :
    (set_orphan_rear g i).queue_last0 = g.queue_last0 := by
  unfold set_orphan_rear
  simp

@[simp] theorem set_orphan_rear_queue_first1 (g : Graph) (i : Nat) :
    (set_orphan_rear g i).queue_first1 = g.queue_first1 := by
  unfold set_orphan_rear
  simp

@[simp] theorem set_orphan_rear_queue_last1 (g : Graph) (i : Nat) :
    (set_orphan_rear g i).queue_last1 = g.queue_last1 := by
  unfold set_orphan_rear
  simp

@[simp] theorem set_orphan_rear_TIME (g : Graph) (i : Nat) :
    (set_orphan_rear g i).TIME = g.TIME := by
  unfold set_orphan_rear
  simp

@[simp] theorem set_orphan_rear_flow (g : Graph) (i : Nat) :
    (set_orphan_rear g i).flow = g.flow := by
  unfold set_orphan_rear
  simp

@[simp] theorem set_orphan_rear_maxflow_iteration (g : Graph) (i : Nat) :
    (set_orphan_rear g i).maxflow_iteration = g.maxflow_iteration := by
  unfold set_orphan_rear
  simp

@[simp] theorem set_orphan_rear_changed_list (g : Graph) (i : Nat) :
    (set_orphan_rear g i).changed_list = g.changed_list := by
  unfold set_orphan_rear
  simp

@[simp] theorem set_orphan_rear_error_function (g : Graph) (i : Nat) :
    (set_orphan_rear g i).error_function = g.error_function := by
  unfold set_orphan_rear
  simp

@[simp] theorem set_orphan_rear_arcs (g : Graph) (i : Nat) :
    (set_orphan_rear g i).arcs = g.arcs := by
  unfold set_orphan_rear
  simp

@[simp] theorem add_to_changed_list_nodes_first (g : Graph) (i : Nat) (x : Nat) :
    ((add_to_changed_list g i).nodes x).first = (g.nodes x).first := by
  unfold add_to_changed_list
  repeat' split
  all_goals simp

@[simp] theorem add_to_changed_list_nodes_next (g : Graph) (i : Nat) (x : Nat) :
    ((add_to_changed_list g i).nodes x).next = (g.nodes x).next := by
  unfold add_to_changed_list
  repeat' split
  all_goals simp

@[simp] theorem add_to_changed_list_nodes_parent (g : Graph) (i : Nat) (x : Nat) :
    ((add_to_changed_list g i).nodes x).parent = (g.nodes x).parent := by
  unfold add_to_changed_list
  repeat' split
  all_goals simp

@[simp] theorem add_to_changed_list_nodes_is_sink (g : Graph) (i : Nat) (x : Nat) :
    ((add_to_changed_list g i).nodes x).is_sink = (g.nodes x).is_sink := by
  unfold add_to_changed_list
  repeat' split
  all_goals simp

@[simp] theorem add_to_changed_list_nodes_TS (g : Graph) (i : Nat) (x : Nat) :
    ((add_to_changed_list g i).nodes x).TS = (g.nodes x).TS := by
  unfold add_to_changed_list
  repeat' split
  all_goals simp

@[simp] theorem add_to_changed_list_nodes_DIST (g : Graph) (i : Nat) (x : Nat) :
    ((add_to_changed_list g i).nodes x).DIST = (g.nodes x).DIST := by
  unfold add_to_changed_list
  repeat' split
  all_goals simp

@[simp] theorem add_to_changed_list_nodes_tr_cap (g : Graph) (i : Nat) (x : Nat) :
    ((add_to_changed_list g i).nodes x).tr_cap = (g.nodes x).tr_cap := by
  unfold add_to_changed_list
  repeat' split
  all_goals simp

@[simp] theorem add_to_changed_list_nodes_is_marked (g : Graph) (i : Nat) (x : Nat) :
    ((add_to_changed_list g i).nodes x).is_marked = (g.nodes x).is_marked := by
  unfold add_to_changed_list
  repeat' split
  all_goals simp

@[simp] theorem add_to_changed_list_node_num (g : Graph) (i : Nat) :
    (add_to_changed_list g i).node_num = g.node_num := by
  unfold add_to_changed_list
  repeat' split
  all_goals simp

@[simp] theorem add_to_changed_list_arc_num (g : Graph) (i : Nat) :
    (add_to_changed_list g i).arc_num = g.arc_num := by
  unfold add_to_changed_list
  repeat' split
  all_goals simp

@[simp] theorem add_to_changed_list_queue_first0 (g : Graph) (i : Nat) :
    (add_to_changed_list g i).queue_first0 = g.queue_first0 := by
  unfold add_to_changed_list
  repeat' split
  all_goals simp

@[simp] theorem add_to_changed_list_queue_last0 (g : Graph) (i : Nat) :
    (add_to_changed_list g i).queue_last0 = g.queue_last0 := by
  unfold add_to_changed_list
  repeat' split
  all_goals simp

@[simp] theorem add_to_changed_list_queue_first1 (g : Graph) (i : Nat) :
    (add_to_changed_list g i).queue_first1 = g.queue_first1 := by
  unfold add_to_changed_list
  repeat' split
  all_goals simp

@[simp] theorem add_to_changed_list_queue_last1 (g : Graph) (i : Nat) :
    (add_to_changed_list g i).queue_last1 = g.queue_last1 := by
  unfold add_to_changed_list
  repeat' split
  all_goals simp

@[simp] theorem add_to_changed_list_orphans (g : Graph) (i : Nat) :
    (add_to_changed_list g i).orphans = g.orphans := by
  unfold add_to_changed_list
  repeat' split
  all_goals simp

@[simp] theorem add_to_changed_list_TIME (g : Graph) (i : Nat) :
    (add_to_changed_list g i).TIME = g.TIME := by
  unfold add_to_changed_list
  repeat' split
  all_goals simp

@[simp] theorem add_to_changed_list_flow (g : Graph) (i : Nat) :
    (add_to_changed_list g i).flow = g.flow := by
  unfold add_to_changed_list
  repeat' split
  all_goals simp

@[simp] theorem add_to_changed_list_maxflow_iteration (g : Graph) (i : Nat) :
    (add_to_changed_list g i).maxflow_iteration = g.maxflow_iteration := by
  unfold add_to_changed_list
  repeat' split
  all_goals simp

@[simp] theorem add_to_changed_list_error_function (g : Graph) (i : Nat) :
    (add_to_changed_list g i).error_function = g.error_function := by
  unfold add_to_changed_list
  repeat' split
  all_goals simp

@[simp] theorem add_to_changed_list_arcs (g : Graph) (i : Nat) :
    (add_to_changed_list g i).arcs = g.arcs := by
  unfold add_to_changed_list
  repeat' split
  all_goals simp

@[simp] theorem init_node_nodes_first (g : Graph) (i : Nat) (x : Nat) :
    ((init_node g i).nodes x).first = (g.nodes x).first := by
  unfold init_node init_clear set_active
  repeat' split
  all_goals simp

@[simp] theorem init_node_nodes_tr_cap (g : Graph) (i : Nat) (x : Nat) :
    ((init_node g i).nodes x).tr_cap = (g.nodes x).tr_cap := by
  unfold init_node init_clear set_active
  repeat' split
  all_goals simp

@[simp] theorem init_node_node_num (g : Graph) (i : Nat) :
    (init_node g i).node_num = g.node_num := by
  unfold init_node init_clear set_active
  repeat' split
  all_goals simp

@[simp] theorem init_node_arc_num (g : Graph) (i : Nat) :
    (init_node g i).arc_num = g.arc_num := by
  unfold init_node init_clear set_active
  repeat' split
  all_goals simp

@[simp] theorem init_node_queue_first0 (g : Graph) (i : Nat) :
    (init_node g i).queue_first0 = g.queue_first0 := by
  unfold init_node init_clear set_active
  repeat' split
  all_goals simp

@[simp] theorem init_node_queue_last0 (g : Graph) (i : Nat) :
    (init_node g i).queue_last0 = g.queue_last0 := by
  unfold init_node init_clear set_active
  repeat' split
  all_goals simp

@[simp] theorem init_node_orphans (g : Graph) (i : Nat) :
    (init_node g i).orphans = g.orphans := by
  unfold init_node init_clear set_active
  repeat' split
  all_goals simp

@[simp] theorem init_node_TIME (g : Graph) (i : Nat) :
    (init_node g i).TIME = g.TIME := by
  unfold init_node init_clear set_active
  repeat' split
  all_goals simp

@[simp] theorem init_node_flow (g : Graph) (i : Nat) :
    (init_node g i).flow = g.flow := by
  unfold init_node init_clear set_active
  repeat' split
  all_goals simp

@[simp] theorem init_node_maxflow_iteration (g : Graph) (i : Nat) :
    (init_node g i).maxflow_iteration = g.maxflow_iteration := by
  unfold init_node init_clear set_active
  repeat' split
  all_goals simp

@[simp] theorem init_node_changed_list (g : Graph) (i : Nat) :
    (init_node g i).changed_list = g.changed_list := by
  unfold init_node init_clear set_active
  repeat' split
  all_goals simp

@[simp] theorem init_node_error_function (g : Graph) (i : Nat) :
    (init_node g i).error_function = g.error_function := by
  unfold init_node init_clear set_active
  repeat' split
  all_goals simp

@[simp] theorem init_node_arcs (g : Graph) (i : Nat) :
    (init_node g i).arcs = g.arcs := by
  unfold init_node init_clear set_active
  repeat' split
  all_goals simp

@[simp] theorem push_root_nodes_first (g : Graph) (i : Nat) (d : Int) (x : Nat) :
    ((push_root g i d).nodes x).first = (g.nodes x).first := by
  unfold push_root set_orphan_front
  repeat' split
  all_goals simp

@[simp] theorem push_root_nodes_next (g : Graph) (i : Nat) (d : Int) (x : Nat) :
    ((push_root g i d).nodes x).next = (g.nodes x).next := by
  unfold push_root set_orphan_front
  repeat' split
  all_goals simp

@[simp] theorem push_root_nodes_is_sink (g : Graph) (i : Nat) (d : Int) (x : Nat) :
    ((push_root g i d).nodes x).is_sink = (g.nodes x).is_sink := by
  unfold push_root set_orphan_front
  repeat' split
  all_goals simp

@[simp] theorem push_root_nodes_TS (g : Graph) (i : Nat) (d : Int) (x : Nat) :
    ((push_root g i d).nodes x).TS = (g.nodes x).TS := by
  unfold push_root set_orphan_front
  repeat' split
  all_goals simp

@[simp] theorem push_root_nodes_DIST (g : Graph) (i : Nat) (d : Int) (x : Nat) :
    ((push_root g i d).nodes x).DIST = (g.nodes x).DIST := by
  unfold push_root set_orphan_front
  repeat' split
  all_goals simp

@[simp] theorem push_root_nodes_is_marked (g : Graph) (i : Nat) (d : Int) (x : Nat) :
    ((push_root g i d).nodes x).is_marked = (g.nodes x).is_marked := by
  unfold push_root set_orphan_front
  repeat' split
  all_goals simp

@[simp] theorem push_root_nodes_is_in_changed_list (g : Graph) (i : Nat) (d : Int) (x : Nat) :
    ((push_root g i d).nodes x).is_in_changed_list = (g.nodes x).is_in_changed_list := by
  unfold push_root set_orphan_front
  repeat' split
  all_goals simp

@[simp] theorem push_root_node_num (g : Graph) (i : Nat) (d : Int) :
    (push_root g i d).node_num = g.node_num := by
  unfold push_root set_orphan_front
  repeat' split
  all_goals simp

@[simp] theorem push_root_arc_num (g : Graph) (i : Nat) (d : Int) :
    (push_root g i d).arc_num = g.arc_num := by
  unfold push_root set_orphan_front
  repeat' split
  all_goals simp

@[simp] theorem push_root_queue_first0 (g : Graph) (i : Nat) (d : Int) :
    (push_root g i d).queue_first0 = g.queue_first0 := by
  unfold push_root set_orphan_front
  repeat' split
  all_goals simp

@[simp] theorem push_root_queue_last0 (g : Graph) (i : Nat) (d : Int) :
    (push_root g i d).queue_last0 = g.queue_last0 := by
  unfold push_root set_orphan_front
  repeat' split
  all_goals simp

@[simp] theorem push_root_queue_first1 (g : Graph) (i : Nat) (d : Int) :
    (push_root g i d).queue_first1 = g.queue_first1 := by
  unfold push_root set_orphan_front
  repeat' split
  all_goals simp

@[simp] theorem push_root_queue_last1 (g : Graph) (i : Nat) (d : Int) :
    (push_root g i d).queue_last1 = g.queue_last1 := by
  unfold push_root set_orphan_front
  repeat' split
  all_goals simp

@[simp] theorem push_root_TIME (g : Graph) (i : Nat) (d : Int) :
    (push_root g i d).TIME = g.TIME := by
  unfold push_root set_orphan_front
  repeat' split
  all_goals simp

@[simp] theorem push_root_flow (g : Graph) (i : Nat) (d : Int) :
    (push_root g i d).flow = g.flow := by
  unfold push_root set_orphan_front
  repeat' split
  all_goals simp

@[simp] theorem push_root_maxflow_iteration (g : Graph) (i : Nat) (d : Int) :
    (push_root g i d).maxflow_iteration = g.maxflow_iteration := by
  unfold push_root set_orphan_front
  repeat' split
  all_goals simp

@[simp] theorem push_root_changed_list (g : Graph) (i : Nat) (d : Int) :
    (push_root g i d).changed_list = g.changed_list := by
  unfold push_root set_orphan_front
  repeat' split
  all_goals simp

@[simp] theorem push_root_error_function (g : Graph) (i : Nat) (d : Int) :
    (push_root g i d).error_function = g.error_function := by
  unfold push_root set_orphan_front
  repeat' split
  all_goals simp

@[simp] theorem push_root_arcs (g : Graph) (i : Nat) (d : Int) :
    (push_root g i d).arcs = g.arcs := by
  unfold push_root set_orphan_front
  repeat' split
  all_goals simp

@[simp] theorem push_pair_nodes_first (g : Graph) (up down : Nat) (b : Int) (x : Nat) :
    ((push_pair g up down b).nodes x).first = (g.nodes x).first := by
  unfold push_pair
  simp

@[simp] theorem push_pair_nodes_next (g : Graph) (up down : Nat) (b : Int) (x : Nat) :
    ((push_pair g up down b).nodes x).next = (g.nodes x).next := by
  unfold push_pair
  simp

@[simp] theorem push_pair_nodes_parent (g : Graph) (up down : Nat) (b : Int) (x : Nat) :
    ((push_pair g up down b).nodes x).parent = (g.nodes x).parent := by
  unfold push_pair
  simp

@[simp] theorem push_pair_nodes_is_sink (g : Graph) (up down : Nat) (b : Int) (x : Nat) :
    ((push_pair g up down b).nodes x).is_sink = (g.nodes x).is_sink := by
  unfold push_pair
  simp

@[simp] theorem push_pair_nodes_TS (g : Graph) (up down : Nat) (b : Int) (x : Nat) :
    ((push_pair g up down b).nodes x).TS = (g.nodes x).TS := by
  unfold push_pair
  simp

@[simp] theorem push_pair_nodes_DIST (g : Graph) (up down : Nat) (b : Int) (x : Nat) :
    ((push_pair g up down b).nodes x).DIST = (g.nodes x).DIST := by
  unfold push_pair
  simp

@[simp] theorem push_pair_nodes_tr_cap (g : Graph) (up down : Nat) (b : Int) (x : Nat) :
    ((push_pair g up down b).nodes x).tr_cap = (g.nodes x).tr_cap := by
  unfold push_pair
  simp

@[simp] theorem push_pair_nodes_is_marked (g : Graph) (up down : Nat) (b : Int) (x : Nat) :
    ((push_pair g up down b).nodes x).is_marked = (g.nodes x).is_marked := by
  unfold push_pair
  simp

@[simp] theorem push_pair_nodes_is_in_changed_list (g : Graph) (up down : Nat) (b : Int) (x : Nat) :
    ((push_pair g up down b).nodes x).is_in_changed_list = (g.nodes x).is_in_changed_list := by
  unfold push_pair
  simp

@[simp] theorem push_pair_node_num (g : Graph) (up down : Nat) (b : Int) :
    (push_pair g up down b).node_num = g.node_num := by
  unfold push_pair
  simp

@[simp] theorem push_pair_arc_num (g : Graph) (up down : Nat) (b : Int) :
    (push_pair g up down b).arc_num = g.arc_num := by
  unfold push_pair
  simp

@[simp] theorem push_pair_queue_first0 (g : Graph) (up down : Nat) (b : Int) :
    (push_pair g up down b).queue_first0 = g.queue_first0 := by
  unfold push_pair
  simp

@[simp] theorem push_pair_queue_last0 (g : Graph) (up down : Nat) (b : Int) :
    (push_pair g up down b).queue_last0 = g.queue_last0 := by
  unfold push_pair
  simp

@[simp] theorem push_pair_queue_first1 (g : Graph) (up down : Nat) (b : Int) :
    (push_pair g up down b).queue_first1 = g.queue_first1 := by
  unfold push_pair
  simp

@[simp] theorem push_pair_queue_last1 (g : Graph) (up down : Nat) (b : Int) :
    (push_pair g up down b).queue_last1 = g.queue_last1 := by
  unfold push_pair
  simp

@[simp] theorem push_pair_orphans (g : Graph) (up down : Nat) (b : Int) :
    (push_pair g up down b).orphans = g.orphans := by
  unfold push_pair
  simp

@[simp] theorem push_pair_TIME (g : Graph) (up down : Nat) (b : Int) :
    (push_pair g up down b).TIME = g.TIME := by
  unfold push_pair
  simp

@[simp] theorem push_pair_flow (g : Graph) (up down : Nat) (b : Int) :
    (push_pair g up down b).flow = g.flow := by
  unfold push_pair
  simp

@[simp] theorem push_pair_maxflow_iteration (g : Graph) (up down : Nat) (b : Int) :
    (push_pair g up down b).maxflow_iteration = g.maxflow_iteration := by
  unfold push_pair
  simp

@[simp] theorem push_pair_changed_list (g : Graph) (up down : Nat) (b : Int) :
    (push_pair g up down b).changed_list = g.changed_list := by
  unfold push_pair
  simp

@[simp] theorem push_pair_error_function (g : Graph) (up down : Nat) (b : Int) :
    (push_pair g up down b).error_function = g.error_function := by
  unfold push_pair
  simp

@[simp] theorem push_pair_arcs_head (g : Graph) (up down : Nat) (b : Int) (x : Nat) :
    ((push_pair g up down b).arcs x).head = (g.arcs x).head := by
  unfold push_pair
  simp

@[simp] theorem push_pair_arcs_next (g : Graph) (up down : Nat) (b : Int) (x : Nat) :
    ((push_pair g up down b).arcs x).next = (g.arcs x).next := by
  unfold push_pair
  simp

@[simp] theorem push_pair_arcs_sister (g : Graph) (up down : Nat) (b : Int) (x : Nat) :
    ((push_pair g up down b).arcs x).sister = (g.arcs x).sister := by
  unfold push_pair
  simp

@[simp] theorem push_pair_nodes (g : Graph) (up down : Nat) (b : Int) :
    (push_pair g up down b).nodes = g.nodes := by
  unfold push_pair
  simp

@[simp] theorem push_source_arc_nodes_first (g : Graph) (i a : Nat) (b : Int) (x : Nat) :
    ((push_source_arc g i a b).nodes x).first = (g.nodes x).first := by
  unfold push_source_arc push_pair set_orphan_front
  repeat' split
  all_goals simp

@[simp] theorem push_source_arc_nodes_next (g : Graph) (i a : Nat) (b : Int) (x : Nat) :
    ((push_source_arc g i a b).nodes x).next = (g.nodes x).next := by
  unfold push_source_arc push_pair set_orphan_front
  repeat' split
  all_goals simp

@[simp] theorem push_source_arc_nodes_is_sink (g : Graph) (i a : Nat) (b : Int) (x : Nat) :
    ((push_source_arc g i a b).nodes x).is_sink = (g.nodes x).is_sink := by
  unfold push_source_arc push_pair set_orphan_front
  repeat' split
  all_goals simp

@[simp] theorem push_source_arc_nodes_TS (g : Graph) (i a : Nat) (b : Int) (x : Nat) :
    ((push_source_arc g i a b).nodes x).TS = (g.nodes x).TS := by
  unfold push_source_arc push_pair set_orphan_front
  repeat' split
  all_goals simp

@[simp] theorem push_source_arc_nodes_DIST (g : Graph) (i a : Nat) (b : Int) (x : Nat) :
    ((push_source_arc g i a b).nodes x).DIST = (g.nodes x).DIST := by
  unfold push_source_arc push_pair set_orphan_front
  repeat' split
  all_goals simp

@[simp] theorem push_source_arc_nodes_tr_cap (g : Graph) (i a : Nat) (b : Int) (x : Nat) :
    ((push_source_arc g i a b).nodes x).tr_cap = (g.nodes x).tr_cap := by
  unfold push_source_arc push_pair set_orphan_front
  repeat' split
  all_goals simp

@[simp] theorem push_source_arc_nodes_is_marked (g : Graph) (i a : Nat) (b : Int) (x : Nat) :
    ((push_source_arc g i a b).nodes x).is_marked = (g.nodes x).is_marked := by
  unfold push_source_arc push_pair set_orphan_front
  repeat' split
  all_goals simp

@[simp] theorem push_source_arc_nodes_is_in_changed_list (g : Graph) (i a : Nat) (b : Int) (x : Nat) :
    ((push_source_arc g i a b).nodes x).is_in_changed_list = (g.nodes x).is_in_changed_list := by
  unfold push_source_arc push_pair set_orphan_front
  repeat' split
  all_goals simp

@[simp] theorem push_source_arc_node_num (g : Graph) (i a : Nat) (b : Int) :
    (push_source_arc g i a b).node_num = g.node_num := by
  unfold push_source_arc push_pair set_orphan_front
  repeat' split
  all_goals simp

@[simp] theorem push_source_arc_arc_num (g : Graph) (i a : Nat) (b : Int) :
    (push_source_arc g i a b).arc_num = g.arc_num := by
  unfold push_source_arc push_pair set_orphan_front
  repeat' split
  all_goals simp

@[simp] theorem push_source_arc_queue_first0 (g : Graph) (i a : Nat) (b : Int) :
    (push_source_arc g i a b).queue_first0 = g.queue_first0 := by
  unfold push_source_arc push_pair set_orphan_front
  repeat' split
  all_goals simp

@[simp] theorem push_source_arc_queue_last0 (g : Graph) (i a : Nat) (b : Int) :
    (push_source_arc g i a b).queue_last0 = g.queue_last0 := by
  unfold push_source_arc push_pair set_orphan_front
  repeat' split
  all_goals simp

@[simp] theorem push_source_arc_queue_first1 (g : Graph) (i a : Nat) (b : Int) :
    (push_source_arc g i a b).queue_first1 = g.queue_first1 := by
  unfold push_source_arc push_pair set_orphan_front
  repeat' split
  all_goals simp

@[simp] theorem push_source_arc_queue_last1 (g : Graph) (i a : Nat) (b : Int) :
    (push_source_arc g i a b).queue_last1 = g.queue_last1 := by
  unfold push_source_arc push_pair set_orphan_front
  repeat' split
  all_goals simp

@[simp] theorem push_source_arc_TIME (g : Graph) (i a : Nat) (b : Int) :
    (push_source_arc g i a b).TIME = g.TIME := by
  unfold push_source_arc push_pair set_orphan_front
  repeat' split
  all_goals simp

@[simp] theorem push_source_arc_flow (g : Graph) (i a : Nat) (b : Int) :
    (push_source_arc g i a b).flow = g.flow := by
  unfold push_source_arc push_pair set_orphan_front
  repeat' split
  all_goals simp

@[simp] theorem push_source_arc_maxflow_iteration (g : Graph) (i a : Nat) (b : Int) :
    (push_source_arc g i a b).maxflow_iteration = g.maxflow_iteration := by
  unfold push_source_arc push_pair set_orphan_front
  repeat' split
  all_goals simp

@[simp] theorem push_source_arc_changed_list (g : Graph) (i a : Nat) (b : Int) :
    (push_source_arc g i a b).changed_list = g.changed_list := by
  unfold push_source_arc push_pair set_orphan_front
  repeat' split
  all_goals simp

@[simp] theorem push_source_arc_error_function (g : Graph) (i a : Nat) (b : Int) :
    (push_source_arc g i a b).error_function = g.error_function := by
  unfold push_source_arc push_pair set_orphan_front
  repeat' split
  all_goals simp

@[simp] theorem push_source_arc_arcs_head (g : Graph) (i a : Nat) (b : Int) (x : Nat) :
    ((push_source_arc g i a b).arcs x).head = (g.arcs x).head := by
  unfold push_source_arc push_pair set_orphan_front
  repeat' split
  all_goals simp

@[simp] theorem push_source_arc_arcs_next (g : Graph) (i a : Nat) (b : Int) (x : Nat) :
    ((push_source_arc g i a b).arcs x).next = (g.arcs x).next := by
  unfold push_source_arc push_pair set_orphan_front
  repeat' split
  all_goals simp

@[simp] theorem push_source_arc_arcs_sister (g : Graph) (i a : Nat) (b : Int) (x : Nat) :
    ((push_source_arc g i a b).arcs x).sister = (g.arcs x).sister := by
  unfold push_source_arc push_pair set_orphan_front
  repeat' split
  all_goals simp

@[simp] theorem push_sink_arc_nodes_first (g : Graph) (i a : Nat) (b : Int) (x : Nat) :
    ((push_sink_arc g i a b).nodes x).first = (g.nodes x).first := by
  unfold push_sink_arc push_pair set_orphan_front
  repeat' split
  all_goals simp

@[simp] theorem push_sink_arc_nodes_next (g : Graph) (i a : Nat) (b : Int) (x : Nat) :
    ((push_sink_arc g i a b).nodes x).next = (g.nodes x).next := by
  unfold push_sink_arc push_pair set_orphan_front
  repeat' split
  all_goals simp

@[simp] theorem push_sink_arc_nodes_is_sink (g : Graph) (i a : Nat) (b : Int) (x : Nat) :
    ((push_sink_arc g i a b).nodes x).is_sink = (g.nodes x).is_sink := by
  unfold push_sink_arc push_pair set_orphan_front
  repeat' split
  all_goals simp

@[simp] theorem push_sink_arc_nodes_TS (g : Graph) (i a : Nat) (b : Int) (x : Nat) :
    ((push_sink_arc g i a b).nodes x).TS = (g.nodes x).TS := by
  unfold push_sink_arc push_pair set_orphan_front
  repeat' split
  all_goals simp

@[simp] theorem push_sink_arc_nodes_DIST (g : Graph) (i a : Nat) (b : Int) (x : Nat) :
    ((push_sink_arc g i a b).nodes x).DIST = (g.nodes x).DIST := by
  unfold push_sink_arc push_pair set_orphan_front
  repeat' split
  all_goals simp

@[simp] theorem push_sink_arc_nodes_tr_cap (g : Graph) (i a : Nat) (b : Int) (x : Nat) :
    ((push_sink_arc g i a b).nodes x).tr_cap = (g.nodes x).tr_cap := by
  unfold push_sink_arc push_pair set_orphan_front
  repeat' split
  all_goals simp

@[simp] theorem push_sink_arc_nodes_is_marked (g : Graph) (i a : Nat) (b : Int) (x : Nat) :
    ((push_sink_arc g i a b).nodes x).is_marked = (g.nodes x).is_marked := by
  unfold push_sink_arc push_pair set_orphan_front
  repeat' split
  all_goals simp

@[simp] theorem push_sink_arc_nodes_is_in_changed_list (g : Graph) (i a : Nat) (b : Int) (x : Nat) :
    ((push_sink_arc g i a b).nodes x).is_in_changed_list = (g.nodes x).is_in_changed_list := by
  unfold push_sink_arc push_pair set_orphan_front
  repeat' split
  all_goals simp

@[simp] theorem push_sink_arc_node_num (g : Graph) (i a : Nat) (b : Int) :
    (push_sink_arc g i a b).node_num = g.node_num := by
  unfold push_sink_arc push_pair set_orphan_front
  repeat' split
  all_goals simp

@[simp] theorem push_sink_arc_arc_num (g : Graph) (i a : Nat) (b : Int) :
    (push_sink_arc g i a b).arc_num = g.arc_num := by
  unfold push_sink_arc push_pair set_orphan_front
  repeat' split
  all_goals simp

@[simp] theorem push_sink_arc_queue_first0 (g : Graph) (i a : Nat) (b : Int) :
    (push_sink_arc g i a b).queue_first0 = g.queue_first0 := by
  unfold push_sink_arc push_pair set_orphan_front
  repeat' split
  all_goals simp

@[simp] theorem push_sink_arc_queue_last0 (g : Graph) (i a : Nat) (b : Int) :
    (push_sink_arc g i a b).queue_last0 = g.queue_last0 := by
  unfold push_sink_arc push_pair set_orphan_front
  repeat' split
  all_goals simp

@[simp] theorem push_sink_arc_queue_first1 (g : Graph) (i a : Nat) (b : Int) :
    (push_sink_arc g i a b).queue_first1 = g.queue_first1 := by
  unfold push_sink_arc push_pair set_orphan_front
  repeat' split
  all_goals simp

@[simp] theorem push_sink_arc_queue_last1 (g : Graph) (i a : Nat) (b : Int) :
    (push_sink_arc g i a b).queue_last1 = g.queue_last1 := by
  unfold push_sink_arc push_pair set_orphan_front
  repeat' split
  all_goals simp

@[simp] theorem push_sink_arc_TIME (g : Graph) (i a : Nat) (b : Int) :
    (push_sink_arc g i a b).TIME = g.TIME := by
  unfold push_sink_arc push_pair set_orphan_front
  repeat' split
  all_goals simp

@[simp] theorem push_sink_arc_flow (g : Graph) (i a : Nat) (b : Int) :
    (push_sink_arc g i a b).flow = g.flow := by
  unfold push_sink_arc push_pair set_orphan_front
  repeat' split
  all_goals simp

@[simp] theorem push_sink_arc_maxflow_iteration (g : Graph) (i a : Nat) (b : Int) :
    (push_sink_arc g i a b).maxflow_iteration = g.maxflow_iteration := by
  unfold push_sink_arc push_pair set_orphan_front
  repeat' split
  all_goals simp

@[simp] theorem push_sink_arc_changed_list (g : Graph) (i a : Nat) (b : Int) :
    (push_sink_arc g i a b).changed_list = g.changed_list := by
  unfold push_sink_arc push_pair set_orphan_front
  repeat' split
  all_goals simp

@[simp] theorem push_sink_arc_error_function (g : Graph) (i a : Nat) (b : Int) :
    (push_sink_arc g i a b).error_function = g.error_function := by
  unfold push_sink_arc push_pair set_orphan_front
  repeat' split
  all_goals simp

@[simp] theorem push_sink_arc_arcs_head (g : Graph) (i a : Nat) (b : Int) (x : Nat) :
    ((push_sink_arc g i a b).arcs x).head = (g.arcs x).head := by
  unfold push_sink_arc push_pair set_orphan_front
  repeat' split
  all_goals simp

@[simp] theorem push_sink_arc_arcs_next (g : Graph) (i a : Nat) (b : Int) (x : Nat) :
    ((push_sink_arc g i a b).arcs x).next = (g.arcs x).next := by
  unfold push_sink_arc push_pair set_orphan_front
  repeat' split
  all_goals simp

@[simp] theorem push_sink_arc_arcs_sister (g : Graph) (i a : Nat) (b : Int) (x : Nat) :
    ((push_sink_arc g i a b).arcs x).sister = (g.arcs x).sister := by
  unfold push_sink_arc push_pair set_orphan_front
  repeat' split
  all_goals simp

@[simp] theorem neighbor_step_nodes_first (g : Graph) (sink : Bool) (i a0 : Nat) (x : Nat) :
    ((neighbor_step g sink i a0).nodes x).first = (g.nodes x).first := by
  unfold neighbor_step set_active set_orphan_rear
  repeat' split
  all_goals simp

@[simp] theorem neighbor_step_nodes_is_sink (g : Graph) (sink : Bool) (i a0 : Nat) (x : Nat) :
    ((neighbor_step g sink i a0).nodes x).is_sink = (g.nodes x).is_sink := by
  unfold neighbor_step set_active set_orphan_rear
  repeat' split
  all_goals simp

@[simp] theorem neighbor_step_nodes_TS (g : Graph) (sink : Bool) (i a0 : Nat) (x : Nat) :
    ((neighbor_step g sink i a0).nodes x).TS = (g.nodes x).TS := by
  unfold neighbor_step set_active set_orphan_rear
  repeat' split
  all_goals simp

@[simp] theorem neighbor_step_nodes_DIST (g : Graph) (sink : Bool) (i a0 : Nat) (x : Nat) :
    ((neighbor_step g sink i a0).nodes x).DIST = (g.nodes x).DIST := by
  unfold neighbor_step set_active set_orphan_rear
  repeat' split
  all_goals simp

@[simp] theorem neighbor_step_nodes_tr_cap (g : Graph) (sink : Bool) (i a0 : Nat) (x : Nat) :
    ((neighbor_step g sink i a0).nodes x).tr_cap = (g.nodes x).tr_cap := by
  unfold neighbor_step set_active set_orphan_rear
  repeat' split
  all_goals simp

@[simp] theorem neighbor_step_nodes_is_marked (g : Graph) (sink : Bool) (i a0 : Nat) (x : Nat) :
    ((neighbor_step g sink i a0).nodes x).is_marked = (g.nodes x).is_marked := by
  unfold neighbor_step set_active set_orphan_rear
  repeat' split
  all_goals simp

@[simp] theorem neighbor_step_nodes_is_in_changed_list (g : Graph) (sink : Bool) (i a0 : Nat) (x : Nat) :
    ((neighbor_step g sink i a0).nodes x).is_in_changed_list = (g.nodes x).is_in_changed_list := by
  unfold neighbor_step set_active set_orphan_rear
  repeat' split
  all_goals simp

@[simp] theorem neighbor_step_node_num (g : Graph) (sink : Bool) (i a0 : Nat) :
    (neighbor_step g sink i a0).node_num = g.node_num := by
  unfold neighbor_step set_active set_orphan_rear
  repeat' split
  all_goals simp

@[simp] theorem neighbor_step_arc_num (g : Graph) (sink : Bool) (i a0 : Nat) :
    (neighbor_step g sink i a0).arc_num = g.arc_num := by
  unfold neighbor_step set_active set_orphan_rear
  repeat' split
  all_goals simp

@[simp] theorem neighbor_step_queue_first0 (g : Graph) (sink : Bool) (i a0 : Nat) :
    (neighbor_step g sink i a0).queue_first0 = g.queue_first0 := by
  unfold neighbor_step set_active set_orphan_rear
  repeat' split
  all_goals simp

@[simp] theorem neighbor_step_queue_last0 (g : Graph) (sink : Bool) (i a0 : Nat) :
    (neighbor_step g sink i a0).queue_last0 = g.queue_last0 := by
  unfold neighbor_step set_active set_orphan_rear
  repeat' split
  all_goals simp

@[simp] theorem neighbor_step_TIME (g : Graph) (sink : Bool) (i a0 : Nat) :
    (neighbor_step g sink i a0).TIME = g.TIME := by
  unfold neighbor_step set_active set_orphan_rear
  repeat' split
  all_goals simp

@[simp] theorem neighbor_step_flow (g : Graph) (sink : Bool) (i a0 : Nat) :
    (neighbor_step g sink i a0).flow = g.flow := by
  unfold neighbor_step set_active set_orphan_rear
  repeat' split
  all_goals simp

@[simp] theorem neighbor_step_maxflow_iteration (g : Graph) (sink : Bool) (i a0 : Nat) :
    (neighbor_step g sink i a0).maxflow_iteration = g.maxflow_iteration := by
  unfold neighbor_step set_active set_orphan_rear
  repeat' split
  all_goals simp

@[simp] theorem neighbor_step_changed_list (g : Graph) (sink : Bool) (i a0 : Nat) :
    (neighbor_step g sink i a0).changed_list = g.changed_list := by
  unfold neighbor_step set_active set_orphan_rear
  repeat' split
  all_goals simp

@[simp] theorem neighbor_step_error_function (g : Graph) (sink : Bool) (i a0 : Nat) :
    (neighbor_step g sink i a0).error_function = g.error_function := by
  unfold neighbor_step set_active set_orphan_rear
  repeat' split
  all_goals simp

@[simp] theorem neighbor_step_arcs (g : Graph) (sink : Bool) (i a0 : Nat) :
    (neighbor_step g sink i a0).arcs = g.arcs := by
  unfold neighbor_step set_active set_orphan_rear
  repeat' split
  all_goals simp

@[simp] theorem adopt_parent_nodes_first (g : Graph) (i amin : Nat) (dmin : Int) (x : Nat) :
    ((adopt_parent g i amin dmin).nodes x).first = (g.nodes x).first := by
  unfold adopt_parent
  simp

@[simp] theorem adopt_parent_nodes_next (g : Graph) (i amin : Nat) (dmin : Int) (x : Nat) :
    ((adopt_parent g i amin dmin).nodes x).next = (g.nodes x).next := by
  unfold adopt_parent
  simp

@[simp] theorem adopt_parent_nodes_is_sink (g : Graph) (i amin : Nat) (dmin : Int) (x : Nat) :
    ((adopt_parent g i amin dmin).nodes x).is_sink = (g.nodes x).is_sink := by
  unfold adopt_parent
  simp

@[simp] theorem adopt_parent_nodes_tr_cap (g : Graph) (i amin : Nat) (dmin : Int) (x : Nat) :
    ((adopt_parent g i amin dmin).nodes x).tr_cap = (g.nodes x).tr_cap := by
  unfold adopt_parent
  simp

@[simp] theorem adopt_parent_nodes_is_marked (g : Graph) (i amin : Nat) (dmin : Int) (x : Nat) :
    ((adopt_parent g i amin dmin).nodes x).is_marked = (g.nodes x).is_marked := by
  unfold adopt_parent
  simp

@[simp] theorem adopt_parent_nodes_is_in_changed_list (g : Graph) (i amin : Nat) (dmin : Int) (x : Nat) :
    ((adopt_parent g i amin dmin).nodes x).is_in_changed_list = (g.nodes x).is_in_changed_list := by
  unfold adopt_parent
  simp

@[simp] theorem adopt_parent_node_num (g : Graph) (i amin : Nat) (dmin : Int) :
    (adopt_parent g i amin dmin).node_num = g.node_num := by
  unfold adopt_parent
  simp

@[simp] theorem adopt_parent_arc_num (g : Graph) (i amin : Nat) (dmin : Int) :
    (adopt_parent g i amin dmin).arc_num = g.arc_num := by
  unfold adopt_parent
  simp

@[simp] theorem adopt_parent_queue_first0 (g : Graph) (i amin : Nat) (dmin : Int) :
    (adopt_parent g i amin dmin).queue_first0 = g.queue_first0 := by
  unfold adopt_parent
  simp

@[simp] theorem adopt_parent_queue_last0 (g : Graph) (i amin : Nat) (dmin : Int) :
    (adopt_parent g i amin dmin).queue_last0 = g.queue_last0 := by
  unfold adopt_parent
  simp

@[simp] theorem adopt_parent_queue_first1 (g : Graph) (i amin : Nat) (dmin : Int) :
    (adopt_parent g i amin dmin).queue_first1 = g.queue_first1 := by
  unfold adopt_parent
  simp

@[simp] theorem adopt_parent_queue_last1 (g : Graph) (i amin : Nat) (dmin : Int) :
    (adopt_parent g i amin dmin).queue_last1 = g.queue_last1 := by
  unfold adopt_parent
  simp

@[simp] theorem adopt_parent_orphans (g : Graph) (i amin : Nat) (dmin : Int) :
    (adopt_parent g i amin dmin).orphans = g.orphans := by
  unfold adopt_parent
  simp

@[simp] theorem adopt_parent_TIME (g : Graph) (i amin : Nat) (dmin : Int) :
    (adopt_parent g i amin dmin).TIME = g.TIME := by
  unfold adopt_parent
  simp

@[simp] theorem adopt_parent_flow (g : Graph) (i amin : Nat) (dmin : Int) :
    (adopt_parent g i amin dmin).flow = g.flow := by
  unfold adopt_parent
  simp

@[simp] theorem adopt_parent_maxflow_iteration (g : Graph) (i amin : Nat) (dmin : Int) :
    (adopt_parent g i amin dmin).maxflow_iteration = g.maxflow_iteration := by
  unfold adopt_parent
  simp

@[simp] theorem adopt_parent_changed_list (g : Graph) (i amin : Nat) (dmin : Int) :
    (adopt_parent g i amin dmin).changed_list = g.changed_list := by
  unfold adopt_parent
  simp

@[simp] theorem adopt_parent_error_function (g : Graph) (i amin : Nat) (dmin : Int) :
    (adopt_parent g i amin dmin).error_function = g.error_function := by
  unfold adopt_parent
  simp

@[simp] theorem adopt_parent_arcs (g : Graph) (i amin : Nat) (dmin : Int) :
    (adopt_parent g i amin dmin).arcs = g.arcs := by
  unfold adopt_parent
  simp

@[simp] theorem attach_nodes_first (g : Graph) (i j a : Nat) (x : Nat) :
    ((attach g i j a).nodes x).first = (g.nodes x).first := by
  unfold attach
  simp

@[simp] theorem attach_nodes_next (g : Graph) (i j a : Nat) (x : Nat) :
    ((attach g i j a).nodes x).next = (g.nodes x).next := by
  unfold attach
  simp

@[simp] theorem attach_nodes_is_sink (g : Graph) (i j a : Nat) (x : Nat) :
    ((attach g i j a).nodes x).is_sink = (g.nodes x).is_sink := by
  unfold attach
  simp

@[simp] theorem attach_nodes_tr_cap (g : Graph) (i j a : Nat) (x : Nat) :
    ((attach g i j a).nodes x).tr_cap = (g.nodes x).tr_cap := by
  unfold attach
  simp

@[simp] theorem attach_nodes_is_marked (g : Graph) (i j a : Nat) (x : Nat) :
    ((attach g i j a).nodes x).is_marked = (g.nodes x).is_marked := by
  unfold attach
  simp

@[simp] theorem attach_nodes_is_in_changed_list (g : Graph) (i j a : Nat) (x : Nat) :
    ((attach g i j a).nodes x).is_in_changed_list = (g.nodes x).is_in_changed_list := by
  unfold attach
  simp

@[simp] theorem attach_node_num (g : Graph) (i j a : Nat) :
    (attach g i j a).node_num = g.node_num := by
  unfold attach
  simp

@[simp] theorem attach_arc_num (g : Graph) (i j a : Nat) :
    (attach g i j a).arc_num = g.arc_num := by
  unfold attach
  simp

@[simp] theorem attach_queue_first0 (g : Graph) (i j a : Nat) :
    (attach g i j a).queue_first0 = g.queue_first0 := by
  unfold attach
  simp

@[simp] theorem attach_queue_last0 (g : Graph) (i j a : Nat) :
    (attach g i j a).queue_last0 = g.queue_last0 := by
  unfold attach
  simp

@[simp] theorem attach_queue_first1 (g : Graph) (i j a : Nat) :
    (attach g i j a).queue_first1 = g.queue_first1 := by
  unfold attach
  simp

@[simp] theorem attach_queue_last1 (g : Graph) (i j a : Nat) :
    (attach g i j a).queue_last1 = g.queue_last1 := by
  unfold attach
  simp

@[simp] theorem attach_orphans (g : Graph) (i j a : Nat) :
    (attach g i j a).orphans = g.orphans := by
  unfold attach
  simp

@[simp] theorem attach_TIME (g : Graph) (i j a : Nat) :
    (attach g i j a).TIME = g.TIME := by
  unfold attach
  simp

@[simp] theorem attach_flow (g : Graph) (i j a : Nat) :
    (attach g i j a).flow = g.flow := by
  unfold attach
  simp

@[simp] theorem attach_maxflow_iteration (g : Graph) (i j a : Nat) :
    (attach g i j a).maxflow_iteration = g.maxflow_iteration := by
  unfold attach
  simp

@[simp] theorem attach_changed_list (g : Graph) (i j a : Nat) :
    (attach g i j a).changed_list = g.changed_list := by
  unfold attach
  simp

@[simp] theorem attach_error_function (g : Graph) (i j a : Nat) :
    (attach g i j a).error_function = g.error_function := by
  unfold attach
  simp

@[simp] theorem attach_arcs (g : Graph) (i j a : Nat) :
    (attach g i j a).arcs = g.arcs := by
  unfold attach
  simp

@[simp] theorem grow_adopt_nodes_first (g : Graph) (sink : Bool) (i a : Nat) (x : Nat) :
    ((grow_adopt g sink i a).nodes x).first = (g.nodes x).first := by
  unfold grow_adopt attach set_active add_to_changed_list
  repeat' split
  all_goals simp

@[simp] theorem grow_adopt_nodes_tr_cap (g : Graph) (sink : Bool) (i a : Nat) (x : Nat) :
    ((grow_adopt g sink i a).nodes x).tr_cap = (g.nodes x).tr_cap := by
  unfold grow_adopt attach set_active add_to_changed_list
  repeat' split
  all_goals simp

@[simp] theorem grow_adopt_nodes_is_marked (g : Graph) (sink : Bool) (i a : Nat) (x : Nat) :
    ((grow_adopt g sink i a).nodes x).is_marked = (g.nodes x).is_marked := by
  unfold grow_adopt attach set_active add_to_changed_list
  repeat' split
  all_goals simp

@[simp] theorem grow_adopt_node_num (g : Graph) (sink : Bool) (i a : Nat) :
    (grow_adopt g sink i a).node_num = g.node_num := by
  unfold grow_adopt attach set_active add_to_changed_list
  repeat' split
  all_goals simp

@[simp] theorem grow_adopt_arc_num (g : Graph) (sink : Bool) (i a : Nat) :
    (grow_adopt g sink i a).arc_num = g.arc_num := by
  unfold grow_adopt attach set_active add_to_changed_list
  repeat' split
  all_goals simp

@[simp] theorem grow_adopt_queue_first0 (g : Graph) (sink : Bool) (i a : Nat) :
    (grow_adopt g sink i a).queue_first0 = g.queue_first0 := by
  unfold grow_adopt attach set_active add_to_changed_list
  repeat' split
  all_goals simp

@[simp] theorem grow_adopt_queue_last0 (g : Graph) (sink : Bool) (i a : Nat) :
    (grow_adopt g sink i a).queue_last0 = g.queue_last0 := by
  unfold grow_adopt attach set_active add_to_changed_list
  repeat' split
  all_goals simp

@[simp] theorem grow_adopt_orphans (g : Graph) (sink : Bool) (i a : Nat) :
    (grow_adopt g sink i a).orphans = g.orphans := by
  unfold grow_adopt attach set_active add_to_changed_list
  repeat' split
  all_goals simp

@[simp] theorem grow_adopt_TIME (g : Graph) (sink : Bool) (i a : Nat) :
    (grow_adopt g sink i a).TIME = g.TIME := by
  unfold grow_adopt attach set_active add_to_changed_list
  repeat' split
  all_goals simp

@[simp] theorem grow_adopt_flow (g : Graph) (sink : Bool) (i a : Nat) :
    (grow_adopt g sink i a).flow = g.flow := by
  unfold grow_adopt attach set_active add_to_changed_list
  repeat' split
  all_goals simp

@[simp] theorem grow_adopt_maxflow_iteration (g : Graph) (sink : Bool) (i a : Nat) :
    (grow_adopt g sink i a).maxflow_iteration = g.maxflow_iteration := by
  unfold grow_adopt attach set_active add_to_changed_list
  repeat' split
  all_goals simp

@[simp] theorem grow_adopt_error_function (g : Graph) (sink : Bool) (i a : Nat) :
    (grow_adopt g sink i a).error_function = g.error_function := by
  unfold grow_adopt attach set_active add_to_changed_list
  repeat' split
  all_goals simp

@[simp] theorem grow_adopt_arcs (g : Graph) (sink : Bool) (i a : Nat) :
    (grow_adopt g sink i a).arcs = g.arcs := by
  unfold grow_adopt attach set_active add_to_changed_list
  repeat' split
  all_goals simp

@[simp] theorem reuse_orphan_child_nodes_first (g : Graph) (a : Nat) (x : Nat) :
    ((reuse_orphan_child g a).nodes x).first = (g.nodes x).first := by
  unfold reuse_orphan_child set_orphan_rear
  repeat' split
  all_goals simp

@[simp] theorem reuse_orphan_child_nodes_next (g : Graph) (a : Nat) (x : Nat) :
    ((reuse_orphan_child g a).nodes x).next = (g.nodes x).next := by
  unfold reuse_orphan_child set_orphan_rear
  repeat' split
  all_goals simp

@[simp] theorem reuse_orphan_child_nodes_is_sink (g : Graph) (a : Nat) (x : Nat) :
    ((reuse_orphan_child g a).nodes x).is_sink = (g.nodes x).is_sink := by
  unfold reuse_orphan_child set_orphan_rear
  repeat' split
  all_goals simp

@[simp] theorem reuse_orphan_child_nodes_TS (g : Graph) (a : Nat) (x : Nat) :
    ((reuse_orphan_child g a).nodes x).TS = (g.nodes x).TS := by
  unfold reuse_orphan_child set_orphan_rear
  repeat' split
  all_goals simp

@[simp] theorem reuse_orphan_child_nodes_DIST (g : Graph) (a : Nat) (x : Nat) :
    ((reuse_orphan_child g a).nodes x).DIST = (g.nodes x).DIST := by
  unfold reuse_orphan_child set_orphan_rear
  repeat' split
  all_goals simp

@[simp] theorem reuse_orphan_child_nodes_tr_cap (g : Graph) (a : Nat) (x : Nat) :
    ((reuse_orphan_child g a).nodes x).tr_cap = (g.nodes x).tr_cap := by
  unfold reuse_orphan_child set_orphan_rear
  repeat' split
  all_goals simp

@[simp] theorem reuse_orphan_child_nodes_is_marked (g : Graph) (a : Nat) (x : Nat) :
    ((reuse_orphan_child g a).nodes x).is_marked = (g.nodes x).is_marked := by
  unfold reuse_orphan_child set_orphan_rear
  repeat' split
  all_goals simp

@[simp] theorem reuse_orphan_child_nodes_is_in_changed_list (g : Graph) (a : Nat) (x : Nat) :
    ((reuse_orphan_child g a).nodes x).is_in_changed_list = (g.nodes x).is_in_changed_list := by
  unfold reuse_orphan_child set_orphan_rear
  repeat' split
  all_goals simp

@[simp] theorem reuse_orphan_child_node_num (g : Graph) (a : Nat) :
    (reuse_orphan_child g a).node_num = g.node_num := by
  unfold reuse_orphan_child set_orphan_rear
  repeat' split
  all_goals simp

@[simp] theorem reuse_orphan_child_arc_num (g : Graph) (a : Nat) :
    (reuse_orphan_child g a).arc_num = g.arc_num := by
  unfold reuse_orphan_child set_orphan_rear
  repeat' split
  all_goals simp

@[simp] theorem reuse_orphan_child_queue_first0 (g : Graph) (a : Nat) :
    (reuse_orphan_child g a).queue_first0 = g.queue_first0 := by
  unfold reuse_orphan_child set_orphan_rear
  repeat' split
  all_goals simp

@[simp] theorem reuse_orphan_child_queue_last0 (g : Graph) (a : Nat) :
    (reuse_orphan_child g a).queue_last0 = g.queue_last0 := by
  unfold reuse_orphan_child set_orphan_rear
  repeat' split
  all_goals simp

@[simp] theorem reuse_orphan_child_queue_first1 (g : Graph) (a : Nat) :
    (reuse_orphan_child g a).queue_first1 = g.queue_first1 := by
  unfold reuse_orphan_child set_orphan_rear
  repeat' split
  all_goals simp

@[simp] theorem reuse_orphan_child_queue_last1 (g : Graph) (a : Nat) :
    (reuse_orphan_child g a).queue_last1 = g.queue_last1 := by
  unfold reuse_orphan_child set_orphan_rear
  repeat' split
  all_goals simp

@[simp] theorem reuse_orphan_child_TIME (g : Graph) (a : Nat) :
    (reuse_orphan_child g a).TIME = g.TIME := by
  unfold reuse_orphan_child set_orphan_rear
  repeat' split
  all_goals simp

@[simp] theorem reuse_orphan_child_flow (g : Graph) (a : Nat) :
    (reuse_orphan_child g a).flow = g.flow := by
  unfold reuse_orphan_child set_orphan_rear
  repeat' split
  all_goals simp

@[simp] theorem reuse_orphan_child_maxflow_iteration (g : Graph) (a : Nat) :
    (reuse_orphan_child g a).maxflow_iteration = g.maxflow_iteration := by
  unfold reuse_orphan_child set_orphan_rear
  repeat' split
  all_goals simp

@[simp] theorem reuse_orphan_child_changed_list (g : Graph) (a : Nat) :
    (reuse_orphan_child g a).changed_list = g.changed_list := by
  unfold reuse_orphan_child set_orphan_rear
  repeat' split
  all_goals simp

@[simp] theorem reuse_orphan_child_error_function (g : Graph) (a : Nat) :
    (reuse_orphan_child g a).error_function = g.error_function := by
  unfold reuse_orphan_child set_orphan_rear
  repeat' split
  all_goals simp

@[simp] theorem reuse_orphan_child_arcs (g : Graph) (a : Nat) :
    (reuse_orphan_child g a).arcs = g.arcs := by
  unfold reuse_orphan_child set_orphan_rear
  repeat' split
  all_goals simp

@[simp] theorem reuse_step_nodes_first (g : Graph) (sink : Bool) (a : Nat) (x : Nat) :
    ((reuse_step g sink a).nodes x).first = (g.nodes x).first := by
  unfold reuse_step reuse_orphan_child set_active set_orphan_rear
  repeat' split
  all_goals simp

@[simp] theorem reuse_step_nodes_is_sink (g : Graph) (sink : Bool) (a : Nat) (x : Nat) :
    ((reuse_step g sink a).nodes x).is_sink = (g.nodes x).is_sink := by
  unfold reuse_step reuse_orphan_child set_active set_orphan_rear
  repeat' split
  all_goals simp

@[simp] theorem reuse_step_nodes_TS (g : Graph) (sink : Bool) (a : Nat) (x : Nat) :
    ((reuse_step g sink a).nodes x).TS = (g.nodes x).TS := by
  unfold reuse_step reuse_orphan_child set_active set_orphan_rear
  repeat' split
  all_goals simp

@[simp] theorem reuse_step_nodes_DIST (g : Graph) (sink : Bool) (a : Nat) (x : Nat) :
    ((reuse_step g sink a).nodes x).DIST = (g.nodes x).DIST := by
  unfold reuse_step reuse_orphan_child set_active set_orphan_rear
  repeat' split
  all_goals simp

@[simp] theorem reuse_step_nodes_tr_cap (g : Graph) (sink : Bool) (a : Nat) (x : Nat) :
    ((reuse_step g sink a).nodes x).tr_cap = (g.nodes x).tr_cap := by
  unfold reuse_step reuse_orphan_child set_active set_orphan_rear
  repeat' split
  all_goals simp

@[simp] theorem reuse_step_nodes_is_marked (g : Graph) (sink : Bool) (a : Nat) (x : Nat) :
    ((reuse_step g sink a).nodes x).is_marked = (g.nodes x).is_marked := by
  unfold reuse_step reuse_orphan_child set_active set_orphan_rear
  repeat' split
  all_goals simp

@[simp] theorem reuse_step_nodes_is_in_changed_list (g : Graph) (sink : Bool) (a : Nat) (x : Nat) :
    ((reuse_step g sink a).nodes x).is_in_changed_list = (g.nodes x).is_in_changed_list := by
  unfold reuse_step reuse_orphan_child set_active set_orphan_rear
  repeat' split
  all_goals simp

@[simp] theorem reuse_step_node_num (g : Graph) (sink : Bool) (a : Nat) :
    (reuse_step g sink a).node_num = g.node_num := by
  unfold reuse_step reuse_orphan_child set_active set_orphan_rear
  repeat' split
  all_goals simp

@[simp] theorem reuse_step_arc_num (g : Graph) (sink : Bool) (a : Nat) :
    (reuse_step g sink a).arc_num = g.arc_num := by
  unfold reuse_step reuse_orphan_child set_active set_orphan_rear
  repeat' split
  all_goals simp

@[simp] theorem reuse_step_queue_first0 (g : Graph) (sink : Bool) (a : Nat) :
    (reuse_step g sink a).queue_first0 = g.queue_first0 := by
  unfold reuse_step reuse_orphan_child set_active set_orphan_rear
  repeat' split
  all_goals simp

@[simp] theorem reuse_step_queue_last0 (g : Graph) (sink : Bool) (a : Nat) :
    (reuse_step g sink a).queue_last0 = g.queue_last0 := by
  unfold reuse_step reuse_orphan_child set_active set_orphan_rear
  repeat' split
  all_goals simp

@[simp] theorem reuse_step_TIME (g : Graph) (sink : Bool) (a : Nat) :
    (reuse_step g sink a).TIME = g.TIME := by
  unfold reuse_step reuse_orphan_child set_active set_orphan_rear
  repeat' split
  all_goals simp

@[simp] theorem reuse_step_flow (g : Graph) (sink : Bool) (a : Nat) :
    (reuse_step g sink a).flow = g.flow := by
  unfold reuse_step reuse_orphan_child set_active set_orphan_rear
  repeat' split
  all_goals simp

@[simp] theorem reuse_step_maxflow_iteration (g : Graph) (sink : Bool) (a : Nat) :
    (reuse_step g sink a).maxflow_iteration = g.maxflow_iteration := by
  unfold reuse_step reuse_orphan_child set_active set_orphan_rear
  repeat' split
  all_goals simp

@[simp] theorem reuse_step_changed_list (g : Graph) (sink : Bool) (a : Nat) :
    (reuse_step g sink a).changed_list = g.changed_list := by
  unfold reuse_step reuse_orphan_child set_active set_orphan_rear
  repeat' split
  all_goals simp

@[simp] theorem reuse_step_error_function (g : Graph) (sink : Bool) (a : Nat) :
    (reuse_step g sink a).error_function = g.error_function := by
  unfold reuse_step reuse_orphan_child set_active set_orphan_rear
  repeat' split
  all_goals simp

@[simp] theorem reuse_step_arcs (g : Graph) (sink : Bool) (a : Nat) :
    (reuse_step g sink a).arcs = g.arcs := by
  unfold reuse_step reuse_orphan_child set_active set_orphan_rear
  repeat' split
  all_goals simp

@[simp] theorem reuse_enter_nodes_first (g : Graph) (i : Nat) (x : Nat) :
    ((reuse_enter g i).nodes x).first = (g.nodes x).first := by
  unfold reuse_enter set_active
  repeat' split
  all_goals simp

@[simp] theorem reuse_enter_nodes_parent (g : Graph) (i : Nat) (x : Nat) :
    ((reuse_enter g i).nodes x).parent = (g.nodes x).parent := by
  unfold reuse_enter set_active
  repeat' split
  all_goals simp

@[simp] theorem reuse_enter_nodes_is_sink (g : Graph) (i : Nat) (x : Nat) :
    ((reuse_enter g i).nodes x).is_sink = (g.nodes x).is_sink := by
  unfold reuse_enter set_active
  repeat' split
  all_goals simp

@[simp] theorem reuse_enter_nodes_TS (g : Graph) (i : Nat) (x : Nat) :
    ((reuse_enter g i).nodes x).TS = (g.nodes x).TS := by
  unfold reuse_enter set_active
  repeat' split
  all_goals simp

@[simp] theorem reuse_enter_nodes_DIST (g : Graph) (i : Nat) (x : Nat) :
    ((reuse_enter g i).nodes x).DIST = (g.nodes x).DIST := by
  unfold reuse_enter set_active
  repeat' split
  all_goals simp

@[simp] theorem reuse_enter_nodes_tr_cap (g : Graph) (i : Nat) (x : Nat) :
    ((reuse_enter g i).nodes x).tr_cap = (g.nodes x).tr_cap := by
  unfold reuse_enter set_active
  repeat' split
  all_goals simp

@[simp] theorem reuse_enter_nodes_is_in_changed_list (g : Graph) (i : Nat) (x : Nat) :
    ((reuse_enter g i).nodes x).is_in_changed_list = (g.nodes x).is_in_changed_list := by
  unfold reuse_enter set_active
  repeat' split
  all_goals simp

@[simp] theorem reuse_enter_node_num (g : Graph) (i : Nat) :
    (reuse_enter g i).node_num = g.node_num := by
  unfold reuse_enter set_active
  repeat' split
  all_goals simp

@[simp] theorem reuse_enter_arc_num (g : Graph) (i : Nat) :
    (reuse_enter g i).arc_num = g.arc_num := by
  unfold reuse_enter set_active
  repeat' split
  all_goals simp

@[simp] theorem reuse_enter_queue_first0 (g : Graph) (i : Nat) :
    (reuse_enter g i).queue_first0 = g.queue_first0 := by
  unfold reuse_enter set_active
  repeat' split
  all_goals simp

@[simp] theorem reuse_enter_queue_last0 (g : Graph) (i : Nat) :
    (reuse_enter g i).queue_last0 = g.queue_last0 := by
  unfold reuse_enter set_active
  repeat' split
  all_goals simp

@[simp] theorem reuse_enter_orphans (g : Graph) (i : Nat) :
    (reuse_enter g i).orphans = g.orphans := by
  unfold reuse_enter set_active
  repeat' split
  all_goals simp

@[simp] theorem reuse_enter_TIME (g : Graph) (i : Nat) :
    (reuse_enter g i).TIME = g.TIME := by
  unfold reuse_enter set_active
  repeat' split
  all_goals simp

@[simp] theorem reuse_enter_flow (g : Graph) (i : Nat) :
    (reuse_enter g i).flow = g.flow := by
  unfold reuse_enter set_active
  repeat' split
  all_goals simp

@[simp] theorem reuse_enter_maxflow_iteration (g : Graph) (i : Nat) :
    (reuse_enter g i).maxflow_iteration = g.maxflow_iteration := by
  unfold reuse_enter set_active
  repeat' split
  all_goals simp

@[simp] theorem reuse_enter_changed_list (g : Graph) (i : Nat) :
    (reuse_enter g i).changed_list = g.changed_list := by
  unfold reuse_enter set_active
  repeat' split
  all_goals simp

@[simp] theorem reuse_enter_error_function (g : Graph) (i : Nat) :
    (reuse_enter g i).error_function = g.error_function := by
  unfold reuse_enter set_active
  repeat' split
  all_goals simp

@[simp] theorem reuse_enter_arcs (g : Graph) (i : Nat) :
    (reuse_enter g i).arcs = g.arcs := by
  unfold reuse_enter set_active
  repeat' split
  all_goals simp

@[simp] theorem make_root_nodes_first (g : Graph) (i : Nat) (x : Nat) :
    ((make_root g i).nodes x).first = (g.nodes x).first := by
  unfold make_root
  simp

@[simp] theorem make_root_nodes_next (g : Graph) (i : Nat) (x : Nat) :
    ((make_root g i).nodes x).next = (g.nodes x).next := by
  unfold make_root
  simp

@[simp] theorem make_root_nodes_is_sink (g : Graph) (i : Nat) (x : Nat) :
    ((make_root g i).nodes x).is_sink = (g.nodes x).is_sink := by
  unfold make_root
  simp

@[simp] theorem make_root_nodes_tr_cap (g : Graph) (i : Nat) (x : Nat) :
    ((make_root g i).nodes x).tr_cap = (g.nodes x).tr_cap := by
  unfold make_root
  simp

@[simp] theorem make_root_nodes_is_marked (g : Graph) (i : Nat) (x : Nat) :
    ((make_root g i).nodes x).is_marked = (g.nodes x).is_marked := by
  unfold make_root
  simp

@[simp] theorem make_root_nodes_is_in_changed_list (g : Graph) (i : Nat) (x : Nat) :
    ((make_root g i).nodes x).is_in_changed_list = (g.nodes x).is_in_changed_list := by
  unfold make_root
  simp

@[simp] theorem make_root_node_num (g : Graph) (i : Nat) :
    (make_root g i).node_num = g.node_num := by
  unfold make_root
  simp

@[simp] theorem make_root_arc_num (g : Graph) (i : Nat) :
    (make_root g i).arc_num = g.arc_num := by
  unfold make_root
  simp

@[simp] theorem make_root_queue_first0 (g : Graph) (i : Nat) :
    (make_root g i).queue_first0 = g.queue_first0 := by
  unfold make_root
  simp

@[simp] theorem make_root_queue_last0 (g : Graph) (i : Nat) :
    (make_root g i).queue_last0 = g.queue_last0 := by
  unfold make_root
  simp

@[simp] theorem make_root_queue_first1 (g : Graph) (i : Nat) :
    (make_root g i).queue_first1 = g.queue_first1 := by
  unfold make_root
  simp

@[simp] theorem make_root_queue_last1 (g : Graph) (i : Nat) :
    (make_root g i).queue_last1 = g.queue_last1 := by
  unfold make_root
  simp

@[simp] theorem make_root_orphans (g : Graph) (i : Nat) :
    (make_root g i).orphans = g.orphans := by
  unfold make_root
  simp

@[simp] theorem make_root_TIME (g : Graph) (i : Nat) :
    (make_root g i).TIME = g.TIME := by
  unfold make_root
  simp

@[simp] theorem make_root_flow (g : Graph) (i : Nat) :
    (make_root g i).flow = g.flow := by
  unfold make_root
  simp

@[simp] theorem make_root_maxflow_iteration (g : Graph) (i : Nat) :
    (make_root g i).maxflow_iteration = g.maxflow_iteration := by
  unfold make_root
  simp

@[simp] theorem make_root_changed_list (g : Graph) (i : Nat) :
    (make_root g i).changed_list = g.changed_list := by
  unfold make_root
  simp

@[simp] theorem make_root_error_function (g : Graph) (i : Nat) :
    (make_root g i).error_function = g.error_function := by
  unfold make_root
  simp

@[simp] theorem make_root_arcs (g : Graph) (i : Nat) :
    (make_root g i).arcs = g.arcs := by
  unfold make_root
  simp

@[simp] theorem clear_current_nodes_first (g : Graph) (c : Option Nat) (x : Nat) :
    ((clear_current g c).nodes x).first = (g.nodes x).first := by
  unfold clear_current
  repeat' split
  all_goals simp

@[simp] theorem clear_current_nodes_parent (g : Graph) (c : Option Nat) (x : Nat) :
    ((clear_current g c).nodes x).parent = (g.nodes x).parent := by
  unfold clear_current
  repeat' split
  all_goals simp

@[simp] theorem clear_current_nodes_is_sink (g : Graph) (c : Option Nat) (x : Nat) :
    ((clear_current g c).nodes x).is_sink = (g.nodes x).is_sink := by
  unfold clear_current
  repeat' split
  all_goals simp

@[simp] theorem clear_current_nodes_TS (g : Graph) (c : Option Nat) (x : Nat) :
    ((clear_current g c).nodes x).TS = (g.nodes x).TS := by
  unfold clear_current
  repeat' split
  all_goals simp

@[simp] theorem clear_current_nodes_DIST (g : Graph) (c : Option Nat) (x : Nat) :
    ((clear_current g c).nodes x).DIST = (g.nodes x).DIST := by
  unfold clear_current
  repeat' split
  all_goals simp

@[simp] theorem clear_current_nodes_tr_cap (g : Graph) (c : Option Nat) (x : Nat) :
    ((clear_current g c).nodes x).tr_cap = (g.nodes x).tr_cap := by
  unfold clear_current
  repeat' split
  all_goals simp

@[simp] theorem clear_current_nodes_is_marked (g : Graph) (c : Option Nat) (x : Nat) :
    ((clear_current g c).nodes x).is_marked = (g.nodes x).is_marked := by
  unfold clear_current
  repeat' split
  all_goals simp

@[simp] theorem clear_current_nodes_is_in_changed_list (g : Graph) (c : Option Nat) (x : Nat) :
    ((clear_current g c).nodes x).is_in_changed_list = (g.nodes x).is_in_changed_list := by
  unfold clear_current
  repeat' split
  all_goals simp

@[simp] theorem clear_current_node_num (g : Graph) (c : Option Nat) :
    (clear_current g c).node_num = g.node_num := by
  unfold clear_current
  repeat' split
  all_goals simp

@[simp] theorem clear_current_arc_num (g : Graph) (c : Option Nat) :
    (clear_current g c).arc_num = g.arc_num := by
  unfold clear_current
  repeat' split
  all_goals simp

@[simp] theorem clear_current_queue_first0 (g : Graph) (c : Option Nat) :
    (clear_current g c).queue_first0 = g.queue_first0 := by
  unfold clear_current
  repeat' split
  all_goals simp

@[simp] theorem clear_current_queue_last0 (g : Graph) (c : Option Nat) :
    (clear_current g c).queue_last0 = g.queue_last0 := by
  unfold clear_current
  repeat' split
  all_goals simp

@[simp] theorem clear_current_queue_first1 (g : Graph) (c : Option Nat) :
    (clear_current g c).queue_first1 = g.queue_first1 := by
  unfold clear_current
  repeat' split
  all_goals simp

@[simp] theorem clear_current_queue_last1 (g : Graph) (c : Option Nat) :
    (clear_current g c).queue_last1 = g.queue_last1 := by
  unfold clear_current
  repeat' split
  all_goals simp

@[simp] theorem clear_current_orphans (g : Graph) (c : Option Nat) :
    (clear_current g c).orphans = g.orphans := by
  unfold clear_current
  repeat' split
  all_goals simp

@[simp] theorem clear_current_TIME (g : Graph) (c : Option Nat) :
    (clear_current g c).TIME = g.TIME := by
  unfold clear_current
  repeat' split
  all_goals simp

@[simp] theorem clear_current_flow (g : Graph) (c : Option Nat) :
    (clear_current g c).flow = g.flow := by
  unfold clear_current
  repeat' split
  all_goals simp

@[simp] theorem clear_current_maxflow_iteration (g : Graph) (c : Option Nat) :
    (clear_current g c).maxflow_iteration = g.maxflow_iteration := by
  unfold clear_current
  repeat' split
  all_goals simp

@[simp] theorem clear_current_changed_list (g : Graph) (c : Option Nat) :
    (clear_current g c).changed_list = g.changed_list := by
  unfold clear_current
  repeat' split
  all_goals simp

@[simp] theorem clear_current_error_function (g : Graph) (c : Option Nat) :
    (clear_current g c).error_function = g.error_function := by
  unfold clear_current
  repeat' split
  all_goals simp

@[simp] theorem clear_current_arcs (g : Graph) (c : Option Nat) :
    (clear_current g c).arcs = g.arcs := by
  unfold clear_current
  repeat' split
  all_goals simp

end Maxflow

namespace Maxflow

/-! ## Step budgets: a larger budget never changes a result -/

theorem Res.bind_eq_ok {α β : Type} {x : Res α} {k : α → Res β} {r : β} :
    x.bind k = Res.ok r ↔ ∃ a, x = Res.ok a ∧ k a = Res.ok r := by
  cases x <;> simp [Res.bind]

theorem next_active_mono {f f' : Nat} (h : f ≤ f') {g : Graph} {r : Graph × Option Nat}
    (hr : next_active f g = Res.ok r) : next_active f' g = Res.ok r := by
  induction f generalizing f' g with
  | zero => simp [next_active] at hr
  | succ n ih =>
    obtain ⟨m, rfl⟩ : ∃ m, f' = m + 1 := ⟨f' - 1, by omega⟩
    have hm : n ≤ m := by omega
    revert hr
    simp only [next_active]
    repeat' split
    all_goals first | exact id | exact ih hm

theorem bottleneck_source_mono {g : Graph} {f f' : Nat} (h : f ≤ f') {i : Nat} {b r : Int}
    (hr : bottleneck_source g f i b = Res.ok r) : bottleneck_source g f' i b = Res.ok r := by
  induction f generalizing f' i b with
  | zero => simp [bottleneck_source] at hr
  | succ n ih =>
    obtain ⟨m, rfl⟩ : ∃ m, f' = m + 1 := ⟨f' - 1, by omega⟩
    have hm : n ≤ m := by omega
    revert hr
    simp only [bottleneck_source]
    repeat' split
    all_goals first | exact id | exact ih hm

theorem bottleneck_sink_mono {g : Graph} {f f' : Nat} (h : f ≤ f') {i : Nat} {b r : Int}
    (hr : bottleneck_sink g f i b = Res.ok r) : bottleneck_sink g f' i b = Res.ok r := by
  induction f generalizing f' i b with
  | zero => simp [bottleneck_sink] at hr
  | succ n ih =>
    obtain ⟨m, rfl⟩ : ∃ m, f' = m + 1 := ⟨f' - 1, by omega⟩
    have hm : n ≤ m := by omega
    revert hr
    simp only [bottleneck_sink]
    repeat' split
    all_goals first | exact id | exact ih hm

theorem push_source_mono {b : Int} {f f' : Nat} (h : f ≤ f') {g : Graph} {i : Nat} {r : Graph}
    (hr : push_source b f g i = Res.ok r) : push_source b f' g i = Res.ok r := by
  induction f generalizing f' g i with
  | zero => simp [push_source] at hr
  | succ n ih =>
    obtain ⟨m, rfl⟩ : ∃ m, f' = m + 1 := ⟨f' - 1, by omega⟩
    have hm : n ≤ m := by omega
    revert hr
    simp only [push_source]
    repeat' split
    all_goals first | exact id | exact ih hm

theorem push_sink_mono {b : Int} {f f' : Nat} (h : f ≤ f') {g : Graph} {i : Nat} {r : Graph}
    (hr : push_sink b f g i = Res.ok r) : push_sink b f' g i = Res.ok r := by
  induction f generalizing f' g i with
  | zero => simp [push_sink] at hr
  | succ n ih =>
    obtain ⟨m, rfl⟩ : ∃ m, f' = m + 1 := ⟨f' - 1, by omega⟩
    have hm : n ≤ m := by omega
    revert hr
    simp only [push_sink]
    repeat' split
    all_goals first | exact id | exact ih hm

theorem bottleneck_mono {F F' : Nat} (h : F ≤ F') {g : Graph} {m : Nat} {r : Int}
    (hr : bottleneck F g m = Res.ok r) : bottleneck F' g m = Res.ok r := by
  simp only [bottleneck, Res.bind_eq_ok] at hr ⊢
  obtain ⟨b, h1, h2⟩ := hr
  exact ⟨b, bottleneck_source_mono h h1, bottleneck_sink_mono h h2⟩

theorem augment_mono {F F' : Nat} (h : F ≤ F') {g : Graph} {m : Nat} {r : Graph}
    (hr : augment F g m = Res.ok r) : augment F' g m = Res.ok r := by
  simp only [augment, Res.bind_eq_ok] at hr ⊢
  obtain ⟨b, h1, g3, h2, g4, h3, h4⟩ := hr
  exact ⟨b, bottleneck_mono h h1, g3, push_source_mono h h2, g4, push_sink_mono h h3, h4⟩

theorem origin_check_mono {f f' : Nat} (h : f ≤ f') {g : Graph} {j : Nat} {d : Int}
    {r : Graph × Int} (hr : origin_check f g j d = Res.ok r) :
    origin_check f' g j d = Res.ok r := by
  induction f generalizing f' g j d with
  | zero => simp [origin_check] at hr
  | succ n ih =>
    obtain ⟨m, rfl⟩ : ∃ m, f' = m + 1 := ⟨f' - 1, by omega⟩
    have hm : n ≤ m := by omega
    revert hr
    simp only [origin_check]
    repeat' split
    all_goals first | exact id | exact ih hm

theorem set_marks_mono {f f' : Nat} (h : f ≤ f') {g : Graph} {j : Nat} {d : Int}
    {r : Graph} (hr : set_marks f g j d = Res.ok r) : set_marks f' g j d = Res.ok r := by
  induction f generalizing f' g j d with
  | zero => simp [set_marks] at hr
  | succ n ih =>
    obtain ⟨m, rfl⟩ : ∃ m, f' = m + 1 := ⟨f' - 1, by omega⟩
    have hm : n ≤ m := by omega
    revert hr
    simp only [set_marks]
    repeat' split
    all_goals first | exact id | exact ih hm

theorem find_parent_mono {F F' : Nat} (hF : F ≤ F') {sink : Bool} {f f' : Nat} (h : f ≤ f')
    {g : Graph} {a : Option Nat} {amin : Option Nat} {dmin : Int} {r : Graph × Option Nat × Int}
    (hr : find_parent F sink f g a amin dmin = Res.ok r) :
    find_parent F' sink f' g a amin dmin = Res.ok r := by
  induction f generalizing f' g a amin dmin with
  | zero =>
    cases a with
    | none => simpa [find_parent] using hr
    | some a => simp [find_parent] at hr
  | succ n ih =>
    cases a with
    | none => simpa [find_parent] using hr
    | some a =>
      obtain ⟨m, rfl⟩ : ∃ m, f' = m + 1 := ⟨f' - 1, by omega⟩
      have hm : n ≤ m := by omega
      revert hr
      simp only [find_parent]
      split
      · simp only [Res.bind_eq_ok]
        rintro ⟨r1, h1, h2⟩
        refine ⟨r1, origin_check_mono hF h1, ?_⟩
        revert h2
        split
        · simp only [Res.bind_eq_ok]
          rintro ⟨g2, h3, h4⟩
          refine ⟨g2, set_marks_mono hF h3, ?_⟩
          revert h4
          split <;> exact ih hm
        · exact ih hm
      · exact ih hm

theorem process_neighbors_mono {sink : Bool} {i : Nat} {f f' : Nat} (h : f ≤ f') {g : Graph}
    {a : Option Nat} {r : Graph} (hr : process_neighbors sink i f g a = Res.ok r) :
    process_neighbors sink i f' g a = Res.ok r := by
  induction f generalizing f' g a with
  | zero =>
    cases a with
    | none => simpa [process_neighbors] using hr
    | some a => simp [process_neighbors] at hr
  | succ n ih =>
    cases a with
    | none => simpa [process_neighbors] using hr
    | some a =>
      obtain ⟨m, rfl⟩ : ∃ m, f' = m + 1 := ⟨f' - 1, by omega⟩
      have hm : n ≤ m := by omega
      revert hr
      simp only [process_neighbors]
      exact ih hm

theorem process_orphan_mono {F F' : Nat} (h : F ≤ F') {sink : Bool} {g : Graph} {i : Nat}
    {r : Graph} (hr : process_orphan F sink g i = Res.ok r) :
    process_orphan F' sink g i = Res.ok r := by
  simp only [process_orphan, Res.bind_eq_ok] at hr ⊢
  obtain ⟨r1, h1, h2⟩ := hr
  refine ⟨r1, find_parent_mono h h h1, ?_⟩
  revert h2
  split
  · exact id
  · exact process_neighbors_mono h

theorem drain_orphans_mono {F F' : Nat} (hF : F ≤ F') {f f' : Nat} (h : f ≤ f') {g : Graph}
    {r : Graph} (hr : drain_orphans F f g = Res.ok r) : drain_orphans F' f' g = Res.ok r := by
  induction f generalizing f' g with
  | zero => simp [drain_orphans] at hr
  | succ n ih =>
    obtain ⟨m, rfl⟩ : ∃ m, f' = m + 1 := ⟨f' - 1, by omega⟩
    have hm : n ≤ m := by omega
    revert hr
    simp only [drain_orphans]
    split
    · exact id
    · simp only [Res.bind_eq_ok, process_sink_orphan, process_source_orphan]
      rintro ⟨g1, h1, h2⟩
      refine ⟨g1, ?_, ih hm h2⟩
      revert h1
      split <;> exact process_orphan_mono hF

theorem adoption_mono {F F' : Nat} (hF : F ≤ F') {f f' : Nat} (h : f ≤ f') {g : Graph}
    {r : Graph} (hr : adoption F f g = Res.ok r) : adoption F' f' g = Res.ok r := by
  induction f generalizing f' g with
  | zero => simp [adoption] at hr
  | succ n ih =>
    obtain ⟨m, rfl⟩ : ∃ m, f' = m + 1 := ⟨f' - 1, by omega⟩
    have hm : n ≤ m := by omega
    revert hr
    simp only [adoption]
    split
    · exact id
    · simp only [Res.bind_eq_ok]
      rintro ⟨g1, h1, h2⟩
      exact ⟨g1, drain_orphans_mono hF hF h1, ih hm h2⟩

theorem grow_mono {sink : Bool} {i : Nat} {f f' : Nat} (h : f ≤ f') {g : Graph} {a : Option Nat}
    {r : Graph × Option Nat}
    (hr : grow sink i f g a = Res.ok r) : grow sink i f' g a = Res.ok r := by
  induction f generalizing f' g a with
  | zero =>
    cases a with
    | none => simpa [grow] using hr
    | some a => simp [grow] at hr
  | succ n ih =>
    cases a with
    | none => simpa [grow] using hr
    | some a =>
      obtain ⟨m, rfl⟩ : ∃ m, f' = m + 1 := ⟨f' - 1, by omega⟩
      have hm : n ≤ m := by omega
      revert hr
      simp only [grow]
      repeat' split
      all_goals first | exact id | exact ih hm

theorem reuse_neighbors_mono {sink : Bool} {f f' : Nat} (h : f ≤ f') {g : Graph}
    {a : Option Nat} {r : Graph} (hr : reuse_neighbors sink f g a = Res.ok r) :
    reuse_neighbors sink f' g a = Res.ok r := by
  induction f generalizing f' g a with
  | zero =>
    cases a with
    | none => simpa [reuse_neighbors] using hr
    | some a => simp [reuse_neighbors] at hr
  | succ n ih =>
    cases a with
    | none => simpa [reuse_neighbors] using hr
    | some a =>
      obtain ⟨m, rfl⟩ : ∃ m, f' = m + 1 := ⟨f' - 1, by omega⟩
      have hm : n ≤ m := by omega
      revert hr
      simp only [reuse_neighbors]
      exact ih hm

theorem reuse_queue_mono {F F' : Nat} (hF : F ≤ F') {f f' : Nat} (h : f ≤ f') {g : Graph}
    {q : Option Nat} {r : Graph} (hr : reuse_queue F f g q = Res.ok r) :
    reuse_queue F' f' g q = Res.ok r := by
  induction f generalizing f' g q with
  | zero =>
    cases q with
    | none => simpa [reuse_queue] using hr
    | some a => simp [reuse_queue] at hr
  | succ n ih =>
    cases q with
    | none => simpa [reuse_queue] using hr
    | some a =>
      obtain ⟨m, rfl⟩ : ∃ m, f' = m + 1 := ⟨f' - 1, by omega⟩
      have hm : n ≤ m := by omega
      revert hr
      simp only [reuse_queue]
      split
      · exact ih hm
      · split
        · simp only [Res.bind_eq_ok]
          rintro ⟨g3, h1, h2⟩
          exact ⟨g3, reuse_neighbors_mono hF h1, ih hm h2⟩
        · exact ih hm

theorem maxflow_reuse_trees_init_mono {F F' : Nat} (h : F ≤ F') {g r : Graph}
    (hr : maxflow_reuse_trees_init F g = Res.ok r) : maxflow_reuse_trees_init F' g = Res.ok r := by
  simp only [maxflow_reuse_trees_init, Res.bind_eq_ok] at hr ⊢
  obtain ⟨g2, h1, h2⟩ := hr
  exact ⟨g2, reuse_queue_mono h h h1, drain_orphans_mono h h h2⟩

theorem pick_active_mono {F F' : Nat} (h : F ≤ F') {g : Graph} {c : Option Nat}
    {r : Graph × Option Nat} (hr : pick_active F g c = Res.ok r) :
    pick_active F' g c = Res.ok r := by
  revert hr
  simp only [pick_active]
  split
  · exact id
  · exact next_active_mono h

theorem main_loop_mono {F F' : Nat} (hF : F ≤ F') {f f' : Nat} (h : f ≤ f') {g : Graph}
    {c : Option Nat} {r : Graph} (hr : main_loop F f g c = Res.ok r) :
    main_loop F' f' g c = Res.ok r := by
  induction f generalizing f' g c with
  | zero => simp [main_loop] at hr
  | succ n ih =>
    obtain ⟨m, rfl⟩ : ∃ m, f' = m + 1 := ⟨f' - 1, by omega⟩
    have hm : n ≤ m := by omega
    revert hr
    simp only [main_loop, Res.bind_eq_ok]
    rintro ⟨p, h1, h2⟩
    refine ⟨p, pick_active_mono hF h1, ?_⟩
    revert h2
    split
    · exact id
    · simp only [Res.bind_eq_ok]
      rintro ⟨r1, h3, h4⟩
      refine ⟨r1, grow_mono hF h3, ?_⟩
      revert h4
      split
      · simp only [Res.bind_eq_ok]
        rintro ⟨g5, h5, g6, h6, h7⟩
        exact ⟨g5, augment_mono hF h5, g6, adoption_mono hF hF h6, ih hm h7⟩
      · exact ih hm

theorem solve_mono {F F' : Nat} (h : F ≤ F') {g : Graph} {reuse : Bool} {r : Graph}
    (hr : solve F g reuse = Res.ok r) : solve F' g reuse = Res.ok r := by
  simp only [solve, Res.bind_eq_ok] at hr ⊢
  obtain ⟨g1, h1, h2⟩ := hr
  refine ⟨g1, ?_, main_loop_mono h h h2⟩
  revert h1
  split
  · exact maxflow_reuse_trees_init_mono h
  · exact id

/-- What `maxflow` does, in terms of `solve`, when it returns. -/
theorem maxflow_returned_iff {F : Nat} {g : Graph} {reuse : Bool} {cl : Option (List Nat)}
    {g' : Graph} {fl : Int} :
    maxflow F g reuse cl = Outcome.returned g' fl ↔
      ¬ (g.maxflow_iteration = 0 ∧ reuse = true) ∧ ¬ (cl.isSome = true ∧ reuse = false) ∧
      ∃ g2, solve F (g.setChanged cl) reuse = Res.ok g2 ∧
        g' = g2.setIteration (g2.maxflow_iteration + 1) ∧ fl = g2.flow := by
  unfold maxflow
  simp only [setChanged_maxflow_iteration, setChanged_changed_list]
  by_cases h1 : g.maxflow_iteration = 0 ∧ reuse = true
  · simp [h1]
  · by_cases h2 : cl.isSome = true ∧ reuse = false
    · simp [h1, h2]
    · simp only [h1, h2, if_false, not_false_eq_true, true_and]
      cases hs : solve F (g.setChanged cl) reuse with
      | ok g2 =>
        simp only [Outcome.returned.injEq, Res.ok.injEq]
        constructor
        · rintro ⟨rfl, rfl⟩; exact ⟨g2, rfl, rfl, rfl⟩
        · rintro ⟨g3, rfl, rfl, rfl⟩; exact ⟨rfl, rfl⟩
      | fuel => simp
      | fault => simp

theorem maxflow_mono {F F' : Nat} (h : F ≤ F') {g : Graph} {reuse : Bool}
    {cl : Option (List Nat)} {g' : Graph} {fl : Int}
    (hr : maxflow F g reuse cl = Outcome.returned g' fl) :
    maxflow F' g reuse cl = Outcome.returned g' fl := by
  rw [maxflow_returned_iff] at hr ⊢
  obtain ⟨h1, h2, g2, h3, h4, h5⟩ := hr
  exact ⟨h1, h2, g2, solve_mono h h3, h4, h5⟩

/-- Two returning runs of the same call agree, whatever their budgets. -/
theorem maxflow_returned_unique {F F' : Nat} {g : Graph} {reuse : Bool}
    {cl : Option (List Nat)} {g1 g2 : Graph} {f1 f2 : Int}
    (h1 : maxflow F g reuse cl = Outcome.returned g1 f1)
    (h2 : maxflow F' g reuse cl = Outcome.returned g2 f2) : g1 = g2 ∧ f1 = f2 := by
  rcases Nat.le_total F F' with h | h
  · have := maxflow_mono h h1
    rw [this] at h2
    injection h2 with ha hb
    exact ⟨ha, hb⟩
  · have := maxflow_mono h h2
    rw [this] at h1
    injection h1 with ha hb
    exact ⟨ha.symm, hb.symm⟩

end Maxflow

namespace Maxflow

/-! ## Proof rules for the loops of the solver -/

theorem LabelEq.refl (g : Graph) : LabelEq g g :=
  ⟨rfl, rfl, rfl, rfl, rfl, rfl, rfl, rfl, rfl, rfl, rfl, rfl, rfl, fun _ => rfl, fun _ => rfl,
    fun _ => rfl, fun _ => rfl, fun _ => rfl, fun _ => rfl, fun _ => rfl⟩

theorem LabelEq.trans {g1 g2 g3 : Graph} (h : LabelEq g1 g2) (h' : LabelEq g2 g3) :
    LabelEq g1 g3 :=
  ⟨h'.node_num.trans h.node_num, h'.arc_num.trans h.arc_num, h'.arcs.trans h.arcs,
    h'.queue_first0.trans h.queue_first0, h'.queue_last0.trans h.queue_last0,
    h'.queue_first1.trans h.queue_first1, h'.queue_last1.trans h.queue_last1,
    h'.orphans.trans h.orphans, h'.TIME.trans h.TIME, h'.flow.trans h.flow,
    h'.maxflow_iteration.trans h.maxflow_iteration, h'.changed_list.trans h.changed_list,
    h'.error_function.trans h.error_function,
    fun i => (h'.first i).trans (h.first i), fun i => (h'.next i).trans (h.next i),
    fun i => (h'.parent i).trans (h.parent i), fun i => (h'.is_sink i).trans (h.is_sink i),
    fun i => (h'.tr_cap i).trans (h.tr_cap i), fun i => (h'.is_marked i).trans (h.is_marked i),
    fun i => (h'.is_in_changed_list i).trans (h.is_in_changed_list i)⟩

theorem LabelEq.setTS (g : Graph) (i : Nat) (v : Int) : LabelEq g (g.setTS i v) :=
  ⟨rfl, rfl, rfl, rfl, rfl, rfl, rfl, rfl, rfl, rfl, rfl, rfl, rfl, fun _ => by simp,
    fun _ => by simp, fun _ => by simp, fun _ => by simp, fun _ => by simp, fun _ => by simp,
    fun _ => by simp⟩

theorem LabelEq.setDIST (g : Graph) (i : Nat) (v : Int) : LabelEq g (g.setDIST i v) :=
  ⟨rfl, rfl, rfl, rfl, rfl, rfl, rfl, rfl, rfl, rfl, rfl, rfl, rfl, fun _ => by simp,
    fun _ => by simp, fun _ => by simp, fun _ => by simp, fun _ => by simp, fun _ => by simp,
    fun _ => by simp⟩

theorem origin_check_labelEq {f : Nat} {g : Graph} {j : Nat} {d : Int} {r : Graph × Int}
    (h : origin_check f g j d = Res.ok r) : LabelEq g r.1 := by
  induction f generalizing g j d with
  | zero => simp [origin_check] at h
  | succ n ih =>
    revert h
    simp only [origin_check]
    split
    · intro h
      simp only [Res.ok.injEq] at h
      subst h
      exact LabelEq.refl g
    · split
      · intro h
        simp only [Res.ok.injEq] at h
        subst h
        exact (LabelEq.setTS g j g.TIME).trans (LabelEq.setDIST _ j 1)
      · intro h
        simp only [Res.ok.injEq] at h
        subst h
        exact LabelEq.refl g
      · exact ih
      · intro h
        simp at h

theorem set_marks_labelEq {f : Nat} {g : Graph} {j : Nat} {d : Int} {r : Graph}
    (h : set_marks f g j d = Res.ok r) : LabelEq g r := by
  induction f generalizing g j d with
  | zero => simp [set_marks] at h
  | succ n ih =>
    revert h
    simp only [set_marks]
    split
    · intro h
      simp only [Res.ok.injEq] at h
      subst h
      exact LabelEq.refl g
    · split
      · intro h
        exact ((LabelEq.setTS g j g.TIME).trans (LabelEq.setDIST _ j d)).trans (ih h)
      · intro h
        simp at h
      · intro h
        simp at h
      · intro h
        simp at h

/-- Rule for the loop that looks for a new parent: `P` holds of the state, the
arc pointer, `a0_min` and `d_min` at every loop head. -/
theorem find_parent_rule {F : Nat} {sink : Bool}
    (P : Graph → Option Nat → Option Nat → Int → Prop)
    (hcand : ∀ g a amin dmin g2 d, P g (some a) amin dmin → orphan_rcap g sink a ≠ 0 →
      (g.nodes (g.arcs a).head).is_sink = sink →
      (g.nodes (g.arcs a).head).parent ≠ ArcPtr.null → LabelEq g g2 → d < INFINITE_D →
      P g2 (g.arcs a).next (if d < dmin then some a else amin) (if d < dmin then d else dmin))
    (hskip : ∀ g a amin dmin g1, P g (some a) amin dmin → LabelEq g g1 →
      P g1 (g.arcs a).next amin dmin)
    {f : Nat} {g : Graph} {a amin : Option Nat} {dmin : Int} {r : Graph × Option Nat × Int}
    (h : find_parent F sink f g a amin dmin = Res.ok r) (hP : P g a amin dmin) :
    P r.1 none r.2.1 r.2.2 := by
  induction f generalizing g a amin dmin with
  | zero =>
    cases a with
    | none =>
      simp only [find_parent, Res.ok.injEq] at h
      subst h
      exact hP
    | some a => simp [find_parent] at h
  | succ n ih =>
    cases a with
    | none =>
      simp only [find_parent, Res.ok.injEq] at h
      subst h
      exact hP
    | some a =>
      revert h
      simp only [find_parent]
      split
      · rename_i hg
        simp only [Res.bind_eq_ok]
        rintro ⟨r1, h1, h2⟩
        have hl1 := origin_check_labelEq h1
        revert h2
        split
        · rename_i hd
          simp only [Res.bind_eq_ok]
          rintro ⟨g2, h3, h4⟩
          have hl2 := hl1.trans (set_marks_labelEq h3)
          have := hcand g a amin dmin g2 r1.2 hP hg.1 hg.2.1 hg.2.2 hl2 hd
          revert h4
          split
          · rename_i hlt
            simp only [hlt, if_true] at this
            exact fun h4 => ih h4 this
          · rename_i hlt
            simp only [hlt, if_false] at this
            exact fun h4 => ih h4 this
        · exact fun h2 => ih h2 (hskip g a amin dmin r1.1 hP hl1)
      · exact fun h2 => ih h2 (hskip g a amin dmin g hP (LabelEq.refl g))

theorem find_parent_labelEq {F : Nat} {sink : Bool} {f : Nat} {g : Graph} {a amin : Option Nat}
    {dmin : Int} {r : Graph × Option Nat × Int}
    (h : find_parent F sink f g a amin dmin = Res.ok r) : LabelEq g r.1 :=
  find_parent_rule (fun g' _ _ _ => LabelEq g g')
    (fun _ _ _ _ _ _ hP _ _ _ hl _ => hP.trans hl)
    (fun _ _ _ _ _ hP hl => hP.trans hl) h (LabelEq.refl g)

/-- Rule for the growth scan. -/
theorem grow_rule {sink : Bool} {i : Nat} (P : Graph → Option Nat → Prop)
    (Q : Graph → Option Nat → Prop)
    (hadopt : ∀ g a, P g (some a) → grow_rcap g sink a ≠ 0 →
      (g.nodes (g.arcs a).head).parent = ArcPtr.null →
      P (grow_adopt g sink i a) (g.arcs a).next)
    (hattach : ∀ g a, P g (some a) → grow_rcap g sink a ≠ 0 →
      (g.nodes (g.arcs a).head).parent ≠ ArcPtr.null →
      (g.nodes (g.arcs a).head).is_sink = sink →
      (g.nodes (g.arcs a).head).TS ≤ (g.nodes i).TS →
      (g.nodes (g.arcs a).head).DIST > (g.nodes i).DIST →
      P (attach g i (g.arcs a).head a) (g.arcs a).next)
    (hsame : ∀ g a, P g (some a) → grow_rcap g sink a ≠ 0 →
      (g.nodes (g.arcs a).head).parent ≠ ArcPtr.null →
      (g.nodes (g.arcs a).head).is_sink = sink → P g (g.arcs a).next)
    (hzero : ∀ g a, P g (some a) → grow_rcap g sink a = 0 → P g (g.arcs a).next)
    (hbreak : ∀ g a, P g (some a) → grow_rcap g sink a ≠ 0 →
      (g.nodes (g.arcs a).head).parent ≠ ArcPtr.null →
      (g.nodes (g.arcs a).head).is_sink ≠ sink →
      Q g (some (if sink = true then (g.arcs a).sister else a)))
    (hdone : ∀ g, P g none → Q g none)
    {f : Nat} {g : Graph} {a : Option Nat} {r : Graph × Option Nat}
    (h : grow sink i f g a = Res.ok r) (hP : P g a) : Q r.1 r.2 := by
  induction f generalizing g a with
  | zero =>
    cases a with
    | none =>
      simp only [grow, Res.ok.injEq] at h
      subst h
      exact hdone g hP
    | some a => simp [grow] at h
  | succ n ih =>
    cases a with
    | none =>
      simp only [grow, Res.ok.injEq] at h
      subst h
      exact hdone g hP
    | some a =>
      revert h
      simp only [grow]
      split
      · rename_i hr
        split
        · rename_i hp
          exact fun h => ih h (hadopt g a hP hr hp)
        · rename_i hp
          split
          · rename_i hs
            intro h
            simp only [Res.ok.injEq] at h
            subst h
            exact hbreak g a hP hr hp hs
          · rename_i hs
            have hs' : (g.nodes (g.arcs a).head).is_sink = sink := by
              simpa using hs
            split
            · rename_i ht
              exact fun h => ih h (hattach g a hP hr hp hs' ht.1 ht.2)
            · exact fun h => ih h (hsame g a hP hr hp hs')
      · rename_i hr
        have hr' : grow_rcap g sink a = 0 := by simpa using hr
        exact fun h => ih h (hzero g a hP hr')

/-- Rule for the growth scan, for a property that does not depend on the
position in the arc list. -/
theorem grow_inv {sink : Bool} {i : Nat} (P : Graph → Prop)
    (hadopt : ∀ g a, P g → grow_rcap g sink a ≠ 0 →
      (g.nodes (g.arcs a).head).parent = ArcPtr.null → P (grow_adopt g sink i a))
    (hattach : ∀ g a, P g → grow_rcap g sink a ≠ 0 →
      (g.nodes (g.arcs a).head).parent ≠ ArcPtr.null →
      (g.nodes (g.arcs a).head).is_sink = sink →
      (g.nodes (g.arcs a).head).TS ≤ (g.nodes i).TS →
      (g.nodes (g.arcs a).head).DIST > (g.nodes i).DIST →
      P (attach g i (g.arcs a).head a))
    {f : Nat} {g : Graph} {a : Option Nat} {r : Graph × Option Nat}
    (h : grow sink i f g a = Res.ok r) (hP : P g) : P r.1 :=
  grow_rule (fun g _ => P g) (fun g _ => P g) hadopt hattach (fun _ _ hP _ _ _ => hP)
    (fun _ _ hP _ => hP) (fun _ _ hP _ _ _ => hP) (fun _ hP => hP) h hP

/-- Rule for the loop over the neighbours of a node that found no parent. -/
theorem process_neighbors_rule {sink : Bool} {i : Nat} (P : Graph → Option Nat → Prop)
    (hstep : ∀ g a, P g (some a) → P (neighbor_step g sink i a) (g.arcs a).next)
    {f : Nat} {g : Graph} {a : Option Nat} {r : Graph}
    (h : process_neighbors sink i f g a = Res.ok r) (hP : P g a) : P r none := by
  induction f generalizing g a with
  | zero =>
    cases a with
    | none =>
      simp only [process_neighbors, Res.ok.injEq] at h
      subst h
      exact hP
    | some a => simp [process_neighbors] at h
  | succ n ih =>
    cases a with
    | none =>
      simp only [process_neighbors, Res.ok.injEq] at h
      subst h
      exact hP
    | some a =>
      simp only [process_neighbors] at h
      exact ih h (hstep g a hP)

/-- Rule for the neighbour loop of the tree-reuse initialisation. -/
theorem reuse_neighbors_rule {sink : Bool} (P : Graph → Option Nat → Prop)
    (hstep : ∀ g a, P g (some a) → P (reuse_step g sink a) (g.arcs a).next)
    {f : Nat} {g : Graph} {a : Option Nat} {r : Graph}
    (h : reuse_neighbors sink f g a = Res.ok r) (hP : P g a) : P r none := by
  induction f generalizing g a with
  | zero =>
    cases a with
    | none =>
      simp only [reuse_neighbors, Res.ok.injEq] at h
      subst h
      exact hP
    | some a => simp [reuse_neighbors] at h
  | succ n ih =>
    cases a with
    | none =>
      simp only [reuse_neighbors, Res.ok.injEq] at h
      subst h
      exact hP
    | some a =>
      simp only [reuse_neighbors] at h
      exact ih h (hstep g a hP)

/-- Rule for `next_active`. -/
theorem next_active_rule (P : Graph → Prop) (Q : Graph → Option Nat → Prop)
    (hnone : ∀ g, P g → (refill g).queue_first0 = none → Q (refill g) none)
    (hsome : ∀ g i, P g → (refill g).queue_first0 = some i →
      ((pop_active (refill g) i).nodes i).parent ≠ ArcPtr.null →
      Q (pop_active (refill g) i) (some i))
    (hdrop : ∀ g i, P g → (refill g).queue_first0 = some i →
      ((pop_active (refill g) i).nodes i).parent = ArcPtr.null → P (pop_active (refill g) i))
    {f : Nat} {g : Graph} {r : Graph × Option Nat}
    (h : next_active f g = Res.ok r) (hP : P g) : Q r.1 r.2 := by
  induction f generalizing g with
  | zero => simp [next_active] at h
  | succ n ih =>
    revert h
    simp only [next_active]
    split
    · rename_i hq
      intro h
      simp only [Res.ok.injEq] at h
      subst h
      exact hnone g hP hq
    · rename_i i hq
      split
      · rename_i hp
        intro h
        simp only [Res.ok.injEq] at h
        subst h
        exact hsome g i hP hq hp
      · rename_i hp
        have hp' : ((pop_active (refill g) i).nodes i).parent = ArcPtr.null := by
          simpa using hp
        exact fun h => ih h (hdrop g i hP hq hp')

/-- Rule for the push loops of `augment` (source side). -/
theorem push_source_rule {b : Int} (P : Graph → Nat → Prop) (Q : Graph → Prop)
    (harc : ∀ g i a, P g i → (g.nodes i).parent = ArcPtr.arc a →
      P (push_source_arc g i a b) (g.arcs a).head)
    (hroot : ∀ g i, P g i → (g.nodes i).parent = ArcPtr.terminal → Q (push_root g i (-b)))
    {f : Nat} {g : Graph} {i : Nat} {r : Graph}
    (h : push_source b f g i = Res.ok r) (hP : P g i) : Q r := by
  induction f generalizing g i with
  | zero => simp [push_source] at h
  | succ n ih =>
    revert h
    simp only [push_source]
    split
    · rename_i hp
      intro h
      simp only [Res.ok.injEq] at h
      subst h
      exact hroot g i hP hp
    · rename_i a hp
      exact fun h => ih h (harc g i a hP hp)
    · intro h
      simp at h
    · intro h
      simp at h

/-- Rule for the push loops of `augment` (sink side). -/
theorem push_sink_rule {b : Int} (P : Graph → Nat → Prop) (Q : Graph → Prop)
    (harc : ∀ g i a, P g i → (g.nodes i).parent = ArcPtr.arc a →
      P (push_sink_arc g i a b) (g.arcs a).head)
    (hroot : ∀ g i, P g i → (g.nodes i).parent = ArcPtr.terminal → Q (push_root g i b))
    {f : Nat} {g : Graph} {i : Nat} {r : Graph}
    (h : push_sink b f g i = Res.ok r) (hP : P g i) : Q r := by
  induction f generalizing g i with
  | zero => simp [push_sink] at h
  | succ n ih =>
    revert h
    simp only [push_sink]
    split
    · rename_i hp
      intro h
      simp only [Res.ok.injEq] at h
      subst h
      exact hroot g i hP hp
    · rename_i a hp
      exact fun h => ih h (harc g i a hP hp)
    · intro h
      simp at h
    · intro h
      simp at h

/-- The two ways `process_orphan` ends. -/
theorem process_orphan_cases {F : Nat} {sink : Bool} {g : Graph} {i : Nat} {r : Graph}
    (h : process_orphan F sink g i = Res.ok r) :
    ∃ g1 dmin, LabelEq g g1 ∧
      ((∃ amin, find_parent F sink F g (g.nodes i).first none INFINITE_D =
            Res.ok (g1, some amin, dmin) ∧ r = adopt_parent g1 i amin dmin) ∨
       (find_parent F sink F g (g.nodes i).first none INFINITE_D = Res.ok (g1, none, dmin) ∧
         process_neighbors sink i F (add_to_changed_list (g1.setParent i ArcPtr.null) i)
           (g1.nodes i).first = Res.ok r)) := by
  simp only [process_orphan, Res.bind_eq_ok] at h
  obtain ⟨⟨g1, amin, dmin⟩, h1, h2⟩ := h
  refine ⟨g1, dmin, find_parent_labelEq h1, ?_⟩
  cases amin with
  | none => exact Or.inr ⟨h1, h2⟩
  | some amin =>
    simp only [Res.ok.injEq] at h2
    exact Or.inl ⟨amin, h1, h2.symm⟩

/-- Rule for the loop that drains the orphan list. -/
theorem drain_orphans_rule {F : Nat} (P : Graph → Prop)
    (hstep : ∀ g i rest g1, P g → g.orphans = i :: rest →
      process_orphan F (g.nodes i).is_sink (g.setOrphans rest) i = Res.ok g1 → P g1)
    {f : Nat} {g r : Graph} (h : drain_orphans F f g = Res.ok r) (hP : P g) :
    P r ∧ r.orphans = [] := by
  induction f generalizing g with
  | zero => simp [drain_orphans] at h
  | succ n ih =>
    revert h
    simp only [drain_orphans]
    split
    · rename_i ho
      intro h
      simp only [Res.ok.injEq] at h
      subst h
      exact ⟨hP, ho⟩
    · rename_i i rest ho
      simp only [Res.bind_eq_ok, process_sink_orphan, process_source_orphan]
      rintro ⟨g1, h1, h2⟩
      refine ih h2 (hstep g i rest g1 hP ho ?_)
      revert h1
      split
      · rename_i hs
        have hs' : (g.nodes i).is_sink = true := hs
        rw [hs']
        exact id
      · rename_i hs
        have hs' : (g.nodes i).is_sink = false := by simpa using hs
        rw [hs']
        exact id

/-- Rule for the adoption stage of the main loop. -/
theorem adoption_rule {F : Nat} (P : Graph → Prop)
    (hdrain : ∀ g i rest g1, P g → g.orphans = i :: rest →
      drain_orphans F F (g.setOrphans [i]) = Res.ok g1 → P (g1.setOrphans rest))
    {f : Nat} {g r : Graph} (h : adoption F f g = Res.ok r) (hP : P g) :
    P r ∧ r.orphans = [] := by
  induction f generalizing g with
  | zero => simp [adoption] at h
  | succ n ih =>
    revert h
    simp only [adoption]
    split
    · rename_i ho
      intro h
      simp only [Res.ok.injEq] at h
      subst h
      exact ⟨hP, ho⟩
    · rename_i i rest ho
      simp only [Res.bind_eq_ok]
      rintro ⟨g1, h1, h2⟩
      exact ih h2 (hdrain g i rest g1 hP ho h1)

/-- Rule for the queue loop of the tree-reuse initialisation. -/
theorem reuse_queue_rule {F : Nat} (P : Graph → Option Nat → Prop)
    (hzero : ∀ g i, P g (some i) → ((reuse_enter g i).nodes i).tr_cap = 0 →
      P (if ((reuse_enter g i).nodes i).parent ≠ ArcPtr.null then
          set_orphan_rear (reuse_enter g i) i else reuse_enter g i)
        (if (g.nodes i).next = some i then none else (g.nodes i).next))
    (hmove : ∀ g i g3, P g (some i) → ((reuse_enter g i).nodes i).tr_cap ≠ 0 →
      (((reuse_enter g i).nodes i).parent = ArcPtr.null ∨
        ((reuse_enter g i).nodes i).is_sink ≠ decide (((reuse_enter g i).nodes i).tr_cap < 0)) →
      reuse_neighbors (decide (((reuse_enter g i).nodes i).tr_cap < 0)) F
        ((reuse_enter g i).setSink i (decide (((reuse_enter g i).nodes i).tr_cap < 0)))
        ((reuse_enter g i).nodes i).first = Res.ok g3 →
      P (make_root (add_to_changed_list g3 i) i)
        (if (g.nodes i).next = some i then none else (g.nodes i).next))
    (hstay : ∀ g i, P g (some i) → ((reuse_enter g i).nodes i).tr_cap ≠ 0 →
      ((reuse_enter g i).nodes i).parent ≠ ArcPtr.null →
      ((reuse_enter g i).nodes i).is_sink = decide (((reuse_enter g i).nodes i).tr_cap < 0) →
      P (make_root (reuse_enter g i) i)
        (if (g.nodes i).next = some i then none else (g.nodes i).next))
    {f : Nat} {g : Graph} {q : Option Nat} {r : Graph}
    (h : reuse_queue F f g q = Res.ok r) (hP : P g q) : P r none := by
  induction f generalizing g q with
  | zero =>
    cases q with
    | none =>
      simp only [reuse_queue, Res.ok.injEq] at h
      subst h
      exact hP
    | some a => simp [reuse_queue] at h
  | succ n ih =>
    cases q with
    | none =>
      simp only [reuse_queue, Res.ok.injEq] at h
      subst h
      exact hP
    | some i =>
      revert h
      simp only [reuse_queue]
      split
      · rename_i hz
        exact fun h => ih h (hzero g i hP hz)
      · rename_i hz
        split
        · rename_i hc
          simp only [Res.bind_eq_ok]
          rintro ⟨g3, h1, h2⟩
          exact ih h2 (hmove g i g3 hP hz hc h1)
        · rename_i hc
          have hc' : ((reuse_enter g i).nodes i).parent ≠ ArcPtr.null ∧
              ((reuse_enter g i).nodes i).is_sink =
                decide (((reuse_enter g i).nodes i).tr_cap < 0) := by
            constructor
            · intro hh
              exact hc (Or.inl hh)
            · by_contra hh
              exact hc (Or.inr hh)
          exact fun h => ih h (hstay g i hP hz hc'.1 hc'.2)

/-- Rule for the main loop: `I` holds at the top of every iteration (with
`current_node`), `J` when a node has been picked for growth. -/
theorem main_loop_rule {F : Nat} (I : Graph → Option Nat → Prop) (J : Graph → Nat → Prop)
    (Post : Graph → Prop)
    (hexit : ∀ g c g1, I g c → pick_active F g c = Res.ok (g1, none) → Post g1)
    (hpick : ∀ g c g1 i, I g c → pick_active F g c = Res.ok (g1, some i) → J g1 i)
    (hgrown : ∀ g1 i g3, J g1 i →
      grow (g1.nodes i).is_sink i F g1 (g1.nodes i).first = Res.ok (g3, none) →
      I (g3.setTIME (g3.TIME + 1)) none)
    (haugment : ∀ g1 i g3 m g5 g6, J g1 i →
      grow (g1.nodes i).is_sink i F g1 (g1.nodes i).first = Res.ok (g3, some m) →
      augment F ((g3.setTIME (g3.TIME + 1)).setNext i (some i)) m = Res.ok g5 →
      adoption F F g5 = Res.ok g6 → I g6 (some i))
    {f : Nat} {g : Graph} {c : Option Nat} {r : Graph}
    (h : main_loop F f g c = Res.ok r) (hI : I g c) : Post r := by
  induction f generalizing g c with
  | zero => simp [main_loop] at h
  | succ n ih =>
    revert h
    simp only [main_loop, Res.bind_eq_ok]
    rintro ⟨⟨g1, p⟩, h1, h2⟩
    cases p with
    | none =>
      simp only [Res.ok.injEq] at h2
      subst h2
      exact hexit g c g1 hI h1
    | some i =>
      have hJ := hpick g c g1 i hI h1
      simp only [Res.bind_eq_ok] at h2
      obtain ⟨⟨g3, a⟩, h3, h4⟩ := h2
      cases a with
      | none => exact ih h4 (hgrown g1 i g3 hJ h3)
      | some m =>
        simp only [Res.bind_eq_ok] at h4
        obtain ⟨g5, h5, g6, h6, h7⟩ := h4
        exact ih h7 (haugment g1 i g3 m g5 g6 hJ h3 h5 h6)

/-- The ways `pick_active` ends. -/
theorem pick_active_cases {F : Nat} {g : Graph} {c : Option Nat} {r : Graph × Option Nat}
    (h : pick_active F g c = Res.ok r) :
    (∃ i, c = some i ∧ (g.nodes i).parent ≠ ArcPtr.null ∧ r = (g.setNext i none, some i)) ∨
    ((c = none ∨ ∃ i, c = some i ∧ (g.nodes i).parent = ArcPtr.null) ∧
      next_active F (clear_current g c) = Res.ok r) := by
  cases c with
  | none =>
    right
    simp only [pick_active, keep_current] at h
    exact ⟨Or.inl rfl, h⟩
  | some i =>
    simp only [pick_active, keep_current, clear_current, setNext_nodes_parent] at h
    by_cases hp : (g.nodes i).parent = ArcPtr.null
    · right
      simp only [hp, if_true] at h
      exact ⟨Or.inr ⟨i, rfl, hp⟩, h⟩
    · left
      simp only [hp, if_false, Res.ok.injEq] at h
      exact ⟨i, rfl, hp, h.symm⟩

theorem outcome_of_flow {o : Outcome} {v : Int} (h : o.flow? = some v) :
    ∃ g, o = Outcome.returned g v := by
  cases o with
  | returned g fl =>
    simp only [Outcome.flow?, Option.some.injEq] at h
    exact ⟨g, by rw [h]⟩
  | exit g m => simp [Outcome.flow?] at h
  | fuel => simp [Outcome.flow?] at h
  | fault => simp [Outcome.flow?] at h

end Maxflow

namespace Maxflow

/-! ## The option checks of `maxflow` -/

/-- The option checks of `maxflow`: the call ends with a contract violation
exactly when `reuse_trees` is set on the first solve (`maxflow_iteration == 0`)
or a changed list comes without `reuse_trees`; the state at that point is the
entry state with only the `changed_list` pointer stored and the error callback,
when there is one, has been given a message; in every other case the call is
the solve (initialisation and main loop). -/
theorem maxflow_option_checks (F : Nat) (g : Graph) (reuse : Bool)
    (cl : Option (List Nat)) :
    ((maxflow F g reuse cl).isExit = true ↔
      (g.maxflow_iteration = 0 ∧ reuse = true) ∨ (cl.isSome = true ∧ reuse = false)) ∧
    (∀ g' msg, maxflow F g reuse cl = Outcome.exit g' msg →
      g' = g.setChanged cl ∧ g'.nodes = g.nodes ∧ g'.arcs = g.arcs ∧ g'.flow = g.flow ∧
      g'.maxflow_iteration = g.maxflow_iteration ∧
      (g.error_function = true → msg.isSome = true)) ∧
    ((maxflow F g reuse cl).isExit = false →
      maxflow F g reuse cl =
        match solve F (g.setChanged cl) reuse with
        | Res.ok g2 => Outcome.returned (g2.setIteration (g2.maxflow_iteration + 1)) g2.flow
        | Res.fuel => Outcome.fuel
        | Res.fault => Outcome.fault) := by
  have hexit : ∀ (g0 : Graph) (m : Option String), (Outcome.exit g0 m).isExit = true :=
    fun _ _ => rfl
  by_cases h1 : g.maxflow_iteration = 0 ∧ reuse = true
  · have e : maxflow F g reuse cl = Outcome.exit (g.setChanged cl)
        (if g.error_function = true then
          some "reuse_trees cannot be used in the first call to maxflow()!" else none) := by
      unfold maxflow
      rw [if_pos (by simpa using h1)]
    rw [e]
    refine ⟨⟨fun _ => Or.inl h1, fun _ => hexit _ _⟩, ?_, ?_⟩
    · intro g' msg hh
      injection hh with ha hb
      subst ha hb
      refine ⟨rfl, rfl, rfl, rfl, rfl, ?_⟩
      intro he
      simp [he]
    · intro hh
      rw [hexit] at hh
      exact absurd hh (by decide)
  · by_cases h2 : cl.isSome = true ∧ reuse = false
    · have e : maxflow F g reuse cl = Outcome.exit (g.setChanged cl)
          (if g.error_function = true then
            some "changed_list cannot be used without reuse_trees!" else none) := by
        unfold maxflow
        rw [if_neg (by simpa using h1), if_pos (by simpa using h2)]
      rw [e]
      refine ⟨⟨fun _ => Or.inr h2, fun _ => hexit _ _⟩, ?_, ?_⟩
      · intro g' msg hh
        injection hh with ha hb
        subst ha hb
        refine ⟨rfl, rfl, rfl, rfl, rfl, ?_⟩
        intro he
        simp [he]
      · intro hh
        rw [hexit] at hh
        exact absurd hh (by decide)
    · have e : maxflow F g reuse cl =
          match solve F (g.setChanged cl) reuse with
          | Res.ok g2 => Outcome.returned (g2.setIteration (g2.maxflow_iteration + 1)) g2.flow
          | Res.fuel => Outcome.fuel
          | Res.fault => Outcome.fault := by
        unfold maxflow
        rw [if_neg (by simpa using h1)]
        rw [if_neg (by simpa using h2)] <;>
          (try (cases solve F (g.setChanged cl) reuse <;> rfl))
      refine ⟨?_, ?_, fun _ => e⟩
      · rw [e]
        constructor
        · intro hh
          cases hs : solve F (g.setChanged cl) reuse <;> rw [hs] at hh <;>
            simp [Outcome.isExit] at hh
        · rintro (hh | hh)
          · exact absurd hh h1
          · exact absurd hh h2
      · intro g' msg hh
        rw [e] at hh
        cases hs : solve F (g.setChanged cl) reuse <;> rw [hs] at hh <;> simp at hh

/-! ## The end-to-end scenarios -/

theorem scenario1_solved_spec :
    maxflow 6 scenario1 false none = Outcome.returned scenario1_solved 3 := by
  have h : (maxflow 6 scenario1 false none).flow? = some 3 := by decide
  obtain ⟨g, hg⟩ := outcome_of_flow h
  have : scenario1_solved = g := by
    simp [scenario1_solved, hg, Outcome.state?]
  rw [this]
  exact hg

/-- C7, the claim as stated fails: after the cold solve of scenario 1, node 1 has a
parent and `is_sink` false, so it is on the source side and `what_segment(1)` is
not `SINK`. -/
theorem scenario1_node1_not_sink :
    ∃ g fl, maxflow 4 scenario1 false none = Outcome.returned g fl ∧
      (g.nodes 1).parent ≠ ArcPtr.null ∧ (g.nodes 1).is_sink = false ∧
      what_segment g 1 ≠ termtype.SINK := by
  have h : (maxflow 4 scenario1 false none).flow? = some 3 := by decide
  have h2 : ((maxflow 4 scenario1 false none).state?.map fun g =>
      ((g.nodes 1).parent, (g.nodes 1).is_sink, what_segment g 1)) =
      some (ArcPtr.arc 1, false, termtype.SOURCE) := by decide
  obtain ⟨g, hg⟩ := outcome_of_flow h
  rw [hg] at h2
  simp only [Outcome.state?, Option.map_some', Option.some.injEq, Prod.mk.injEq] at h2
  refine ⟨g, 3, hg, ?_, h2.2.1, ?_⟩
  · rw [h2.1]; decide
  · rw [h2.2.2]; decide

/-- C7, amended: the cold solve of scenario 1 returns flow 3 and leaves node 0 and
node 1 both on the source side (`parent != null`, `is_sink` false,
`what_segment = SOURCE`); the cut is the terminal arc of node 1. -/
theorem scenario1_segments (F : Nat) (hF : 4 ≤ F) :
    ∃ g, maxflow F scenario1 false none = Outcome.returned g 3 ∧
      what_segment g 0 = termtype.SOURCE ∧ what_segment g 1 = termtype.SOURCE ∧
      (g.nodes 1).parent ≠ ArcPtr.null ∧ (g.nodes 1).is_sink = false ∧
      (g.nodes 1).tr_cap = 0 := by
  have h : (maxflow 4 scenario1 false none).flow? = some 3 := by decide
  have h2 : ((maxflow 4 scenario1 false none).state?.map fun g =>
      (what_segment g 0, what_segment g 1, (g.nodes 1).parent, (g.nodes 1).is_sink,
        (g.nodes 1).tr_cap)) =
      some (termtype.SOURCE, termtype.SOURCE, ArcPtr.arc 1, false, 0) := by decide
  obtain ⟨g, hg⟩ := outcome_of_flow h
  rw [hg] at h2
  simp only [Outcome.state?, Option.map_some', Option.some.injEq, Prod.mk.injEq] at h2
  refine ⟨g, maxflow_mono hF hg, h2.1, h2.2.1, ?_, h2.2.2.2.1, h2.2.2.2.2⟩
  rw [h2.2.2.1]; decide

theorem scenario1_segments_witness :
    ∃ g, maxflow 4 scenario1 false none = Outcome.returned g 3 ∧
      what_segment g 0 = termtype.SOURCE ∧ what_segment g 1 = termtype.SOURCE ∧
      (g.nodes 1).parent ≠ ArcPtr.null ∧ (g.nodes 1).is_sink = false ∧
      (g.nodes 1).tr_cap = 0 :=
  scenario1_segments 4 (by decide)

/-- C8, the claim as stated fails: the tree-reuse solve of scenario 4 returns a
total flow different from 1. -/
theorem scenario4_flow_not_one :
    ∃ g fl, maxflow 3 scenario4 true none = Outcome.returned g fl ∧ fl ≠ 1 := by
  have h : (maxflow 3 scenario4 true none).flow? = some 3 := by decide
  obtain ⟨g, hg⟩ := outcome_of_flow h
  exact ⟨g, 3, hg, by decide⟩

/-- C8, amended: scenario 1 solves with flow 3; after setting the residual of arc
0→1 to 1 (the value it already has) and marking nodes 0 and 1, the call
`maxflow(reuse_trees=true)` returns the total flow 3: `flow` is accumulated
over the solves and the reuse solve finds nothing to add. -/
theorem scenario4_flow (F : Nat) (hF : 3 ≤ F) :
    maxflow 6 scenario1 false none = Outcome.returned scenario1_solved 3 ∧
    (scenario1_solved.arcs 0).r_cap = 1 ∧
    ∃ g, maxflow F scenario4 true none = Outcome.returned g 3 := by
  refine ⟨scenario1_solved_spec, by decide, ?_⟩
  have h : (maxflow 3 scenario4 true none).flow? = some 3 := by decide
  obtain ⟨g, hg⟩ := outcome_of_flow h
  exact ⟨g, maxflow_mono hF hg⟩

theorem scenario4_flow_witness :
    maxflow 6 scenario1 false none = Outcome.returned scenario1_solved 3 ∧
    (scenario1_solved.arcs 0).r_cap = 1 ∧
    ∃ g, maxflow 3 scenario4 true none = Outcome.returned g 3 :=
  scenario4_flow 3 (by decide)

/-- C9: on the diamond graph (flow initially 0) the cold solve returns 9. -/
theorem diamond_flow (F : Nat) (hF : 8 ≤ F) :
    diamond.flow = 0 ∧ ∃ g, maxflow F diamond false none = Outcome.returned g 9 := by
  refine ⟨by decide, ?_⟩
  have h : (maxflow 8 diamond false none).flow? = some 9 := by decide
  obtain ⟨g, hg⟩ := outcome_of_flow h
  exact ⟨g, maxflow_mono hF hg⟩

theorem diamond_flow_witness :
    diamond.flow = 0 ∧ ∃ g, maxflow 8 diamond false none = Outcome.returned g 9 :=
  diamond_flow 8 (by decide)

/-! ## A second solve with nothing to do -/

theorem next_active_none {f : Nat} {g g' : Graph} (h : next_active f g = Res.ok (g', none)) :
    g'.queue_first0 = none ∧ g'.queue_first1 = none := by
  induction f generalizing g with
  | zero => simp [next_active] at h
  | succ n ih =>
    revert h
    simp only [next_active]
    split
    · rename_i hq
      intro h
      simp only [Res.ok.injEq, Prod.mk.injEq, and_true] at h
      subst h
      refine ⟨hq, ?_⟩
      unfold refill at hq ⊢
      by_cases h0 : g.queue_first0 = none
      · simp [h0, rotate_queues]
      · simp [h0] at hq
    · split
      · intro h
        simp at h
      · exact ih

theorem reuse_queue_none (F f : Nat) (g : Graph) : reuse_queue F f g none = Res.ok g := by
  cases f <;> rfl

theorem drain_orphans_nil (F f : Nat) (g : Graph) (h : g.orphans = []) :
    drain_orphans F (f + 1) g = Res.ok g := by
  simp [drain_orphans, h]

theorem next_active_empty (f : Nat) (g : Graph) (h0 : g.queue_first0 = none)
    (h1 : g.queue_first1 = none) : next_active (f + 1) g = Res.ok (rotate_queues g, none) := by
  simp [next_active, refill, h0, rotate_queues, h1]

theorem main_loop_empty (F f : Nat) (g : Graph) (h0 : g.queue_first0 = none)
    (h1 : g.queue_first1 = none) : main_loop (F + 1) (f + 1) g none = Res.ok (rotate_queues g) := by
  simp [main_loop, pick_active, keep_current, clear_current, next_active_empty F g h0 h1,
    Res.bind]

theorem main_loop_queues_empty {F f : Nat} {g g' : Graph} {c : Option Nat}
    (h : main_loop F f g c = Res.ok g') :
    g'.queue_first0 = none ∧ g'.queue_first1 = none := by
  induction f generalizing g c with
  | zero => simp [main_loop] at h
  | succ n ih =>
    revert h
    simp only [main_loop, Res.bind_eq_ok]
    rintro ⟨p, h1, h2⟩
    revert h2
    split
    · rename_i hp
      intro h2
      simp only [Res.ok.injEq] at h2
      subst h2
      revert h1
      simp only [pick_active]
      split
      · intro h1
        simp only [Res.ok.injEq] at h1
        subst h1
        simp at hp
      · intro h1
        obtain ⟨p1, p2⟩ := p
        simp only at hp
        subst hp
        exact next_active_none h1
    · simp only [Res.bind_eq_ok]
      rintro ⟨r1, _, h4⟩
      revert h4
      split
      · simp only [Res.bind_eq_ok]
        rintro ⟨g5, _, g6, _, h7⟩
        exact ih h7
      · exact ih

/-- C5: after a completed call of `maxflow`, a call `maxflow(reuse_trees=true)` made
on the state it left (no capacity edit, no `mark_node`) returns the same flow
and leaves every arc (so every `r_cap`) and every node (so every `tr_cap`)
unchanged. -/
theorem reuse_after_solve_idempotent (F : Nat) (g : Graph) (reuse : Bool)
    (cl : Option (List Nat)) (g1 : Graph) (fl : Int)
    (h : maxflow F g reuse cl = Outcome.returned g1 fl)
    (F2 : Nat) (hF2 : 1 ≤ F2) (cl2 : Option (List Nat)) :
    ∃ g2, maxflow F2 g1 true cl2 = Outcome.returned g2 fl ∧
      (∀ a, (g2.arcs a).r_cap = (g1.arcs a).r_cap) ∧
      (∀ i, (g2.nodes i).tr_cap = (g1.nodes i).tr_cap) ∧
      g2.arcs = g1.arcs ∧ g2.nodes = g1.nodes := by
  rw [maxflow_returned_iff] at h
  obtain ⟨_, _, gs, hs, rfl, rfl⟩ := h
  simp only [solve, Res.bind_eq_ok] at hs
  obtain ⟨gi, _, hm⟩ := hs
  have hq := (main_loop_queues_empty hm).2
  obtain ⟨k, rfl⟩ : ∃ k, F2 = k + 1 := ⟨F2 - 1, by omega⟩
  obtain ⟨g1, hg1⟩ : ∃ g1, g1 = gs.setIteration (gs.maxflow_iteration + 1) := ⟨_, rfl⟩
  rw [← hg1]
  have hit : g1.maxflow_iteration ≠ 0 := by rw [hg1]; exact Nat.succ_ne_zero _
  have hq1 : (g1.setChanged cl2).queue_first1 = none := by rw [hg1]; exact hq
  have hfl : gs.flow = g1.flow := by rw [hg1]; rfl
  rw [hfl]
  clear hg1 hfl hq hm
  obtain ⟨gi2, hgi2⟩ : ∃ gi2, gi2 = ((((g1.setChanged cl2).setQueue0 none none).setQueue1 none
    none).setOrphans []).setTIME ((g1.setChanged cl2).TIME + 1) := ⟨_, rfl⟩
  have hinit : maxflow_reuse_trees_init (k + 1) (g1.setChanged cl2) = Res.ok gi2 := by
    unfold maxflow_reuse_trees_init
    rw [hq1, reuse_queue_none, ← hgi2]
    show drain_orphans (k + 1) (k + 1) gi2 = Res.ok gi2
    exact drain_orphans_nil _ _ _ (by rw [hgi2]; rfl)
  have hsolve : solve (k + 1) (g1.setChanged cl2) true = Res.ok (rotate_queues gi2) := by
    unfold solve
    rw [if_pos rfl, hinit]
    show main_loop (k + 1) (k + 1) gi2 none = Res.ok (rotate_queues gi2)
    exact main_loop_empty _ _ _ (by rw [hgi2]; rfl) (by rw [hgi2]; rfl)
  have hfl2 : (rotate_queues gi2).flow = g1.flow := by rw [hgi2]; rfl
  have harcs : (rotate_queues gi2).arcs = g1.arcs := by rw [hgi2]; rfl
  have hnodes : (rotate_queues gi2).nodes = g1.nodes := by rw [hgi2]; rfl
  refine ⟨(rotate_queues gi2).setIteration ((rotate_queues gi2).maxflow_iteration + 1),
    ?_, fun a => by rw [setIteration_arcs, harcs], fun i => by rw [setIteration_nodes, hnodes],
    by rw [setIteration_arcs, harcs], by rw [setIteration_nodes, hnodes]⟩
  rw [maxflow_returned_iff]
  exact ⟨fun hh => hit hh.1, fun hh => absurd hh.2 (by decide), _, hsolve, rfl, hfl2.symm⟩

theorem reuse_after_solve_idempotent_witness :
    ∃ g2, maxflow 1 scenario1_solved true none = Outcome.returned g2 3 ∧
      (∀ a, (g2.arcs a).r_cap = (scenario1_solved.arcs a).r_cap) ∧
      (∀ i, (g2.nodes i).tr_cap = (scenario1_solved.nodes i).tr_cap) ∧
      g2.arcs = scenario1_solved.arcs ∧ g2.nodes = scenario1_solved.nodes :=
  reuse_after_solve_idempotent 6 scenario1 false none scenario1_solved 3 scenario1_solved_spec
    1 (by decide) none

end Maxflow

namespace Maxflow

/-! ### Parents after the writes that set them -/

@[simp] theorem set_orphan_front_nodes_parent (g : Graph) (i j : Nat) :
    ((set_orphan_front g i).nodes j).parent =
      if j = i then ArcPtr.orphan else (g.nodes j).parent := by
  simp [set_orphan_front]

@[simp] theorem set_orphan_rear_nodes_parent (g : Graph) (i j : Nat) :
    ((set_orphan_rear g i).nodes j).parent =
      if j = i then ArcPtr.orphan else (g.nodes j).parent := by
  simp [set_orphan_rear]

@[simp] theorem set_orphan_front_orphans (g : Graph) (i : Nat) :
    (set_orphan_front g i).orphans = i :: g.orphans := by
  simp [set_orphan_front]

@[simp] theorem set_orphan_rear_orphans (g : Graph) (i : Nat) :
    (set_orphan_rear g i).orphans = g.orphans ++ [i] := by
  simp [set_orphan_rear]

@[simp] theorem attach_nodes_parent (g : Graph) (i j a x : Nat) :
    ((attach g i j a).nodes x).parent =
      if x = j then ArcPtr.arc (g.arcs a).sister else (g.nodes x).parent := by
  simp [attach]

@[simp] theorem adopt_parent_nodes_parent (g : Graph) (i amin x : Nat) (dmin : Int) :
    ((adopt_parent g i amin dmin).nodes x).parent =
      if x = i then ArcPtr.arc amin else (g.nodes x).parent := by
  simp [adopt_parent]

@[simp] theorem make_root_nodes_parent (g : Graph) (i x : Nat) :
    ((make_root g i).nodes x).parent =
      if x = i then ArcPtr.terminal else (g.nodes x).parent := by
  simp [make_root]

/-- Nullness of parents after `neighbor_step`: only non-null parents are
replaced, by `ORPHAN`. -/
theorem neighbor_step_parent_null (g : Graph) (sink : Bool) (i a0 x : Nat) :
    ((neighbor_step g sink i a0).nodes x).parent = ArcPtr.null ↔
      (g.nodes x).parent = ArcPtr.null := by
  unfold neighbor_step
  split
  · rename_i hg
    split
    · rename_i p hp
      split
      · simp only [set_orphan_rear_nodes_parent]
        split
        · rename_i hx
          subst hx
          simp [hp]
        · split <;> simp
      · split <;> simp
    all_goals split <;> simp
  · rfl

/-- The orphan list after `neighbor_step`: at most the neighbour is appended,
and its parent is then `ORPHAN`. -/
theorem neighbor_step_orphans (g : Graph) (sink : Bool) (i a0 : Nat) :
    (neighbor_step g sink i a0).orphans = g.orphans ∨
      ((neighbor_step g sink i a0).orphans = g.orphans ++ [(g.arcs a0).head] ∧
        ((neighbor_step g sink i a0).nodes (g.arcs a0).head).parent = ArcPtr.orphan) := by
  unfold neighbor_step
  split
  · split
    · split
      · right
        split <;> simp
      · left
        split <;> simp
    all_goals (left; split <;> simp)
  · exact Or.inl rfl

theorem push_root_parent_null (g : Graph) (i : Nat) (d : Int) (x : Nat)
    (hp : (g.nodes i).parent ≠ ArcPtr.null) :
    ((push_root g i d).nodes x).parent = ArcPtr.null ↔ (g.nodes x).parent = ArcPtr.null := by
  unfold push_root
  split
  · simp only [set_orphan_front_nodes_parent, setTrCap_nodes_parent]
    split
    · rename_i hx
      subst hx
      simp [hp]
    · rfl
  · simp

theorem push_root_orphans (g : Graph) (i : Nat) (d : Int) :
    (push_root g i d).orphans = g.orphans ∨
      ((push_root g i d).orphans = i :: g.orphans ∧
        ((push_root g i d).nodes i).parent = ArcPtr.orphan) := by
  unfold push_root
  split
  · right
    simp
  · left
    simp

theorem push_source_arc_parent_null (g : Graph) (i a : Nat) (b : Int) (x : Nat)
    (hp : (g.nodes i).parent ≠ ArcPtr.null) :
    ((push_source_arc g i a b).nodes x).parent = ArcPtr.null ↔
      (g.nodes x).parent = ArcPtr.null := by
  unfold push_source_arc
  split
  · simp only [set_orphan_front_nodes_parent, push_pair_nodes]
    split
    · rename_i hx
      subst hx
      simp [hp]
    · rfl
  · simp

theorem push_source_arc_orphans (g : Graph) (i a : Nat) (b : Int) :
    (push_source_arc g i a b).orphans = g.orphans ∨
      ((push_source_arc g i a b).orphans = i :: g.orphans ∧
        ((push_source_arc g i a b).nodes i).parent = ArcPtr.orphan) := by
  unfold push_source_arc
  split
  · right
    simp
  · left
    simp

theorem push_sink_arc_parent_null (g : Graph) (i a : Nat) (b : Int) (x : Nat)
    (hp : (g.nodes i).parent ≠ ArcPtr.null) :
    ((push_sink_arc g i a b).nodes x).parent = ArcPtr.null ↔
      (g.nodes x).parent = ArcPtr.null := by
  unfold push_sink_arc
  split
  · simp only [set_orphan_front_nodes_parent, push_pair_nodes]
    split
    · rename_i hx
      subst hx
      simp [hp]
    · rfl
  · simp

theorem push_sink_arc_orphans (g : Graph) (i a : Nat) (b : Int) :
    (push_sink_arc g i a b).orphans = g.orphans ∨
      ((push_sink_arc g i a b).orphans = i :: g.orphans ∧
        ((push_sink_arc g i a b).nodes i).parent = ArcPtr.orphan) := by
  unfold push_sink_arc
  split
  · right
    simp
  · left
    simp

theorem reuse_step_parent_null (g : Graph) (sink : Bool) (a x : Nat) :
    ((reuse_step g sink a).nodes x).parent = ArcPtr.null ↔ (g.nodes x).parent = ArcPtr.null := by
  unfold reuse_step reuse_orphan_child
  split
  · split
    · rename_i hp
      split
      · simp only [set_active_nodes_parent, set_orphan_rear_nodes_parent]
        split
        · rename_i hx
          subst hx
          simp [hp]
        · rfl
      · simp only [set_orphan_rear_nodes_parent]
        split
        · rename_i hx
          subst hx
          simp [hp]
        · rfl
    · split <;> simp
  · rfl

theorem reuse_step_orphans (g : Graph) (sink : Bool) (a : Nat) :
    (reuse_step g sink a).orphans = g.orphans ∨
      ((reuse_step g sink a).orphans = g.orphans ++ [(g.arcs a).head] ∧
        ((reuse_step g sink a).nodes (g.arcs a).head).parent = ArcPtr.orphan) := by
  unfold reuse_step reuse_orphan_child
  split
  · split
    · right
      split <;> simp
    · left
      split <;> simp
  · exact Or.inl rfl

end Maxflow

namespace Maxflow

/-! ## The changed list -/

theorem changeLog_has_list {g g' : Graph} (h : ChangeLog g g') : ∃ l, g'.changed_list = some l := by
  obtain ⟨l, added, _, h2, _⟩ := h.ext
  exact ⟨_, h2⟩

theorem changeLog_refl {g : Graph} (h : ∃ l, g.changed_list = some l) : ChangeLog g g := by
  obtain ⟨l, hl⟩ := h
  refine ⟨⟨l, [], hl, by simpa using hl, List.nodup_nil, ?_⟩, fun _ h => h, fun _ => Or.inr rfl,
    fun _ h => h⟩
  intro i
  simp only [List.not_mem_nil, false_iff, not_and, Bool.not_eq_false]
  exact fun h => h

theorem changeLog_trans {g1 g2 g3 : Graph} (h : ChangeLog g1 g2) (h' : ChangeLog g2 g3) :
    ChangeLog g1 g3 := by
  obtain ⟨l, a1, e1, e2, n1, m1⟩ := h.ext
  obtain ⟨l', a2, e3, e4, n2, m2⟩ := h'.ext
  have hl : l' = l ++ a1 := by
    rw [e2] at e3
    exact (Option.some.inj e3).symm
  refine ⟨⟨l, a1 ++ a2, e1, by rw [e4, hl, List.append_assoc], ?_, ?_⟩, ?_, ?_, ?_⟩
  · rw [List.nodup_append]
    refine ⟨n1, n2, ?_⟩
    intro i hi1 hi2
    have := ((m1 i).1 hi1).1
    have := ((m2 i).1 hi2).2
    simp_all
  · intro i
    rw [List.mem_append, m1, m2]
    constructor
    · rintro (⟨ha, hb⟩ | ⟨ha, hb⟩)
      · exact ⟨h'.mono i ha, hb⟩
      · refine ⟨ha, ?_⟩
        by_contra hc
        have := h.mono i (by simpa using hc)
        simp_all
    · rintro ⟨ha, hb⟩
      by_cases hc : (g2.nodes i).is_in_changed_list = true
      · exact Or.inl ⟨hc, hb⟩
      · exact Or.inr ⟨ha, by simpa using hc⟩
  · exact fun i hi => h'.mono i (h.mono i hi)
  · intro i
    rcases h'.seg i with hs | hs
    · exact Or.inl hs
    · rcases h.seg i with hs2 | hs2
      · exact Or.inl (h'.mono i hs2)
      · exact Or.inr (hs.trans hs2)
  · exact fun i hi => h'.keep i (h.keep i hi)

theorem segment_eq_of {g g' : Graph} {i : Nat}
    (hnull : (g'.nodes i).parent = ArcPtr.null ↔ (g.nodes i).parent = ArcPtr.null)
    (hsink : (g.nodes i).parent ≠ ArcPtr.null → (g'.nodes i).is_sink = (g.nodes i).is_sink) :
    segment g' i = segment g i := by
  unfold segment
  by_cases h : (g.nodes i).parent = ArcPtr.null
  · rw [if_pos h, if_pos (hnull.2 h)]
  · rw [if_neg h, if_neg (fun hh => h (hnull.1 hh)), hsink h]

/-- A write that touches neither the changed list, nor the flags, nor the
segment of any node. -/
theorem changeLog_of_same {g g' : Graph} (hl : ∃ l, g.changed_list = some l)
    (hcl : g'.changed_list = g.changed_list)
    (hfl : ∀ i, (g'.nodes i).is_in_changed_list = (g.nodes i).is_in_changed_list)
    (hnull : ∀ i, (g'.nodes i).parent = ArcPtr.null ↔ (g.nodes i).parent = ArcPtr.null)
    (hsink : ∀ i, (g.nodes i).parent ≠ ArcPtr.null →
      (g'.nodes i).is_sink = (g.nodes i).is_sink) : ChangeLog g g' := by
  obtain ⟨l, hl⟩ := hl
  refine ⟨⟨l, [], hl, by simpa [hcl] using hl, List.nodup_nil, ?_⟩, ?_, ?_, ?_⟩
  · intro i
    simp only [List.not_mem_nil, false_iff, not_and, Bool.not_eq_false, hfl]
    exact fun h => h
  · intro i hi
    rw [hfl]
    exact hi
  · exact fun i => Or.inr (segment_eq_of (hnull i) (hsink i))
  · intro i hi
    unfold Tracked at hi ⊢
    rw [hfl, Ne, hnull]
    exact hi

theorem changeLog_of_labelEq {g g' : Graph} (hl : ∃ l, g.changed_list = some l)
    (h : LabelEq g g') : ChangeLog g g' :=
  changeLog_of_same hl h.changed_list h.is_in_changed_list (fun i => by rw [h.parent])
    (fun i _ => h.is_sink i)

theorem changeLog_add {g : Graph} (i : Nat)
    (hl : ∃ l, g.changed_list = some l) : ChangeLog g (add_to_changed_list g i) := by
  obtain ⟨l, hl⟩ := hl
  unfold add_to_changed_list
  rw [hl]
  simp only
  split
  · exact changeLog_refl ⟨l, hl⟩
  · rename_i hf
    have hf' : (g.nodes i).is_in_changed_list = false := by simpa using hf
    refine ⟨⟨l, [i], hl, rfl, List.nodup_singleton i, ?_⟩, ?_, ?_, ?_⟩
    · intro j
      simp only [List.mem_singleton, setInChanged_nodes_is_in_changed_list, setChanged_nodes]
      by_cases hj : j = i
      · subst hj
        simp [hf']
      · simp [hj]
    · intro j hj
      simp only [setInChanged_nodes_is_in_changed_list, setChanged_nodes]
      split
      · rfl
      · exact hj
    · intro j
      right
      apply segment_eq_of <;> simp
    · intro j hj
      unfold Tracked at hj ⊢
      simp only [setInChanged_nodes_is_in_changed_list, setChanged_nodes,
        setInChanged_nodes_parent]
      rcases hj with hj | hj
      · left
        split
        · rfl
        · exact hj
      · exact Or.inr hj

/-- After `add_to_changed_list(i)` node `i` is flagged. -/
theorem add_to_changed_list_flag {g : Graph} (i : Nat) (hl : ∃ l, g.changed_list = some l) :
    ((add_to_changed_list g i).nodes i).is_in_changed_list = true := by
  obtain ⟨l, hl⟩ := hl
  unfold add_to_changed_list
  rw [hl]
  simp only
  split
  · assumption
  · simp

/-- A sequence of writes on node `j` that ends with `add_to_changed_list(j)`
and leaves the segments of the other nodes alone. -/
theorem changeLog_of_flagged {g g1 : Graph} (j : Nat) (hl : ∃ l, g.changed_list = some l)
    (hcl : g1.changed_list = g.changed_list)
    (hfl : ∀ i, (g1.nodes i).is_in_changed_list = (g.nodes i).is_in_changed_list)
    (hnull : ∀ i, i ≠ j → ((g1.nodes i).parent = ArcPtr.null ↔ (g.nodes i).parent = ArcPtr.null))
    (hsink : ∀ i, i ≠ j → (g.nodes i).parent ≠ ArcPtr.null →
      (g1.nodes i).is_sink = (g.nodes i).is_sink) :
    ChangeLog g (add_to_changed_list g1 j) := by
  have hl1 : ∃ l, g1.changed_list = some l := by
    rw [hcl]
    exact hl
  have hA := changeLog_add j hl1
  have hflag := add_to_changed_list_flag j hl1
  obtain ⟨l, added, e1, e2, nd, hm⟩ := hA.ext
  refine ⟨⟨l, added, by rw [← hcl]; exact e1, e2, nd, ?_⟩, ?_, ?_, ?_⟩
  · intro i
    rw [hm, hfl]
  · intro i hi
    exact hA.mono i (by rw [hfl]; exact hi)
  · intro i
    by_cases hij : i = j
    · subst hij
      exact Or.inl hflag
    · rcases hA.seg i with hs | hs
      · exact Or.inl hs
      · right
        rw [hs]
        exact segment_eq_of (hnull i hij) (hsink i hij)
  · intro i hi
    by_cases hij : i = j
    · subst hij
      exact Or.inl hflag
    · apply hA.keep
      unfold Tracked at hi ⊢
      rw [hfl, Ne, hnull i hij]
      exact hi

end Maxflow

namespace Maxflow

/-! ### Every write of the solver respects the change log -/

theorem clInv_has_list {g0 g : Graph} (h : CLInv g0 g) : ∃ l, g.changed_list = some l :=
  changeLog_has_list h.1

theorem clInv_step {g0 g g' : Graph} (h : CLInv g0 g) (h' : ChangeLog g g')
    (ho : ∀ i ∈ g'.orphans, i ∈ g.orphans ∨ Tracked g' i) : CLInv g0 g' := by
  refine ⟨changeLog_trans h.1 h', ?_⟩
  intro i hi
  rcases ho i hi with h1 | h1
  · exact h'.keep i (h.2 i h1)
  · exact h1

theorem clInv_labelEq {g0 g g' : Graph} (h : CLInv g0 g) (hl : LabelEq g g') : CLInv g0 g' :=
  clInv_step h (changeLog_of_labelEq (clInv_has_list h) hl)
    (fun i hi => Or.inl (by rw [← hl.orphans]; exact hi))

theorem clInv_set_active {g0 g : Graph} (h : CLInv g0 g) (i : Nat) : CLInv g0 (set_active g i) :=
  clInv_step h (changeLog_of_same (clInv_has_list h) (by simp) (by simp) (by simp) (by simp))
    (fun i hi => Or.inl (by simpa using hi))

theorem clInv_refill {g0 g : Graph} (h : CLInv g0 g) : CLInv g0 (refill g) :=
  clInv_step h (changeLog_of_same (clInv_has_list h) (by simp) (by simp) (by simp) (by simp))
    (fun i hi => Or.inl (by simpa using hi))

theorem clInv_pop_active {g0 g : Graph} (h : CLInv g0 g) (i : Nat) : CLInv g0 (pop_active g i) :=
  clInv_step h (changeLog_of_same (clInv_has_list h) (by simp) (by simp) (by simp) (by simp))
    (fun i hi => Or.inl (by simpa using hi))

theorem clInv_setNext {g0 g : Graph} (h : CLInv g0 g) (i : Nat) (v : Option Nat) :
    CLInv g0 (g.setNext i v) :=
  clInv_step h (changeLog_of_same (clInv_has_list h) (by simp) (by simp) (by simp) (by simp))
    (fun i hi => Or.inl (by simpa using hi))

theorem clInv_setTIME {g0 g : Graph} (h : CLInv g0 g) (t : Int) : CLInv g0 (g.setTIME t) :=
  clInv_step h (changeLog_of_same (clInv_has_list h) (by simp) (by simp) (by simp) (by simp))
    (fun i hi => Or.inl (by simpa using hi))

theorem clInv_setFlow {g0 g : Graph} (h : CLInv g0 g) (t : Int) : CLInv g0 (g.setFlow t) :=
  clInv_step h (changeLog_of_same (clInv_has_list h) (by simp) (by simp) (by simp) (by simp))
    (fun i hi => Or.inl (by simpa using hi))

theorem clInv_push_pair {g0 g : Graph} (h : CLInv g0 g) (u d : Nat) (b : Int) :
    CLInv g0 (push_pair g u d b) :=
  clInv_step h (changeLog_of_same (clInv_has_list h) (by simp) (by simp) (by simp) (by simp))
    (fun i hi => Or.inl (by simpa using hi))

theorem clInv_reuse_enter {g0 g : Graph} (h : CLInv g0 g) (i : Nat) :
    CLInv g0 (reuse_enter g i) :=
  clInv_step h (changeLog_of_same (clInv_has_list h) (by simp) (by simp) (by simp) (by simp))
    (fun i hi => Or.inl (by simpa using hi))

theorem clInv_clear_current {g0 g : Graph} (h : CLInv g0 g) (c : Option Nat) :
    CLInv g0 (clear_current g c) :=
  clInv_step h (changeLog_of_same (clInv_has_list h) (by simp) (by simp) (by simp) (by simp))
    (fun i hi => Or.inl (by simpa using hi))

/-- Dropping pending orphans keeps the invariant. -/
theorem clInv_setOrphans {g0 g : Graph} (h : CLInv g0 g) (l : List Nat)
    (hl : ∀ i ∈ l, Tracked g i) : CLInv g0 (g.setOrphans l) :=
  clInv_step h (changeLog_of_same (clInv_has_list h) (by simp) (by simp) (by simp) (by simp))
    (fun i hi => Or.inr (by
      have := hl i (by simpa using hi)
      simpa [Tracked] using this))

theorem clInv_set_orphan_rear {g0 g : Graph} (h : CLInv g0 g) (i : Nat)
    (hp : (g.nodes i).parent ≠ ArcPtr.null) : CLInv g0 (set_orphan_rear g i) := by
  refine clInv_step h (changeLog_of_same (clInv_has_list h) (by simp) (by simp) ?_ (by simp)) ?_
  · intro j
    simp only [set_orphan_rear_nodes_parent]
    split
    · rename_i hj
      subst hj
      simp [hp]
    · rfl
  · intro j hj
    simp only [set_orphan_rear_orphans, List.mem_append, List.mem_singleton] at hj
    rcases hj with hj | hj
    · exact Or.inl hj
    · subst hj
      right
      right
      simp

theorem clInv_attach {g0 g : Graph} (h : CLInv g0 g) (i j a : Nat)
    (hp : (g.nodes j).parent ≠ ArcPtr.null) : CLInv g0 (attach g i j a) := by
  refine clInv_step h (changeLog_of_same (clInv_has_list h) (by simp) (by simp) ?_ (by simp)) ?_
  · intro x
    simp only [attach_nodes_parent]
    split
    · rename_i hx
      subst hx
      simp [hp]
    · rfl
  · intro x hx
    exact Or.inl (by simpa using hx)

theorem clInv_grow_adopt {g0 g : Graph} (h : CLInv g0 g) (sink : Bool) (i a : Nat) :
    CLInv g0 (grow_adopt g sink i a) := by
  unfold grow_adopt
  refine clInv_step h ?_ ?_
  · apply changeLog_of_flagged _ (clInv_has_list h)
    · simp
    · simp
    · intro x hx
      simp [hx]
    · intro x hx _
      simp [hx]
  · intro x hx
    left
    have hl := clInv_has_list h
    have : (add_to_changed_list (set_active (attach (g.setSink (g.arcs a).head sink) i
      (g.arcs a).head a) (g.arcs a).head) (g.arcs a).head).orphans = g.orphans := by simp
    rw [this] at hx
    exact hx

theorem clInv_neighbor_step {g0 g : Graph} (h : CLInv g0 g) (sink : Bool) (i a0 : Nat) :
    CLInv g0 (neighbor_step g sink i a0) := by
  refine clInv_step h (changeLog_of_same (clInv_has_list h) (by simp) (by simp)
    (fun x => neighbor_step_parent_null g sink i a0 x) (by simp)) ?_
  intro x hx
  rcases neighbor_step_orphans g sink i a0 with ho | ⟨ho, hp⟩
  · rw [ho] at hx
    exact Or.inl hx
  · rw [ho] at hx
    simp only [List.mem_append, List.mem_singleton] at hx
    rcases hx with hx | hx
    · exact Or.inl hx
    · subst hx
      right
      right
      rw [hp]
      decide

theorem clInv_adopt_parent {g0 g : Graph} (h : CLInv g0 g) (i amin : Nat) (dmin : Int)
    (ht : Tracked g i) : CLInv g0 (adopt_parent g i amin dmin) := by
  have hl := clInv_has_list h
  obtain ⟨l, hl⟩ := hl
  refine clInv_step h ⟨⟨l, [], hl, by simpa using hl, List.nodup_nil, ?_⟩, ?_, ?_, ?_⟩ ?_
  · intro x
    simp only [List.not_mem_nil, false_iff, not_and, Bool.not_eq_false,
      adopt_parent_nodes_is_in_changed_list]
    exact fun h => h
  · intro x hx
    simpa using hx
  · intro x
    by_cases hx : x = i
    · subst hx
      rcases ht with ht | ht
      · left
        simpa using ht
      · right
        apply segment_eq_of
        · simp [ht]
        · simp
    · right
      apply segment_eq_of
      · simp [hx]
      · simp
  · intro x hx
    unfold Tracked at hx ⊢
    simp only [adopt_parent_nodes_is_in_changed_list, adopt_parent_nodes_parent]
    rcases hx with hx | hx
    · exact Or.inl hx
    · right
      split
      · simp
      · exact hx
  · intro x hx
    exact Or.inl (by simpa using hx)

theorem clInv_free {g0 g : Graph} (h : CLInv g0 g) (i : Nat) :
    CLInv g0 (add_to_changed_list (g.setParent i ArcPtr.null) i) := by
  refine clInv_step h ?_ ?_
  · apply changeLog_of_flagged _ (clInv_has_list h)
    · simp
    · simp
    · intro x hx
      simp [hx]
    · intro x hx _
      simp
  · intro x hx
    left
    simpa using hx

theorem clInv_push_root {g0 g : Graph} (h : CLInv g0 g) (i : Nat) (d : Int)
    (hp : (g.nodes i).parent ≠ ArcPtr.null) : CLInv g0 (push_root g i d) := by
  refine clInv_step h (changeLog_of_same (clInv_has_list h) (by simp) (by simp)
    (fun x => push_root_parent_null g i d x hp) (by simp)) ?_
  intro x hx
  rcases push_root_orphans g i d with ho | ⟨ho, hq⟩
  · rw [ho] at hx
    exact Or.inl hx
  · rw [ho] at hx
    simp only [List.mem_cons] at hx
    rcases hx with hx | hx
    · subst hx
      right
      right
      rw [hq]
      decide
    · exact Or.inl hx

theorem clInv_push_source_arc {g0 g : Graph} (h : CLInv g0 g) (i a : Nat) (b : Int)
    (hp : (g.nodes i).parent ≠ ArcPtr.null) : CLInv g0 (push_source_arc g i a b) := by
  refine clInv_step h (changeLog_of_same (clInv_has_list h) (by simp) (by simp)
    (fun x => push_source_arc_parent_null g i a b x hp) (by simp)) ?_
  intro x hx
  rcases push_source_arc_orphans g i a b with ho | ⟨ho, hq⟩
  · rw [ho] at hx
    exact Or.inl hx
  · rw [ho] at hx
    simp only [List.mem_cons] at hx
    rcases hx with hx | hx
    · subst hx
      right
      right
      rw [hq]
      decide
    · exact Or.inl hx

theorem clInv_push_sink_arc {g0 g : Graph} (h : CLInv g0 g) (i a : Nat) (b : Int)
    (hp : (g.nodes i).parent ≠ ArcPtr.null) : CLInv g0 (push_sink_arc g i a b) := by
  refine clInv_step h (changeLog_of_same (clInv_has_list h) (by simp) (by simp)
    (fun x => push_sink_arc_parent_null g i a b x hp) (by simp)) ?_
  intro x hx
  rcases push_sink_arc_orphans g i a b with ho | ⟨ho, hq⟩
  · rw [ho] at hx
    exact Or.inl hx
  · rw [ho] at hx
    simp only [List.mem_cons] at hx
    rcases hx with hx | hx
    · subst hx
      right
      right
      rw [hq]
      decide
    · exact Or.inl hx

theorem clInv_reuse_step {g0 g : Graph} (h : CLInv g0 g) (sink : Bool) (a : Nat) :
    CLInv g0 (reuse_step g sink a) := by
  refine clInv_step h (changeLog_of_same (clInv_has_list h) (by simp) (by simp)
    (fun x => reuse_step_parent_null g sink a x) (by simp)) ?_
  intro x hx
  rcases reuse_step_orphans g sink a with ho | ⟨ho, hp⟩
  · rw [ho] at hx
    exact Or.inl hx
  · rw [ho] at hx
    simp only [List.mem_append, List.mem_singleton] at hx
    rcases hx with hx | hx
    · exact Or.inl hx
    · subst hx
      right
      right
      rw [hp]
      decide

theorem clInv_make_root {g0 g : Graph} (h : CLInv g0 g) (i : Nat)
    (hp : (g.nodes i).parent ≠ ArcPtr.null) : CLInv g0 (make_root g i) := by
  refine clInv_step h (changeLog_of_same (clInv_has_list h) (by simp) (by simp) ?_ (by simp)) ?_
  · intro x
    simp only [make_root_nodes_parent]
    split
    · rename_i hx
      subst hx
      simp [hp]
    · rfl
  · intro x hx
    exact Or.inl (by simpa using hx)

end Maxflow

namespace Maxflow

/-! ### Every loop of the solver respects the change log -/

theorem clInv_self {g : Graph} (hl : ∃ l, g.changed_list = some l)
    (ho : ∀ i ∈ g.orphans, Tracked g i) : CLInv g g :=
  ⟨changeLog_refl hl, ho⟩

theorem clInv_trans {g0 g g' : Graph} (h : CLInv g0 g) (h' : CLInv g g') : CLInv g0 g' :=
  ⟨changeLog_trans h.1 h'.1, h'.2⟩

theorem grow_clInv {g0 : Graph} {sink : Bool} {i f : Nat} {g : Graph} {a : Option Nat}
    {r : Graph × Option Nat} (h : grow sink i f g a = Res.ok r) (hI : CLInv g0 g) :
    CLInv g0 r.1 :=
  grow_inv (CLInv g0) (fun g a hP _ _ => clInv_grow_adopt hP sink i a)
    (fun g a hP _ hp _ _ _ => clInv_attach hP i _ a hp) h hI

theorem next_active_clInv {g0 : Graph} {f : Nat} {g : Graph} {r : Graph × Option Nat}
    (h : next_active f g = Res.ok r) (hI : CLInv g0 g) : CLInv g0 r.1 :=
  next_active_rule (CLInv g0) (fun g _ => CLInv g0 g)
    (fun g hP _ => clInv_refill hP)
    (fun g i hP _ _ => clInv_pop_active (clInv_refill hP) i)
    (fun g i hP _ _ => clInv_pop_active (clInv_refill hP) i) h hI

theorem pick_active_clInv {g0 : Graph} {F : Nat} {g : Graph} {c : Option Nat}
    {r : Graph × Option Nat} (h : pick_active F g c = Res.ok r) (hI : CLInv g0 g) :
    CLInv g0 r.1 := by
  rcases pick_active_cases h with ⟨i, _, _, rfl⟩ | ⟨_, h2⟩
  · exact clInv_setNext hI i none
  · exact next_active_clInv h2 (clInv_clear_current hI c)

theorem push_source_clInv {g0 : Graph} {b : Int} {f : Nat} {g : Graph} {i : Nat} {r : Graph}
    (h : push_source b f g i = Res.ok r) (hI : CLInv g0 g) : CLInv g0 r :=
  push_source_rule (fun g _ => CLInv g0 g) (CLInv g0)
    (fun g i a hP hp => clInv_push_source_arc hP i a b (by rw [hp]; exact ArcPtr.noConfusion))
    (fun g i hP hp => clInv_push_root hP i (-b) (by rw [hp]; decide)) h hI

theorem push_sink_clInv {g0 : Graph} {b : Int} {f : Nat} {g : Graph} {i : Nat} {r : Graph}
    (h : push_sink b f g i = Res.ok r) (hI : CLInv g0 g) : CLInv g0 r :=
  push_sink_rule (fun g _ => CLInv g0 g) (CLInv g0)
    (fun g i a hP hp => clInv_push_sink_arc hP i a b (by rw [hp]; exact ArcPtr.noConfusion))
    (fun g i hP hp => clInv_push_root hP i b (by rw [hp]; decide)) h hI

theorem augment_clInv {g0 : Graph} {F : Nat} {g : Graph} {m : Nat} {r : Graph}
    (h : augment F g m = Res.ok r) (hI : CLInv g0 g) : CLInv g0 r := by
  simp only [augment, Res.bind_eq_ok] at h
  obtain ⟨b, _, g3, h2, g4, h3, h4⟩ := h
  simp only [Res.ok.injEq] at h4
  subst h4
  exact clInv_setFlow (push_sink_clInv h3 (push_source_clInv h2 (clInv_push_pair hI _ _ b))) _

theorem process_neighbors_clInv {g0 : Graph} {sink : Bool} {i f : Nat} {g : Graph}
    {a : Option Nat} {r : Graph} (h : process_neighbors sink i f g a = Res.ok r)
    (hI : CLInv g0 g) : CLInv g0 r :=
  process_neighbors_rule (fun g _ => CLInv g0 g)
    (fun g a hP => clInv_neighbor_step hP sink i a) h hI

theorem process_orphan_clInv {g0 : Graph} {F : Nat} {sink : Bool} {g : Graph} {i : Nat}
    {r : Graph} (h : process_orphan F sink g i = Res.ok r) (hI : CLInv g0 g)
    (ht : Tracked g i) : CLInv g0 r := by
  obtain ⟨g1, dmin, hl, hc⟩ := process_orphan_cases h
  have hI1 := clInv_labelEq hI hl
  rcases hc with ⟨amin, _, rfl⟩ | ⟨_, h2⟩
  · apply clInv_adopt_parent hI1
    unfold Tracked at ht ⊢
    rw [hl.is_in_changed_list, hl.parent]
    exact ht
  · exact process_neighbors_clInv h2 (clInv_free hI1 i)

theorem drain_orphans_clInv {g0 : Graph} {F f : Nat} {g r : Graph}
    (h : drain_orphans F f g = Res.ok r) (hI : CLInv g0 g) : CLInv g0 r ∧ r.orphans = [] := by
  refine drain_orphans_rule (CLInv g0) ?_ h hI
  intro g i rest g1 hP ho h1
  have hrest : ∀ j ∈ rest, Tracked g j := fun j hj => hP.2 j (by rw [ho]; simp [hj])
  have hi : Tracked g i := hP.2 i (by rw [ho]; simp)
  refine process_orphan_clInv h1 (clInv_setOrphans hP rest hrest) ?_
  simpa [Tracked] using hi

theorem adoption_clInv {g0 : Graph} {F f : Nat} {g r : Graph}
    (h : adoption F f g = Res.ok r) (hI : CLInv g0 g) : CLInv g0 r ∧ r.orphans = [] := by
  refine adoption_rule (CLInv g0) ?_ h hI
  intro g i rest g1 hP ho h1
  have hi : Tracked g i := hP.2 i (by rw [ho]; simp)
  have hbase : CLInv g (g.setOrphans [i]) :=
    clInv_setOrphans (clInv_self (clInv_has_list hP) hP.2) [i] (by
      intro j hj
      simp only [List.mem_singleton] at hj
      subst hj
      exact hi)
  have hd := (drain_orphans_clInv h1 hbase).1
  have hall := clInv_trans hP hd
  refine clInv_setOrphans hall rest ?_
  intro j hj
  exact hd.1.keep j (hP.2 j (by rw [ho]; simp [hj]))

theorem reuse_neighbors_clInv {g0 : Graph} {sink : Bool} {f : Nat} {g : Graph}
    {a : Option Nat} {r : Graph} (h : reuse_neighbors sink f g a = Res.ok r)
    (hI : CLInv g0 g) : CLInv g0 r :=
  reuse_neighbors_rule (fun g _ => CLInv g0 g) (fun g a hP => clInv_reuse_step hP sink a) h hI

/-- What the neighbour loop of the reuse initialisation leaves alone. -/
theorem reuse_neighbors_frame {sink : Bool} {f : Nat} {g : Graph} {a : Option Nat} {r : Graph}
    (h : reuse_neighbors sink f g a = Res.ok r) :
    r.changed_list = g.changed_list ∧
    (∀ x, (r.nodes x).is_in_changed_list = (g.nodes x).is_in_changed_list) ∧
    (∀ x, (r.nodes x).parent = ArcPtr.null ↔ (g.nodes x).parent = ArcPtr.null) ∧
    (∀ x, (r.nodes x).is_sink = (g.nodes x).is_sink) ∧
    (∀ x ∈ r.orphans, x ∈ g.orphans ∨ (r.nodes x).parent ≠ ArcPtr.null) := by
  refine reuse_neighbors_rule (fun g' _ => g'.changed_list = g.changed_list ∧
    (∀ x, (g'.nodes x).is_in_changed_list = (g.nodes x).is_in_changed_list) ∧
    (∀ x, (g'.nodes x).parent = ArcPtr.null ↔ (g.nodes x).parent = ArcPtr.null) ∧
    (∀ x, (g'.nodes x).is_sink = (g.nodes x).is_sink) ∧
    (∀ x ∈ g'.orphans, x ∈ g.orphans ∨ (g'.nodes x).parent ≠ ArcPtr.null)) ?_ h
    ⟨rfl, fun _ => rfl, fun _ => Iff.rfl, fun _ => rfl, fun x hx => Or.inl hx⟩
  rintro g' a ⟨h1, h2, h3, h4, h5⟩
  refine ⟨by simp [h1], fun x => by simp [h2], fun x => ?_, fun x => by simp [h4], ?_⟩
  · rw [reuse_step_parent_null, h3]
  · intro x hx
    rcases reuse_step_orphans g' sink a with ho | ⟨ho, hp⟩
    · rw [ho] at hx
      rcases h5 x hx with h6 | h6
      · exact Or.inl h6
      · right
        rw [Ne, reuse_step_parent_null]
        exact h6
    · rw [ho] at hx
      simp only [List.mem_append, List.mem_singleton] at hx
      rcases hx with hx | hx
      · rcases h5 x hx with h6 | h6
        · exact Or.inl h6
        · right
          rw [Ne, reuse_step_parent_null]
          exact h6
      · subst hx
        right
        rw [hp]
        decide

/-- Making a flagged node a root respects the change log. -/
theorem changeLog_make_root_flagged {g : Graph} (i : Nat) (hl : ∃ l, g.changed_list = some l)
    (hf : (g.nodes i).is_in_changed_list = true) : ChangeLog g (make_root g i) := by
  obtain ⟨l, hl⟩ := hl
  refine ⟨⟨l, [], hl, by simpa using hl, List.nodup_nil, ?_⟩, ?_, ?_, ?_⟩
  · intro x
    simp only [List.not_mem_nil, false_iff, not_and, Bool.not_eq_false,
      make_root_nodes_is_in_changed_list]
    exact fun h => h
  · intro x hx
    simpa using hx
  · intro x
    by_cases hx : x = i
    · subst hx
      left
      simpa using hf
    · right
      apply segment_eq_of
      · simp [hx]
      · simp
  · intro x hx
    unfold Tracked at hx ⊢
    simp only [make_root_nodes_is_in_changed_list, make_root_nodes_parent]
    rcases hx with hx | hx
    · exact Or.inl hx
    · right
      split
      · simp
      · exact hx

theorem reuse_queue_clInv {g0 : Graph} {F f : Nat} {g : Graph} {q : Option Nat} {r : Graph}
    (h : reuse_queue F f g q = Res.ok r) (hI : CLInv g0 g) : CLInv g0 r := by
  refine reuse_queue_rule (fun g _ => CLInv g0 g) ?_ ?_ ?_ h hI
  · intro g i hP _
    split
    · rename_i hp
      exact clInv_set_orphan_rear (clInv_reuse_enter hP i) i hp
    · exact clInv_reuse_enter hP i
  · intro g i g3 hP _ _ h3
    have hE := clInv_reuse_enter hP i
    obtain ⟨f1, f2, f3, f4, f5⟩ := reuse_neighbors_frame h3
    have hl := clInv_has_list hE
    have hA : ChangeLog (reuse_enter g i) (add_to_changed_list g3 i) := by
      apply changeLog_of_flagged i hl
      · simpa using f1
      · intro x
        simpa using f2 x
      · intro x hx
        simpa using f3 x
      · intro x hx _
        simpa [hx] using f4 x
    have hl3 : ∃ l, (add_to_changed_list g3 i).changed_list = some l := changeLog_has_list hA
    have hg3l : ∃ l, g3.changed_list = some l := by
      rw [f1]
      simpa using hl
    have hB := changeLog_make_root_flagged i hl3 (add_to_changed_list_flag i hg3l)
    have hAB := changeLog_trans hA hB
    refine ⟨changeLog_trans hE.1 hAB, ?_⟩
    intro x hx
    simp only [make_root_orphans, add_to_changed_list_orphans] at hx
    rcases f5 x hx with h6 | h6
    · simp only [setSink_orphans] at h6
      exact hAB.keep x (hE.2 x h6)
    · right
      simp only [make_root_nodes_parent, add_to_changed_list_nodes_parent]
      split
      · simp
      · exact h6
  · intro g i hP _ hp _
    exact clInv_make_root (clInv_reuse_enter hP i) i hp

theorem maxflow_reuse_trees_init_clInv {F : Nat} {g r : Graph}
    (h : maxflow_reuse_trees_init F g = Res.ok r) (hl : ∃ l, g.changed_list = some l) :
    CLInv g r ∧ r.orphans = [] := by
  simp only [maxflow_reuse_trees_init, Res.bind_eq_ok] at h
  obtain ⟨g2, h1, h2⟩ := h
  have h0 : CLInv g ((((g.setQueue0 none none).setQueue1 none none).setOrphans []).setTIME
      (g.TIME + 1)) := by
    refine ⟨changeLog_of_same hl (by simp) (by simp) (by simp) (by simp), ?_⟩
    intro x hx
    simp at hx
  exact drain_orphans_clInv h2 (reuse_queue_clInv h1 h0)

theorem main_loop_clInv {g0 : Graph} {F f : Nat} {g : Graph} {c : Option Nat} {r : Graph}
    (h : main_loop F f g c = Res.ok r) (hI : CLInv g0 g) : CLInv g0 r := by
  refine main_loop_rule (fun g _ => CLInv g0 g) (fun g _ => CLInv g0 g) (CLInv g0)
    ?_ ?_ ?_ ?_ h hI
  · intro g c g1 hP h1
    exact pick_active_clInv h1 hP
  · intro g c g1 i hP h1
    exact pick_active_clInv h1 hP
  · intro g1 i g3 hP h1
    exact clInv_setTIME (grow_clInv h1 hP) _
  · intro g1 i g3 m g5 g6 hP h1 h2 h3
    exact (adoption_clInv h3 (augment_clInv h2 (clInv_setNext (clInv_setTIME
      (grow_clInv h1 hP) _) i (some i)))).1

/-- C10: in a tree-reuse solve that is given a changed list, with every node's
`is_in_changed_list` flag false at entry, the solve only appends to the list;
every node whose segment assignment (source tree, sink tree, free) after the
solve differs from the one before it is among the appended indices, and no
index is appended twice. -/
theorem changed_list_records_moves (F : Nat) (g : Graph) (cl0 : List Nat) (g' : Graph)
    (fl : Int) (h : maxflow F g true (some cl0) = Outcome.returned g' fl)
    (hflags : ∀ i, (g.nodes i).is_in_changed_list = false) :
    ∃ added, g'.changed_list = some (cl0 ++ added) ∧ added.Nodup ∧
      (∀ i, segment g' i ≠ segment g i → i ∈ added) ∧
      (∀ i, i ∈ added ↔ (g'.nodes i).is_in_changed_list = true) := by
  rw [maxflow_returned_iff] at h
  obtain ⟨_, _, g2, hs, rfl, _⟩ := h
  simp only [solve, if_true, Res.bind_eq_ok] at hs
  obtain ⟨g1, h1, h2⟩ := hs
  have hinit := (maxflow_reuse_trees_init_clInv h1 ⟨cl0, rfl⟩).1
  have hI := main_loop_clInv h2 hinit
  obtain ⟨l, added, e1, e2, nd, hm⟩ := hI.1.ext
  simp only [setChanged_changed_list, Option.some.injEq] at e1
  subst e1
  refine ⟨added, by simpa using e2, nd, ?_, ?_⟩
  · intro i hi
    rw [hm]
    refine ⟨?_, by simpa using hflags i⟩
    rcases hI.1.seg i with hs | hs
    · exact hs
    · exfalso
      apply hi
      have e : segment (g.setChanged (some cl0)) i = segment g i := by
        apply segment_eq_of <;> simp
      have e' : segment (g2.setIteration (g2.maxflow_iteration + 1)) i = segment g2 i := by
        apply segment_eq_of <;> simp
      rw [e', hs, e]
  · intro i
    rw [hm]
    simp only [setChanged_nodes, setIteration_nodes, hflags i, and_true]

theorem reuse_demo_flags (i : Nat) : (reuse_demo.nodes i).is_in_changed_list = false := by
  simp only [reuse_demo, mark_node, setMarked_nodes_is_in_changed_list,
    set_active_nodes_is_in_changed_list, setIteration_nodes]
  unfold scenario1 add_edge add_tweights add_node Graph.empty
  simp only [upd, Graph.setFlow, Graph.setTrCap]
  repeat' split
  all_goals rfl

theorem reuse_demo_solved_spec :
    maxflow 5 reuse_demo true (some []) = Outcome.returned reuse_demo_solved 3 := by
  have h : (maxflow 5 reuse_demo true (some [])).flow? = some 3 := by decide
  obtain ⟨g, hg⟩ := outcome_of_flow h
  have : reuse_demo_solved = g := by
    simp [reuse_demo_solved, hg, Outcome.state?]
  rw [this]
  exact hg

theorem changed_list_records_moves_witness :
    ∃ added, reuse_demo_solved.changed_list = some ([] ++ added) ∧ added.Nodup ∧
      (∀ i, segment reuse_demo_solved i ≠ segment reuse_demo i → i ∈ added) ∧
      (∀ i, i ∈ added ↔ (reuse_demo_solved.nodes i).is_in_changed_list = true) :=
  changed_list_records_moves 5 reuse_demo [] reuse_demo_solved 3 reuse_demo_solved_spec
    reuse_demo_flags

end Maxflow

namespace Maxflow

/-! ## Footprints of the loops -/

theorem writes_trans {K : List Field} {g1 g2 g3 : Graph} (h : Writes K g1 g2)
    (h' : Writes K g2 g3) : Writes K g1 g3 := by
  induction h with
  | refl g => exact h'
  | step hk hw _ ih => exact Writes.step hk hw (ih h')

theorem writes_mono {K K' : List Field} (hK : ∀ k ∈ K, k ∈ K') {g g' : Graph}
    (h : Writes K g g') : Writes K' g g' := by
  induction h with
  | refl g => exact Writes.refl g
  | step hk hw _ ih => exact Writes.step (hK _ hk) hw ih

theorem writes_one {K : List Field} {k : Field} {g g' : Graph} (hk : k ∈ K)
    (h : Write k g g') : Writes K g g' :=
  Writes.step hk h (Writes.refl g')

/-- A property kept by every elementary write to a part listed in `K` is kept
by a sequence of such writes. -/
theorem writes_preserve {K : List Field} (P : Graph → Prop)
    (hP : ∀ k ∈ K, ∀ g g', Write k g g' → P g → P g') {g g' : Graph}
    (h : Writes K g g') (h0 : P g) : P g' := by
  induction h with
  | refl g => exact h0
  | step hk hw _ ih => exact ih (hP _ hk _ _ hw h0)

theorem writes_setNext {K : List Field} (hk : Field.next ∈ K) (g : Graph) (i : Nat)
    (v : Option Nat) : Writes K g (g.setNext i v) :=
  writes_one hk (Write.setNext g i v)

theorem writes_setParent {K : List Field} (hk : Field.parent ∈ K) (g : Graph) (i : Nat)
    (v : ArcPtr) : Writes K g (g.setParent i v) :=
  writes_one hk (Write.setParent g i v)

theorem writes_setSink {K : List Field} (hk : Field.is_sink ∈ K) (g : Graph) (i : Nat)
    (v : Bool) : Writes K g (g.setSink i v) :=
  writes_one hk (Write.setSink g i v)

theorem writes_setTS {K : List Field} (hk : Field.TS ∈ K) (g : Graph) (i : Nat)
    (v : Int) : Writes K g (g.setTS i v) :=
  writes_one hk (Write.setTS g i v)

theorem writes_setDIST {K : List Field} (hk : Field.DIST ∈ K) (g : Graph) (i : Nat)
    (v : Int) : Writes K g (g.setDIST i v) :=
  writes_one hk (Write.setDIST g i v)

theorem writes_setTrCap {K : List Field} (hk : Field.tr_cap ∈ K) (g : Graph) (i : Nat)
    (v : Int) : Writes K g (g.setTrCap i v) :=
  writes_one hk (Write.setTrCap g i v)

theorem writes_setMarked {K : List Field} (hk : Field.is_marked ∈ K) (g : Graph) (i : Nat)
    (v : Bool) : Writes K g (g.setMarked i v) :=
  writes_one hk (Write.setMarked g i v)

theorem writes_setInChanged {K : List Field} (hk : Field.in_changed ∈ K) (g : Graph) (i : Nat)
    (v : Bool) : Writes K g (g.setInChanged i v) :=
  writes_one hk (Write.setInChanged g i v)

theorem writes_setRCap {K : List Field} (hk : Field.r_cap ∈ K) (g : Graph) (a : Nat)
    (v : Int) : Writes K g (g.setRCap a v) :=
  writes_one hk (Write.setRCap g a v)

theorem writes_setQueue0 {K : List Field} (hk : Field.queue0 ∈ K) (g : Graph)
    (a b : Option Nat) : Writes K g (g.setQueue0 a b) :=
  writes_one hk (Write.setQueue0 g a b)

theorem writes_setFirst0 {K : List Field} (hk : Field.queue0 ∈ K) (g : Graph)
    (a : Option Nat) : Writes K g (g.setFirst0 a) :=
  writes_one hk (Write.setFirst0 g a)

theorem writes_setQueue1 {K : List Field} (hk : Field.queue1 ∈ K) (g : Graph)
    (a b : Option Nat) : Writes K g (g.setQueue1 a b) :=
  writes_one hk (Write.setQueue1 g a b)

theorem writes_setLast1 {K : List Field} (hk : Field.queue1 ∈ K) (g : Graph)
    (a : Option Nat) : Writes K g (g.setLast1 a) :=
  writes_one hk (Write.setLast1 g a)

theorem writes_setOrphans {K : List Field} (hk : Field.orphans ∈ K) (g : Graph)
    (l : List Nat) : Writes K g (g.setOrphans l) :=
  writes_one hk (Write.setOrphans g l)

theorem writes_setTIME {K : List Field} (hk : Field.TIME ∈ K) (g : Graph) (t : Int) :
    Writes K g (g.setTIME t) :=
  writes_one hk (Write.setTIME g t)

theorem writes_setFlow {K : List Field} (hk : Field.flow ∈ K) (g : Graph) (t : Int) :
    Writes K g (g.setFlow t) :=
  writes_one hk (Write.setFlow g t)

theorem writes_setChanged {K : List Field} (hk : Field.changed ∈ K) (g : Graph)
    (l : Option (List Nat)) : Writes K g (g.setChanged l) :=
  writes_one hk (Write.setChanged g l)

theorem writes_set_active {K : List Field} (h1 : Field.next ∈ K) (h2 : Field.queue1 ∈ K)
    (g : Graph) (i : Nat) : Writes K g (set_active g i) := by
  unfold set_active
  split
  · split
    · exact writes_trans (writes_trans (writes_setNext h1 _ _ _) (writes_setLast1 h2 _ _))
        (writes_setNext h1 _ _ _)
    · exact writes_trans (writes_setQueue1 h2 _ _ _) (writes_setNext h1 _ _ _)
  · exact Writes.refl g

theorem writes_refill {K : List Field} (h1 : Field.queue0 ∈ K) (h2 : Field.queue1 ∈ K)
    (g : Graph) : Writes K g (refill g) := by
  unfold refill rotate_queues
  split
  · exact writes_trans (writes_setQueue0 h1 _ _ _) (writes_setQueue1 h2 _ _ _)
  · exact Writes.refl g

theorem writes_pop_active {K : List Field} (h1 : Field.next ∈ K) (h2 : Field.queue0 ∈ K)
    (g : Graph) (i : Nat) : Writes K g (pop_active g i) := by
  unfold pop_active
  split
  · exact writes_trans (writes_setQueue0 h2 _ _ _) (writes_setNext h1 _ _ _)
  · exact writes_trans (writes_setFirst0 h2 _ _) (writes_setNext h1 _ _ _)

theorem writes_set_orphan_front {K : List Field} (h1 : Field.parent ∈ K)
    (h2 : Field.orphans ∈ K) (g : Graph) (i : Nat) : Writes K g (set_orphan_front g i) :=
  writes_trans (writes_setParent h1 _ _ _) (writes_setOrphans h2 _ _)

theorem writes_set_orphan_rear {K : List Field} (h1 : Field.parent ∈ K)
    (h2 : Field.orphans ∈ K) (g : Graph) (i : Nat) : Writes K g (set_orphan_rear g i) :=
  writes_trans (writes_setParent h1 _ _ _) (writes_setOrphans h2 _ _)

theorem writes_add_to_changed_list {K : List Field} (h1 : Field.changed ∈ K)
    (h2 : Field.in_changed ∈ K) (g : Graph) (i : Nat) : Writes K g (add_to_changed_list g i) := by
  unfold add_to_changed_list
  split
  · split
    · exact Writes.refl g
    · exact writes_trans (writes_setChanged h1 _ _) (writes_setInChanged h2 _ _ _)
  · exact Writes.refl g

theorem writes_attach {K : List Field} (h1 : Field.parent ∈ K) (h2 : Field.TS ∈ K)
    (h3 : Field.DIST ∈ K) (g : Graph) (i j a : Nat) : Writes K g (attach g i j a) :=
  writes_trans (writes_trans (writes_setParent h1 _ _ _) (writes_setTS h2 _ _ _))
    (writes_setDIST h3 _ _ _)

theorem writes_grow_adopt (g : Graph) (sink : Bool) (i a : Nat) :
    Writes growFields g (grow_adopt g sink i a) := by
  unfold grow_adopt
  exact writes_trans (writes_trans (writes_trans (writes_setSink (by decide) _ _ _)
    (writes_attach (by decide) (by decide) (by decide) _ _ _ _))
    (writes_set_active (by decide) (by decide) _ _))
    (writes_add_to_changed_list (by decide) (by decide) _ _)

theorem writes_push_pair {K : List Field} (h1 : Field.r_cap ∈ K) (g : Graph) (u d : Nat)
    (b : Int) : Writes K g (push_pair g u d b) :=
  writes_trans (writes_setRCap h1 _ _ _) (writes_setRCap h1 _ _ _)

theorem writes_push_root (g : Graph) (i : Nat) (d : Int) :
    Writes augmentFields g (push_root g i d) := by
  unfold push_root
  split
  · exact writes_trans (writes_setTrCap (by decide) _ _ _)
      (writes_set_orphan_front (by decide) (by decide) _ _)
  · exact writes_setTrCap (by decide) _ _ _

theorem writes_push_source_arc (g : Graph) (i a : Nat) (b : Int) :
    Writes augmentFields g (push_source_arc g i a b) := by
  unfold push_source_arc
  split
  · exact writes_trans (writes_push_pair (by decide) _ _ _ _)
      (writes_set_orphan_front (by decide) (by decide) _ _)
  · exact writes_push_pair (by decide) _ _ _ _

theorem writes_push_sink_arc (g : Graph) (i a : Nat) (b : Int) :
    Writes augmentFields g (push_sink_arc g i a b) := by
  unfold push_sink_arc
  split
  · exact writes_trans (writes_push_pair (by decide) _ _ _ _)
      (writes_set_orphan_front (by decide) (by decide) _ _)
  · exact writes_push_pair (by decide) _ _ _ _

theorem writes_neighbor_step (g : Graph) (sink : Bool) (i a0 : Nat) :
    Writes adoptFields g (neighbor_step g sink i a0) := by
  have hact : ∀ g : Graph, Writes adoptFields g
      (if orphan_rcap g sink a0 ≠ 0 then set_active g (g.arcs a0).head else g) := by
    intro g
    split
    · exact writes_set_active (by decide) (by decide) _ _
    · exact Writes.refl g
  unfold neighbor_step
  split
  · split
    · split
      · exact writes_trans (hact g) (writes_set_orphan_rear (by decide) (by decide) _ _)
      · exact hact g
    all_goals exact hact g
  · exact Writes.refl g

theorem writes_adopt_parent (g : Graph) (i amin : Nat) (dmin : Int) :
    Writes adoptFields g (adopt_parent g i amin dmin) :=
  writes_trans (writes_trans (writes_setParent (by decide) _ _ _)
    (writes_setTS (by decide) _ _ _)) (writes_setDIST (by decide) _ _ _)

theorem writes_make_root {K : List Field} (h1 : Field.parent ∈ K) (h2 : Field.TS ∈ K)
    (h3 : Field.DIST ∈ K) (g : Graph) (i : Nat) : Writes K g (make_root g i) :=
  writes_trans (writes_trans (writes_setParent h1 _ _ _) (writes_setTS h2 _ _ _))
    (writes_setDIST h3 _ _ _)

theorem writes_reuse_step (g : Graph) (sink : Bool) (a : Nat) :
    Writes reuseFields g (reuse_step g sink a) := by
  have hoc : Writes reuseFields g (reuse_orphan_child g a) := by
    unfold reuse_orphan_child
    split
    · exact writes_set_orphan_rear (by decide) (by decide) _ _
    · exact Writes.refl g
  unfold reuse_step
  split
  · split
    · exact writes_trans hoc (writes_set_active (by decide) (by decide) _ _)
    · exact hoc
  · exact Writes.refl g

theorem writes_reuse_enter (g : Graph) (i : Nat) : Writes reuseFields g (reuse_enter g i) :=
  writes_trans (writes_trans (writes_setNext (by decide) _ _ _)
    (writes_setMarked (by decide) _ _ _)) (writes_set_active (by decide) (by decide) _ _)

theorem writes_init_node (g : Graph) (i : Nat) : Writes initFields g (init_node g i) := by
  have hc : Writes initFields g (init_clear g i) :=
    writes_trans (writes_trans (writes_trans (writes_setNext (by decide) _ _ _)
      (writes_setMarked (by decide) _ _ _)) (writes_setInChanged (by decide) _ _ _))
      (writes_setTS (by decide) _ _ _)
  have hr : ∀ s, Writes initFields g
      ((set_active (((init_clear g i).setSink i s).setParent i ArcPtr.terminal) i).setDIST
        i 1) := fun s =>
    writes_trans (writes_trans (writes_trans (writes_trans hc (writes_setSink (by decide) _ _ _))
      (writes_setParent (by decide) _ _ _)) (writes_set_active (by decide) (by decide) _ _))
      (writes_setDIST (by decide) _ _ _)
  unfold init_node
  split
  · exact hr false
  · split
    · exact hr true
    · exact writes_trans hc (writes_setParent (by decide) _ _ _)

theorem origin_check_writes {f : Nat} {g : Graph} {j : Nat} {d : Int} {r : Graph × Int}
    (h : origin_check f g j d = Res.ok r) : Writes [Field.TS, Field.DIST] g r.1 := by
  induction f generalizing g j d with
  | zero => simp [origin_check] at h
  | succ n ih =>
    revert h
    simp only [origin_check]
    split
    · intro h
      simp only [Res.ok.injEq] at h
      subst h
      exact Writes.refl g
    · split
      · intro h
        simp only [Res.ok.injEq] at h
        subst h
        exact writes_trans (writes_setTS (by decide) _ _ _) (writes_setDIST (by decide) _ _ _)
      · intro h
        simp only [Res.ok.injEq] at h
        subst h
        exact Writes.refl g
      · exact ih
      · intro h
        simp at h

theorem set_marks_writes {f : Nat} {g : Graph} {j : Nat} {d : Int} {r : Graph}
    (h : set_marks f g j d = Res.ok r) : Writes [Field.TS, Field.DIST] g r := by
  induction f generalizing g j d with
  | zero => simp [set_marks] at h
  | succ n ih =>
    revert h
    simp only [set_marks]
    split
    · intro h
      simp only [Res.ok.injEq] at h
      subst h
      exact Writes.refl g
    · split
      · intro h
        exact writes_trans (writes_trans (writes_setTS (by decide) _ _ _)
          (writes_setDIST (by decide) _ _ _)) (ih h)
      · intro h
        simp at h
      · intro h
        simp at h
      · intro h
        simp at h

theorem find_parent_writes {F : Nat} {sink : Bool} {f : Nat} {g : Graph} {a amin : Option Nat}
    {dmin : Int} {r : Graph × Option Nat × Int}
    (h : find_parent F sink f g a amin dmin = Res.ok r) : Writes [Field.TS, Field.DIST] g r.1 := by
  induction f generalizing g a amin dmin with
  | zero =>
    cases a with
    | none =>
      simp only [find_parent, Res.ok.injEq] at h
      subst h
      exact Writes.refl g
    | some a => simp [find_parent] at h
  | succ n ih =>
    cases a with
    | none =>
      simp only [find_parent, Res.ok.injEq] at h
      subst h
      exact Writes.refl g
    | some a =>
      revert h
      simp only [find_parent]
      split
      · simp only [Res.bind_eq_ok]
        rintro ⟨r1, h1, h2⟩
        have w1 := origin_check_writes h1
        revert h2
        split
        · simp only [Res.bind_eq_ok]
          rintro ⟨g2, h3, h4⟩
          have w2 := writes_trans w1 (set_marks_writes h3)
          revert h4
          split
          · exact fun h4 => writes_trans w2 (ih h4)
          · exact fun h4 => writes_trans w2 (ih h4)
        · exact fun h2 => writes_trans w1 (ih h2)
      · exact ih

theorem grow_writes {sink : Bool} {i f : Nat} {g : Graph} {a : Option Nat}
    {r : Graph × Option Nat} (h : grow sink i f g a = Res.ok r) : Writes growFields g r.1 :=
  grow_inv (Writes growFields g)
    (fun g' a hP _ _ => writes_trans hP (writes_grow_adopt g' sink i a))
    (fun g' a hP _ _ _ _ _ =>
      writes_trans hP (writes_attach (by decide) (by decide) (by decide) g' i _ a))
    h (Writes.refl g)

theorem next_active_writes {f : Nat} {g : Graph} {r : Graph × Option Nat}
    (h : next_active f g = Res.ok r) : Writes activeFields g r.1 :=
  next_active_rule (Writes activeFields g) (fun g' _ => Writes activeFields g g')
    (fun g' hP _ => writes_trans hP (writes_refill (by decide) (by decide) g'))
    (fun g' i hP _ _ => writes_trans (writes_trans hP (writes_refill (by decide) (by decide) g'))
      (writes_pop_active (by decide) (by decide) _ i))
    (fun g' i hP _ _ => writes_trans (writes_trans hP (writes_refill (by decide) (by decide) g'))
      (writes_pop_active (by decide) (by decide) _ i)) h (Writes.refl g)

theorem pick_active_writes {F : Nat} {g : Graph} {c : Option Nat} {r : Graph × Option Nat}
    (h : pick_active F g c = Res.ok r) : Writes activeFields g r.1 := by
  rcases pick_active_cases h with ⟨i, _, _, rfl⟩ | ⟨_, h2⟩
  · exact writes_setNext (by decide) _ _ _
  · refine writes_trans ?_ (next_active_writes h2)
    cases c with
    | none => exact Writes.refl g
    | some c => exact writes_setNext (by decide) _ _ _

theorem push_source_writes {b : Int} {f : Nat} {g : Graph} {i : Nat} {r : Graph}
    (h : push_source b f g i = Res.ok r) : Writes augmentFields g r :=
  push_source_rule (fun g' _ => Writes augmentFields g g') (Writes augmentFields g)
    (fun g' i a hP _ => writes_trans hP (writes_push_source_arc g' i a b))
    (fun g' i hP _ => writes_trans hP (writes_push_root g' i (-b))) h (Writes.refl g)

theorem push_sink_writes {b : Int} {f : Nat} {g : Graph} {i : Nat} {r : Graph}
    (h : push_sink b f g i = Res.ok r) : Writes augmentFields g r :=
  push_sink_rule (fun g' _ => Writes augmentFields g g') (Writes augmentFields g)
    (fun g' i a hP _ => writes_trans hP (writes_push_sink_arc g' i a b))
    (fun g' i hP _ => writes_trans hP (writes_push_root g' i b)) h (Writes.refl g)

theorem augment_writes {F : Nat} {g : Graph} {m : Nat} {r : Graph}
    (h : augment F g m = Res.ok r) : Writes augmentFields g r := by
  simp only [augment, Res.bind_eq_ok] at h
  obtain ⟨b, _, g3, h2, g4, h3, h4⟩ := h
  simp only [Res.ok.injEq] at h4
  subst h4
  exact writes_trans (writes_trans (writes_trans (writes_push_pair (by decide) _ _ _ _)
    (push_source_writes h2)) (push_sink_writes h3)) (writes_setFlow (by decide) _ _)

theorem process_neighbors_writes {sink : Bool} {i f : Nat} {g : Graph} {a : Option Nat}
    {r : Graph} (h : process_neighbors sink i f g a = Res.ok r) : Writes adoptFields g r :=
  process_neighbors_rule (fun g' _ => Writes adoptFields g g')
    (fun g' a hP => writes_trans hP (writes_neighbor_step g' sink i a)) h (Writes.refl g)

theorem process_orphan_writes {F : Nat} {sink : Bool} {g : Graph} {i : Nat} {r : Graph}
    (h : process_orphan F sink g i = Res.ok r) : Writes adoptFields g r := by
  obtain ⟨g1, dmin, _, hc⟩ := process_orphan_cases h
  rcases hc with ⟨amin, h1, rfl⟩ | ⟨h1, h2⟩
  · exact writes_trans (writes_mono (by decide) (find_parent_writes h1))
      (writes_adopt_parent _ _ _ _)
  · exact writes_trans (writes_trans (writes_trans (writes_mono (by decide)
      (find_parent_writes h1)) (writes_setParent (by decide) _ _ _))
      (writes_add_to_changed_list (by decide) (by decide) _ _)) (process_neighbors_writes h2)

theorem drain_orphans_writes {F f : Nat} {g r : Graph} (h : drain_orphans F f g = Res.ok r) :
    Writes adoptFields g r :=
  (drain_orphans_rule (Writes adoptFields g)
    (fun g' i rest g1 hP _ h1 => writes_trans (writes_trans hP
      (writes_setOrphans (by decide) _ _)) (process_orphan_writes h1)) h (Writes.refl g)).1

theorem adoption_writes {F f : Nat} {g r : Graph} (h : adoption F f g = Res.ok r) :
    Writes adoptFields g r :=
  (adoption_rule (Writes adoptFields g)
    (fun g' i rest g1 hP _ h1 => writes_trans (writes_trans (writes_trans hP
      (writes_setOrphans (by decide) _ _)) (drain_orphans_writes h1))
      (writes_setOrphans (by decide) _ _)) h (Writes.refl g)).1

theorem reuse_neighbors_writes {sink : Bool} {f : Nat} {g : Graph} {a : Option Nat} {r : Graph}
    (h : reuse_neighbors sink f g a = Res.ok r) : Writes reuseFields g r :=
  reuse_neighbors_rule (fun g' _ => Writes reuseFields g g')
    (fun g' a hP => writes_trans hP (writes_reuse_step g' sink a)) h (Writes.refl g)

theorem reuse_queue_writes {F f : Nat} {g : Graph} {q : Option Nat} {r : Graph}
    (h : reuse_queue F f g q = Res.ok r) : Writes reuseFields g r := by
  refine reuse_queue_rule (fun g' _ => Writes reuseFields g g') ?_ ?_ ?_ h (Writes.refl g)
  · intro g' i hP _
    split
    · exact writes_trans (writes_trans hP (writes_reuse_enter g' i))
        (writes_set_orphan_rear (by decide) (by decide) _ _)
    · exact writes_trans hP (writes_reuse_enter g' i)
  · intro g' i g3 hP _ _ h3
    exact writes_trans (writes_trans (writes_trans (writes_trans (writes_trans hP
      (writes_reuse_enter g' i)) (writes_setSink (by decide) _ _ _))
      (reuse_neighbors_writes h3)) (writes_add_to_changed_list (by decide) (by decide) _ _))
      (writes_make_root (by decide) (by decide) (by decide) _ _)
  · intro g' i hP _ _ _
    exact writes_trans (writes_trans hP (writes_reuse_enter g' i))
      (writes_make_root (by decide) (by decide) (by decide) _ _)

theorem maxflow_reuse_trees_init_writes {F : Nat} {g r : Graph}
    (h : maxflow_reuse_trees_init F g = Res.ok r) : Writes reuseFields g r := by
  simp only [maxflow_reuse_trees_init, Res.bind_eq_ok] at h
  obtain ⟨g2, h1, h2⟩ := h
  exact writes_trans (writes_trans (writes_trans (writes_trans (writes_trans
    (writes_setQueue0 (by decide) _ _ _) (writes_setQueue1 (by decide) _ _ _))
    (writes_setOrphans (by decide) _ _)) (writes_setTIME (by decide) _ _))
    (reuse_queue_writes h1)) (writes_mono (by decide) (drain_orphans_writes h2))

theorem init_nodes_writes (g : Graph) (k : Nat) : Writes initFields g (init_nodes g k) := by
  induction k with
  | zero => exact Writes.refl g
  | succ n ih => exact writes_trans ih (writes_init_node _ _)

theorem maxflow_init_writes (g : Graph) : Writes initFields g (maxflow_init g) := by
  unfold maxflow_init
  exact writes_trans (writes_trans (writes_trans (writes_trans
    (writes_setQueue0 (by decide) _ _ _) (writes_setQueue1 (by decide) _ _ _))
    (writes_setOrphans (by decide) _ _)) (writes_setTIME (by decide) _ _))
    (init_nodes_writes _ _)

theorem main_loop_writes {F f : Nat} {g : Graph} {c : Option Nat} {r : Graph}
    (h : main_loop F f g c = Res.ok r) : Writes loopFields g r := by
  refine main_loop_rule (fun g' _ => Writes loopFields g g') (fun g' _ => Writes loopFields g g')
    (Writes loopFields g) ?_ ?_ ?_ ?_ h (Writes.refl g)
  · intro g' c g1 hP h1
    exact writes_trans hP (writes_mono (by decide) (pick_active_writes h1))
  · intro g' c g1 i hP h1
    exact writes_trans hP (writes_mono (by decide) (pick_active_writes h1))
  · intro g1 i g3 hP h1
    exact writes_trans (writes_trans hP (writes_mono (by decide) (grow_writes h1)))
      (writes_setTIME (by decide) _ _)
  · intro g1 i g3 m g5 g6 hP h1 h2 h3
    exact writes_trans (writes_trans (writes_trans (writes_trans (writes_trans hP
      (writes_mono (by decide) (grow_writes h1))) (writes_setTIME (by decide) _ _))
      (writes_setNext (by decide) _ _ _)) (writes_mono (by decide) (augment_writes h2)))
      (writes_mono (by decide) (adoption_writes h3))

theorem solve_writes {F : Nat} {g : Graph} {reuse : Bool} {r : Graph}
    (h : solve F g reuse = Res.ok r) : Writes solveFields g r := by
  simp only [solve, Res.bind_eq_ok] at h
  obtain ⟨g1, h1, h2⟩ := h
  refine writes_trans ?_ (writes_mono (by decide) (main_loop_writes h2))
  revert h1
  split
  · exact fun h1 => writes_mono (by decide) (maxflow_reuse_trees_init_writes h1)
  · intro h1
    simp only [Res.ok.injEq] at h1
    subst h1
    exact writes_mono (by decide) (maxflow_init_writes g)

end Maxflow

namespace Maxflow

/-! ## What a footprint leaves unchanged -/

theorem sameShape_refl (g : Graph) : SameShape g g :=
  ⟨rfl, rfl, fun _ => rfl, fun _ => rfl, fun _ => rfl, fun _ => rfl⟩

theorem sameShape_trans {g1 g2 g3 : Graph} (h : SameShape g1 g2) (h' : SameShape g2 g3) :
    SameShape g1 g3 :=
  ⟨h'.node_num.trans h.node_num, h'.arc_num.trans h.arc_num,
    fun a => (h'.head a).trans (h.head a), fun a => (h'.next a).trans (h.next a),
    fun a => (h'.sister a).trans (h.sister a), fun i => (h'.first i).trans (h.first i)⟩

theorem write_shape {k : Field} {g g' : Graph} (h : Write k g g') : SameShape g g' := by
  cases h <;> exact ⟨rfl, rfl, fun _ => by simp, fun _ => by simp, fun _ => by simp,
    fun _ => by simp⟩

/-- No write of the solver changes the shape of the graph. -/
theorem writes_shape {K : List Field} {g g' : Graph} (h : Writes K g g') : SameShape g g' :=
  writes_preserve (SameShape g) (fun _ _ _ _ hw hP => sameShape_trans hP (write_shape hw)) h
    (sameShape_refl g)

/-- Only writes to `error_function` would change it, and there are none. -/
theorem writes_error_function {K : List Field} {g g' : Graph} (h : Writes K g g') :
    g'.error_function = g.error_function := by
  refine writes_preserve (fun g1 => g1.error_function = g.error_function) ?_ h rfl
  intro k _ g1 g2 hw hP
  cases hw <;> simpa using hP

theorem writes_keep_next {K : List Field} {g g' : Graph} (h : Writes K g g')
    (hk : Field.next ∉ K) : ∀ i, (g'.nodes i).next = (g.nodes i).next := by
  refine writes_preserve (fun g1 => ∀ i, (g1.nodes i).next = (g.nodes i).next) ?_ h ?_
  · intro k hk' g1 g2 hw hP
    cases hw <;> first | exact absurd hk' hk | simpa using hP
  · simp

theorem writes_keep_parent {K : List Field} {g g' : Graph} (h : Writes K g g')
    (hk : Field.parent ∉ K) : ∀ i, (g'.nodes i).parent = (g.nodes i).parent := by
  refine writes_preserve (fun g1 => ∀ i, (g1.nodes i).parent = (g.nodes i).parent) ?_ h ?_
  · intro k hk' g1 g2 hw hP
    cases hw <;> first | exact absurd hk' hk | simpa using hP
  · simp

theorem writes_keep_is_sink {K : List Field} {g g' : Graph} (h : Writes K g g')
    (hk : Field.is_sink ∉ K) : ∀ i, (g'.nodes i).is_sink = (g.nodes i).is_sink := by
  refine writes_preserve (fun g1 => ∀ i, (g1.nodes i).is_sink = (g.nodes i).is_sink) ?_ h ?_
  · intro k hk' g1 g2 hw hP
    cases hw <;> first | exact absurd hk' hk | simpa using hP
  · simp

theorem writes_keep_TS {K : List Field} {g g' : Graph} (h : Writes K g g')
    (hk : Field.TS ∉ K) : ∀ i, (g'.nodes i).TS = (g.nodes i).TS := by
  refine writes_preserve (fun g1 => ∀ i, (g1.nodes i).TS = (g.nodes i).TS) ?_ h ?_
  · intro k hk' g1 g2 hw hP
    cases hw <;> first | exact absurd hk' hk | simpa using hP
  · simp

theorem writes_keep_DIST {K : List Field} {g g' : Graph} (h : Writes K g g')
    (hk : Field.DIST ∉ K) : ∀ i, (g'.nodes i).DIST = (g.nodes i).DIST := by
  refine writes_preserve (fun g1 => ∀ i, (g1.nodes i).DIST = (g.nodes i).DIST) ?_ h ?_
  · intro k hk' g1 g2 hw hP
    cases hw <;> first | exact absurd hk' hk | simpa using hP
  · simp

theorem writes_keep_tr_cap {K : List Field} {g g' : Graph} (h : Writes K g g')
    (hk : Field.tr_cap ∉ K) : ∀ i, (g'.nodes i).tr_cap = (g.nodes i).tr_cap := by
  refine writes_preserve (fun g1 => ∀ i, (g1.nodes i).tr_cap = (g.nodes i).tr_cap) ?_ h ?_
  · intro k hk' g1 g2 hw hP
    cases hw <;> first | exact absurd hk' hk | simpa using hP
  · simp

theorem writes_keep_is_marked {K : List Field} {g g' : Graph} (h : Writes K g g')
    (hk : Field.is_marked ∉ K) : ∀ i, (g'.nodes i).is_marked = (g.nodes i).is_marked := by
  refine writes_preserve (fun g1 => ∀ i, (g1.nodes i).is_marked = (g.nodes i).is_marked) ?_ h ?_
  · intro k hk' g1 g2 hw hP
    cases hw <;> first | exact absurd hk' hk | simpa using hP
  · simp

theorem writes_keep_in_changed {K : List Field} {g g' : Graph} (h : Writes K g g')
    (hk : Field.in_changed ∉ K) : ∀ i, (g'.nodes i).is_in_changed_list = (g.nodes i).is_in_changed_list := by
  refine writes_preserve (fun g1 => ∀ i, (g1.nodes i).is_in_changed_list = (g.nodes i).is_in_changed_list) ?_ h ?_
  · intro k hk' g1 g2 hw hP
    cases hw <;> first | exact absurd hk' hk | simpa using hP
  · simp

theorem writes_keep_r_cap {K : List Field} {g g' : Graph} (h : Writes K g g')
    (hk : Field.r_cap ∉ K) : g'.arcs = g.arcs := by
  refine writes_preserve (fun g1 => g1.arcs = g.arcs) ?_ h ?_
  · intro k hk' g1 g2 hw hP
    cases hw <;> first | exact absurd hk' hk | simpa using hP
  · simp

theorem writes_keep_queue0 {K : List Field} {g g' : Graph} (h : Writes K g g')
    (hk : Field.queue0 ∉ K) : g'.queue_first0 = g.queue_first0 ∧ g'.queue_last0 = g.queue_last0 := by
  refine writes_preserve (fun g1 => g1.queue_first0 = g.queue_first0 ∧ g1.queue_last0 = g.queue_last0) ?_ h ?_
  · intro k hk' g1 g2 hw hP
    cases hw <;> first | exact absurd hk' hk | simpa using hP
  · simp

theorem writes_keep_queue1 {K : List Field} {g g' : Graph} (h : Writes K g g')
    (hk : Field.queue1 ∉ K) : g'.queue_first1 = g.queue_first1 ∧ g'.queue_last1 = g.queue_last1 := by
  refine writes_preserve (fun g1 => g1.queue_first1 = g.queue_first1 ∧ g1.queue_last1 = g.queue_last1) ?_ h ?_
  · intro k hk' g1 g2 hw hP
    cases hw <;> first | exact absurd hk' hk | simpa using hP
  · simp

theorem writes_keep_orphans {K : List Field} {g g' : Graph} (h : Writes K g g')
    (hk : Field.orphans ∉ K) : g'.orphans = g.orphans := by
  refine writes_preserve (fun g1 => g1.orphans = g.orphans) ?_ h ?_
  · intro k hk' g1 g2 hw hP
    cases hw <;> first | exact absurd hk' hk | simpa using hP
  · simp

theorem writes_keep_TIME {K : List Field} {g g' : Graph} (h : Writes K g g')
    (hk : Field.TIME ∉ K) : g'.TIME = g.TIME := by
  refine writes_preserve (fun g1 => g1.TIME = g.TIME) ?_ h ?_
  · intro k hk' g1 g2 hw hP
    cases hw <;> first | exact absurd hk' hk | simpa using hP
  · simp

theorem writes_keep_flow {K : List Field} {g g' : Graph} (h : Writes K g g')
    (hk : Field.flow ∉ K) : g'.flow = g.flow := by
  refine writes_preserve (fun g1 => g1.flow = g.flow) ?_ h ?_
  · intro k hk' g1 g2 hw hP
    cases hw <;> first | exact absurd hk' hk | simpa using hP
  · simp

theorem writes_keep_iteration {K : List Field} {g g' : Graph} (h : Writes K g g')
    (hk : Field.iteration ∉ K) : g'.maxflow_iteration = g.maxflow_iteration := by
  refine writes_preserve (fun g1 => g1.maxflow_iteration = g.maxflow_iteration) ?_ h ?_
  · intro k hk' g1 g2 hw hP
    cases hw <;> first | exact absurd hk' hk | simpa using hP
  · simp

theorem writes_keep_changed {K : List Field} {g g' : Graph} (h : Writes K g g')
    (hk : Field.changed ∉ K) : g'.changed_list = g.changed_list := by
  refine writes_preserve (fun g1 => g1.changed_list = g.changed_list) ?_ h ?_
  · intro k hk' g1 g2 hw hP
    cases hw <;> first | exact absurd hk' hk | simpa using hP
  · simp

end Maxflow

namespace Maxflow

/-! ## The active queues -/

theorem isQueue_congr {nodes nodes' : Nat → Node} {first last : Option Nat} {q : List Nat}
    (hn : ∀ i ∈ q, (nodes' i).next = (nodes i).next) (h : IsQueue nodes first last q) :
    IsQueue nodes' first last q := by
  induction q generalizing first with
  | nil => exact h
  | cons x r ih =>
    cases r with
    | nil =>
      simp only [IsQueue] at h ⊢
      exact ⟨h.1, h.2.1, by rw [hn x (by simp)]; exact h.2.2⟩
    | cons y r =>
      simp only [IsQueue] at h ⊢
      refine ⟨h.1, by rw [hn x (by simp)]; exact h.2.1, ?_⟩
      exact ih (fun i hi => hn i (List.mem_cons_of_mem _ hi)) h.2.2

theorem isQueue_next_ne_none {nodes : Nat → Node} {first last : Option Nat} {q : List Nat}
    (h : IsQueue nodes first last q) : ∀ i ∈ q, (nodes i).next ≠ none := by
  induction q generalizing first with
  | nil => simp
  | cons x r ih =>
    cases r with
    | nil =>
      simp only [IsQueue] at h
      intro i hi
      simp only [List.mem_singleton] at hi
      subst hi
      rw [h.2.2]
      simp
    | cons y r =>
      simp only [IsQueue] at h
      intro i hi
      rcases List.mem_cons.1 hi with hi | hi
      · subst hi
        rw [h.2.1]
        simp
      · exact ih h.2.2 i hi

theorem isQueue_first_none {nodes : Nat → Node} {last : Option Nat} {q : List Nat}
    (h : IsQueue nodes none last q) : q = [] := by
  cases q with
  | nil => rfl
  | cons x r =>
    cases r with
    | nil => simp [IsQueue] at h
    | cons y r => simp [IsQueue] at h

theorem isQueue_nil_iff {nodes : Nat → Node} {first last : Option Nat} :
    IsQueue nodes first last [] ↔ first = none ∧ last = none := by
  simp [IsQueue]

theorem isQueue_first_some {nodes : Nat → Node} {first last : Option Nat} {q : List Nat} {i : Nat}
    (h : IsQueue nodes first last q) (hf : first = some i) : ∃ r, q = i :: r := by
  cases q with
  | nil =>
    simp only [IsQueue] at h
    rw [h.1] at hf
    simp at hf
  | cons x r =>
    cases r with
    | nil =>
      simp only [IsQueue] at h
      rw [h.1] at hf
      simp only [Option.some.injEq] at hf
      subst hf
      exact ⟨[], rfl⟩
    | cons y r =>
      simp only [IsQueue] at h
      rw [h.1] at hf
      simp only [Option.some.injEq] at hf
      subst hf
      exact ⟨_, rfl⟩

/-- In a non-empty queue `last` is the last node, and it points at itself. -/
theorem isQueue_last {nodes : Nat → Node} {first last : Option Nat} {q : List Nat}
    (h : IsQueue nodes first last q) (hq : q ≠ []) :
    ∃ l, last = some l ∧ l ∈ q ∧ (nodes l).next = some l := by
  induction q generalizing first with
  | nil => exact absurd rfl hq
  | cons x r ih =>
    cases r with
    | nil =>
      simp only [IsQueue] at h
      exact ⟨x, h.2.1, by simp, h.2.2⟩
    | cons y r =>
      simp only [IsQueue] at h
      obtain ⟨l, h1, h2, h3⟩ := ih h.2.2 (by simp)
      exact ⟨l, h1, List.mem_cons_of_mem _ h2, h3⟩

theorem isQueue_last_none {nodes : Nat → Node} {first : Option Nat} {q : List Nat}
    (h : IsQueue nodes first none q) : q = [] := by
  by_contra hq
  obtain ⟨l, h1, _⟩ := isQueue_last h hq
  simp at h1

/-- Appending node `j` behind the last node `l` of a queue. -/
theorem isQueue_append {nodes nodes' : Nat → Node} {first : Option Nat} {q : List Nat}
    {l j : Nat} (h : IsQueue nodes first (some l) q) (hnd : q.Nodup) (hj : j ∉ q)
    (hl : (nodes' l).next = some j) (hjn : (nodes' j).next = some j)
    (hn : ∀ i, i ≠ l → i ≠ j → (nodes' i).next = (nodes i).next) :
    IsQueue nodes' first (some j) (q ++ [j]) := by
  induction q generalizing first with
  | nil => simp [IsQueue] at h
  | cons x r ih =>
    cases r with
    | nil =>
      simp only [IsQueue, Option.some.injEq] at h
      obtain ⟨h1, h2, _⟩ := h
      subst h2
      simp only [List.singleton_append, IsQueue]
      exact ⟨h1, hl, trivial, trivial, hjn⟩
    | cons y r =>
      simp only [IsQueue] at h
      have hx : x ≠ j := fun hh => hj (by rw [← hh]; simp)
      have hnd' : (y :: r).Nodup := (List.nodup_cons.1 hnd).2
      have hxr : x ∉ y :: r := (List.nodup_cons.1 hnd).1
      obtain ⟨l', hl1, hl2, _⟩ := isQueue_last h.2.2 (by simp)
      simp only [Option.some.injEq] at hl1
      subst hl1
      have hxl : x ≠ l := fun hh => hxr (by rw [hh]; exact hl2)
      have := ih h.2.2 hnd' (fun hh => hj (List.mem_cons_of_mem _ hh))
      simp only [List.cons_append, IsQueue] at this ⊢
      exact ⟨h.1, by rw [hn x hxl hx]; exact h.2.1, this⟩

/-- The first node of a queue of at least two nodes does not point at itself. -/
theorem isQueue_head_next {nodes : Nat → Node} {first last : Option Nat} {x : Nat}
    {r : List Nat} (h : IsQueue nodes first last (x :: r)) (hnd : (x :: r).Nodup) :
    ((nodes x).next = some x ↔ r = []) ∧
      (r ≠ [] → ∃ y r', r = y :: r' ∧ (nodes x).next = some y) := by
  cases r with
  | nil =>
    simp only [IsQueue] at h
    simp [h.2.2]
  | cons y r =>
    simp only [IsQueue] at h
    have hxy : x ≠ y := by
      intro hh
      have := (List.nodup_cons.1 hnd).1
      rw [hh] at this
      simp at this
    refine ⟨?_, fun _ => ⟨y, r, rfl, h.2.1⟩⟩
    rw [h.2.1]
    simp only [Option.some.injEq, reduceCtorEq, iff_false]
    exact fun hh => hxy hh.symm

theorem queueInv_congr {g g' : Graph} {cur : Option Nat} {q0 q1 : List Nat}
    (h : QueueInv g cur q0 q1) (hn : ∀ i, (g'.nodes i).next = (g.nodes i).next)
    (h0 : g'.queue_first0 = g.queue_first0 ∧ g'.queue_last0 = g.queue_last0)
    (h1 : g'.queue_first1 = g.queue_first1 ∧ g'.queue_last1 = g.queue_last1)
    (hnum : g'.node_num = g.node_num) : QueueInv g' cur q0 q1 := by
  refine ⟨?_, ?_, h.nodup, ?_, h.current, ?_⟩
  · rw [h0.1, h0.2]
    exact isQueue_congr (fun i _ => hn i) h.queue0
  · rw [h1.1, h1.2]
    exact isQueue_congr (fun i _ => hn i) h.queue1
  · intro i hi hne
    rw [hnum] at hi
    rw [hn] at hne
    exact h.complete i hi hne
  · intro i hi
    rw [hnum]
    exact h.bound i hi

/-- A sequence of writes that touches neither `next` nor the queue pointers
keeps the queues. -/
theorem queueInv_of_writes {K : List Field} {g g' : Graph} {cur : Option Nat}
    {q0 q1 : List Nat} (h : QueueInv g cur q0 q1) (hw : Writes K g g')
    (h1 : Field.next ∉ K) (h2 : Field.queue0 ∉ K) (h3 : Field.queue1 ∉ K) :
    QueueInv g' cur q0 q1 :=
  queueInv_congr h (writes_keep_next hw h1) (writes_keep_queue0 hw h2)
    (writes_keep_queue1 hw h3) (writes_shape hw).node_num

theorem queueInv_mem_next {g : Graph} {cur : Option Nat} {q0 q1 : List Nat}
    (h : QueueInv g cur q0 q1) {i : Nat} (hi : i ∈ q0 ∨ i ∈ q1) : (g.nodes i).next ≠ none := by
  rcases hi with hi | hi
  · exact isQueue_next_ne_none h.queue0 i hi
  · exact isQueue_next_ne_none h.queue1 i hi

/-- `set_active(j)` appends `j` to the second queue unless its `next` is set. -/
theorem queueInv_set_active {g : Graph} {cur : Option Nat} {q0 q1 : List Nat}
    (h : QueueInv g cur q0 q1) (j : Nat) (hj : j < g.node_num)
    (hc : cur = some j → (g.nodes j).next ≠ none) :
    ∃ q1', QueueInv (set_active g j) cur q0 q1' ∧ (∀ i, i ∈ q1 → i ∈ q1') ∧
      (∀ i, i ∈ q1' → i ∈ q1 ∨ i = j) := by
  by_cases hn : (g.nodes j).next = none
  · have hj0 : j ∉ q0 := fun hh => queueInv_mem_next h (Or.inl hh) hn
    have hj1 : j ∉ q1 := fun hh => queueInv_mem_next h (Or.inr hh) hn
    have hcur : cur ≠ some j := fun hh => hc hh hn
    refine ⟨q1 ++ [j], ?_, fun i hi => List.mem_append_left _ hi, fun i hi => by
      simpa using hi⟩
    unfold set_active
    rw [if_pos hn]
    cases hl : g.queue_last1 with
    | none =>
      have hq1 : q1 = [] := by
        have := h.queue1
        rw [hl] at this
        exact isQueue_last_none this
      subst hq1
      simp only
      refine ⟨?_, ?_, ?_, ?_, ?_, ?_⟩
      · simp only [setNext_queue_first0, setQueue1_queue_first0, setNext_queue_last0,
          setQueue1_queue_last0]
        refine isQueue_congr ?_ h.queue0
        intro i hi
        have : i ≠ j := fun hh => hj0 (hh ▸ hi)
        simp [this]
      · simp [IsQueue]
      · have := h.nodup
        simp only [List.append_nil] at this
        rw [List.nil_append, List.nodup_append]
        refine ⟨this, List.nodup_singleton j, ?_⟩
        intro i hi hi2
        simp only [List.mem_singleton] at hi2
        subst hi2
        exact hj0 hi
      · intro i hi hne
        simp only [setNext_nodes_next, setQueue1_nodes] at hne
        by_cases hij : i = j
        · right
          left
          simp [hij]
        · simp only [hij, if_false] at hne
          rcases h.complete i (by simpa using hi) hne with h1 | h1 | h1
          · exact Or.inl h1
          · simp at h1
          · exact Or.inr (Or.inr h1)
      · intro c hcc
        refine ⟨(h.current c hcc).1, ?_⟩
        simp only [List.nil_append, List.mem_singleton]
        intro hh
        exact hcur (by rw [hcc, hh])
      · intro i hi
        simp only [List.nil_append, List.mem_singleton, List.not_mem_nil, false_or] at hi
        simp only [setNext_node_num, setQueue1_node_num]
        rcases hi with hi | hi
        · exact h.bound i (Or.inl hi)
        · rw [hi]; exact hj
    | some l =>
      have hq1 : q1 ≠ [] := by
        intro hh
        have := h.queue1
        rw [hh, isQueue_nil_iff] at this
        rw [this.2] at hl
        simp at hl
      obtain ⟨l', hl1, hl2, hl3⟩ := isQueue_last h.queue1 hq1
      rw [hl] at hl1
      simp only [Option.some.injEq] at hl1
      subst hl1
      have hlj : l ≠ j := fun hh => hj1 (hh ▸ hl2)
      have hl0 : l ∉ q0 := by
        intro hh
        have := h.nodup
        rw [List.nodup_append] at this
        exact this.2.2 hh hl2
      simp only
      refine ⟨?_, ?_, ?_, ?_, ?_, ?_⟩
      · simp only [setNext_queue_first0, setLast1_queue_first0, setNext_queue_last0,
          setLast1_queue_last0]
        refine isQueue_congr ?_ h.queue0
        intro i hi
        have h1 : i ≠ j := fun hh => hj0 (hh ▸ hi)
        have h2 : i ≠ l := fun hh => hl0 (hh ▸ hi)
        simp [h1, h2]
      · simp only [setNext_queue_first1, setLast1_queue_first1, setNext_queue_last1,
          setLast1_queue_last1]
        have hq := h.queue1
        rw [hl] at hq
        refine isQueue_append hq (List.Nodup.of_append_right h.nodup) hj1 ?_ ?_ ?_
        · simp [hlj]
        · simp
        · intro i hil hij
          simp [hil, hij]
      · rw [← List.append_assoc]
        rw [List.nodup_append]
        refine ⟨h.nodup, List.nodup_singleton j, ?_⟩
        intro i hi hi2
        simp only [List.mem_singleton] at hi2
        subst hi2
        rcases List.mem_append.1 hi with hi | hi
        · exact hj0 hi
        · exact hj1 hi
      · intro i hi hne
        simp only [setNext_nodes_next, setLast1_nodes] at hne
        by_cases hij : i = j
        · right
          left
          simp [hij]
        · simp only [hij, if_false] at hne
          by_cases hil : i = l
          · right
            left
            rw [hil]
            exact List.mem_append_left _ hl2
          · simp only [hil, if_false] at hne
            rcases h.complete i (by simpa using hi) hne with h1 | h1 | h1
            · exact Or.inl h1
            · exact Or.inr (Or.inl (List.mem_append_left _ h1))
            · exact Or.inr (Or.inr h1)
      · intro c hcc
        refine ⟨(h.current c hcc).1, ?_⟩
        simp only [List.mem_append, List.mem_singleton, not_or]
        exact ⟨(h.current c hcc).2, fun hh => hcur (by rw [hcc, hh])⟩
      · intro i hi
        simp only [List.mem_append, List.mem_singleton] at hi
        simp only [setNext_node_num, setLast1_node_num]
        rcases hi with hi | hi | hi
        · exact h.bound i (Or.inl hi)
        · exact h.bound i (Or.inr hi)
        · rw [hi]; exact hj
  · refine ⟨q1, ?_, fun i hi => hi, fun i hi => Or.inl hi⟩
    unfold set_active
    rw [if_neg hn]
    exact h

/-- After `set_active(j)` the `next` of `j` is set. -/
theorem set_active_next_self (g : Graph) (j : Nat) : ((set_active g j).nodes j).next ≠ none := by
  unfold set_active
  split
  · split <;> simp
  · assumption

/-- `set_active` never clears a `next`. -/
theorem set_active_next_mono (g : Graph) (j x : Nat) (h : (g.nodes x).next ≠ none) :
    ((set_active g j).nodes x).next ≠ none := by
  unfold set_active
  split
  · split
    · simp only [setNext_nodes_next, setLast1_nodes]
      split
      · simp
      · split
        · simp
        · exact h
    · simp only [setNext_nodes_next, setQueue1_nodes]
      split
      · simp
      · exact h
  · exact h

end Maxflow

namespace Maxflow

theorem queueInv_refill {g : Graph} {cur : Option Nat} {q0 q1 : List Nat}
    (h : QueueInv g cur q0 q1) :
    ∃ q0' q1', QueueInv (refill g) cur q0' q1' ∧
      (∀ i, (i ∈ q0' ∨ i ∈ q1') ↔ (i ∈ q0 ∨ i ∈ q1)) := by
  unfold refill
  split
  · rename_i h0
    have hq0 : q0 = [] := by
      have := h.queue0
      rw [h0] at this
      exact isQueue_first_none this
    subst hq0
    refine ⟨q1, [], ⟨?_, ?_, ?_, ?_, ?_, ?_⟩, fun i => by simp⟩
    · exact h.queue1
    · simp [rotate_queues, IsQueue]
    · simpa using h.nodup
    · intro i hi hne
      rcases h.complete i (by simpa using hi) (by simpa using hne) with h1 | h1 | h1
      · simp at h1
      · exact Or.inl h1
      · exact Or.inr (Or.inr h1)
    · intro c hc
      exact ⟨(h.current c hc).2, by simp⟩
    · intro i hi
      simp only [rotate_queues_node_num]
      rcases hi with hi | hi
      · exact h.bound i (Or.inr hi)
      · simp at hi
  · exact ⟨q0, q1, h, fun _ => Iff.rfl⟩

/-- Removing the front node of the first queue. -/
theorem queueInv_pop_active {g : Graph} {cur : Option Nat} {q0 q1 : List Nat} {i : Nat}
    (h : QueueInv g cur q0 q1) (hf : g.queue_first0 = some i) :
    ∃ r, q0 = i :: r ∧ QueueInv (pop_active g i) cur r q1 ∧
      ((pop_active g i).nodes i).next = none ∧ i < g.node_num := by
  obtain ⟨r, hr⟩ := isQueue_first_some h.queue0 hf
  subst hr
  have hnd0 : (i :: r).Nodup := List.Nodup.of_append_left h.nodup
  have hir : i ∉ r := (List.nodup_cons.1 hnd0).1
  have hi1 : i ∉ q1 := by
    intro hh
    have := h.nodup
    rw [List.nodup_append] at this
    exact this.2.2 (by simp) hh
  obtain ⟨hself, hnext⟩ := isQueue_head_next h.queue0 hnd0
  refine ⟨r, rfl, ⟨?_, ?_, ?_, ?_, ?_, ?_⟩, ?_, h.bound i (Or.inl (by simp))⟩
  · unfold pop_active
    split
    · rename_i hs
      have hr : r = [] := hself.1 hs
      subst hr
      simp [IsQueue]
    · rename_i hs
      have hr : r ≠ [] := fun hh => hs (hself.2 hh)
      obtain ⟨y, r', hr', hy⟩ := hnext hr
      subst hr'
      have hq := h.queue0
      simp only [IsQueue] at hq
      simp only [setNext_queue_first0, setFirst0_queue_first0, setNext_queue_last0,
        setFirst0_queue_last0, hy]
      refine isQueue_congr ?_ hq.2.2
      intro x hx
      have : x ≠ i := fun hh => hir (hh ▸ hx)
      simp [this]
  · have : (pop_active g i).queue_first1 = g.queue_first1 := by simp
    rw [this]
    have : (pop_active g i).queue_last1 = g.queue_last1 := by simp
    rw [this]
    refine isQueue_congr ?_ h.queue1
    intro x hx
    have : x ≠ i := fun hh => hi1 (hh ▸ hx)
    unfold pop_active
    split <;> simp [this]
  · have := h.nodup
    simp only [List.cons_append, List.nodup_cons] at this
    exact this.2
  · intro x hx hne
    have hxi : x ≠ i := by
      intro hh
      subst hh
      apply hne
      unfold pop_active
      split <;> simp
    have hne' : (g.nodes x).next ≠ none := by
      intro hh
      apply hne
      unfold pop_active
      split <;> simp [hxi, hh]
    rcases h.complete x (by simpa using hx) hne' with h1 | h1 | h1
    · rcases List.mem_cons.1 h1 with h2 | h2
      · exact absurd h2 hxi
      · exact Or.inl h2
    · exact Or.inr (Or.inl h1)
    · exact Or.inr (Or.inr h1)
  · intro c hc
    exact ⟨fun hh => (h.current c hc).1 (List.mem_cons_of_mem _ hh), (h.current c hc).2⟩
  · intro x hx
    simp only [pop_active_node_num]
    rcases hx with hx | hx
    · exact h.bound x (Or.inl (List.mem_cons_of_mem _ hx))
    · exact h.bound x (Or.inr hx)
  · unfold pop_active
    split <;> simp

/-- The current node may be forgotten once its `next` is null. -/
theorem queueInv_drop_cur {g : Graph} {c : Nat} {q0 q1 : List Nat}
    (h : QueueInv g (some c) q0 q1) (hn : (g.nodes c).next = none) : QueueInv g none q0 q1 := by
  refine ⟨h.queue0, h.queue1, h.nodup, ?_, by simp, h.bound⟩
  intro i hi hne
  rcases h.complete i hi hne with h1 | h1 | h1
  · exact Or.inl h1
  · exact Or.inr (Or.inl h1)
  · simp only [Option.some.injEq] at h1
    subst h1
    exact absurd hn hne

/-- A node outside both queues may be made the current node. -/
theorem queueInv_set_cur {g : Graph} {q0 q1 : List Nat} (c : Nat)
    (h : QueueInv g none q0 q1) (h0 : c ∉ q0) (h1 : c ∉ q1) : QueueInv g (some c) q0 q1 := by
  refine ⟨h.queue0, h.queue1, h.nodup, ?_, ?_, h.bound⟩
  · intro i hi hne
    rcases h.complete i hi hne with h2 | h2 | h2
    · exact Or.inl h2
    · exact Or.inr (Or.inl h2)
    · simp at h2
  · intro c' hc'
    simp only [Option.some.injEq] at hc'
    subst hc'
    exact ⟨h0, h1⟩

/-- Writing the `next` of the current node keeps the queues. -/
theorem queueInv_setNext_cur {g : Graph} {c : Nat} {q0 q1 : List Nat}
    (h : QueueInv g (some c) q0 q1) (v : Option Nat) :
    QueueInv (g.setNext c v) (some c) q0 q1 := by
  have hc := h.current c rfl
  refine ⟨?_, ?_, h.nodup, ?_, h.current, h.bound⟩
  · refine isQueue_congr ?_ h.queue0
    intro i hi
    have : i ≠ c := fun hh => hc.1 (hh ▸ hi)
    simp [this]
  · refine isQueue_congr ?_ h.queue1
    intro i hi
    have : i ≠ c := fun hh => hc.2 (hh ▸ hi)
    simp [this]
  · intro i hi hne
    by_cases hic : i = c
    · exact Or.inr (Or.inr (by rw [hic]))
    · simp only [setNext_nodes_next, hic, if_false] at hne
      exact h.complete i hi hne

/-- What `next_active` returns: a queued node that has a parent, removed from
the queues, or nothing when both queues are empty. -/
theorem next_active_queue {f : Nat} {g : Graph} {r : Graph × Option Nat} {q0 q1 : List Nat}
    (h : next_active f g = Res.ok r) (hQ : QueueInv g none q0 q1) :
    (r.2 = none → QueueInv r.1 none [] []) ∧
    (∀ i, r.2 = some i → ∃ q0' q1', QueueInv r.1 (some i) q0' q1' ∧
      (r.1.nodes i).next = none ∧ i < g.node_num ∧ (r.1.nodes i).parent ≠ ArcPtr.null) := by
  refine next_active_rule (fun g' => g'.node_num = g.node_num ∧ ∃ q0 q1, QueueInv g' none q0 q1)
    (fun g' r => (r = none → QueueInv g' none [] []) ∧
      (∀ i, r = some i → ∃ q0' q1', QueueInv g' (some i) q0' q1' ∧
        (g'.nodes i).next = none ∧ i < g.node_num ∧ (g'.nodes i).parent ≠ ArcPtr.null))
    ?_ ?_ ?_ h ⟨rfl, q0, q1, hQ⟩
  · rintro g' ⟨_, q0, q1, hP⟩ hf
    obtain ⟨q0', q1', hR, _⟩ := queueInv_refill hP
    refine ⟨fun _ => ?_, fun i hi => by simp at hi⟩
    have e0 : q0' = [] := by
      have := hR.queue0
      rw [hf] at this
      exact isQueue_first_none this
    subst e0
    by_cases hrot : g'.queue_first0 = none
    · have e1 : q1' = [] := by
        have := hR.queue1
        unfold refill at this
        rw [if_pos hrot] at this
        simp only [rotate_queues, setQueue1_queue_first1, setQueue1_queue_last1] at this
        exact isQueue_first_none this
      subst e1
      exact hR
    · unfold refill at hf
      rw [if_neg hrot] at hf
      exact absurd hf hrot
  · rintro g' i ⟨hn, q0, q1, hP⟩ hf hp
    obtain ⟨q0', q1', hR, _⟩ := queueInv_refill hP
    obtain ⟨r, hr, hPop, hnx, hb⟩ := queueInv_pop_active hR hf
    subst hr
    refine ⟨fun hh => by simp at hh, ?_⟩
    intro i' hi'
    simp only [Option.some.injEq] at hi'
    subst hi'
    have hnd := hR.nodup
    have hi0 : i ∉ r := (List.nodup_cons.1 (List.Nodup.of_append_left hnd)).1
    have hi1 : i ∉ q1' := by
      rw [List.nodup_append] at hnd
      exact fun hh => hnd.2.2 (by simp) hh
    refine ⟨r, q1', queueInv_set_cur i hPop hi0 hi1, hnx, ?_, hp⟩
    rw [← hn]
    simpa using hb
  · rintro g' i ⟨hn, q0, q1, hP⟩ hf _
    obtain ⟨q0', q1', hR, _⟩ := queueInv_refill hP
    obtain ⟨r, _, hPop, _, _⟩ := queueInv_pop_active hR hf
    exact ⟨by simpa using hn, r, q1', hPop⟩

/-- With both queues empty and no current node, no node of the arena has a
`next`. -/
theorem queueInv_empty_next {g : Graph} (h : QueueInv g none [] []) :
    ∀ i < g.node_num, (g.nodes i).next = none := by
  intro i hi
  by_contra hne
  rcases h.complete i hi hne with h1 | h1 | h1 <;> simp at h1

end Maxflow

namespace Maxflow

/-! ## Well-formedness is static -/

theorem arc_list_congr {arcs arcs' : Nat → Arc} (h : ∀ a, (arcs' a).next = (arcs a).next)
    (f : Nat) (p : Option Nat) : arc_list arcs' f p = arc_list arcs f p := by
  induction f generalizing p with
  | zero => cases p <;> rfl
  | succ n ih =>
    cases p with
    | none => rfl
    | some a =>
      simp only [arc_list]
      rw [h a, ih]

theorem isArcList_congr {arcs arcs' : Nat → Arc} (h : ∀ a, (arcs' a).next = (arcs a).next)
    {p : Option Nat} {l : List Nat} (hl : IsArcList arcs p l) : IsArcList arcs' p l := by
  induction l generalizing p with
  | nil => exact hl
  | cons a l ih =>
    simp only [IsArcList] at hl ⊢
    refine ⟨hl.1, ?_⟩
    rw [h a]
    exact ih hl.2

theorem arcs_of_sameShape {g g' : Graph} (h : SameShape g g') (i : Nat) :
    arcs_of g' i = arcs_of g i := by
  unfold arcs_of
  rw [h.arc_num, h.first, arc_list_congr h.next]

theorem tail_sameShape {g g' : Graph} (h : SameShape g g') (a : Nat) : g'.tail a = g.tail a := by
  unfold Graph.tail
  rw [h.sister, h.head]

theorem wellFormed_sameShape {g g' : Graph} (h : SameShape g g') (hw : WellFormed g) :
    WellFormed g' := by
  refine ⟨?_, ?_, ?_, ?_, ?_⟩
  · intro i hi
    rw [h.node_num] at hi
    rw [arcs_of_sameShape h, h.first]
    exact isArcList_congr h.next (hw.lists i hi)
  · intro i hi a ha
    rw [h.node_num] at hi
    rw [arcs_of_sameShape h] at ha
    rw [h.arc_num, tail_sameShape h]
    exact hw.owner i hi a ha
  · intro a ha
    rw [h.arc_num] at ha ⊢
    rw [h.sister, h.sister]
    exact hw.sister a ha
  · intro a ha
    rw [h.arc_num] at ha
    rw [h.node_num, h.head]
    exact hw.head a ha
  · intro a ha
    rw [h.arc_num] at ha
    rw [tail_sameShape h, arcs_of_sameShape h]
    exact hw.listed a ha

theorem wellFormed_of_writes {K : List Field} {g g' : Graph} (h : Writes K g g')
    (hw : WellFormed g) : WellFormed g' :=
  wellFormed_sameShape (writes_shape h) hw

/-! ### Consequences of well-formedness -/

theorem WellFormed.tail_lt {g : Graph} (hw : WellFormed g) {a : Nat} (ha : a < g.arc_num) :
    g.tail a < g.node_num :=
  hw.head _ (hw.sister a ha).1

theorem WellFormed.mem_arcs_of {g : Graph} (hw : WellFormed g) {i a : Nat}
    (hi : i < g.node_num) (ha : a ∈ arcs_of g i) :
    a < g.arc_num ∧ g.tail a = i ∧ (g.arcs a).head < g.node_num ∧
      (g.arcs a).sister < g.arc_num ∧ (g.arcs (g.arcs a).sister).sister = a ∧
      (g.arcs a).sister ∈ arcs_of g (g.arcs a).head ∧ (g.arcs (g.arcs a).sister).head = i := by
  obtain ⟨h1, h2⟩ := hw.owner i hi a ha
  obtain ⟨h3, h4⟩ := hw.sister a h1
  refine ⟨h1, h2, hw.head a h1, h3, h4, ?_, h2⟩
  have := hw.listed _ h3
  unfold Graph.tail at this
  rw [h4] at this
  exact this

/-- The tail of the sister of an arc is its head. -/
theorem WellFormed.tail_sister {g : Graph} (hw : WellFormed g) {a : Nat} (ha : a < g.arc_num) :
    g.tail (g.arcs a).sister = (g.arcs a).head := by
  unfold Graph.tail
  rw [(hw.sister a ha).2]

/-! ### Positions in an arc list -/

/-- The pointer `p` is a position in the arc list of `i`: what follows it is a
suffix of the list. -/
theorem isArcList_suffix_step {arcs : Nat → Arc} {a : Nat} {l : List Nat}
    (h : IsArcList arcs (some a) l) : ∃ l', l = a :: l' ∧ IsArcList arcs (arcs a).next l' := by
  cases l with
  | nil => simp [IsArcList] at h
  | cons b l' =>
    simp only [IsArcList, Option.some.injEq] at h
    obtain ⟨h1, h2⟩ := h
    subst h1
    exact ⟨l', rfl, h2⟩

theorem isArcList_none {arcs : Nat → Arc} {l : List Nat} (h : IsArcList arcs none l) :
    l = [] := by
  cases l with
  | nil => rfl
  | cons b l' => simp [IsArcList] at h

end Maxflow

namespace Maxflow

/-! ## Writes that keep the passive frontier, the trees and the orphan list -/

theorem grow_rcap_congr {g g' : Graph} (hs : SameShape g g')
    (hr : ∀ a, (g'.arcs a).r_cap = (g.arcs a).r_cap) (s : Bool) (a : Nat) :
    grow_rcap g' s a = grow_rcap g s a := by
  unfold grow_rcap
  rw [hs.sister, hr, hr]

/-- The passive frontier survives a write that keeps the residuals and the
trees and clears no `next`. -/
theorem passiveFrontier_mono {g g' : Graph} {skip freed : Option Nat}
    (hs : SameShape g g') (hr : ∀ a, (g'.arcs a).r_cap = (g.arcs a).r_cap)
    (hn : ∀ x, (g'.nodes x).next = none → (g.nodes x).next = none)
    (hp : ∀ x, (g'.nodes x).parent = ArcPtr.null ↔ (g.nodes x).parent = ArcPtr.null)
    (hk : ∀ x, (g'.nodes x).is_sink = (g.nodes x).is_sink)
    (h : PassiveFrontier g skip freed) : PassiveFrontier g' skip freed := by
  intro x hx hsk hnx hpx a ha hpos
  rw [hs.node_num] at hx
  rw [arcs_of_sameShape hs] at ha
  rw [hk, grow_rcap_congr hs hr] at hpos
  have hpx' : (g.nodes x).parent ≠ ArcPtr.null := fun hh => hpx ((hp x).2 hh)
  rcases h x hx hsk (hn x hnx) hpx' a ha hpos with h1 | h1
  · left
    unfold InTree at h1 ⊢
    rw [hs.head, hk, hk, Ne, hp]
    exact h1
  · right
    rw [hs.head, hk, hk]
    exact h1

/-- Tree consistency survives a write that creates no arc parent and frees no
node. -/
theorem treeInv_mono {g g' : Graph} {e : Option Nat} (hs : SameShape g g')
    (hk : ∀ x, (g'.nodes x).is_sink = (g.nodes x).is_sink)
    (ha : ∀ x a, (g'.nodes x).parent = ArcPtr.arc a → (g.nodes x).parent = ArcPtr.arc a)
    (hp : ∀ x, (g.nodes x).parent ≠ ArcPtr.null → (g'.nodes x).parent ≠ ArcPtr.null)
    (h : TreeInv g e) : TreeInv g' e := by
  intro i hi a hpa
  rw [hs.node_num] at hi
  obtain ⟨h1, h2, h3, h4⟩ := h i hi a (ha i a hpa)
  rw [hs.arc_num, tail_sameShape hs, hs.head, hk, hk]
  refine ⟨h1, h2, h3, ?_⟩
  rcases h4 with h4 | h4
  · exact Or.inl (hp _ h4)
  · exact Or.inr h4

theorem orphanInv_congr {g g' : Graph} {pend : List Nat} (ho : g'.orphans = g.orphans)
    (hn : g'.node_num = g.node_num)
    (hp : ∀ x, (g.nodes x).parent = ArcPtr.orphan → (g'.nodes x).parent = ArcPtr.orphan)
    (h : OrphanInv g pend) : OrphanInv g' pend := by
  refine ⟨by rw [ho]; exact h.nodup, ?_, ?_⟩
  · intro x hx
    rw [ho] at hx
    exact hp x (h.parent x hx)
  · intro x hx
    rw [ho] at hx
    rw [hn]
    exact h.bound x hx

/-- Pushing a node whose parent is not `ORPHAN` on the orphan list. -/
theorem orphanInv_push {g g' : Graph} {pend : List Nat} {j : Nat}
    (ho : g'.orphans = j :: g.orphans ∨ g'.orphans = g.orphans ++ [j])
    (hn : g'.node_num = g.node_num) (hj : j < g.node_num)
    (hjp : (g.nodes j).parent ≠ ArcPtr.orphan)
    (hp : ∀ x, (g'.nodes x).parent = if x = j then ArcPtr.orphan else (g.nodes x).parent)
    (h : OrphanInv g pend) : OrphanInv g' pend := by
  have hj0 : j ∉ g.orphans := fun hh => hjp (h.parent j (Or.inl hh))
  have hj1 : j ∉ pend := fun hh => hjp (h.parent j (Or.inr hh))
  have hmem : ∀ x, x ∈ g'.orphans ↔ x = j ∨ x ∈ g.orphans := by
    intro x
    rcases ho with ho | ho <;> rw [ho] <;> simp [or_comm]
  refine ⟨?_, ?_, ?_⟩
  · have hnd := h.nodup
    rcases ho with ho | ho
    · rw [ho]
      simp only [List.cons_append, List.nodup_cons, List.mem_append, not_or]
      exact ⟨⟨hj0, hj1⟩, hnd⟩
    · rw [ho]
      rw [List.nodup_append] at hnd ⊢
      refine ⟨?_, hnd.2.1, ?_⟩
      · rw [List.nodup_append]
        refine ⟨hnd.1, List.nodup_singleton j, ?_⟩
        intro x hx hx2
        simp only [List.mem_singleton] at hx2
        subst hx2
        exact hj0 hx
      · intro x hx hx2
        simp only [List.mem_append, List.mem_singleton] at hx
        rcases hx with hx | hx
        · exact hnd.2.2 hx hx2
        · subst hx
          exact hj1 hx2
  · intro x hx
    rw [hp]
    split
    · rfl
    · rename_i hxj
      rw [hmem] at hx
      rcases hx with (hx | hx) | hx
      · exact absurd hx hxj
      · exact h.parent x (Or.inl hx)
      · exact h.parent x (Or.inr hx)
  · intro x hx
    rw [hn]
    rw [hmem] at hx
    rcases hx with (hx | hx) | hx
    · rw [hx]; exact hj
    · exact h.bound x (Or.inl hx)
    · exact h.bound x (Or.inr hx)

/-- `set_active(j)` leaves the `next` of a node outside the second queue alone. -/
theorem set_active_next_other {g : Graph} {cur : Option Nat} {q0 q1 : List Nat}
    (h : QueueInv g cur q0 q1) (j i : Nat) (hij : i ≠ j) (hi : i ∉ q1) :
    ((set_active g j).nodes i).next = (g.nodes i).next := by
  unfold set_active
  split
  · split
    · rename_i l hl
      have hq1 : q1 ≠ [] := by
        intro hh
        have := h.queue1
        rw [hh, isQueue_nil_iff] at this
        rw [this.2] at hl
        simp at hl
      obtain ⟨l', hl1, hl2, _⟩ := isQueue_last h.queue1 hq1
      rw [hl] at hl1
      simp only [Option.some.injEq] at hl1
      subst hl1
      have : i ≠ l := fun hh => hi (hh ▸ hl2)
      simp [hij, this]
    · simp [hij]
  · rfl

theorem set_active_next_none (g : Graph) (j x : Nat)
    (h : ((set_active g j).nodes x).next = none) : (g.nodes x).next = none := by
  by_contra hh
  exact set_active_next_mono g j x hh h

end Maxflow

namespace Maxflow

/-! ## Growth -/

theorem orphanInv_nil {g : Graph} (h : g.orphans = []) : OrphanInv g [] := by
  refine ⟨by rw [h]; simp, ?_, ?_⟩ <;>
  · intro x hx
    rw [h] at hx
    simp at hx

@[simp] theorem grow_adopt_nodes_parent (g : Graph) (sink : Bool) (i a x : Nat) :
    ((grow_adopt g sink i a).nodes x).parent =
      if x = (g.arcs a).head then ArcPtr.arc (g.arcs a).sister else (g.nodes x).parent := by
  simp [grow_adopt]

@[simp] theorem grow_adopt_nodes_is_sink (g : Graph) (sink : Bool) (i a x : Nat) :
    ((grow_adopt g sink i a).nodes x).is_sink =
      if x = (g.arcs a).head then sink else (g.nodes x).is_sink := by
  simp [grow_adopt, attach]

theorem grow_adopt_next_self (g : Graph) (sink : Bool) (i a : Nat) :
    ((grow_adopt g sink i a).nodes (g.arcs a).head).next ≠ none := by
  unfold grow_adopt
  rw [add_to_changed_list_nodes_next]
  exact set_active_next_self _ _

theorem grow_adopt_next_none (g : Graph) (sink : Bool) (i a x : Nat)
    (h : ((grow_adopt g sink i a).nodes x).next = none) : (g.nodes x).next = none := by
  unfold grow_adopt at h
  rw [add_to_changed_list_nodes_next] at h
  have := set_active_next_none _ _ _ h
  simpa [attach] using this

theorem grow_adopt_queue {g : Graph} {cur : Option Nat} {q0 q1 : List Nat} (sink : Bool)
    (i a : Nat) (h : QueueInv g cur q0 q1) (hj : (g.arcs a).head < g.node_num)
    (hc : cur ≠ some (g.arcs a).head) :
    ∃ q1', QueueInv (grow_adopt g sink i a) cur q0 q1' ∧
      (∀ x, x ∉ q1 → x ≠ (g.arcs a).head →
        ((grow_adopt g sink i a).nodes x).next = (g.nodes x).next) := by
  have h2 : QueueInv (attach (g.setSink (g.arcs a).head sink) i (g.arcs a).head a) cur q0 q1 :=
    queueInv_congr h (by simp) (by simp) (by simp) (by simp)
  obtain ⟨q1', h3, _, _⟩ := queueInv_set_active h2 (g.arcs a).head (by simpa using hj)
    (fun hh => absurd hh hc)
  refine ⟨q1', queueInv_congr h3 (by simp [grow_adopt]) (by simp [grow_adopt])
    (by simp [grow_adopt]) (by simp [grow_adopt]), ?_⟩
  intro x hx hxj
  unfold grow_adopt
  rw [add_to_changed_list_nodes_next, set_active_next_other h2 _ x hxj hx]
  simp

theorem growInv_grow_adopt {g : Graph} {i : Nat} {sink : Bool} (h : GrowInv g i sink)
    {a : Nat} (ha : a ∈ arcs_of g i)
    (hp : (g.nodes (g.arcs a).head).parent = ArcPtr.null) :
    GrowInv (grow_adopt g sink i a) i sink := by
  have hw := h.inv.wf
  obtain ⟨ha1, ha2, ha3, ha4, ha5, ha6, ha7⟩ := hw.mem_arcs_of h.bound ha
  have hji : i ≠ (g.arcs a).head := fun hh => h.parent (hh ▸ hp)
  have hshape : SameShape g (grow_adopt g sink i a) := writes_shape (writes_grow_adopt g sink i a)
  obtain ⟨q0, q1, hq⟩ := h.inv.queue
  obtain ⟨q1', hq', hnext⟩ := grow_adopt_queue sink i a hq ha3
    (fun hh => hji (Option.some.inj hh))
  refine ⟨⟨wellFormed_sameShape hshape hw, ⟨q0, q1', hq'⟩, ?_, ?_, ?_⟩, ?_, ?_, ?_, ?_, ?_⟩
  · intro x hx hsk hnx hpx b hb hpos
    rw [hshape.node_num] at hx
    rw [arcs_of_sameShape hshape] at hb
    by_cases hxj : x = (g.arcs a).head
    · subst hxj
      exact absurd hnx (grow_adopt_next_self g sink i a)
    · simp only [grow_adopt_nodes_parent, hxj, if_false] at hpx
      simp only [grow_adopt_nodes_is_sink, hxj, if_false] at hpos ⊢
      rw [grow_rcap_congr hshape (by simp)] at hpos
      rcases h.inv.frontier x hx hsk (grow_adopt_next_none g sink i a x hnx) hpx b hb hpos
        with h1 | h1
      · left
        have hbj : (g.arcs b).head ≠ (g.arcs a).head := fun hh => h1.1 (hh ▸ hp)
        unfold InTree
        simp only [grow_adopt_arcs, grow_adopt_nodes_parent, hbj, if_false,
          grow_adopt_nodes_is_sink]
        exact h1
      · simp at h1
  · intro x hx b hb
    rw [hshape.node_num] at hx
    rw [hshape.arc_num, tail_sameShape hshape]
    simp only [grow_adopt_nodes_parent] at hb
    simp only [grow_adopt_arcs, grow_adopt_nodes_is_sink, grow_adopt_nodes_parent]
    by_cases hxj : x = (g.arcs a).head
    · subst hxj
      simp only [if_true, ArcPtr.arc.injEq] at hb
      subst hb
      refine ⟨ha4, hw.tail_sister ha1, ?_, ?_⟩
      · rw [ha7]
        simp [hji, h.is_sink]
      · left
        rw [ha7]
        simp [hji, h.parent]
    · simp only [hxj, if_false] at hb ⊢
      obtain ⟨h1, h2, h3, h4⟩ := h.inv.tree x hx b hb
      have h4' : (g.nodes (g.arcs b).head).parent ≠ ArcPtr.null := by
        rcases h4 with h4 | h4
        · exact h4
        · simp at h4
      have hbj : (g.arcs b).head ≠ (g.arcs a).head := fun hh => h4' (hh ▸ hp)
      simp only [hbj, if_false]
      exact ⟨h1, h2, h3, Or.inl h4'⟩
  · refine orphanInv_congr (by simp) (by simp) ?_ h.inv.orphans
    intro x hx
    simp only [grow_adopt_nodes_parent]
    split
    · rename_i hxj
      rw [hxj, hp] at hx
      simp at hx
    · exact hx
  · rw [hnext i (hq.current i rfl).2 hji]
    exact h.next
  · simp only [grow_adopt_nodes_parent, hji, if_false]
    exact h.parent
  · simp only [grow_adopt_nodes_is_sink, hji, if_false]
    exact h.is_sink
  · rw [hshape.node_num]
    exact h.bound
  · simpa using h.orphans

theorem growInv_attach {g : Graph} {i : Nat} {sink : Bool} (h : GrowInv g i sink)
    {a : Nat} (ha : a ∈ arcs_of g i) (hp : InTree g sink (g.arcs a).head) :
    GrowInv (attach g i (g.arcs a).head a) i sink := by
  have hw := h.inv.wf
  obtain ⟨ha1, ha2, ha3, ha4, ha5, ha6, ha7⟩ := hw.mem_arcs_of h.bound ha
  have hshape : SameShape g (attach g i (g.arcs a).head a) :=
    writes_shape (writes_attach (K := growFields) (by decide) (by decide) (by decide) g i _ a)
  obtain ⟨q0, q1, hq⟩ := h.inv.queue
  have hpar : ∀ x, ((attach g i (g.arcs a).head a).nodes x).parent = ArcPtr.null ↔
      (g.nodes x).parent = ArcPtr.null := by
    intro x
    simp only [attach_nodes_parent]
    split
    · rename_i hx
      subst hx
      simp [hp.1]
    · rfl
  refine ⟨⟨wellFormed_sameShape hshape hw,
    ⟨q0, q1, queueInv_congr hq (by simp) (by simp) (by simp) (by simp)⟩, ?_, ?_, ?_⟩,
    ?_, ?_, ?_, ?_, ?_⟩
  · exact passiveFrontier_mono hshape (by simp) (by simp) hpar (by simp) h.inv.frontier
  · intro x hx b hb
    rw [hshape.node_num] at hx
    rw [hshape.arc_num, tail_sameShape hshape]
    simp only [attach_nodes_parent] at hb
    simp only [attach_arcs, attach_nodes_is_sink]
    by_cases hxj : x = (g.arcs a).head
    · subst hxj
      simp only [if_true, ArcPtr.arc.injEq] at hb
      subst hb
      refine ⟨ha4, hw.tail_sister ha1, ?_, ?_⟩
      · rw [ha7, h.is_sink, hp.2]
      · left
        rw [ha7, Ne, hpar]
        exact h.parent
    · simp only [hxj, if_false] at hb
      obtain ⟨h1, h2, h3, h4⟩ := h.inv.tree x hx b hb
      refine ⟨h1, h2, h3, ?_⟩
      rcases h4 with h4 | h4
      · left
        rw [Ne, hpar]
        exact h4
      · simp at h4
  · exact orphanInv_nil (by simpa using h.orphans)
  · simpa using h.next
  · rw [Ne, hpar]
    exact h.parent
  · simpa using h.is_sink
  · rw [hshape.node_num]
    exact h.bound
  · simpa using h.orphans

end Maxflow

namespace Maxflow

theorem inTree_grow_adopt {g : Graph} (sink : Bool) (i : Nat) {a : Nat} {s : Bool} {x : Nat}
    (hp : (g.nodes (g.arcs a).head).parent = ArcPtr.null) (h : InTree g s x) :
    InTree (grow_adopt g sink i a) s x := by
  have hx : x ≠ (g.arcs a).head := fun hh => h.1 (hh ▸ hp)
  unfold InTree
  simp only [grow_adopt_nodes_parent, grow_adopt_nodes_is_sink, hx, if_false]
  exact h

theorem inTree_attach {g : Graph} {i j a : Nat} {s : Bool} {x : Nat} (h : InTree g s x) :
    InTree (attach g i j a) s x := by
  unfold InTree
  simp only [attach_nodes_parent, attach_nodes_is_sink]
  refine ⟨?_, h.2⟩
  split
  · simp
  · exact h.1

/-- The growth scan from `i`: the invariant is kept; when the scan runs to the
end of the list, the passive-frontier property holds at `i` too; when it
stops, the arc it returns is a boundary arc with non-zero residual. -/
theorem grow_growInv {sink : Bool} {i f : Nat} {g : Graph} {r : Graph × Option Nat}
    (h : grow sink i f g (g.nodes i).first = Res.ok r) (hG : GrowInv g i sink) :
    GrowInv r.1 i sink ∧ (r.2 = none → PFnode r.1 none i) ∧
      (∀ m, r.2 = some m → Boundary r.1 m ∧ (r.1.arcs m).r_cap ≠ 0) := by
  refine @grow_rule sink i
    (fun g' p => GrowInv g' i sink ∧ ∃ pre post, arcs_of g' i = pre ++ post ∧
      IsArcList g'.arcs p post ∧
      ∀ b ∈ pre, grow_rcap g' sink b ≠ 0 → InTree g' sink (g'.arcs b).head)
    (fun g' r => GrowInv g' i sink ∧ (r = none → PFnode g' none i) ∧
      (∀ m, r = some m → Boundary g' m ∧ (g'.arcs m).r_cap ≠ 0))
    ?_ ?_ ?_ ?_ ?_ ?_ f g (g.nodes i).first r h
    ⟨hG, [], arcs_of g i, rfl, hG.inv.wf.lists i hG.bound, by simp⟩
  · rintro g' a ⟨hI, pre, post, hl, hpost, hpre⟩ hr hp
    obtain ⟨post', rfl, hpost'⟩ := isArcList_suffix_step hpost
    have ha : a ∈ arcs_of g' i := by rw [hl]; simp
    have hshape : SameShape g' (grow_adopt g' sink i a) :=
      writes_shape (writes_grow_adopt g' sink i a)
    refine ⟨growInv_grow_adopt hI ha hp, pre ++ [a], post', ?_, ?_, ?_⟩
    · rw [arcs_of_sameShape hshape, hl]
      simp
    · simpa using hpost'
    · intro b hb hrb
      rw [grow_rcap_congr hshape (by simp)] at hrb
      simp only [List.mem_append, List.mem_singleton] at hb
      rcases hb with hb | hb
      · have := inTree_grow_adopt sink i hp (hpre b hb hrb)
        simpa using this
      · subst hb
        unfold InTree
        simp
  · rintro g' a ⟨hI, pre, post, hl, hpost, hpre⟩ hr hp hs _ _
    obtain ⟨post', rfl, hpost'⟩ := isArcList_suffix_step hpost
    have ha : a ∈ arcs_of g' i := by rw [hl]; simp
    have hshape : SameShape g' (attach g' i (g'.arcs a).head a) :=
      writes_shape (writes_attach (K := growFields) (by decide) (by decide) (by decide) g' i _ a)
    refine ⟨growInv_attach hI ha ⟨hp, hs⟩, pre ++ [a], post', ?_, ?_, ?_⟩
    · rw [arcs_of_sameShape hshape, hl]
      simp
    · simpa using hpost'
    · intro b hb hrb
      rw [grow_rcap_congr hshape (by simp)] at hrb
      simp only [List.mem_append, List.mem_singleton] at hb
      rcases hb with hb | hb
      · have := inTree_attach (i := i) (j := (g'.arcs a).head) (a := a) (hpre b hb hrb)
        simpa using this
      · subst hb
        have := inTree_attach (i := i) (j := (g'.arcs b).head) (a := b)
          (show InTree g' sink (g'.arcs b).head from ⟨hp, hs⟩)
        simpa using this
  · rintro g' a ⟨hI, pre, post, hl, hpost, hpre⟩ hr hp hs
    obtain ⟨post', rfl, hpost'⟩ := isArcList_suffix_step hpost
    refine ⟨hI, pre ++ [a], post', by rw [hl]; simp, hpost', ?_⟩
    intro b hb hrb
    simp only [List.mem_append, List.mem_singleton] at hb
    rcases hb with hb | hb
    · exact hpre b hb hrb
    · subst hb
      exact ⟨hp, hs⟩
  · rintro g' a ⟨hI, pre, post, hl, hpost, hpre⟩ hr
    obtain ⟨post', rfl, hpost'⟩ := isArcList_suffix_step hpost
    refine ⟨hI, pre ++ [a], post', by rw [hl]; simp, hpost', ?_⟩
    intro b hb hrb
    simp only [List.mem_append, List.mem_singleton] at hb
    rcases hb with hb | hb
    · exact hpre b hb hrb
    · subst hb
      exact absurd hr hrb
  · rintro g' a ⟨hI, pre, post, hl, hpost, hpre⟩ hr hp hs
    obtain ⟨post', rfl, hpost'⟩ := isArcList_suffix_step hpost
    have ha : a ∈ arcs_of g' i := by rw [hl]; simp
    obtain ⟨ha1, ha2, ha3, ha4, ha5, ha6, ha7⟩ := hI.inv.wf.mem_arcs_of hI.bound ha
    refine ⟨hI, fun hh => by simp at hh, ?_⟩
    intro m hm
    simp only [Option.some.injEq] at hm
    subst hm
    cases sink with
    | false =>
      simp only [Bool.false_eq_true, if_false]
      refine ⟨⟨ha1, ?_, ?_⟩, ?_⟩
      · rw [ha2]
        exact ⟨hI.parent, hI.is_sink⟩
      · exact ⟨hp, by simpa using hs⟩
      · simpa [grow_rcap] using hr
    | true =>
      simp only [if_true]
      refine ⟨⟨ha4, ?_, ?_⟩, ?_⟩
      · rw [hI.inv.wf.tail_sister ha1]
        exact ⟨hp, by simpa using hs⟩
      · rw [ha7]
        exact ⟨hI.parent, hI.is_sink⟩
      · simpa [grow_rcap] using hr
  · rintro g' ⟨hI, pre, post, hl, hpost, hpre⟩
    have hpost' : post = [] := isArcList_none hpost
    subst hpost'
    simp only [List.append_nil] at hl
    refine ⟨hI, fun _ => ?_, fun m hm => by simp at hm⟩
    intro _ _ a ha hpos
    left
    rw [hI.is_sink] at hpos ⊢
    rw [hl] at ha
    exact hpre a ha (ne_of_gt hpos)

/-- The state after a growth scan that ran to the end of the list. -/
theorem growInv_done {g : Graph} {i : Nat} {sink : Bool} (h : GrowInv g i sink)
    (hpf : PFnode g none i) (t : Int) :
    Inv (g.setTIME t) none none none [] ∧ (g.setTIME t).orphans = [] := by
  obtain ⟨q0, q1, hq⟩ := h.inv.queue
  have hshape : SameShape g (g.setTIME t) :=
    writes_shape (writes_setTIME (K := loopFields) (by decide) g t)
  refine ⟨⟨wellFormed_sameShape hshape h.inv.wf,
    ⟨q0, q1, queueInv_congr (queueInv_drop_cur hq h.next) (by simp) (by simp) (by simp)
      (by simp)⟩, ?_, ?_, ?_⟩, by simpa using h.orphans⟩
  · refine passiveFrontier_mono hshape (by simp) (by simp) (by simp) (by simp) ?_
    intro x hx _
    by_cases hxi : x = i
    · subst hxi
      exact hpf
    · exact h.inv.frontier x hx (fun hh => hxi (Option.some.inj hh).symm)
  · exact treeInv_mono hshape (by simp) (by simp) (by simp) h.inv.tree
  · exact orphanInv_congr (by simp) (by simp) (by simp) h.inv.orphans

/-- The state handed to `augment` after a growth scan that found a boundary
arc. -/
theorem growInv_found {g : Graph} {i : Nat} {sink : Bool} (h : GrowInv g i sink) (t : Int) :
    Inv ((g.setTIME t).setNext i (some i)) (some i) none none [] ∧
      ((g.setTIME t).setNext i (some i)).orphans = [] ∧
      (((g.setTIME t).setNext i (some i)).nodes i).next ≠ none ∧
      i < ((g.setTIME t).setNext i (some i)).node_num := by
  obtain ⟨q0, q1, hq⟩ := h.inv.queue
  have hshape : SameShape g ((g.setTIME t).setNext i (some i)) :=
    writes_shape (writes_trans (writes_setTIME (K := loopFields) (by decide) g t)
      (writes_setNext (by decide) _ _ _))
  have hq1 : QueueInv (g.setTIME t) (some i) q0 q1 :=
    queueInv_congr hq (by simp) (by simp) (by simp) (by simp)
  refine ⟨⟨wellFormed_sameShape hshape h.inv.wf, ⟨q0, q1, queueInv_setNext_cur hq1 _⟩, ?_, ?_, ?_⟩,
    by simpa using h.orphans, by simp, by simpa using h.bound⟩
  · intro x hx hsk hnx hpx a ha hpos
    by_cases hxi : x = i
    · subst hxi
      simp at hnx
    · have hpf : PassiveFrontier ((g.setTIME t).setNext i (some i)) (some i) none := by
        refine passiveFrontier_mono hshape (by simp) ?_ (by simp) (by simp) h.inv.frontier
        intro y hy
        simp only [setNext_nodes_next, setTIME_nodes] at hy
        split at hy
        · simp at hy
        · exact hy
      exact hpf x hx (fun hh => hxi (Option.some.inj hh).symm) hnx hpx a ha hpos
  · exact treeInv_mono hshape (by simp) (by simp) (by simp) h.inv.tree
  · exact orphanInv_congr (by simp) (by simp) (by simp) h.inv.orphans

end Maxflow

namespace Maxflow

/-! ### Selection of the node to grow from -/

theorem pop_active_nodes_next (g : Graph) (i x : Nat) :
    ((pop_active g i).nodes x).next = if x = i then none else (g.nodes x).next := by
  unfold pop_active
  split <;> simp only [setNext_nodes_next, setQueue0_nodes, setFirst0_nodes]

/-- The passive frontier after a node `i` has been taken out of the queues
(its `next` cleared), the other nodes keeping their `next`. -/
theorem passiveFrontier_clear {g g' : Graph} {i : Nat} (hs : SameShape g g')
    (hr : ∀ a, (g'.arcs a).r_cap = (g.arcs a).r_cap)
    (hn : ∀ x, x ≠ i → (g'.nodes x).next = (g.nodes x).next)
    (hp : ∀ x, (g'.nodes x).parent = (g.nodes x).parent)
    (hk : ∀ x, (g'.nodes x).is_sink = (g.nodes x).is_sink)
    (h : PassiveFrontier g none none) :
    PassiveFrontier g' (some i) none ∧
      ((g'.nodes i).parent = ArcPtr.null → PassiveFrontier g' none none) := by
  have key : ∀ x < g'.node_num, x ≠ i → PFnode g' none x := by
    intro x hx hxi hnx hpx a ha hpos
    rw [hs.node_num] at hx
    rw [hn x hxi] at hnx
    rw [hp] at hpx
    rw [arcs_of_sameShape hs] at ha
    rw [hk, grow_rcap_congr hs hr] at hpos
    rcases h x hx (by simp) hnx hpx a ha hpos with h1 | h1
    · left
      unfold InTree at h1 ⊢
      rw [hs.head, hp, hk, hk]
      exact h1
    · simp at h1
  refine ⟨fun x hx hsk => key x hx (fun hh => hsk (by rw [hh])), ?_⟩
  intro hpi x hx _
  by_cases hxi : x = i
  · subst hxi
    intro _ hpx
    exact absurd hpi hpx
  · exact key x hx hxi

/-- The invariants that `next_active` does not touch but through `next`. -/
theorem next_active_frontier {f : Nat} {g : Graph} {r : Graph × Option Nat}
    (h : next_active f g = Res.ok r) (hpf : PassiveFrontier g none none) :
    PassiveFrontier r.1 r.2 none := by
  refine next_active_rule (fun g' => PassiveFrontier g' none none)
    (fun g' r => PassiveFrontier g' r none) ?_ ?_ ?_ h hpf
  · intro g' hP _
    exact passiveFrontier_mono (writes_shape (writes_refill (K := activeFields) (by decide)
      (by decide) g')) (by simp) (by simp) (by simp) (by simp) hP
  · intro g' i hP _ _
    have hw : Writes activeFields g' (pop_active (refill g') i) :=
      writes_trans (writes_refill (by decide) (by decide) g')
        (writes_pop_active (by decide) (by decide) _ i)
    refine (passiveFrontier_clear (i := i) (writes_shape hw)
      (fun a => by rw [writes_keep_r_cap hw (by decide)])
      ?_ (writes_keep_parent hw (by decide)) (writes_keep_is_sink hw (by decide)) hP).1
    intro x hx
    rw [pop_active_nodes_next, if_neg hx, refill_nodes_next]
  · intro g' i hP _ hpi
    have hw : Writes activeFields g' (pop_active (refill g') i) :=
      writes_trans (writes_refill (by decide) (by decide) g')
        (writes_pop_active (by decide) (by decide) _ i)
    refine (passiveFrontier_clear (i := i) (writes_shape hw)
      (fun a => by rw [writes_keep_r_cap hw (by decide)])
      ?_ (writes_keep_parent hw (by decide)) (writes_keep_is_sink hw (by decide)) hP).2 hpi
    intro x hx
    rw [pop_active_nodes_next, if_neg hx, refill_nodes_next]

/-- The state reached by `next_active` from a resting state: with no node
returned, a resting state with empty queues; with a node `i` returned, a state
ready for the growth scan from `i`. -/
theorem next_active_inv {f : Nat} {g : Graph} {r : Graph × Option Nat}
    (h : next_active f g = Res.ok r) (hI : Inv g none none none []) (ho : g.orphans = []) :
    (r.2 = none → Inv r.1 none none none [] ∧ r.1.orphans = [] ∧
      QueueInv r.1 none [] []) ∧
    (∀ i, r.2 = some i → GrowInv r.1 i (r.1.nodes i).is_sink) := by
  have hw := next_active_writes h
  have hs := writes_shape hw
  obtain ⟨q0, q1, hq⟩ := hI.queue
  have hQ := next_active_queue h hq
  have hpf := next_active_frontier h hI.frontier
  have htree : TreeInv r.1 none :=
    treeInv_mono hs (writes_keep_is_sink hw (by decide))
      (fun x a hx => by rw [← writes_keep_parent hw (by decide)]; exact hx)
      (fun x hx => by rw [writes_keep_parent hw (by decide)]; exact hx) hI.tree
  have horph : OrphanInv r.1 [] :=
    orphanInv_congr (writes_keep_orphans hw (by decide)) hs.node_num
      (fun x hx => by rw [writes_keep_parent hw (by decide)]; exact hx) hI.orphans
  have ho' : r.1.orphans = [] := by rw [writes_keep_orphans hw (by decide)]; exact ho
  constructor
  · intro hr
    rw [hr] at hpf
    exact ⟨⟨wellFormed_sameShape hs hI.wf, ⟨[], [], hQ.1 hr⟩, hpf, htree, horph⟩, ho', hQ.1 hr⟩
  · intro i hr
    rw [hr] at hpf
    obtain ⟨q0', q1', hq', hn, hi, hp⟩ := hQ.2 i hr
    exact ⟨⟨wellFormed_sameShape hs hI.wf, ⟨q0', q1', hq'⟩, hpf, htree, horph⟩, hn, hp, rfl,
      by rw [hs.node_num]; exact hi, ho'⟩

theorem inv_clear_current {g : Graph} {i : Nat} (hI : Inv g (some i) none none [])
    (ho : g.orphans = []) (hi : i < g.node_num) :
    Inv (g.setNext i none) (some i) (some i) none [] ∧
      ((g.nodes i).parent = ArcPtr.null → Inv (g.setNext i none) none none none []) := by
  have hw : Writes activeFields g (g.setNext i none) := writes_setNext (by decide) g i none
  have hs := writes_shape hw
  obtain ⟨q0, q1, hq⟩ := hI.queue
  have hq' := queueInv_setNext_cur hq none
  have hpf := passiveFrontier_clear (i := i) hs (by simp)
    (fun x hx => by simp [hx]) (by simp) (by simp) hI.frontier
  have htree : TreeInv (g.setNext i none) none :=
    treeInv_mono hs (by simp) (by simp) (by simp) hI.tree
  have horph : OrphanInv (g.setNext i none) [] :=
    orphanInv_congr (by simp) (by simp) (by simp) hI.orphans
  refine ⟨⟨wellFormed_sameShape hs hI.wf, ⟨q0, q1, hq'⟩, hpf.1, htree, horph⟩, ?_⟩
  intro hp
  exact ⟨wellFormed_sameShape hs hI.wf, ⟨q0, q1, queueInv_drop_cur hq' (by simp)⟩,
    hpf.2 (by simpa using hp), htree, horph⟩

/-- The selection of the active node: either the solve is over, in a resting
state with empty queues, or the state is ready for the growth scan. -/
theorem pick_active_inv {F : Nat} {g : Graph} {c : Option Nat} {r : Graph × Option Nat}
    (h : pick_active F g c = Res.ok r) (hL : LoopInv g c) :
    (r.2 = none → Inv r.1 none none none [] ∧ r.1.orphans = [] ∧ QueueInv r.1 none [] []) ∧
    (∀ i, r.2 = some i → GrowInv r.1 i (r.1.nodes i).is_sink) := by
  obtain ⟨hI, ho, hc⟩ := hL
  rcases pick_active_cases h with ⟨i, rfl, hp, rfl⟩ | ⟨hcase, hn⟩
  · refine ⟨fun hh => by simp at hh, ?_⟩
    intro j hj
    simp only [Option.some.injEq] at hj
    subst hj
    have := (inv_clear_current hI ho (hc i rfl).2).1
    exact ⟨this, by simp, by simpa using hp, rfl, by simpa using (hc i rfl).2, by simpa using ho⟩
  · rcases hcase with rfl | ⟨i, rfl, hp⟩
    · exact next_active_inv hn hI ho
    · exact next_active_inv hn ((inv_clear_current hI ho (hc i rfl).2).2 hp)
        (by simpa [clear_current] using ho)

end Maxflow

namespace Maxflow

/-! ### Parent walks -/

theorem isPath_unique {g : Graph} {i : Nat} {l l' : List Nat} {r r' : Nat}
    (h : IsPath g i l r) (h' : IsPath g i l' r') : l = l' ∧ r = r' := by
  induction l generalizing i l' with
  | nil =>
    cases l' with
    | nil =>
      simp only [IsPath] at h h'
      exact ⟨rfl, h.2.trans h'.2.symm⟩
    | cons a' l2 =>
      simp only [IsPath] at h h'
      rw [h.1] at h'
      exact absurd h'.1 (by simp)
  | cons a l ih =>
    cases l' with
    | nil =>
      simp only [IsPath] at h h'
      rw [h.1] at h'
      exact absurd h'.1 (by simp)
    | cons a' l2 =>
      simp only [IsPath] at h h'
      have ha : a = a' := by
        have := h.1.symm.trans h'.1
        simpa using this
      subst ha
      obtain ⟨h1, h2⟩ := ih h.2 h'.2
      exact ⟨by rw [h1], h2⟩

theorem isPath_suffix {g : Graph} {i : Nat} {l : List Nat} {r x : Nat}
    (h : IsPath g i l r) (hx : x ∈ pathNodes g i l) :
    ∃ l2, IsPath g x l2 r ∧ l2.length ≤ l.length := by
  induction l generalizing i with
  | nil =>
    simp only [pathNodes, List.map_nil, List.mem_singleton] at hx
    subst hx
    exact ⟨[], h, le_refl _⟩
  | cons a l ih =>
    simp only [pathNodes, List.map_cons, List.mem_cons] at hx
    rcases hx with hx | hx
    · subst hx
      exact ⟨a :: l, h, le_refl _⟩
    · simp only [IsPath] at h
      obtain ⟨l2, h2, hlen⟩ := ih h.2 (by simpa [pathNodes] using hx)
      exact ⟨l2, h2, by simp only [List.length_cons]; omega⟩

/-- A parent walk that reaches a root visits no node twice. -/
theorem isPath_nodup {g : Graph} {i : Nat} {l : List Nat} {r : Nat} (h : IsPath g i l r) :
    (pathNodes g i l).Nodup := by
  induction l generalizing i with
  | nil => simp [pathNodes]
  | cons a l ih =>
    have h0 := h
    simp only [IsPath] at h
    have hrest := ih h.2
    simp only [pathNodes, List.map_cons, List.nodup_cons] at hrest ⊢
    refine ⟨?_, hrest⟩
    intro hmem
    obtain ⟨l2, h2, hlen⟩ := isPath_suffix h.2 (by simpa [pathNodes] using hmem)
    have := (isPath_unique h2 h0).1
    rw [this] at hlen
    simp only [List.length_cons] at hlen
    omega

theorem isPath_congr {g g' : Graph} {i : Nat} {l : List Nat} {r : Nat} (h : IsPath g i l r)
    (hh : ∀ a, (g'.arcs a).head = (g.arcs a).head)
    (hp : ∀ x ∈ pathNodes g i l, (g'.nodes x).parent = (g.nodes x).parent) :
    IsPath g' i l r := by
  induction l generalizing i with
  | nil =>
    simp only [IsPath] at h ⊢
    rw [hp i (by simp [pathNodes])]
    exact h
  | cons a l ih =>
    simp only [IsPath] at h ⊢
    rw [hp i (by simp [pathNodes]), hh]
    refine ⟨h.1, ih h.2 ?_⟩
    intro x hx
    apply hp
    simp only [pathNodes, List.map_cons, List.mem_cons] at hx ⊢
    right
    exact hx

theorem pathNodes_congr {g g' : Graph} (hh : ∀ a, (g'.arcs a).head = (g.arcs a).head)
    (i : Nat) (l : List Nat) : pathNodes g' i l = pathNodes g i l := by
  unfold pathNodes
  simp only [hh]

/-- What tree consistency says of a parent walk: its nodes are in range, on
one side, and have a parent; its arcs are in range and run between its nodes;
and it ends at the root. -/
theorem isPath_facts {g : Graph} {i : Nat} {l : List Nat} {r : Nat} (h : IsPath g i l r)
    (ht : TreeInv g none) (hw : WellFormed g) (hi : i < g.node_num) :
    (∀ x ∈ pathNodes g i l, x < g.node_num ∧ (g.nodes x).is_sink = (g.nodes i).is_sink ∧
        (g.nodes x).parent ≠ ArcPtr.null) ∧
      (∀ a ∈ l, a < g.arc_num ∧ g.tail a ∈ pathNodes g i l ∧
        (g.arcs a).head ∈ pathNodes g i l ∧ (g.nodes (g.tail a)).parent = ArcPtr.arc a) ∧
      r ∈ pathNodes g i l ∧ (g.nodes r).parent = ArcPtr.terminal := by
  induction l generalizing i with
  | nil =>
    simp only [IsPath] at h
    obtain ⟨h1, rfl⟩ := h
    refine ⟨?_, by simp, by simp [pathNodes], h1⟩
    intro x hx
    simp only [pathNodes, List.map_nil, List.mem_singleton] at hx
    subst hx
    exact ⟨hi, rfl, by rw [h1]; simp⟩
  | cons a l ih =>
    simp only [IsPath] at h
    obtain ⟨h1, h2⟩ := h
    obtain ⟨ha, hta, hsk, _⟩ := ht i hi a h1
    obtain ⟨ih1, ih2, ih3, ih4⟩ := ih h2 (hw.head a ha)
    have hsub : ∀ x, x ∈ pathNodes g (g.arcs a).head l → x ∈ pathNodes g i (a :: l) := by
      intro x hx
      simp only [pathNodes, List.map_cons, List.mem_cons] at hx ⊢
      right
      exact hx
    refine ⟨?_, ?_, hsub _ ih3, ih4⟩
    · intro x hx
      simp only [pathNodes, List.map_cons, List.mem_cons] at hx
      rcases hx with hx | hx
      · subst hx
        exact ⟨hi, rfl, by rw [h1]; simp⟩
      · obtain ⟨q1, q2, q3⟩ := ih1 x (by simpa [pathNodes] using hx)
        exact ⟨q1, q2.trans hsk, q3⟩
    · intro a2 ha2
      simp only [List.mem_cons] at ha2
      rcases ha2 with ha2 | ha2
      · subst ha2
        refine ⟨ha, ?_, ?_, ?_⟩
        · rw [hta]
          simp [pathNodes]
        · simp [pathNodes]
        · rw [hta]
          exact h1
      · obtain ⟨q1, q2, q3, q4⟩ := ih2 a2 ha2
        exact ⟨q1, hsub _ q2, hsub _ q3, q4⟩

/-- The arcs further up a parent walk are neither the first parent arc nor its
sister, and their sisters are not either. -/
theorem isPath_fresh {g : Graph} {i a : Nat} {l : List Nat} {r : Nat}
    (h : IsPath g i (a :: l) r) (ht : TreeInv g none) (hw : WellFormed g)
    (hi : i < g.node_num) :
    a ≠ (g.arcs a).sister ∧
      ∀ a2 ∈ l, a2 ≠ a ∧ a2 ≠ (g.arcs a).sister ∧ (g.arcs a2).sister ≠ a ∧
        (g.arcs a2).sister ≠ (g.arcs a).sister := by
  have hnd := isPath_nodup h
  have h0 := h
  simp only [IsPath] at h
  obtain ⟨h1, h2⟩ := h
  obtain ⟨ha, hta, _, _⟩ := ht i hi a h1
  obtain ⟨f1, f2, _, _⟩ := isPath_facts h2 ht hw (hw.head a ha)
  simp only [pathNodes, List.map_cons, List.nodup_cons] at hnd
  have hi' : ∀ x, x ∈ pathNodes g (g.arcs a).head l → x ≠ i := by
    intro x hx hxi
    subst hxi
    exact hnd.1 (by simpa [pathNodes] using hx)
  have hhead : (g.arcs a).head ≠ i := hi' _ (by simp [pathNodes])
  have hsis := hw.sister a ha
  constructor
  · intro hh
    apply hhead
    have : g.tail a = (g.arcs a).head := by
      unfold Graph.tail
      rw [← hh]
    rw [← this, hta]
  · intro a2 ha2
    obtain ⟨q1, q2, q3, _⟩ := f2 a2 ha2
    have hs2 := hw.sister a2 q1
    refine ⟨?_, ?_, ?_, ?_⟩
    · intro hh
      subst hh
      exact hi' _ q2 hta
    · intro hh
      apply hi' _ q3
      rw [hh]
      exact hta
    · intro hh
      apply hi' _ q3
      have : g.tail a = (g.arcs a2).head := by
        unfold Graph.tail
        rw [← hh, hs2.2]
      rw [← this, hta]
    · intro hh
      have : a2 = a := by rw [← hs2.2, hh, hsis.2]
      subst this
      exact hi' _ q2 hta

/-! ### The bottleneck -/

/-- The bottleneck of the source walk is the greatest lower bound of the
starting value, the residuals into the walk, and the terminal residual of its
root. -/
theorem bottleneck_source_spec {g : Graph} {f i : Nat} {b0 b : Int}
    (h : bottleneck_source g f i b0 = Res.ok b) :
    ∃ l r, IsPath g i l r ∧ b ≤ b0 ∧ b ≤ (g.nodes r).tr_cap ∧
      (∀ a ∈ l, b ≤ (g.arcs (g.arcs a).sister).r_cap) ∧
      ∀ c, c ≤ b0 → c ≤ (g.nodes r).tr_cap →
        (∀ a ∈ l, c ≤ (g.arcs (g.arcs a).sister).r_cap) → c ≤ b := by
  induction f generalizing i b0 with
  | zero => simp [bottleneck_source] at h
  | succ n ih =>
    revert h
    simp only [bottleneck_source]
    split
    · rename_i hp
      intro h
      simp only [Res.ok.injEq] at h
      subst h
      refine ⟨[], i, ⟨hp, rfl⟩, ?_, ?_, by simp, ?_⟩
      · split <;> omega
      · split <;> omega
      · intro c h1 h2 _
        split <;> omega
    · rename_i a hp
      intro h
      obtain ⟨l, r, hl, h1, h2, h3, h4⟩ := ih h
      refine ⟨a :: l, r, ⟨hp, hl⟩, ?_, h2, ?_, ?_⟩
      · split at h1 <;> omega
      · intro a2 ha2
        simp only [List.mem_cons] at ha2
        rcases ha2 with ha2 | ha2
        · subst ha2
          split at h1 <;> omega
        · exact h3 a2 ha2
      · intro c c1 c2 c3
        apply h4 c ?_ c2 (fun a2 ha2 => c3 a2 (by simp [ha2]))
        have := c3 a (by simp)
        split <;> omega
    · intro h
      simp at h
    · intro h
      simp at h

/-- The bottleneck of the sink walk. -/
theorem bottleneck_sink_spec {g : Graph} {f i : Nat} {b0 b : Int}
    (h : bottleneck_sink g f i b0 = Res.ok b) :
    ∃ l r, IsPath g i l r ∧ b ≤ b0 ∧ b ≤ - (g.nodes r).tr_cap ∧
      (∀ a ∈ l, b ≤ (g.arcs a).r_cap) ∧
      ∀ c, c ≤ b0 → c ≤ - (g.nodes r).tr_cap →
        (∀ a ∈ l, c ≤ (g.arcs a).r_cap) → c ≤ b := by
  induction f generalizing i b0 with
  | zero => simp [bottleneck_sink] at h
  | succ n ih =>
    revert h
    simp only [bottleneck_sink]
    split
    · rename_i hp
      intro h
      simp only [Res.ok.injEq] at h
      subst h
      refine ⟨[], i, ⟨hp, rfl⟩, ?_, ?_, by simp, ?_⟩
      · split <;> omega
      · split <;> omega
      · intro c h1 h2 _
        split <;> omega
    · rename_i a hp
      intro h
      obtain ⟨l, r, hl, h1, h2, h3, h4⟩ := ih h
      refine ⟨a :: l, r, ⟨hp, hl⟩, ?_, h2, ?_, ?_⟩
      · split at h1 <;> omega
      · intro a2 ha2
        simp only [List.mem_cons] at ha2
        rcases ha2 with ha2 | ha2
        · subst ha2
          split at h1 <;> omega
        · exact h3 a2 ha2
      · intro c c1 c2 c3
        apply h4 c ?_ c2 (fun a2 ha2 => c3 a2 (by simp [ha2]))
        have := c3 a (by simp)
        split <;> omega
    · intro h
      simp at h
    · intro h
      simp at h

end Maxflow

namespace Maxflow

/-! ### Cut capacities under a push -/

theorem push_pair_r_cap (g : Graph) (up down : Nat) (b : Int) (x : Nat) (h : up ≠ down) :
    ((push_pair g up down b).arcs x).r_cap =
      if x = up then (g.arcs up).r_cap + b
      else if x = down then (g.arcs down).r_cap - b else (g.arcs x).r_cap := by
  unfold push_pair
  simp only [setRCap_arcs_r_cap]
  by_cases h1 : x = down
  · subst h1
    simp [Ne.symm h]
  · simp [h1]

theorem push_pair_tail (g : Graph) (up down : Nat) (b : Int) (x : Nat) :
    (push_pair g up down b).tail x = g.tail x := by
  unfold Graph.tail
  simp

theorem sum_range_two_updates {n : Nat} {f f' : Nat → Int} {u d : Nat} {p q : Int}
    (hu : u < n) (hd : d < n) (hne : u ≠ d)
    (h : ∀ a, f' a = if a = u then f a + p else if a = d then f a + q else f a) :
    ∑ a ∈ Finset.range n, f' a = ∑ a ∈ Finset.range n, f a + p + q := by
  have h2 : ∀ a, f' a = f a + (if a = u then p else 0) + (if a = d then q else 0) := by
    intro a
    rw [h a]
    by_cases h1 : a = u
    · subst h1
      simp [hne]
    · by_cases h3 : a = d
      · subst h3
        simp [h1]
      · simp [h1, h3]
  simp only [h2, Finset.sum_add_distrib, Finset.sum_ite_eq', Finset.mem_range, hu, hd, if_true]

theorem sum_range_one_update {n : Nat} {f f' : Nat → Int} {u : Nat} {p : Int}
    (hu : u < n) (h : ∀ a, f' a = if a = u then f a + p else f a) :
    ∑ a ∈ Finset.range n, f' a = ∑ a ∈ Finset.range n, f a + p := by
  have h2 : ∀ a, f' a = f a + (if a = u then p else 0) := by
    intro a
    rw [h a]
    by_cases h1 : a = u
    · subst h1
      simp
    · simp [h1]
  simp only [h2, Finset.sum_add_distrib, Finset.sum_ite_eq', Finset.mem_range, hu, if_true]

/-- A push of `b` over the pair `up`, `down = up->sister` changes the arc
capacity of a cut `S` by `b` times the difference of the indicators of the two
ends of `up`. -/
theorem arcCut_push_pair {g : Graph} {up down : Nat} (b : Int) (S : Nat → Bool)
    (hu : up < g.arc_num) (hd : down < g.arc_num) (hne : up ≠ down)
    (h1 : (g.arcs up).sister = down) (h2 : (g.arcs down).sister = up) :
    arcCut (push_pair g up down b) S =
      arcCut g S + b * (ind S (g.tail up) - ind S (g.arcs up).head) := by
  unfold arcCut
  have htd : g.tail down = (g.arcs up).head := by
    unfold Graph.tail
    rw [h2]
  have hhd : (g.arcs down).head = g.tail up := by
    unfold Graph.tail
    rw [h1]
  rw [push_pair_arc_num]
  rw [sum_range_two_updates hu hd hne (f := fun a =>
      if S (g.tail a) = true ∧ S (g.arcs a).head = false then (g.arcs a).r_cap else 0)
    (p := if S (g.tail up) = true ∧ S (g.arcs up).head = false then b else 0)
    (q := if S (g.tail down) = true ∧ S (g.arcs down).head = false then -b else 0)]
  · rw [htd, hhd]
    unfold ind
    cases S (g.tail up) <;> cases S (g.arcs up).head <;> simp
  · intro a
    simp only [push_pair_tail, push_pair_arcs_head, push_pair_r_cap g up down b a hne]
    by_cases ha : a = up
    · subst ha
      simp only [if_true]
      split <;> simp
    · by_cases ha2 : a = down
      · subst ha2
        simp only [ha, if_false, if_true]
        split <;> simp [sub_eq_add_neg]
      · simp [ha, ha2]

/-- The terminal part of a cut capacity after `tr_cap` of the node `r` is set
to `v`. -/
theorem termCut_setTrCap {g : Graph} {r : Nat} (v : Int) (S : Nat → Bool)
    (hr : r < g.node_num) :
    termCut (g.setTrCap r v) S =
      termCut g S +
        ((if S r = true then max (-v) 0 else max v 0) -
          (if S r = true then max (- (g.nodes r).tr_cap) 0 else max (g.nodes r).tr_cap 0)) := by
  unfold termCut
  rw [setTrCap_node_num]
  rw [sum_range_one_update hr (f := fun x =>
      if S x = true then max (- (g.nodes x).tr_cap) 0 else max (g.nodes x).tr_cap 0)]
  intro a
  simp only [setTrCap_nodes_tr_cap]
  by_cases ha : a = r
  · subst ha
    simp
  · simp [ha]

theorem arcCut_congr {g g' : Graph} (hs : SameShape g g')
    (hr : ∀ a, (g'.arcs a).r_cap = (g.arcs a).r_cap) (S : Nat → Bool) :
    arcCut g' S = arcCut g S := by
  unfold arcCut
  rw [hs.arc_num]
  refine Finset.sum_congr rfl ?_
  intro a _
  rw [tail_sameShape hs, hs.head, hr]

theorem termCut_congr {g g' : Graph} (hs : SameShape g g')
    (hr : ∀ x, (g'.nodes x).tr_cap = (g.nodes x).tr_cap) (S : Nat → Bool) :
    termCut g' S = termCut g S := by
  unfold termCut
  rw [hs.node_num]
  refine Finset.sum_congr rfl ?_
  intro a _
  rw [hr]

theorem cutCap_congr {g g' : Graph} (hs : SameShape g g')
    (hr : ∀ a, (g'.arcs a).r_cap = (g.arcs a).r_cap)
    (ht : ∀ x, (g'.nodes x).tr_cap = (g.nodes x).tr_cap) (S : Nat → Bool) :
    cutCap g' S = cutCap g S := by
  unfold cutCap
  rw [arcCut_congr hs hr, termCut_congr hs ht]

/-- A state change that writes neither residuals nor terminal residuals keeps
every cut capacity. -/
theorem cutCap_of_writes {K : List Field} {g g' : Graph} (hw : Writes K g g')
    (h1 : Field.r_cap ∉ K) (h2 : Field.tr_cap ∉ K) (S : Nat → Bool) :
    cutCap g' S = cutCap g S :=
  cutCap_congr (writes_shape hw) (fun a => by rw [writes_keep_r_cap hw h1])
    (writes_keep_tr_cap hw h2) S

end Maxflow

namespace Maxflow

/-! ### The invariants under the primitive steps of `augment` -/

theorem augRel_refl (g : Graph) : AugRel g g :=
  ⟨Writes.refl g, fun _ => Or.inl rfl⟩

theorem augRel_trans {g g' g'' : Graph} (h : AugRel g g') (h' : AugRel g' g'') :
    AugRel g g'' := by
  refine ⟨writes_trans h.writes h'.writes, ?_⟩
  intro x
  rcases h'.parent x with h1 | ⟨h1, h2, h3⟩
  · rw [h1]
    exact h.parent x
  · rcases h.parent x with h4 | ⟨h4, h5, h6⟩
    · rw [h4] at h1 h2
      exact Or.inr ⟨h1, h2, h3⟩
    · exact absurd h6 h2

theorem AugRel.parent_null {g g' : Graph} (h : AugRel g g') (x : Nat) :
    (g'.nodes x).parent = ArcPtr.null ↔ (g.nodes x).parent = ArcPtr.null := by
  rcases h.parent x with h1 | ⟨h1, _, h3⟩
  · rw [h1]
  · rw [h3]
    constructor
    · intro hh
      exact absurd hh (by simp)
    · intro hh
      exact absurd hh h1

theorem AugRel.parent_arc {g g' : Graph} (h : AugRel g g') (x a : Nat)
    (hp : (g'.nodes x).parent = ArcPtr.arc a) : (g.nodes x).parent = ArcPtr.arc a := by
  rcases h.parent x with h1 | ⟨_, _, h3⟩
  · rw [← h1]
    exact hp
  · rw [h3] at hp
    exact absurd hp (by simp)

theorem AugRel.parent_terminal {g g' : Graph} (h : AugRel g g') (x : Nat)
    (hp : (g'.nodes x).parent = ArcPtr.terminal) : (g.nodes x).parent = ArcPtr.terminal := by
  rcases h.parent x with h1 | ⟨_, _, h3⟩
  · rw [← h1]
    exact hp
  · rw [h3] at hp
    exact absurd hp (by simp)

theorem sideFrame_refl (s : Bool) (g : Graph) : SideFrame s g g :=
  ⟨fun _ _ => rfl, fun _ _ => rfl, fun _ _ _ => rfl⟩

theorem sideFrame_trans {s : Bool} {g g' g'' : Graph} (hr : AugRel g g')
    (h : SideFrame s g g') (h' : SideFrame s g' g'') : SideFrame s g g'' := by
  have hs := writes_shape hr.writes
  have hk := writes_keep_is_sink hr.writes (by decide)
  refine ⟨?_, ?_, ?_⟩
  · intro x hx
    rw [h'.parent x (by rw [hk]; exact hx), h.parent x hx]
  · intro x hx
    rw [h'.tr_cap x (by rw [hk]; exact hx), h.tr_cap x hx]
  · intro e h1 h2
    rw [h'.r_cap e (by rw [hk, tail_sameShape hs]; exact h1)
      (by rw [hk, hs.head]; exact h2), h.r_cap e h1 h2]

/-- The passive frontier survives a change of residuals at push-safe arcs. -/
theorem passiveFrontier_push {g g' : Graph} {skip : Option Nat} (hw : WellFormed g)
    (hs : SameShape g g') (hn : ∀ x, (g'.nodes x).next = (g.nodes x).next)
    (hk : ∀ x, (g'.nodes x).is_sink = (g.nodes x).is_sink)
    (hp : ∀ x, (g'.nodes x).parent = ArcPtr.null ↔ (g.nodes x).parent = ArcPtr.null)
    (hch : ∀ e < g.arc_num, (g'.arcs e).r_cap ≠ (g.arcs e).r_cap → PushSafe g e)
    (h : PassiveFrontier g skip none) : PassiveFrontier g' skip none := by
  intro x hx hsk hnx hpx a ha hpos
  rw [hs.node_num] at hx
  rw [hn] at hnx
  rw [arcs_of_sameShape hs] at ha
  have hpx' : (g.nodes x).parent ≠ ArcPtr.null := fun hh => hpx ((hp x).2 hh)
  obtain ⟨ha1, ha2, ha3, ha4, ha5, ha6, ha7⟩ := hw.mem_arcs_of hx ha
  left
  have hin : InTree g (g.nodes x).is_sink (g.arcs a).head := by
    by_cases hsame : grow_rcap g' (g'.nodes x).is_sink a = grow_rcap g (g.nodes x).is_sink a
    · rw [hsame] at hpos
      rcases h x hx hsk hnx hpx' a ha hpos with h1 | h1
      · exact h1
      · simp at h1
    · rw [hk] at hsame
      unfold grow_rcap at hsame
      rw [hs.sister] at hsame
      cases hsx : (g.nodes x).is_sink with
      | false =>
        rw [hsx] at hsame
        simp only [Bool.false_eq_true, if_false] at hsame
        rcases hch a ha1 hsame with ⟨h1, _⟩ | ⟨h1, _⟩
        · rw [ha2, hsx] at h1
          exact h1
        · rw [ha2] at h1
          rcases h1 with h1 | h1
          · exact absurd hnx h1
          · rw [hsx] at h1
            exact absurd h1 (by simp)
      | true =>
        rw [hsx] at hsame
        simp only [if_true] at hsame
        rcases hch _ ha4 hsame with ⟨_, h1⟩ | ⟨_, h1⟩
        · rw [ha7, hsx, hw.tail_sister ha1] at h1
          exact h1
        · rw [ha7] at h1
          rcases h1 with h1 | h1
          · exact absurd hnx h1
          · rw [hsx] at h1
            exact absurd h1 (by simp)
  unfold InTree at hin ⊢
  rw [hs.head, hk, hk]
  exact ⟨fun hh => hin.1 ((hp _).1 hh), hin.2⟩

/-- The structural invariants survive a step of `augment` that changes
residuals only at push-safe arcs and keeps the orphans sound. -/
theorem inv_augRel {g g' : Graph} {c : Option Nat} (hr : AugRel g g')
    (hch : ∀ e < g.arc_num, (g'.arcs e).r_cap ≠ (g.arcs e).r_cap → PushSafe g e)
    (ho : OrphanInv g' []) (h : Inv g c none none []) : Inv g' c none none [] := by
  have hs := writes_shape hr.writes
  obtain ⟨q0, q1, hq⟩ := h.queue
  refine ⟨wellFormed_sameShape hs h.wf,
    ⟨q0, q1, queueInv_of_writes hq hr.writes (by decide) (by decide) (by decide)⟩, ?_, ?_, ho⟩
  · exact passiveFrontier_push h.wf hs (writes_keep_next hr.writes (by decide))
      (writes_keep_is_sink hr.writes (by decide)) hr.parent_null hch h.frontier
  · exact treeInv_mono hs (writes_keep_is_sink hr.writes (by decide)) hr.parent_arc
      (fun x hx hh => hx ((hr.parent_null x).1 hh)) h.tree

theorem augRel_orphan_front (g : Graph) (i : Nat) (hp : (g.nodes i).parent ≠ ArcPtr.null)
    (hpo : (g.nodes i).parent ≠ ArcPtr.orphan) : AugRel g (set_orphan_front g i) := by
  refine ⟨writes_set_orphan_front (by decide) (by decide) g i, ?_⟩
  intro x
  rw [set_orphan_front_nodes_parent]
  by_cases hx : x = i
  · subst hx
    right
    simp [hp, hpo]
  · left
    simp [hx]

end Maxflow

namespace Maxflow

/-- The push over an arc pair whose two arcs are push-safe. -/
theorem pair_push {g : Graph} {c : Option Nat} {up down : Nat} {b : Int} (h : AugInv g c)
    (hu : up < g.arc_num) (hd : down < g.arc_num) (hne : up ≠ down) (hb : 0 ≤ b)
    (hbd : b ≤ (g.arcs down).r_cap) (hsu : PushSafe g up) (hsd : PushSafe g down)
    (h1 : (g.arcs up).sister = down) (h2 : (g.arcs down).sister = up) :
    AugRel g (push_pair g up down b) ∧ AugInv (push_pair g up down b) c ∧
      (Terminals g → Terminals (push_pair g up down b)) ∧
      (∀ S, arcCut (push_pair g up down b) S =
        arcCut g S + b * (ind S (g.tail up) - ind S (g.arcs up).head)) ∧
      (∀ S, termCut (push_pair g up down b) S = termCut g S) := by
  have hr : AugRel g (push_pair g up down b) :=
    ⟨writes_push_pair (by decide) g up down b, fun x => Or.inl (by simp)⟩
  have hs := writes_shape hr.writes
  refine ⟨hr, ⟨?_, ?_⟩, ?_, ?_, ?_⟩
  · refine inv_augRel hr ?_ (orphanInv_congr (by simp) (by simp) (by simp) h.inv.orphans) h.inv
    intro e _ he
    rw [push_pair_r_cap g up down b e hne] at he
    by_cases he1 : e = up
    · rw [he1]
      exact hsu
    · by_cases he2 : e = down
      · rw [he2]
        exact hsd
      · simp [he1, he2] at he
  · refine ⟨?_, ?_, ?_⟩
    · intro e he
      rw [push_pair_arc_num] at he
      rw [push_pair_r_cap g up down b e hne]
      have := h.resid.nonneg e he
      have := h.resid.nonneg up hu
      split
      · omega
      · split
        · omega
        · assumption
    · intro x hx hp hk
      simp only [push_pair_nodes, push_pair_node_num] at hx hp hk ⊢
      exact h.resid.source x hx hp hk
    · intro x hx hp hk
      simp only [push_pair_nodes, push_pair_node_num] at hx hp hk ⊢
      exact h.resid.sink x hx hp hk
  · intro ht
    refine ⟨?_, ?_⟩
    · intro x hx hp
      simp only [push_pair_nodes, push_pair_node_num] at hx hp ⊢
      exact ht.pos x hx hp
    · intro x hx hp
      simp only [push_pair_nodes, push_pair_node_num] at hx hp ⊢
      exact ht.neg x hx hp
  · intro S
    exact arcCut_push_pair b S hu hd hne h1 h2
  · intro S
    exact termCut_congr hs (by simp) S

/-- A tree node that is neither free nor an orphan is made an orphan. -/
theorem orphan_push {g : Graph} {c : Option Nat} {i : Nat} (h : AugInv g c)
    (hi : i < g.node_num) (hp : (g.nodes i).parent ≠ ArcPtr.null)
    (hpo : (g.nodes i).parent ≠ ArcPtr.orphan) :
    AugRel g (set_orphan_front g i) ∧ AugInv (set_orphan_front g i) c ∧
      (Terminals g → (g.nodes i).tr_cap = 0 → Terminals (set_orphan_front g i)) ∧
      (∀ S, arcCut (set_orphan_front g i) S = arcCut g S) ∧
      (∀ S, termCut (set_orphan_front g i) S = termCut g S) := by
  have hr := augRel_orphan_front g i hp hpo
  have hs := writes_shape hr.writes
  refine ⟨hr, ⟨?_, ?_⟩, ?_, ?_, ?_⟩
  · refine inv_augRel hr ?_ ?_ h.inv
    · intro e _ he
      simp at he
    · exact orphanInv_push (Or.inl (by simp)) (by simp) hi hpo (by simp) h.inv.orphans
  · refine ⟨?_, ?_, ?_⟩
    · intro e he
      simp only [set_orphan_front_arcs, set_orphan_front_arc_num] at he ⊢
      exact h.resid.nonneg e he
    · intro x hx hpx hk
      simp only [set_orphan_front_nodes_parent, set_orphan_front_nodes_is_sink,
        set_orphan_front_nodes_tr_cap, set_orphan_front_node_num] at hx hpx hk ⊢
      split at hpx
      · exact absurd hpx (by simp)
      · exact h.resid.source x hx hpx hk
    · intro x hx hpx hk
      simp only [set_orphan_front_nodes_parent, set_orphan_front_nodes_is_sink,
        set_orphan_front_nodes_tr_cap, set_orphan_front_node_num] at hx hpx hk ⊢
      split at hpx
      · exact absurd hpx (by simp)
      · exact h.resid.sink x hx hpx hk
  · intro ht h0
    refine ⟨?_, ?_⟩
    · intro x hx hpx
      simp only [set_orphan_front_nodes_parent, set_orphan_front_nodes_is_sink,
        set_orphan_front_nodes_tr_cap, set_orphan_front_node_num] at hx hpx ⊢
      by_cases hxi : x = i
      · subst hxi
        omega
      · simp only [hxi, if_false]
        exact ht.pos x hx hpx
    · intro x hx hpx
      simp only [set_orphan_front_nodes_parent, set_orphan_front_nodes_is_sink,
        set_orphan_front_nodes_tr_cap, set_orphan_front_node_num] at hx hpx ⊢
      by_cases hxi : x = i
      · subst hxi
        omega
      · simp only [hxi, if_false]
        exact ht.neg x hx hpx
  · intro S
    exact arcCut_congr hs (by simp) S
  · intro S
    exact termCut_congr hs (by simp) S

/-- In a state with the terminal invariants, a node below a parent arc has no
terminal residual. -/
theorem Terminals.arc_zero {g : Graph} (ht : Terminals g) {i a : Nat} (hi : i < g.node_num)
    (hp : (g.nodes i).parent = ArcPtr.arc a) : (g.nodes i).tr_cap = 0 := by
  by_contra hne
  rcases lt_or_gt_of_ne hne with h1 | h1
  · have := (ht.neg i hi h1).1
    rw [hp] at this
    exact absurd this (by simp)
  · have := (ht.pos i hi h1).1
    rw [hp] at this
    exact absurd this (by simp)

end Maxflow

namespace Maxflow

/-- The push over the parent arc `a` of node `i` (one of `a`, `a->sister` gains
`b`, the other loses it), after which `i` may be made an orphan. -/
theorem tree_push {g : Graph} {c : Option Nat} {i a up down : Nat} {b : Int}
    (h : AugInv g c) (hi : i < g.node_num) (hp : (g.nodes i).parent = ArcPtr.arc a)
    (hne : a ≠ (g.arcs a).sister)
    (hud : (up = a ∧ down = (g.arcs a).sister) ∨ (up = (g.arcs a).sister ∧ down = a))
    (hb : 0 ≤ b) (hbd : b ≤ (g.arcs down).r_cap) (g' : Graph)
    (hg : g' = push_pair g up down b ∨ g' = set_orphan_front (push_pair g up down b) i) :
    AugRel g g' ∧ AugInv g' c ∧ (Terminals g → Terminals g') ∧
      SideFrame (!(g.nodes i).is_sink) g g' ∧
      (∀ S, arcCut g' S = arcCut g S + b * (ind S (g.tail up) - ind S (g.arcs up).head)) ∧
      (∀ S, termCut g' S = termCut g S) ∧
      (∀ x, x ≠ i → (g'.nodes x).parent = (g.nodes x).parent) ∧
      (∀ e, e ≠ a → e ≠ (g.arcs a).sister → (g'.arcs e).r_cap = (g.arcs e).r_cap) ∧
      (∀ x, (g'.nodes x).tr_cap = (g.nodes x).tr_cap) := by
  obtain ⟨ha, hta, hsk, hpn⟩ := h.inv.tree i hi a hp
  replace hpn : (g.nodes (g.arcs a).head).parent ≠ ArcPtr.null := by
    rcases hpn with hpn | hpn
    · exact hpn
    · exact absurd hpn (by simp)
  obtain ⟨hsa, hss⟩ := h.inv.wf.sister a ha
  have hts : g.tail (g.arcs a).sister = (g.arcs a).head := h.inv.wf.tail_sister ha
  have hhs : (g.arcs (g.arcs a).sister).head = i := hta
  have hpi : (g.nodes i).parent ≠ ArcPtr.null := by rw [hp]; simp
  have hpio : (g.nodes i).parent ≠ ArcPtr.orphan := by rw [hp]; simp
  have hsafe1 : PushSafe g a := by
    left
    rw [hta]
    exact ⟨⟨hpn, hsk⟩, ⟨hpi, hsk.symm⟩⟩
  have hsafe2 : PushSafe g (g.arcs a).sister := by
    left
    rw [hts, hhs]
    exact ⟨⟨hpi, hsk.symm⟩, ⟨hpn, hsk⟩⟩
  have hu : up < g.arc_num := by
    rcases hud with ⟨h1, _⟩ | ⟨h1, _⟩ <;> rw [h1] <;> assumption
  have hd : down < g.arc_num := by
    rcases hud with ⟨_, h1⟩ | ⟨_, h1⟩ <;> rw [h1] <;> assumption
  have hne' : up ≠ down := by
    rcases hud with ⟨h1, h2⟩ | ⟨h1, h2⟩ <;> rw [h1, h2]
    · exact hne
    · exact Ne.symm hne
  have hsu : PushSafe g up := by
    rcases hud with ⟨h1, _⟩ | ⟨h1, _⟩ <;> rw [h1] <;> assumption
  have hsd : PushSafe g down := by
    rcases hud with ⟨_, h1⟩ | ⟨_, h1⟩ <;> rw [h1] <;> assumption
  have h1 : (g.arcs up).sister = down := by
    rcases hud with ⟨h1, h2⟩ | ⟨h1, h2⟩ <;> rw [h1, h2]
    exact hss
  have h2 : (g.arcs down).sister = up := by
    rcases hud with ⟨h1, h2⟩ | ⟨h1, h2⟩ <;> rw [h1, h2]
    exact hss
  have hfr : ∀ e, e ≠ a → e ≠ (g.arcs a).sister → e ≠ up ∧ e ≠ down := by
    intro e e1 e2
    rcases hud with ⟨h1, h2⟩ | ⟨h1, h2⟩ <;> rw [h1, h2]
    · exact ⟨e1, e2⟩
    · exact ⟨e2, e1⟩
  obtain ⟨r1, i1, t1, c1, d1⟩ := pair_push h hu hd hne' hb hbd hsu hsd h1 h2
  have hrc : ∀ e, e ≠ a → e ≠ (g.arcs a).sister →
      ((push_pair g up down b).arcs e).r_cap = (g.arcs e).r_cap := by
    intro e e1 e2
    obtain ⟨e3, e4⟩ := hfr e e1 e2
    rw [push_pair_r_cap g up down b e hne']
    simp [e3, e4]
  have hside : ∀ e, (g.nodes (g.tail e)).is_sink = (!(g.nodes i).is_sink) →
      (g.nodes (g.arcs e).head).is_sink = (!(g.nodes i).is_sink) →
      e ≠ a ∧ e ≠ (g.arcs a).sister := by
    intro e e1 e2
    constructor
    · intro hh
      rw [hh, hta] at e1
      cases hk : (g.nodes i).is_sink <;> rw [hk] at e1 <;> simp at e1
    · intro hh
      rw [hh, hhs] at e2
      cases hk : (g.nodes i).is_sink <;> rw [hk] at e2 <;> simp at e2
  rcases hg with hg | hg
  · subst hg
    refine ⟨r1, i1, t1, ⟨fun x _ => by simp, fun x _ => by simp, ?_⟩, c1, d1,
      fun x _ => by simp, hrc, fun x => by simp⟩
    intro e e1 e2
    exact hrc e (hside e e1 e2).1 (hside e e1 e2).2
  · subst hg
    have hi1 : i < (push_pair g up down b).node_num := by simpa using hi
    obtain ⟨r2, i2, t2, c2, d2⟩ := orphan_push i1 hi1 (by simpa using hpi) (by simpa using hpio)
    refine ⟨augRel_trans r1 r2, i2, ?_, ⟨?_, fun x _ => by simp, ?_⟩, ?_, ?_, ?_, ?_,
      fun x => by simp⟩
    · intro ht
      exact t2 (t1 ht) (by simpa using ht.arc_zero hi hp)
    · intro x hx
      have hxi : x ≠ i := by
        intro hh
        rw [hh] at hx
        cases hk : (g.nodes i).is_sink <;> rw [hk] at hx <;> simp at hx
      simp [hxi]
    · intro e e1 e2
      simpa using hrc e (hside e e1 e2).1 (hside e e1 e2).2
    · intro S
      rw [c2, c1]
    · intro S
      rw [d2, d1]
    · intro x hx
      simp [hx]
    · intro e e1 e2
      simpa using hrc e e1 e2

/-- The update of a root at the end of a push loop. -/
theorem root_push {g : Graph} {c : Option Nat} {r : Nat} {d : Int} (h : AugInv g c)
    (hr : r < g.node_num) (hp : (g.nodes r).parent = ArcPtr.terminal)
    (h1 : (g.nodes r).is_sink = false → 0 ≤ (g.nodes r).tr_cap + d)
    (h2 : (g.nodes r).is_sink = true → (g.nodes r).tr_cap + d ≤ 0) :
    AugRel g (push_root g r d) ∧ AugInv (push_root g r d) c ∧
      (Terminals g → Terminals (push_root g r d)) ∧
      SideFrame (!(g.nodes r).is_sink) g (push_root g r d) ∧
      (∀ S, arcCut (push_root g r d) S = arcCut g S) ∧
      (∀ S, termCut (push_root g r d) S = termCut g S +
        ((if S r = true then max (-((g.nodes r).tr_cap + d)) 0
            else max ((g.nodes r).tr_cap + d) 0) -
          (if S r = true then max (- (g.nodes r).tr_cap) 0 else max (g.nodes r).tr_cap 0))) := by
  have hpar : ∀ x, ((push_root g r d).nodes x).parent =
      if x = r ∧ (g.nodes r).tr_cap + d = 0 then ArcPtr.orphan else (g.nodes x).parent := by
    intro x
    unfold push_root
    simp only [setTrCap_nodes_tr_cap, if_true]
    by_cases h0 : (g.nodes r).tr_cap + d = 0
    · simp only [h0, if_true, set_orphan_front_nodes_parent, setTrCap_nodes_parent, and_true]
    · simp only [h0, if_false, setTrCap_nodes_parent, and_false]
  have htr : ∀ x, ((push_root g r d).nodes x).tr_cap =
      if x = r then (g.nodes r).tr_cap + d else (g.nodes x).tr_cap := by
    intro x
    unfold push_root
    simp only [setTrCap_nodes_tr_cap, if_true]
    split <;> simp
  have hrel : AugRel g (push_root g r d) := by
    refine ⟨writes_push_root g r d, ?_⟩
    intro x
    rw [hpar]
    split
    · rename_i hx
      right
      rw [hx.1, hp]
      simp
    · left
      rfl
  have hs := writes_shape hrel.writes
  have horph : OrphanInv (push_root g r d) [] := by
    by_cases h0 : (g.nodes r).tr_cap + d = 0
    · refine orphanInv_push (j := r) (Or.inl ?_) (by simp) hr (by rw [hp]; simp) ?_
        h.inv.orphans
      · unfold push_root
        simp [h0]
      · intro x
        rw [hpar]
        simp [h0]
    · refine orphanInv_congr ?_ (by simp) ?_ h.inv.orphans
      · unfold push_root
        simp [h0]
      · intro x hx
        rw [hpar]
        simp [h0, hx]
  refine ⟨hrel, ⟨?_, ?_⟩, ?_, ⟨?_, ?_, fun e _ _ => by simp⟩, ?_, ?_⟩
  · refine inv_augRel hrel ?_ horph h.inv
    intro e _ he
    simp at he
  · refine ⟨?_, ?_, ?_⟩
    · intro e he
      simp only [push_root_arcs, push_root_arc_num] at he ⊢
      exact h.resid.nonneg e he
    · intro x hx hpx hk
      rw [hpar] at hpx
      rw [htr]
      simp only [push_root_nodes_is_sink, push_root_node_num] at hx hk
      by_cases hxr : x = r
      · subst hxr
        simp only [true_and, if_true] at hpx ⊢
        split at hpx
        · exact absurd hpx (by simp)
        · rename_i h0
          have := h1 hk
          omega
      · simp only [hxr, false_and, if_false] at hpx ⊢
        exact h.resid.source x hx hpx hk
    · intro x hx hpx hk
      rw [hpar] at hpx
      rw [htr]
      simp only [push_root_nodes_is_sink, push_root_node_num] at hx hk
      by_cases hxr : x = r
      · subst hxr
        simp only [true_and, if_true] at hpx ⊢
        split at hpx
        · exact absurd hpx (by simp)
        · rename_i h0
          have := h2 hk
          omega
      · simp only [hxr, false_and, if_false] at hpx ⊢
        exact h.resid.sink x hx hpx hk
  · intro ht
    refine ⟨?_, ?_⟩
    · intro x hx hpx
      rw [htr] at hpx
      rw [hpar]
      simp only [push_root_nodes_is_sink, push_root_node_num] at hx ⊢
      by_cases hxr : x = r
      · subst hxr
        simp only [if_true] at hpx
        have h0 : ¬ ((g.nodes x).tr_cap + d = 0) := by omega
        simp only [h0, and_false, if_false]
        refine ⟨hp, ?_⟩
        cases hk : (g.nodes x).is_sink with
        | false => rfl
        | true =>
          have := h2 hk
          omega
      · simp only [hxr, if_false] at hpx
        simp only [hxr, false_and, if_false]
        exact ht.pos x hx hpx
    · intro x hx hpx
      rw [htr] at hpx
      rw [hpar]
      simp only [push_root_nodes_is_sink, push_root_node_num] at hx ⊢
      by_cases hxr : x = r
      · subst hxr
        simp only [if_true] at hpx
        have h0 : ¬ ((g.nodes x).tr_cap + d = 0) := by omega
        simp only [h0, and_false, if_false]
        refine ⟨hp, ?_⟩
        cases hk : (g.nodes x).is_sink with
        | true => rfl
        | false =>
          have := h1 hk
          omega
      · simp only [hxr, if_false] at hpx
        simp only [hxr, false_and, if_false]
        exact ht.neg x hx hpx
  · intro x hx
    have hxr : x ≠ r := by
      intro hh
      rw [hh] at hx
      cases hk : (g.nodes r).is_sink <;> rw [hk] at hx <;> simp at hx
    rw [hpar]
    simp [hxr]
  · intro x hx
    have hxr : x ≠ r := by
      intro hh
      rw [hh] at hx
      cases hk : (g.nodes r).is_sink <;> rw [hk] at hx <;> simp at hx
    rw [htr]
    simp [hxr]
  · intro S
    exact arcCut_congr hs (by simp) S
  · intro S
    have hc : termCut (push_root g r d) S =
        termCut (g.setTrCap r ((g.nodes r).tr_cap + d)) S := by
      unfold push_root
      split
      · exact termCut_congr (writes_shape (writes_set_orphan_front (K := augmentFields)
          (by decide) (by decide) _ _)) (by simp) S
      · rfl
    rw [hc, termCut_setTrCap _ S hr]

end Maxflow

namespace Maxflow

/-! ### The push loops of `augment` -/

theorem isPath_cons_of_parent {g : Graph} {i a : Nat} {l : List Nat} {r : Nat}
    (h : IsPath g i l r) (hp : (g.nodes i).parent = ArcPtr.arc a) :
    ∃ l2, l = a :: l2 ∧ IsPath g (g.arcs a).head l2 r := by
  cases l with
  | nil =>
    simp only [IsPath] at h
    rw [hp] at h
    exact absurd h.1 (by simp)
  | cons a' l2 =>
    simp only [IsPath] at h
    have : a' = a := by
      have := h.1.symm.trans hp
      simpa using this
    subst this
    exact ⟨l2, rfl, h.2⟩

theorem isPath_nil_of_parent {g : Graph} {i : Nat} {l : List Nat} {r : Nat}
    (h : IsPath g i l r) (hp : (g.nodes i).parent = ArcPtr.terminal) : l = [] ∧ r = i := by
  cases l with
  | nil =>
    simp only [IsPath] at h
    exact ⟨rfl, h.2⟩
  | cons a' l2 =>
    simp only [IsPath] at h
    rw [hp] at h
    exact absurd h.1 (by simp)

/-- Loop 2a of `augment` with the root update: the invariants are kept, the
sink side is untouched, and every cut capacity changes by `b` times the
indicator of the start node, minus `b`. -/
theorem push_source_inv {b : Int} {f : Nat} {g0 g3 : Graph} {i0 : Nat} {c : Option Nat}
    (h : push_source b f g0 i0 = Res.ok g3) (hI : AugInv g0 c) (hb : 0 ≤ b)
    (hi : i0 < g0.node_num) (hk : (g0.nodes i0).is_sink = false)
    {l : List Nat} {r : Nat} (hpath : IsPath g0 i0 l r)
    (hbl : ∀ a ∈ l, b ≤ (g0.arcs (g0.arcs a).sister).r_cap)
    (hbr : b ≤ (g0.nodes r).tr_cap) :
    AugRel g0 g3 ∧ AugInv g3 c ∧ (Terminals g0 → Terminals g3) ∧ SideFrame true g0 g3 ∧
      g3.flow = g0.flow ∧ (∀ S, cutCap g3 S = cutCap g0 S + b * ind S i0 - b) := by
  refine push_source_rule
    (fun g' i' => AugRel g0 g' ∧ AugInv g' c ∧ (Terminals g0 → Terminals g') ∧
      SideFrame true g0 g' ∧ g'.flow = g0.flow ∧
      (∀ S, arcCut g' S + b * ind S i' = arcCut g0 S + b * ind S i0) ∧
      (∀ S, termCut g' S = termCut g0 S) ∧ i' < g'.node_num ∧ (g'.nodes i').is_sink = false ∧
      ∃ l r, IsPath g' i' l r ∧ (∀ a ∈ l, b ≤ (g'.arcs (g'.arcs a).sister).r_cap) ∧
        b ≤ (g'.nodes r).tr_cap)
    (fun g' => AugRel g0 g' ∧ AugInv g' c ∧ (Terminals g0 → Terminals g') ∧
      SideFrame true g0 g' ∧ g'.flow = g0.flow ∧
      (∀ S, cutCap g' S = cutCap g0 S + b * ind S i0 - b)) ?_ ?_ h
    ⟨augRel_refl g0, hI, fun ht => ht, sideFrame_refl true g0, rfl, fun _ => rfl, fun _ => rfl,
      hi, hk, l, r, hpath, hbl, hbr⟩
  · rintro g' i' a ⟨hrel, hinv, hT, hsf, hfl, hcut, hterm, hi', hk', l', r', hp', hbl', hbr'⟩ hp
    obtain ⟨l2, rfl, hp2⟩ := isPath_cons_of_parent hp' hp
    obtain ⟨hne, hfresh⟩ := isPath_fresh hp' hinv.inv.tree hinv.inv.wf hi'
    have hnd := isPath_nodup hp'
    obtain ⟨ha, hta, hsk, _⟩ := hinv.inv.tree i' hi' a hp
    have hhd : (g'.arcs a).head < g'.node_num := hinv.inv.wf.head a ha
    simp only [pathNodes, List.map_cons, List.nodup_cons] at hnd
    have hg : push_source_arc g' i' a b = push_pair g' a (g'.arcs a).sister b ∨
        push_source_arc g' i' a b =
          set_orphan_front (push_pair g' a (g'.arcs a).sister b) i' := by
      unfold push_source_arc
      split
      · exact Or.inr rfl
      · exact Or.inl rfl
    obtain ⟨r2, i2, t2, sf2, c2, d2, pf, rf, tf⟩ :=
      tree_push hinv hi' hp hne (Or.inl ⟨rfl, rfl⟩) hb (hbl' a (by simp)) _ hg
    have hs2 := writes_shape r2.writes
    rw [hk'] at sf2
    refine ⟨augRel_trans hrel r2, i2, fun ht => t2 (hT ht), sideFrame_trans hrel hsf sf2,
      by simp [hfl], ?_, ?_, ?_, ?_, l2, r', ?_, ?_, ?_⟩
    · intro S
      have e1 := c2 S
      have e2 := hcut S
      rw [hta] at e1
      linarith
    · intro S
      rw [d2, hterm]
    · rw [hs2.node_num]
      exact hhd
    · rw [writes_keep_is_sink r2.writes (by decide), hsk, hk']
    · refine isPath_congr hp2 hs2.head ?_
      intro x hx
      apply pf
      intro hxi
      subst hxi
      exact hnd.1 (by simpa [pathNodes] using hx)
    · intro a2 ha2
      obtain ⟨_, _, q3, q4⟩ := hfresh a2 ha2
      rw [hs2.sister, rf _ q3 q4]
      exact hbl' a2 (by simp [ha2])
    · rw [tf]
      exact hbr'
  · rintro g' i' ⟨hrel, hinv, hT, hsf, hfl, hcut, hterm, hi', hk', l', r', hp', hbl', hbr'⟩ hp
    obtain ⟨rfl, rfl⟩ := isPath_nil_of_parent hp' hp
    obtain ⟨r2, i2, t2, sf2, c2, d2⟩ := root_push (d := -b) hinv hi' hp
      (fun _ => by omega) (fun hh => by rw [hk'] at hh; exact absurd hh (by simp))
    rw [hk'] at sf2
    refine ⟨augRel_trans hrel r2, i2, fun ht => t2 (hT ht), sideFrame_trans hrel hsf sf2,
      by simp [hfl], ?_⟩
    intro S
    unfold cutCap
    rw [c2, d2, hterm]
    have e2 := hcut S
    have h0 : 0 ≤ (g'.nodes r').tr_cap := by omega
    unfold ind at e2 ⊢
    by_cases hS : S r' = true
    · simp only [hS, if_true] at e2 ⊢
      have m1 : max (-((g'.nodes r').tr_cap + -b)) 0 = 0 := max_eq_right (by omega)
      have m2 : max (-(g'.nodes r').tr_cap) 0 = 0 := max_eq_right (by omega)
      rw [m1, m2]
      linarith
    · simp only [hS, if_false, Bool.false_eq_true] at e2 ⊢
      have m1 : max ((g'.nodes r').tr_cap + -b) 0 = (g'.nodes r').tr_cap + -b :=
        max_eq_left (by omega)
      have m2 : max (g'.nodes r').tr_cap 0 = (g'.nodes r').tr_cap := max_eq_left h0
      rw [m1, m2]
      linarith

/-- Loop 2b of `augment` with the root update. -/
theorem push_sink_inv {b : Int} {f : Nat} {g0 g4 : Graph} {i0 : Nat} {c : Option Nat}
    (h : push_sink b f g0 i0 = Res.ok g4) (hI : AugInv g0 c) (hb : 0 ≤ b)
    (hi : i0 < g0.node_num) (hk : (g0.nodes i0).is_sink = true)
    {l : List Nat} {r : Nat} (hpath : IsPath g0 i0 l r)
    (hbl : ∀ a ∈ l, b ≤ (g0.arcs a).r_cap)
    (hbr : b ≤ - (g0.nodes r).tr_cap) :
    AugRel g0 g4 ∧ AugInv g4 c ∧ (Terminals g0 → Terminals g4) ∧
      g4.flow = g0.flow ∧ (∀ S, cutCap g4 S = cutCap g0 S - b * ind S i0) := by
  refine push_sink_rule
    (fun g' i' => AugRel g0 g' ∧ AugInv g' c ∧ (Terminals g0 → Terminals g') ∧
      g'.flow = g0.flow ∧
      (∀ S, arcCut g' S - b * ind S i' = arcCut g0 S - b * ind S i0) ∧
      (∀ S, termCut g' S = termCut g0 S) ∧ i' < g'.node_num ∧ (g'.nodes i').is_sink = true ∧
      ∃ l r, IsPath g' i' l r ∧ (∀ a ∈ l, b ≤ (g'.arcs a).r_cap) ∧
        b ≤ - (g'.nodes r).tr_cap)
    (fun g' => AugRel g0 g' ∧ AugInv g' c ∧ (Terminals g0 → Terminals g') ∧
      g'.flow = g0.flow ∧ (∀ S, cutCap g' S = cutCap g0 S - b * ind S i0)) ?_ ?_ h
    ⟨augRel_refl g0, hI, fun ht => ht, rfl, fun _ => rfl, fun _ => rfl,
      hi, hk, l, r, hpath, hbl, hbr⟩
  · rintro g' i' a ⟨hrel, hinv, hT, hfl, hcut, hterm, hi', hk', l', r', hp', hbl', hbr'⟩ hp
    obtain ⟨l2, rfl, hp2⟩ := isPath_cons_of_parent hp' hp
    obtain ⟨hne, hfresh⟩ := isPath_fresh hp' hinv.inv.tree hinv.inv.wf hi'
    have hnd := isPath_nodup hp'
    obtain ⟨ha, hta, hsk, _⟩ := hinv.inv.tree i' hi' a hp
    have hhd : (g'.arcs a).head < g'.node_num := hinv.inv.wf.head a ha
    simp only [pathNodes, List.map_cons, List.nodup_cons] at hnd
    have hg : push_sink_arc g' i' a b = push_pair g' (g'.arcs a).sister a b ∨
        push_sink_arc g' i' a b =
          set_orphan_front (push_pair g' (g'.arcs a).sister a b) i' := by
      unfold push_sink_arc
      split
      · exact Or.inr rfl
      · exact Or.inl rfl
    obtain ⟨r2, i2, t2, _, c2, d2, pf, rf, tf⟩ :=
      tree_push hinv hi' hp hne (Or.inr ⟨rfl, rfl⟩) hb (hbl' a (by simp)) _ hg
    have hs2 := writes_shape r2.writes
    refine ⟨augRel_trans hrel r2, i2, fun ht => t2 (hT ht),
      by simp [hfl], ?_, ?_, ?_, ?_, l2, r', ?_, ?_, ?_⟩
    · intro S
      have e1 := c2 S
      have e2 := hcut S
      have hta2 : (g'.arcs (g'.arcs a).sister).head = i' := hta
      rw [hinv.inv.wf.tail_sister ha, hta2] at e1
      linarith
    · intro S
      rw [d2, hterm]
    · rw [hs2.node_num]
      exact hhd
    · rw [writes_keep_is_sink r2.writes (by decide), hsk, hk']
    · refine isPath_congr hp2 hs2.head ?_
      intro x hx
      apply pf
      intro hxi
      subst hxi
      exact hnd.1 (by simpa [pathNodes] using hx)
    · intro a2 ha2
      obtain ⟨q1, q2, _, _⟩ := hfresh a2 ha2
      rw [rf _ q1 q2]
      exact hbl' a2 (by simp [ha2])
    · rw [tf]
      exact hbr'
  · rintro g' i' ⟨hrel, hinv, hT, hfl, hcut, hterm, hi', hk', l', r', hp', hbl', hbr'⟩ hp
    obtain ⟨rfl, rfl⟩ := isPath_nil_of_parent hp' hp
    obtain ⟨r2, i2, t2, _, c2, d2⟩ := root_push (d := b) hinv hi' hp
      (fun hh => by rw [hk'] at hh; exact absurd hh (by simp)) (fun _ => by omega)
    refine ⟨augRel_trans hrel r2, i2, fun ht => t2 (hT ht), by simp [hfl], ?_⟩
    intro S
    unfold cutCap
    rw [c2, d2, hterm]
    have e2 := hcut S
    have h0 : (g'.nodes r').tr_cap ≤ 0 := by omega
    unfold ind at e2 ⊢
    by_cases hS : S r' = true
    · simp only [hS, if_true] at e2 ⊢
      have m1 : max (-((g'.nodes r').tr_cap + b)) 0 = -((g'.nodes r').tr_cap + b) :=
        max_eq_left (by omega)
      have m2 : max (-(g'.nodes r').tr_cap) 0 = -(g'.nodes r').tr_cap :=
        max_eq_left (by omega)
      rw [m1, m2]
      linarith
    · simp only [hS, if_false, Bool.false_eq_true] at e2 ⊢
      have m1 : max ((g'.nodes r').tr_cap + b) 0 = 0 := max_eq_right (by omega)
      have m2 : max (g'.nodes r').tr_cap 0 = 0 := max_eq_right h0
      rw [m1, m2]
      linarith

end Maxflow

namespace Maxflow

/-! ### `augment` -/

/-- The push over a boundary arc touches neither side of the forest. -/
theorem middle_frame {g : Graph} {m : Nat} (b : Int) (s : Bool) (hw : WellFormed g)
    (hB : Boundary g m) :
    (g.arcs m).sister ≠ m ∧ SideFrame s g (push_pair g (g.arcs m).sister m b) := by
  have hts := hw.tail_sister hB.bound
  have hne : (g.arcs m).sister ≠ m := by
    intro hh
    have h1 : g.tail m = (g.arcs m).head := by
      rw [← hts, hh]
    have h2 := hB.tail.2
    rw [h1, hB.head.2] at h2
    exact absurd h2 (by simp)
  refine ⟨hne, fun x _ => by simp, fun x _ => by simp, ?_⟩
  intro e e1 e2
  rw [push_pair_r_cap g _ m b e hne]
  have h1 : e ≠ (g.arcs m).sister := by
    intro hh
    rw [hh, hts, hB.head.2] at e1
    have h3 : (g.arcs (g.arcs m).sister).head = g.tail m := rfl
    rw [hh, h3, hB.tail.2, ← e1] at e2
    exact absurd e2 (by simp)
  have h2 : e ≠ m := by
    intro hh
    rw [hh, hB.tail.2] at e1
    rw [hh, hB.head.2, ← e1] at e2
    exact absurd e2 (by simp)
  simp [h1, h2]

/-- Both ends of a boundary arc with positive residual are active, so a push
over it is push-safe. -/
theorem boundary_pushSafe {g : Graph} {m : Nat} {c : Option Nat}
    (hI : Inv g c none none []) (hB : Boundary g m) (hm : 0 < (g.arcs m).r_cap) :
    PushSafe g m ∧ PushSafe g (g.arcs m).sister := by
  have hw := hI.wf
  obtain ⟨hsm, hss⟩ := hw.sister m hB.bound
  have hts := hw.tail_sister hB.bound
  have hhs : (g.arcs (g.arcs m).sister).head = g.tail m := rfl
  have ht : (g.nodes (g.tail m)).next ≠ none := by
    intro hn
    have := hI.frontier (g.tail m) (hw.tail_lt hB.bound) (by simp) hn hB.tail.1 m
      (hw.listed m hB.bound) (by rw [hB.tail.2]; simpa [grow_rcap] using hm)
    rcases this with h1 | h1
    · rw [hB.tail.2] at h1
      have := h1.2
      rw [hB.head.2] at this
      exact absurd this (by simp)
    · simp at h1
  have hh : (g.nodes (g.arcs m).head).next ≠ none := by
    intro hn
    have hl := hw.listed _ hsm
    rw [hts] at hl
    have := hI.frontier (g.arcs m).head (hw.head m hB.bound) (by simp) hn hB.head.1 _ hl
      (by rw [hB.head.2]; simpa [grow_rcap, hss] using hm)
    rcases this with h1 | h1
    · rw [hB.head.2, hhs] at h1
      have := h1.2
      rw [hB.tail.2] at this
      exact absurd this (by simp)
    · simp at h1
  constructor
  · right
    exact ⟨Or.inl ht, Or.inl hh⟩
  · right
    rw [hts, hhs]
    exact ⟨Or.inl hh, Or.inl ht⟩

theorem augInv_setFlow {g : Graph} {c : Option Nat} (v : Int) (h : AugInv g c) :
    AugRel g (g.setFlow v) ∧ AugInv (g.setFlow v) c ∧ (Terminals g → Terminals (g.setFlow v)) ∧
      ∀ S, cutCap (g.setFlow v) S = cutCap g S := by
  have hr : AugRel g (g.setFlow v) :=
    ⟨writes_setFlow (by decide) g v, fun _ => Or.inl rfl⟩
  refine ⟨hr, ⟨?_, ⟨h.resid.nonneg, h.resid.source, h.resid.sink⟩⟩, fun ht => ⟨ht.pos, ht.neg⟩,
    fun S => cutCap_congr (writes_shape hr.writes) (fun _ => rfl) (fun _ => rfl) S⟩
  exact inv_augRel hr (fun e _ he => absurd rfl he)
    (orphanInv_congr (g := g) (by simp) (by simp) (fun _ hx => by simpa using hx)
      h.inv.orphans) h.inv

/-- The augmentation over a boundary arc with non-zero residual keeps the
invariants, does not decrease the flow, and keeps `flow` plus the capacity of
any cut. -/
theorem augment_inv {F : Nat} {g g5 : Graph} {m : Nat} {c : Option Nat}
    (h : augment F g m = Res.ok g5) (hI : AugInv g c) (hB : Boundary g m)
    (hm : (g.arcs m).r_cap ≠ 0) :
    AugRel g g5 ∧ AugInv g5 c ∧ (Terminals g → Terminals g5) ∧ g.flow ≤ g5.flow ∧
      ∀ S, g5.flow + cutCap g5 S = g.flow + cutCap g S := by
  simp only [augment, bottleneck, Res.bind_eq_ok] at h
  obtain ⟨b, ⟨b1, hb1, hb2⟩, g3, h3, g4, h4, h5⟩ := h
  simp only [Res.ok.injEq] at h5
  subst h5
  have hw := hI.inv.wf
  have ht := hI.inv.tree
  obtain ⟨hsm, hss⟩ := hw.sister m hB.bound
  have hi0 : (g.arcs (g.arcs m).sister).head < g.node_num := hw.tail_lt hB.bound
  have hj0 : (g.arcs m).head < g.node_num := hw.head m hB.bound
  have hk0 : (g.nodes (g.arcs (g.arcs m).sister).head).is_sink = false := hB.tail.2
  obtain ⟨ls, rs, hps, s1, s2, s3, s4⟩ := bottleneck_source_spec hb1
  obtain ⟨lt, rt, hpt, t1, t2, t3, t4⟩ := bottleneck_sink_spec hb2
  obtain ⟨fs1, fs2, fs3, fs4⟩ := isPath_facts hps ht hw hi0
  obtain ⟨ft1, ft2, ft3, ft4⟩ := isPath_facts hpt ht hw hj0
  have hmpos : 0 < (g.arcs m).r_cap :=
    lt_of_le_of_ne (hI.resid.nonneg m hB.bound) (Ne.symm hm)
  have hb1 : 0 ≤ b1 := by
    refine s4 0 (le_of_lt hmpos) ?_ ?_
    · obtain ⟨q1, q2, _⟩ := fs1 rs fs3
      exact le_of_lt (hI.resid.source rs q1 fs4 (q2.trans hk0))
    · intro a ha
      exact hI.resid.nonneg _ (hw.sister a (fs2 a ha).1).1
  have hb : 0 ≤ b := by
    refine t4 0 hb1 ?_ ?_
    · obtain ⟨q1, q2, _⟩ := ft1 rt ft3
      have := hI.resid.sink rt q1 ft4 (q2.trans hB.head.2)
      omega
    · intro a ha
      exact hI.resid.nonneg _ (ft2 a ha).1
  obtain ⟨hsafe1, hsafe2⟩ := boundary_pushSafe hI.inv hB hmpos
  obtain ⟨hne, hsfF⟩ := middle_frame b false hw hB
  obtain ⟨_, hsfT⟩ := middle_frame b true hw hB
  obtain ⟨r1, i1, tm1, c1, d1⟩ :=
    pair_push hI hsm hB.bound hne hb (by omega) hsafe2 hsafe1 hss rfl
  have hs1 := writes_shape r1.writes
  -- the source walk in the state after the middle push
  have hps1 : IsPath (push_pair g (g.arcs m).sister m b)
      (g.arcs (g.arcs m).sister).head ls rs :=
    isPath_congr hps hs1.head (fun x _ => by simp)
  obtain ⟨r3, i3, tm3, sf3, fl3, c3⟩ := push_source_inv h3 i1 hb (by simpa using hi0)
    (by simpa using hk0) hps1
    (by
      intro a ha
      obtain ⟨q1, q2, q3, _⟩ := fs2 a ha
      rw [hs1.sister, hsfF.r_cap]
      · exact le_trans t1 (s3 a ha)
      · rw [hw.tail_sister q1]
        exact ((fs1 _ q3).2.1).trans hk0
      · have : (g.arcs (g.arcs a).sister).head = g.tail a := rfl
        rw [this]
        exact ((fs1 _ q2).2.1).trans hk0)
    (by
      rw [hsfF.tr_cap rs (((fs1 rs fs3).2.1).trans hk0)]
      omega)
  have hr13 := augRel_trans r1 r3
  have hs3 := writes_shape hr13.writes
  have hsf13 : SideFrame true g g3 := sideFrame_trans r1 hsfT sf3
  -- the sink walk in the state after the source pushes
  have hpt3 : IsPath g3 (g.arcs m).head lt rt :=
    isPath_congr hpt hs3.head
      (fun x hx => hsf13.parent x (((ft1 x hx).2.1).trans hB.head.2))
  rw [hs3.head] at h4
  obtain ⟨r4, i4, tm4, fl4, c4⟩ := push_sink_inv h4 i3 hb (by rw [hs3.node_num]; exact hj0)
    (by rw [writes_keep_is_sink hr13.writes (by decide)]; exact hB.head.2) hpt3
    (by
      intro a ha
      obtain ⟨q1, q2, q3, _⟩ := ft2 a ha
      rw [hsf13.r_cap a (((ft1 _ q2).2.1).trans hB.head.2)
        (((ft1 _ q3).2.1).trans hB.head.2)]
      exact t3 a ha)
    (by
      rw [hsf13.tr_cap rt (((ft1 rt ft3).2.1).trans hB.head.2)]
      exact t2)
  obtain ⟨r5, i5, tm5, c5⟩ := augInv_setFlow (g4.flow + b) i4
  refine ⟨augRel_trans (augRel_trans hr13 r4) r5, i5,
    fun hT => tm5 (tm4 (tm3 (tm1 hT))), ?_, ?_⟩
  · show g.flow ≤ g4.flow + b
    rw [fl4, fl3]
    simp only [push_pair_flow]
    omega
  · intro S
    show g4.flow + b + cutCap (g4.setFlow (g4.flow + b)) S = g.flow + cutCap g S
    rw [c5, c4, c3, fl4, fl3]
    unfold cutCap
    rw [c1, d1]
    simp only [push_pair_flow]
    rw [hw.tail_sister hB.bound]
    ring

end Maxflow

namespace Maxflow

/-! ### Adoption: the search for a new parent -/

theorem stepRel_refl (K : List Field) (g : Graph) : StepRel K g g :=
  ⟨Writes.refl g, fun _ => Iff.rfl⟩

theorem stepRel_trans {K : List Field} {g g' g'' : Graph} (h : StepRel K g g')
    (h' : StepRel K g' g'') : StepRel K g g'' :=
  ⟨writes_trans h.writes h'.writes, fun x => (h'.roots x).trans (h.roots x)⟩

theorem stepRel_mono {K K' : List Field} {g g' : Graph} (hk : ∀ f, f ∈ K → f ∈ K')
    (h : StepRel K g g') : StepRel K' g g' :=
  ⟨writes_mono hk h.writes, h.roots⟩

/-- The residual invariants survive a step that keeps residuals, terminal
residuals and sides, and makes no new root. -/
theorem resid_mono {g g' : Graph} (hs : SameShape g g')
    (hr : ∀ a, (g'.arcs a).r_cap = (g.arcs a).r_cap)
    (ht : ∀ x, (g'.nodes x).tr_cap = (g.nodes x).tr_cap)
    (hk : ∀ x, (g'.nodes x).is_sink = (g.nodes x).is_sink)
    (hp : ∀ x, (g'.nodes x).parent = ArcPtr.terminal → (g.nodes x).parent = ArcPtr.terminal)
    (h : Resid g) : Resid g' := by
  refine ⟨?_, ?_, ?_⟩
  · intro a ha
    rw [hs.arc_num] at ha
    rw [hr]
    exact h.nonneg a ha
  · intro x hx hpx hkx
    rw [hs.node_num] at hx
    rw [hk] at hkx
    rw [ht]
    exact h.source x hx (hp x hpx) hkx
  · intro x hx hpx hkx
    rw [hs.node_num] at hx
    rw [hk] at hkx
    rw [ht]
    exact h.sink x hx (hp x hpx) hkx

/-- The terminal invariants survive a step that keeps terminal residuals, sides
and roots. -/
theorem terminals_mono {g g' : Graph} (hs : SameShape g g')
    (ht : ∀ x, (g'.nodes x).tr_cap = (g.nodes x).tr_cap)
    (hk : ∀ x, (g'.nodes x).is_sink = (g.nodes x).is_sink)
    (hp : ∀ x, (g.nodes x).parent = ArcPtr.terminal → (g'.nodes x).parent = ArcPtr.terminal)
    (h : Terminals g) : Terminals g' := by
  refine ⟨?_, ?_⟩
  · intro x hx hpx
    rw [hs.node_num] at hx
    rw [ht] at hpx
    rw [hk]
    exact ⟨hp x (h.pos x hx hpx).1, (h.pos x hx hpx).2⟩
  · intro x hx hpx
    rw [hs.node_num] at hx
    rw [ht] at hpx
    rw [hk]
    exact ⟨hp x (h.neg x hx hpx).1, (h.neg x hx hpx).2⟩

theorem resid_of_stepRel {K : List Field} {g g' : Graph} (h : StepRel K g g')
    (h1 : Field.r_cap ∉ K) (h2 : Field.tr_cap ∉ K) (h3 : Field.is_sink ∉ K)
    (hR : Resid g) : Resid g' :=
  resid_mono (writes_shape h.writes) (fun a => by rw [writes_keep_r_cap h.writes h1])
    (writes_keep_tr_cap h.writes h2) (writes_keep_is_sink h.writes h3)
    (fun x hx => (h.roots x).1 hx) hR

theorem terminals_of_stepRel {K : List Field} {g g' : Graph} (h : StepRel K g g')
    (h2 : Field.tr_cap ∉ K) (h3 : Field.is_sink ∉ K)
    (hT : Terminals g) : Terminals g' :=
  terminals_mono (writes_shape h.writes)
    (writes_keep_tr_cap h.writes h2) (writes_keep_is_sink h.writes h3)
    (fun x hx => (h.roots x).2 hx) hT

/-- The structural invariants do not depend on the labels. -/
theorem inv_of_labels {g g' : Graph} {c skip freed : Option Nat} {pend : List Nat}
    (hw : Writes [Field.TS, Field.DIST] g g') (h : Inv g c skip freed pend) :
    Inv g' c skip freed pend := by
  have hs := writes_shape hw
  have hp := writes_keep_parent hw (by decide)
  have hk := writes_keep_is_sink hw (by decide)
  obtain ⟨q0, q1, hq⟩ := h.queue
  refine ⟨wellFormed_sameShape hs h.wf,
    ⟨q0, q1, queueInv_of_writes hq hw (by decide) (by decide) (by decide)⟩, ?_, ?_, ?_⟩
  · exact passiveFrontier_mono hs (fun a => by rw [writes_keep_r_cap hw (by decide)])
      (fun x hx => by rw [← writes_keep_next hw (by decide)]; exact hx)
      (fun x => by rw [hp]) hk h.frontier
  · exact treeInv_mono hs hk (fun x a hx => by rw [← hp]; exact hx)
      (fun x hx => by rw [hp]; exact hx) h.tree
  · exact orphanInv_congr (writes_keep_orphans hw (by decide)) hs.node_num
      (fun x hx => by rw [hp]; exact hx) h.orphans

/-- The arc chosen by the search for a new parent of `i` leaves `i`, has
residual towards `i`, and leads to a node of the same tree. -/
theorem find_parent_facts {F : Nat} {sink : Bool} {f : Nat} {g : Graph} {i : Nat}
    {r : Graph × Option Nat × Int}
    (h : find_parent F sink f g (g.nodes i).first none INFINITE_D = Res.ok r)
    (hw : WellFormed g) (hi : i < g.node_num) :
    ∀ am, r.2.1 = some am → am ∈ arcs_of g i ∧ orphan_rcap g sink am ≠ 0 ∧
      (g.nodes (g.arcs am).head).is_sink = sink ∧
      (g.nodes (g.arcs am).head).parent ≠ ArcPtr.null := by
  have key := @find_parent_rule F sink
    (fun g' a amin _ => LabelEq g g' ∧ ∃ pre post, arcs_of g i = pre ++ post ∧
      IsArcList g.arcs a post ∧
      ∀ am, amin = some am → am ∈ pre ∧ orphan_rcap g sink am ≠ 0 ∧
        (g.nodes (g.arcs am).head).is_sink = sink ∧
        (g.nodes (g.arcs am).head).parent ≠ ArcPtr.null) ?_ ?_ f g (g.nodes i).first none
    INFINITE_D r h ⟨LabelEq.refl g, [], arcs_of g i, rfl, hw.lists i hi, by simp⟩
  · obtain ⟨_, pre, post, hl, hpost, hfacts⟩ := key
    intro am ham
    obtain ⟨h1, h2⟩ := hfacts am ham
    have := isArcList_none hpost
    subst this
    rw [hl]
    simp only [List.append_nil]
    exact ⟨h1, h2⟩
  · rintro g' a amin dmin g2 d ⟨hl, pre, post, hpp, hpost, hfacts⟩ h1 h2 h3 hl2 _
    obtain ⟨post', rfl, hpost'⟩ := isArcList_suffix_step hpost
    refine ⟨hl.trans hl2, pre ++ [a], post', by rw [hpp]; simp, ?_, ?_⟩
    · rw [hl.arcs]
      exact hpost'
    · intro am ham
      split at ham
      · simp only [Option.some.injEq] at ham
        subst ham
        refine ⟨by simp, ?_, ?_, ?_⟩
        · unfold orphan_rcap at h1 ⊢
          rw [hl.arcs] at h1
          exact h1
        · rw [hl.arcs, hl.is_sink] at h2
          exact h2
        · rw [hl.arcs, hl.parent] at h3
          exact h3
      · obtain ⟨q1, q2⟩ := hfacts am ham
        exact ⟨by simp [q1], q2⟩
  · rintro g' a amin dmin g1 ⟨hl, pre, post, hpp, hpost, hfacts⟩ hl1
    obtain ⟨post', rfl, hpost'⟩ := isArcList_suffix_step hpost
    refine ⟨hl.trans hl1, pre ++ [a], post', by rw [hpp]; simp, ?_, ?_⟩
    · rw [hl.arcs]
      exact hpost'
    · intro am ham
      obtain ⟨q1, q2⟩ := hfacts am ham
      exact ⟨by simp [q1], q2⟩

end Maxflow

namespace Maxflow

/-! ### Adoption: a new parent is found -/

/-- The orphan `i` gets the parent arc found by the search. -/
theorem adInv_adopt {g g1 : Graph} {c : Option Nat} {pend : List Nat} {i am : Nat}
    (dmin : Int) (hA : AdInv g c pend) (hw1 : Writes [Field.TS, Field.DIST] g g1)
    (hi : i < g.node_num) (hpi : (g.nodes i).parent = ArcPtr.orphan)
    (hni : i ∉ g.orphans ∧ i ∉ pend) (ham : am ∈ arcs_of g i)
    (hk : (g.nodes (g.arcs am).head).is_sink = (g.nodes i).is_sink)
    (hp : (g.nodes (g.arcs am).head).parent ≠ ArcPtr.null) :
    AdInv (adopt_parent g1 i am dmin) c pend ∧
      StepRel adoptFields g (adopt_parent g1 i am dmin) := by
  have h1 := inv_of_labels hw1 hA.inv
  have hs1 := writes_shape hw1
  have hp1 := writes_keep_parent hw1 (by decide)
  have hk1 := writes_keep_is_sink hw1 (by decide)
  have hw : Writes [Field.TS, Field.DIST, Field.parent, Field.changed, Field.in_changed]
      g (adopt_parent g1 i am dmin) :=
    writes_trans (writes_mono (by decide) hw1)
      (writes_trans (writes_trans (writes_setParent (by decide) _ _ _)
        (writes_setTS (by decide) _ _ _)) (writes_setDIST (by decide) _ _ _))
  have hs := writes_shape hw
  have hpar : ∀ x, ((adopt_parent g1 i am dmin).nodes x).parent =
      if x = i then ArcPtr.arc am else (g.nodes x).parent := by
    intro x
    rw [adopt_parent_nodes_parent, hp1]
  have hnull : ∀ x, ((adopt_parent g1 i am dmin).nodes x).parent = ArcPtr.null ↔
      (g.nodes x).parent = ArcPtr.null := by
    intro x
    rw [hpar]
    by_cases hx : x = i
    · subst hx
      simp [hpi]
    · simp [hx]
  have hroot : ∀ x, ((adopt_parent g1 i am dmin).nodes x).parent = ArcPtr.terminal ↔
      (g.nodes x).parent = ArcPtr.terminal := by
    intro x
    rw [hpar]
    by_cases hx : x = i
    · subst hx
      simp [hpi]
    · simp [hx]
  have hrel : StepRel adoptFields g (adopt_parent g1 i am dmin) :=
    ⟨writes_mono (by decide) hw, hroot⟩
  obtain ⟨q0, q1, hq⟩ := hA.inv.queue
  obtain ⟨m1, m2, m3, _⟩ := hA.inv.wf.mem_arcs_of hi ham
  refine ⟨⟨⟨wellFormed_sameShape hs hA.inv.wf,
    ⟨q0, q1, queueInv_of_writes hq hw (by decide) (by decide) (by decide)⟩, ?_, ?_, ?_⟩,
    resid_of_stepRel hrel (by decide) (by decide) (by decide) hA.resid, ?_⟩, hrel⟩
  · exact passiveFrontier_mono hs (fun a => by rw [writes_keep_r_cap hw (by decide)])
      (fun x hx => by rw [← writes_keep_next hw (by decide)]; exact hx)
      hnull (writes_keep_is_sink hw (by decide)) hA.inv.frontier
  · intro x hx a hpa
    rw [hs.node_num] at hx
    rw [hpar] at hpa
    rw [hs.arc_num, tail_sameShape hs, hs.head, writes_keep_is_sink hw (by decide),
      writes_keep_is_sink hw (by decide)]
    by_cases hxi : x = i
    · subst hxi
      simp only [if_true, ArcPtr.arc.injEq] at hpa
      subst hpa
      refine ⟨m1, m2, hk, Or.inl ?_⟩
      intro hh
      exact hp ((hnull _).1 hh)
    · simp only [hxi, if_false] at hpa
      obtain ⟨t1, t2, t3, t4⟩ := hA.inv.tree x hx a hpa
      refine ⟨t1, t2, t3, ?_⟩
      rcases t4 with t4 | t4
      · left
        intro hh
        exact t4 ((hnull _).1 hh)
      · simp at t4
  · refine ⟨?_, ?_, ?_⟩
    · rw [writes_keep_orphans hw (by decide)]
      simpa using hA.inv.orphans.nodup
    · intro x hx
      rw [writes_keep_orphans hw (by decide)] at hx
      have hxi : x ≠ i := by
        intro hh
        subst hh
        rcases hx with hx | hx
        · exact hni.1 hx
        · exact hni.2 hx
      rw [hpar]
      simp only [hxi, if_false]
      exact hA.inv.orphans.parent x hx
    · intro x hx
      rw [writes_keep_orphans hw (by decide)] at hx
      rw [hs.node_num]
      exact hA.inv.orphans.bound x hx
  · intro j hj
    obtain ⟨c1, c2⟩ := hA.cur j hj
    rw [writes_keep_next hw (by decide), hs.node_num]
    exact ⟨c1, c2⟩

/-! ### Adoption: the orphan becomes free -/

/-- The state in which the loop over the neighbours of the freed orphan `i`
starts. -/
theorem inv_free {g : Graph} {c : Option Nat} {pend : List Nat} {i : Nat}
    (h : Inv g c none none pend) (hpi : (g.nodes i).parent = ArcPtr.orphan)
    (hni : i ∉ g.orphans ∧ i ∉ pend) :
    Inv (add_to_changed_list (g.setParent i ArcPtr.null) i) c none (some i) pend := by
  have hw : Writes [Field.TS, Field.DIST, Field.parent, Field.changed, Field.in_changed]
      g (add_to_changed_list (g.setParent i ArcPtr.null) i) :=
    writes_trans (writes_setParent (by decide) _ _ _)
      (writes_add_to_changed_list (by decide) (by decide) _ _)
  have hs := writes_shape hw
  have hpar : ∀ x, ((add_to_changed_list (g.setParent i ArcPtr.null) i).nodes x).parent =
      if x = i then ArcPtr.null else (g.nodes x).parent := by
    intro x
    simp
  have hk := writes_keep_is_sink hw (by decide)
  obtain ⟨q0, q1, hq⟩ := h.queue
  refine ⟨wellFormed_sameShape hs h.wf,
    ⟨q0, q1, queueInv_of_writes hq hw (by decide) (by decide) (by decide)⟩, ?_, ?_, ?_⟩
  · intro x hx hsk hnx hpx a ha hpos
    rw [hs.node_num] at hx
    rw [writes_keep_next hw (by decide)] at hnx
    rw [hpar] at hpx
    rw [arcs_of_sameShape hs] at ha
    rw [hk, grow_rcap_congr hs (fun a => by rw [writes_keep_r_cap hw (by decide)])] at hpos
    by_cases hxi : x = i
    · simp [hxi] at hpx
    · simp only [hxi, if_false] at hpx
      rcases h.frontier x hx (by simp) hnx hpx a ha hpos with h1 | h1
      · unfold InTree at h1 ⊢
        rw [hs.head, hk, hk, hpar]
        by_cases hh : (g.arcs a).head = i
        · right
          exact ⟨by rw [hh], h1.2⟩
        · left
          simp only [hh, if_false]
          exact h1
      · simp at h1
  · intro x hx a hpa
    rw [hs.node_num] at hx
    rw [hpar] at hpa
    rw [hs.arc_num, tail_sameShape hs, hs.head, hk, hk, hpar]
    by_cases hxi : x = i
    · simp [hxi] at hpa
    · simp only [hxi, if_false] at hpa
      obtain ⟨t1, t2, t3, t4⟩ := h.tree x hx a hpa
      refine ⟨t1, t2, t3, ?_⟩
      by_cases hh : (g.arcs a).head = i
      · right
        rw [hh]
      · left
        simp only [hh, if_false]
        rcases t4 with t4 | t4
        · exact t4
        · simp at t4
  · refine ⟨?_, ?_, ?_⟩
    · rw [writes_keep_orphans hw (by decide)]
      exact h.orphans.nodup
    · intro x hx
      rw [writes_keep_orphans hw (by decide)] at hx
      have hxi : x ≠ i := by
        intro hh
        subst hh
        rcases hx with hx | hx
        · exact hni.1 hx
        · exact hni.2 hx
      rw [hpar]
      simp only [hxi, if_false]
      exact h.orphans.parent x hx
    · intro x hx
      rw [writes_keep_orphans hw (by decide)] at hx
      rw [hs.node_num]
      exact h.orphans.bound x hx

theorem nbRel_refl (g : Graph) : NbRel g g :=
  ⟨Writes.refl g, fun _ h => h, fun _ => Or.inl rfl⟩

theorem nbRel_trans {g g' g'' : Graph} (h : NbRel g g') (h' : NbRel g' g'') : NbRel g g'' := by
  refine ⟨writes_trans h.writes h'.writes, fun x hx => h'.next x (h.next x hx), ?_⟩
  intro x
  rcases h'.parent x with h1 | ⟨p, h1, h2⟩
  · rw [h1]
    exact h.parent x
  · rcases h.parent x with h3 | ⟨q, _, h4⟩
    · rw [h3] at h1
      exact Or.inr ⟨p, h1, h2⟩
    · rw [h4] at h1
      exact absurd h1 (by simp)

theorem NbRel.null_iff {g g' : Graph} (h : NbRel g g') (x : Nat) :
    (g'.nodes x).parent = ArcPtr.null ↔ (g.nodes x).parent = ArcPtr.null := by
  rcases h.parent x with h1 | ⟨p, h1, h2⟩
  · rw [h1]
  · rw [h1, h2]
    simp

theorem NbRel.terminal_iff {g g' : Graph} (h : NbRel g g') (x : Nat) :
    (g'.nodes x).parent = ArcPtr.terminal ↔ (g.nodes x).parent = ArcPtr.terminal := by
  rcases h.parent x with h1 | ⟨p, h1, h2⟩
  · rw [h1]
  · rw [h1, h2]
    simp

theorem NbRel.arc_of {g g' : Graph} (h : NbRel g g') (x a : Nat)
    (hp : (g'.nodes x).parent = ArcPtr.arc a) : (g.nodes x).parent = ArcPtr.arc a := by
  rcases h.parent x with h1 | ⟨p, _, h2⟩
  · rw [← h1]
    exact hp
  · rw [h2] at hp
    exact absurd hp (by simp)

end Maxflow

namespace Maxflow

/-! ### Adoption: the loop over the neighbours of a freed node -/

/-- A node of the arena is made active. -/
theorem inv_set_active {g : Graph} {c fr : Option Nat} {pend : List Nat} {j : Nat}
    (hI : Inv g c none fr pend)
    (hc : ∀ i, c = some i → (g.nodes i).next ≠ none ∧ i < g.node_num)
    (hj : j < g.node_num) :
    Inv (set_active g j) c none fr pend ∧ NbRel g (set_active g j) ∧
      ((set_active g j).nodes j).next ≠ none ∧
      (∀ x, ((set_active g j).nodes x).parent = (g.nodes x).parent) := by
  have hw : Writes [Field.next, Field.queue1] g (set_active g j) :=
    writes_set_active (by decide) (by decide) g j
  have hs := writes_shape hw
  have hp := writes_keep_parent hw (by decide)
  have hk := writes_keep_is_sink hw (by decide)
  obtain ⟨q0, q1, hq⟩ := hI.queue
  obtain ⟨q1', hq', _, _⟩ := queueInv_set_active hq j hj (fun hh => (hc j hh).1)
  refine ⟨⟨wellFormed_sameShape hs hI.wf, ⟨q0, q1', hq'⟩, ?_, ?_, ?_⟩,
    ⟨writes_mono (by decide) hw, fun x hx => set_active_next_mono g j x hx,
      fun x => Or.inl (hp x)⟩, set_active_next_self g j, hp⟩
  · exact passiveFrontier_mono hs (fun a => by rw [writes_keep_r_cap hw (by decide)])
      (fun x hx => set_active_next_none g j x hx) (fun x => by rw [hp]) hk hI.frontier
  · exact treeInv_mono hs hk (fun x a hx => by rw [← hp]; exact hx)
      (fun x hx => by rw [hp]; exact hx) hI.tree
  · exact orphanInv_congr (writes_keep_orphans hw (by decide)) hs.node_num
      (fun x hx => by rw [hp]; exact hx) hI.orphans

/-- A child of the freed node is put at the rear of the orphan list. -/
theorem inv_orphan_rear {g : Graph} {c fr : Option Nat} {pend : List Nat} {j p : Nat}
    (hI : Inv g c none fr pend) (hj : j < g.node_num)
    (hp : (g.nodes j).parent = ArcPtr.arc p) :
    Inv (set_orphan_rear g j) c none fr pend ∧ NbRel g (set_orphan_rear g j) := by
  have hw : Writes [Field.parent, Field.orphans] g (set_orphan_rear g j) :=
    writes_set_orphan_rear (by decide) (by decide) g j
  have hs := writes_shape hw
  have hk := writes_keep_is_sink hw (by decide)
  have hrel : NbRel g (set_orphan_rear g j) := by
    refine ⟨writes_mono (by decide) hw, fun x hx => by simpa using hx, ?_⟩
    intro x
    rw [set_orphan_rear_nodes_parent]
    by_cases hx : x = j
    · subst hx
      right
      exact ⟨p, hp, by simp⟩
    · left
      simp [hx]
  obtain ⟨q0, q1, hq⟩ := hI.queue
  refine ⟨⟨wellFormed_sameShape hs hI.wf,
    ⟨q0, q1, queueInv_of_writes hq hw (by decide) (by decide) (by decide)⟩, ?_, ?_, ?_⟩, hrel⟩
  · exact passiveFrontier_mono hs (fun a => by rw [writes_keep_r_cap hw (by decide)])
      (fun x hx => by rw [← writes_keep_next hw (by decide)]; exact hx)
      hrel.null_iff hk hI.frontier
  · exact treeInv_mono hs hk hrel.arc_of
      (fun x hx hh => hx ((hrel.null_iff x).1 hh)) hI.tree
  · exact orphanInv_push (Or.inr (by simp)) (by simp) hj (by rw [hp]; simp) (by simp)
      hI.orphans

/-- The body of the loop over the neighbours, by cases: nothing happens; the
head is a child of `i` and is made an orphan, after being made active if the
arc has residual; or the head is only made active if the arc has residual. -/
theorem neighbor_step_cases (g : Graph) (sink : Bool) (i a0 : Nat) :
    (¬ ((g.nodes (g.arcs a0).head).is_sink = sink ∧
        (g.nodes (g.arcs a0).head).parent ≠ ArcPtr.null) ∧ neighbor_step g sink i a0 = g) ∨
    (((g.nodes (g.arcs a0).head).is_sink = sink ∧
        (g.nodes (g.arcs a0).head).parent ≠ ArcPtr.null) ∧
      (∃ p, (g.nodes (g.arcs a0).head).parent = ArcPtr.arc p ∧ (g.arcs p).head = i) ∧
      neighbor_step g sink i a0 = set_orphan_rear
        (if orphan_rcap g sink a0 ≠ 0 then set_active g (g.arcs a0).head else g)
        (g.arcs a0).head) ∨
    (((g.nodes (g.arcs a0).head).is_sink = sink ∧
        (g.nodes (g.arcs a0).head).parent ≠ ArcPtr.null) ∧
      (∀ p, (g.nodes (g.arcs a0).head).parent = ArcPtr.arc p → (g.arcs p).head ≠ i) ∧
      neighbor_step g sink i a0 =
        if orphan_rcap g sink a0 ≠ 0 then set_active g (g.arcs a0).head else g) := by
  unfold neighbor_step
  by_cases hg : (g.nodes (g.arcs a0).head).is_sink = sink ∧
      (g.nodes (g.arcs a0).head).parent ≠ ArcPtr.null
  · right
    rw [if_pos hg]
    cases hp : (g.nodes (g.arcs a0).head).parent with
    | arc p =>
      simp only
      by_cases hh : (g.arcs p).head = i
      · left
        rw [if_pos hh]
        exact ⟨⟨hg.1, by simp⟩, ⟨p, rfl, hh⟩, rfl⟩
      · right
        rw [if_neg hh]
        refine ⟨⟨hg.1, by simp⟩, ?_, rfl⟩
        intro q hq
        simp only [ArcPtr.arc.injEq] at hq
        subst hq
        exact hh
    | null => exact absurd hp hg.2
    | terminal =>
      right
      exact ⟨⟨hg.1, by simp⟩, fun p hq => absurd hq (by simp), rfl⟩
    | orphan =>
      right
      exact ⟨⟨hg.1, by simp⟩, fun p hq => absurd hq (by simp), rfl⟩
  · left
    rw [if_neg hg]
    exact ⟨hg, rfl⟩

end Maxflow

namespace Maxflow

theorem cur_of_nbRel {g g' : Graph} {c : Option Nat} (h : NbRel g g')
    (hc : ∀ i, c = some i → (g.nodes i).next ≠ none ∧ i < g.node_num) :
    ∀ i, c = some i → (g'.nodes i).next ≠ none ∧ i < g'.node_num := by
  intro i hi
  obtain ⟨c1, c2⟩ := hc i hi
  exact ⟨h.next i c1, by rw [(writes_shape h.writes).node_num]; exact c2⟩

theorem inv_act {g : Graph} {c fr : Option Nat} {pend : List Nat} {j : Nat} (b : Prop)
    [Decidable b] (hI : Inv g c none fr pend)
    (hc : ∀ i, c = some i → (g.nodes i).next ≠ none ∧ i < g.node_num)
    (hj : j < g.node_num) :
    Inv (if b then set_active g j else g) c none fr pend ∧
      NbRel g (if b then set_active g j else g) ∧
      (b → ((if b then set_active g j else g).nodes j).next ≠ none) ∧
      (∀ x, ((if b then set_active g j else g).nodes x).parent = (g.nodes x).parent) := by
  by_cases hb : b
  · simp only [hb, if_true]
    obtain ⟨h1, h2, h3, h4⟩ := inv_set_active hI hc hj
    exact ⟨h1, h2, fun _ => h3, h4⟩
  · simp only [hb, if_false]
    exact ⟨hI, nbRel_refl g, by simp, by simp⟩

/-- One step of the loop over the neighbours of the freed node `i`: the
invariants are kept; if the head of the arc was a child of `i` it is one no
longer, and if the arc has residual towards `i` and its head is in the tree of
`i`, the head is active afterwards. -/
theorem neighbor_step_inv {g : Graph} {c fr : Option Nat} {pend : List Nat} (sink : Bool)
    (i a0 : Nat) (hI : Inv g c none fr pend)
    (hc : ∀ i, c = some i → (g.nodes i).next ≠ none ∧ i < g.node_num)
    (hj : (g.arcs a0).head < g.node_num) :
    Inv (neighbor_step g sink i a0) c none fr pend ∧ NbRel g (neighbor_step g sink i a0) ∧
      ((g.nodes (g.arcs a0).head).is_sink = sink → ∀ p,
        ((neighbor_step g sink i a0).nodes (g.arcs a0).head).parent = ArcPtr.arc p →
          (g.arcs p).head ≠ i) ∧
      (orphan_rcap g sink a0 ≠ 0 → (g.nodes (g.arcs a0).head).is_sink = sink →
        (g.nodes (g.arcs a0).head).parent ≠ ArcPtr.null →
        ((neighbor_step g sink i a0).nodes (g.arcs a0).head).next ≠ none) := by
  obtain ⟨iA, rA, nA, pA⟩ := inv_act (orphan_rcap g sink a0 ≠ 0) hI hc hj
  rcases neighbor_step_cases g sink i a0 with ⟨hg, he⟩ | ⟨hg, ⟨p, hp, hh⟩, he⟩ | ⟨hg, hn, he⟩
  · rw [he]
    refine ⟨hI, nbRel_refl g, ?_, ?_⟩
    · intro hk p hp
      have : (g.nodes (g.arcs a0).head).parent = ArcPtr.null := by
        by_contra hne
        exact hg ⟨hk, hne⟩
      rw [this] at hp
      exact absurd hp (by simp)
    · intro _ hk hne
      exact absurd ⟨hk, hne⟩ hg
  · rw [he]
    have hj' : (g.arcs a0).head <
        (if orphan_rcap g sink a0 ≠ 0 then set_active g (g.arcs a0).head else g).node_num := by
      rw [(writes_shape rA.writes).node_num]
      exact hj
    obtain ⟨iB, rB⟩ := inv_orphan_rear iA hj' (by rw [pA]; exact hp)
    refine ⟨iB, nbRel_trans rA rB, ?_, ?_⟩
    · intro _ q hq
      simp at hq
    · intro hr _ _
      exact rB.next _ (nA hr)
  · rw [he]
    refine ⟨iA, rA, ?_, ?_⟩
    · intro _ q hq
      rw [pA] at hq
      exact hn q hq
    · intro hr _ _
      exact nA hr

/-- The loop over the neighbours of the freed node `i` re-establishes the
passive frontier and the tree consistency without exception. -/
theorem process_neighbors_inv {sink : Bool} {i f : Nat} {g r : Graph} {c : Option Nat}
    {pend : List Nat} (h : process_neighbors sink i f g (g.nodes i).first = Res.ok r)
    (hI : Inv g c none (some i) pend)
    (hc : ∀ i, c = some i → (g.nodes i).next ≠ none ∧ i < g.node_num)
    (hi : i < g.node_num) (hki : (g.nodes i).is_sink = sink) :
    Inv r c none none pend ∧ NbRel g r := by
  have key := @process_neighbors_rule sink i
    (fun g' p => Inv g' c none (some i) pend ∧ NbRel g g' ∧
      ∃ pre post, arcs_of g i = pre ++ post ∧ IsArcList g.arcs p post ∧
        (∀ b ∈ pre, (g.nodes (g.arcs b).head).is_sink = sink → ∀ p,
          (g'.nodes (g.arcs b).head).parent = ArcPtr.arc p → (g.arcs p).head ≠ i) ∧
        (∀ b ∈ pre, orphan_rcap g sink b ≠ 0 → (g.nodes (g.arcs b).head).is_sink = sink →
          (g.nodes (g.arcs b).head).parent ≠ ArcPtr.null →
          (g'.nodes (g.arcs b).head).next ≠ none)) ?_ f g (g.nodes i).first r h
    ⟨hI, nbRel_refl g, [], arcs_of g i, rfl, hI.wf.lists i hi, by simp, by simp⟩
  · obtain ⟨hIr, hrel, pre, post, hl, hpost, hN1, hN2⟩ := key
    have := isArcList_none hpost
    subst this
    simp only [List.append_nil] at hl
    rw [← hl] at hN1 hN2
    have hw := hrel.writes
    have hs := writes_shape hw
    have hk := writes_keep_is_sink hw (by decide)
    have hwf := hI.wf
    refine ⟨⟨hIr.wf, hIr.queue, ?_, ?_, hIr.orphans⟩, hrel⟩
    · intro x hx hsk hnx hpx a ha hpos
      rcases hIr.frontier x hx hsk hnx hpx a ha hpos with h1 | ⟨h1, h2⟩
      · exact Or.inl h1
      · exfalso
        simp only [Option.some.injEq] at h1
        rw [hs.node_num] at hx
        rw [arcs_of_sameShape hs] at ha
        rw [hs.head] at h1 h2
        rw [hk, hk] at h2
        rw [hk, grow_rcap_congr hs (fun a => by rw [writes_keep_r_cap hw (by decide)])] at hpos
        obtain ⟨m1, m2, m3, m4, m5, m6, m7⟩ := hwf.mem_arcs_of hx ha
        rw [← h1] at m6
        have hkx : (g.nodes x).is_sink = sink := by rw [← h2, ← h1, hki]
        refine hN2 _ m6 ?_ (by rw [m7]; exact hkx) ?_ (by rw [m7]; exact hnx)
        · rw [hkx] at hpos
          unfold orphan_rcap
          unfold grow_rcap at hpos
          rw [m5]
          exact ne_of_gt hpos
        · rw [m7]
          intro hh
          exact hpx ((hrel.null_iff x).2 hh)
    · intro x hx a hpa
      obtain ⟨t1, t2, t3, t4⟩ := hIr.tree x hx a hpa
      refine ⟨t1, t2, t3, ?_⟩
      rcases t4 with t4 | t4
      · exact Or.inl t4
      · exfalso
        simp only [Option.some.injEq] at t4
        rw [hs.node_num] at hx
        rw [hs.arc_num] at t1
        rw [tail_sameShape hs] at t2
        rw [hs.head] at t4 t3
        rw [hk, hk] at t3
        obtain ⟨s1, s2⟩ := hwf.sister a t1
        have hl := hwf.listed _ s1
        rw [hwf.tail_sister t1, ← t4] at hl
        have hh : (g.arcs (g.arcs a).sister).head = x := t2
        refine hN1 _ hl ?_ a (by rw [hh]; exact hpa) t4.symm
        rw [hh, ← t3, ← t4, hki]
  · rintro g' a ⟨hIr, hrel, pre, post, hl, hpost, hN1, hN2⟩
    obtain ⟨post', rfl, hpost'⟩ := isArcList_suffix_step hpost
    have hw := hrel.writes
    have hs := writes_shape hw
    have hk := writes_keep_is_sink hw (by decide)
    have ha : a ∈ arcs_of g i := by rw [hl]; simp
    obtain ⟨m1, m2, m3, _⟩ := hI.wf.mem_arcs_of hi ha
    have hc' := cur_of_nbRel hrel hc
    obtain ⟨iS, rS, n1, n2⟩ := neighbor_step_inv sink i a hIr hc'
      (by rw [hs.head, hs.node_num]; exact m3)
    refine ⟨iS, nbRel_trans hrel rS, pre ++ [a], post', by rw [hl]; simp, ?_, ?_, ?_⟩
    · rw [hs.next]
      exact hpost'
    · intro b hb hkb p hp
      simp only [List.mem_append, List.mem_singleton] at hb
      rcases hb with hb | hb
      · exact hN1 b hb hkb p (rS.arc_of _ _ hp)
      · subst hb
        rw [hs.head, hk] at n1
        have := n1 hkb p hp
        rw [hs.head] at this
        exact this
    · intro b hb hrb hkb hpb
      simp only [List.mem_append, List.mem_singleton] at hb
      rcases hb with hb | hb
      · exact rS.next _ (hN2 b hb hrb hkb hpb)
      · subst hb
        rw [hs.head, hk] at n2
        refine n2 ?_ hkb ?_
        · unfold orphan_rcap at hrb ⊢
          rw [hs.sister, writes_keep_r_cap hw (by decide)]
          exact hrb
        · intro hh
          exact hpb ((hrel.null_iff _).1 hh)

end Maxflow

namespace Maxflow

/-! ### Adoption: one orphan, the drain, the stage -/

/-- `process_source_orphan` / `process_sink_orphan` on an orphan that has been
taken off the list. -/
theorem process_orphan_inv {F : Nat} {sink : Bool} {g g1 : Graph} {i : Nat} {c : Option Nat}
    {pend : List Nat} (h : process_orphan F sink g i = Res.ok g1) (hA : AdInv g c pend)
    (hi : i < g.node_num) (hk : (g.nodes i).is_sink = sink)
    (hpi : (g.nodes i).parent = ArcPtr.orphan) (hni : i ∉ g.orphans ∧ i ∉ pend) :
    AdInv g1 c pend ∧ StepRel adoptFields g g1 := by
  simp only [process_orphan, Res.bind_eq_ok] at h
  obtain ⟨⟨gA, amin, dmin⟩, h1, h2⟩ := h
  have hw1 : Writes [Field.TS, Field.DIST] g gA := find_parent_writes h1
  have facts := find_parent_facts h1 hA.inv.wf hi
  cases amin with
  | some am =>
    simp only [Res.ok.injEq] at h2
    subst h2
    obtain ⟨f1, _, f3, f4⟩ := facts am rfl
    exact adInv_adopt dmin hA hw1 hi hpi hni f1 (f3.trans hk.symm) f4
  | none =>
    simp only at h2
    have hs1 := writes_shape hw1
    have hp1 := writes_keep_parent hw1 (by decide)
    have IA := inv_of_labels hw1 hA.inv
    have hfree := inv_free (i := i) IA (by rw [hp1]; exact hpi)
      (by rw [writes_keep_orphans hw1 (by decide)]; exact hni)
    have hw2 : Writes [Field.TS, Field.DIST, Field.parent, Field.changed, Field.in_changed] g
        (add_to_changed_list (gA.setParent i ArcPtr.null) i) :=
      writes_trans (writes_mono (by decide) hw1)
        (writes_trans (writes_setParent (by decide) _ _ _)
          (writes_add_to_changed_list (by decide) (by decide) _ _))
    have hs2 := writes_shape hw2
    have hfirst : (gA.nodes i).first =
        ((add_to_changed_list (gA.setParent i ArcPtr.null) i).nodes i).first := by simp
    rw [hfirst] at h2
    have hc2 : ∀ j, c = some j →
        ((add_to_changed_list (gA.setParent i ArcPtr.null) i).nodes j).next ≠ none ∧
          j < (add_to_changed_list (gA.setParent i ArcPtr.null) i).node_num := by
      intro j hj
      rw [writes_keep_next hw2 (by decide), hs2.node_num]
      exact hA.cur j hj
    obtain ⟨I1, rel⟩ := process_neighbors_inv h2 hfree hc2 (by rw [hs2.node_num]; exact hi)
      (by rw [writes_keep_is_sink hw2 (by decide)]; exact hk)
    have hrel : StepRel adoptFields g g1 := by
      refine ⟨writes_trans (writes_mono (by decide) hw2) rel.writes, ?_⟩
      intro x
      rw [rel.terminal_iff]
      simp only [add_to_changed_list_nodes_parent, setParent_nodes_parent, hp1]
      by_cases hx : x = i
      · subst hx
        simp [hpi]
      · simp [hx]
    exact ⟨⟨I1, resid_of_stepRel hrel (by decide) (by decide) (by decide) hA.resid,
      cur_of_nbRel rel hc2⟩, hrel⟩

/-- The orphan list is replaced by a list of pending orphans. -/
theorem adInv_setOrphans {g : Graph} {c : Option Nat} {pend : List Nat} (l pend' : List Nat)
    (hA : AdInv g c pend) (hsub : ∀ x, x ∈ l ∨ x ∈ pend' → x ∈ g.orphans ∨ x ∈ pend)
    (hnd : (l ++ pend').Nodup) :
    AdInv (g.setOrphans l) c pend' ∧ StepRel adoptFields g (g.setOrphans l) := by
  have hw : Writes [Field.orphans] g (g.setOrphans l) := writes_setOrphans (by decide) g l
  have hs := writes_shape hw
  have hp := writes_keep_parent hw (by decide)
  have hk := writes_keep_is_sink hw (by decide)
  have hrel : StepRel adoptFields g (g.setOrphans l) :=
    ⟨writes_mono (by decide) hw, fun x => by rw [hp]⟩
  obtain ⟨q0, q1, hq⟩ := hA.inv.queue
  refine ⟨⟨⟨wellFormed_sameShape hs hA.inv.wf,
    ⟨q0, q1, queueInv_of_writes hq hw (by decide) (by decide) (by decide)⟩, ?_, ?_, ?_⟩,
    resid_of_stepRel hrel (by decide) (by decide) (by decide) hA.resid, ?_⟩, hrel⟩
  · exact passiveFrontier_mono hs (fun a => by rw [writes_keep_r_cap hw (by decide)])
      (fun x hx => by rw [← writes_keep_next hw (by decide)]; exact hx)
      (fun x => by rw [hp]) hk hA.inv.frontier
  · exact treeInv_mono hs hk (fun x a hx => by rw [← hp]; exact hx)
      (fun x hx => by rw [hp]; exact hx) hA.inv.tree
  · refine ⟨hnd, ?_, ?_⟩
    · intro x hx
      rw [hp]
      exact hA.inv.orphans.parent x (hsub x hx)
    · intro x hx
      rw [hs.node_num]
      exact hA.inv.orphans.bound x (hsub x hx)
  · intro j hj
    rw [writes_keep_next hw (by decide), hs.node_num]
    exact hA.cur j hj

/-- The inner loop of the adoption stage empties the orphan list and keeps the
invariants, with the orphans set aside in `pend` untouched. -/
theorem drain_orphans_inv {F f : Nat} {g r : Graph} {c : Option Nat} {pend : List Nat}
    (h : drain_orphans F f g = Res.ok r) (hA : AdInv g c pend) :
    (AdInv r c pend ∧ StepRel adoptFields g r) ∧ r.orphans = [] := by
  refine drain_orphans_rule (fun g' => AdInv g' c pend ∧ StepRel adoptFields g g') ?_ h
    ⟨hA, stepRel_refl _ g⟩
  rintro g' i rest g1 ⟨hA', hrel⟩ ho hp
  have hnd := hA'.inv.orphans.nodup
  rw [ho] at hnd
  simp only [List.cons_append, List.nodup_cons, List.mem_append, not_or] at hnd
  obtain ⟨A2, r2⟩ := adInv_setOrphans rest pend hA'
    (by
      intro x hx
      rw [ho]
      rcases hx with hx | hx
      · exact Or.inl (by simp [hx])
      · exact Or.inr hx) hnd.2
  obtain ⟨A3, r3⟩ := process_orphan_inv hp A2
    (by simpa using hA'.inv.orphans.bound i (Or.inl (by rw [ho]; simp)))
    (by simp)
    (by simpa using hA'.inv.orphans.parent i (Or.inl (by rw [ho]; simp)))
    (by simpa using hnd.1)
  exact ⟨A3, stepRel_trans hrel (stepRel_trans r2 r3)⟩

/-- The adoption stage empties the orphan list and keeps the invariants. -/
theorem adoption_inv {F f : Nat} {g r : Graph} {c : Option Nat}
    (h : adoption F f g = Res.ok r) (hA : AdInv g c []) :
    (AdInv r c [] ∧ StepRel adoptFields g r) ∧ r.orphans = [] := by
  refine adoption_rule (fun g' => AdInv g' c [] ∧ StepRel adoptFields g g') ?_ h
    ⟨hA, stepRel_refl _ g⟩
  rintro g' i rest g1 ⟨hA', hrel⟩ ho hd
  have hnd := hA'.inv.orphans.nodup
  rw [ho] at hnd
  simp only [List.append_nil] at hnd
  obtain ⟨A2, r2⟩ := adInv_setOrphans [i] rest hA'
    (by
      intro x hx
      rw [ho]
      left
      rcases hx with hx | hx
      · simp only [List.mem_singleton] at hx
        simp [hx]
      · simp [hx]) (by simpa using hnd)
  obtain ⟨⟨A3, r3⟩, ho3⟩ := drain_orphans_inv hd A2
  obtain ⟨A4, r4⟩ := adInv_setOrphans rest [] A3
    (by
      intro x hx
      rcases hx with hx | hx
      · exact Or.inr hx
      · simp at hx)
    (by
      have := A3.inv.orphans.nodup
      rw [ho3] at this
      simpa using this)
  exact ⟨A4, stepRel_trans hrel (stepRel_trans r2 (stepRel_trans r3 r4))⟩

end Maxflow

namespace Maxflow

/-! ### Cold initialisation -/

@[simp] theorem trunc_nodes (g : Graph) (k : Nat) : (g.trunc k).nodes = g.nodes := rfl

@[simp] theorem trunc_node_num (g : Graph) (k : Nat) : (g.trunc k).node_num = k := rfl

@[simp] theorem trunc_queue_first0 (g : Graph) (k : Nat) :
    (g.trunc k).queue_first0 = g.queue_first0 := rfl

@[simp] theorem trunc_queue_last0 (g : Graph) (k : Nat) :
    (g.trunc k).queue_last0 = g.queue_last0 := rfl

@[simp] theorem trunc_queue_first1 (g : Graph) (k : Nat) :
    (g.trunc k).queue_first1 = g.queue_first1 := rfl

@[simp] theorem trunc_queue_last1 (g : Graph) (k : Nat) :
    (g.trunc k).queue_last1 = g.queue_last1 := rfl

theorem trunc_self (g : Graph) : g.trunc g.node_num = g := rfl

theorem set_active_trunc (g : Graph) (k j : Nat) :
    set_active (g.trunc k) j = (set_active g j).trunc k := by
  unfold set_active
  simp only [trunc_nodes, trunc_queue_last1]
  split
  · split <;> rfl
  · rfl

/-- The queues stay sound when the arena seen grows by a node whose `next` is
null. -/
theorem queueInv_extend {g g' : Graph} {k : Nat} {q1 : List Nat}
    (h : QueueInv (g.trunc k) none [] q1)
    (hn : ∀ x, x ≠ k → (g'.nodes x).next = (g.nodes x).next)
    (hk : (g'.nodes k).next = none)
    (h0 : g'.queue_first0 = g.queue_first0 ∧ g'.queue_last0 = g.queue_last0)
    (h1 : g'.queue_first1 = g.queue_first1 ∧ g'.queue_last1 = g.queue_last1) :
    QueueInv (g'.trunc (k + 1)) none [] q1 := by
  have hb : ∀ x ∈ q1, x < k := fun x hx => by simpa using h.bound x (Or.inr hx)
  refine ⟨?_, ?_, h.nodup, ?_, fun c hc => by simp at hc, ?_⟩
  · have := h.queue0
    simp only [trunc_nodes, trunc_queue_first0, trunc_queue_last0, isQueue_nil_iff] at this ⊢
    rw [h0.1, h0.2]
    exact this
  · have := h.queue1
    simp only [trunc_nodes, trunc_queue_first1, trunc_queue_last1] at this ⊢
    rw [h1.1, h1.2]
    refine isQueue_congr ?_ this
    intro x hx
    exact hn x (Nat.ne_of_lt (hb x hx))
  · intro i hi hni
    simp only [trunc_nodes, trunc_node_num] at hi hni
    have hik : i ≠ k := by
      intro hh
      rw [hh] at hni
      exact hni hk
    rw [hn i hik] at hni
    exact h.complete i (by simp only [trunc_node_num]; omega) hni
  · intro i hi
    rcases hi with hi | hi
    · simp at hi
    · simp only [trunc_node_num]
      have := hb i hi
      omega

theorem init_clear_next (g : Graph) (k x : Nat) :
    ((init_clear g k).nodes x).next = if x = k then none else (g.nodes x).next := by
  unfold init_clear
  simp

/-- Node `k` is made a root of the tree `s`. -/
theorem initInv_root {g : Graph} {k : Nat} (s : Bool) (h : InitInv g k)
    (hs : (s = false → 0 < (g.nodes k).tr_cap) ∧ (s = true → (g.nodes k).tr_cap < 0)) :
    InitInv ((set_active (((init_clear g k).setSink k s).setParent k ArcPtr.terminal)
      k).setDIST k 1) (k + 1) := by
  obtain ⟨q1, hq⟩ := h.queue
  have hq1 : QueueInv ((((init_clear g k).setSink k s).setParent k ArcPtr.terminal).trunc
      (k + 1)) none [] q1 := by
    refine queueInv_extend hq ?_ ?_ ?_ ?_
    · intro x hx
      simp [init_clear_next, hx]
    · simp [init_clear_next]
    · simp [init_clear]
    · simp [init_clear]
  obtain ⟨q1', hq2, _, _⟩ := queueInv_set_active hq1 k (by simp) (by simp)
  rw [set_active_trunc] at hq2
  have hpar : ∀ x, (((set_active (((init_clear g k).setSink k s).setParent k ArcPtr.terminal)
      k).setDIST k 1).nodes x).parent = if x = k then ArcPtr.terminal else (g.nodes x).parent := by
    intro x
    simp [init_clear]
  have htr : ∀ x, (((set_active (((init_clear g k).setSink k s).setParent k ArcPtr.terminal)
      k).setDIST k 1).nodes x).tr_cap = (g.nodes x).tr_cap := by
    intro x
    simp [init_clear]
  have hsk : ∀ x, (((set_active (((init_clear g k).setSink k s).setParent k ArcPtr.terminal)
      k).setDIST k 1).nodes x).is_sink = if x = k then s else (g.nodes x).is_sink := by
    intro x
    simp [init_clear]
  have hd : ∀ x, (((set_active (((init_clear g k).setSink k s).setParent k ArcPtr.terminal)
      k).setDIST k 1).nodes x).DIST = if x = k then 1 else (g.nodes x).DIST := by
    intro x
    simp [init_clear]
  have hnx : ∀ x, (x = k ∨ (g.nodes x).next ≠ none) →
      (((set_active (((init_clear g k).setSink k s).setParent k ArcPtr.terminal)
        k).setDIST k 1).nodes x).next ≠ none := by
    intro x hx
    simp only [setDIST_nodes_next]
    by_cases hxk : x = k
    · subst hxk
      exact set_active_next_self _ _
    · apply set_active_next_mono
      simp only [setParent_nodes_next, setSink_nodes_next, init_clear_next, hxk, if_false]
      rcases hx with hx | hx
      · exact absurd hx hxk
      · exact hx
  refine ⟨⟨q1', ?_⟩, ?_, ?_, ?_, ?_, ?_, ?_⟩
  · exact queueInv_congr hq2 (by simp) (by simp) (by simp) (by simp)
  · intro x hx
    rw [hpar]
    by_cases hxk : x = k
    · simp [hxk]
    · simp only [hxk, if_false]
      exact h.kind x (by omega)
  · intro x hx hp
    rw [htr] at hp
    rw [hpar, hsk]
    by_cases hxk : x = k
    · subst hxk
      simp only [if_true, true_and]
      cases s with
      | false => rfl
      | true =>
        have := hs.2 rfl
        omega
    · simp only [hxk, if_false]
      exact h.pos x (by omega) hp
  · intro x hx hp
    rw [htr] at hp
    rw [hpar, hsk]
    by_cases hxk : x = k
    · subst hxk
      simp only [if_true, true_and]
      cases s with
      | true => rfl
      | false =>
        have := hs.1 rfl
        omega
    · simp only [hxk, if_false]
      exact h.neg x (by omega) hp
  · intro x hx hp
    rw [htr] at hp
    rw [hpar]
    by_cases hxk : x = k
    · subst hxk
      exfalso
      cases s with
      | true =>
        have := hs.2 rfl
        omega
      | false =>
        have := hs.1 rfl
        omega
    · simp only [hxk, if_false]
      exact h.zero x (by omega) hp
  · intro x hx hp
    rw [hpar] at hp
    rw [hd]
    by_cases hxk : x = k
    · exact ⟨hnx x (Or.inl hxk), by simp [hxk]⟩
    · simp only [hxk, if_false] at hp ⊢
      obtain ⟨r1, r2⟩ := h.root x (by omega) hp
      exact ⟨hnx x (Or.inr r1), r2⟩
  · simpa [init_clear] using h.orphans

/-- Node `k` is left free. -/
theorem initInv_free {g : Graph} {k : Nat} (h : InitInv g k) (h0 : (g.nodes k).tr_cap = 0) :
    InitInv ((init_clear g k).setParent k ArcPtr.null) (k + 1) := by
  obtain ⟨q1, hq⟩ := h.queue
  have hq1 : QueueInv (((init_clear g k).setParent k ArcPtr.null).trunc (k + 1)) none [] q1 := by
    refine queueInv_extend hq ?_ ?_ ?_ ?_
    · intro x hx
      simp [init_clear_next, hx]
    · simp [init_clear_next]
    · simp [init_clear]
    · simp [init_clear]
  have hpar : ∀ x, (((init_clear g k).setParent k ArcPtr.null).nodes x).parent =
      if x = k then ArcPtr.null else (g.nodes x).parent := by
    intro x
    simp [init_clear]
  have htr : ∀ x, (((init_clear g k).setParent k ArcPtr.null).nodes x).tr_cap =
      (g.nodes x).tr_cap := by
    intro x
    simp [init_clear]
  have hsk : ∀ x, (((init_clear g k).setParent k ArcPtr.null).nodes x).is_sink =
      (g.nodes x).is_sink := by
    intro x
    simp [init_clear]
  have hd : ∀ x, (((init_clear g k).setParent k ArcPtr.null).nodes x).DIST =
      (g.nodes x).DIST := by
    intro x
    simp [init_clear]
  refine ⟨⟨q1, hq1⟩, ?_, ?_, ?_, ?_, ?_, ?_⟩
  · intro x hx
    rw [hpar]
    by_cases hxk : x = k
    · simp [hxk]
    · simp only [hxk, if_false]
      exact h.kind x (by omega)
  · intro x hx hp
    rw [htr] at hp
    rw [hpar, hsk]
    by_cases hxk : x = k
    · subst hxk
      omega
    · simp only [hxk, if_false]
      exact h.pos x (by omega) hp
  · intro x hx hp
    rw [htr] at hp
    rw [hpar, hsk]
    by_cases hxk : x = k
    · subst hxk
      omega
    · simp only [hxk, if_false]
      exact h.neg x (by omega) hp
  · intro x hx hp
    rw [htr] at hp
    rw [hpar]
    by_cases hxk : x = k
    · simp [hxk]
    · simp only [hxk, if_false]
      exact h.zero x (by omega) hp
  · intro x hx hp
    rw [hpar] at hp
    rw [hd]
    by_cases hxk : x = k
    · simp [hxk] at hp
    · simp only [hxk, if_false] at hp
      obtain ⟨r1, r2⟩ := h.root x (by omega) hp
      refine ⟨?_, r2⟩
      simp only [setParent_nodes_next, init_clear_next, hxk, if_false]
      exact r1
  · simpa [init_clear] using h.orphans

theorem initInv_init_node {g : Graph} {k : Nat} (h : InitInv g k) :
    InitInv (init_node g k) (k + 1) := by
  have htr : ((init_clear g k).nodes k).tr_cap = (g.nodes k).tr_cap := by simp [init_clear]
  unfold init_node
  rw [htr]
  split
  · rename_i hp
    exact initInv_root false h ⟨fun _ => hp, fun hh => absurd hh (by simp)⟩
  · split
    · rename_i hp
      exact initInv_root true h ⟨fun hh => absurd hh (by simp), fun _ => hp⟩
    · exact initInv_free h (by omega)

theorem initInv_init_nodes {g : Graph} (h : InitInv g 0) (k : Nat) :
    InitInv (init_nodes g k) k := by
  induction k with
  | zero => exact h
  | succ n ih => exact initInv_init_node ih

end Maxflow

namespace Maxflow

/-! ## The growth scan, as a function of its arguments -/

/-- The growth scan returns when its budget covers the arcs still to scan. -/
theorem grow_total (sink : Bool) (i : Nat) {f : Nat} {g : Graph} {p : Option Nat}
    {post : List Nat} (hl : IsArcList g.arcs p post) (hf : post.length < f) :
    ∃ r, grow sink i f g p = Res.ok r := by
  induction post generalizing f g p with
  | nil =>
    have : p = none := hl
    subst this
    cases f <;> exact ⟨_, rfl⟩
  | cons a post ih =>
    obtain ⟨hp, hl'⟩ := hl
    subst hp
    obtain ⟨n, rfl⟩ : ∃ n, f = n + 1 := ⟨f - 1, by omega⟩
    simp only [List.length_cons] at hf
    have hn : post.length < n := by omega
    simp only [grow]
    split
    · split
      · refine ih (isArcList_congr ?_ hl') hn
        intro x
        exact (writes_shape (writes_grow_adopt g sink i a)).next x
      · split
        · exact ⟨_, rfl⟩
        · split
          · refine ih (isArcList_congr ?_ hl') hn
            intro x
            exact (writes_shape (writes_attach (K := growFields) (by decide) (by decide)
              (by decide) g i _ a)).next x
          · exact ih hl' hn
    · exact ih hl' hn

/-- C13: the growth scan from a node `i` that has a parent returns; when it
ends with an arc `m`, that arc has non-zero residual, leaves a node of the
source tree and leads to a node of the sink tree, and it is the scanned arc for
a source-side `i`, the sister of the scanned arc for a sink-side `i`; when it
ends with null, every arc out of `i` with non-zero residual in the direction of
growth leads to a node of the tree of `i`. -/
theorem growth_returns_boundary (g : Graph) (i F : Nat) (hw : WellFormed g)
    (hi : i < g.node_num) (hp : (g.nodes i).parent ≠ ArcPtr.null)
    (hF : (arcs_of g i).length < F) :
    ∃ g3 r, grow (g.nodes i).is_sink i F g (g.nodes i).first = Res.ok (g3, r) ∧
      (∀ m, r = some m →
        (g3.arcs m).r_cap ≠ 0 ∧
        (g3.nodes (g3.arcs (g3.arcs m).sister).head).parent ≠ ArcPtr.null ∧
        (g3.nodes (g3.arcs (g3.arcs m).sister).head).is_sink = false ∧
        (g3.nodes (g3.arcs m).head).parent ≠ ArcPtr.null ∧
        (g3.nodes (g3.arcs m).head).is_sink = true ∧
        ((g.nodes i).is_sink = false → m ∈ arcs_of g i) ∧
        ((g.nodes i).is_sink = true → ∃ a ∈ arcs_of g i, m = (g.arcs a).sister)) ∧
      (r = none → ∀ a ∈ arcs_of g i, grow_rcap g3 (g.nodes i).is_sink a ≠ 0 →
        (g3.nodes (g3.arcs a).head).parent ≠ ArcPtr.null ∧
        (g3.nodes (g3.arcs a).head).is_sink = (g.nodes i).is_sink) := by
  obtain ⟨⟨g3, r⟩, hr⟩ := grow_total (g.nodes i).is_sink i (hw.lists i hi) hF
  refine ⟨g3, r, hr, ?_⟩
  have key := @grow_rule (g.nodes i).is_sink i
    (fun g' p => SameShape g g' ∧ InTree g' (g.nodes i).is_sink i ∧
      ∃ pre post, arcs_of g i = pre ++ post ∧ IsArcList g.arcs p post ∧
        ∀ b ∈ pre, grow_rcap g' (g.nodes i).is_sink b ≠ 0 →
          InTree g' (g.nodes i).is_sink (g.arcs b).head)
    (fun g' r => SameShape g g' ∧
      (∀ m, r = some m → (g'.arcs m).r_cap ≠ 0 ∧ InTree g' false (g.tail m) ∧
        InTree g' true (g.arcs m).head ∧
        ((g.nodes i).is_sink = false → m ∈ arcs_of g i) ∧
        ((g.nodes i).is_sink = true → ∃ a ∈ arcs_of g i, m = (g.arcs a).sister)) ∧
      (r = none → ∀ a ∈ arcs_of g i, grow_rcap g' (g.nodes i).is_sink a ≠ 0 →
        InTree g' (g.nodes i).is_sink (g.arcs a).head))
    ?_ ?_ ?_ ?_ ?_ ?_ F g (g.nodes i).first (g3, r) hr
    ⟨sameShape_refl g, ⟨hp, rfl⟩, [], arcs_of g i, rfl, hw.lists i hi, by simp⟩
  · obtain ⟨hs, h1, h2⟩ := key
    constructor
    · intro m hm
      obtain ⟨q1, q2, q3, q4, q5⟩ := h1 m hm
      have ht : (g3.arcs (g3.arcs m).sister).head = g.tail m := by
        rw [hs.sister, hs.head]
        rfl
      rw [ht, hs.head]
      exact ⟨q1, q2.1, q2.2, q3.1, q3.2, q4, q5⟩
    · intro hn a ha hra
      have := h2 hn a ha hra
      rw [hs.head]
      exact this
  · rintro g' a ⟨hs, hin, pre, post, hl, hpost, hpre⟩ hr hpa
    obtain ⟨post', rfl, hpost'⟩ := isArcList_suffix_step hpost
    have hs2 : SameShape g' (grow_adopt g' (g.nodes i).is_sink i a) :=
      writes_shape (writes_grow_adopt g' _ i a)
    refine ⟨sameShape_trans hs hs2, inTree_grow_adopt _ i hpa hin, pre ++ [a], post',
      by rw [hl]; simp, ?_, ?_⟩
    · rw [hs.next]
      exact hpost'
    · intro b hb hrb
      rw [grow_rcap_congr hs2 (by simp)] at hrb
      simp only [List.mem_append, List.mem_singleton] at hb
      rcases hb with hb | hb
      · exact inTree_grow_adopt _ i hpa (hpre b hb hrb)
      · subst hb
        unfold InTree
        rw [← hs.head]
        simp
  · rintro g' a ⟨hs, hin, pre, post, hl, hpost, hpre⟩ hr hpa hka _ _
    obtain ⟨post', rfl, hpost'⟩ := isArcList_suffix_step hpost
    have hs2 : SameShape g' (attach g' i (g'.arcs a).head a) :=
      writes_shape (writes_attach (K := growFields) (by decide) (by decide) (by decide) g' i _ a)
    refine ⟨sameShape_trans hs hs2, inTree_attach hin, pre ++ [a], post',
      by rw [hl]; simp, ?_, ?_⟩
    · rw [hs.next]
      exact hpost'
    · intro b hb hrb
      rw [grow_rcap_congr hs2 (by simp)] at hrb
      simp only [List.mem_append, List.mem_singleton] at hb
      rcases hb with hb | hb
      · exact inTree_attach (hpre b hb hrb)
      · subst hb
        rw [← hs.head]
        exact inTree_attach ⟨hpa, hka⟩
  · rintro g' a ⟨hs, hin, pre, post, hl, hpost, hpre⟩ hr hpa hka
    obtain ⟨post', rfl, hpost'⟩ := isArcList_suffix_step hpost
    refine ⟨hs, hin, pre ++ [a], post', by rw [hl]; simp, ?_, ?_⟩
    · rw [hs.next]
      exact hpost'
    · intro b hb hrb
      simp only [List.mem_append, List.mem_singleton] at hb
      rcases hb with hb | hb
      · exact hpre b hb hrb
      · subst hb
        rw [← hs.head]
        exact ⟨hpa, hka⟩
  · rintro g' a ⟨hs, hin, pre, post, hl, hpost, hpre⟩ hr
    obtain ⟨post', rfl, hpost'⟩ := isArcList_suffix_step hpost
    refine ⟨hs, hin, pre ++ [a], post', by rw [hl]; simp, ?_, ?_⟩
    · rw [hs.next]
      exact hpost'
    · intro b hb hrb
      simp only [List.mem_append, List.mem_singleton] at hb
      rcases hb with hb | hb
      · exact hpre b hb hrb
      · subst hb
        exact absurd hr hrb
  · rintro g' a ⟨hs, hin, pre, post, hl, hpost, hpre⟩ hr hpa hka
    obtain ⟨post', rfl, hpost'⟩ := isArcList_suffix_step hpost
    have ha : a ∈ arcs_of g i := by rw [hl]; simp
    obtain ⟨ha1, ha2, ha3, ha4, ha5, ha6, ha7⟩ := hw.mem_arcs_of hi ha
    refine ⟨hs, ?_, fun hh => by simp at hh⟩
    intro m hm
    simp only [Option.some.injEq] at hm
    subst hm
    rw [hs.head] at hpa hka
    cases hsk : (g.nodes i).is_sink with
    | false =>
      rw [hsk] at hr hka hin
      simp only [Bool.false_eq_true, if_false]
      refine ⟨by simpa [grow_rcap] using hr, ?_, ⟨hpa, by simpa using hka⟩,
        fun _ => ha, fun hh => absurd hh (by simp)⟩
      rw [ha2]
      exact hin
    | true =>
      rw [hsk] at hr hka hin
      simp only [if_true]
      rw [hs.sister]
      refine ⟨by simpa [grow_rcap, hs.sister] using hr, ?_, ?_,
        fun hh => absurd hh (by simp), fun _ => ⟨a, ha, rfl⟩⟩
      · rw [hw.tail_sister ha1]
        exact ⟨hpa, by simpa using hka⟩
      · rw [ha7]
        exact hin
  · rintro g' ⟨hs, hin, pre, post, hl, hpost, hpre⟩
    have := isArcList_none hpost
    subst this
    simp only [List.append_nil] at hl
    refine ⟨hs, fun m hm => by simp at hm, fun _ a ha hra => ?_⟩
    rw [hl] at ha
    exact hpre a ha hra

theorem wellFormed_scenario1 : WellFormed scenario1 :=
  ⟨by decide, by decide, by decide, by decide, by decide⟩

theorem wellFormed_diamond : WellFormed diamond :=
  ⟨by decide, by decide, by decide, by decide, by decide⟩

theorem growth_returns_boundary_witness :
    ∃ g3, grow false 0 2 (maxflow_init scenario1) ((maxflow_init scenario1).nodes 0).first =
        Res.ok (g3, some 0) ∧ (g3.arcs 0).r_cap ≠ 0 ∧
      (g3.nodes (g3.arcs 0).head).is_sink = true := by
  obtain ⟨g3, r, h1, h2, _⟩ := growth_returns_boundary (maxflow_init scenario1) 0 2
    (wellFormed_of_writes (maxflow_init_writes scenario1) wellFormed_scenario1)
    (by decide) (by decide) (by decide)
  have hr : r = some 0 := by
    have h3 : grow false 0 2 (maxflow_init scenario1) ((maxflow_init scenario1).nodes 0).first =
        Res.ok (g3, r) := h1
    have h4 : (match grow false 0 2 (maxflow_init scenario1)
        ((maxflow_init scenario1).nodes 0).first with
      | Res.ok x => x.2
      | Res.fuel => none
      | Res.fault => none) = some 0 := by decide
    rw [h3] at h4
    exact h4
  subst hr
  obtain ⟨q1, _, _, _, q5, _⟩ := h2 0 rfl
  exact ⟨g3, h1, q1, q5⟩

end Maxflow

namespace Maxflow

/-! ## `next_active`, as a function of the queues -/

/-- The swap at the top of `next_active` keeps the queued nodes in order; if
the first queue is empty afterwards, both are. -/
theorem queueInv_refill_exact {g : Graph} {cur : Option Nat} {q0 q1 : List Nat}
    (h : QueueInv g cur q0 q1) :
    ∃ q0' q1', QueueInv (refill g) cur q0' q1' ∧ q0' ++ q1' = q0 ++ q1 ∧
      (q0' = [] → q1' = []) := by
  unfold refill
  split
  · rename_i h0
    have hq0 : q0 = [] := by
      have := h.queue0
      rw [h0] at this
      exact isQueue_first_none this
    subst hq0
    refine ⟨q1, [], ⟨?_, ?_, ?_, ?_, ?_, ?_⟩, by simp, fun _ => rfl⟩
    · exact h.queue1
    · simp [rotate_queues, IsQueue]
    · simpa using h.nodup
    · intro i hi hne
      rcases h.complete i (by simpa using hi) (by simpa using hne) with h1 | h1 | h1
      · simp at h1
      · exact Or.inl h1
      · exact Or.inr (Or.inr h1)
    · intro c hc
      exact ⟨(h.current c hc).2, by simp⟩
    · intro i hi
      simp only [rotate_queues_node_num]
      rcases hi with hi | hi
      · exact h.bound i (Or.inr hi)
      · simp at hi
  · rename_i h0
    refine ⟨q0, q1, h, rfl, ?_⟩
    intro hq
    subst hq
    exact absurd h.queue0.1 h0

/-- `next_active` on sound queues holding `q0` then `q1`. -/
theorem next_active_spec (n : Nat) : ∀ (f : Nat) (g : Graph) (q0 q1 : List Nat),
    QueueInv g none q0 q1 → (q0 ++ q1).length = n → n < f →
    ∃ g' r, next_active f g = Res.ok (g', r) ∧
      (∀ y, (g'.nodes y).parent = (g.nodes y).parent) ∧
      (∀ y, (g.nodes y).next = none → (g'.nodes y).next = none) ∧
      (r = none → (∀ x ∈ q0 ++ q1, (g.nodes x).parent = ArcPtr.null) ∧
        QueueInv g' none [] [] ∧ ∀ x ∈ q0 ++ q1, (g'.nodes x).next = none) ∧
      (∀ x, r = some x → ∃ pre post, q0 ++ q1 = pre ++ x :: post ∧
        (∀ y ∈ pre, (g.nodes y).parent = ArcPtr.null) ∧
        (g.nodes x).parent ≠ ArcPtr.null ∧
        (∀ y ∈ pre ++ [x], (g'.nodes y).next = none) ∧
        ∃ q0' q1', QueueInv g' none q0' q1' ∧ q0' ++ q1' = post) := by
  induction n with
  | zero =>
    intro f g q0 q1 hq hlen hf
    obtain ⟨k, rfl⟩ : ∃ k, f = k + 1 := ⟨f - 1, by omega⟩
    obtain ⟨q0', q1', hq', hcat, hemp⟩ := queueInv_refill_exact hq
    have hnil : q0 ++ q1 = [] := List.length_eq_zero.1 hlen
    rw [hnil] at hcat
    have h0 : q0' = [] := (List.append_eq_nil.1 hcat).1
    have h1 : q1' = [] := (List.append_eq_nil.1 hcat).2
    subst h0
    subst h1
    have hfirst : (refill g).queue_first0 = none := hq'.queue0.1
    refine ⟨refill g, none, ?_, by simp, by simp, ?_, fun x hx => by simp at hx⟩
    · simp only [next_active, hfirst]
    · intro _
      rw [hnil]
      exact ⟨fun x hx => by simp at hx, hq', fun x hx => by simp at hx⟩
  | succ n ih =>
    intro f g q0 q1 hq hlen hf
    obtain ⟨k, rfl⟩ : ∃ k, f = k + 1 := ⟨f - 1, by omega⟩
    obtain ⟨q0', q1', hq', hcat, hemp⟩ := queueInv_refill_exact hq
    have hne : q0' ≠ [] := by
      intro hh
      have := hemp hh
      rw [hh, this] at hcat
      rw [← hcat] at hlen
      simp at hlen
    obtain ⟨i, r0, hq0⟩ : ∃ i r0, q0' = i :: r0 := by
      cases q0' with
      | nil => exact absurd rfl hne
      | cons i r0 => exact ⟨i, r0, rfl⟩
    subst hq0
    have hfirst : (refill g).queue_first0 = some i := by
      have := hq'.queue0
      cases r0 with
      | nil => exact this.1
      | cons y r => exact this.1
    obtain ⟨r1, hr1, hq2, hni, _⟩ := queueInv_pop_active hq' hfirst
    simp only [List.cons.injEq, true_and] at hr1
    subst hr1
    have hqq : q0 ++ q1 = i :: (r0 ++ q1') := by rw [← hcat]; rfl
    have hpar : ∀ y, ((pop_active (refill g) i).nodes y).parent = (g.nodes y).parent := by
      intro y
      simp
    have hnext : ∀ y, (g.nodes y).next = none →
        ((pop_active (refill g) i).nodes y).next = none := by
      intro y hy
      rw [pop_active_nodes_next]
      split
      · rfl
      · rw [refill_nodes_next]
        exact hy
    by_cases hp : (g.nodes i).parent = ArcPtr.null
    · have hlen' : (r0 ++ q1').length = n := by
        rw [hqq] at hlen
        simpa using hlen
      obtain ⟨g', r, hr, e1, e2, e3, e4⟩ := ih k (pop_active (refill g) i) r0 q1' hq2 hlen'
        (by omega)
      refine ⟨g', r, ?_, fun y => by rw [e1, hpar], fun y hy => e2 y (hnext y hy), ?_, ?_⟩
      · simp only [next_active, hfirst]
        rw [if_neg (by rw [hpar]; simpa using hp)]
        exact hr
      · intro hr0
        obtain ⟨a1, a2, a3⟩ := e3 hr0
        rw [hqq]
        refine ⟨?_, a2, ?_⟩
        · intro x hx
          rcases List.mem_cons.1 hx with hx | hx
          · rw [hx]
            exact hp
          · rw [← hpar]
            exact a1 x hx
        · intro x hx
          rcases List.mem_cons.1 hx with hx | hx
          · rw [hx]
            exact e2 i hni
          · exact a3 x hx
      · intro x hx
        obtain ⟨pre, post, b1, b2, b3, b4, b5⟩ := e4 x hx
        refine ⟨i :: pre, post, by rw [hqq, b1]; rfl, ?_, by rw [← hpar]; exact b3, ?_, b5⟩
        · intro y hy
          rcases List.mem_cons.1 hy with hy | hy
          · rw [hy]
            exact hp
          · rw [← hpar]
            exact b2 y hy
        · intro y hy
          simp only [List.cons_append, List.mem_cons] at hy
          rcases hy with hy | hy
          · rw [hy]
            exact e2 i hni
          · exact b4 y hy
    · refine ⟨pop_active (refill g) i, some i, ?_, hpar, hnext, fun hh => by simp at hh, ?_⟩
      · simp only [next_active, hfirst]
        rw [if_pos (by rw [hpar]; exact hp)]
      · intro x hx
        simp only [Option.some.injEq] at hx
        subst hx
        refine ⟨[], r0 ++ q1', by rw [hqq]; rfl, fun y hy => by simp at hy, hp, ?_,
          r0, q1', hq2, rfl⟩
        intro y hy
        simp only [List.nil_append, List.mem_singleton] at hy
        rw [hy]
        exact hni

/-- C16: on sound queues holding the nodes `q0` then `q1`, `next_active`
returns; it returns null exactly when no queued node has a parent, and then
both queues are empty and every queued node has `next = NULL`; otherwise it
returns the first queued node `x` with a parent, the nodes before it and `x`
have `next = NULL`, and the queues hold the nodes after `x`, in order. -/
theorem next_active_returns_first_parented (g : Graph) (q0 q1 : List Nat) (F : Nat)
    (hq : QueueInv g none q0 q1) (hF : (q0 ++ q1).length < F) :
    ∃ g' r, next_active F g = Res.ok (g', r) ∧
      (r = none ↔ ∀ x ∈ q0 ++ q1, (g.nodes x).parent = ArcPtr.null) ∧
      (r = none → g'.queue_first0 = none ∧ g'.queue_last0 = none ∧
        g'.queue_first1 = none ∧ g'.queue_last1 = none ∧
        ∀ x ∈ q0 ++ q1, (g'.nodes x).next = none) ∧
      (∀ x, r = some x → ∃ pre post, q0 ++ q1 = pre ++ x :: post ∧
        (∀ y ∈ pre, (g.nodes y).parent = ArcPtr.null) ∧
        (g.nodes x).parent ≠ ArcPtr.null ∧
        (∀ y ∈ pre ++ [x], (g'.nodes y).next = none) ∧
        ∃ q0' q1', IsQueue g'.nodes g'.queue_first0 g'.queue_last0 q0' ∧
          IsQueue g'.nodes g'.queue_first1 g'.queue_last1 q1' ∧ q0' ++ q1' = post) := by
  obtain ⟨g', r, hr, _, _, e3, e4⟩ := next_active_spec _ F g q0 q1 hq rfl hF
  refine ⟨g', r, hr, ⟨fun h => (e3 h).1, ?_⟩, ?_, ?_⟩
  · intro hall
    cases r with
    | none => rfl
    | some x =>
      obtain ⟨pre, post, b1, _, b3, _⟩ := e4 x rfl
      exact absurd (hall x (by rw [b1]; simp)) b3
  · intro h
    obtain ⟨_, a2, a3⟩ := e3 h
    exact ⟨a2.queue0.1, a2.queue0.2, a2.queue1.1, a2.queue1.2, a3⟩
  · intro x hx
    obtain ⟨pre, post, b1, b2, b3, b4, q0', q1', b5, b6⟩ := e4 x hx
    exact ⟨pre, post, b1, b2, b3, b4, q0', q1', b5.queue0, b5.queue1, b6⟩

theorem queueInv_scenario1_init : QueueInv (maxflow_init scenario1) none [] [0, 1] := by
  refine ⟨?_, ?_, by decide, by decide, by decide, ?_⟩
  · simp only [IsQueue]
    decide
  · simp only [IsQueue]
    decide
  · intro i hi
    simp only [List.not_mem_nil, false_or, List.mem_cons, or_false] at hi
    rcases hi with rfl | rfl <;> decide

theorem next_active_returns_first_parented_witness :
    ∃ g' r, next_active 3 (maxflow_init scenario1) = Res.ok (g', r) ∧
      (r = none ↔
        ∀ x ∈ [] ++ [0, 1], ((maxflow_init scenario1).nodes x).parent = ArcPtr.null) :=
  let ⟨g', r, h1, h2, _⟩ := next_active_returns_first_parented (maxflow_init scenario1)
    [] [0, 1] 3 queueInv_scenario1_init (by decide)
  ⟨g', r, h1, h2⟩

end Maxflow

namespace Maxflow

/-! ## The loop over the neighbours of a freed orphan, as a function -/

theorem writes_neighbor_step_tight (g : Graph) (sink : Bool) (i a0 : Nat) :
    Writes [Field.next, Field.queue1, Field.parent, Field.orphans] g
      (neighbor_step g sink i a0) := by
  have hact : Writes [Field.next, Field.queue1, Field.parent, Field.orphans] g
      (if orphan_rcap g sink a0 ≠ 0 then set_active g (g.arcs a0).head else g) := by
    split
    · exact writes_set_active (by decide) (by decide) g _
    · exact Writes.refl g
  rcases neighbor_step_cases g sink i a0 with ⟨_, he⟩ | ⟨_, _, he⟩ | ⟨_, _, he⟩
  · rw [he]
    exact Writes.refl g
  · rw [he]
    exact writes_trans hact (writes_set_orphan_rear (by decide) (by decide) _ _)
  · rw [he]
    exact hact

theorem act_parent (g : Graph) (b : Prop) [Decidable b] (j x : Nat) :
    ((if b then set_active g j else g).nodes x).parent = (g.nodes x).parent := by
  split <;> simp

theorem act_orphans (g : Graph) (b : Prop) [Decidable b] (j : Nat) :
    (if b then set_active g j else g).orphans = g.orphans := by
  split <;> simp

theorem act_next_mono (g : Graph) (b : Prop) [Decidable b] (j x : Nat)
    (h : (g.nodes x).next ≠ none) : ((if b then set_active g j else g).nodes x).next ≠ none := by
  split
  · exact set_active_next_mono g j x h
  · exact h

/-- What one step of the loop over the neighbours of `i` does: a child of `i`
in the tree `sink` is made an orphan at the rear of the list, nothing else
changes a parent; no active flag is cleared; and the head of an arc with
residual towards `i` is active afterwards if it is in the tree `sink`. -/
theorem neighbor_step_effect (g : Graph) (sink : Bool) (i a0 : Nat) :
    (((g.nodes (g.arcs a0).head).is_sink = sink ∧
        ∃ p, (g.nodes (g.arcs a0).head).parent = ArcPtr.arc p ∧ (g.arcs p).head = i) →
      (neighbor_step g sink i a0).orphans = g.orphans ++ [(g.arcs a0).head] ∧
      ∀ x, ((neighbor_step g sink i a0).nodes x).parent =
        if x = (g.arcs a0).head then ArcPtr.orphan else (g.nodes x).parent) ∧
    (¬ ((g.nodes (g.arcs a0).head).is_sink = sink ∧
        ∃ p, (g.nodes (g.arcs a0).head).parent = ArcPtr.arc p ∧ (g.arcs p).head = i) →
      (neighbor_step g sink i a0).orphans = g.orphans ∧
      ∀ x, ((neighbor_step g sink i a0).nodes x).parent = (g.nodes x).parent) ∧
    (∀ x, (g.nodes x).next ≠ none → ((neighbor_step g sink i a0).nodes x).next ≠ none) ∧
    (orphan_rcap g sink a0 ≠ 0 → (g.nodes (g.arcs a0).head).is_sink = sink →
      (g.nodes (g.arcs a0).head).parent ≠ ArcPtr.null →
      ((neighbor_step g sink i a0).nodes (g.arcs a0).head).next ≠ none) := by
  rcases neighbor_step_cases g sink i a0 with ⟨hg, he⟩ | ⟨hg, ⟨p, hp, hh⟩, he⟩ | ⟨hg, hn, he⟩
  · rw [he]
    refine ⟨?_, fun _ => ⟨rfl, fun _ => rfl⟩, fun _ hx => hx, ?_⟩
    · rintro ⟨hk, p, hp, _⟩
      exact absurd ⟨hk, by rw [hp]; simp⟩ hg
    · intro _ hk hne
      exact absurd ⟨hk, hne⟩ hg
  · rw [he]
    refine ⟨fun _ => ⟨?_, ?_⟩, fun hc => absurd ⟨hg.1, p, hp, hh⟩ hc, ?_, ?_⟩
    · rw [set_orphan_rear_orphans, act_orphans]
    · intro x
      rw [set_orphan_rear_nodes_parent, act_parent]
    · intro x hx
      rw [set_orphan_rear_nodes_next]
      exact act_next_mono g _ _ x hx
    · intro hr _ _
      rw [set_orphan_rear_nodes_next, if_pos hr]
      exact set_active_next_self g _
  · rw [he]
    refine ⟨?_, fun _ => ⟨act_orphans g _ _, fun x => act_parent g _ _ x⟩,
      fun x hx => act_next_mono g _ _ x hx, ?_⟩
    · rintro ⟨_, p, hp, hh⟩
      exact absurd hh (hn p hp)
    · intro hr _ _
      rw [if_pos hr]
      exact set_active_next_self g _

/-- The loop over the neighbours returns when its budget covers the arcs still
to scan. -/
theorem process_neighbors_total (sink : Bool) (i : Nat) {f : Nat} {g : Graph}
    {p : Option Nat} {post : List Nat} (hl : IsArcList g.arcs p post)
    (hf : post.length < f) : ∃ r, process_neighbors sink i f g p = Res.ok r := by
  induction post generalizing f g p with
  | nil =>
    have : p = none := hl
    subst this
    cases f <;> exact ⟨_, rfl⟩
  | cons a post ih =>
    obtain ⟨hp, hl'⟩ := hl
    subst hp
    obtain ⟨n, rfl⟩ : ∃ n, f = n + 1 := ⟨f - 1, by omega⟩
    simp only [List.length_cons] at hf
    simp only [process_neighbors]
    refine ih (isArcList_congr ?_ hl') (by omega)
    intro x
    exact (writes_shape (writes_neighbor_step g sink i a)).next x

end Maxflow

namespace Maxflow

/-- The loop over the neighbours of `i`, started on the arc list of `i`: the
children of `i` in the tree `sink` met in the list are made orphans at the rear
of the orphan list, each once; no other parent changes; and the heads of the
arcs with residual towards `i` that are in the tree `sink` are active. -/
theorem process_neighbors_spec {sink : Bool} {i f : Nat} {g r : Graph}
    (h : process_neighbors sink i f g (g.nodes i).first = Res.ok r) (hw : WellFormed g)
    (hi : i < g.node_num) :
    Writes [Field.next, Field.queue1, Field.parent, Field.orphans] g r ∧
      (∀ x, (g.nodes x).next ≠ none → (r.nodes x).next ≠ none) ∧
      ∃ cs, r.orphans = g.orphans ++ cs ∧ cs.Nodup ∧
        (∀ j ∈ cs, (g.nodes j).is_sink = sink ∧
          (∃ p, (g.nodes j).parent = ArcPtr.arc p ∧ (g.arcs p).head = i) ∧
          ∃ b ∈ arcs_of g i, (g.arcs b).head = j) ∧
        (∀ x, (r.nodes x).parent = if x ∈ cs then ArcPtr.orphan else (g.nodes x).parent) ∧
        (∀ b ∈ arcs_of g i, ((g.nodes (g.arcs b).head).is_sink = sink ∧
          ∃ p, (g.nodes (g.arcs b).head).parent = ArcPtr.arc p ∧ (g.arcs p).head = i) →
          (g.arcs b).head ∈ cs) ∧
        (∀ b ∈ arcs_of g i, orphan_rcap g sink b ≠ 0 →
          (g.nodes (g.arcs b).head).is_sink = sink →
          (g.nodes (g.arcs b).head).parent ≠ ArcPtr.null →
          (r.nodes (g.arcs b).head).next ≠ none) := by
  have key := @process_neighbors_rule sink i
    (fun g' p => Writes [Field.next, Field.queue1, Field.parent, Field.orphans] g g' ∧
      (∀ x, (g.nodes x).next ≠ none → (g'.nodes x).next ≠ none) ∧
      ∃ pre post cs, arcs_of g i = pre ++ post ∧ IsArcList g.arcs p post ∧
        g'.orphans = g.orphans ++ cs ∧ cs.Nodup ∧
        (∀ j ∈ cs, (g.nodes j).is_sink = sink ∧
          (∃ p, (g.nodes j).parent = ArcPtr.arc p ∧ (g.arcs p).head = i) ∧
          ∃ b ∈ arcs_of g i, (g.arcs b).head = j) ∧
        (∀ x, (g'.nodes x).parent = if x ∈ cs then ArcPtr.orphan else (g.nodes x).parent) ∧
        (∀ b ∈ pre, ((g.nodes (g.arcs b).head).is_sink = sink ∧
          ∃ p, (g.nodes (g.arcs b).head).parent = ArcPtr.arc p ∧ (g.arcs p).head = i) →
          (g.arcs b).head ∈ cs) ∧
        (∀ b ∈ pre, orphan_rcap g sink b ≠ 0 →
          (g.nodes (g.arcs b).head).is_sink = sink →
          (g.nodes (g.arcs b).head).parent ≠ ArcPtr.null →
          (g'.nodes (g.arcs b).head).next ≠ none)) ?_ f g (g.nodes i).first r h
    ⟨Writes.refl g, fun _ hx => hx, [], arcs_of g i, [], rfl, hw.lists i hi, by simp,
      by simp, by simp, by simp, by simp, by simp⟩
  · obtain ⟨hw', hn, pre, post, cs, hl, hpost, ho, hnd, hcs, hpar, hch, hact⟩ := key
    have := isArcList_none hpost
    subst this
    simp only [List.append_nil] at hl
    rw [← hl] at hch hact
    exact ⟨hw', hn, cs, ho, hnd, hcs, hpar, hch, hact⟩
  · rintro g' a ⟨hw', hn, pre, post, cs, hl, hpost, ho, hnd, hcs, hpar, hch, hact⟩
    obtain ⟨post', rfl, hpost'⟩ := isArcList_suffix_step hpost
    have hs := writes_shape hw'
    have hk := writes_keep_is_sink hw' (by decide)
    obtain ⟨e1, e2, e3, e4⟩ := neighbor_step_effect g' sink i a
    simp only [hs.head, hk] at e1 e2 e4
    have hnext : ∀ x, (g.nodes x).next ≠ none →
        ((neighbor_step g' sink i a).nodes x).next ≠ none := fun x hx => e3 x (hn x hx)
    have hact' : orphan_rcap g sink a ≠ 0 → (g.nodes (g.arcs a).head).is_sink = sink →
        (g.nodes (g.arcs a).head).parent ≠ ArcPtr.null →
        ((neighbor_step g' sink i a).nodes (g.arcs a).head).next ≠ none := by
      intro hr hsk hp
      refine e4 ?_ hsk ?_
      · unfold orphan_rcap at hr ⊢
        rw [hs.sister, writes_keep_r_cap hw' (by decide)]
        exact hr
      · rw [hpar]
        split
        · simp
        · exact hp
    by_cases hc : (g.nodes (g.arcs a).head).is_sink = sink ∧
        ∃ p, (g'.nodes (g.arcs a).head).parent = ArcPtr.arc p ∧ (g.arcs p).head = i
    · obtain ⟨o1, o2⟩ := e1 hc
      obtain ⟨hsk, p, hp, hh⟩ := hc
      rw [hpar] at hp
      have hjc : (g.arcs a).head ∉ cs := by
        intro hin
        rw [if_pos hin] at hp
        exact absurd hp (by simp)
      rw [if_neg hjc] at hp
      refine ⟨writes_trans hw' (writes_neighbor_step_tight g' sink i a), hnext, pre ++ [a],
        post', cs ++ [(g.arcs a).head], by rw [hl]; simp, ?_, ?_, ?_, ?_, ?_, ?_, ?_⟩
      · rw [hs.next]
        exact hpost'
      · rw [o1, ho, List.append_assoc]
      · rw [List.nodup_append]
        refine ⟨hnd, by simp, ?_⟩
        intro x hx hx'
        simp only [List.mem_singleton] at hx'
        subst hx'
        exact hjc hx
      · intro j hj
        simp only [List.mem_append, List.mem_singleton] at hj
        rcases hj with hj | hj
        · exact hcs j hj
        · subst hj
          exact ⟨hsk, ⟨p, hp, hh⟩, a, by rw [hl]; simp, rfl⟩
      · intro x
        rw [o2, hpar]
        by_cases hx : x = (g.arcs a).head
        · subst hx
          simp
        · simp [hx]
      · intro b hb hcb
        simp only [List.mem_append, List.mem_singleton] at hb ⊢
        rcases hb with hb | hb
        · exact Or.inl (hch b hb hcb)
        · subst hb
          exact Or.inr rfl
      · intro b hb hr hsk' hp'
        simp only [List.mem_append, List.mem_singleton] at hb
        rcases hb with hb | hb
        · exact e3 _ (hact b hb hr hsk' hp')
        · subst hb
          exact hact' hr hsk' hp'
    · obtain ⟨o1, o2⟩ := e2 hc
      refine ⟨writes_trans hw' (writes_neighbor_step_tight g' sink i a), hnext, pre ++ [a],
        post', cs, by rw [hl]; simp, ?_, ?_, hnd, hcs, ?_, ?_, ?_⟩
      · rw [hs.next]
        exact hpost'
      · rw [o1, ho]
      · intro x
        rw [o2, hpar]
      · intro b hb hcb
        simp only [List.mem_append, List.mem_singleton] at hb
        rcases hb with hb | hb
        · exact hch b hb hcb
        · subst hb
          by_contra hnc
          apply hc
          obtain ⟨hsk, p, hp, hh⟩ := hcb
          refine ⟨hsk, p, ?_, hh⟩
          rw [hpar, if_neg hnc]
          exact hp
      · intro b hb hr hsk' hp'
        simp only [List.mem_append, List.mem_singleton] at hb
        rcases hb with hb | hb
        · exact e3 _ (hact b hb hr hsk' hp')
        · subst hb
          exact hact' hr hsk' hp'

/-- C15: when the search finds no parent for the orphan `i` of the tree `sink`,
the procedure returns; `i` ends with a null parent and has been put in the
changed list (when there is one and `i` was not flagged); every node of the
same tree with a parent at the head of an arc out of `i` with residual towards
`i` is active; and the children of `i` are made orphans at the rear of the
orphan list, each exactly once, nothing else changing a parent. -/
theorem orphan_without_parent_is_freed (F : Nat) (sink : Bool) (g gA : Graph) (i : Nat)
    (dmin : Int) (hw : WellFormed g) (ht : TreeInv g none) (hi : i < g.node_num)
    (hk : (g.nodes i).is_sink = sink) (hpi : (g.nodes i).parent = ArcPtr.orphan)
    (hfp : find_parent F sink F g (g.nodes i).first none INFINITE_D = Res.ok (gA, none, dmin))
    (hF : (arcs_of g i).length < F) :
    ∃ r, process_orphan F sink g i = Res.ok r ∧
      (r.nodes i).parent = ArcPtr.null ∧
      (∀ l, g.changed_list = some l →
        r.changed_list =
          some (if (g.nodes i).is_in_changed_list = true then l else l ++ [i]) ∧
        (r.nodes i).is_in_changed_list = true) ∧
      (∀ a ∈ arcs_of g i, orphan_rcap g sink a ≠ 0 → (g.arcs a).head ≠ i →
        (g.nodes (g.arcs a).head).is_sink = sink →
        (g.nodes (g.arcs a).head).parent ≠ ArcPtr.null →
        (r.nodes (g.arcs a).head).next ≠ none) ∧
      ∃ cs, r.orphans = g.orphans ++ cs ∧ cs.Nodup ∧
        (∀ j, j ∈ cs ↔ j < g.node_num ∧
          ∃ p, (g.nodes j).parent = ArcPtr.arc p ∧ (g.arcs p).head = i) ∧
        (∀ j ∈ cs, (r.nodes j).parent = ArcPtr.orphan) ∧
        (∀ j, j ∉ cs → j ≠ i → (r.nodes j).parent = (g.nodes j).parent) := by
  have hwA : Writes [Field.TS, Field.DIST] g gA := find_parent_writes hfp
  have hw2 : Writes [Field.TS, Field.DIST, Field.parent, Field.changed, Field.in_changed] g
      (add_to_changed_list (gA.setParent i ArcPtr.null) i) :=
    writes_trans (writes_mono (by decide) hwA)
      (writes_trans (writes_setParent (by decide) _ _ _)
        (writes_add_to_changed_list (by decide) (by decide) _ _))
  have hs2 := writes_shape hw2
  have hk2 := writes_keep_is_sink hw2 (by decide)
  have hpar2 : ∀ x, ((add_to_changed_list (gA.setParent i ArcPtr.null) i).nodes x).parent =
      if x = i then ArcPtr.null else (g.nodes x).parent := by
    intro x
    simp only [add_to_changed_list_nodes_parent, setParent_nodes_parent,
      writes_keep_parent hwA (by decide)]
  have hfirst : (gA.nodes i).first =
      ((add_to_changed_list (gA.setParent i ArcPtr.null) i).nodes i).first := by simp
  have hlist := (wellFormed_sameShape hs2 hw).lists i (by rw [hs2.node_num]; exact hi)
  obtain ⟨r, hr⟩ := process_neighbors_total sink i hlist
    (by rw [arcs_of_sameShape hs2]; exact hF)
  have hproc : process_orphan F sink g i = Res.ok r := by
    simp only [process_orphan, hfp, Res.bind]
    rw [hfirst]
    exact hr
  obtain ⟨hwr, _, cs, ho, hnd, hcs, hpar, hch, hact⟩ :=
    process_neighbors_spec hr (wellFormed_sameShape hs2 hw) (by rw [hs2.node_num]; exact hi)
  simp only [arcs_of_sameShape hs2, hs2.head, hk2, hpar2] at hcs hch hact hpar
  have hics : i ∉ cs := by
    intro hin
    obtain ⟨_, ⟨p, hp, _⟩, _⟩ := hcs i hin
    simp at hp
  refine ⟨r, hproc, ?_, ?_, ?_, cs, ?_, hnd, ?_, ?_, ?_⟩
  · rw [hpar, if_neg hics]
    simp
  · intro l hl
    have hclA : gA.changed_list = some l := by
      rw [writes_keep_changed hwA (by decide)]
      exact hl
    have hflA : (gA.nodes i).is_in_changed_list = (g.nodes i).is_in_changed_list :=
      writes_keep_in_changed hwA (by decide) i
    rw [writes_keep_changed hwr (by decide), writes_keep_in_changed hwr (by decide)]
    unfold add_to_changed_list
    simp only [setParent_changed_list, hclA, setParent_nodes_is_in_changed_list, hflA]
    by_cases hfl : (g.nodes i).is_in_changed_list = true
    · simp [hfl, hclA, hflA]
    · simp [hfl]
  · intro a ha hr0 hai hsk hp
    refine hact a ha ?_ hsk ?_
    · unfold orphan_rcap at hr0 ⊢
      rw [hs2.sister, writes_keep_r_cap hw2 (by decide)]
      exact hr0
    · rw [if_neg hai]
      exact hp
  · rw [ho]
    simp only [add_to_changed_list_orphans, setParent_orphans]
    rw [writes_keep_orphans hwA (by decide)]
  · intro j
    constructor
    · intro hj
      obtain ⟨_, ⟨p, hp, hh⟩, b, hb, hbj⟩ := hcs j hj
      have hji : j ≠ i := fun hh => hics (hh ▸ hj)
      rw [if_neg hji] at hp
      refine ⟨?_, p, hp, hh⟩
      rw [← hbj]
      exact (hw.mem_arcs_of hi hb).2.2.1
    · rintro ⟨hj, p, hp, hh⟩
      obtain ⟨t1, t2, t3, _⟩ := ht j hj p hp
      obtain ⟨s1, s2⟩ := hw.sister p t1
      have hl := hw.listed _ s1
      rw [hw.tail_sister t1, hh] at hl
      have hhead : (g.arcs (g.arcs p).sister).head = j := t2
      have hji : j ≠ i := by
        intro hji
        rw [hji, hpi] at hp
        exact absurd hp (by simp)
      have := hch _ hl ⟨by rw [hhead, ← t3, hh, hk], p, by rw [hhead, if_neg hji]; exact hp, hh⟩
      rw [hhead] at this
      exact this
  · intro j hj
    rw [hpar, if_pos hj]
  · intro j hj hji
    rw [hpar, if_neg hj, if_neg hji]

theorem wellFormed_scenario1_orphan : WellFormed scenario1_orphan :=
  ⟨by decide, by decide, by decide, by decide, by decide⟩

theorem treeInv_scenario1_orphan : TreeInv scenario1_orphan none := by
  intro i hi a hpa
  have hi2 : i < 2 := hi
  have h0 : (scenario1_orphan.nodes 0).parent = ArcPtr.terminal := by decide
  have h1 : (scenario1_orphan.nodes 1).parent = ArcPtr.orphan := by decide
  interval_cases i
  · rw [h0] at hpa
    exact absurd hpa (by simp)
  · rw [h1] at hpa
    exact absurd hpa (by simp)

theorem wellFormed_child_orphan : WellFormed child_orphan :=
  ⟨by decide, by decide, by decide, by decide, by decide⟩

theorem parents_child_orphan :
    (child_orphan.nodes 0).parent = ArcPtr.orphan ∧
      (child_orphan.nodes 1).parent = ArcPtr.arc 2 ∧
      (child_orphan.nodes 2).parent = ArcPtr.arc 0 ∧
      (child_orphan.nodes 3).parent = ArcPtr.terminal ∧
      (child_orphan.nodes 4).parent = ArcPtr.arc 9 := by decide

theorem treeInv_child_orphan : TreeInv child_orphan none := by
  obtain ⟨h0, h1, h2, h3, h4⟩ := parents_child_orphan
  intro i hi a hpa
  have hi2 : i < 5 := hi
  interval_cases i
  · rw [h0] at hpa
    exact absurd hpa (by simp)
  · rw [h1] at hpa
    injection hpa with e
    subst e
    decide
  · rw [h2] at hpa
    injection hpa with e
    subst e
    decide
  · rw [h3] at hpa
    exact absurd hpa (by simp)
  · rw [h4] at hpa
    injection hpa with e
    subst e
    decide

theorem orphan_without_parent_is_freed_witness :
    arcs_of child_orphan 0 = [5, 3, 1] ∧ (child_orphan.arcs 5).head = 1 ∧
      (child_orphan.arcs 3).head = 1 ∧ (child_orphan.arcs 1).head = 2 ∧
      (child_orphan.nodes 1).parent = ArcPtr.arc 2 ∧ (child_orphan.arcs 2).head = 0 ∧
      (child_orphan.nodes 1).next = none ∧ child_orphan.changed_list = some [] ∧
      ∃ r, process_orphan 6 true child_orphan 0 = Res.ok r ∧
        (r.nodes 0).parent = ArcPtr.null ∧ r.changed_list = some [0] ∧
        (r.nodes 0).is_in_changed_list = true ∧ (r.nodes 1).next ≠ none ∧
        r.orphans = [1, 2] ∧ (r.nodes 1).parent = ArcPtr.orphan ∧
        (r.nodes 2).parent = ArcPtr.orphan ∧ (r.nodes 3).parent = ArcPtr.terminal ∧
        (r.nodes 4).parent = ArcPtr.arc 9 := by
  obtain ⟨r, h1, h2, h3, h4, cs, h5, h6, h7, h8, h9⟩ :=
    orphan_without_parent_is_freed 6 true child_orphan child_orphan 0 INFINITE_D
      wellFormed_child_orphan treeInv_child_orphan (by decide) (by decide) (by decide) rfl
      (by decide)
  have e : r = (process_orphan 6 true child_orphan 0).getD child_orphan := by
    rw [h1]
    rfl
  have m1 : 1 ∈ cs := (h7 1).2 ⟨by decide, 2, by decide, by decide⟩
  have m2 : 2 ∈ cs := (h7 2).2 ⟨by decide, 0, by decide, by decide⟩
  have n3 : 3 ∉ cs := fun hh => by
    obtain ⟨_, p, hp, _⟩ := (h7 3).1 hh
    have h3 : (child_orphan.nodes 3).parent = ArcPtr.terminal := by decide
    rw [h3] at hp
    exact absurd hp (by simp)
  have n4 : 4 ∉ cs := fun hh => by
    obtain ⟨_, p, hp, hq⟩ := (h7 4).1 hh
    have : p = 9 := by
      have h9 : (child_orphan.nodes 4).parent = ArcPtr.arc 9 := by decide
      rw [h9] at hp
      injection hp with e
      exact e.symm
    subst this
    exact absurd hq (by decide)
  refine ⟨by decide, by decide, by decide, by decide, by decide, by decide, by decide, by decide,
    r, h1, h2, ?_, (h3 [] (by decide)).2, ?_, ?_, h8 1 m1, h8 2 m2, ?_, ?_⟩
  · have := (h3 [] (by decide)).1
    rw [this]
    decide
  · exact h4 5 (by decide) (by decide) (by decide) (by decide) (by decide)
  · rw [e]
    decide
  · rw [h9 3 n3 (by decide)]
    decide
  · rw [h9 4 n4 (by decide)]
    decide
end Maxflow

namespace Maxflow

/-! ## `augment`, as a function of the two parent walks -/

theorem gt_ite_eq_min (b x : Int) : (if b > x then x else b) = min b x := by
  split
  · rw [min_eq_right (by omega)]
  · rw [min_eq_left (by omega)]

/-- Loop 1a of `augment` on a parent walk that reaches a root. -/
theorem bottleneck_source_value {g : Graph} {l : List Nat} {r : Nat} :
    ∀ {i f : Nat} {b0 : Int}, IsPath g i l r → l.length < f →
      bottleneck_source g f i b0 = Res.ok
        (((l.map fun a => (g.arcs (g.arcs a).sister).r_cap) ++
          [(g.nodes r).tr_cap]).foldl min b0) := by
  induction l with
  | nil =>
    intro i f b0 hp hf
    obtain ⟨n, rfl⟩ : ∃ n, f = n + 1 := ⟨f - 1, by omega⟩
    obtain ⟨h1, rfl⟩ := hp
    simp only [bottleneck_source, h1, gt_ite_eq_min, List.map_nil, List.nil_append,
      List.foldl_cons, List.foldl_nil]
  | cons a l ih =>
    intro i f b0 hp hf
    obtain ⟨n, rfl⟩ : ∃ n, f = n + 1 := ⟨f - 1, by omega⟩
    obtain ⟨h1, h2⟩ := hp
    simp only [List.length_cons] at hf
    simp only [bottleneck_source, h1, gt_ite_eq_min, List.map_cons, List.cons_append,
      List.foldl_cons]
    exact ih h2 (by omega)

/-- Loop 1b of `augment` on a parent walk that reaches a root. -/
theorem bottleneck_sink_value {g : Graph} {l : List Nat} {r : Nat} :
    ∀ {i f : Nat} {b0 : Int}, IsPath g i l r → l.length < f →
      bottleneck_sink g f i b0 = Res.ok
        (((l.map fun a => (g.arcs a).r_cap) ++ [- (g.nodes r).tr_cap]).foldl min b0) := by
  induction l with
  | nil =>
    intro i f b0 hp hf
    obtain ⟨n, rfl⟩ : ∃ n, f = n + 1 := ⟨f - 1, by omega⟩
    obtain ⟨h1, rfl⟩ := hp
    simp only [bottleneck_sink, h1, gt_ite_eq_min, List.map_nil, List.nil_append,
      List.foldl_cons, List.foldl_nil]
  | cons a l ih =>
    intro i f b0 hp hf
    obtain ⟨n, rfl⟩ : ∃ n, f = n + 1 := ⟨f - 1, by omega⟩
    obtain ⟨h1, h2⟩ := hp
    simp only [List.length_cons] at hf
    simp only [bottleneck_sink, h1, gt_ite_eq_min, List.map_cons, List.cons_append,
      List.foldl_cons]
    exact ih h2 (by omega)

/-- Step 1 of `augment` computes the bottleneck of the specification. -/
theorem bottleneck_eq_value {g : Graph} {m : Nat} {ls lt : List Nat} {rs rt : Nat} {F : Nat}
    (hs : IsPath g (g.arcs (g.arcs m).sister).head ls rs) (ht : IsPath g (g.arcs m).head lt rt)
    (hFs : ls.length < F) (hFt : lt.length < F) :
    bottleneck F g m = Res.ok (bottleneck_value g m ls rs lt rt) := by
  unfold bottleneck bottleneck_value
  rw [bottleneck_source_value hs hFs]
  simp only [Res.bind]
  rw [bottleneck_sink_value ht hFt]
  simp only [List.foldl_append]

theorem foldl_min_le (l : List Int) (b0 : Int) :
    l.foldl min b0 ≤ b0 ∧ ∀ x ∈ l, l.foldl min b0 ≤ x := by
  induction l generalizing b0 with
  | nil => simp
  | cons y l ih =>
    simp only [List.foldl_cons, List.mem_cons]
    obtain ⟨h1, h2⟩ := ih (min b0 y)
    refine ⟨le_trans h1 (min_le_left _ _), ?_⟩
    rintro x (rfl | hx)
    · exact le_trans h1 (min_le_right _ _)
    · exact h2 x hx

theorem lt_foldl_min (l : List Int) (b0 c : Int) (h0 : c < b0) (hl : ∀ x ∈ l, c < x) :
    c < l.foldl min b0 := by
  induction l generalizing b0 with
  | nil => simpa using h0
  | cons y l ih =>
    simp only [List.foldl_cons]
    refine ih _ (lt_min h0 (hl y (by simp))) (fun x hx => hl x (by simp [hx]))

end Maxflow

namespace Maxflow

theorem push_root_effect (g : Graph) (i : Nat) (d b : Int) :
    WalkEffect g (push_root g i d) b [] []
      (if (g.nodes i).tr_cap + d = 0 then [i] else []) i d := by
  have htr : ((g.setTrCap i ((g.nodes i).tr_cap + d)).nodes i).tr_cap = (g.nodes i).tr_cap + d := by
    simp
  refine ⟨writes_push_root g i d, by simp, fun e => by simp, ?_, ?_, ?_⟩
  · intro x
    unfold push_root
    rw [htr]
    by_cases hx : x = i
    · subst hx
      split <;> simp
    · split <;> simp [hx]
  · unfold push_root
    rw [htr]
    split <;> simp
  · intro x
    unfold push_root
    rw [htr]
    split
    · simp
    · simp

/-- The orphan made by a push over a parent arc, if its residual is used up. -/
theorem tree_arc_effect {g g1 : Graph} {i up down : Nat} {b : Int} (link : Nat)
    (hne : up ≠ down)
    (hg : g1 = if ((push_pair g up down b).arcs link).r_cap = 0 then
      set_orphan_front (push_pair g up down b) i else push_pair g up down b) :
    Writes augmentFields g g1 ∧ g1.flow = g.flow ∧
      (∀ e, (g1.arcs e).r_cap = if e = up then (g.arcs up).r_cap + b
        else if e = down then (g.arcs down).r_cap - b else (g.arcs e).r_cap) ∧
      (∀ x, (g1.nodes x).tr_cap = (g.nodes x).tr_cap) ∧
      g1.orphans = (if ((push_pair g up down b).arcs link).r_cap = 0 then [i] else []) ++
        g.orphans ∧
      (∀ x, (g1.nodes x).parent =
        if x = i ∧ ((push_pair g up down b).arcs link).r_cap = 0 then ArcPtr.orphan
        else (g.nodes x).parent) := by
  subst hg
  by_cases hz : ((push_pair g up down b).arcs link).r_cap = 0
  · simp only [hz, if_true, and_true]
    refine ⟨writes_trans (writes_push_pair (by decide) _ _ _ _)
      (writes_set_orphan_front (by decide) (by decide) _ _), by simp, ?_, by simp, by simp,
      by simp⟩
    intro e
    simp only [set_orphan_front_arcs]
    exact push_pair_r_cap g up down b e hne
  · simp only [hz, if_false, and_false]
    refine ⟨writes_push_pair (by decide) _ _ _ _, by simp, ?_, by simp, by simp, by simp⟩
    intro e
    exact push_pair_r_cap g up down b e hne

end Maxflow

namespace Maxflow

/-- Tree consistency survives a step that keeps sides and only turns parents
into `ORPHAN`. -/
theorem treeInv_of_orphaning {g g' : Graph} (hs : SameShape g g')
    (hk : ∀ x, (g'.nodes x).is_sink = (g.nodes x).is_sink)
    (hp : ∀ x, (g'.nodes x).parent = (g.nodes x).parent ∨
      ((g.nodes x).parent ≠ ArcPtr.null ∧ (g'.nodes x).parent = ArcPtr.orphan))
    (h : TreeInv g none) : TreeInv g' none := by
  refine treeInv_mono hs hk ?_ ?_ h
  · intro x a hx
    rcases hp x with h1 | ⟨_, h1⟩
    · rw [← h1]
      exact hx
    · rw [h1] at hx
      exact absurd hx (by simp)
  · intro x hx
    rcases hp x with h1 | ⟨_, h1⟩
    · rw [h1]
      exact hx
    · rw [h1]
      simp

/-- Loop 2a of `augment` with the root update, on a parent walk `l` from `i`
to the root `r`: it returns; every arc of `l` gains `b`, its sister loses `b`,
the root loses `b` of terminal residual, and the nodes whose link is used up
are the new orphans. -/
theorem push_source_spec (b : Int) (r : Nat) : ∀ (l : List Nat) (g : Graph) (i f : Nat),
    IsPath g i l r → TreeInv g none → WellFormed g → i < g.node_num → l.length < f →
    ∃ g' new, push_source b f g i = Res.ok g' ∧
      WalkEffect g g' b l (l.map fun a => (g.arcs a).sister) new r (-b) ∧ new.Nodup ∧
      (∀ x, x ∈ new ↔
        (∃ a ∈ l, g.tail a = x ∧ (g.arcs (g.arcs a).sister).r_cap - b = 0) ∨
        (x = r ∧ (g.nodes r).tr_cap - b = 0)) ∧
      (∀ x ∈ new, x ∈ pathNodes g i l) := by
  intro l
  induction l with
  | nil =>
    intro g i f hpath _ _ _ hf
    obtain ⟨n, rfl⟩ : ∃ n, f = n + 1 := ⟨f - 1, by omega⟩
    obtain ⟨hp1, rfl⟩ := hpath
    refine ⟨push_root g r (-b), if (g.nodes r).tr_cap + -b = 0 then [r] else [], ?_,
      push_root_effect g r (-b) b, ?_, ?_, ?_⟩
    · simp only [push_source, hp1]
    · split <;> simp
    · intro x
      simp only [List.not_mem_nil, false_and, exists_false, false_or]
      have : (g.nodes r).tr_cap + -b = (g.nodes r).tr_cap - b := by ring
      rw [this]
      split
      · rename_i hz
        simp [hz]
      · rename_i hz
        simp [hz]
    · intro x hx
      split at hx
      · simpa [pathNodes] using hx
      · simp at hx
  | cons a l2 ih =>
    intro g i f hpath ht hw hi hf
    obtain ⟨n, rfl⟩ : ∃ n, f = n + 1 := ⟨f - 1, by omega⟩
    simp only [List.length_cons] at hf
    obtain ⟨hne, hfr⟩ := isPath_fresh hpath ht hw hi
    have hnd := isPath_nodup hpath
    obtain ⟨hp1, hp2⟩ := hpath
    obtain ⟨ha, hta, hsk, _⟩ := ht i hi a hp1
    simp only [pathNodes, List.map_cons, List.nodup_cons] at hnd
    have hi2 : ∀ x, x ∈ pathNodes g (g.arcs a).head l2 → x ≠ i := by
      intro x hx hxi
      subst hxi
      exact hnd.1 (by simpa [pathNodes] using hx)
    obtain ⟨e1, e2, e3, e4, e5, e6⟩ := @tree_arc_effect g (push_source_arc g i a b) i a
      (g.arcs a).sister b (g.arcs a).sister hne rfl
    have hs1 := writes_shape e1
    have hk1 := writes_keep_is_sink e1 (by decide)
    have ht1 : TreeInv (push_source_arc g i a b) none := by
      refine treeInv_of_orphaning hs1 hk1 ?_ ht
      intro x
      rw [e6]
      split
      · rename_i hc
        right
        rw [hc.1, hp1]
        simp
      · left
        rfl
    have hp3 : IsPath (push_source_arc g i a b) (g.arcs a).head l2 r := by
      refine isPath_congr hp2 hs1.head ?_
      intro x hx
      rw [e6, if_neg]
      intro hc
      exact hi2 x hx hc.1
    obtain ⟨g', new2, hrun, eff2, nd2, iff2, sub2⟩ := ih (push_source_arc g i a b)
      (g.arcs a).head n hp3 ht1 (wellFormed_sameShape hs1 hw)
      (by rw [hs1.node_num]; exact hw.head a ha) (by omega)
    have hsub : ∀ x ∈ new2, x ∈ pathNodes g (g.arcs a).head l2 := by
      intro x hx
      have := sub2 x hx
      rw [pathNodes_congr hs1.head] at this
      exact this
    have hz : ((push_pair g a (g.arcs a).sister b).arcs (g.arcs a).sister).r_cap =
        (g.arcs (g.arcs a).sister).r_cap - b := by
      rw [push_pair_r_cap g a _ b _ hne, if_neg (Ne.symm hne), if_pos rfl]
    rw [hz] at e5 e6
    refine ⟨g', new2 ++ (if (g.arcs (g.arcs a).sister).r_cap - b = 0 then [i] else []), ?_,
      ⟨writes_trans e1 eff2.writes, eff2.flow.trans e2, ?_, ?_, ?_, ?_⟩, ?_, ?_, ?_⟩
    · simp only [push_source, hp1]
      exact hrun
    · intro e
      rw [eff2.r_cap e, e3 e]
      simp only [hs1.sister, List.map_cons, List.count_cons]
      by_cases h1 : e = a
      · subst h1
        simp only [if_true, beq_self_eq_true]
        have : ((g.arcs e).sister == e) = false := by
          simpa using (Ne.symm hne)
        rw [this]
        simp only [Bool.false_eq_true, if_false]
        push_cast
        ring
      · by_cases h2 : e = (g.arcs a).sister
        · subst h2
          have : (a == (g.arcs a).sister) = false := by simpa using hne
          simp only [h1, if_false, if_true, this, beq_self_eq_true, Bool.false_eq_true]
          push_cast
          ring
        · have q1 : (a == e) = false := by simpa using (Ne.symm h1)
          have q2 : ((g.arcs a).sister == e) = false := by simpa using (Ne.symm h2)
          simp only [h1, h2, if_false, q1, q2, Bool.false_eq_true]
          push_cast
          ring
    · intro x
      rw [eff2.tr_cap x, e4]
    · rw [eff2.orphans, e5, List.append_assoc]
    · intro x
      rw [eff2.parent x, e6]
      by_cases hx : x ∈ new2
      · simp [hx]
      · by_cases hc : (g.arcs (g.arcs a).sister).r_cap - b = 0
        · simp [hx, hc]
        · simp [hx, hc]
    · rw [List.nodup_append]
      refine ⟨nd2, by split <;> simp, ?_⟩
      intro x hx hx'
      split at hx'
      · simp only [List.mem_singleton] at hx'
        exact hi2 x (hsub x hx) hx'
      · simp at hx'
    · intro x
      rw [List.mem_append, iff2]
      have hrc : ∀ a2 ∈ l2, ((push_source_arc g i a b).arcs
          ((push_source_arc g i a b).arcs a2).sister).r_cap =
          (g.arcs (g.arcs a2).sister).r_cap := by
        intro a2 ha2
        obtain ⟨_, _, q3, q4⟩ := hfr a2 ha2
        rw [hs1.sister, e3, if_neg q3, if_neg q4]
      constructor
      · rintro ((⟨a2, ha2, h1, h2⟩ | ⟨h1, h2⟩) | h3)
        · left
          refine ⟨a2, by simp [ha2], ?_, ?_⟩
          · rw [← h1, tail_sameShape hs1]
          · rw [← hrc a2 ha2]
            exact h2
        · right
          rw [e4] at h2
          exact ⟨h1, h2⟩
        · split at h3
          · rename_i hc
            simp only [List.mem_singleton] at h3
            left
            exact ⟨a, by simp, by rw [hta, h3], hc⟩
          · simp at h3
      · rintro (⟨a2, ha2, h1, h2⟩ | ⟨h1, h2⟩)
        · simp only [List.mem_cons] at ha2
          rcases ha2 with ha2 | ha2
          · subst ha2
            right
            rw [if_pos h2]
            simp [← h1, hta]
          · left
            left
            refine ⟨a2, ha2, ?_, ?_⟩
            · rw [tail_sameShape hs1]
              exact h1
            · rw [hrc a2 ha2]
              exact h2
        · left
          right
          rw [e4]
          exact ⟨h1, h2⟩
    · intro x hx
      simp only [pathNodes, List.map_cons, List.mem_cons]
      rcases List.mem_append.1 hx with hx | hx
      · right
        simpa [pathNodes] using hsub x hx
      · split at hx
        · simp only [List.mem_singleton] at hx
          exact Or.inl hx
        · simp at hx

end Maxflow

namespace Maxflow

/-- Loop 2b of `augment` with the root update, on a parent walk `l` from `i`
to the root `r`: it returns; every arc of `l` loses `b`, its sister gains `b`,
the root gains `b` of terminal residual, and the nodes whose link is used up
are the new orphans. -/
theorem push_sink_spec (b : Int) (r : Nat) : ∀ (l : List Nat) (g : Graph) (i f : Nat),
    IsPath g i l r → TreeInv g none → WellFormed g → i < g.node_num → l.length < f →
    ∃ g' new, push_sink b f g i = Res.ok g' ∧
      WalkEffect g g' b (l.map fun a => (g.arcs a).sister) l new r b ∧ new.Nodup ∧
      (∀ x, x ∈ new ↔
        (∃ a ∈ l, g.tail a = x ∧ (g.arcs a).r_cap - b = 0) ∨
        (x = r ∧ (g.nodes r).tr_cap + b = 0)) ∧
      (∀ x ∈ new, x ∈ pathNodes g i l) := by
  intro l
  induction l with
  | nil =>
    intro g i f hpath _ _ _ hf
    obtain ⟨n, rfl⟩ : ∃ n, f = n + 1 := ⟨f - 1, by omega⟩
    obtain ⟨hp1, rfl⟩ := hpath
    refine ⟨push_root g r b, if (g.nodes r).tr_cap + b = 0 then [r] else [], ?_,
      push_root_effect g r b b, ?_, ?_, ?_⟩
    · simp only [push_sink, hp1]
    · split <;> simp
    · intro x
      simp only [List.not_mem_nil, false_and, exists_false, false_or]
      split
      · rename_i hz
        simp [hz]
      · rename_i hz
        simp [hz]
    · intro x hx
      split at hx
      · simpa [pathNodes] using hx
      · simp at hx
  | cons a l2 ih =>
    intro g i f hpath ht hw hi hf
    obtain ⟨n, rfl⟩ : ∃ n, f = n + 1 := ⟨f - 1, by omega⟩
    simp only [List.length_cons] at hf
    obtain ⟨hne, hfr⟩ := isPath_fresh hpath ht hw hi
    have hnd := isPath_nodup hpath
    obtain ⟨hp1, hp2⟩ := hpath
    obtain ⟨ha, hta, hsk, _⟩ := ht i hi a hp1
    simp only [pathNodes, List.map_cons, List.nodup_cons] at hnd
    have hi2 : ∀ x, x ∈ pathNodes g (g.arcs a).head l2 → x ≠ i := by
      intro x hx hxi
      subst hxi
      exact hnd.1 (by simpa [pathNodes] using hx)
    obtain ⟨e1, e2, e3, e4, e5, e6⟩ := @tree_arc_effect g (push_sink_arc g i a b) i
      (g.arcs a).sister a b a (Ne.symm hne) rfl
    have hs1 := writes_shape e1
    have hk1 := writes_keep_is_sink e1 (by decide)
    have ht1 : TreeInv (push_sink_arc g i a b) none := by
      refine treeInv_of_orphaning hs1 hk1 ?_ ht
      intro x
      rw [e6]
      split
      · rename_i hc
        right
        rw [hc.1, hp1]
        simp
      · left
        rfl
    have hp3 : IsPath (push_sink_arc g i a b) (g.arcs a).head l2 r := by
      refine isPath_congr hp2 hs1.head ?_
      intro x hx
      rw [e6, if_neg]
      intro hc
      exact hi2 x hx hc.1
    obtain ⟨g', new2, hrun, eff2, nd2, iff2, sub2⟩ := ih (push_sink_arc g i a b)
      (g.arcs a).head n hp3 ht1 (wellFormed_sameShape hs1 hw)
      (by rw [hs1.node_num]; exact hw.head a ha) (by omega)
    have hsub : ∀ x ∈ new2, x ∈ pathNodes g (g.arcs a).head l2 := by
      intro x hx
      have := sub2 x hx
      rw [pathNodes_congr hs1.head] at this
      exact this
    have hz : ((push_pair g (g.arcs a).sister a b).arcs a).r_cap = (g.arcs a).r_cap - b := by
      rw [push_pair_r_cap g _ a b _ (Ne.symm hne), if_neg hne, if_pos rfl]
    rw [hz] at e5 e6
    refine ⟨g', new2 ++ (if (g.arcs a).r_cap - b = 0 then [i] else []), ?_,
      ⟨writes_trans e1 eff2.writes, eff2.flow.trans e2, ?_, ?_, ?_, ?_⟩, ?_, ?_, ?_⟩
    · simp only [push_sink, hp1]
      exact hrun
    · intro e
      rw [eff2.r_cap e, e3 e]
      simp only [hs1.sister, List.map_cons, List.count_cons]
      by_cases h1 : e = a
      · subst h1
        have : ((g.arcs e).sister == e) = false := by
          simpa using (Ne.symm hne)
        simp only [hne, if_false, if_true, beq_self_eq_true, this, Bool.false_eq_true]
        push_cast
        ring
      · by_cases h2 : e = (g.arcs a).sister
        · subst h2
          have : (a == (g.arcs a).sister) = false := by simpa using hne
          simp only [if_true, this, beq_self_eq_true, Bool.false_eq_true, if_false]
          push_cast
          ring
        · have q1 : (a == e) = false := by simpa using (Ne.symm h1)
          have q2 : ((g.arcs a).sister == e) = false := by simpa using (Ne.symm h2)
          simp only [h1, h2, if_false, q1, q2, Bool.false_eq_true]
          push_cast
          ring
    · intro x
      rw [eff2.tr_cap x, e4]
    · rw [eff2.orphans, e5, List.append_assoc]
    · intro x
      rw [eff2.parent x, e6]
      by_cases hx : x ∈ new2
      · simp [hx]
      · by_cases hc : (g.arcs a).r_cap - b = 0
        · simp [hx, hc]
        · simp [hx, hc]
    · rw [List.nodup_append]
      refine ⟨nd2, by split <;> simp, ?_⟩
      intro x hx hx'
      split at hx'
      · simp only [List.mem_singleton] at hx'
        exact hi2 x (hsub x hx) hx'
      · simp at hx'
    · intro x
      rw [List.mem_append, iff2]
      have hrc : ∀ a2 ∈ l2, ((push_sink_arc g i a b).arcs a2).r_cap = (g.arcs a2).r_cap := by
        intro a2 ha2
        obtain ⟨q1, q2, _, _⟩ := hfr a2 ha2
        rw [e3, if_neg q2, if_neg q1]
      constructor
      · rintro ((⟨a2, ha2, h1, h2⟩ | ⟨h1, h2⟩) | h3)
        · left
          refine ⟨a2, by simp [ha2], ?_, ?_⟩
          · rw [← h1, tail_sameShape hs1]
          · rw [← hrc a2 ha2]
            exact h2
        · right
          rw [e4] at h2
          exact ⟨h1, h2⟩
        · split at h3
          · rename_i hc
            simp only [List.mem_singleton] at h3
            left
            exact ⟨a, by simp, by rw [hta, h3], hc⟩
          · simp at h3
      · rintro (⟨a2, ha2, h1, h2⟩ | ⟨h1, h2⟩)
        · simp only [List.mem_cons] at ha2
          rcases ha2 with ha2 | ha2
          · subst ha2
            right
            rw [if_pos h2]
            simp [← h1, hta]
          · left
            left
            refine ⟨a2, ha2, ?_, ?_⟩
            · rw [tail_sameShape hs1]
              exact h1
            · rw [hrc a2 ha2]
              exact h2
        · left
          right
          rw [e4]
          exact ⟨h1, h2⟩
    · intro x hx
      simp only [pathNodes, List.map_cons, List.mem_cons]
      rcases List.mem_append.1 hx with hx | hx
      · right
        simpa [pathNodes] using hsub x hx
      · split at hx
        · simp only [List.mem_singleton] at hx
          exact Or.inl hx
        · simp at hx

end Maxflow

namespace Maxflow

/-- Both ends of every arc of a parent walk are on the side of its start. -/
theorem path_arc_sides {g : Graph} {i : Nat} {l : List Nat} {r : Nat} (h : IsPath g i l r)
    (ht : TreeInv g none) (hw : WellFormed g) (hi : i < g.node_num) :
    ∀ a ∈ l, a < g.arc_num ∧ (g.nodes (g.tail a)).is_sink = (g.nodes i).is_sink ∧
      (g.nodes (g.arcs a).head).is_sink = (g.nodes i).is_sink := by
  obtain ⟨f1, f2, _, _⟩ := isPath_facts h ht hw hi
  intro a ha
  obtain ⟨q1, q2, q3, _⟩ := f2 a ha
  exact ⟨q1, (f1 _ q2).2.1, (f1 _ q3).2.1⟩

/-- The arcs of a parent walk and their sisters are pairwise distinct. -/
theorem path_arcs_nodup {g : Graph} : ∀ {l : List Nat} {i r : Nat}, IsPath g i l r →
    TreeInv g none → WellFormed g → i < g.node_num →
    (l ++ l.map fun a => (g.arcs a).sister).Nodup := by
  intro l
  induction l with
  | nil => intro _ _ _ _ _ _; simp
  | cons a l2 ih =>
    intro i r h ht hw hi
    obtain ⟨hne, hfr⟩ := isPath_fresh h ht hw hi
    obtain ⟨hp1, hp2⟩ := h
    obtain ⟨ha, _, _, _⟩ := ht i hi a hp1
    have := ih hp2 ht hw (hw.head a ha)
    rw [List.nodup_append] at this
    obtain ⟨n1, n2, n3⟩ := this
    rw [List.nodup_append]
    refine ⟨List.nodup_cons.2 ⟨fun hm => (hfr a hm).1 rfl, n1⟩, ?_, ?_⟩
    · simp only [List.map_cons]
      refine List.nodup_cons.2 ⟨?_, n2⟩
      intro hm
      obtain ⟨a2, ha2, he⟩ := List.mem_map.1 hm
      exact (hfr a2 ha2).2.2.2 he
    · intro x hx hx'
      simp only [List.map_cons, List.mem_cons] at hx hx'
      rcases hx with rfl | hx
      · rcases hx' with hx' | hx'
        · exact hne hx'
        · obtain ⟨a2, ha2, he⟩ := List.mem_map.1 hx'
          exact (hfr a2 ha2).2.2.1 he
      · rcases hx' with hx' | hx'
        · exact (hfr x hx).2.1 hx'
        · exact n3 hx hx'

/-- The whole of `augment(m)` on a boundary arc whose ends have the parent walks
`ls` (to the root `rs`) and `lt` (to the root `rt`): the call returns; `flow`
grows by the bottleneck; residuals change by the bottleneck, counted over the
arcs pushed up and down; the nodes whose link is used up are the new orphans,
at the front of the list. -/
theorem augment_spec {F : Nat} {g : Graph} {m : Nat} {ls lt : List Nat} {rs rt : Nat}
    (hw : WellFormed g) (ht : TreeInv g none) (hB : Boundary g m)
    (hps : IsPath g (g.arcs (g.arcs m).sister).head ls rs)
    (hpt : IsPath g (g.arcs m).head lt rt) (hFs : ls.length < F) (hFt : lt.length < F) :
    ∃ g5 ns nt, augment F g m = Res.ok g5 ∧
      g5.flow = g.flow + bottleneck_value g m ls rs lt rt ∧
      (∀ e, (g5.arcs e).r_cap = (g.arcs e).r_cap + bottleneck_value g m ls rs lt rt *
        ((((g.arcs m).sister :: ls ++ lt.map fun a => (g.arcs a).sister).count e : Int) -
          ((m :: (ls.map fun a => (g.arcs a).sister) ++ lt).count e : Int))) ∧
      (∀ x, (g5.nodes x).tr_cap =
        if x = rs then (g.nodes x).tr_cap - bottleneck_value g m ls rs lt rt
        else if x = rt then (g.nodes x).tr_cap + bottleneck_value g m ls rs lt rt
        else (g.nodes x).tr_cap) ∧
      g5.orphans = (nt ++ ns) ++ g.orphans ∧ (nt ++ ns).Nodup ∧
      (∀ x, x ∈ ns ↔
        (∃ a ∈ ls, g.tail a = x ∧
          (g.arcs (g.arcs a).sister).r_cap - bottleneck_value g m ls rs lt rt = 0) ∨
        (x = rs ∧ (g.nodes rs).tr_cap - bottleneck_value g m ls rs lt rt = 0)) ∧
      (∀ x, x ∈ nt ↔
        (∃ a ∈ lt, g.tail a = x ∧ (g.arcs a).r_cap - bottleneck_value g m ls rs lt rt = 0) ∨
        (x = rt ∧ (g.nodes rt).tr_cap + bottleneck_value g m ls rs lt rt = 0)) ∧
      (∀ x, (g5.nodes x).parent =
        if x ∈ nt ++ ns then ArcPtr.orphan else (g.nodes x).parent) ∧
      (∀ x ∈ ns, x ∈ pathNodes g (g.arcs (g.arcs m).sister).head ls) ∧
      (∀ x ∈ nt, x ∈ pathNodes g (g.arcs m).head lt) ∧
      SameShape g g5 := by
  have hbo := bottleneck_eq_value hps hpt hFs hFt
  generalize bottleneck_value g m ls rs lt rt = b at hbo ⊢
  obtain ⟨hsm, hss⟩ := hw.sister m hB.bound
  have hi0 : (g.arcs (g.arcs m).sister).head < g.node_num := hw.tail_lt hB.bound
  have hj0 : (g.arcs m).head < g.node_num := hw.head m hB.bound
  have hk0 : (g.nodes (g.arcs (g.arcs m).sister).head).is_sink = false := hB.tail.2
  obtain ⟨fs1, fs2, fs3, fs4⟩ := isPath_facts hps ht hw hi0
  obtain ⟨ft1, ft2, ft3, ft4⟩ := isPath_facts hpt ht hw hj0
  have sds := path_arc_sides hps ht hw hi0
  have sdt := path_arc_sides hpt ht hw hj0
  obtain ⟨hne, hsfF⟩ := middle_frame b false hw hB
  obtain ⟨_, hsfT⟩ := middle_frame b true hw hB
  have w1 : Writes augmentFields g (push_pair g (g.arcs m).sister m b) :=
    writes_push_pair (by decide) _ _ _ _
  have hs1 := writes_shape w1
  have hps1 : IsPath (push_pair g (g.arcs m).sister m b)
      (g.arcs (g.arcs m).sister).head ls rs :=
    isPath_congr hps hs1.head (fun x _ => by simp)
  have ht1 : TreeInv (push_pair g (g.arcs m).sister m b) none :=
    treeInv_of_orphaning hs1 (fun x => by simp) (fun x => Or.inl (by simp)) ht
  obtain ⟨g3, ns, h3, eff3, nd3, iff3, sub3⟩ := push_source_spec b rs ls
    (push_pair g (g.arcs m).sister m b) (g.arcs (g.arcs m).sister).head F hps1 ht1
    (wellFormed_sameShape hs1 hw) (by rw [hs1.node_num]; exact hi0) hFs
  have sub3g : ∀ x ∈ ns, x ∈ pathNodes g (g.arcs (g.arcs m).sister).head ls := by
    intro x hx
    have := sub3 x hx
    rw [pathNodes_congr hs1.head] at this
    exact this
  have w3 := writes_trans w1 eff3.writes
  have hs3 := writes_shape w3
  have hns_side : ∀ x ∈ ns, (g.nodes x).is_sink = false := fun x hx =>
    ((fs1 x (sub3g x hx)).2.1).trans hk0
  have hpar3 : ∀ x, (g3.nodes x).parent =
      if x ∈ ns then ArcPtr.orphan else (g.nodes x).parent := by
    intro x
    rw [eff3.parent x]
    simp
  have hpt3 : IsPath g3 (g.arcs m).head lt rt := by
    refine isPath_congr hpt hs3.head ?_
    intro x hx
    rw [hpar3, if_neg]
    intro hx'
    have h1 := hns_side x hx'
    rw [((ft1 x hx).2.1).trans hB.head.2] at h1
    exact absurd h1 (by simp)
  have ht3 : TreeInv g3 none := by
    refine treeInv_of_orphaning hs3 (writes_keep_is_sink w3 (by decide)) ?_ ht
    intro x
    rw [hpar3]
    by_cases hx : x ∈ ns
    · right
      rw [if_pos hx]
      exact ⟨(fs1 x (sub3g x hx)).2.2, rfl⟩
    · left
      rw [if_neg hx]
  obtain ⟨g4, nt, h4, eff4, nd4, iff4, sub4⟩ := push_sink_spec b rt lt g3
    (g.arcs m).head F hpt3 ht3 (wellFormed_sameShape hs3 hw)
    (by rw [hs3.node_num]; exact hj0) hFt
  have sub4g : ∀ x ∈ nt, x ∈ pathNodes g (g.arcs m).head lt := by
    intro x hx
    have := sub4 x hx
    rw [pathNodes_congr hs3.head] at this
    exact this
  have hnt_side : ∀ x ∈ nt, (g.nodes x).is_sink = true := fun x hx =>
    ((ft1 x (sub4g x hx)).2.1).trans hB.head.2
  have hrsrt : rs ≠ rt := by
    intro hh
    have h1 := ((fs1 rs fs3).2.1).trans hk0
    rw [hh, ((ft1 rt ft3).2.1).trans hB.head.2] at h1
    exact absurd h1 (by simp)
  have w4 := writes_trans w3 eff4.writes
  have hs4 := writes_shape w4
  -- arcs of the walks are not the boundary pair
  have hls_m : ∀ a ∈ ls, a ≠ m ∧ a ≠ (g.arcs m).sister ∧ (g.arcs a).sister ≠ m ∧
      (g.arcs a).sister ≠ (g.arcs m).sister := by
    intro a ha
    obtain ⟨q1, q2, q3⟩ := sds a ha
    have n1 : a ≠ m := by
      intro hh
      rw [hh, hB.head.2, hk0] at q3
      exact absurd q3 (by simp)
    have n2 : a ≠ (g.arcs m).sister := by
      intro hh
      rw [hh, hw.tail_sister hB.bound, hB.head.2, hk0] at q2
      exact absurd q2 (by simp)
    refine ⟨n1, n2, ?_, ?_⟩
    · intro hh
      apply n2
      rw [← hh, (hw.sister a q1).2]
    · intro hh
      apply n1
      rw [← (hw.sister a q1).2, hh, hss]
  have hlt_m : ∀ a ∈ lt, a ≠ m ∧ a ≠ (g.arcs m).sister ∧ (g.arcs a).sister ≠ m ∧
      (g.arcs a).sister ≠ (g.arcs m).sister := by
    intro a ha
    obtain ⟨q1, q2, q3⟩ := sdt a ha
    have n1 : a ≠ m := by
      intro hh
      have h1 : (g.nodes (g.tail m)).is_sink = false := hB.tail.2
      rw [hh, h1, hB.head.2] at q2
      exact absurd q2 (by simp)
    have n2 : a ≠ (g.arcs m).sister := by
      intro hh
      have h1 : (g.nodes (g.arcs (g.arcs m).sister).head).is_sink = false := hB.tail.2
      rw [hh, h1, hB.head.2] at q3
      exact absurd q3 (by simp)
    refine ⟨n1, n2, ?_, ?_⟩
    · intro hh
      apply n2
      rw [← hh, (hw.sister a q1).2]
    · intro hh
      apply n1
      rw [← (hw.sister a q1).2, hh, hss]
  have hr1 : ∀ e, ((push_pair g (g.arcs m).sister m b).arcs e).r_cap =
      if e = (g.arcs m).sister then (g.arcs (g.arcs m).sister).r_cap + b
      else if e = m then (g.arcs m).r_cap - b else (g.arcs e).r_cap :=
    fun e => push_pair_r_cap g _ m b e hne
  refine ⟨g4.setFlow (g4.flow + b), ns, nt, ?_, ?_, ?_, ?_, ?_, ?_, ?_, ?_, ?_, sub3g, sub4g,
    ?_⟩
  · simp only [augment, hbo, Res.bind, h3, hs3.head, h4]
  · show g4.flow + b = g.flow + b
    rw [eff4.flow, eff3.flow]
    simp
  · intro e
    show (g4.arcs e).r_cap = _
    rw [eff4.r_cap e, eff3.r_cap e, hr1 e]
    simp only [hs1.sister, hs3.sister, List.count_cons, List.count_append, List.cons_append]
    by_cases h1 : e = (g.arcs m).sister
    · subst h1
      have q : (m == (g.arcs m).sister) = false := by simpa using (Ne.symm hne)
      simp only [if_true, beq_self_eq_true, q, Bool.false_eq_true, if_false]
      push_cast
      ring
    · by_cases h2 : e = m
      · subst h2
        have q : ((g.arcs e).sister == e) = false := by simpa using hne
        simp only [h1, if_false, if_true, beq_self_eq_true, q, Bool.false_eq_true]
        push_cast
        ring
      · have q1 : ((g.arcs m).sister == e) = false := by simpa using (Ne.symm h1)
        have q2 : (m == e) = false := by simpa using (Ne.symm h2)
        simp only [h1, h2, if_false, q1, q2, Bool.false_eq_true]
        push_cast
        ring
  · intro x
    show (g4.nodes x).tr_cap = _
    rw [eff4.tr_cap x, eff3.tr_cap x]
    have h0 : ((push_pair g (g.arcs m).sister m b).nodes x).tr_cap = (g.nodes x).tr_cap := by
      simp
    rw [h0]
    by_cases h1 : x = rs
    · subst h1
      simp only [if_true, if_neg hrsrt]
      ring
    · simp only [h1, if_false]
  · show g4.orphans = _
    rw [eff4.orphans, eff3.orphans]
    simp
  · rw [List.nodup_append]
    refine ⟨nd4, nd3, ?_⟩
    intro x hx hx'
    have h1 := hns_side x hx'
    rw [hnt_side x hx] at h1
    exact absurd h1 (by simp)
  · intro x
    rw [iff3]
    have e1 : ∀ a ∈ ls, ((push_pair g (g.arcs m).sister m b).arcs
        ((push_pair g (g.arcs m).sister m b).arcs a).sister).r_cap =
        (g.arcs (g.arcs a).sister).r_cap := by
      intro a ha
      obtain ⟨_, _, q3, q4⟩ := hls_m a ha
      rw [hs1.sister, hr1, if_neg q4, if_neg q3]
    have e2 : ((push_pair g (g.arcs m).sister m b).nodes rs).tr_cap = (g.nodes rs).tr_cap := by
      simp
    rw [e2]
    constructor
    · rintro (⟨a, ha, q1, q2⟩ | q)
      · left
        refine ⟨a, ha, ?_, ?_⟩
        · rw [← q1, tail_sameShape hs1]
        · rw [← e1 a ha]
          exact q2
      · exact Or.inr q
    · rintro (⟨a, ha, q1, q2⟩ | q)
      · left
        refine ⟨a, ha, ?_, ?_⟩
        · rw [tail_sameShape hs1]
          exact q1
        · rw [e1 a ha]
          exact q2
      · exact Or.inr q
  · intro x
    rw [iff4]
    have e1 : ∀ a ∈ lt, (g3.arcs a).r_cap = (g.arcs a).r_cap := by
      intro a ha
      obtain ⟨q1, q2, _, _⟩ := hlt_m a ha
      obtain ⟨p1, p2, p3⟩ := sdt a ha
      rw [eff3.r_cap a, hr1, if_neg q2, if_neg q1]
      have c1 : ls.count a = 0 := by
        apply List.count_eq_zero_of_not_mem
        intro hm
        have := (sds a hm).2.1
        rw [p2, hB.head.2, hk0] at this
        exact absurd this (by simp)
      have c2 : (ls.map fun a => ((push_pair g (g.arcs m).sister m b).arcs a).sister).count a
          = 0 := by
        apply List.count_eq_zero_of_not_mem
        intro hm
        obtain ⟨a2, ha2, he⟩ := List.mem_map.1 hm
        rw [hs1.sister] at he
        have := (sds a2 ha2).2.2
        have h5 : (g.arcs a2).head = g.tail a := by
          rw [← he]
          exact (hw.tail_sister (sds a2 ha2).1).symm
        rw [h5, p2, hB.head.2, hk0] at this
        exact absurd this (by simp)
      rw [c1, c2]
      simp
    have e2 : (g3.nodes rt).tr_cap = (g.nodes rt).tr_cap := by
      rw [eff3.tr_cap rt, if_neg (Ne.symm hrsrt)]
      simp
    rw [e2]
    constructor
    · rintro (⟨a, ha, q1, q2⟩ | q)
      · left
        refine ⟨a, ha, ?_, ?_⟩
        · rw [← q1, tail_sameShape hs3]
        · rw [← e1 a ha]
          exact q2
      · exact Or.inr q
    · rintro (⟨a, ha, q1, q2⟩ | q)
      · left
        refine ⟨a, ha, ?_, ?_⟩
        · rw [tail_sameShape hs3]
          exact q1
        · rw [e1 a ha]
          exact q2
      · exact Or.inr q
  · intro x
    show (g4.nodes x).parent = _
    rw [eff4.parent x, hpar3 x]
    by_cases h1 : x ∈ nt
    · simp [h1]
    · by_cases h2 : x ∈ ns
      · simp [h1, h2]
      · simp [h1, h2]
  · exact ⟨hs4.node_num, hs4.arc_num, hs4.head, hs4.next, hs4.sister, hs4.first⟩

end Maxflow

namespace Maxflow

/-- The sides of the two ends of every arc that `augment(m)` pushes over: the
boundary arc goes from the source side to the sink side, its sister back, and
the arcs of a walk and their sisters stay on the side of the walk. -/
theorem augment_arc_sides {g : Graph} {m : Nat} {ls lt : List Nat} {rs rt : Nat}
    (hw : WellFormed g) (ht : TreeInv g none) (hB : Boundary g m)
    (hps : IsPath g (g.arcs (g.arcs m).sister).head ls rs)
    (hpt : IsPath g (g.arcs m).head lt rt) :
    ((g.nodes (g.tail m)).is_sink = false ∧ (g.nodes (g.arcs m).head).is_sink = true) ∧
    ((g.nodes (g.tail (g.arcs m).sister)).is_sink = true ∧
      (g.nodes (g.arcs (g.arcs m).sister).head).is_sink = false) ∧
    (∀ e ∈ ls, (g.nodes (g.tail e)).is_sink = false ∧
      (g.nodes (g.arcs e).head).is_sink = false) ∧
    (∀ e ∈ ls.map fun a => (g.arcs a).sister, (g.nodes (g.tail e)).is_sink = false ∧
      (g.nodes (g.arcs e).head).is_sink = false) ∧
    (∀ e ∈ lt, (g.nodes (g.tail e)).is_sink = true ∧
      (g.nodes (g.arcs e).head).is_sink = true) ∧
    (∀ e ∈ lt.map fun a => (g.arcs a).sister, (g.nodes (g.tail e)).is_sink = true ∧
      (g.nodes (g.arcs e).head).is_sink = true) := by
  have hi0 : (g.arcs (g.arcs m).sister).head < g.node_num := hw.tail_lt hB.bound
  have hj0 : (g.arcs m).head < g.node_num := hw.head m hB.bound
  have hk0 : (g.nodes (g.arcs (g.arcs m).sister).head).is_sink = false := hB.tail.2
  have sds := path_arc_sides hps ht hw hi0
  have sdt := path_arc_sides hpt ht hw hj0
  refine ⟨⟨hB.tail.2, hB.head.2⟩, ⟨?_, hk0⟩, ?_, ?_, ?_, ?_⟩
  · rw [hw.tail_sister hB.bound]
    exact hB.head.2
  · intro e he
    obtain ⟨_, q2, q3⟩ := sds e he
    exact ⟨q2.trans hk0, q3.trans hk0⟩
  · intro e he
    obtain ⟨a, ha, rfl⟩ := List.mem_map.1 he
    obtain ⟨q1, q2, q3⟩ := sds a ha
    refine ⟨?_, q2.trans hk0⟩
    rw [hw.tail_sister q1]
    exact q3.trans hk0
  · intro e he
    obtain ⟨_, q2, q3⟩ := sdt e he
    exact ⟨q2.trans hB.head.2, q3.trans hB.head.2⟩
  · intro e he
    obtain ⟨a, ha, rfl⟩ := List.mem_map.1 he
    obtain ⟨q1, q2, q3⟩ := sdt a ha
    refine ⟨?_, q2.trans hB.head.2⟩
    rw [hw.tail_sister q1]
    exact q3.trans hB.head.2

/-- No arc is pushed over twice by `augment(m)`: the arcs that lose residual
and the arcs that gain residual are pairwise distinct. -/
theorem augment_arcs_nodup {g : Graph} {m : Nat} {ls lt : List Nat} {rs rt : Nat}
    (hw : WellFormed g) (ht : TreeInv g none) (hB : Boundary g m)
    (hps : IsPath g (g.arcs (g.arcs m).sister).head ls rs)
    (hpt : IsPath g (g.arcs m).head lt rt) :
    ((m :: (ls.map fun a => (g.arcs a).sister) ++ lt) ++
      ((g.arcs m).sister :: ls ++ lt.map fun a => (g.arcs a).sister)).Nodup := by
  obtain ⟨⟨m1, m2⟩, ⟨n1, n2⟩, s1, s2, t1, t2⟩ := augment_arc_sides hw ht hB hps hpt
  have hi0 : (g.arcs (g.arcs m).sister).head < g.node_num := hw.tail_lt hB.bound
  have hj0 : (g.arcs m).head < g.node_num := hw.head m hB.bound
  have ns := path_arcs_nodup hps ht hw hi0
  have nt := path_arcs_nodup hpt ht hw hj0
  rw [List.nodup_append] at ns nt
  obtain ⟨ns1, ns2, ns3⟩ := ns
  obtain ⟨nt1, nt2, nt3⟩ := nt
  have hne : (g.arcs m).sister ≠ m := (middle_frame 0 false hw hB).1
  have X : ∀ {e : Nat} {a b c d : Bool}, ((g.nodes (g.tail e)).is_sink = a ∧
      (g.nodes (g.arcs e).head).is_sink = b) → ((g.nodes (g.tail e)).is_sink = c ∧
      (g.nodes (g.arcs e).head).is_sink = d) → (a = c ∧ b = d) := by
    intro e a b c d h1 h2
    exact ⟨h1.1.symm.trans h2.1, h1.2.symm.trans h2.2⟩
  rw [List.nodup_append]
  refine ⟨?_, ?_, ?_⟩
  · simp only [List.cons_append, List.nodup_cons, List.mem_append, List.nodup_append]
    refine ⟨?_, ns2, nt1, ?_⟩
    · rintro (h | h)
      · exact absurd (X (s2 m h) ⟨m1, m2⟩).2 (by simp)
      · exact absurd (X (t1 m h) ⟨m1, m2⟩).1 (by simp)
    · intro e h1 h2
      exact absurd (X (s2 e h1) (t1 e h2)).1 (by simp)
  · simp only [List.cons_append, List.nodup_cons, List.mem_append, List.nodup_append]
    refine ⟨?_, ns1, nt2, ?_⟩
    · rintro (h | h)
      · exact absurd (X (s1 _ h) ⟨n1, n2⟩).1 (by simp)
      · exact absurd (X (t2 _ h) ⟨n1, n2⟩).2 (by simp)
    · intro e h1 h2
      exact absurd (X (s1 e h1) (t2 e h2)).1 (by simp)
  · intro e h1 h2
    simp only [List.cons_append, List.mem_cons, List.mem_append] at h1 h2
    rcases h1 with rfl | h1 | h1
    · rcases h2 with h2 | h2 | h2
      · exact hne h2.symm
      · exact absurd (X (s1 _ h2) ⟨m1, m2⟩).2 (by simp)
      · exact absurd (X (t2 _ h2) ⟨m1, m2⟩).1 (by simp)
    · rcases h2 with rfl | h2 | h2
      · exact absurd (X (s2 _ h1) ⟨n1, n2⟩).1 (by simp)
      · exact ns3 h2 h1
      · exact absurd (X (s2 _ h1) (t2 _ h2)).1 (by simp)
    · rcases h2 with rfl | h2 | h2
      · exact absurd (X (t1 _ h1) ⟨n1, n2⟩).2 (by simp)
      · exact absurd (X (t1 _ h1) (s1 _ h2)).1 (by simp)
      · exact nt3 h1 h2

/-- The fold of `min` over a list returns the start value or an entry, and is
below all of them. -/
theorem foldl_min_mem (l : List Int) (b0 : Int) : l.foldl min b0 ∈ b0 :: l := by
  induction l generalizing b0 with
  | nil => simp
  | cons x l ih =>
    simp only [List.foldl_cons]
    have := ih (min b0 x)
    simp only [List.mem_cons] at this ⊢
    rcases this with h | h
    · rcases min_choice b0 x with h2 | h2
      · left
        rw [h, h2]
      · right
        left
        rw [h, h2]
    · exact Or.inr (Or.inr h)

/-- Claim C11.  For a boundary arc `m` whose tail has the parent walk `ls` to the
source root `rs` and whose head has the parent walk `lt` to the sink root `rt`,
`augment(m)` returns; `flow` grows by the bottleneck, which is the least of
`m.r_cap`, `a.sister.r_cap` for `a` in `ls`, `tr_cap` of `rs`, `a.r_cap` for `a`
in `lt` and `-tr_cap` of `rt`; the forward residuals (`m`, the sisters of `ls`,
`lt`) lose the bottleneck, the reverse residuals (`m.sister`, `ls`, the sisters
of `lt`) gain it, `rs` loses it and `rt` gains it in `tr_cap`, and no other
`r_cap` or `tr_cap` changes. -/
theorem augment_pushes_bottleneck (F : Nat) (g : Graph) (m : Nat) (ls : List Nat) (rs : Nat)
    (lt : List Nat) (rt : Nat) (hw : WellFormed g) (ht : TreeInv g none) (hB : Boundary g m)
    (hps : IsPath g (g.arcs (g.arcs m).sister).head ls rs)
    (hpt : IsPath g (g.arcs m).head lt rt) (hFs : ls.length < F) (hFt : lt.length < F) :
    ∃ g5, augment F g m = Res.ok g5 ∧
      bottleneck_value g m ls rs lt rt ∈ (g.arcs m).r_cap ::
        (((ls.map fun a => (g.arcs (g.arcs a).sister).r_cap) ++ [(g.nodes rs).tr_cap]) ++
          ((lt.map fun a => (g.arcs a).r_cap) ++ [- (g.nodes rt).tr_cap])) ∧
      (∀ v ∈ (g.arcs m).r_cap ::
        (((ls.map fun a => (g.arcs (g.arcs a).sister).r_cap) ++ [(g.nodes rs).tr_cap]) ++
          ((lt.map fun a => (g.arcs a).r_cap) ++ [- (g.nodes rt).tr_cap])),
        bottleneck_value g m ls rs lt rt ≤ v) ∧
      g5.flow = g.flow + bottleneck_value g m ls rs lt rt ∧
      (∀ e ∈ m :: (ls.map fun a => (g.arcs a).sister) ++ lt,
        (g5.arcs e).r_cap = (g.arcs e).r_cap - bottleneck_value g m ls rs lt rt) ∧
      (∀ e ∈ (g.arcs m).sister :: ls ++ lt.map fun a => (g.arcs a).sister,
        (g5.arcs e).r_cap = (g.arcs e).r_cap + bottleneck_value g m ls rs lt rt) ∧
      (∀ e, e ∉ m :: (ls.map fun a => (g.arcs a).sister) ++ lt →
        e ∉ (g.arcs m).sister :: ls ++ (lt.map fun a => (g.arcs a).sister) →
        (g5.arcs e).r_cap = (g.arcs e).r_cap) ∧
      (g5.nodes rs).tr_cap = (g.nodes rs).tr_cap - bottleneck_value g m ls rs lt rt ∧
      (g5.nodes rt).tr_cap = (g.nodes rt).tr_cap + bottleneck_value g m ls rs lt rt ∧
      (∀ x, x ≠ rs → x ≠ rt → (g5.nodes x).tr_cap = (g.nodes x).tr_cap) := by
  obtain ⟨g5, ns, nt, h, hfl, hr, htr, _, _, _, _, _, _, _, _⟩ :=
    augment_spec hw ht hB hps hpt hFs hFt
  have hnd := augment_arcs_nodup hw ht hB hps hpt
  rw [List.nodup_append] at hnd
  obtain ⟨nd1, nd2, nd3⟩ := hnd
  have hrsrt : rs ≠ rt := by
    have hi0 : (g.arcs (g.arcs m).sister).head < g.node_num := hw.tail_lt hB.bound
    have hj0 : (g.arcs m).head < g.node_num := hw.head m hB.bound
    obtain ⟨fs1, _, fs3, _⟩ := isPath_facts hps ht hw hi0
    obtain ⟨ft1, _, ft3, _⟩ := isPath_facts hpt ht hw hj0
    intro hh
    have h1 := ((fs1 rs fs3).2.1).trans hB.tail.2
    rw [hh, ((ft1 rt ft3).2.1).trans hB.head.2] at h1
    exact absurd h1 (by simp)
  refine ⟨g5, h, ?_, ?_, hfl, ?_, ?_, ?_, ?_, ?_, ?_⟩
  · exact foldl_min_mem _ _
  · intro v hv
    have := foldl_min_le (((ls.map fun a => (g.arcs (g.arcs a).sister).r_cap) ++
      [(g.nodes rs).tr_cap]) ++ ((lt.map fun a => (g.arcs a).r_cap) ++
      [- (g.nodes rt).tr_cap])) (g.arcs m).r_cap
    simp only [List.mem_cons] at hv
    rcases hv with rfl | hv
    · exact this.1
    · exact this.2 v hv
  · intro e he
    rw [hr e, List.count_eq_one_of_mem nd1 he,
      List.count_eq_zero_of_not_mem (fun h2 => nd3 he h2)]
    push_cast
    ring
  · intro e he
    rw [hr e, List.count_eq_one_of_mem nd2 he,
      List.count_eq_zero_of_not_mem (fun h2 => nd3 h2 he)]
    push_cast
    ring
  · intro e h1 h2
    rw [hr e, List.count_eq_zero_of_not_mem h1, List.count_eq_zero_of_not_mem h2]
    simp
  · rw [htr rs, if_pos rfl]
  · rw [htr rt, if_neg (Ne.symm hrsrt), if_pos rfl]
  · intro x h1 h2
    rw [htr x, if_neg h1, if_neg h2]

end Maxflow

namespace Maxflow

theorem wellFormed_diamond_grown : WellFormed diamond_grown :=
  ⟨by decide, by decide, by decide, by decide, by decide⟩

theorem treeInv_diamond_grown : TreeInv diamond_grown none := by
  intro i hi a hpa
  have hi2 : i < 4 := hi
  have h0 : (diamond_grown.nodes 0).parent = ArcPtr.terminal := by decide
  have h1 : (diamond_grown.nodes 1).parent = ArcPtr.arc 1 := by decide
  have h2 : (diamond_grown.nodes 2).parent = ArcPtr.arc 3 := by decide
  have h3 : (diamond_grown.nodes 3).parent = ArcPtr.terminal := by decide
  interval_cases i
  · rw [h0] at hpa
    exact absurd hpa (by simp)
  · rw [h1] at hpa
    simp only [ArcPtr.arc.injEq] at hpa
    subst hpa
    exact ⟨by decide, by decide, by decide, Or.inl (by decide)⟩
  · rw [h2] at hpa
    simp only [ArcPtr.arc.injEq] at hpa
    subst hpa
    exact ⟨by decide, by decide, by decide, Or.inl (by decide)⟩
  · rw [h3] at hpa
    exact absurd hpa (by simp)

theorem boundary_diamond_grown : Boundary diamond_grown 6 :=
  ⟨by decide, ⟨by decide, by decide⟩, ⟨by decide, by decide⟩⟩

theorem augment_pushes_bottleneck_witness :
    ∃ g5, augment 2 diamond_grown 6 = Res.ok g5 ∧ g5.flow = 5 ∧ (g5.arcs 6).r_cap = 1 ∧
      (g5.arcs 2).r_cap = 0 ∧ (g5.arcs 3).r_cap = 5 ∧ (g5.nodes 0).tr_cap = 5 ∧
      (g5.nodes 3).tr_cap = -5 :=
  let ⟨g5, h, _, _, hf, hd, hu, _, hs, ht, _⟩ := augment_pushes_bottleneck 2 diamond_grown 6
    [3] 0 [] 3 wellFormed_diamond_grown treeInv_diamond_grown boundary_diamond_grown
    ⟨by decide, by decide, rfl⟩ ⟨by decide, rfl⟩ (by decide) (by decide)
  ⟨g5, h, hf.trans (by decide), (hd 6 (by decide)).trans (by decide),
    (hd 2 (by decide)).trans (by decide), (hu 3 (by decide)).trans (by decide),
    hs.trans (by decide), ht.trans (by decide)⟩

/-- Claim C12.  After `augment(m)` on a boundary arc whose ends have the parent
walks `ls` and `lt` to the roots `rs` and `rt`, the orphan list is the old one
with distinct new nodes in front of it (none behind); a node is new exactly
when it is on one of the two walks and the residual of its parent link is zero
after the push (`a.sister.r_cap` for the tail of `a` in `ls`, `a.r_cap` for the
tail of `a` in `lt`, `tr_cap` for `rs` and `rt`); the new nodes have parent
`ORPHAN`, every other node keeps its parent. -/
theorem augment_orphans_saturated (F : Nat) (g : Graph) (m : Nat) (ls : List Nat) (rs : Nat)
    (lt : List Nat) (rt : Nat) (hw : WellFormed g) (ht : TreeInv g none) (hB : Boundary g m)
    (hps : IsPath g (g.arcs (g.arcs m).sister).head ls rs)
    (hpt : IsPath g (g.arcs m).head lt rt) (hFs : ls.length < F) (hFt : lt.length < F) :
    ∃ g5 new, augment F g m = Res.ok g5 ∧ g5.orphans = new ++ g.orphans ∧ new.Nodup ∧
      (∀ x, x ∈ new ↔
        (∃ a ∈ ls, g.tail a = x ∧ (g5.arcs (g.arcs a).sister).r_cap = 0) ∨
        (x = rs ∧ (g5.nodes rs).tr_cap = 0) ∨
        (∃ a ∈ lt, g.tail a = x ∧ (g5.arcs a).r_cap = 0) ∨
        (x = rt ∧ (g5.nodes rt).tr_cap = 0)) ∧
      (∀ x, (g5.nodes x).parent = if x ∈ new then ArcPtr.orphan else (g.nodes x).parent) := by
  obtain ⟨g5, ns, nt, h, _, hr, htr, ho, hnd, i3, i4, hp, _, _, _⟩ :=
    augment_spec hw ht hB hps hpt hFs hFt
  have hn := augment_arcs_nodup hw ht hB hps hpt
  rw [List.nodup_append] at hn
  obtain ⟨nd1, nd2, nd3⟩ := hn
  have hrsrt : rs ≠ rt := by
    have hi0 : (g.arcs (g.arcs m).sister).head < g.node_num := hw.tail_lt hB.bound
    have hj0 : (g.arcs m).head < g.node_num := hw.head m hB.bound
    obtain ⟨fs1, _, fs3, _⟩ := isPath_facts hps ht hw hi0
    obtain ⟨ft1, _, ft3, _⟩ := isPath_facts hpt ht hw hj0
    intro hh
    have h1 := ((fs1 rs fs3).2.1).trans hB.tail.2
    rw [hh, ((ft1 rt ft3).2.1).trans hB.head.2] at h1
    exact absurd h1 (by simp)
  have hD : ∀ e ∈ m :: (ls.map fun a => (g.arcs a).sister) ++ lt,
      (g5.arcs e).r_cap = (g.arcs e).r_cap - bottleneck_value g m ls rs lt rt := by
    intro e he
    rw [hr e, List.count_eq_one_of_mem nd1 he,
      List.count_eq_zero_of_not_mem (fun h2 => nd3 he h2)]
    push_cast
    ring
  have e1 : ∀ a ∈ ls, (g5.arcs (g.arcs a).sister).r_cap =
      (g.arcs (g.arcs a).sister).r_cap - bottleneck_value g m ls rs lt rt := by
    intro a ha
    apply hD
    simp only [List.cons_append, List.mem_cons, List.mem_append, List.mem_map]
    exact Or.inr (Or.inl ⟨a, ha, rfl⟩)
  have e2 : ∀ a ∈ lt, (g5.arcs a).r_cap =
      (g.arcs a).r_cap - bottleneck_value g m ls rs lt rt := by
    intro a ha
    apply hD
    simp only [List.cons_append, List.mem_cons, List.mem_append]
    exact Or.inr (Or.inr ha)
  have e3 : (g5.nodes rs).tr_cap = (g.nodes rs).tr_cap - bottleneck_value g m ls rs lt rt := by
    rw [htr rs, if_pos rfl]
  have e4 : (g5.nodes rt).tr_cap = (g.nodes rt).tr_cap + bottleneck_value g m ls rs lt rt := by
    rw [htr rt, if_neg (Ne.symm hrsrt), if_pos rfl]
  refine ⟨g5, nt ++ ns, h, ho, hnd, ?_, hp⟩
  intro x
  rw [List.mem_append, i3, i4, e3, e4]
  constructor
  · rintro ((⟨a, ha, q1, q2⟩ | q) | (⟨a, ha, q1, q2⟩ | q))
    · exact Or.inr (Or.inr (Or.inl ⟨a, ha, q1, by rw [e2 a ha]; exact q2⟩))
    · exact Or.inr (Or.inr (Or.inr q))
    · exact Or.inl ⟨a, ha, q1, by rw [e1 a ha]; exact q2⟩
    · exact Or.inr (Or.inl q)
  · rintro (⟨a, ha, q1, q2⟩ | q | ⟨a, ha, q1, q2⟩ | q)
    · exact Or.inr (Or.inl ⟨a, ha, q1, by rw [← e1 a ha]; exact q2⟩)
    · exact Or.inr (Or.inr q)
    · exact Or.inl (Or.inl ⟨a, ha, q1, by rw [← e2 a ha]; exact q2⟩)
    · exact Or.inl (Or.inr q)

theorem augment_orphans_saturated_witness :
    ∃ g5, augment 2 diamond_grown 6 = Res.ok g5 ∧ g5.orphans = [2] ∧
      (g5.nodes 2).parent = ArcPtr.orphan ∧ (g5.nodes 0).parent = ArcPtr.terminal := by
  obtain ⟨g5, new, h, ho, _, hi, hp⟩ := augment_orphans_saturated 2 diamond_grown 6
    [3] 0 [] 3 wellFormed_diamond_grown treeInv_diamond_grown boundary_diamond_grown
    ⟨by decide, by decide, rfl⟩ ⟨by decide, rfl⟩ (by decide) (by decide)
  have h4 : (match augment 2 diamond_grown 6 with
      | Res.ok x => x.orphans
      | Res.fuel => []
      | Res.fault => []) = [2] := by decide
  rw [h] at h4
  simp only at h4
  have h5 : new = [2] := by
    have h6 : diamond_grown.orphans = [] := by decide
    rw [ho, h6, List.append_nil] at h4
    exact h4
  subst h5
  refine ⟨g5, h, h4, ?_, ?_⟩
  · rw [hp 2]
    simp
  · rw [hp 0]
    simp only [List.mem_singleton]
    decide

end Maxflow

namespace Maxflow

/-! ### The main loop -/

/-- Rule for the states at the top of the main loop. -/
theorem loopTop_rule {F : Nat} (I : Graph → Option Nat → Prop) (J : Graph → Nat → Prop)
    (hpick : ∀ g c g1 i, I g c → pick_active F g c = Res.ok (g1, some i) → J g1 i)
    (hgrown : ∀ g1 i g3, J g1 i →
      grow (g1.nodes i).is_sink i F g1 (g1.nodes i).first = Res.ok (g3, none) →
      I (g3.setTIME (g3.TIME + 1)) none)
    (haugment : ∀ g1 i g3 m g5 g6, J g1 i →
      grow (g1.nodes i).is_sink i F g1 (g1.nodes i).first = Res.ok (g3, some m) →
      augment F ((g3.setTIME (g3.TIME + 1)).setNext i (some i)) m = Res.ok g5 →
      adoption F F g5 = Res.ok g6 → I g6 (some i))
    {g0 g : Graph} {c0 c : Option Nat} (h : LoopTop F g0 c0 g c) (hI : I g0 c0) : I g c := by
  induction h with
  | entry => exact hI
  | grown _ h1 h2 ih => exact hgrown _ _ _ (hpick _ _ _ _ ih h1) h2
  | augmented _ h1 h2 h3 h4 ih => exact haugment _ _ _ _ _ _ (hpick _ _ _ _ ih h1) h2 h3 h4

/-- The main loop returns from the top of an iteration, when `next_active`
finds no node. -/
theorem main_loop_exit {F : Nat} {f : Nat} {g r : Graph} {c : Option Nat}
    (h : main_loop F f g c = Res.ok r) :
    ∃ g2 c2, LoopTop F g c g2 c2 ∧ pick_active F g2 c2 = Res.ok (r, none) := by
  suffices H : ∀ (f : Nat) (g2 : Graph) (c2 : Option Nat), LoopTop F g c g2 c2 →
      main_loop F f g2 c2 = Res.ok r →
      ∃ g3 c3, LoopTop F g c g3 c3 ∧ pick_active F g3 c3 = Res.ok (r, none) from
    H f g c LoopTop.entry h
  intro f
  induction f with
  | zero =>
    intro g2 c2 _ h
    simp [main_loop] at h
  | succ n ih =>
    intro g2 c2 hT h
    revert h
    simp only [main_loop, Res.bind_eq_ok]
    rintro ⟨⟨g1, p⟩, h1, h2⟩
    cases p with
    | none =>
      simp only [Res.ok.injEq] at h2
      subst h2
      exact ⟨g2, c2, hT, h1⟩
    | some i =>
      simp only [Res.bind_eq_ok] at h2
      obtain ⟨⟨g3, a⟩, h3, h4⟩ := h2
      cases a with
      | none => exact ih _ _ (LoopTop.grown hT h1 h3) h4
      | some m =>
        simp only [Res.bind_eq_ok] at h4
        obtain ⟨g5, h5, g6, h6, h7⟩ := h4
        exact ih _ _ (LoopTop.augmented hT h1 h3 h5 h6) h7

/-- A solve returns from the top of an iteration of the main loop entered in
the state left by the initialisation. -/
theorem solve_exit {F : Nat} {g r : Graph} {reuse_trees : Bool}
    (h : solve F g reuse_trees = Res.ok r) :
    ∃ g1 g2 c2, SolveEntry F g reuse_trees g1 ∧ LoopTop F g1 none g2 c2 ∧
      pick_active F g2 c2 = Res.ok (r, none) := by
  simp only [solve, Res.bind_eq_ok] at h
  obtain ⟨g1, h1, h2⟩ := h
  obtain ⟨g2, c2, hT, hp⟩ := main_loop_exit h2
  refine ⟨g1, g2, c2, ?_, hT, hp⟩
  unfold SolveEntry
  cases reuse_trees with
  | false =>
    simp only [Bool.false_eq_true, if_false, Res.ok.injEq] at h1 ⊢
    exact h1.symm
  | true =>
    simp only [if_true] at h1 ⊢
    exact h1

/-- Rule for the growth scan from the first arc of `i`: the steps may use the
invariant of the scan and the fact that the arc at hand is an arc of `i`. -/
theorem grow_with {sink : Bool} {i : Nat} (P : Graph → Prop)
    (hadopt : ∀ g a, GrowInv g i sink → a ∈ arcs_of g i → P g → grow_rcap g sink a ≠ 0 →
      (g.nodes (g.arcs a).head).parent = ArcPtr.null → P (grow_adopt g sink i a))
    (hattach : ∀ g a, GrowInv g i sink → a ∈ arcs_of g i → P g → grow_rcap g sink a ≠ 0 →
      InTree g sink (g.arcs a).head →
      (g.nodes (g.arcs a).head).TS ≤ (g.nodes i).TS →
      (g.nodes (g.arcs a).head).DIST > (g.nodes i).DIST →
      P (attach g i (g.arcs a).head a))
    {f : Nat} {g : Graph} {r : Graph × Option Nat}
    (h : grow sink i f g (g.nodes i).first = Res.ok r) (hG : GrowInv g i sink) (hP : P g) :
    P r.1 := by
  have key := @grow_rule sink i
    (fun g' p => GrowInv g' i sink ∧ P g' ∧ ∃ pre post, arcs_of g' i = pre ++ post ∧
      IsArcList g'.arcs p post)
    (fun g' _ => P g') ?_ ?_ ?_ ?_ ?_ ?_ f g (g.nodes i).first r h
    ⟨hG, hP, [], arcs_of g i, rfl, hG.inv.wf.lists i hG.bound⟩
  · exact key
  · rintro g' a ⟨hI, hP', pre, post, hl, hpost⟩ hr hp
    obtain ⟨post', rfl, hpost'⟩ := isArcList_suffix_step hpost
    have ha : a ∈ arcs_of g' i := by rw [hl]; simp
    have hshape : SameShape g' (grow_adopt g' sink i a) :=
      writes_shape (writes_grow_adopt g' sink i a)
    refine ⟨growInv_grow_adopt hI ha hp, hadopt g' a hI ha hP' hr hp, pre ++ [a], post', ?_, ?_⟩
    · rw [arcs_of_sameShape hshape, hl]
      simp
    · simpa using hpost'
  · rintro g' a ⟨hI, hP', pre, post, hl, hpost⟩ hr hp hs h1 h2
    obtain ⟨post', rfl, hpost'⟩ := isArcList_suffix_step hpost
    have ha : a ∈ arcs_of g' i := by rw [hl]; simp
    have hshape : SameShape g' (attach g' i (g'.arcs a).head a) :=
      writes_shape (writes_attach (K := growFields) (by decide) (by decide) (by decide) g' i _ a)
    refine ⟨growInv_attach hI ha ⟨hp, hs⟩, hattach g' a hI ha hP' hr ⟨hp, hs⟩ h1 h2,
      pre ++ [a], post', ?_, ?_⟩
    · rw [arcs_of_sameShape hshape, hl]
      simp
    · simpa using hpost'
  · rintro g' a ⟨hI, hP', pre, post, hl, hpost⟩ _ _ _
    obtain ⟨post', rfl, hpost'⟩ := isArcList_suffix_step hpost
    exact ⟨hI, hP', pre ++ [a], post', by rw [hl]; simp, hpost'⟩
  · rintro g' a ⟨hI, hP', pre, post, hl, hpost⟩ _
    obtain ⟨post', rfl, hpost'⟩ := isArcList_suffix_step hpost
    exact ⟨hI, hP', pre ++ [a], post', by rw [hl]; simp, hpost'⟩
  · rintro g' a ⟨_, hP', _⟩ _ _ _
    exact hP'
  · rintro g' ⟨_, hP', _⟩
    exact hP'

/-- The residual invariants only depend on residuals, sides and roots. -/
theorem resid_of_writes {K : List Field} {g g' : Graph} (h : Writes K g g')
    (h1 : Field.r_cap ∉ K) (h2 : Field.tr_cap ∉ K) (h3 : Field.is_sink ∉ K)
    (h4 : Field.parent ∉ K) (hR : Resid g) : Resid g' :=
  resid_mono (writes_shape h) (fun a => by rw [writes_keep_r_cap h h1])
    (writes_keep_tr_cap h h2) (writes_keep_is_sink h h3)
    (fun x hx => by rw [← writes_keep_parent h h4]; exact hx) hR

/-- The growth scan keeps the residual invariants: it makes no root. -/
theorem grow_resid {sink : Bool} {i f : Nat} {g : Graph} {r : Graph × Option Nat}
    (h : grow sink i f g (g.nodes i).first = Res.ok r) (hG : GrowInv g i sink)
    (hR : Resid g) : Resid r.1 := by
  refine grow_with Resid ?_ ?_ h hG hR
  · intro g' a hI ha hP hr hp
    have hw := writes_grow_adopt g' sink i a
    have hs := writes_shape hw
    have hpar : ∀ x, ((grow_adopt g' sink i a).nodes x).parent = ArcPtr.terminal →
        (g'.nodes x).parent = ArcPtr.terminal ∧
          ((grow_adopt g' sink i a).nodes x).is_sink = (g'.nodes x).is_sink := by
      intro x
      unfold grow_adopt attach
      by_cases hx : x = (g'.arcs a).head
      · subst hx
        simp
      · simp [hx]
    refine ⟨?_, ?_, ?_⟩
    · intro e he
      rw [hs.arc_num] at he
      rw [writes_keep_r_cap hw (by decide)]
      exact hP.nonneg e he
    · intro x hx hpx hkx
      rw [hs.node_num] at hx
      obtain ⟨q1, q2⟩ := hpar x hpx
      rw [writes_keep_tr_cap hw (by decide)]
      rw [q2] at hkx
      exact hP.source x hx q1 hkx
    · intro x hx hpx hkx
      rw [hs.node_num] at hx
      obtain ⟨q1, q2⟩ := hpar x hpx
      rw [writes_keep_tr_cap hw (by decide)]
      rw [q2] at hkx
      exact hP.sink x hx q1 hkx
  · intro g' a hI ha hP hr hp _ _
    have hw : Writes [Field.parent, Field.TS, Field.DIST] g' (attach g' i (g'.arcs a).head a) :=
      writes_attach (by decide) (by decide) (by decide) g' i _ a
    refine resid_mono (writes_shape hw) (fun e => by rw [writes_keep_r_cap hw (by decide)])
      (writes_keep_tr_cap hw (by decide)) (writes_keep_is_sink hw (by decide)) ?_ hP
    intro x
    unfold attach
    by_cases hx : x = (g'.arcs a).head
    · subst hx
      simp
    · simp [hx]

end Maxflow

namespace Maxflow

theorem trunc_eq_self (g : Graph) (k : Nat) (h : g.node_num = k) : g.trunc k = g := by
  subst h
  rfl

/-- The state left by `maxflow_init`, as the invariant of its loop describes
it. -/
theorem maxflow_init_initInv (g : Graph) :
    InitInv (maxflow_init g) g.node_num ∧ (maxflow_init g).node_num = g.node_num := by
  have h0 : InitInv ((((g.setQueue0 none none).setQueue1 none none).setOrphans []).setTIME 0) 0 := by
    refine ⟨⟨[], ⟨by simp [IsQueue, Graph.trunc], by simp [IsQueue, Graph.trunc], by simp, ?_,
      by simp, by simp⟩⟩, ?_, ?_, ?_, ?_, ?_, by simp⟩
    · intro i hi
      simp [Graph.trunc] at hi
    all_goals
      intro x hx
      omega
  exact ⟨initInv_init_nodes h0 g.node_num, (writes_shape (maxflow_init_writes g)).node_num⟩

/-- The cold initialisation establishes the invariant of the main loop, the
residual invariants, the terminal invariants and the label invariants; it
leaves no parent arc and no orphan. -/
theorem maxflow_init_inv (g : Graph) (hw : WellFormed g)
    (hnn : ∀ a < g.arc_num, 0 ≤ (g.arcs a).r_cap) :
    LoopInv (maxflow_init g) none ∧ Resid (maxflow_init g) ∧ Terminals (maxflow_init g) ∧
      Labels (maxflow_init g) ∧
      ∀ x < g.node_num, ((maxflow_init g).nodes x).parent = ArcPtr.terminal ∨
        ((maxflow_init g).nodes x).parent = ArcPtr.null := by
  obtain ⟨h, hn⟩ := maxflow_init_initInv g
  have hwr := maxflow_init_writes g
  have hs := writes_shape hwr
  obtain ⟨q1, hq⟩ := h.queue
  rw [trunc_eq_self _ _ hn] at hq
  refine ⟨⟨⟨wellFormed_sameShape hs hw, ⟨[], q1, hq⟩, ?_, ?_, orphanInv_nil h.orphans⟩,
    h.orphans, fun i hi => by simp at hi⟩, ⟨?_, ?_, ?_⟩, ⟨?_, ?_⟩, ⟨?_, ?_⟩, h.kind⟩
  · intro x hx _ hnx hpx
    rw [hn] at hx
    exact absurd hnx (h.root x hx hpx).1
  · intro x hx a hpa
    rw [hn] at hx
    rcases h.kind x hx with h1 | h1 <;> rw [h1] at hpa <;> exact absurd hpa (by simp)
  · intro a ha
    rw [hs.arc_num] at ha
    rw [writes_keep_r_cap hwr (by decide)]
    exact hnn a ha
  · intro x hx hpx hkx
    rw [hn] at hx
    rcases lt_trichotomy ((maxflow_init g).nodes x).tr_cap 0 with h1 | h1 | h1
    · rw [(h.neg x hx h1).2] at hkx
      exact absurd hkx (by simp)
    · rw [h.zero x hx h1] at hpx
      exact absurd hpx (by simp)
    · exact h1
  · intro x hx hpx hkx
    rw [hn] at hx
    rcases lt_trichotomy ((maxflow_init g).nodes x).tr_cap 0 with h1 | h1 | h1
    · exact h1
    · rw [h.zero x hx h1] at hpx
      exact absurd hpx (by simp)
    · rw [(h.pos x hx h1).2] at hkx
      exact absurd hkx (by simp)
  · intro x hx
    rw [hn] at hx
    exact h.pos x hx
  · intro x hx
    rw [hn] at hx
    exact h.neg x hx
  · intro x hx hpx
    rw [hn] at hx
    exact (h.root x hx (by rw [hpx]; simp)).2
  · intro x hx hpx
    rw [hn] at hx
    rw [(h.root x hx hpx).2]

/-- A boundary arc stays one when `TIME` and a `next` pointer are written. -/
theorem boundary_setTIME_setNext {g : Graph} {m : Nat} (h : Boundary g m) (t : Int) (i : Nat)
    (v : Option Nat) : Boundary ((g.setTIME t).setNext i v) m := by
  obtain ⟨h1, h2, h3⟩ := h
  refine ⟨by simpa using h1, ?_, ?_⟩
  · unfold InTree Graph.tail at h2 ⊢
    simpa using h2
  · unfold InTree at h3 ⊢
    simpa using h3

/-- Base invariant of the main loop, step 1: `pick_active` hands a node to the
growth scan. -/
theorem base_pick {F : Nat} {g g1 : Graph} {c : Option Nat} {i : Nat}
    (hI : LoopInv g c ∧ Resid g) (h : pick_active F g c = Res.ok (g1, some i)) :
    GrowInv g1 i (g1.nodes i).is_sink ∧ Resid g1 :=
  ⟨(pick_active_inv h hI.1).2 i rfl,
    resid_of_writes (pick_active_writes h) (by decide) (by decide) (by decide) (by decide) hI.2⟩

/-- Base invariant of the main loop at its exit. -/
theorem base_exit {F : Nat} {g r : Graph} {c : Option Nat}
    (hI : LoopInv g c ∧ Resid g) (h : pick_active F g c = Res.ok (r, none)) :
    (Inv r none none none [] ∧ r.orphans = [] ∧ QueueInv r none [] []) ∧ Resid r :=
  ⟨(pick_active_inv h hI.1).1 rfl,
    resid_of_writes (pick_active_writes h) (by decide) (by decide) (by decide) (by decide) hI.2⟩

/-- Base invariant of the main loop, step 2a: a growth scan that found no
boundary arc. -/
theorem base_grown {F : Nat} {g1 g3 : Graph} {i : Nat}
    (hJ : GrowInv g1 i (g1.nodes i).is_sink ∧ Resid g1)
    (h : grow (g1.nodes i).is_sink i F g1 (g1.nodes i).first = Res.ok (g3, none)) :
    LoopInv (g3.setTIME (g3.TIME + 1)) none ∧ Resid (g3.setTIME (g3.TIME + 1)) := by
  obtain ⟨hG, hpf, _⟩ := grow_growInv h hJ.1
  obtain ⟨h1, h2⟩ := growInv_done hG (hpf rfl) (g3.TIME + 1)
  refine ⟨⟨h1, h2, fun i hi => by simp at hi⟩, ?_⟩
  exact resid_of_writes (writes_setTIME (K := [Field.TIME]) (by decide) g3 _) (by decide)
    (by decide) (by decide) (by decide) (grow_resid h hJ.1 hJ.2)

/-- Base invariant of the main loop, step 2b: the state handed to `augment`
after a growth scan that found the boundary arc `m`. -/
theorem base_found {F : Nat} {g1 g3 : Graph} {i m : Nat}
    (hJ : GrowInv g1 i (g1.nodes i).is_sink ∧ Resid g1)
    (h : grow (g1.nodes i).is_sink i F g1 (g1.nodes i).first = Res.ok (g3, some m)) :
    AugInv ((g3.setTIME (g3.TIME + 1)).setNext i (some i)) (some i) ∧
      Boundary ((g3.setTIME (g3.TIME + 1)).setNext i (some i)) m ∧
      (((g3.setTIME (g3.TIME + 1)).setNext i (some i)).arcs m).r_cap ≠ 0 ∧
      GrowInv g3 i (g1.nodes i).is_sink ∧ Resid g3 := by
  obtain ⟨hG, _, hb⟩ := grow_growInv h hJ.1
  obtain ⟨hB, hm⟩ := hb m rfl
  obtain ⟨h1, h2, h3, h4⟩ := growInv_found hG (g3.TIME + 1)
  have hR := grow_resid h hJ.1 hJ.2
  refine ⟨⟨h1, ?_⟩, boundary_setTIME_setNext hB _ _ _, by simpa using hm, hG, hR⟩
  exact resid_of_writes (writes_trans (writes_setTIME (K := [Field.TIME, Field.next]) (by decide)
    g3 _) (writes_setNext (by decide) _ _ _)) (by decide) (by decide) (by decide) (by decide) hR

/-- Base invariant of the main loop, step 3: `augment` and the adoption
stage. -/
theorem base_augmented {F : Nat} {g1 g3 g5 g6 : Graph} {i m : Nat}
    (hJ : GrowInv g1 i (g1.nodes i).is_sink ∧ Resid g1)
    (h : grow (g1.nodes i).is_sink i F g1 (g1.nodes i).first = Res.ok (g3, some m))
    (h5 : augment F ((g3.setTIME (g3.TIME + 1)).setNext i (some i)) m = Res.ok g5)
    (h6 : adoption F F g5 = Res.ok g6) :
    (LoopInv g6 (some i) ∧ Resid g6) ∧ AdInv g5 (some i) [] := by
  obtain ⟨hA, hB, hm, hG, _⟩ := base_found hJ h
  obtain ⟨hrel, hA5, _, _, _⟩ := augment_inv h5 hA hB hm
  have hcur : ∀ j, some i = some j → (g5.nodes j).next ≠ none ∧ j < g5.node_num := by
    intro j hj
    simp only [Option.some.injEq] at hj
    subst hj
    rw [writes_keep_next hrel.writes (by decide), (writes_shape hrel.writes).node_num]
    exact ⟨by simp, by simpa using hG.bound⟩
  have hAd : AdInv g5 (some i) [] := ⟨hA5.inv, hA5.resid, hcur⟩
  obtain ⟨⟨hA6, _⟩, ho⟩ := adoption_inv h6 hAd
  exact ⟨⟨⟨hA6.inv, ho, hA6.cur⟩, hA6.resid⟩, hAd⟩

/-- The base invariant holds at the top of every iteration of the main loop. -/
theorem loopTop_base {F : Nat} {g0 g : Graph} {c0 c : Option Nat}
    (h : LoopTop F g0 c0 g c) (h0 : LoopInv g0 c0 ∧ Resid g0) : LoopInv g c ∧ Resid g :=
  loopTop_rule (fun g c => LoopInv g c ∧ Resid g)
    (fun g i => GrowInv g i (g.nodes i).is_sink ∧ Resid g)
    (fun _ _ _ _ hI h1 => base_pick hI h1) (fun _ _ _ hJ h1 => base_grown hJ h1)
    (fun _ _ _ _ _ _ hJ h1 h2 h3 => (base_augmented hJ h1 h2 h3).1) h h0

end Maxflow

namespace Maxflow

/-! ### Rules that expose the structural invariants -/

/-- Rule for the drain of the orphan list: each call of the orphan procedure
may use the invariants of the adoption stage. -/
theorem drain_with {F : Nat} {c : Option Nat} {pend : List Nat} (P : Graph → Prop)
    (hstep : ∀ g i rest g1, AdInv g c pend → P g → g.orphans = i :: rest →
      AdInv (g.setOrphans rest) c pend → i < g.node_num →
      (g.nodes i).parent = ArcPtr.orphan → (i ∉ rest ∧ i ∉ pend) →
      process_orphan F (g.nodes i).is_sink (g.setOrphans rest) i = Res.ok g1 → P g1)
    {f : Nat} {g r : Graph} (h : drain_orphans F f g = Res.ok r) (hA : AdInv g c pend)
    (hP : P g) : P r := by
  refine (drain_orphans_rule (fun g' => AdInv g' c pend ∧ P g') ?_ h ⟨hA, hP⟩).1.2
  rintro g' i rest g1 ⟨hA', hP'⟩ ho hp
  have hnd := hA'.inv.orphans.nodup
  rw [ho] at hnd
  simp only [List.cons_append, List.nodup_cons, List.mem_append, not_or] at hnd
  obtain ⟨A2, _⟩ := adInv_setOrphans rest pend hA'
    (by
      intro x hx
      rw [ho]
      rcases hx with hx | hx
      · exact Or.inl (by simp [hx])
      · exact Or.inr hx) hnd.2
  have hi : i < g'.node_num := hA'.inv.orphans.bound i (Or.inl (by rw [ho]; simp))
  have hpi : (g'.nodes i).parent = ArcPtr.orphan :=
    hA'.inv.orphans.parent i (Or.inl (by rw [ho]; simp))
  obtain ⟨A3, _⟩ := process_orphan_inv hp A2 (by simpa using hi) (by simp)
    (by simpa using hpi) (by simpa using hnd.1)
  exact ⟨A3, hstep g' i rest g1 hA' hP' ho A2 hi hpi hnd.1 hp⟩

/-- Rule for the adoption stage: the property `P` of the state and of the
orphans set aside is kept when the first orphan is cut off the list, by every
call of the orphan procedure, and when the rest of the list is resumed. -/
theorem adoption_with {F : Nat} {c : Option Nat} (P : Graph → List Nat → Prop)
    (hsplit : ∀ g i rest, AdInv g c [] → P g [] → g.orphans = i :: rest →
      P (g.setOrphans [i]) rest)
    (hjoin : ∀ g rest, AdInv g c rest → g.orphans = [] → P g rest → P (g.setOrphans rest) [])
    (hstep : ∀ pend g i rest g1, AdInv g c pend → P g pend → g.orphans = i :: rest →
      AdInv (g.setOrphans rest) c pend → i < g.node_num →
      (g.nodes i).parent = ArcPtr.orphan → (i ∉ rest ∧ i ∉ pend) →
      process_orphan F (g.nodes i).is_sink (g.setOrphans rest) i = Res.ok g1 → P g1 pend)
    {f : Nat} {g r : Graph} (h : adoption F f g = Res.ok r) (hA : AdInv g c [])
    (hP : P g []) : P r [] := by
  refine (adoption_rule (fun g' => AdInv g' c [] ∧ P g' []) ?_ h ⟨hA, hP⟩).1.2
  rintro g' i rest g1 ⟨hA', hP'⟩ ho hd
  have hnd := hA'.inv.orphans.nodup
  rw [ho] at hnd
  simp only [List.append_nil] at hnd
  obtain ⟨A2, _⟩ := adInv_setOrphans [i] rest hA'
    (by
      intro x hx
      rw [ho]
      left
      rcases hx with hx | hx
      · simp only [List.mem_singleton] at hx
        simp [hx]
      · simp [hx]) (by simpa using hnd)
  obtain ⟨⟨A3, _⟩, ho3⟩ := drain_orphans_inv hd A2
  obtain ⟨A4, _⟩ := adInv_setOrphans rest [] A3
    (by
      intro x hx
      rcases hx with hx | hx
      · exact Or.inr hx
      · simp at hx)
    (by
      have := A3.inv.orphans.nodup
      rw [ho3] at this
      simpa using this)
  have hP3 : P g1 rest :=
    drain_with (fun g => P g rest) (hstep rest) hd A2 (hsplit g' i rest hA' hP' ho)
  exact ⟨A4, hjoin g1 rest A3 ho3 hP3⟩

/-! ### Tree non-saturation and the orphan list -/

/-- Tree non-saturation only depends on residuals, sides and parents. -/
theorem unsat_mono {g g' : Graph} (hs : SameShape g g')
    (hr : ∀ a, (g'.arcs a).r_cap = (g.arcs a).r_cap)
    (hk : ∀ x, (g'.nodes x).is_sink = (g.nodes x).is_sink)
    (hp : ∀ x a, (g'.nodes x).parent = ArcPtr.arc a → (g.nodes x).parent = ArcPtr.arc a)
    (h : Unsat g) : Unsat g' := by
  intro x hx a hpa
  rw [hs.node_num] at hx
  have := h x hx a (hp x a hpa)
  rw [hs.sister, hr, hr, hk]
  exact this

theorem unsat_of_writes {K : List Field} {g g' : Graph} (h : Writes K g g')
    (h1 : Field.r_cap ∉ K) (h3 : Field.is_sink ∉ K) (h4 : Field.parent ∉ K)
    (hU : Unsat g) : Unsat g' :=
  unsat_mono (writes_shape h) (fun a => by rw [writes_keep_r_cap h h1])
    (writes_keep_is_sink h h3)
    (fun x a hx => by rw [← writes_keep_parent h h4]; exact hx) hU

theorem orphansListed_of_writes {K : List Field} {g g' : Graph} {pend : List Nat}
    (h : Writes K g g') (h1 : Field.orphans ∉ K) (h4 : Field.parent ∉ K)
    (hO : OrphansListed g pend) : OrphansListed g' pend := by
  intro x hx hpx
  rw [(writes_shape h).node_num] at hx
  rw [writes_keep_parent h h4] at hpx
  rw [writes_keep_orphans h h1]
  exact hO x hx hpx

/-- The growth scan keeps tree non-saturation and makes no orphan: a node is
only attached through an arc with residual in the direction of growth. -/
theorem grow_ext {sink : Bool} {i f : Nat} {g : Graph} {r : Graph × Option Nat}
    (h : grow sink i f g (g.nodes i).first = Res.ok r) (hG : GrowInv g i sink)
    (hR : Resid g) (hU : Unsat g) (hO : OrphansListed g []) :
    Unsat r.1 ∧ OrphansListed r.1 [] := by
  have key := grow_with (fun g' => (∀ a < g'.arc_num, 0 ≤ (g'.arcs a).r_cap) ∧ Unsat g' ∧
    OrphansListed g' []) ?_ ?_ h hG ⟨hR.nonneg, hU, hO⟩
  · exact key.2
  · rintro g' a hI ha ⟨hn, hU', hO'⟩ hr hp
    obtain ⟨ha1, ha2, ha3, ha4, ha5, ha6, ha7⟩ := hI.inv.wf.mem_arcs_of hI.bound ha
    have hs := writes_shape (writes_grow_adopt g' sink i a)
    refine ⟨?_, ?_, ?_⟩
    · intro e he
      rw [hs.arc_num] at he
      simpa using hn e he
    · intro x hx b hb
      rw [hs.node_num] at hx
      simp only [grow_adopt_nodes_parent] at hb
      simp only [grow_adopt_arcs, grow_adopt_nodes_is_sink]
      by_cases hxj : x = (g'.arcs a).head
      · simp only [hxj, if_true, ArcPtr.arc.injEq] at hb ⊢
        subst hb
        rw [ha5]
        unfold grow_rcap at hr
        constructor
        · intro hsk
          simp only [hsk, Bool.false_eq_true, if_false] at hr
          exact lt_of_le_of_ne (hn a ha1) (Ne.symm hr)
        · intro hsk
          simp only [hsk, if_true] at hr
          exact lt_of_le_of_ne (hn _ ha4) (Ne.symm hr)
      · simp only [hxj, if_false] at hb ⊢
        exact hU' x hx b hb
    · intro x hx hpx
      rw [hs.node_num] at hx
      simp only [grow_adopt_nodes_parent] at hpx
      split at hpx
      · exact absurd hpx (by simp)
      · simpa using hO' x hx hpx
  · rintro g' a hI ha ⟨hn, hU', hO'⟩ hr hj _ _
    obtain ⟨ha1, ha2, ha3, ha4, ha5, ha6, ha7⟩ := hI.inv.wf.mem_arcs_of hI.bound ha
    have hs : SameShape g' (attach g' i (g'.arcs a).head a) :=
      writes_shape (writes_attach (K := growFields) (by decide) (by decide) (by decide) g' i _ a)
    refine ⟨?_, ?_, ?_⟩
    · intro e he
      rw [hs.arc_num] at he
      simpa using hn e he
    · intro x hx b hb
      rw [hs.node_num] at hx
      simp only [attach_nodes_parent] at hb
      simp only [attach_arcs, attach_nodes_is_sink]
      by_cases hxj : x = (g'.arcs a).head
      · simp only [hxj, if_true, ArcPtr.arc.injEq] at hb ⊢
        subst hb
        rw [ha5, hj.2]
        unfold grow_rcap at hr
        constructor
        · intro hsk
          simp only [hsk, Bool.false_eq_true, if_false] at hr
          exact lt_of_le_of_ne (hn a ha1) (Ne.symm hr)
        · intro hsk
          simp only [hsk, if_true] at hr
          exact lt_of_le_of_ne (hn _ ha4) (Ne.symm hr)
      · simp only [hxj, if_false] at hb ⊢
        exact hU' x hx b hb
    · intro x hx hpx
      rw [hs.node_num] at hx
      simp only [attach_nodes_parent] at hpx
      split at hpx
      · exact absurd hpx (by simp)
      · simpa using hO' x hx hpx

end Maxflow

namespace Maxflow

/-- A call of `augment` that returns has walked two parent walks to the roots,
and its result is the one described by `augment_spec`. -/
theorem augment_effect {F : Nat} {g g5 : Graph} {m : Nat} (h : augment F g m = Res.ok g5)
    (hw : WellFormed g) (ht : TreeInv g none) (hB : Boundary g m) :
    ∃ ls rs lt rt ns nt, IsPath g (g.arcs (g.arcs m).sister).head ls rs ∧
      IsPath g (g.arcs m).head lt rt ∧
      g5.flow = g.flow + bottleneck_value g m ls rs lt rt ∧
      (∀ e, (g5.arcs e).r_cap = (g.arcs e).r_cap + bottleneck_value g m ls rs lt rt *
        ((((g.arcs m).sister :: ls ++ lt.map fun a => (g.arcs a).sister).count e : Int) -
          ((m :: (ls.map fun a => (g.arcs a).sister) ++ lt).count e : Int))) ∧
      (∀ x, (g5.nodes x).tr_cap =
        if x = rs then (g.nodes x).tr_cap - bottleneck_value g m ls rs lt rt
        else if x = rt then (g.nodes x).tr_cap + bottleneck_value g m ls rs lt rt
        else (g.nodes x).tr_cap) ∧
      g5.orphans = (nt ++ ns) ++ g.orphans ∧ (nt ++ ns).Nodup ∧
      (∀ x, x ∈ ns ↔
        (∃ a ∈ ls, g.tail a = x ∧
          (g.arcs (g.arcs a).sister).r_cap - bottleneck_value g m ls rs lt rt = 0) ∨
        (x = rs ∧ (g.nodes rs).tr_cap - bottleneck_value g m ls rs lt rt = 0)) ∧
      (∀ x, x ∈ nt ↔
        (∃ a ∈ lt, g.tail a = x ∧ (g.arcs a).r_cap - bottleneck_value g m ls rs lt rt = 0) ∨
        (x = rt ∧ (g.nodes rt).tr_cap + bottleneck_value g m ls rs lt rt = 0)) ∧
      (∀ x, (g5.nodes x).parent =
        if x ∈ nt ++ ns then ArcPtr.orphan else (g.nodes x).parent) := by
  have h0 := h
  simp only [augment, bottleneck, Res.bind_eq_ok] at h0
  obtain ⟨b, ⟨b1, hb1, hb2⟩, _⟩ := h0
  obtain ⟨ls, rs, hps, _⟩ := bottleneck_source_spec hb1
  obtain ⟨lt, rt, hpt, _⟩ := bottleneck_sink_spec hb2
  obtain ⟨g5', ns, nt, h', q1, q2, q3, q4, q5, q6, q7, q8, _⟩ :=
    @augment_spec (F + ls.length + lt.length + 1) g m ls lt rs rt hw ht hB hps hpt
      (by omega) (by omega)
  have := augment_mono (show F ≤ F + ls.length + lt.length + 1 by omega) h
  rw [this] at h'
  simp only [Res.ok.injEq] at h'
  subst h'
  exact ⟨ls, rs, lt, rt, ns, nt, hps, hpt, q1, q2, q3, q4, q5, q6, q7, q8⟩

/-- The bottleneck of an augmentation over unsaturated walks is positive and
below every residual it is taken over. -/
theorem bottleneck_value_bounds {g : Graph} {m : Nat} {ls lt : List Nat} {rs rt : Nat}
    (hw : WellFormed g) (ht : TreeInv g none) (hB : Boundary g m) (hR : Resid g)
    (hU : Unsat g) (hm : (g.arcs m).r_cap ≠ 0)
    (hps : IsPath g (g.arcs (g.arcs m).sister).head ls rs)
    (hpt : IsPath g (g.arcs m).head lt rt) :
    0 < bottleneck_value g m ls rs lt rt ∧
      bottleneck_value g m ls rs lt rt ≤ (g.arcs m).r_cap ∧
      (∀ a ∈ ls, bottleneck_value g m ls rs lt rt ≤ (g.arcs (g.arcs a).sister).r_cap) ∧
      (∀ a ∈ lt, bottleneck_value g m ls rs lt rt ≤ (g.arcs a).r_cap) ∧
      bottleneck_value g m ls rs lt rt ≤ (g.nodes rs).tr_cap ∧
      bottleneck_value g m ls rs lt rt ≤ - (g.nodes rt).tr_cap := by
  have hi0 : (g.arcs (g.arcs m).sister).head < g.node_num := hw.tail_lt hB.bound
  have hj0 : (g.arcs m).head < g.node_num := hw.head m hB.bound
  have hk0 : (g.nodes (g.arcs (g.arcs m).sister).head).is_sink = false := hB.tail.2
  obtain ⟨fs1, fs2, fs3, fs4⟩ := isPath_facts hps ht hw hi0
  obtain ⟨ft1, ft2, ft3, ft4⟩ := isPath_facts hpt ht hw hj0
  have hle := foldl_min_le (((ls.map fun a => (g.arcs (g.arcs a).sister).r_cap) ++
    [(g.nodes rs).tr_cap]) ++ ((lt.map fun a => (g.arcs a).r_cap) ++
    [- (g.nodes rt).tr_cap])) (g.arcs m).r_cap
  refine ⟨?_, hle.1, ?_, ?_, ?_, ?_⟩
  · unfold bottleneck_value
    refine lt_foldl_min _ _ 0 (lt_of_le_of_ne (hR.nonneg m hB.bound) (Ne.symm hm)) ?_
    intro v hv
    simp only [List.mem_append, List.mem_map, List.mem_singleton] at hv
    rcases hv with (⟨a, ha, rfl⟩ | rfl) | (⟨a, ha, rfl⟩ | rfl)
    · obtain ⟨q1, q2, q3, q4⟩ := fs2 a ha
      obtain ⟨p1, p2, _⟩ := fs1 _ q2
      exact (hU _ p1 a q4).1 (p2.trans hk0)
    · obtain ⟨p1, p2, _⟩ := fs1 rs fs3
      exact hR.source rs p1 fs4 (p2.trans hk0)
    · obtain ⟨q1, q2, q3, q4⟩ := ft2 a ha
      obtain ⟨p1, p2, _⟩ := ft1 _ q2
      exact (hU _ p1 a q4).2 (p2.trans hB.head.2)
    · obtain ⟨p1, p2, _⟩ := ft1 rt ft3
      have := hR.sink rt p1 ft4 (p2.trans hB.head.2)
      omega
  · intro a ha
    exact hle.2 _ (by simp only [List.mem_append, List.mem_map]; exact Or.inl (Or.inl ⟨a, ha, rfl⟩))
  · intro a ha
    exact hle.2 _ (by simp only [List.mem_append, List.mem_map]; exact Or.inr (Or.inl ⟨a, ha, rfl⟩))
  · exact hle.2 _ (by simp)
  · exact hle.2 _ (by simp)

/-- After `augment`, every parent arc left in place is unsaturated: a link whose
residual is used up has been replaced by `ORPHAN`; and every orphan is in the
orphan list. -/
theorem augment_ext {F : Nat} {g g5 : Graph} {m : Nat} {c : Option Nat}
    (h : augment F g m = Res.ok g5) (hI : AugInv g c) (hB : Boundary g m)
    (hm : (g.arcs m).r_cap ≠ 0) (hU : Unsat g) (hO : OrphansListed g []) :
    Unsat g5 ∧ OrphansListed g5 [] ∧ g.flow < g5.flow := by
  have hw := hI.inv.wf
  have ht := hI.inv.tree
  obtain ⟨ls, rs, lt, rt, ns, nt, hps, hpt, hfl, hr, htr, ho, hnd, i3, i4, hp⟩ :=
    augment_effect h hw ht hB
  obtain ⟨hb0, hbm, hbs, hbt, _, _⟩ := bottleneck_value_bounds hw ht hB hI.resid hU hm hps hpt
  obtain ⟨⟨m1, m2⟩, ⟨n1, n2⟩, s1, s2, t1, t2⟩ := augment_arc_sides hw ht hB hps hpt
  have hi0 : (g.arcs (g.arcs m).sister).head < g.node_num := hw.tail_lt hB.bound
  have hj0 : (g.arcs m).head < g.node_num := hw.head m hB.bound
  obtain ⟨fs1, fs2, fs3, fs4⟩ := isPath_facts hps ht hw hi0
  obtain ⟨ft1, ft2, ft3, ft4⟩ := isPath_facts hpt ht hw hj0
  have hnn := augment_arcs_nodup hw ht hB hps hpt
  rw [List.nodup_append] at hnn
  obtain ⟨nd1, nd2, nd3⟩ := hnn
  have hwr := augment_writes h
  have hs := writes_shape hwr
  have hk := writes_keep_is_sink hwr (by decide)
  -- residuals outside the forward arcs do not decrease
  have hge : ∀ e, e ∉ m :: (ls.map fun a => (g.arcs a).sister) ++ lt →
      (g.arcs e).r_cap ≤ (g5.arcs e).r_cap := by
    intro e he
    rw [hr e, List.count_eq_zero_of_not_mem he]
    have : (0 : Int) ≤ bottleneck_value g m ls rs lt rt *
        ((((g.arcs m).sister :: ls ++ lt.map fun a => (g.arcs a).sister).count e : Int) -
          ((0 : Nat) : Int)) := by
      apply mul_nonneg (le_of_lt hb0)
      simp
    linarith
  have hD : ∀ e ∈ m :: (ls.map fun a => (g.arcs a).sister) ++ lt,
      (g5.arcs e).r_cap = (g.arcs e).r_cap - bottleneck_value g m ls rs lt rt := by
    intro e he
    rw [hr e, List.count_eq_one_of_mem nd1 he,
      List.count_eq_zero_of_not_mem (fun h2 => nd3 he h2)]
    push_cast
    ring
  refine ⟨?_, ?_, by rw [hfl]; omega⟩
  · intro x hx a hpa
    rw [hs.node_num] at hx
    rw [hp x] at hpa
    have hxn : x ∉ nt ++ ns := by
      intro hh
      rw [if_pos hh] at hpa
      exact absurd hpa (by simp)
    rw [if_neg hxn] at hpa
    obtain ⟨ha, hta, _, _⟩ := ht x hx a hpa
    obtain ⟨hsa, hssa⟩ := hw.sister a ha
    have hU0 := hU x hx a hpa
    rw [hs.sister, hk]
    simp only [List.mem_append, not_or] at hxn
    constructor
    · intro hsk
      by_cases hd : (g.arcs a).sister ∈ m :: (ls.map fun a => (g.arcs a).sister) ++ lt
      · simp only [List.cons_append, List.mem_cons, List.mem_append, List.mem_map] at hd
        rcases hd with hd | ⟨p, hp1, hp2⟩ | hd
        · exfalso
          have h1 : (g.nodes (g.arcs (g.arcs a).sister).head).is_sink = false := by
            have : (g.arcs (g.arcs a).sister).head = g.tail a := rfl
            rw [this, hta]
            exact hsk
          rw [hd, m2] at h1
          exact absurd h1 (by simp)
        · have hpa2 : p = a := by
            rw [← (hw.sister p (fs2 p hp1).1).2, hp2, hssa]
          subst hpa2
          have hz : (g.arcs (g.arcs p).sister).r_cap - bottleneck_value g m ls rs lt rt ≠ 0 := by
            intro hz
            exact hxn.2 ((i3 x).2 (Or.inl ⟨p, hp1, hta, hz⟩))
          have hmem : (g.arcs p).sister ∈ m :: (ls.map fun a => (g.arcs a).sister) ++ lt := by
            simp only [List.cons_append, List.mem_cons, List.mem_append, List.mem_map]
            exact Or.inr (Or.inl ⟨p, hp1, rfl⟩)
          rw [hD _ hmem]
          have := hbs p hp1
          omega
        · exfalso
          have h1 := (t1 _ hd).2
          have : (g.arcs (g.arcs a).sister).head = g.tail a := rfl
          rw [this, hta, hsk] at h1
          exact absurd h1 (by simp)
      · exact lt_of_lt_of_le (hU0.1 hsk) (hge _ hd)
    · intro hsk
      by_cases hd : a ∈ m :: (ls.map fun a => (g.arcs a).sister) ++ lt
      · simp only [List.cons_append, List.mem_cons, List.mem_append] at hd
        rcases hd with hd | hd | hd
        · exfalso
          have h1 := m1
          rw [← hd, hta, hsk] at h1
          exact absurd h1 (by simp)
        · exfalso
          have h1 := (s2 _ hd).1
          rw [hta, hsk] at h1
          exact absurd h1 (by simp)
        · have hz : (g.arcs a).r_cap - bottleneck_value g m ls rs lt rt ≠ 0 := by
            intro hz
            exact hxn.1 ((i4 x).2 (Or.inl ⟨a, hd, hta, hz⟩))
          have hmem : a ∈ m :: (ls.map fun a => (g.arcs a).sister) ++ lt := by
            simp only [List.cons_append, List.mem_cons, List.mem_append]
            exact Or.inr (Or.inr hd)
          rw [hD _ hmem]
          have := hbt a hd
          omega
      · exact lt_of_lt_of_le (hU0.2 hsk) (hge _ hd)
  · intro x hx hpx
    rw [hs.node_num] at hx
    rw [hp x] at hpx
    left
    rw [ho]
    by_cases hh : x ∈ nt ++ ns
    · exact List.mem_append_left _ hh
    · rw [if_neg hh] at hpx
      rcases hO x hx hpx with h1 | h1
      · exact List.mem_append_right _ h1
      · simp at h1

end Maxflow

namespace Maxflow

/-- What the orphan procedure does to the parents: the processed orphan gets an
arc of its own with residual, or becomes free; its children, in the second
case, become orphans at the rear of the list; nothing else changes. -/
theorem process_orphan_parents {F : Nat} {sink : Bool} {g g1 : Graph} {i : Nat}
    (h : process_orphan F sink g i = Res.ok g1) (hw : WellFormed g) (hi : i < g.node_num) :
    (∃ am, am ∈ arcs_of g i ∧ orphan_rcap g sink am ≠ 0 ∧
        (g.nodes (g.arcs am).head).is_sink = sink ∧
        (g.nodes (g.arcs am).head).parent ≠ ArcPtr.null ∧ g1.orphans = g.orphans ∧
        ∀ x, (g1.nodes x).parent = if x = i then ArcPtr.arc am else (g.nodes x).parent) ∨
    (∃ cs, g1.orphans = g.orphans ++ cs ∧ i ∉ cs ∧
        (∀ j ∈ cs, ∃ p, (g.nodes j).parent = ArcPtr.arc p ∧ (g.arcs p).head = i) ∧
        ∀ x, (g1.nodes x).parent = if x ∈ cs then ArcPtr.orphan
          else if x = i then ArcPtr.null else (g.nodes x).parent) := by
  obtain ⟨gA, dmin, hl, hc⟩ := process_orphan_cases h
  rcases hc with ⟨am, hf, rfl⟩ | ⟨hf, hpn⟩
  · left
    obtain ⟨f1, f2, f3, f4⟩ := find_parent_facts hf hw hi am rfl
    refine ⟨am, f1, f2, f3, f4, by simp [hl.orphans], ?_⟩
    intro x
    simp [hl.parent]
  · right
    have hw2 : Writes [Field.TS, Field.DIST, Field.parent, Field.changed, Field.in_changed] g
        (add_to_changed_list (gA.setParent i ArcPtr.null) i) :=
      writes_trans (writes_mono (by decide) (find_parent_writes hf))
        (writes_trans (writes_setParent (by decide) _ _ _)
          (writes_add_to_changed_list (by decide) (by decide) _ _))
    have hs2 := writes_shape hw2
    have hfirst : (gA.nodes i).first =
        ((add_to_changed_list (gA.setParent i ArcPtr.null) i).nodes i).first := by simp
    rw [hfirst] at hpn
    obtain ⟨_, _, cs, ho, _, hcs, hpar, _, _⟩ := process_neighbors_spec hpn
      (wellFormed_sameShape hs2 hw) (by rw [hs2.node_num]; exact hi)
    have hp2 : ∀ x, ((add_to_changed_list (gA.setParent i ArcPtr.null) i).nodes x).parent =
        if x = i then ArcPtr.null else (g.nodes x).parent := by
      intro x
      simp [hl.parent]
    have hics : i ∉ cs := by
      intro hh
      obtain ⟨_, ⟨p, hp, _⟩, _⟩ := hcs i hh
      rw [hp2 i, if_pos rfl] at hp
      exact absurd hp (by simp)
    refine ⟨cs, ?_, hics, ?_, ?_⟩
    · rw [ho, writes_keep_orphans hw2 (by decide)]
    · intro j hj
      obtain ⟨_, ⟨p, hp, hh⟩, _⟩ := hcs j hj
      rw [hp2 j] at hp
      have hji : j ≠ i := fun q => hics (q ▸ hj)
      rw [if_neg hji] at hp
      rw [hs2.head] at hh
      exact ⟨p, hp, hh⟩
    · intro x
      rw [hpar x, hp2 x]

/-- The orphan procedure keeps tree non-saturation, and leaves every orphan in
the list or among the orphans set aside. -/
theorem process_orphan_ext {F : Nat} {sink : Bool} {g g1 : Graph} {i : Nat} {c : Option Nat}
    {pend : List Nat} (h : process_orphan F sink g i = Res.ok g1) (hA : AdInv g c pend)
    (hi : i < g.node_num) (hk : (g.nodes i).is_sink = sink) (hU : Unsat g)
    (hO : ∀ x < g.node_num, (g.nodes x).parent = ArcPtr.orphan →
      x = i ∨ x ∈ g.orphans ∨ x ∈ pend) :
    Unsat g1 ∧ OrphansListed g1 pend := by
  have hw := hA.inv.wf
  have hwr := process_orphan_writes h
  have hs := writes_shape hwr
  have hr : ∀ a, (g1.arcs a).r_cap = (g.arcs a).r_cap :=
    fun a => by rw [writes_keep_r_cap hwr (by decide)]
  have hks := writes_keep_is_sink hwr (by decide)
  rcases process_orphan_parents h hw hi with ⟨am, f1, f2, _, _, ho, hp⟩ | ⟨cs, ho, hics, _, hp⟩
  · obtain ⟨a1, _, _, a4, _, _, _⟩ := hw.mem_arcs_of hi f1
    refine ⟨?_, ?_⟩
    · intro x hx a hpa
      rw [hs.node_num] at hx
      rw [hp x] at hpa
      rw [hs.sister, hr, hr, hks]
      by_cases hxi : x = i
      · rw [if_pos hxi] at hpa
        simp only [ArcPtr.arc.injEq] at hpa
        subst hpa
        subst hxi
        unfold orphan_rcap at f2
        rw [hk]
        constructor
        · intro hsk
          simp only [hsk, Bool.false_eq_true, if_false] at f2
          exact lt_of_le_of_ne (hA.resid.nonneg _ a4) (Ne.symm f2)
        · intro hsk
          simp only [hsk, if_true] at f2
          exact lt_of_le_of_ne (hA.resid.nonneg _ a1) (Ne.symm f2)
      · rw [if_neg hxi] at hpa
        exact hU x hx a hpa
    · intro x hx hpx
      rw [hs.node_num] at hx
      rw [hp x] at hpx
      rw [ho]
      by_cases hxi : x = i
      · rw [if_pos hxi] at hpx
        exact absurd hpx (by simp)
      · rw [if_neg hxi] at hpx
        rcases hO x hx hpx with q | q | q
        · exact absurd q hxi
        · exact Or.inl q
        · exact Or.inr q
  · refine ⟨?_, ?_⟩
    · refine unsat_mono hs hr hks ?_ hU
      intro x a hpa
      rw [hp x] at hpa
      split at hpa
      · exact absurd hpa (by simp)
      · split at hpa
        · exact absurd hpa (by simp)
        · exact hpa
    · intro x hx hpx
      rw [hs.node_num] at hx
      rw [hp x] at hpx
      rw [ho]
      by_cases hxc : x ∈ cs
      · exact Or.inl (List.mem_append_right _ hxc)
      · rw [if_neg hxc] at hpx
        by_cases hxi : x = i
        · rw [if_pos hxi] at hpx
          exact absurd hpx (by simp)
        · rw [if_neg hxi] at hpx
          rcases hO x hx hpx with q | q | q
          · exact absurd q hxi
          · exact Or.inl (List.mem_append_left _ q)
          · exact Or.inr q

/-- One call of the orphan procedure from the drain, for the property of
`process_orphan_ext`. -/
theorem ext_drain_step {F : Nat} {c : Option Nat} (pend : List Nat) (g : Graph) (i : Nat)
    (rest : List Nat) (g1 : Graph) (_ : AdInv g c pend)
    (hP : Unsat g ∧ OrphansListed g pend) (ho : g.orphans = i :: rest)
    (hA2 : AdInv (g.setOrphans rest) c pend) (hi : i < g.node_num)
    (_ : (g.nodes i).parent = ArcPtr.orphan) (_ : i ∉ rest ∧ i ∉ pend)
    (hp : process_orphan F (g.nodes i).is_sink (g.setOrphans rest) i = Res.ok g1) :
    Unsat g1 ∧ OrphansListed g1 pend := by
  refine process_orphan_ext hp hA2 (by simpa using hi) (by simp) ?_ ?_
  · exact unsat_of_writes (writes_setOrphans (K := [Field.orphans]) (by decide) g rest)
      (by decide) (by decide) (by decide) hP.1
  · intro x hx hpx
    have hx' : x < g.node_num := by simpa using hx
    have hpx' : (g.nodes x).parent = ArcPtr.orphan := by simpa using hpx
    rcases hP.2 x hx' hpx' with q | q
    · rw [ho] at q
      simp only [List.mem_cons] at q
      rcases q with q | q
      · exact Or.inl q
      · exact Or.inr (Or.inl (by simpa using q))
    · exact Or.inr (Or.inr q)

/-- The drain of the orphan list keeps tree non-saturation and the orphan
list complete. -/
theorem drain_ext {F f : Nat} {g r : Graph} {c : Option Nat} {pend : List Nat}
    (h : drain_orphans F f g = Res.ok r) (hA : AdInv g c pend) (hU : Unsat g)
    (hO : OrphansListed g pend) : Unsat r ∧ OrphansListed r pend :=
  drain_with (fun g => Unsat g ∧ OrphansListed g pend) (ext_drain_step pend) h hA ⟨hU, hO⟩

/-- The adoption stage keeps tree non-saturation and the orphan list
complete. -/
theorem adoption_ext {F f : Nat} {g r : Graph} {c : Option Nat}
    (h : adoption F f g = Res.ok r) (hA : AdInv g c []) (hU : Unsat g)
    (hO : OrphansListed g []) : Unsat r ∧ OrphansListed r [] := by
  refine adoption_with (fun g pend => Unsat g ∧ OrphansListed g pend) ?_ ?_ ext_drain_step
    h hA ⟨hU, hO⟩
  · rintro g' i rest _ ⟨h1, h2⟩ ho
    refine ⟨unsat_of_writes (writes_setOrphans (K := [Field.orphans]) (by decide) g' _)
      (by decide) (by decide) (by decide) h1, ?_⟩
    intro x hx hpx
    have hx' : x < g'.node_num := by simpa using hx
    have hpx' : (g'.nodes x).parent = ArcPtr.orphan := by simpa using hpx
    rcases h2 x hx' hpx' with q | q
    · rw [ho] at q
      simp only [List.mem_cons] at q
      rcases q with q | q
      · exact Or.inl (by simp [q])
      · exact Or.inr q
    · simp at q
  · rintro g' rest _ ho ⟨h1, h2⟩
    refine ⟨unsat_of_writes (writes_setOrphans (K := [Field.orphans]) (by decide) g' _)
      (by decide) (by decide) (by decide) h1, ?_⟩
    intro x hx hpx
    have hx' : x < g'.node_num := by simpa using hx
    have hpx' : (g'.nodes x).parent = ArcPtr.orphan := by simpa using hpx
    rcases h2 x hx' hpx' with q | q
    · rw [ho] at q
      simp at q
    · exact Or.inl (by simpa using q)

/-- The invariants of the main loop so far: the base invariant, tree
non-saturation, and no orphan at the top of an iteration. -/
theorem loopTop_ext {F : Nat} {g0 g : Graph} {c0 c : Option Nat}
    (h : LoopTop F g0 c0 g c)
    (h0 : (LoopInv g0 c0 ∧ Resid g0) ∧ Unsat g0 ∧ OrphansListed g0 []) :
    (LoopInv g c ∧ Resid g) ∧ Unsat g ∧ OrphansListed g [] := by
  refine loopTop_rule (fun g c => (LoopInv g c ∧ Resid g) ∧ Unsat g ∧ OrphansListed g [])
    (fun g i => (GrowInv g i (g.nodes i).is_sink ∧ Resid g) ∧ Unsat g ∧ OrphansListed g [])
    ?_ ?_ ?_ h h0
  · rintro g c g1 i ⟨hB, hU, hO⟩ h1
    have hwr := pick_active_writes h1
    exact ⟨base_pick hB h1, unsat_of_writes hwr (by decide) (by decide) (by decide) hU,
      orphansListed_of_writes hwr (by decide) (by decide) hO⟩
  · rintro g1 i g3 ⟨hB, hU, hO⟩ h1
    obtain ⟨q1, q2⟩ := grow_ext h1 hB.1 hB.2 hU hO
    have hwr : Writes [Field.TIME] g3 (g3.setTIME (g3.TIME + 1)) :=
      writes_setTIME (by decide) g3 _
    exact ⟨base_grown hB h1, unsat_of_writes hwr (by decide) (by decide) (by decide) q1,
      orphansListed_of_writes hwr (by decide) (by decide) q2⟩
  · rintro g1 i g3 m g5 g6 ⟨hB, hU, hO⟩ h1 h2 h3
    obtain ⟨q1, q2⟩ := grow_ext h1 hB.1 hB.2 hU hO
    have hwr : Writes [Field.TIME, Field.next] g3 ((g3.setTIME (g3.TIME + 1)).setNext i (some i)) :=
      writes_trans (writes_setTIME (by decide) g3 _) (writes_setNext (by decide) _ _ _)
    obtain ⟨hA, hBd, hm, _, _⟩ := base_found hB h1
    obtain ⟨p1, p2, _⟩ := augment_ext h2 hA hBd hm
      (unsat_of_writes hwr (by decide) (by decide) (by decide) q1)
      (orphansListed_of_writes hwr (by decide) (by decide) q2)
    obtain ⟨hL, hAd⟩ := base_augmented hB h1 h2 h3
    exact ⟨hL, adoption_ext h3 hAd p1 p2⟩

/-- The cold initialisation establishes the invariants of `loopTop_ext`. -/
theorem maxflow_init_ext (g : Graph) (hw : WellFormed g)
    (hnn : ∀ a < g.arc_num, 0 ≤ (g.arcs a).r_cap) :
    (LoopInv (maxflow_init g) none ∧ Resid (maxflow_init g)) ∧ Unsat (maxflow_init g) ∧
      OrphansListed (maxflow_init g) [] := by
  obtain ⟨h1, h2, _, _, hk⟩ := maxflow_init_inv g hw hnn
  have hn : (maxflow_init g).node_num = g.node_num :=
    (writes_shape (maxflow_init_writes g)).node_num
  refine ⟨⟨h1, h2⟩, ?_, ?_⟩
  · intro x hx a hpa
    rw [hn] at hx
    rcases hk x hx with q | q <;> rw [q] at hpa <;> exact absurd hpa (by simp)
  · intro x hx hpx
    rw [hn] at hx
    rcases hk x hx with q | q <;> rw [q] at hpx <;> exact absurd hpx (by simp)

end Maxflow

namespace Maxflow

/-! ### The tree-reuse initialisation: the old queue seen as the first queue -/

theorem set_active_setQueue0 (g : Graph) (p l : Option Nat) (j : Nat) :
    set_active (g.setQueue0 p l) j = (set_active g j).setQueue0 p l := by
  unfold set_active
  simp only [setQueue0_nodes, setQueue0_queue_last1]
  split
  · split <;> rfl
  · rfl

theorem setQueue0_none_self (g : Graph) (h : g.queue_first0 = none ∧ g.queue_last0 = none) :
    g.setQueue0 none none = g := by
  cases g
  simp only [Graph.setQueue0] at h ⊢
  simp only [Graph.mk.injEq, true_and, and_true]
  exact ⟨h.1.symm, h.2.symm⟩

/-- The statements that take the node `i` at the cursor off the old queue. -/
theorem pop_active_setQueue0 (g : Graph) (l : Option Nat) (i : Nat) :
    pop_active (g.setQueue0 (some i) l) i =
      (g.setNext i none).setQueue0
        (if (g.nodes i).next = some i then none else (g.nodes i).next)
        (if (g.nodes i).next = some i then none else l) := by
  unfold pop_active
  simp only [setQueue0_nodes]
  split <;> rfl

theorem reuse_enter_nodes_is_marked (g : Graph) (i x : Nat) :
    ((reuse_enter g i).nodes x).is_marked = if x = i then false else (g.nodes x).is_marked := by
  simp [reuse_enter]

theorem reuse_enter_next_ne (g : Graph) (i x : Nat)
    (h : x = i ∨ (g.nodes x).next ≠ none) : ((reuse_enter g i).nodes x).next ≠ none := by
  unfold reuse_enter
  rcases h with h | h
  · subst h
    exact set_active_next_self _ _
  · by_cases hx : x = i
    · subst hx
      exact set_active_next_self _ _
    · apply set_active_next_mono
      simpa [hx] using h

/-- The opening statements of an iteration of the queue loop move the node at
the cursor from the old queue to the new one. -/
theorem reuse_enter_queue {g : Graph} {l : Option Nat} {i : Nat} {rest q1 : List Nat}
    (h : QueueInv (g.setQueue0 (some i) l) none rest q1) :
    ∃ rest' q1' l', rest = i :: rest' ∧
      QueueInv ((reuse_enter g i).setQueue0
        (if (g.nodes i).next = some i then none else (g.nodes i).next) l') none rest' q1' ∧
      i < g.node_num ∧ i ∉ rest' := by
  obtain ⟨r, hr, hq, _, hi⟩ := @queueInv_pop_active _ _ _ _ i h (by simp)
  subst hr
  rw [pop_active_setQueue0] at hq
  have hq2 : QueueInv ((((g.setNext i none).setMarked i false)).setQueue0
      (if (g.nodes i).next = some i then none else (g.nodes i).next)
      (if (g.nodes i).next = some i then none else l)) none r q1 :=
    queueInv_congr hq (by simp) (by simp) (by simp) (by simp)
  obtain ⟨q1', hq3, _, _⟩ := queueInv_set_active hq2 i (by simpa using hi) (by simp)
  rw [set_active_setQueue0] at hq3
  refine ⟨r, q1', _, rfl, hq3, by simpa using hi, ?_⟩
  have hnd := h.nodup
  rw [List.nodup_append] at hnd
  exact (List.nodup_cons.1 hnd.1).1

end Maxflow

namespace Maxflow

/-! ### The tree-reuse initialisation: transport of the invariants -/

theorem reuseTree_mono {g g' : Graph} {rest rest' : List Nat} {exc exc' : Nat → Nat → Prop}
    (hs : SameShape g g') (hk : ∀ x, (g'.nodes x).is_sink = (g.nodes x).is_sink)
    (hp : ∀ x a, (g'.nodes x).parent = ArcPtr.arc a → (g.nodes x).parent = ArcPtr.arc a)
    (hn : ∀ x, (g.nodes x).parent ≠ ArcPtr.null → (g'.nodes x).parent ≠ ArcPtr.null)
    (hx : ∀ x a, (g'.nodes x).parent = ArcPtr.arc a → x ∉ rest' → ¬ exc' x a →
      x ∉ rest ∧ ¬ exc x a)
    (h : ReuseTree g rest exc) : ReuseTree g' rest' exc' := by
  intro x hxn a hpa
  rw [hs.node_num] at hxn
  obtain ⟨h1, h2, h3, h4⟩ := h x hxn a (hp x a hpa)
  rw [hs.arc_num, tail_sameShape hs, hs.head, hk, hk]
  refine ⟨h1, h2, hn _ h3, ?_⟩
  intro q1 q2
  obtain ⟨p1, p2⟩ := hx x a hpa q1 q2
  exact h4 p1 p2

theorem reuseFrontier_mono {g g' : Graph} {exc exc' : Nat → Nat → Prop}
    (hs : SameShape g g') (hr : ∀ a, (g'.arcs a).r_cap = (g.arcs a).r_cap)
    (hk : ∀ x, (g'.nodes x).is_sink = (g.nodes x).is_sink)
    (hn : ∀ x, (g'.nodes x).next = none → (g.nodes x).next = none)
    (hp : ∀ x, (g'.nodes x).next = none → (g'.nodes x).parent ≠ ArcPtr.null →
      (g.nodes x).parent ≠ ArcPtr.null)
    (hp2 : ∀ x, (g.nodes x).parent ≠ ArcPtr.null → (g'.nodes x).parent ≠ ArcPtr.null)
    (hx : ∀ x a, x < g.node_num → (g'.nodes x).next = none →
      (g'.nodes x).parent ≠ ArcPtr.null → a ∈ arcs_of g x →
      0 < grow_rcap g (g.nodes x).is_sink a → exc x a →
      InTree g' (g.nodes x).is_sink (g.arcs a).head ∨ exc' x a)
    (h : ReuseFrontier g exc) : ReuseFrontier g' exc' := by
  intro x hxn hnx hpx a ha hpos
  rw [hs.node_num] at hxn
  rw [arcs_of_sameShape hs] at ha
  rw [hk, grow_rcap_congr hs hr] at hpos
  rw [hk, hs.head]
  rcases h x hxn (hn x hnx) (hp x hnx hpx) a ha hpos with q | q
  · left
    exact ⟨hp2 _ q.1, by rw [hk]; exact q.2⟩
  · exact hx x a hxn hnx hpx ha hpos q

theorem reuseSat_mono {g g' : Graph} {exc exc' : Nat → Prop}
    (hs : SameShape g g') (hr : ∀ a, (g'.arcs a).r_cap = (g.arcs a).r_cap)
    (ht : ∀ x, (g'.nodes x).tr_cap = (g.nodes x).tr_cap)
    (hk : ∀ x, (g'.nodes x).is_sink = (g.nodes x).is_sink)
    (hpt : ∀ x, ¬ exc' x → (g'.nodes x).parent = ArcPtr.terminal →
      (g.nodes x).parent = ArcPtr.terminal ∧ ¬ exc x)
    (hpa : ∀ x a, ¬ exc' x → (g'.nodes x).parent = ArcPtr.arc a →
      (g.nodes x).parent = ArcPtr.arc a ∧ ¬ exc x)
    (h : ReuseSat g exc) : ReuseSat g' exc' := by
  refine ⟨?_, ?_, ?_⟩
  · intro x hxn he hpx hkx
    rw [hs.node_num] at hxn
    rw [ht]
    rw [hk] at hkx
    exact h.source x hxn (hpt x he hpx).2 (hpt x he hpx).1 hkx
  · intro x hxn he hpx hkx
    rw [hs.node_num] at hxn
    rw [ht]
    rw [hk] at hkx
    exact h.sink x hxn (hpt x he hpx).2 (hpt x he hpx).1 hkx
  · intro x hxn he a hpa'
    rw [hs.node_num] at hxn
    rw [hs.sister, hr, hr, hk]
    exact h.unsat x hxn (hpa x a he hpa').2 a (hpa x a he hpa').1

/-- The common part of the invariant survives a step that keeps the queues, the
marks and the parents, but for parents replaced by `TERMINAL` or null outside
the orphan list. -/
theorem reuseCore_mono {g g' : Graph} {p : Option Nat} {rest : List Nat}
    (hs : SameShape g g') (hr : ∀ a, (g'.arcs a).r_cap = (g.arcs a).r_cap)
    (hnx : ∀ x, (g'.nodes x).next = (g.nodes x).next)
    (hq0 : g'.queue_first0 = g.queue_first0 ∧ g'.queue_last0 = g.queue_last0)
    (hq1 : g'.queue_first1 = g.queue_first1 ∧ g'.queue_last1 = g.queue_last1)
    (hm : ∀ x, (g'.nodes x).is_marked = (g.nodes x).is_marked)
    (ho : g'.orphans = g.orphans)
    (hpo : ∀ x, (g'.nodes x).parent = ArcPtr.orphan ↔ (g.nodes x).parent = ArcPtr.orphan)
    (hpa : ∀ x a, (g'.nodes x).parent = ArcPtr.arc a → (g.nodes x).parent = ArcPtr.arc a)
    (h : ReuseCore g p rest) : ReuseCore g' p rest := by
  obtain ⟨q1, l, hq⟩ := h.queue
  refine ⟨wellFormed_sameShape hs h.wf, ?_, ⟨q1, l, ?_⟩, ?_, ?_, ?_, ?_, ?_, ?_⟩
  · intro a ha
    rw [hs.arc_num] at ha
    rw [hr]
    exact h.nonneg a ha
  · exact queueInv_congr hq (by simpa using hnx) (by simp) (by simpa using hq1)
      (by simpa using hs.node_num)
  · rw [hq0.1, hq0.2]
    exact h.queue0
  · intro x hx
    rw [hs.node_num] at hx
    rw [hm]
    exact h.marks x hx
  · exact orphanInv_congr ho hs.node_num (fun x hx => (hpo x).2 hx) h.orphans
  · intro x hx hpx
    rw [hs.node_num] at hx
    rw [ho]
    exact h.listed x hx ((hpo x).1 hpx)
  · intro x hx hpx
    exact h.rest_parent x hx ((hpo x).1 hpx)
  · intro x hx a hpx
    rw [hs.node_num] at hx
    rw [hs.head]
    exact h.no_loop x hx a (hpa x a hpx)

/-- `set_active(j)` keeps the common part of the invariant. -/
theorem reuseCore_set_active {g : Graph} {p : Option Nat} {rest : List Nat} (j : Nat)
    (hj : j < g.node_num) (h : ReuseCore g p rest) : ReuseCore (set_active g j) p rest := by
  obtain ⟨q1, l, hq⟩ := h.queue
  have hs : SameShape g (set_active g j) :=
    writes_shape (writes_set_active (K := activeFields) (by decide) (by decide) g j)
  obtain ⟨q1', hq', _, _⟩ := queueInv_set_active hq j (by simpa using hj) (by simp)
  rw [set_active_setQueue0] at hq'
  refine ⟨wellFormed_sameShape hs h.wf, ?_, ⟨q1', l, hq'⟩, by simpa using h.queue0, ?_, ?_, ?_, ?_,
    ?_⟩
  · intro a ha
    rw [hs.arc_num] at ha
    simpa using h.nonneg a ha
  · intro x hx
    rw [hs.node_num] at hx
    simpa using h.marks x hx
  · exact orphanInv_congr (by simp) hs.node_num (fun x hx => by simpa using hx) h.orphans
  · intro x hx hpx
    rw [hs.node_num] at hx
    simpa using h.listed x hx (by simpa using hpx)
  · intro x hx
    simpa using h.rest_parent x hx
  · intro x hx a hpx
    rw [hs.node_num] at hx
    simpa using h.no_loop x hx a (by simpa using hpx)

/-- `set_orphan_rear(j)` on a node that is no orphan and is not in the old queue
keeps the common part of the invariant. -/
theorem reuseCore_orphan {g : Graph} {p : Option Nat} {rest : List Nat} (j : Nat)
    (hj : j < g.node_num) (hjp : (g.nodes j).parent ≠ ArcPtr.orphan) (hjr : j ∉ rest)
    (h : ReuseCore g p rest) : ReuseCore (set_orphan_rear g j) p rest := by
  obtain ⟨q1, l, hq⟩ := h.queue
  have hs : SameShape g (set_orphan_rear g j) :=
    writes_shape (writes_set_orphan_rear (K := [Field.parent, Field.orphans]) (by decide)
      (by decide) g j)
  refine ⟨wellFormed_sameShape hs h.wf, ?_, ⟨q1, l, ?_⟩, by simpa using h.queue0, ?_, ?_, ?_, ?_,
    ?_⟩
  · intro a ha
    rw [hs.arc_num] at ha
    simpa using h.nonneg a ha
  · exact queueInv_congr hq (by simp) (by simp) (by simp) (by simp)
  · intro x hx
    rw [hs.node_num] at hx
    simpa using h.marks x hx
  · exact orphanInv_push (Or.inr (by simp)) hs.node_num hj hjp (by simp) h.orphans
  · intro x hx hpx
    rw [hs.node_num] at hx
    simp only [set_orphan_rear_nodes_parent] at hpx
    simp only [set_orphan_rear_orphans, List.mem_append, List.mem_singleton]
    by_cases hxj : x = j
    · exact Or.inl (Or.inr hxj)
    · rw [if_neg hxj] at hpx
      rcases h.listed x hx hpx with q | q
      · exact Or.inl (Or.inl q)
      · exact Or.inr q
  · intro x hx
    simp only [set_orphan_rear_nodes_parent]
    have hxj : x ≠ j := fun q => hjr (q ▸ hx)
    rw [if_neg hxj]
    exact h.rest_parent x hx
  · intro x hx a hpx
    rw [hs.node_num] at hx
    simp only [set_orphan_rear_nodes_parent] at hpx
    split at hpx
    · exact absurd hpx (by simp)
    · simpa using h.no_loop x hx a hpx

end Maxflow

namespace Maxflow

/-! ### The tree-reuse initialisation: the steps of the queue loop -/

/-- The opening statements of an iteration: the node at the cursor leaves the
old queue and becomes active; its own tree data is now open. -/
theorem reuse_enter_inv {g : Graph} {i : Nat} {R : List Nat} (h : ReuseInv g (some i) R) :
    ∃ rest, R = i :: rest ∧
      ReuseNbInv (reuse_enter g i)
        (if (g.nodes i).next = some i then none else (g.nodes i).next) rest i
        (g.nodes i).is_sink [] := by
  obtain ⟨q1, l, hq⟩ := h.core.queue
  obtain ⟨rest, q1', l', rfl, hq', hi, hir⟩ := reuse_enter_queue hq
  have hs : SameShape g (reuse_enter g i) := writes_shape (writes_reuse_enter g i)
  have hnx : ∀ x, ((reuse_enter g i).nodes x).next = none → (g.nodes x).next = none := by
    intro x hx
    by_contra hh
    exact reuse_enter_next_ne g i x (Or.inr hh) hx
  refine ⟨rest, rfl, ⟨⟨wellFormed_sameShape hs h.core.wf, ?_, ⟨q1', l', hq'⟩,
    by simpa using h.core.queue0, ?_, ?_, ?_, ?_, ?_⟩, ?_, ?_, ?_, by simpa using hi, by simp,
    reuse_enter_next_ne g i i (Or.inl rfl), hir,
    by simpa using h.core.rest_parent i (by simp)⟩⟩
  · intro a ha
    rw [hs.arc_num] at ha
    simpa using h.core.nonneg a ha
  · intro x hx
    rw [hs.node_num] at hx
    rw [reuse_enter_nodes_is_marked]
    by_cases hxi : x = i
    · subst hxi
      simp [hir]
    · rw [if_neg hxi, h.core.marks x hx]
      simp [hxi]
  · exact orphanInv_congr (by simp) hs.node_num (fun x hx => by simpa using hx) h.core.orphans
  · intro x hx hpx
    rw [hs.node_num] at hx
    simpa using h.core.listed x hx (by simpa using hpx)
  · intro x hx
    simpa using h.core.rest_parent x (List.mem_cons_of_mem _ hx)
  · intro x hx a hpx
    rw [hs.node_num] at hx
    simpa using h.core.no_loop x hx a (by simpa using hpx)
  · refine reuseTree_mono hs (by simp) (fun x a hx => by simpa using hx)
      (fun x hx => by simpa using hx) ?_ h.tree
    intro x a _ h1 h2
    refine ⟨?_, fun hf => hf⟩
    intro hh
    simp only [List.mem_cons] at hh
    rcases hh with hh | hh
    · exact h2 (Or.inl hh)
    · exact h1 hh
  · refine reuseFrontier_mono hs (by simp) (by simp) hnx (fun x _ hx => by simpa using hx)
      (fun x hx => by simpa using hx) ?_ h.frontier
    intro x a _ _ _ _ _ hf
    exact absurd hf (fun hf => hf)
  · have hexc : ∀ x, ¬ (x ∈ rest ∨ x = i) → x ∉ i :: rest := by
      intro x h1 hh
      simp only [List.mem_cons] at hh
      rcases hh with hh | hh
      · exact h1 (Or.inr hh)
      · exact h1 (Or.inl hh)
    exact reuseSat_mono hs (by simp) (by simp) (by simp)
      (fun x he hx => ⟨by simpa using hx, hexc x he⟩)
      (fun x a he hx => ⟨by simpa using hx, hexc x he⟩) h.sat

/-- The node `i` is moved to the tree `sink`: the arcs of `i` are all to scan. -/
theorem reuse_move_start {g : Graph} {p : Option Nat} {rest : List Nat} {i : Nat}
    {s sink : Bool} (h : ReuseNbInv g p rest i s [])
    (hmv : (g.nodes i).parent = ArcPtr.null ∨ s ≠ sink) :
    ReuseNbInv (g.setSink i sink) p rest i sink (arcs_of g i) := by
  have hs : SameShape g (g.setSink i sink) :=
    writes_shape (writes_setSink (K := [Field.is_sink]) (by decide) g i sink)
  have hw := h.core.wf
  refine ⟨reuseCore_mono hs (by simp) (by simp) (by simp) (by simp) (by simp) (by simp)
    (by simp) (fun x a hx => by simpa using hx) h.core, ?_, ?_, ?_, by simpa using h.bound,
    by simp, by simpa using h.next, h.fresh, by simpa using h.parent⟩
  · intro x hx a hpa
    have hx' : x < g.node_num := by simpa using hx
    have hpa' : (g.nodes x).parent = ArcPtr.arc a := by simpa using hpa
    obtain ⟨h1, h2, h3, h4⟩ := h.tree x hx' a hpa'
    refine ⟨by simpa using h1, by simpa [Graph.tail] using h2, by simpa using h3, ?_⟩
    intro q1 q2
    simp only [setSink_arcs, not_or, not_and] at q2
    obtain ⟨q3, q4⟩ := q2
    have hhead : (g.arcs a).head ≠ i := by
      intro hh
      apply q4 hh
      have := hw.listed _ (hw.sister a h1).1
      rw [hw.tail_sister h1, hh] at this
      exact this
    simp only [setSink_arcs, setSink_nodes_is_sink, hhead, q3, if_false]
    exact h4 q1 (by simp [q3])
  · intro x hx hnx hpx a ha hpos
    have hx' : x < g.node_num := by simpa using hx
    have hnx' : (g.nodes x).next = none := by simpa using hnx
    have hxi : x ≠ i := by
      intro hh
      subst hh
      exact h.next hnx'
    rw [arcs_of_sameShape hs] at ha
    simp only [setSink_nodes_is_sink, hxi, if_false] at hpos ⊢
    rw [grow_rcap_congr hs (by simp)] at hpos
    obtain ⟨ha1, ha2, ha3, ha4, ha5, ha6, ha7⟩ := hw.mem_arcs_of hx' ha
    rcases h.frontier x hx' hnx' (by simpa using hpx) a ha hpos with q | q
    · by_cases hh : (g.arcs a).head = i
      · right
        refine ⟨by simpa using hh, ?_, ?_⟩
        · simpa [hh] using ha6
        · rcases hmv with hm | hm
          · rw [hh] at q
            exact absurd hm q.1
          · intro hk
            apply hm
            rw [← h.is_sink, ← hk, ← q.2, hh]
      · left
        refine ⟨by simpa using q.1, ?_⟩
        simp only [setSink_arcs, setSink_nodes_is_sink, hh, if_false]
        exact q.2
    · simp at q
  · refine ⟨?_, ?_, ?_⟩
    · intro x hx he hpx hkx
      simp only [not_or] at he
      simp only [setSink_nodes_is_sink, he.2, if_false] at hkx
      simpa using h.sat.source x (by simpa using hx) (by simp [he.1, he.2]) (by simpa using hpx) hkx
    · intro x hx he hpx hkx
      simp only [not_or] at he
      simp only [setSink_nodes_is_sink, he.2, if_false] at hkx
      simpa using h.sat.sink x (by simpa using hx) (by simp [he.1, he.2]) (by simpa using hpx) hkx
    · intro x hx he a hpa
      simp only [not_or] at he
      simp only [setSink_nodes_is_sink, he.2, if_false, setSink_arcs]
      exact h.sat.unsat x (by simpa using hx) (by simp [he.1, he.2]) a (by simpa using hpa)

/-- `set_active(j)` keeps the invariant of the neighbour loop. -/
theorem reuseNb_set_active {g : Graph} {p : Option Nat} {rest : List Nat} {i : Nat}
    {sink : Bool} {post : List Nat} (j : Nat) (hj : j < g.node_num)
    (h : ReuseNbInv g p rest i sink post) :
    ReuseNbInv (set_active g j) p rest i sink post := by
  have hs : SameShape g (set_active g j) :=
    writes_shape (writes_set_active (K := activeFields) (by decide) (by decide) g j)
  refine ⟨reuseCore_set_active j hj h.core, ?_, ?_, ?_, by simpa using h.bound,
    by simpa using h.is_sink, set_active_next_mono g j i h.next, h.fresh,
    by simpa using h.parent⟩
  · refine reuseTree_mono hs (by simp) (fun x a hx => by simpa using hx)
      (fun x hx => by simpa using hx) ?_ h.tree
    intro x a _ h1 h2
    exact ⟨h1, by simpa using h2⟩
  · refine reuseFrontier_mono hs (by simp) (by simp) (fun x hx => set_active_next_none g j x hx)
      (fun x _ hx => by simpa using hx) (fun x hx => by simpa using hx) ?_ h.frontier
    intro x a _ _ _ _ _ he
    right
    simpa using he
  · exact reuseSat_mono hs (by simp) (by simp) (by simp)
      (fun x he hx => ⟨by simpa using hx, he⟩) (fun x a he hx => ⟨by simpa using hx, he⟩) h.sat

/-- `set_orphan_rear(j)` on a child keeps the invariant of the neighbour
loop. -/
theorem reuseNb_orphan {g : Graph} {p : Option Nat} {rest : List Nat} {i : Nat}
    {sink : Bool} {post : List Nat} (j c : Nat) (hj : j < g.node_num) (hjr : j ∉ rest)
    (hji : j ≠ i) (hjp : (g.nodes j).parent = ArcPtr.arc c)
    (h : ReuseNbInv g p rest i sink post) :
    ReuseNbInv (set_orphan_rear g j) p rest i sink post := by
  have hs : SameShape g (set_orphan_rear g j) :=
    writes_shape (writes_set_orphan_rear (K := [Field.parent, Field.orphans]) (by decide)
      (by decide) g j)
  have hpa : ∀ x a, ((set_orphan_rear g j).nodes x).parent = ArcPtr.arc a →
      (g.nodes x).parent = ArcPtr.arc a := by
    intro x a hx
    simp only [set_orphan_rear_nodes_parent] at hx
    split at hx
    · exact absurd hx (by simp)
    · exact hx
  have hnn : ∀ x, (g.nodes x).parent ≠ ArcPtr.null →
      ((set_orphan_rear g j).nodes x).parent ≠ ArcPtr.null := by
    intro x hx
    simp only [set_orphan_rear_nodes_parent]
    split
    · simp
    · exact hx
  have hnn2 : ∀ x, ((set_orphan_rear g j).nodes x).parent ≠ ArcPtr.null →
      (g.nodes x).parent ≠ ArcPtr.null := by
    intro x hq
    by_cases hx : x = j
    · subst hx
      rw [hjp]
      simp
    · simpa [hx] using hq
  refine ⟨reuseCore_orphan j hj (by rw [hjp]; simp) hjr h.core, ?_, ?_, ?_,
    by simpa using h.bound, by simpa using h.is_sink, by simpa using h.next, h.fresh, ?_⟩
  · refine reuseTree_mono hs (by simp) hpa hnn ?_ h.tree
    intro x a _ h1 h2
    exact ⟨h1, by simpa using h2⟩
  · refine reuseFrontier_mono hs (by simp) (by simp) (fun x hx => by simpa using hx)
      (fun x _ hx => hnn2 x hx) hnn ?_ h.frontier
    intro x a _ _ _ _ _ he
    right
    simpa using he
  · refine reuseSat_mono hs (by simp) (by simp) (by simp) ?_ (fun x a he hx => ⟨hpa x a hx, he⟩)
      h.sat
    intro x he hx
    simp only [set_orphan_rear_nodes_parent] at hx
    split at hx
    · exact absurd hx (by simp)
    · exact ⟨hx, he⟩
  · simp only [set_orphan_rear_nodes_parent, if_neg (Ne.symm hji)]
    exact h.parent

/-- An arc of `i` leaves the list of the arcs to scan once the child and the
passive neighbour behind it have been dealt with. -/
theorem reuseNb_drop {g : Graph} {p : Option Nat} {rest : List Nat} {i : Nat}
    {sink : Bool} {b : Nat} {post : List Nat} (h : ReuseNbInv g p rest i sink (b :: post))
    (hT : ∀ x a, x < g.node_num → x ∉ rest → x ≠ i → (g.nodes x).parent = ArcPtr.arc a →
      (g.arcs a).head = i → (g.arcs a).sister = b → False)
    (hF : ∀ x a, x < g.node_num → (g.nodes x).next = none →
      (g.nodes x).parent ≠ ArcPtr.null → a ∈ arcs_of g x →
      0 < grow_rcap g (g.nodes x).is_sink a → (g.arcs a).head = i → (g.arcs a).sister = b →
      (g.nodes x).is_sink ≠ sink → False) :
    ReuseNbInv g p rest i sink post := by
  refine ⟨h.core, ?_, ?_, h.sat, h.bound, h.is_sink, h.next, h.fresh, h.parent⟩
  · intro x hx a hpa
    obtain ⟨h1, h2, h3, h4⟩ := h.tree x hx a hpa
    refine ⟨h1, h2, h3, ?_⟩
    intro q1 q2
    apply h4 q1
    simp only [not_or, not_and] at q2 ⊢
    refine ⟨q2.1, ?_⟩
    intro hh hm
    simp only [List.mem_cons] at hm
    rcases hm with hm | hm
    · exact hT x a hx q1 q2.1 hpa hh hm
    · exact q2.2 hh hm
  · intro x hx hnx hpx a ha hpos
    rcases h.frontier x hx hnx hpx a ha hpos with q | ⟨q1, q2, q3⟩
    · exact Or.inl q
    · simp only [List.mem_cons] at q2
      rcases q2 with q2 | q2
      · exact absurd (hF x a hx hnx hpx ha hpos q1 q2 q3) (fun hf => hf)
      · exact Or.inr ⟨q1, q2, q3⟩

end Maxflow

namespace Maxflow

/-- The first test of the body of the neighbour loop: a child of `i` behind the
arc `b` becomes an orphan. -/
theorem reuse_orphan_child_inv {g : Graph} {p : Option Nat} {rest : List Nat} {i : Nat}
    {sink : Bool} {b : Nat} {post : List Nat} (h : ReuseNbInv g p rest i sink post)
    (hb : b ∈ arcs_of g i) (hjr : (g.arcs b).head ∉ rest) :
    ReuseNbInv (reuse_orphan_child g b) p rest i sink post ∧
      ((reuse_orphan_child g b).nodes (g.arcs b).head).parent ≠
        ArcPtr.arc (g.arcs b).sister := by
  obtain ⟨b1, b2, b3, b4, b5, b6, b7⟩ := h.core.wf.mem_arcs_of h.bound hb
  unfold reuse_orphan_child
  split
  · rename_i hc
    have hji : (g.arcs b).head ≠ i := by
      intro hh
      have := h.core.no_loop _ b3 _ hc
      rw [b7] at this
      exact this hh.symm
    exact ⟨reuseNb_orphan _ _ b3 hjr hji hc h, by simp⟩
  · rename_i hc
    exact ⟨h, hc⟩

/-- The body of the neighbour loop for the arc `b` of `i`. -/
theorem reuse_step_inv {g : Graph} {p : Option Nat} {rest : List Nat} {i : Nat}
    {sink : Bool} {b : Nat} {post : List Nat} (h : ReuseNbInv g p rest i sink (b :: post))
    (hb : b ∈ arcs_of g i) : ReuseNbInv (reuse_step g sink b) p rest i sink post := by
  have hw := h.core.wf
  obtain ⟨b1, b2, b3, b4, b5, b6, b7⟩ := hw.mem_arcs_of h.bound hb
  have hs : SameShape g (reuse_step g sink b) := writes_shape (writes_reuse_step g sink b)
  by_cases hm : (g.nodes (g.arcs b).head).is_marked = false
  · -- an unmarked neighbour
    have hjr : (g.arcs b).head ∉ rest := by
      intro hh
      rw [(h.core.marks _ b3).2 hh] at hm
      exact absurd hm (by simp)
    obtain ⟨N1, hp1⟩ := reuse_orphan_child_inv h hb hjr
    have hn1 : (reuse_orphan_child g b).node_num = g.node_num := by simp
    have key : ReuseNbInv (reuse_step g sink b) p rest i sink (b :: post) ∧
        ((reuse_step g sink b).nodes (g.arcs b).head).parent ≠ ArcPtr.arc (g.arcs b).sister ∧
        (((reuse_step g sink b).nodes (g.arcs b).head).next ≠ none ∨
          ¬ (((reuse_step g sink b).nodes (g.arcs b).head).parent ≠ ArcPtr.null ∧
            ((reuse_step g sink b).nodes (g.arcs b).head).is_sink ≠ sink ∧
            reuse_rcap g sink b > 0)) := by
      unfold reuse_step
      rw [if_pos hm]
      split
      · exact ⟨reuseNb_set_active _ (by rw [hn1]; exact b3) N1, by simpa using hp1,
          Or.inl (set_active_next_self _ _)⟩
      · rename_i hc
        refine ⟨N1, hp1, Or.inr ?_⟩
        intro hh
        apply hc
        refine ⟨hh.1, hh.2.1, ?_⟩
        have : reuse_rcap (reuse_orphan_child g b) sink b = reuse_rcap g sink b := by
          unfold reuse_rcap
          simp
        rw [this]
        exact hh.2.2
    obtain ⟨N2, hp2, hact⟩ := key
    refine reuseNb_drop N2 ?_ ?_
    · intro x a hx hxr hxi hpa hh hsb
      obtain ⟨a1, a2, _, _⟩ := N2.tree x hx a hpa
      rw [hs.arc_num] at a1
      have hxj : x = (g.arcs b).head := by
        rw [← a2, tail_sameShape hs]
        unfold Graph.tail
        rw [hs.sister] at hsb
        rw [hsb]
      have hab : a = (g.arcs b).sister := by
        rw [hs.sister] at hsb
        rw [← hsb, (hw.sister a a1).2]
      rw [hxj, hab] at hpa
      exact hp2 hpa
    · intro x a hx hnx hpx ha hpos hh hsb hk
      rw [hs.node_num] at hx
      rw [arcs_of_sameShape hs] at ha
      obtain ⟨a1, a2, _, _, a5, _, _⟩ := hw.mem_arcs_of hx ha
      rw [hs.sister] at hsb
      have hxj : x = (g.arcs b).head := by
        rw [← a2]
        unfold Graph.tail
        rw [hsb]
      subst hxj
      rcases hact with q | q
      · exact q hnx
      · apply q
        refine ⟨hpx, hk, ?_⟩
        have hr : ∀ e, ((reuse_step g sink b).arcs e).r_cap = (g.arcs e).r_cap := by simp
        rw [grow_rcap_congr hs hr] at hpos
        unfold grow_rcap at hpos
        unfold reuse_rcap
        have hk' : (g.nodes (g.arcs b).head).is_sink ≠ sink := by simpa using hk
        have hk2 : ((reuse_step g sink b).nodes (g.arcs b).head).is_sink =
            (g.nodes (g.arcs b).head).is_sink := by simp
        rw [hk2] at hpos
        cases hsk : sink with
        | true =>
          have : (g.nodes (g.arcs b).head).is_sink = false := by
            cases hq : (g.nodes (g.arcs b).head).is_sink with
            | true => rw [hq, hsk] at hk'; exact absurd rfl hk'
            | false => rfl
          simp only [this, Bool.false_eq_true, if_false] at hpos
          simp only [if_true]
          have hab : a = (g.arcs b).sister := by
            rw [← hsb, a5]
          rw [← hab]
          exact hpos
        | false =>
          have : (g.nodes (g.arcs b).head).is_sink = true := by
            cases hq : (g.nodes (g.arcs b).head).is_sink with
            | true => rfl
            | false => rw [hq, hsk] at hk'; exact absurd rfl hk'
          simp only [this, if_true] at hpos
          simp only [Bool.false_eq_true, if_false]
          rw [hsb] at hpos
          exact hpos
  · -- a neighbour that is still marked is left to its own iteration
    have hm' : (g.nodes (g.arcs b).head).is_marked = true := by simpa using hm
    have hjr : (g.arcs b).head ∈ rest := (h.core.marks _ b3).1 hm'
    have he : reuse_step g sink b = g := by
      unfold reuse_step
      rw [if_neg hm]
    rw [he]
    refine reuseNb_drop h ?_ ?_
    · intro x a hx hxr hxi hpa hh hsb
      obtain ⟨a1, a2, _, _⟩ := h.tree x hx a hpa
      apply hxr
      rw [← a2]
      unfold Graph.tail
      rw [hsb]
      exact hjr
    · intro x a hx hnx hpx ha hpos hh hsb hk
      obtain ⟨a1, a2, _⟩ := hw.mem_arcs_of hx ha
      obtain ⟨q1, l, hq⟩ := h.core.queue
      have hxj : x = (g.arcs b).head := by
        rw [← a2]
        unfold Graph.tail
        rw [hsb]
      subst hxj
      have := queueInv_mem_next hq (Or.inl hjr)
      exact this (by simpa using hnx)

/-- The neighbour loop of `maxflow_reuse_trees_init`. -/
theorem reuse_neighbors_inv {g g3 : Graph} {p : Option Nat} {rest : List Nat} {i : Nat}
    {sink : Bool} {f : Nat}
    (h : reuse_neighbors sink f g (g.nodes i).first = Res.ok g3)
    (hN : ReuseNbInv g p rest i sink (arcs_of g i)) : ReuseNbInv g3 p rest i sink [] := by
  have key := @reuse_neighbors_rule sink
    (fun g' q => SameShape g g' ∧ ∃ pre post, arcs_of g i = pre ++ post ∧
      IsArcList g.arcs q post ∧ ReuseNbInv g' p rest i sink post) ?_ f g (g.nodes i).first g3 h
    ⟨sameShape_refl g, [], arcs_of g i, rfl, hN.core.wf.lists i hN.bound, hN⟩
  · obtain ⟨_, pre, post, _, hpost, hI⟩ := key
    have := isArcList_none hpost
    subst this
    exact hI
  · rintro g' a ⟨hs, pre, post, hl, hpost, hI⟩
    obtain ⟨post', rfl, hpost'⟩ := isArcList_suffix_step hpost
    have ha : a ∈ arcs_of g' i := by
      rw [arcs_of_sameShape hs, hl]
      simp
    refine ⟨sameShape_trans hs (writes_shape (writes_reuse_step g' sink a)), pre ++ [a], post',
      by rw [hl]; simp, ?_, reuse_step_inv hI ha⟩
    rw [hs.next]
    exact hpost'

/-- The node `i`, with its neighbours dealt with, becomes a root. -/
theorem reuse_root {g : Graph} {p : Option Nat} {rest : List Nat} {i : Nat} {sink : Bool}
    (h : ReuseNbInv g p rest i sink []) (ht : (g.nodes i).tr_cap ≠ 0)
    (hsk : sink = decide ((g.nodes i).tr_cap < 0)) : ReuseInv (make_root g i) p rest := by
  have hs : SameShape g (make_root g i) :=
    writes_shape (writes_make_root (K := [Field.parent, Field.TS, Field.DIST]) (by decide)
      (by decide) (by decide) g i)
  have hpa : ∀ x a, ((make_root g i).nodes x).parent = ArcPtr.arc a →
      (g.nodes x).parent = ArcPtr.arc a ∧ x ≠ i := by
    intro x a hx
    simp only [make_root_nodes_parent] at hx
    split at hx
    · exact absurd hx (by simp)
    · rename_i hxi
      exact ⟨hx, hxi⟩
  have hnn : ∀ x, (g.nodes x).parent ≠ ArcPtr.null →
      ((make_root g i).nodes x).parent ≠ ArcPtr.null := by
    intro x hx
    simp only [make_root_nodes_parent]
    split
    · simp
    · exact hx
  refine ⟨reuseCore_mono hs (by simp) (by simp) (by simp) (by simp) (by simp) (by simp) ?_
    (fun x a hx => (hpa x a hx).1) h.core, ?_, ?_, ?_⟩
  · intro x
    simp only [make_root_nodes_parent]
    split
    · rename_i hxi
      subst hxi
      simp [h.parent]
    · rfl
  · refine reuseTree_mono hs (by simp) (fun x a hx => (hpa x a hx).1) hnn ?_ h.tree
    intro x a hx h1 _
    exact ⟨h1, by simp [(hpa x a hx).2]⟩
  · refine reuseFrontier_mono hs (by simp) (by simp) (fun x hx => by simpa using hx) ?_ hnn ?_
      h.frontier
    · intro x hnx hpx
      have hxi : x ≠ i := by
        intro hh
        subst hh
        exact h.next (by simpa using hnx)
      simpa [hxi] using hpx
    · intro x a _ _ _ _ _ he
      simp at he
  · refine ⟨?_, ?_, ?_⟩
    · intro x hx he hpx hkx
      have hx' : x < g.node_num := by simpa using hx
      by_cases hxi : x = i
      · subst hxi
        simp only [make_root_nodes_is_sink, h.is_sink] at hkx
        rw [hkx] at hsk
        have : ¬ (g.nodes x).tr_cap < 0 := by simpa using hsk.symm
        simp only [make_root_nodes_tr_cap]
        omega
      · simp only [make_root_nodes_parent, if_neg hxi] at hpx
        simpa using h.sat.source x hx' (by simp [he, hxi]) hpx (by simpa using hkx)
    · intro x hx he hpx hkx
      have hx' : x < g.node_num := by simpa using hx
      by_cases hxi : x = i
      · subst hxi
        simp only [make_root_nodes_is_sink, h.is_sink] at hkx
        rw [hkx] at hsk
        have : (g.nodes x).tr_cap < 0 := by simpa using hsk.symm
        simpa using this
      · simp only [make_root_nodes_parent, if_neg hxi] at hpx
        simpa using h.sat.sink x hx' (by simp [he, hxi]) hpx (by simpa using hkx)
    · intro x hx he a hpx
      have hx' : x < g.node_num := by simpa using hx
      obtain ⟨q1, q2⟩ := hpa x a hpx
      simpa using h.sat.unsat x hx' (by simp [he, q2]) a q1

/-- `add_to_changed_list(i)` keeps the invariant of the neighbour loop. -/
theorem reuseNb_changed {g : Graph} {p : Option Nat} {rest : List Nat} {i : Nat}
    {sink : Bool} {post : List Nat} (j : Nat) (h : ReuseNbInv g p rest i sink post) :
    ReuseNbInv (add_to_changed_list g j) p rest i sink post := by
  have hs : SameShape g (add_to_changed_list g j) :=
    writes_shape (writes_add_to_changed_list (K := [Field.changed, Field.in_changed])
      (by decide) (by decide) g j)
  refine ⟨reuseCore_mono hs (by simp) (by simp) (by simp) (by simp) (by simp) (by simp)
    (by simp) (fun x a hx => by simpa using hx) h.core, ?_, ?_, ?_, by simpa using h.bound,
    by simpa using h.is_sink, by simpa using h.next, h.fresh, by simpa using h.parent⟩
  · refine reuseTree_mono hs (by simp) (fun x a hx => by simpa using hx)
      (fun x hx => by simpa using hx) ?_ h.tree
    intro x a _ h1 h2
    exact ⟨h1, by simpa using h2⟩
  · refine reuseFrontier_mono hs (by simp) (by simp) (fun x hx => by simpa using hx)
      (fun x _ hx => by simpa using hx) (fun x hx => by simpa using hx) ?_ h.frontier
    intro x a _ _ _ _ _ he
    right
    simpa using he
  · exact reuseSat_mono hs (by simp) (by simp) (by simp)
      (fun x he hx => ⟨by simpa using hx, he⟩) (fun x a he hx => ⟨by simpa using hx, he⟩) h.sat

/-- A node with no terminal residual becomes an orphan if it has a parent, and
stays free otherwise. -/
theorem reuse_zero {g : Graph} {p : Option Nat} {rest : List Nat} {i : Nat} {s : Bool}
    (h : ReuseNbInv g p rest i s []) :
    ReuseInv (if (g.nodes i).parent ≠ ArcPtr.null then set_orphan_rear g i else g) p rest := by
  split
  · rename_i hpi
    have hs : SameShape g (set_orphan_rear g i) :=
      writes_shape (writes_set_orphan_rear (K := [Field.parent, Field.orphans]) (by decide)
        (by decide) g i)
    have hpa : ∀ x a, ((set_orphan_rear g i).nodes x).parent = ArcPtr.arc a →
        (g.nodes x).parent = ArcPtr.arc a ∧ x ≠ i := by
      intro x a hx
      simp only [set_orphan_rear_nodes_parent] at hx
      split at hx
      · exact absurd hx (by simp)
      · rename_i hxi
        exact ⟨hx, hxi⟩
    have hpt : ∀ x, ((set_orphan_rear g i).nodes x).parent = ArcPtr.terminal →
        (g.nodes x).parent = ArcPtr.terminal ∧ x ≠ i := by
      intro x hx
      simp only [set_orphan_rear_nodes_parent] at hx
      split at hx
      · exact absurd hx (by simp)
      · rename_i hxi
        exact ⟨hx, hxi⟩
    have hnn : ∀ x, (g.nodes x).parent ≠ ArcPtr.null →
        ((set_orphan_rear g i).nodes x).parent ≠ ArcPtr.null := by
      intro x hx
      simp only [set_orphan_rear_nodes_parent]
      split
      · simp
      · exact hx
    refine ⟨reuseCore_orphan i h.bound h.parent h.fresh h.core, ?_, ?_, ?_⟩
    · refine reuseTree_mono hs (by simp) (fun x a hx => (hpa x a hx).1) hnn ?_ h.tree
      intro x a hx h1 _
      exact ⟨h1, by simp [(hpa x a hx).2]⟩
    · refine reuseFrontier_mono hs (by simp) (by simp) (fun x hx => by simpa using hx) ?_ hnn ?_
        h.frontier
      · intro x _ hpx
        by_cases hxi : x = i
        · subst hxi
          exact hpi
        · simpa [hxi] using hpx
      · intro x a _ _ _ _ _ he
        simp at he
    · exact reuseSat_mono hs (by simp) (by simp) (by simp)
        (fun x he hx => ⟨(hpt x hx).1, by simp [he, (hpt x hx).2]⟩)
        (fun x a he hx => ⟨(hpa x a hx).1, by simp [he, (hpa x a hx).2]⟩) h.sat
  · rename_i hpi
    have hpi' : (g.nodes i).parent = ArcPtr.null := by simpa using hpi
    have hxi : ∀ x, (g.nodes x).parent ≠ ArcPtr.null → x ≠ i := by
      intro x hx hh
      subst hh
      exact hx hpi'
    refine ⟨h.core, ?_, ?_, ?_⟩
    · refine reuseTree_mono (sameShape_refl g) (fun _ => rfl) (fun x a hx => hx)
        (fun x hx => hx) ?_ h.tree
      intro x a hx h1 _
      exact ⟨h1, by simp [hxi x (by rw [hx]; simp)]⟩
    · refine reuseFrontier_mono (sameShape_refl g) (fun _ => rfl) (fun _ => rfl)
        (fun x hx => hx) (fun x _ hx => hx) (fun x hx => hx) ?_ h.frontier
      intro x a _ _ _ _ _ he
      simp at he
    · exact reuseSat_mono (sameShape_refl g) (fun _ => rfl) (fun _ => rfl) (fun _ => rfl)
        (fun x he hx => ⟨hx, by simp [he, hxi x (by rw [hx]; simp)]⟩)
        (fun x a he hx => ⟨hx, by simp [he, hxi x (by rw [hx]; simp)]⟩) h.sat

end Maxflow

namespace Maxflow

/-- The queue loop of `maxflow_reuse_trees_init` keeps its invariant and ends
with the old queue exhausted. -/
theorem reuse_queue_inv {F f : Nat} {g r : Graph} {q : Option Nat} {R : List Nat}
    (h : reuse_queue F f g q = Res.ok r) (hI : ReuseInv g q R) : ReuseInv r none [] := by
  have key := reuse_queue_rule (fun g q => ∃ R, ReuseInv g q R) ?_ ?_ ?_ h ⟨R, hI⟩
  · obtain ⟨R', hR⟩ := key
    obtain ⟨q1, l, hq⟩ := hR.core.queue
    have : R' = [] := isQueue_first_none (by simpa using hq.queue0)
    subst this
    exact hR
  · rintro g' i ⟨R', hR⟩ _
    obtain ⟨rest, _, hN⟩ := reuse_enter_inv hR
    exact ⟨rest, reuse_zero hN⟩
  · rintro g' i g3 ⟨R', hR⟩ ht hmv hnb
    obtain ⟨rest, _, hN⟩ := reuse_enter_inv hR
    have hN2 := @reuse_move_start _ _ _ _ _ (decide (((reuse_enter g' i).nodes i).tr_cap < 0)) hN
      (by
        rcases hmv with q | q
        · exact Or.inl q
        · exact Or.inr (by simpa using q))
    have hfirst : ((reuse_enter g' i).nodes i).first =
        (((reuse_enter g' i).setSink i
          (decide (((reuse_enter g' i).nodes i).tr_cap < 0))).nodes i).first := by simp
    rw [hfirst] at hnb
    have hs : SameShape (reuse_enter g' i) ((reuse_enter g' i).setSink i
        (decide (((reuse_enter g' i).nodes i).tr_cap < 0))) :=
      writes_shape (writes_setSink (K := [Field.is_sink]) (by decide) _ i _)
    rw [← arcs_of_sameShape hs] at hN2
    have hN3 := reuse_neighbors_inv hnb hN2
    have htr : ((add_to_changed_list g3 i).nodes i).tr_cap =
        ((reuse_enter g' i).nodes i).tr_cap := by
      have := writes_keep_tr_cap (reuse_neighbors_writes hnb) (by decide) i
      simp only [add_to_changed_list_nodes_tr_cap, this, setSink_nodes_tr_cap]
    refine ⟨rest, reuse_root (reuseNb_changed i hN3) (by rw [htr]; exact ht) (by rw [htr])⟩
  · rintro g' i ⟨R', hR⟩ ht _ hk
    obtain ⟨rest, _, hN⟩ := reuse_enter_inv hR
    refine ⟨rest, reuse_root hN ht ?_⟩
    simpa using hk

/-- The entry condition of a tree-reuse solve gives the invariant of the queue
loop, once the queues and the orphan list have been emptied and `TIME`
incremented. -/
theorem reuseEntry_inv {g : Graph} {q : List Nat} (h : ReuseEntry g q) :
    ReuseInv ((((g.setQueue0 none none).setQueue1 none none).setOrphans []).setTIME (g.TIME + 1))
      g.queue_first1 q := by
  have hwr : Writes reuseFields g
      ((((g.setQueue0 none none).setQueue1 none none).setOrphans []).setTIME (g.TIME + 1)) :=
    writes_trans (writes_trans (writes_trans (writes_setQueue0 (by decide) _ _ _)
      (writes_setQueue1 (by decide) _ _ _)) (writes_setOrphans (by decide) _ _))
      (writes_setTIME (by decide) _ _)
  have hs := writes_shape hwr
  refine ⟨⟨wellFormed_sameShape hs h.wf, ?_, ⟨[], g.queue_last1, ?_⟩, by simp, ?_,
    orphanInv_nil (by simp), ?_, ?_, ?_⟩, ?_, ?_, ⟨?_, ?_, ?_⟩⟩
  · intro a ha
    simpa using h.nonneg a (by simpa using ha)
  · refine ⟨by simpa using h.queue, by simp [IsQueue], by simpa using h.nodup, ?_, by simp, ?_⟩
    · intro x hx hn
      exact Or.inl (h.active x (by simpa using hx) (by simpa using hn))
    · intro x hx
      simp only [List.not_mem_nil, or_false] at hx
      simpa using h.bound x hx
  · intro x hx
    simpa using h.marks x (by simpa using hx)
  · intro x hx hpx
    exact absurd (by simpa using hpx) (h.no_orphan x (by simpa using hx))
  · intro x hx
    simpa using h.no_orphan x (h.bound x hx)
  · intro x hx a hpx
    simpa using h.no_loop x (by simpa using hx) a (by simpa using hpx)
  · intro x hx a hpx
    obtain ⟨h1, h2, h3, h4⟩ := h.tree x (by simpa using hx) a (by simpa using hpx)
    refine ⟨by simpa using h1, by simpa [Graph.tail] using h2, ?_, fun _ _ => by simpa using h3⟩
    rcases h4 with h4 | h4
    · simpa using h4
    · simp at h4
  · intro x hx hnx hpx a ha hpos
    have ha' : a ∈ arcs_of g x := by
      rw [← arcs_of_sameShape hs]
      exact ha
    have hpos' : 0 < grow_rcap g (g.nodes x).is_sink a := by
      rw [← grow_rcap_congr hs (by simp)]
      simpa using hpos
    rcases h.frontier x (by simpa using hx) (by simp) (by simpa using hnx) (by simpa using hpx)
      a ha' hpos' with q | q
    · left
      unfold InTree at q ⊢
      simpa using q
    · simp at q
  · intro x hx he hpx hkx
    simpa using h.source x (by simpa using hx) he (by simpa using hpx) (by simpa using hkx)
  · intro x hx he hpx hkx
    simpa using h.sink x (by simpa using hx) he (by simpa using hpx) (by simpa using hkx)
  · intro x hx he a hpx
    simpa using h.unsat x (by simpa using hx) he a (by simpa using hpx)

/-- The state left by the queue loop satisfies the invariants of the adoption
stage, and tree non-saturation. -/
theorem reuseInv_exit {g : Graph} (h : ReuseInv g none []) :
    AdInv g none [] ∧ Unsat g ∧ OrphansListed g [] := by
  obtain ⟨q1, l, hq⟩ := h.core.queue
  have hl : l = none := by
    have := hq.queue0
    simp only [IsQueue] at this
    simpa using this.2
  subst hl
  rw [setQueue0_none_self g h.core.queue0] at hq
  refine ⟨⟨⟨h.core.wf, ⟨[], q1, hq⟩, ?_, ?_, h.core.orphans⟩, ⟨h.core.nonneg, ?_, ?_⟩,
    fun i hi => by simp at hi⟩, ?_, h.core.listed⟩
  · intro x hx _ hnx hpx a ha hpos
    rcases h.frontier x hx hnx hpx a ha hpos with q | q
    · exact Or.inl q
    · exact absurd q (fun hf => hf)
  · intro x hx a hpx
    obtain ⟨h1, h2, h3, h4⟩ := h.tree x hx a hpx
    exact ⟨h1, h2, h4 (by simp) (fun hf => hf), Or.inl h3⟩
  · intro x hx hpx hkx
    exact h.sat.source x hx (by simp) hpx hkx
  · intro x hx hpx hkx
    exact h.sat.sink x hx (by simp) hpx hkx
  · intro x hx a hpx
    exact h.sat.unsat x hx (by simp) a hpx

/-- The tree-reuse initialisation establishes the invariants of the main loop
from the entry condition. -/
theorem reuse_init_ext {F : Nat} {g g1 : Graph} {q : List Nat} (hE : ReuseEntry g q)
    (h : maxflow_reuse_trees_init F g = Res.ok g1) :
    (LoopInv g1 none ∧ Resid g1) ∧ Unsat g1 ∧ OrphansListed g1 [] := by
  simp only [maxflow_reuse_trees_init, Res.bind_eq_ok] at h
  obtain ⟨g2, h1, h2⟩ := h
  obtain ⟨hA, hU, hO⟩ := reuseInv_exit (reuse_queue_inv h1 (reuseEntry_inv hE))
  obtain ⟨⟨hA1, _⟩, ho⟩ := drain_orphans_inv h2 hA
  obtain ⟨hU1, hO1⟩ := drain_ext h2 hA hU hO
  exact ⟨⟨⟨hA1.inv, ho, fun i hi => by simp at hi⟩, hA1.resid⟩, hU1, hO1⟩

end Maxflow

namespace Maxflow

/-! ### Claims on the invariants of the solve -/

theorem solveReady_setChanged {g : Graph} {reuse_trees : Bool} (cl : Option (List Nat))
    (h : SolveReady g reuse_trees) : SolveReady (g.setChanged cl) reuse_trees := by
  unfold SolveReady at h ⊢
  cases reuse_trees with
  | false =>
    simp only [Bool.false_eq_true, if_false] at h ⊢
    exact ⟨wellFormed_sameShape (writes_shape (writes_setChanged (K := [Field.changed])
      (by decide) g cl)) h.1, fun a ha => by simpa using h.2 a (by simpa using ha)⟩
  | true =>
    simp only [if_true] at h ⊢
    obtain ⟨q, hq⟩ := h
    exact ⟨q, ⟨wellFormed_sameShape (writes_shape (writes_setChanged (K := [Field.changed])
      (by decide) g cl)) hq.wf, hq.nonneg, hq.queue, hq.nodup, hq.bound, hq.active, hq.marks,
      hq.tree, hq.no_loop, hq.no_orphan, hq.frontier, hq.source, hq.sink, hq.unsat⟩⟩

/-- The initialisation of a solve establishes the invariants of the main
loop. -/
theorem solveEntry_ext {F : Nat} {g g1 : Graph} {reuse_trees : Bool}
    (hR : SolveReady g reuse_trees) (h : SolveEntry F g reuse_trees g1) :
    (LoopInv g1 none ∧ Resid g1) ∧ Unsat g1 ∧ OrphansListed g1 [] := by
  unfold SolveReady at hR
  unfold SolveEntry at h
  cases reuse_trees with
  | false =>
    simp only [Bool.false_eq_true, if_false] at hR h
    subst h
    exact maxflow_init_ext g hR.1 hR.2
  | true =>
    simp only [if_true] at hR h
    obtain ⟨q, hq⟩ := hR
    exact reuse_init_ext hq h

/-- The invariants of the main loop hold in the state a solve returns. -/
theorem solve_exit_ext {F : Nat} {g r : Graph} {reuse_trees : Bool}
    (hR : SolveReady g reuse_trees) (h : solve F g reuse_trees = Res.ok r) :
    ((Inv r none none none [] ∧ r.orphans = [] ∧ QueueInv r none [] []) ∧ Resid r) ∧
      Unsat r ∧ OrphansListed r [] := by
  obtain ⟨g1, g2, c2, hE, hT, hp⟩ := solve_exit h
  obtain ⟨hB, hU, hO⟩ := loopTop_ext hT (solveEntry_ext hR hE)
  have hwr := pick_active_writes hp
  exact ⟨base_exit hB hp, unsat_of_writes hwr (by decide) (by decide) (by decide) hU,
    orphansListed_of_writes hwr (by decide) (by decide) hO⟩

theorem nonSaturation_of {g : Graph} (hR : Resid g) (hU : Unsat g) : NonSaturation g := by
  intro i hi
  exact ⟨fun hp => ⟨hR.sink i hi hp, hR.source i hi hp⟩, hU i hi⟩

theorem frontierSpec_of {g : Graph} {c : Option Nat} (hw : WellFormed g)
    (hF : PassiveFrontier g none none) : FrontierSpec g c := by
  intro i hi hp hn _
  have key := hF i hi (by simp) hn hp
  constructor
  · intro hk a ha hpos
    rw [hk] at key
    rcases key a ha (by simpa [grow_rcap] using hpos) with q | q
    · exact q
    · simp at q
  · intro hk a ha hpos
    rw [hk] at key
    rcases key a ha (by simpa [grow_rcap] using hpos) with q | q
    · exact q
    · simp at q

end Maxflow

namespace Maxflow

/-! ### Conservation of the residuals of a sister pair -/

theorem count_map_sister {g : Graph} (hw : WellFormed g) (L : List Nat)
    (hL : ∀ a ∈ L, a < g.arc_num) {e : Nat} (he : e < g.arc_num) :
    (L.map fun a => (g.arcs a).sister).count e = L.count (g.arcs e).sister := by
  induction L with
  | nil => simp
  | cons a L ih =>
    have ha := hL a (by simp)
    have hiff : (g.arcs a).sister = e ↔ a = (g.arcs e).sister := by
      constructor
      · intro h
        rw [← h, (hw.sister a ha).2]
      · intro h
        rw [h, (hw.sister e he).2]
    simp only [List.map_cons, List.count_cons, ih fun x hx => hL x (by simp [hx])]
    by_cases h : (g.arcs a).sister = e
    · have h2 := hiff.1 h
      simp [h, ← h2]
    · have h2 : ¬ a = (g.arcs e).sister := fun q => h (hiff.2 q)
      simp [h, h2]

/-- A call of `augment` keeps the sum of the residuals of every sister pair. -/
theorem augment_pairs {F : Nat} {g g5 : Graph} {m : Nat} (h : augment F g m = Res.ok g5)
    (hw : WellFormed g) (ht : TreeInv g none) (hB : Boundary g m) :
    ∀ e < g.arc_num, (g5.arcs e).r_cap + (g5.arcs (g.arcs e).sister).r_cap =
      (g.arcs e).r_cap + (g.arcs (g.arcs e).sister).r_cap := by
  obtain ⟨ls, rs, lt, rt, ns, nt, hps, hpt, _, hr, _⟩ := augment_effect h hw ht hB
  intro e he
  have hi0 : (g.arcs (g.arcs m).sister).head < g.node_num := hw.tail_lt hB.bound
  have hj0 : (g.arcs m).head < g.node_num := hw.head m hB.bound
  obtain ⟨_, fs, _, _⟩ := isPath_facts hps ht hw hi0
  obtain ⟨_, ft, _, _⟩ := isPath_facts hpt ht hw hj0
  have hls : ∀ a ∈ ls, a < g.arc_num := fun a ha => (fs a ha).1
  have hlt : ∀ a ∈ lt, a < g.arc_num := fun a ha => (ft a ha).1
  obtain ⟨hse, hsse⟩ := hw.sister e he
  have c1 := count_map_sister hw ls hls he
  have c2 := count_map_sister hw lt hlt he
  have c3 := count_map_sister hw ls hls hse
  have c4 := count_map_sister hw lt hlt hse
  rw [hsse] at c3 c4
  have hm1 : (g.arcs m).sister = e ↔ m = (g.arcs e).sister := by
    constructor
    · intro q
      rw [← q, (hw.sister m hB.bound).2]
    · intro q
      rw [q, hsse]
  have hm2 : (g.arcs m).sister = (g.arcs e).sister ↔ m = e := by
    constructor
    · intro q
      have := congrArg (fun a => (g.arcs a).sister) q
      simpa [(hw.sister m hB.bound).2, hsse] using this
    · intro q
      rw [q]
  rw [hr e, hr (g.arcs e).sister]
  simp only [List.cons_append, List.count_cons, List.count_append, c1, c2, c3, c4]
  simp only [beq_iff_eq, hm1, hm2]
  by_cases q1 : m = e <;> by_cases q2 : m = (g.arcs e).sister <;>
    simp only [q1, q2, if_true, if_false] <;> push_cast <;> ring

end Maxflow

namespace Maxflow

theorem pairsKept_refl (g : Graph) : PairsKept g g :=
  ⟨sameShape_refl g, fun _ _ => rfl⟩

theorem pairsKept_of_writes {K : List Field} {g0 g g' : Graph} (hwr : Writes K g g')
    (hk : Field.r_cap ∉ K) (hP : PairsKept g0 g) : PairsKept g0 g' := by
  refine ⟨sameShape_trans hP.1 (writes_shape hwr), fun e he => ?_⟩
  rw [writes_keep_r_cap hwr hk]
  exact hP.2 e he

theorem pairsKept_augment {F : Nat} {g0 g g5 : Graph} {m : Nat}
    (h : augment F g m = Res.ok g5) (hw : WellFormed g) (ht : TreeInv g none)
    (hB : Boundary g m) (hP : PairsKept g0 g) : PairsKept g0 g5 := by
  refine ⟨sameShape_trans hP.1 (writes_shape (augment_writes h)), fun e he => ?_⟩
  have he2 : e < g.arc_num := by rw [hP.1.arc_num]; exact he
  have := augment_pairs h hw ht hB e he2
  rw [hP.1.sister e] at this
  rw [this]
  have := hP.2 e he
  exact this

/-- The sums of the residuals of the sister pairs are those of the entry state
at the top of every iteration of the main loop. -/
theorem loopTop_pairs {F : Nat} {g0 g1 g : Graph} {c0 c : Option Nat}
    (h : LoopTop F g1 c0 g c) (h0 : LoopInv g1 c0 ∧ Resid g1) (hP : PairsKept g0 g1) :
    PairsKept g0 g := by
  have key := loopTop_rule (fun g c => (LoopInv g c ∧ Resid g) ∧ PairsKept g0 g)
    (fun g i => (GrowInv g i (g.nodes i).is_sink ∧ Resid g) ∧ PairsKept g0 g)
    ?_ ?_ ?_ h ⟨h0, hP⟩
  · exact key.2
  · rintro g c g1 i ⟨hB, hQ⟩ h1
    exact ⟨base_pick hB h1, pairsKept_of_writes (pick_active_writes h1) (by decide) hQ⟩
  · rintro g1 i g3 ⟨hB, hQ⟩ h1
    exact ⟨base_grown hB h1, pairsKept_of_writes
      (writes_setTIME (K := [Field.TIME]) (by decide) g3 _) (by decide)
      (pairsKept_of_writes (grow_writes h1) (by decide) hQ)⟩
  · rintro g1 i g3 m g5 g6 ⟨hB, hQ⟩ h1 h2 h3
    obtain ⟨hA, hBd, _, _, _⟩ := base_found hB h1
    have q3 : PairsKept g0 ((g3.setTIME (g3.TIME + 1)).setNext i (some i)) :=
      pairsKept_of_writes (writes_trans
        (writes_setTIME (K := [Field.TIME, Field.next]) (by decide) g3 _)
        (writes_setNext (by decide) _ _ _)) (by decide)
        (pairsKept_of_writes (grow_writes h1) (by decide) hQ)
    exact ⟨(base_augmented hB h1 h2 h3).1, pairsKept_of_writes (adoption_writes h3) (by decide)
      (pairsKept_augment h2 hA.inv.wf hA.inv.tree hBd q3)⟩

/-- A solve keeps the sum of the residuals of every sister pair. -/
theorem solve_pairs {F : Nat} {g r : Graph} {reuse_trees : Bool}
    (hR : SolveReady g reuse_trees) (h : solve F g reuse_trees = Res.ok r) : PairsKept g r := by
  obtain ⟨g1, g2, c2, hE, hT, hp⟩ := solve_exit h
  have hI := (solveEntry_ext hR hE).1
  have hP1 : PairsKept g g1 := by
    unfold SolveEntry at hE
    cases reuse_trees with
    | false =>
      simp only [Bool.false_eq_true, if_false] at hE
      subst hE
      exact pairsKept_of_writes (maxflow_init_writes g) (by decide) (pairsKept_refl g)
    | true =>
      simp only [if_true] at hE
      exact pairsKept_of_writes (maxflow_reuse_trees_init_writes hE) (by decide)
        (pairsKept_refl g)
  exact pairsKept_of_writes (pick_active_writes hp) (by decide) (loopTop_pairs hT hI hP1)

end Maxflow

namespace Maxflow

theorem sameResiduals_of_writes {K : List Field} {g g' : Graph} (hwr : Writes K g g')
    (hk : Field.r_cap ∉ K) (hk2 : Field.tr_cap ∉ K) : SameResiduals g g' :=
  ⟨fun e => by rw [writes_keep_r_cap hwr hk], writes_keep_tr_cap hwr hk2⟩

theorem solveReady_cold {g : Graph} (hw : WellFormed g)
    (hn : ∀ a < g.arc_num, 0 ≤ (g.arcs a).r_cap) : SolveReady g false := by
  unfold SolveReady
  simp only [Bool.false_eq_true, if_false]
  exact ⟨hw, hn⟩

theorem solveReady_diamond : SolveReady diamond false :=
  solveReady_cold wellFormed_diamond (by decide)

theorem diamond_returns : ∃ g, maxflow 8 diamond false none = Outcome.returned g 9 :=
  outcome_of_flow (show (maxflow 8 diamond false none).flow? = some 9 by decide)

/-- C21: residual pair conservation. A call of `augment` on a well-formed state
with consistent trees and a boundary arc keeps `a.r_cap + a.sister.r_cap` for
every sister pair; a solve entered as the interface requires keeps it from entry
to return; and `maxflow_init`, `maxflow_reuse_trees_init`, `next_active` with the
choice of the current node, the growth scan, the adoption stage and the
bookkeeping of the main loop write no `r_cap` and no `tr_cap`. -/
theorem residual_pairs_conserved (F : Nat) (g : Graph) (reuse_trees : Bool)
    (cl : Option (List Nat)) (hR : SolveReady g reuse_trees) :
    (∀ gA m g5, WellFormed gA → TreeInv gA none → Boundary gA m →
      augment F gA m = Res.ok g5 → ∀ e < gA.arc_num,
        (g5.arcs e).r_cap + (g5.arcs (g5.arcs e).sister).r_cap =
          (gA.arcs e).r_cap + (gA.arcs (gA.arcs e).sister).r_cap) ∧
    (∀ g' fl, maxflow F g reuse_trees cl = Outcome.returned g' fl → ∀ e < g.arc_num,
        (g'.arcs e).r_cap + (g'.arcs (g'.arcs e).sister).r_cap =
          (g.arcs e).r_cap + (g.arcs (g.arcs e).sister).r_cap) ∧
    (∀ gA, SameResiduals gA (maxflow_init gA)) ∧
    (∀ gA r, maxflow_reuse_trees_init F gA = Res.ok r → SameResiduals gA r) ∧
    (∀ gA c r, pick_active F gA c = Res.ok r → SameResiduals gA r.1) ∧
    (∀ gA sink i f a r, grow sink i f gA a = Res.ok r → SameResiduals gA r.1) ∧
    (∀ gA f r, adoption F f gA = Res.ok r → SameResiduals gA r) ∧
    (∀ gA i t v k, SameResiduals gA ((gA.setTIME t).setNext i v) ∧
      SameResiduals gA (gA.setChanged cl) ∧ SameResiduals gA (gA.setIteration k)) := by
  refine ⟨?_, ?_, ?_, ?_, ?_, ?_, ?_, ?_⟩
  · intro gA m g5 hw ht hB h e he
    rw [(writes_shape (augment_writes h)).sister e]
    exact augment_pairs h hw ht hB e he
  · intro g' fl h e he
    obtain ⟨_, _, g2, h2, rfl, _⟩ := maxflow_returned_iff.1 h
    have hP := solve_pairs (solveReady_setChanged cl hR) h2
    have hs := hP.1.sister e
    have := hP.2 e he
    simpa [hs] using this
  · intro gA
    exact sameResiduals_of_writes (maxflow_init_writes gA) (by decide) (by decide)
  · intro gA r h
    exact sameResiduals_of_writes (maxflow_reuse_trees_init_writes h) (by decide) (by decide)
  · intro gA c r h
    exact sameResiduals_of_writes (pick_active_writes h) (by decide) (by decide)
  · intro gA sink i f a r h
    exact sameResiduals_of_writes (grow_writes h) (by decide) (by decide)
  · intro gA f r h
    exact sameResiduals_of_writes (adoption_writes h) (by decide) (by decide)
  · intro gA i t v k
    exact ⟨⟨fun _ => rfl, fun _ => by simp⟩, ⟨fun _ => rfl, fun _ => rfl⟩,
      ⟨fun _ => rfl, fun _ => rfl⟩⟩

theorem residual_pairs_conserved_witness :
    SolveReady diamond false ∧
      ∃ g', maxflow 8 diamond false none = Outcome.returned g' 9 ∧ ∀ e < diamond.arc_num,
        (g'.arcs e).r_cap + (g'.arcs (g'.arcs e).sister).r_cap =
          (diamond.arcs e).r_cap + (diamond.arcs (diamond.arcs e).sister).r_cap := by
  obtain ⟨g', hg⟩ := diamond_returns
  exact ⟨solveReady_diamond, g', hg,
    (residual_pairs_conserved 8 diamond false none solveReady_diamond).2.1 g' 9 hg⟩

end Maxflow

namespace Maxflow

/-- C17: tree non-saturation. In a solve entered as the interface requires (a
cold solve of a well-formed graph with non-negative residuals, or a tree-reuse
solve entered in a state with consistent trees whose edited nodes are marked),
at the top of every iteration of the main loop and in the state `maxflow`
returns, every node whose parent is `TERMINAL` has `tr_cap < 0` if `is_sink` and
`tr_cap > 0` otherwise, and every node whose parent is a real arc `a` has
`a.sister.r_cap > 0` if it is source-side and `a.r_cap > 0` if it is
sink-side. -/
theorem tree_nonsaturation_invariant (F : Nat) (g : Graph) (reuse_trees : Bool)
    (cl : Option (List Nat)) (hR : SolveReady g reuse_trees) :
    (∀ g1 g2 c, SolveEntry F (g.setChanged cl) reuse_trees g1 → LoopTop F g1 none g2 c →
      NonSaturation g2) ∧
    (∀ g' fl, maxflow F g reuse_trees cl = Outcome.returned g' fl → NonSaturation g') := by
  have hR2 := solveReady_setChanged cl hR
  constructor
  · intro g1 g2 c hE hT
    obtain ⟨hB, hU, _⟩ := loopTop_ext hT (solveEntry_ext hR2 hE)
    exact nonSaturation_of hB.2 hU
  · intro g' fl h
    obtain ⟨_, _, g2, h2, rfl, _⟩ := maxflow_returned_iff.1 h
    obtain ⟨hB, hU, _⟩ := solve_exit_ext hR2 h2
    have key : NonSaturation g2 := nonSaturation_of hB.2 hU
    exact key

theorem tree_nonsaturation_invariant_witness :
    SolveReady diamond false ∧
      ∃ g', maxflow 8 diamond false none = Outcome.returned g' 9 ∧ NonSaturation g' := by
  obtain ⟨g', hg⟩ := diamond_returns
  exact ⟨solveReady_diamond, g', hg,
    (tree_nonsaturation_invariant 8 diamond false none solveReady_diamond).2 g' 9 hg⟩

/-- C19: the passive-frontier property. In a solve entered as the interface
requires, at the top of every iteration of the main loop (with its current node
`c`) and in the state `maxflow` returns: for every node `i` with a parent and a
null `next` other than the current node, every arc `a` out of a source-side `i`
with `a.r_cap > 0`, and every arc `a` out of a sink-side `i` with
`a.sister.r_cap > 0`, has a head with a parent and the `is_sink` of `i`; so no
such arc leads to a free node. -/
theorem passive_frontier_invariant (F : Nat) (g : Graph) (reuse_trees : Bool)
    (cl : Option (List Nat)) (hR : SolveReady g reuse_trees) :
    (∀ g1 g2 c, SolveEntry F (g.setChanged cl) reuse_trees g1 → LoopTop F g1 none g2 c →
      FrontierSpec g2 c) ∧
    (∀ g' fl, maxflow F g reuse_trees cl = Outcome.returned g' fl → FrontierSpec g' none) := by
  have hR2 := solveReady_setChanged cl hR
  constructor
  · intro g1 g2 c hE hT
    obtain ⟨hB, _, _⟩ := loopTop_ext hT (solveEntry_ext hR2 hE)
    exact frontierSpec_of hB.1.1.wf hB.1.1.frontier
  · intro g' fl h
    obtain ⟨_, _, g2, h2, rfl, _⟩ := maxflow_returned_iff.1 h
    obtain ⟨hB, _, _⟩ := solve_exit_ext hR2 h2
    have key : FrontierSpec g2 none := frontierSpec_of hB.1.1.wf hB.1.1.frontier
    exact key

theorem passive_frontier_invariant_witness :
    SolveReady diamond false ∧
      ∃ g', maxflow 8 diamond false none = Outcome.returned g' 9 ∧ FrontierSpec g' none := by
  obtain ⟨g', hg⟩ := diamond_returns
  exact ⟨solveReady_diamond, g', hg,
    (passive_frontier_invariant 8 diamond false none solveReady_diamond).2 g' 9 hg⟩

/-- C2: no augmenting path at return. When `maxflow` returns from a solve
entered as the interface requires, no arc `a` of the arena with `a.r_cap > 0`
has a tail (`a.sister.head`) in the source tree (parent not null, `is_sink`
false) and a head in the sink tree (parent not null, `is_sink` true). -/
theorem no_augmenting_path_at_return (F : Nat) (g : Graph) (reuse_trees : Bool)
    (cl : Option (List Nat)) (hR : SolveReady g reuse_trees) (g' : Graph) (fl : Int)
    (h : maxflow F g reuse_trees cl = Outcome.returned g' fl) :
    ∀ a < g'.arc_num, 0 < (g'.arcs a).r_cap →
      ¬ (((g'.nodes (g'.arcs (g'.arcs a).sister).head).parent ≠ ArcPtr.null ∧
          (g'.nodes (g'.arcs (g'.arcs a).sister).head).is_sink = false) ∧
        ((g'.nodes (g'.arcs a).head).parent ≠ ArcPtr.null ∧
          (g'.nodes (g'.arcs a).head).is_sink = true)) := by
  obtain ⟨_, _, g2, h2, rfl, _⟩ := maxflow_returned_iff.1 h
  obtain ⟨⟨⟨hI, _, hQ⟩, _⟩, _, _⟩ := solve_exit_ext (solveReady_setChanged cl hR) h2
  intro a ha hpos ⟨⟨hp, hk⟩, ⟨_, hk2⟩⟩
  have ha2 : a < g2.arc_num := ha
  have hi : g2.tail a < g2.node_num := hI.wf.tail_lt ha2
  have hF := frontierSpec_of (c := none) hI.wf hI.frontier (g2.tail a) hi hp
    (queueInv_empty_next hQ _ hi) (by simp)
  have := (hF.1 hk a (hI.wf.listed a ha2) hpos).2
  have e : (g2.nodes (g2.arcs a).head).is_sink = true := hk2
  rw [e] at this
  exact absurd this (by simp)

theorem no_augmenting_path_at_return_witness :
    SolveReady diamond false ∧
      ∃ g', maxflow 8 diamond false none = Outcome.returned g' 9 ∧
        ∀ a < g'.arc_num, 0 < (g'.arcs a).r_cap →
          ¬ (((g'.nodes (g'.arcs (g'.arcs a).sister).head).parent ≠ ArcPtr.null ∧
              (g'.nodes (g'.arcs (g'.arcs a).sister).head).is_sink = false) ∧
            ((g'.nodes (g'.arcs a).head).parent ≠ ArcPtr.null ∧
              (g'.nodes (g'.arcs a).head).is_sink = true)) := by
  obtain ⟨g', hg⟩ := diamond_returns
  exact ⟨solveReady_diamond, g', hg,
    no_augmenting_path_at_return 8 diamond false none solveReady_diamond g' 9 hg⟩

end Maxflow

namespace Maxflow

/-! ### The order of the labels -/

theorem aboveb_iff {g : Graph} {y x : Nat} : aboveb g y x = true ↔ above g y x := by
  simp [aboveb, above]

theorem above_irrefl (g : Graph) (x : Nat) : ¬ above g x x := by
  simp [above]

theorem above_trans {g : Graph} {z y x : Nat} (h1 : above g z y) (h2 : above g y x) :
    above g z x := by
  unfold above at *
  rcases h1 with h1 | ⟨h1, h1'⟩ <;> rcases h2 with h2 | ⟨h2, h2'⟩
  · left; omega
  · left; omega
  · left; omega
  · right; constructor <;> omega

theorem rank_le (g : Graph) (x : Nat) : rank g x ≤ g.node_num := by
  unfold rank
  calc _ ≤ (Finset.range g.node_num).card := Finset.card_filter_le _ _
    _ = g.node_num := Finset.card_range _

theorem rank_lt_of_above {g : Graph} {p x : Nat} (hp : p < g.node_num) (h : above g p x) :
    rank g p < rank g x := by
  unfold rank
  apply Finset.card_lt_card
  rw [Finset.ssubset_iff_of_subset]
  · refine ⟨p, ?_, ?_⟩
    · simp only [Finset.mem_filter, Finset.mem_range]
      exact ⟨hp, aboveb_iff.2 h⟩
    · simp only [Finset.mem_filter, Finset.mem_range, not_and]
      intro _ q
      exact above_irrefl g p (aboveb_iff.1 q)
  · intro y hy
    simp only [Finset.mem_filter, Finset.mem_range] at hy ⊢
    exact ⟨hy.1, aboveb_iff.2 (above_trans (aboveb_iff.1 hy.2) h)⟩

theorem rank_lt (g : Graph) {p x : Nat} (hp : p < g.node_num) (h : above g p x) :
    rank g p < g.node_num :=
  lt_of_lt_of_le (rank_lt_of_above hp h) (rank_le g x)

/-! ### Parent walks that end at an orphan -/

theorem isPath_not_orphanPath {g : Graph} {i : Nat} {l l' : List Nat} {r r' : Nat}
    (h : IsPath g i l r) (h' : OrphanPath g i l' r') : False := by
  induction l generalizing i l' with
  | nil =>
    cases l' with
    | nil =>
      simp only [IsPath, OrphanPath] at h h'
      rw [h.1] at h'
      exact absurd h'.1 (by simp)
    | cons a' l2 =>
      simp only [IsPath, OrphanPath] at h h'
      rw [h.1] at h'
      exact absurd h'.1 (by simp)
  | cons a l ih =>
    cases l' with
    | nil =>
      simp only [IsPath, OrphanPath] at h h'
      rw [h.1] at h'
      exact absurd h'.1 (by simp)
    | cons a' l2 =>
      simp only [IsPath, OrphanPath] at h h'
      have e := h.1.symm.trans h'.1
      simp only [ArcPtr.arc.injEq] at e
      subst e
      exact ih h.2 h'.2

theorem isPath_length_lt {g : Graph} {i : Nat} {l : List Nat} {r : Nat} (h : IsPath g i l r)
    (ht : TreeInv g none) (hw : WellFormed g) (hi : i < g.node_num) :
    l.length < g.node_num := by
  have hnd := isPath_nodup h
  obtain ⟨hb, _, _, _⟩ := isPath_facts h ht hw hi
  have hsub : (pathNodes g i l).toFinset ⊆ Finset.range g.node_num := by
    intro x hx
    simp only [List.mem_toFinset] at hx
    simpa using (hb x hx).1
  have hc := Finset.card_le_card hsub
  rw [List.toFinset_card_of_nodup hnd, Finset.card_range] at hc
  simp only [pathNodes, List.length_cons, List.length_map] at hc
  omega

end Maxflow

namespace Maxflow

/-! ### Stamping nodes -/

theorem marks_refl (g : Graph) : Marks g g :=
  ⟨LabelEq.refl g, fun _ h => ⟨h, rfl⟩, fun _ _ => ⟨rfl, rfl⟩⟩

theorem marks_trans {g1 g2 g3 : Graph} (h : Marks g1 g2) (h' : Marks g2 g3) : Marks g1 g3 := by
  have ht := h.labelEq.TIME
  refine ⟨h.labelEq.trans h'.labelEq, ?_, ?_⟩
  · intro x hx
    obtain ⟨a, b⟩ := h.keep x hx
    obtain ⟨c, d⟩ := h'.keep x (by rw [a, ht])
    exact ⟨by rw [c, ht], by rw [d, b]⟩
  · intro x hx
    obtain ⟨a, b⟩ := h'.same x (by rw [ht]; exact hx)
    obtain ⟨c, d⟩ := h.same x (by rw [← a]; exact hx)
    exact ⟨by rw [a, c], by rw [b, d]⟩

theorem marks_stamp (g : Graph) (j : Nat) (d : Int) (hj : (g.nodes j).TS ≠ g.TIME) :
    Marks g ((g.setTS j g.TIME).setDIST j d) := by
  refine ⟨(LabelEq.setTS g j g.TIME).trans (LabelEq.setDIST _ j d), ?_, ?_⟩
  · intro x hx
    have hne : x ≠ j := fun q => hj (q ▸ hx)
    simp [hne, hx]
  · intro x hx
    by_cases q : x = j
    · subst q
      simp at hx
    · simp [q]

theorem isPath_labelEq {g g' : Graph} {i : Nat} {l : List Nat} {r : Nat} (h : IsPath g i l r)
    (hl : LabelEq g g') : IsPath g' i l r :=
  isPath_congr h (fun a => by rw [hl.arcs]) (fun x _ => hl.parent x)

theorem isPath_labelEq_iff {g g' : Graph} {i : Nat} {l : List Nat} {r : Nat}
    (hl : LabelEq g g') : IsPath g' i l r ↔ IsPath g i l r := by
  constructor
  · intro h
    exact isPath_congr h (fun a => by rw [hl.arcs]) (fun x _ => (hl.parent x).symm)
  · intro h
    exact isPath_labelEq h hl

theorem chain_labelEq {g g' : Graph} (hl : LabelEq g g') (h : Chain g) : Chain g' := by
  intro x hx a ha
  rw [hl.node_num] at hx
  rw [hl.parent] at ha
  have := h x hx a ha
  rw [hl.arcs, hl.parent, hl.node_num]
  exact this

theorem chain_of_treeInv {g : Graph} (hw : WellFormed g) (ht : TreeInv g none) : Chain g := by
  intro x hx a ha
  obtain ⟨h1, _, _, h4⟩ := ht x hx a ha
  refine ⟨hw.head a h1, ?_⟩
  rcases h4 with h4 | h4
  · exact h4
  · simp at h4

/-- Stamping a node with the length of its parent walk keeps the label
invariants, the stamped node becoming the exception of closedness. -/
theorem adL_stamp {g : Graph} {e : Option Nat} {j : Nat} {d : Int} {l : List Nat} {r : Nat}
    (h : AdL g e) (hp : IsPath g j l r) (hd : d = (l.length : Int) + 1)
    (he : ∀ y, e = some y → ∀ b, (g.nodes y).parent = ArcPtr.arc b → (g.arcs b).head = j) :
    AdL ((g.setTS j g.TIME).setDIST j d) (some j) := by
  have hl : LabelEq g ((g.setTS j g.TIME).setDIST j d) :=
    (LabelEq.setTS g j g.TIME).trans (LabelEq.setDIST _ j d)
  refine ⟨?_, ?_, ?_, ?_⟩
  · intro x hx hs
    by_cases q : x = j
    · subst q
      exact ⟨l, r, isPath_labelEq hp hl, by simp [hd]⟩
    · have hs' : (g.nodes x).TS = g.TIME := by simpa [q] using hs
      obtain ⟨l2, r2, h1, h2⟩ := h.stamp x (by simpa using hx) hs'
      exact ⟨l2, r2, isPath_labelEq h1 hl, by simpa [q] using h2⟩
  · intro x hx hs a ha
    have q : x ≠ j := by
      intro q
      subst q
      simp at hs
    have hs' : (g.nodes x).TS ≠ g.TIME := by simpa [q] using hs
    have ha' : (g.nodes x).parent = ArcPtr.arc a := by simpa using ha
    have hxn : x < g.node_num := by simpa using hx
    obtain ⟨m1, m2⟩ := h.mono x hxn hs' a ha'
    by_cases q2 : (g.arcs a).head = j
    · have hle := h.ts_le x hxn
      have hlt : (g.nodes x).TS < g.TIME := lt_of_le_of_ne hle hs'
      constructor
      · simpa [q, q2] using hle
      · intro e1
        simp [q, q2] at e1
        omega
    · simpa [q, q2] using And.intro m1 m2
  · intro x hx
    by_cases q : x = j
    · subst q
      simp
    · simpa [q] using h.ts_le x (by simpa using hx)
  · intro x hx hne hs a ha
    have q : x ≠ j := fun q => hne (by rw [q])
    have hs' : (g.nodes x).TS = g.TIME := by simpa [q] using hs
    have ha' : (g.nodes x).parent = ArcPtr.arc a := by simpa using ha
    have hxn : x < g.node_num := by simpa using hx
    by_cases q2 : (g.arcs a).head = j
    · simp [q2]
    · by_cases q3 : e = some x
      · exact absurd (he x q3 a ha') q2
      · simpa [q2] using h.closed x hxn q3 hs' a ha'

theorem adL_close {g : Graph} {j : Nat} (h : AdL g (some j))
    (hj : ∀ a, (g.nodes j).parent = ArcPtr.arc a → (g.nodes (g.arcs a).head).TS = g.TIME) :
    AdL g none := by
  refine ⟨h.stamp, h.mono, h.ts_le, ?_⟩
  intro x hx _ hs a ha
  by_cases q : x = j
  · subst q
    exact hj a ha
  · exact h.closed x hx (by simpa using fun e => q e.symm) hs a ha

end Maxflow

namespace Maxflow

/-! ### The origin walk and the marking walk -/

theorem isPath_bound {g : Graph} (hc : Chain g) {i : Nat} {l : List Nat} {r : Nat}
    (h : IsPath g i l r) (hi : i < g.node_num) : ∀ x ∈ pathNodes g i l, x < g.node_num := by
  induction l generalizing i with
  | nil =>
    intro x hx
    simp only [pathNodes, List.map_nil, List.mem_singleton] at hx
    rw [hx]
    exact hi
  | cons a l ih =>
    intro x hx
    simp only [IsPath] at h
    simp only [pathNodes, List.map_cons, List.mem_cons] at hx
    rcases hx with hx | hx
    · rw [hx]
      exact hi
    · exact ih h.2 (hc i hi a h.1).1 x (by simpa [pathNodes] using hx)

/-- With closed stamps, the root of the parent walk of a stamped node is
stamped. -/
theorem stamped_root {g : Graph} (h : AdL g none) (hc : Chain g) {i : Nat} {l : List Nat}
    {r : Nat} (hp : IsPath g i l r) (hi : i < g.node_num) (hs : (g.nodes i).TS = g.TIME) :
    (g.nodes r).TS = g.TIME := by
  induction l generalizing i with
  | nil =>
    simp only [IsPath] at hp
    rw [hp.2]
    exact hs
  | cons a l ih =>
    simp only [IsPath] at hp
    exact ih hp.2 (hc i hi a hp.1).1 (h.closed i hi (by simp) hs a hp.1)

/-- The origin walk from `j` returns when its fuel exceeds the rank of `j`.  It
either finds the parent walk of `j` to a root, returns the hop count plus the
length of that walk plus one and leaves the root stamped, or finds a walk to an
orphan and returns `INFINITE_D` with the state unchanged. -/
theorem origin_check_spec {g : Graph} (h : AdL g none) (hc : Chain g) :
    ∀ (f j : Nat) (d : Int), j < g.node_num → (g.nodes j).parent ≠ ArcPtr.null →
      rank g j < f →
      ∃ r, origin_check f g j d = Res.ok r ∧ Marks g r.1 ∧ AdL r.1 none ∧
        ((∃ l rt, IsPath g j l rt ∧ r.2 = d + (l.length : Int) + 1 ∧
            (r.1.nodes rt).TS = g.TIME) ∨
          (∃ l ro, OrphanPath g j l ro ∧ r = (g, INFINITE_D))) := by
  intro f
  induction f with
  | zero =>
    intro j d _ _ hf
    omega
  | succ n ih =>
    intro j d hj hp hf
    by_cases hs : (g.nodes j).TS = g.TIME
    · obtain ⟨l, rt, h1, h2⟩ := h.stamp j hj hs
      refine ⟨(g, d + (g.nodes j).DIST), by simp [origin_check, hs], marks_refl g, h, ?_⟩
      left
      exact ⟨l, rt, h1, by simp only [h2]; ring, stamped_root h hc h1 hj hs⟩
    · cases hq : (g.nodes j).parent with
      | null => exact absurd hq hp
      | terminal =>
        refine ⟨((g.setTS j g.TIME).setDIST j 1, d + 1), by simp [origin_check, hs, hq],
          marks_stamp g j 1 hs, ?_, ?_⟩
        · have hpath : IsPath g j [] j := by simp [IsPath, hq]
          have := @adL_stamp g none j 1 [] j h hpath (by simp) (by simp)
          exact adL_close this (by simp [hq])
        · left
          exact ⟨[], j, by simp [IsPath, hq], by simp, by simp⟩
      | orphan =>
        refine ⟨(g, INFINITE_D), by simp [origin_check, hs, hq], marks_refl g, h, ?_⟩
        right
        exact ⟨[], j, by simp [OrphanPath, hq], rfl⟩
      | arc a =>
        obtain ⟨hb, hpn⟩ := hc j hj a hq
        obtain ⟨m1, m2⟩ := h.mono j hj hs a hq
        have hab : above g (g.arcs a).head j := by
          unfold above
          rcases lt_or_eq_of_le m1 with q | q
          · exact Or.inl q
          · exact Or.inr ⟨q, m2 q⟩
        have hr := rank_lt_of_above hb hab
        obtain ⟨r, h1, h2, h3, h4⟩ := ih (g.arcs a).head (d + 1) hb hpn (by omega)
        refine ⟨r, by simp [origin_check, hs, hq, h1], h2, h3, ?_⟩
        rcases h4 with ⟨l, rt, p1, p2, p3⟩ | ⟨l, ro, p1, p2⟩
        · left
          refine ⟨a :: l, rt, by simp [IsPath, hq, p1], ?_, p3⟩
          rw [p2]
          simp only [List.length_cons]
          push_cast
          ring
        · right
          exact ⟨a :: l, ro, by simp [OrphanPath, hq, p1], p2⟩

/-- The marking walk from `j` with the distance `d` of `j` returns when its fuel
exceeds the length of the parent walk of `j`, whose root is stamped; it stamps
the nodes of the walk up to the first stamped one and leaves `j` stamped with
`DIST = d`. -/
theorem set_marks_spec :
    ∀ (l : List Nat) (g : Graph) (e : Option Nat) (j : Nat) (d : Int) (r f : Nat),
      AdL g e → Chain g →
      (∀ y, e = some y → ∀ b, (g.nodes y).parent = ArcPtr.arc b → (g.arcs b).head = j) →
      IsPath g j l r → d = (l.length : Int) + 1 → (g.nodes r).TS = g.TIME →
      j < g.node_num → l.length < f →
      ∃ g', set_marks f g j d = Res.ok g' ∧ Marks g g' ∧ AdL g' none ∧
        (g'.nodes j).TS = g.TIME ∧ (g'.nodes j).DIST = d := by
  intro l
  induction l with
  | nil =>
    intro g e j d r f h _ he hp hd hr hj hf
    obtain ⟨n, rfl⟩ : ∃ n, f = n + 1 := ⟨f - 1, by omega⟩
    simp only [IsPath] at hp
    have hs : (g.nodes j).TS = g.TIME := by rw [← hp.2]; exact hr
    obtain ⟨l2, r2, h1, h2⟩ := h.stamp j hj hs
    have hu := (isPath_unique h1 (show IsPath g j [] r by simp [IsPath, hp])).1
    subst hu
    refine ⟨g, by simp [set_marks, hs], marks_refl g, ?_, hs, by simp [h2, hd]⟩
    refine ⟨h.stamp, h.mono, h.ts_le, ?_⟩
    intro x hx _ hsx a ha
    by_cases q : e = some x
    · rw [he x q a ha]
      exact hs
    · exact h.closed x hx q hsx a ha
  | cons a l ih =>
    intro g e j d r f h hc he hp hd hr hj hf
    obtain ⟨n, rfl⟩ : ∃ n, f = n + 1 := ⟨f - 1, by simp at hf; omega⟩
    have hp0 := hp
    simp only [IsPath] at hp
    by_cases hs : (g.nodes j).TS = g.TIME
    · obtain ⟨l2, r2, h1, h2⟩ := h.stamp j hj hs
      have hu := (isPath_unique h1 hp0).1
      subst hu
      refine ⟨g, by simp [set_marks, hs], marks_refl g, ?_, hs, by simp [h2, hd]⟩
      refine ⟨h.stamp, h.mono, h.ts_le, ?_⟩
      intro x hx _ hsx a ha
      by_cases q : e = some x
      · rw [he x q a ha]
        exact hs
      · exact h.closed x hx q hsx a ha
    · have hl : LabelEq g ((g.setTS j g.TIME).setDIST j d) :=
        (LabelEq.setTS g j g.TIME).trans (LabelEq.setDIST _ j d)
      have h1 := adL_stamp h hp0 hd he
      have hM := marks_stamp g j d hs
      obtain ⟨g', q1, q2, q3, _, _⟩ := ih ((g.setTS j g.TIME).setDIST j d) (some j)
        (g.arcs a).head (d - 1) r n h1 (chain_labelEq hl hc)
        (by
          intro y hy b hb
          simp only [Option.some.injEq] at hy
          rw [← hy] at hb
          have hb' : (g.nodes j).parent = ArcPtr.arc b := by simpa using hb
          rw [hp.1] at hb'
          simp only [ArcPtr.arc.injEq] at hb'
          rw [← hb']
          simp)
        (isPath_labelEq hp.2 hl)
        (by simp only [List.length_cons] at hd; rw [hd]; push_cast; ring)
        (by
          by_cases q : r = j
          · simp [q]
          · simpa [q] using hr)
        (by simpa using (hc j hj a hp.1).1)
        (by simp at hf; omega)
      have hk := q2.keep j (by simp)
      refine ⟨g', ?_, marks_trans hM q2, q3, by simpa using hk.1, by simpa using hk.2⟩
      simp [set_marks, hs, hp.1, q1]

end Maxflow

namespace Maxflow

/-! ### The search for a new parent -/

theorem isPath_length_lt_chain {g : Graph} (hc : Chain g) {i : Nat} {l : List Nat} {r : Nat}
    (h : IsPath g i l r) (hi : i < g.node_num) : l.length < g.node_num := by
  have hnd := isPath_nodup h
  have hb := isPath_bound hc h hi
  have hsub : (pathNodes g i l).toFinset ⊆ Finset.range g.node_num := by
    intro x hx
    simp only [List.mem_toFinset] at hx
    simpa using hb x hx
  have hcard := Finset.card_le_card hsub
  rw [List.toFinset_card_of_nodup hnd, Finset.card_range] at hcard
  simp only [pathNodes, List.length_cons, List.length_map] at hcard
  omega

theorem cand_labelEq {g g' : Graph} (hl : LabelEq g g') {sink : Bool} {a : Nat} {d : Int} :
    Cand g' sink a d ↔ Cand g sink a d := by
  unfold Cand orphan_rcap
  simp only [hl.arcs, hl.is_sink, isPath_labelEq_iff hl]

theorem cand_unique {g : Graph} {sink : Bool} {a : Nat} {d d' : Int} (h : Cand g sink a d)
    (h' : Cand g sink a d') : d = d' := by
  obtain ⟨_, _, l, r, p, e⟩ := h
  obtain ⟨_, _, l', r', p', e'⟩ := h'
  have := (isPath_unique p p').1
  subst this
  rw [e, e']

theorem best_marks {g g' : Graph} {sink : Bool} {pre : List Nat} {amin : Option Nat}
    {dmin : Int} (hm : Marks g g') (h : Best g sink pre amin dmin) :
    Best g' sink pre amin dmin := by
  obtain ⟨h1, h2, h3⟩ := h
  refine ⟨fun a ha d hd => h1 a ha d ((cand_labelEq hm.labelEq).1 hd), h2, ?_⟩
  cases amin with
  | none => exact h3
  | some am =>
    obtain ⟨q1, q2, q3, q4, q5⟩ := h3
    obtain ⟨k1, k2⟩ := hm.keep _ q4
    have e1 : (g'.arcs am).head = (g.arcs am).head := by rw [hm.labelEq.arcs]
    exact ⟨q1, (cand_labelEq hm.labelEq).2 q2, q3, by rw [e1, k1, hm.labelEq.TIME],
      by rw [e1, k2, q5]⟩

theorem best_skip {g : Graph} {sink : Bool} {pre : List Nat} {amin : Option Nat} {dmin : Int}
    {a0 : Nat} (h : Best g sink pre amin dmin) (hn : ∀ d, Cand g sink a0 d → dmin ≤ d) :
    Best g sink (pre ++ [a0]) amin dmin := by
  obtain ⟨h1, h2, h3⟩ := h
  refine ⟨?_, h2, ?_⟩
  · intro a ha d hd
    simp only [List.mem_append, List.mem_singleton] at ha
    rcases ha with ha | ha
    · exact h1 a ha d hd
    · subst ha
      exact hn d hd
  · cases amin with
    | none => exact h3
    | some am =>
      obtain ⟨q1, q2⟩ := h3
      exact ⟨by simp [q1], q2⟩

/-- One step of the search for a new parent, on the arc `a0`. -/
theorem find_parent_step {F : Nat} {sink : Bool} {g : Graph} {pre : List Nat}
    {amin : Option Nat} {dmin : Int} (a0 : Nat) (h : AdL g none) (hc : Chain g)
    (hB : Best g sink pre amin dmin) (hb : (g.arcs a0).head < g.node_num)
    (hF : g.node_num < F) :
    ∃ g2 amin2 dmin2, (∀ f, find_parent F sink (f + 1) g (some a0) amin dmin =
        find_parent F sink f g2 (g.arcs a0).next amin2 dmin2) ∧
      Marks g g2 ∧ AdL g2 none ∧ Best g2 sink (pre ++ [a0]) amin2 dmin2 := by
  by_cases hC : orphan_rcap g sink a0 ≠ 0 ∧ (g.nodes (g.arcs a0).head).is_sink = sink ∧
      (g.nodes (g.arcs a0).head).parent ≠ ArcPtr.null
  · have hrk : rank g (g.arcs a0).head < F := lt_of_le_of_lt (rank_le g _) hF
    obtain ⟨r, h1, h2, h3, h4⟩ := origin_check_spec h hc F (g.arcs a0).head 0 hb hC.2.2 hrk
    rcases h4 with ⟨l, rt, p1, p2, p3⟩ | ⟨l, ro, p1, p2⟩
    · have hcand : Cand g sink a0 r.2 := ⟨hC.1, hC.2.1, l, rt, p1, by rw [p2]; ring⟩
      by_cases hd : r.2 < INFINITE_D
      · have hlen := isPath_length_lt_chain hc p1 hb
        obtain ⟨g2, s1, s2, s3, s4, s5⟩ := set_marks_spec l r.1 none (g.arcs a0).head r.2 rt F
          h3 (chain_labelEq h2.labelEq hc) (by simp) (isPath_labelEq p1 h2.labelEq)
          (by rw [p2]; ring) (by rw [h2.labelEq.TIME]; exact p3)
          (by rw [h2.labelEq.node_num]; exact hb) (by omega)
        have hm := marks_trans h2 s2
        have hB2 := best_marks hm hB
        have hcand2 : Cand g2 sink a0 r.2 := (cand_labelEq hm.labelEq).2 hcand
        by_cases hlt : r.2 < dmin
        · refine ⟨g2, some a0, r.2, ?_, hm, s3, ?_, ?_, ?_⟩
          · intro f
            simp [find_parent, hC, h1, Res.bind, hd, s1, hlt]
          · intro a ha d hda
            simp only [List.mem_append, List.mem_singleton] at ha
            rcases ha with ha | ha
            · exact le_of_lt (lt_of_lt_of_le hlt (hB2.1 a ha d hda))
            · subst ha
              exact le_of_eq (cand_unique hcand2 hda)
          · exact le_of_lt hd
          · have e1 : (g2.arcs a0).head = (g.arcs a0).head := by rw [hm.labelEq.arcs]
            refine ⟨by simp, hcand2, hd, ?_, ?_⟩
            · rw [e1, s4, s2.labelEq.TIME]
            · rw [e1, s5]
        · refine ⟨g2, amin, dmin, ?_, hm, s3, ?_⟩
          · intro f
            simp [find_parent, hC, h1, Res.bind, hd, s1, hlt]
          · refine best_skip hB2 ?_
            intro d hda
            rw [← cand_unique hcand2 hda]
            exact not_lt.1 hlt
      · refine ⟨r.1, amin, dmin, ?_, h2, h3, ?_⟩
        · intro f
          simp [find_parent, hC, h1, Res.bind, hd]
        · refine best_skip (best_marks h2 hB) ?_
          intro d hda
          have := cand_unique ((cand_labelEq h2.labelEq).2 hcand) hda
          rw [← this]
          exact le_trans hB.2.1 (not_lt.1 hd)
    · refine ⟨g, amin, dmin, ?_, marks_refl g, h, ?_⟩
      · intro f
        simp [find_parent, hC, h1, Res.bind, p2]
      · refine best_skip hB ?_
        intro d hda
        obtain ⟨_, _, l', r', q, _⟩ := hda
        exact absurd (isPath_not_orphanPath q p1) id
  · refine ⟨g, amin, dmin, ?_, marks_refl g, h, ?_⟩
    · intro f
      simp only [find_parent, hC, if_false]
    · refine best_skip hB ?_
      intro d hda
      obtain ⟨c1, c2, l', r', q, _⟩ := hda
      exfalso
      apply hC
      refine ⟨c1, c2, ?_⟩
      cases l' with
      | nil =>
        simp only [IsPath] at q
        rw [q.1]
        simp
      | cons b l2 =>
        simp only [IsPath] at q
        rw [q.1]
        simp

/-- The search for a new parent returns when its fuel covers the arc list and
`F` exceeds the number of nodes; it only stamps nodes, and its result is the
first candidate of least distance among the arcs of the list. -/
theorem find_parent_spec {F : Nat} {sink : Bool} :
    ∀ (post pre : List Nat) (g : Graph) (p amin : Option Nat) (dmin : Int) (f : Nat),
      AdL g none → Chain g → Best g sink pre amin dmin → IsArcList g.arcs p post →
      (∀ a ∈ post, (g.arcs a).head < g.node_num) → g.node_num < F → post.length ≤ f →
      ∃ g' amin' dmin', find_parent F sink f g p amin dmin = Res.ok (g', amin', dmin') ∧
        Marks g g' ∧ AdL g' none ∧ Best g' sink (pre ++ post) amin' dmin' := by
  intro post
  induction post with
  | nil =>
    intro pre g p amin dmin f h _ hB hp _ _ _
    simp only [IsArcList] at hp
    subst hp
    refine ⟨g, amin, dmin, ?_, marks_refl g, h, by simpa using hB⟩
    cases f <;> simp [find_parent]
  | cons a0 post ih =>
    intro pre g p amin dmin f h hc hB hp hb hF hf
    simp only [IsArcList] at hp
    obtain ⟨rfl, hp2⟩ := hp
    obtain ⟨n, rfl⟩ : ∃ n, f = n + 1 := ⟨f - 1, by simp at hf; omega⟩
    obtain ⟨g2, amin2, dmin2, e, hm, h2, hB2⟩ :=
      find_parent_step (F := F) a0 h hc hB (hb a0 (by simp)) hF
    have harcs : g2.arcs = g.arcs := hm.labelEq.arcs
    obtain ⟨g', amin', dmin', q1, q2, q3, q4⟩ := ih (pre ++ [a0]) g2 (g.arcs a0).next amin2
      dmin2 n h2 (chain_labelEq hm.labelEq hc) hB2 (by rw [harcs]; exact hp2)
      (by
        intro a ha
        rw [harcs, hm.labelEq.node_num]
        exact hb a (by simp [ha]))
      (by rw [hm.labelEq.node_num]; exact hF) (by simp at hf; omega)
    refine ⟨g', amin', dmin', by rw [e n]; exact q1, marks_trans hm q2, q3, ?_⟩
    simpa using q4

end Maxflow

namespace Maxflow

/-! ### Label invariants through the processing of one orphan -/

theorem isPath_mem_parent {g : Graph} {i : Nat} {l : List Nat} {r x : Nat}
    (h : IsPath g i l r) (hx : x ∈ pathNodes g i l) :
    (g.nodes x).parent ≠ ArcPtr.orphan ∧ (g.nodes x).parent ≠ ArcPtr.null := by
  obtain ⟨l2, h2, _⟩ := isPath_suffix h hx
  cases l2 with
  | nil =>
    simp only [IsPath] at h2
    rw [h2.1]
    simp
  | cons a l3 =>
    simp only [IsPath] at h2
    rw [h2.1]
    simp

/-- The label invariants are kept when parents are replaced by a sentinel at
nodes that are on no parent walk of a stamped node, and nothing else they read
changes. -/
theorem adL_detach {g g' : Graph} {e : Option Nat} (h : AdL g e)
    (hn : g'.node_num = g.node_num) (hT : g'.TIME = g.TIME)
    (hh : ∀ a, (g'.arcs a).head = (g.arcs a).head)
    (hts : ∀ x, (g'.nodes x).TS = (g.nodes x).TS)
    (hd : ∀ x, (g'.nodes x).DIST = (g.nodes x).DIST)
    (hp : ∀ x, (g'.nodes x).parent = (g.nodes x).parent ∨
      ((∀ a, (g'.nodes x).parent ≠ ArcPtr.arc a) ∧
        ∀ s l r, s < g.node_num → (g.nodes s).TS = g.TIME → IsPath g s l r →
          x ∉ pathNodes g s l)) :
    AdL g' e := by
  have harc : ∀ x a, (g'.nodes x).parent = ArcPtr.arc a → (g.nodes x).parent = ArcPtr.arc a := by
    intro x a ha
    rcases hp x with q | q
    · rw [← q]
      exact ha
    · exact absurd ha (q.1 a)
  refine ⟨?_, ?_, ?_, ?_⟩
  · intro x hx hs
    rw [hn] at hx
    rw [hts, hT] at hs
    obtain ⟨l, r, h1, h2⟩ := h.stamp x hx hs
    refine ⟨l, r, isPath_congr h1 hh ?_, by rw [hd, h2]⟩
    intro y hy
    rcases hp y with q | q
    · exact q
    · exact absurd hy (q.2 x l r hx hs h1)
  · intro x hx hs a ha
    rw [hn] at hx
    rw [hts, hT] at hs
    have := h.mono x hx hs a (harc x a ha)
    rw [hh, hts, hts, hd, hd]
    exact this
  · intro x hx
    rw [hn] at hx
    rw [hts, hT]
    exact h.ts_le x hx
  · intro x hx hne hs a ha
    rw [hn] at hx
    rw [hts, hT] at hs
    rw [hh, hts, hT]
    exact h.closed x hx hne hs a (harc x a ha)

/-- The label invariants do not depend on what a step writes outside the
parents, the labels and `TIME`. -/
theorem adL_of_writes {K : List Field} {g g' : Graph} {e : Option Nat} (hwr : Writes K g g')
    (h1 : Field.parent ∉ K) (h2 : Field.TS ∉ K) (h3 : Field.DIST ∉ K) (h4 : Field.TIME ∉ K)
    (h : AdL g e) : AdL g' e :=
  adL_detach h (writes_shape hwr).node_num (writes_keep_TIME hwr h4) (writes_shape hwr).head
    (writes_keep_TS hwr h2) (writes_keep_DIST hwr h3)
    (fun x => Or.inl (writes_keep_parent hwr h1 x))

/-- A node without a parent walk is on no parent walk. -/
theorem not_on_path {g : Graph} {x : Nat} (hx : ∀ l r, ¬ IsPath g x l r) :
    ∀ s l r, s < g.node_num → (g.nodes s).TS = g.TIME → IsPath g s l r →
      x ∉ pathNodes g s l := by
  intro s l r _ _ hp hmem
  obtain ⟨l2, h2, _⟩ := isPath_suffix hp hmem
  exact hx l2 r h2

theorem no_path_of_orphan {g : Graph} {x : Nat}
    (h : (g.nodes x).parent = ArcPtr.orphan ∨ (g.nodes x).parent = ArcPtr.null) :
    ∀ l r, ¬ IsPath g x l r := by
  intro l r hp
  have := isPath_mem_parent hp (show x ∈ pathNodes g x l by simp [pathNodes])
  rcases h with h | h
  · exact this.1 h
  · exact this.2 h

theorem no_path_of_child {g : Graph} {x i p : Nat} (hx : (g.nodes x).parent = ArcPtr.arc p)
    (hh : (g.arcs p).head = i)
    (hi : (g.nodes i).parent = ArcPtr.orphan ∨ (g.nodes i).parent = ArcPtr.null) :
    ∀ l r, ¬ IsPath g x l r := by
  intro l r hp
  obtain ⟨l2, rfl, h2⟩ := isPath_cons_of_parent hp hx
  rw [hh] at h2
  exact no_path_of_orphan hi l2 r h2

/-- Adopting an orphan under a stamped node with a parent walk keeps the label
invariants. -/
theorem adL_adopt {g : Graph} {i am : Nat} {dmin : Int} {l : List Nat} {r : Nat}
    (h : AdL g none) (hpi : (g.nodes i).parent = ArcPtr.orphan)
    (hp : IsPath g (g.arcs am).head l r) (hd : dmin = (l.length : Int) + 1)
    (hs : (g.nodes (g.arcs am).head).TS = g.TIME) :
    AdL (adopt_parent g i am dmin) none := by
  have hoff : ∀ s l2 r2, IsPath g s l2 r2 → ∀ y ∈ pathNodes g s l2, y ≠ i := by
    intro s l2 r2 h2 y hy q
    subst q
    exact (isPath_mem_parent h2 hy).1 hpi
  have hkeep : ∀ s l2 r2, IsPath g s l2 r2 → IsPath (adopt_parent g i am dmin) s l2 r2 := by
    intro s l2 r2 h2
    refine isPath_congr h2 (fun a => by simp [adopt_parent]) ?_
    intro y hy
    have := hoff s l2 r2 h2 y hy
    simp [adopt_parent, this]
  have hji : (g.arcs am).head ≠ i := hoff _ l r hp _ (by simp [pathNodes])
  refine ⟨?_, ?_, ?_, ?_⟩
  · intro x hx hsx
    by_cases q : x = i
    · subst q
      refine ⟨am :: l, r, ?_, ?_⟩
      · simp only [IsPath]
        refine ⟨by simp [adopt_parent], ?_⟩
        have := hkeep _ l r hp
        simpa [adopt_parent] using this
      · simp [adopt_parent, hd]
    · have hsx' : (g.nodes x).TS = g.TIME := by simpa [adopt_parent, q] using hsx
      obtain ⟨l2, r2, p1, p2⟩ := h.stamp x (by simpa [adopt_parent] using hx) hsx'
      exact ⟨l2, r2, hkeep _ _ _ p1, by simpa [adopt_parent, q] using p2⟩
  · intro x hx hsx a ha
    have q : x ≠ i := by
      intro q
      subst q
      simp [adopt_parent] at hsx
    have hsx' : (g.nodes x).TS ≠ g.TIME := by simpa [adopt_parent, q] using hsx
    have ha' : (g.nodes x).parent = ArcPtr.arc a := by simpa [adopt_parent, q] using ha
    have hxn : x < g.node_num := by simpa [adopt_parent] using hx
    obtain ⟨m1, m2⟩ := h.mono x hxn hsx' a ha'
    by_cases q2 : (g.arcs a).head = i
    · have hle := h.ts_le x hxn
      have hlt : (g.nodes x).TS < g.TIME := lt_of_le_of_ne hle hsx'
      constructor
      · simpa [adopt_parent, q, q2] using hle
      · intro e1
        simp [adopt_parent, q, q2] at e1
        omega
    · simpa [adopt_parent, q, q2] using And.intro m1 m2
  · intro x hx
    by_cases q : x = i
    · subst q
      simp [adopt_parent]
    · simpa [adopt_parent, q] using h.ts_le x (by simpa [adopt_parent] using hx)
  · intro x hx _ hsx a ha
    by_cases q : x = i
    · subst q
      have : a = am := by
        have := ha
        simp [adopt_parent] at this
        exact this.symm
      subst this
      simpa [adopt_parent, hji] using hs
    · have hsx' : (g.nodes x).TS = g.TIME := by simpa [adopt_parent, q] using hsx
      have ha' : (g.nodes x).parent = ArcPtr.arc a := by simpa [adopt_parent, q] using ha
      have := h.closed x (by simpa [adopt_parent] using hx) (by simp) hsx' a ha'
      by_cases q2 : (g.arcs a).head = i
      · simp [adopt_parent, q2]
      · simpa [adopt_parent, q2] using this

end Maxflow

namespace Maxflow

theorem arc_list_length_le (arcs : Nat → Arc) (f : Nat) (p : Option Nat) :
    (arc_list arcs f p).length ≤ f := by
  induction f generalizing p with
  | zero => cases p <;> simp [arc_list]
  | succ n ih =>
    cases p with
    | none => simp [arc_list]
    | some a =>
      simp only [arc_list, List.length_cons]
      exact Nat.succ_le_succ (ih _)

theorem arcs_of_length_le (g : Graph) (i : Nat) : (arcs_of g i).length ≤ g.arc_num :=
  arc_list_length_le _ _ _

/-- The label invariants are kept by the body of the loop over the neighbours of
a freed node. -/
theorem neighbor_step_labels {g : Graph} (sink : Bool) {i : Nat} (a0 : Nat) (h : AdL g none)
    (hpi : (g.nodes i).parent = ArcPtr.null) :
    AdL (neighbor_step g sink i a0) none ∧
      ((neighbor_step g sink i a0).nodes i).parent = ArcPtr.null := by
  have hact : ∀ j, AdL (if orphan_rcap g sink a0 ≠ 0 then set_active g j else g) none ∧
      (∀ x, ((if orphan_rcap g sink a0 ≠ 0 then set_active g j else g).nodes x).parent =
        (g.nodes x).parent) ∧
      (∀ a, ((if orphan_rcap g sink a0 ≠ 0 then set_active g j else g).arcs a).head =
        (g.arcs a).head) := by
    intro j
    by_cases q : orphan_rcap g sink a0 ≠ 0
    · rw [if_pos q]
      have hwr := writes_set_active (K := [Field.next, Field.queue1]) (by decide) (by decide) g j
      exact ⟨adL_of_writes hwr (by decide) (by decide) (by decide) (by decide) h,
        writes_keep_parent hwr (by decide), (writes_shape hwr).head⟩
    · rw [if_neg q]
      exact ⟨h, fun _ => rfl, fun _ => rfl⟩
  rcases neighbor_step_cases g sink i a0 with ⟨_, e⟩ | ⟨_, ⟨p, hp, hh⟩, e⟩ | ⟨_, _, e⟩
  · rw [e]
    exact ⟨h, hpi⟩
  · rw [e]
    obtain ⟨A, B, C⟩ := hact (g.arcs a0).head
    generalize (if orphan_rcap g sink a0 ≠ 0 then set_active g (g.arcs a0).head else g) = g1
      at A B C
    have hne : i ≠ (g.arcs a0).head := by
      intro q
      rw [← q, hpi] at hp
      simp at hp
    refine ⟨?_, by simp [set_orphan_rear, hne, B, hpi]⟩
    refine adL_detach A (by simp [set_orphan_rear]) (by simp [set_orphan_rear])
      (by simp [set_orphan_rear]) (by simp [set_orphan_rear]) (by simp [set_orphan_rear]) ?_
    intro x
    by_cases q : x = (g.arcs a0).head
    · right
      subst q
      refine ⟨by simp [set_orphan_rear], not_on_path ?_⟩
      have e1 : (g1.arcs p).head = i := by rw [C]; exact hh
      have e2 : (g1.nodes i).parent = ArcPtr.null := by rw [B]; exact hpi
      exact no_path_of_child (by rw [B]; exact hp) e1 (Or.inr e2)
    · left
      simp [set_orphan_rear, q]
  · rw [e]
    obtain ⟨A, B, _⟩ := hact (g.arcs a0).head
    exact ⟨A, by rw [B]; exact hpi⟩

theorem process_neighbors_labels {sink : Bool} {i f : Nat} {g r : Graph} {a : Option Nat}
    (hr : process_neighbors sink i f g a = Res.ok r) (h : AdL g none)
    (hpi : (g.nodes i).parent = ArcPtr.null) :
    AdL r none ∧ (r.nodes i).parent = ArcPtr.null :=
  process_neighbors_rule
    (fun g' _ => AdL g' none ∧ (g'.nodes i).parent = ArcPtr.null)
    (fun g' a0 hP => neighbor_step_labels sink a0 hP.1 hP.2) hr ⟨h, hpi⟩

/-- The label bounds only depend on `DIST` and on which nodes are roots and which
are free; they are kept when roots and parents are only removed. -/
theorem labels_sub {g g' : Graph} (hn : g'.node_num = g.node_num)
    (hd : ∀ x, (g'.nodes x).DIST = (g.nodes x).DIST)
    (hroot : ∀ x, (g'.nodes x).parent = ArcPtr.terminal → (g.nodes x).parent = ArcPtr.terminal)
    (htree : ∀ x, (g'.nodes x).parent ≠ ArcPtr.null → (g.nodes x).parent ≠ ArcPtr.null)
    (h : Labels g) : Labels g' := by
  refine ⟨?_, ?_⟩
  · intro x hx hp
    rw [hn] at hx
    rw [hd]
    exact h.root x hx (hroot x hp)
  · intro x hx hp
    rw [hn] at hx
    rw [hd]
    exact h.tree x hx (htree x hp)

/-- Stamping nodes with their distances keeps the label bounds. -/
theorem labels_marks {g g' : Graph} (h : Labels g) (hm : Marks g g') (hA : AdL g' none) :
    Labels g' := by
  have hn := hm.labelEq.node_num
  have hT := hm.labelEq.TIME
  refine ⟨?_, ?_⟩
  · intro x hx hp
    by_cases hs : (g'.nodes x).TS = g'.TIME
    · obtain ⟨l, r, p1, p2⟩ := hA.stamp x hx hs
      obtain ⟨rfl, _⟩ := isPath_nil_of_parent p1 hp
      simpa using p2
    · rw [hT] at hs
      rw [(hm.same x hs).2]
      rw [hn] at hx
      rw [hm.labelEq.parent] at hp
      exact h.root x hx hp
  · intro x hx hp
    by_cases hs : (g'.nodes x).TS = g'.TIME
    · obtain ⟨l, r, p1, p2⟩ := hA.stamp x hx hs
      rw [p2]
      omega
    · rw [hT] at hs
      rw [(hm.same x hs).2]
      rw [hn] at hx
      rw [hm.labelEq.parent] at hp
      exact h.tree x hx hp

theorem neighbor_step_root (g : Graph) (sink : Bool) (i a0 x : Nat) :
    ((neighbor_step g sink i a0).nodes x).parent = ArcPtr.terminal →
      (g.nodes x).parent = ArcPtr.terminal := by
  have hact : ∀ j y, ((if orphan_rcap g sink a0 ≠ 0 then set_active g j else g).nodes y).parent =
      (g.nodes y).parent := by
    intro j y
    split <;> simp
  rcases neighbor_step_cases g sink i a0 with ⟨_, e⟩ | ⟨_, ⟨p, hp, hh⟩, e⟩ | ⟨_, _, e⟩
  · rw [e]
    exact id
  · rw [e]
    by_cases q : x = (g.arcs a0).head
    · subst q
      simp [set_orphan_rear]
    · simp only [set_orphan_rear_nodes_parent, q, if_false, hact]
      exact id
  · rw [e, hact]
    exact id

theorem process_neighbors_bounds {sink : Bool} {i f : Nat} {g r : Graph} {a : Option Nat}
    (hr : process_neighbors sink i f g a = Res.ok r) (h : Labels g) : Labels r :=
  process_neighbors_rule (fun g' _ => Labels g')
    (fun g' a0 hP => labels_sub (by simp) (by simp) (neighbor_step_root g' sink i a0)
      (fun x hx q => hx ((neighbor_step_parent_null g' sink i a0 x).2 q)) hP) hr h

/-- The processing of an orphan `i` returns when `F` exceeds the numbers of
nodes and of arcs.  Either `i` is adopted through the first arc of its list
among the candidates of least distance, stamped, with that distance plus one;
or no arc of its list is a candidate of distance below `INFINITE_D` and `i` is
freed.  The label invariants are kept. -/
theorem process_orphan_spec {F : Nat} {sink : Bool} {g : Graph} {i : Nat}
    (hw : WellFormed g) (h : AdL g none) (hc : Chain g) (hi : i < g.node_num)
    (hpi : (g.nodes i).parent = ArcPtr.orphan) (hF : g.node_num < F) (hF2 : g.arc_num < F) :
    ∃ g1, process_orphan F sink g i = Res.ok g1 ∧ AdL g1 none ∧ (Labels g → Labels g1) ∧
      ((∃ am dmin, am ∈ arcs_of g i ∧ Cand g sink am dmin ∧ dmin < INFINITE_D ∧
          (∀ a0 ∈ arcs_of g i, ∀ d, Cand g sink a0 d → dmin ≤ d) ∧
          (g1.nodes i).parent = ArcPtr.arc am ∧ (g1.nodes i).TS = g.TIME ∧
          (g1.nodes i).DIST = dmin + 1) ∨
        ((∀ a0 ∈ arcs_of g i, ∀ d, Cand g sink a0 d → INFINITE_D ≤ d) ∧
          (g1.nodes i).parent = ArcPtr.null)) := by
  have hlen := arcs_of_length_le g i
  obtain ⟨g', amin, dmin, q1, q2, q3, q4⟩ := @find_parent_spec F sink (arcs_of g i) [] g
    (g.nodes i).first none INFINITE_D F h hc
    ⟨by simp, le_refl _, rfl⟩ (hw.lists i hi)
    (fun a ha => hw.head a (hw.owner i hi a ha).1) hF (by omega)
  simp only [List.nil_append] at q4
  obtain ⟨b1, b2, b3⟩ := q4
  have hpi' : (g'.nodes i).parent = ArcPtr.orphan := by rw [q2.labelEq.parent]; exact hpi
  cases amin with
  | some am =>
    obtain ⟨c1, c2, c3, c4, c5⟩ := b3
    obtain ⟨_, _, l, r, p1, p2⟩ := c2
    refine ⟨adopt_parent g' i am dmin, by simp [process_orphan, q1, Res.bind],
      adL_adopt q3 hpi' p1 p2 c4, ?_, ?_⟩
    · intro hLb
      have hL' := labels_marks hLb q2 q3
      refine ⟨?_, ?_⟩
      · intro x hx hp
        have q : x ≠ i := by
          intro q
          subst q
          simp [adopt_parent] at hp
        have := hL'.root x (by simpa [adopt_parent] using hx) (by simpa [adopt_parent, q] using hp)
        simpa [adopt_parent, q] using this
      · intro x hx hp
        by_cases q : x = i
        · subst q
          simp only [adopt_parent, setDIST_nodes_DIST, if_true]
          omega
        · have := hL'.tree x (by simpa [adopt_parent] using hx)
            (by simpa [adopt_parent, q] using hp)
          simpa [adopt_parent, q] using this
    left
    refine ⟨am, dmin, c1, (cand_labelEq q2.labelEq).1 ⟨‹_›, ‹_›, l, r, p1, p2⟩, c3, ?_, ?_, ?_, ?_⟩
    · intro a0 ha0 d hd
      exact b1 a0 ha0 d ((cand_labelEq q2.labelEq).2 hd)
    · simp [adopt_parent]
    · simp [adopt_parent, q2.labelEq.TIME]
    · simp [adopt_parent]
  | none =>
    have hfirst : (g'.nodes i).first = (g.nodes i).first := q2.labelEq.first i
    have hwr1 := writes_trans
      (writes_setParent (K := [Field.parent, Field.changed, Field.in_changed]) (by decide)
        g' i ArcPtr.null)
      (writes_add_to_changed_list (by decide) (by decide) (g'.setParent i ArcPtr.null) i)
    have hl0 : IsArcList (add_to_changed_list (g'.setParent i ArcPtr.null) i).arcs
        (g'.nodes i).first (arcs_of g i) := by
      rw [hfirst]
      refine isArcList_congr ?_ (hw.lists i hi)
      intro a
      rw [(writes_shape hwr1).next a, q2.labelEq.arcs]
    obtain ⟨r, hr⟩ := process_neighbors_total sink i (f := F) hl0 (by omega)
    have A1 : AdL (add_to_changed_list (g'.setParent i ArcPtr.null) i) none := by
      have hsh := writes_shape hwr1
      refine adL_detach q3 hsh.node_num (writes_keep_TIME hwr1 (by decide)) hsh.head
        (writes_keep_TS hwr1 (by decide)) (writes_keep_DIST hwr1 (by decide)) ?_
      intro x
      have hpx : ((add_to_changed_list (g'.setParent i ArcPtr.null) i).nodes x).parent =
          ((g'.setParent i ArcPtr.null).nodes x).parent :=
        writes_keep_parent (writes_add_to_changed_list (K := [Field.changed, Field.in_changed])
          (by decide) (by decide) (g'.setParent i ArcPtr.null) i) (by decide) x
      by_cases q : x = i
      · right
        subst q
        refine ⟨by rw [hpx]; simp, not_on_path (no_path_of_orphan (Or.inl hpi'))⟩
      · left
        rw [hpx]
        simp [q]
    have A2 : ((add_to_changed_list (g'.setParent i ArcPtr.null) i).nodes i).parent =
        ArcPtr.null := by
      rw [writes_keep_parent (writes_add_to_changed_list (K := [Field.changed, Field.in_changed])
        (by decide) (by decide) (g'.setParent i ArcPtr.null) i) (by decide) i]
      simp
    obtain ⟨A3, A4⟩ := process_neighbors_labels hr A1 A2
    refine ⟨r, by simp [process_orphan, q1, Res.bind, hr], A3, ?_, ?_⟩
    · intro hLb
      have hL' := labels_marks hLb q2 q3
      refine process_neighbors_bounds hr ?_
      refine labels_sub (writes_shape hwr1).node_num (writes_keep_DIST hwr1 (by decide)) ?_ ?_ hL'
      · intro x hx
        by_cases q : x = i
        · subst q
          rw [A2] at hx
          simp at hx
        · have e := writes_keep_parent (writes_add_to_changed_list
            (K := [Field.changed, Field.in_changed]) (by decide) (by decide)
            (g'.setParent i ArcPtr.null) i) (by decide) x
          rw [e] at hx
          simpa [q] using hx
      · intro x hx
        by_cases q : x = i
        · subst q
          exact absurd A2 hx
        · have e := writes_keep_parent (writes_add_to_changed_list
            (K := [Field.changed, Field.in_changed]) (by decide) (by decide)
            (g'.setParent i ArcPtr.null) i) (by decide) x
          rw [e] at hx
          simpa [q] using hx
    right
    refine ⟨?_, A4⟩
    intro a0 ha0 d hd
    have := b1 a0 ha0 d ((cand_labelEq q2.labelEq).2 hd)
    rw [b3] at this
    exact this

end Maxflow

namespace Maxflow

/-! ### Label invariants through the adoption stage -/

/-- The processing of an orphan keeps the label invariants. -/
theorem process_orphan_labels {F : Nat} {sink : Bool} {g g1 : Graph} {i : Nat}
    (hr : process_orphan F sink g i = Res.ok g1) (hw : WellFormed g) (h : AdL g none)
    (hc : Chain g) (hi : i < g.node_num) (hpi : (g.nodes i).parent = ArcPtr.orphan) :
    AdL g1 none := by
  obtain ⟨g2, h2, h3, _⟩ := @process_orphan_spec (F + g.node_num + g.arc_num + 1) sink g i
    hw h hc hi hpi (by omega) (by omega)
  have := process_orphan_mono (show F ≤ F + g.node_num + g.arc_num + 1 by omega) hr
  rw [this] at h2
  simp only [Res.ok.injEq] at h2
  rw [h2]
  exact h3

theorem adL_setOrphans {g : Graph} {e : Option Nat} (l : List Nat) (h : AdL g e) :
    AdL (g.setOrphans l) e :=
  adL_of_writes (writes_setOrphans (K := [Field.orphans]) (by decide) g l) (by decide)
    (by decide) (by decide) (by decide) h

/-- The adoption stage keeps the label invariants. -/
theorem adoption_labels {F f : Nat} {g r : Graph} {c : Option Nat}
    (hr : adoption F f g = Res.ok r) (hA : AdInv g c []) (h : AdL g none) : AdL r none := by
  refine adoption_with (fun g' _ => AdL g' none) ?_ ?_ ?_ hr hA h
  · intro g' i rest _ hP _
    exact adL_setOrphans _ hP
  · intro g' rest _ _ hP
    exact adL_setOrphans _ hP
  · intro pend g' i rest g1 _ hP _ hA2 hi hpi _ hp
    have hw := hA2.inv.wf
    exact process_orphan_labels hp hw (adL_setOrphans _ hP)
      (chain_of_treeInv hw hA2.inv.tree) (by simpa using hi) (by simpa using hpi)

/-- The drain of the orphan list keeps the label invariants. -/
theorem drain_labels {F f : Nat} {g r : Graph} {c : Option Nat} {pend : List Nat}
    (hr : drain_orphans F f g = Res.ok r) (hA : AdInv g c pend) (h : AdL g none) :
    AdL r none := by
  refine drain_with (fun g' => AdL g' none) ?_ hr hA h
  intro g' i rest g1 _ hP _ hA2 hi hpi _ hp
  have hw := hA2.inv.wf
  exact process_orphan_labels hp hw (adL_setOrphans _ hP)
    (chain_of_treeInv hw hA2.inv.tree) (by simpa using hi) (by simpa using hpi)

/-- With closed stamps, the label invariants of the adoption stage give monotone
labels at every node. -/
theorem mono_of_adL {g : Graph} (h : AdL g none) (hc : Chain g) : Mono g := by
  intro x hx a ha
  by_cases hs : (g.nodes x).TS = g.TIME
  · have hs2 := h.closed x hx (by simp) hs a ha
    obtain ⟨l, r, p1, p2⟩ := h.stamp x hx hs
    obtain ⟨l2, rfl, p3⟩ := isPath_cons_of_parent p1 ha
    obtain ⟨l3, r3, p4, p5⟩ := h.stamp _ (hc x hx a ha).1 hs2
    have := (isPath_unique p3 p4).1
    subst this
    refine ⟨by rw [hs, hs2], fun _ => ?_⟩
    rw [p2, p5]
    simp only [List.length_cons]
    push_cast
    omega
  · exact h.mono x hx hs a ha

/-- When no node is stamped, monotone labels give the label invariants of the
adoption stage. -/
theorem adL_of_mono {g : Graph} (h : Mono g) (hlt : ∀ x < g.node_num, (g.nodes x).TS < g.TIME) :
    AdL g none := by
  refine ⟨?_, ?_, ?_, ?_⟩
  · intro x hx hs
    have := hlt x hx
    omega
  · intro x hx _ a ha
    exact h x hx a ha
  · intro x hx
    exact le_of_lt (hlt x hx)
  · intro x hx _ hs
    have := hlt x hx
    omega

end Maxflow

namespace Maxflow

/-! ### Monotone labels through growth, augment and the initialisation -/

/-- Monotone labels only depend on the labels and on the parent arcs, and are
kept when parent arcs are removed. -/
theorem mono_sub {g g' : Graph} (hn : g'.node_num = g.node_num)
    (hh : ∀ a, (g'.arcs a).head = (g.arcs a).head)
    (hts : ∀ x, (g'.nodes x).TS = (g.nodes x).TS)
    (hd : ∀ x, (g'.nodes x).DIST = (g.nodes x).DIST)
    (hp : ∀ x a, (g'.nodes x).parent = ArcPtr.arc a → (g.nodes x).parent = ArcPtr.arc a)
    (h : Mono g) : Mono g' := by
  intro x hx a ha
  rw [hn] at hx
  have := h x hx a (hp x a ha)
  rw [hh, hts, hts, hd, hd]
  exact this

theorem mono_of_writes {K : List Field} {g g' : Graph} (hwr : Writes K g g')
    (h1 : Field.parent ∉ K) (h2 : Field.TS ∉ K) (h3 : Field.DIST ∉ K) (h : Mono g) :
    Mono g' :=
  mono_sub (writes_shape hwr).node_num (writes_shape hwr).head (writes_keep_TS hwr h2)
    (writes_keep_DIST hwr h3)
    (fun x a ha => by rw [← writes_keep_parent hwr h1 x]; exact ha) h

theorem tsle_of_writes {K : List Field} {g g' : Graph} (hwr : Writes K g g')
    (h2 : Field.TS ∉ K) (h4 : Field.TIME ∉ K) (h : TSle g) : TSle g' := by
  intro x hx
  rw [(writes_shape hwr).node_num] at hx
  rw [writes_keep_TS hwr h2, writes_keep_TIME hwr h4]
  exact h x hx

/-- Hanging `j` below `i` keeps the labels monotone when the children of `j`
are below the new labels of `j`. -/
theorem mono_attach {g : Graph} {i j a : Nat} (h : Mono g) (hij : j ≠ i)
    (hhead : (g.arcs (g.arcs a).sister).head = i)
    (hch : ∀ x < g.node_num, ∀ b, (g.nodes x).parent = ArcPtr.arc b → (g.arcs b).head = j →
      (g.nodes x).TS ≤ (g.nodes i).TS ∧
        ((g.nodes x).TS = (g.nodes i).TS → (g.nodes i).DIST + 1 < (g.nodes x).DIST)) :
    Mono (attach g i j a) := by
  have hij' : i ≠ j := fun q => hij q.symm
  intro x hx b hb
  have hxn : x < g.node_num := by simpa [attach] using hx
  by_cases q : x = j
  · subst q
    have : b = (g.arcs a).sister := by
      have := hb
      simp [attach] at this
      exact this.symm
    subst this
    simp [attach, hhead, hij']
  · have hb' : (g.nodes x).parent = ArcPtr.arc b := by simpa [attach, q] using hb
    by_cases q2 : (g.arcs b).head = j
    · have := hch x hxn b hb' q2
      simpa [attach, q, q2] using this
    · have := h x hxn b hb'
      simpa [attach, q, q2] using this

theorem tsle_attach {g : Graph} {i j a : Nat} (h : TSle g) (hi : i < g.node_num) :
    TSle (attach g i j a) := by
  intro x hx
  have hxn : x < g.node_num := by simpa [attach] using hx
  by_cases q : x = j
  · subst q
    simpa [attach] using h i hi
  · simpa [attach, q] using h x hxn

/-- The growth scan keeps the labels monotone. -/
theorem grow_labels {sink : Bool} {i f : Nat} {g : Graph} {r : Graph × Option Nat}
    (hr : grow sink i f g (g.nodes i).first = Res.ok r) (hG : GrowInv g i sink)
    (h : Mono g ∧ TSle g) : Mono r.1 ∧ TSle r.1 := by
  refine grow_with (fun g' => Mono g' ∧ TSle g') ?_ ?_ hr hG h
  · intro g' a hG' ha ⟨hM, hT⟩ _ hp
    have hw := hG'.inv.wf
    obtain ⟨_, ha2⟩ := hw.owner i hG'.bound a ha
    have hji : (g'.arcs a).head ≠ i := by
      intro q
      rw [q] at hp
      exact hG'.parent hp
    have hwr : Writes [Field.is_sink] g' (g'.setSink (g'.arcs a).head sink) :=
      writes_setSink (by decide) _ _ _
    have hM0 := mono_of_writes hwr (by decide) (by decide) (by decide) hM
    have hT0 := tsle_of_writes hwr (by decide) (by decide) hT
    have hM1 : Mono (attach (g'.setSink (g'.arcs a).head sink) i (g'.arcs a).head a) := by
      refine mono_attach hM0 hji (by simpa [Graph.tail] using ha2) ?_
      intro x hx b hb hbj
      have hx' : x < g'.node_num := by simpa using hx
      have hb' : (g'.nodes x).parent = ArcPtr.arc b := by simpa using hb
      have hbj' : (g'.arcs b).head = (g'.arcs a).head := by simpa using hbj
      obtain ⟨_, _, _, t4⟩ := hG'.inv.tree x hx' b hb'
      rw [hbj'] at t4
      rcases t4 with t4 | t4
      · exact absurd hp t4
      · simp at t4
    have hT1 : TSle (attach (g'.setSink (g'.arcs a).head sink) i (g'.arcs a).head a) :=
      tsle_attach hT0 (by simpa using hG'.bound)
    have hwr2 := writes_trans
      (writes_set_active (K := [Field.next, Field.queue1, Field.changed, Field.in_changed])
        (by decide) (by decide)
        (attach (g'.setSink (g'.arcs a).head sink) i (g'.arcs a).head a) (g'.arcs a).head)
      (writes_add_to_changed_list (by decide) (by decide) _ (g'.arcs a).head)
    exact ⟨mono_of_writes hwr2 (by decide) (by decide) (by decide) hM1,
      tsle_of_writes hwr2 (by decide) (by decide) hT1⟩
  · intro g' a hG' ha ⟨hM, hT⟩ _ _ h1 h2
    have hw := hG'.inv.wf
    obtain ⟨_, ha2⟩ := hw.owner i hG'.bound a ha
    have hji : (g'.arcs a).head ≠ i := by
      intro q
      rw [q] at h2
      omega
    refine ⟨mono_attach hM hji (by simpa [Graph.tail] using ha2) ?_, tsle_attach hT hG'.bound⟩
    intro x hx b hb hbj
    obtain ⟨m1, m2⟩ := hM x hx b hb
    rw [hbj] at m1 m2
    refine ⟨le_trans m1 h1, fun e => ?_⟩
    have e2 : (g'.nodes x).TS = (g'.nodes (g'.arcs a).head).TS := le_antisymm m1 (by omega)
    have := m2 e2
    omega

/-- The state handed to `augment` and the state `augment` leaves have monotone
labels, with every stamp before `TIME`. -/
theorem augment_labels {g g5 : Graph} (hrel : AugRel g g5) (h : Mono g)
    (hlt : ∀ x < g.node_num, (g.nodes x).TS < g.TIME) :
    Mono g5 ∧ ∀ x < g5.node_num, (g5.nodes x).TS < g5.TIME := by
  have hwr := hrel.writes
  constructor
  · refine mono_sub (writes_shape hwr).node_num (writes_shape hwr).head
      (writes_keep_TS hwr (by decide)) (writes_keep_DIST hwr (by decide)) ?_ h
    intro x a ha
    rcases hrel.parent x with q | q
    · rw [← q]
      exact ha
    · rw [q.2.2] at ha
      simp at ha
  · intro x hx
    rw [(writes_shape hwr).node_num] at hx
    rw [writes_keep_TS hwr (by decide), writes_keep_TIME hwr (by decide)]
    exact hlt x hx

theorem init_node_TS (g : Graph) (i x : Nat) :
    ((init_node g i).nodes x).TS = if x = i then g.TIME else (g.nodes x).TS := by
  unfold init_node init_clear
  by_cases q : x = i
  · subst q
    rw [if_pos rfl]
    split_ifs <;> simp
  · rw [if_neg q]
    split_ifs <;> simp [q]

theorem init_nodes_TS (g : Graph) (k : Nat) :
    (init_nodes g k).TIME = g.TIME ∧
      ∀ x < k, ((init_nodes g k).nodes x).TS = g.TIME := by
  induction k with
  | zero => exact ⟨rfl, fun x hx => by omega⟩
  | succ n ih =>
    simp only [init_nodes]
    refine ⟨by simp [ih.1], ?_⟩
    intro x hx
    rw [init_node_TS]
    by_cases q : x = n
    · simp [q, ih.1]
    · simp only [q, if_false]
      exact ih.2 x (by omega)

/-- The cold initialisation leaves monotone labels (there is no parent arc) and
no stamp ahead of `TIME`. -/
theorem maxflow_init_labels (g : Graph) (hw : WellFormed g)
    (hnn : ∀ a < g.arc_num, 0 ≤ (g.arcs a).r_cap) :
    Mono (maxflow_init g) ∧ TSle (maxflow_init g) := by
  obtain ⟨_, _, _, _, hk⟩ := maxflow_init_inv g hw hnn
  have hn : (maxflow_init g).node_num = g.node_num :=
    (writes_shape (maxflow_init_writes g)).node_num
  constructor
  · intro x hx a ha
    rw [hn] at hx
    rcases hk x hx with q | q <;> rw [q] at ha <;> simp at ha
  · intro x hx
    rw [hn] at hx
    unfold maxflow_init
    obtain ⟨e1, e2⟩ := init_nodes_TS
      ((((g.setQueue0 none none).setQueue1 none none).setOrphans []).setTIME 0) g.node_num
    rw [e1, e2 x hx]

end Maxflow

namespace Maxflow

/-! ### Monotone labels as an invariant of the main loop -/

theorem labels_setTIME_succ {g : Graph} (h : Mono g ∧ TSle g) :
    Mono (g.setTIME (g.TIME + 1)) ∧
      ∀ x < (g.setTIME (g.TIME + 1)).node_num,
        ((g.setTIME (g.TIME + 1)).nodes x).TS < (g.setTIME (g.TIME + 1)).TIME := by
  constructor
  · exact mono_of_writes (writes_setTIME (K := [Field.TIME]) (by decide) g _) (by decide)
      (by decide) (by decide) h.1
  · intro x hx
    have := h.2 x (by simpa using hx)
    have e1 : ((g.setTIME (g.TIME + 1)).nodes x).TS = (g.nodes x).TS := by simp
    have e2 : (g.setTIME (g.TIME + 1)).TIME = g.TIME + 1 := by simp
    rw [e1, e2]
    omega

/-- Labels in the state handed to `augment`: monotone, with every stamp before
`TIME`. -/
theorem labels_found {g3 : Graph} (i : Nat) (h : Mono g3 ∧ TSle g3) :
    Mono ((g3.setTIME (g3.TIME + 1)).setNext i (some i)) ∧
      ∀ x < ((g3.setTIME (g3.TIME + 1)).setNext i (some i)).node_num,
        (((g3.setTIME (g3.TIME + 1)).setNext i (some i)).nodes x).TS <
          ((g3.setTIME (g3.TIME + 1)).setNext i (some i)).TIME := by
  obtain ⟨a, b⟩ := labels_setTIME_succ h
  constructor
  · exact mono_of_writes (writes_setNext (K := [Field.next]) (by decide) _ i (some i))
      (by decide) (by decide) (by decide) a
  · intro x hx
    have := b x (by simpa using hx)
    simpa using this

/-- Monotone labels hold at the top of every iteration of the main loop. -/
theorem loopTop_labels {F : Nat} {g0 g : Graph} {c0 c : Option Nat}
    (h : LoopTop F g0 c0 g c) (h0 : (LoopInv g0 c0 ∧ Resid g0) ∧ Mono g0 ∧ TSle g0) :
    (LoopInv g c ∧ Resid g) ∧ Mono g ∧ TSle g := by
  refine loopTop_rule (fun g c => (LoopInv g c ∧ Resid g) ∧ Mono g ∧ TSle g)
    (fun g i => (GrowInv g i (g.nodes i).is_sink ∧ Resid g) ∧ Mono g ∧ TSle g)
    ?_ ?_ ?_ h h0
  · rintro g c g1 i ⟨hB, hM, hT⟩ h1
    have hwr := pick_active_writes h1
    exact ⟨base_pick hB h1, mono_of_writes hwr (by decide) (by decide) (by decide) hM,
      tsle_of_writes hwr (by decide) (by decide) hT⟩
  · rintro g1 i g3 ⟨hB, hL⟩ h1
    have hL3 := grow_labels h1 hB.1 hL
    obtain ⟨a, b⟩ := labels_setTIME_succ hL3
    exact ⟨base_grown hB h1, a, fun x hx => le_of_lt (b x hx)⟩
  · rintro g1 i g3 m g5 g6 ⟨hB, hL⟩ h1 h2 h3
    have hL3 := grow_labels h1 hB.1 hL
    obtain ⟨hA, hBd, hm, _, _⟩ := base_found hB h1
    obtain ⟨hrel, _, _, _, _⟩ := augment_inv h2 hA hBd hm
    obtain ⟨hI6, hAd⟩ := base_augmented hB h1 h2 h3
    obtain ⟨a, b⟩ := labels_found i hL3
    obtain ⟨a5, b5⟩ := augment_labels hrel a b
    have hL6 := adoption_labels h3 hAd (adL_of_mono a5 b5)
    exact ⟨hI6, mono_of_adL hL6 (chain_of_treeInv hI6.1.1.wf hI6.1.1.tree), hL6.ts_le⟩

end Maxflow

namespace Maxflow

/-! ### Labels through the tree-reuse initialisation -/

/-- The label invariants of the queue loop are kept when parents are replaced
by sentinels at unstamped nodes, marks are cleared, and nothing else they read
changes. -/
theorem reuseL_sub {g g' : Graph} (h : ReuseL g) (hn : g'.node_num = g.node_num)
    (hT : g'.TIME = g.TIME) (hh : ∀ a, (g'.arcs a).head = (g.arcs a).head)
    (hts : ∀ x, (g'.nodes x).TS = (g.nodes x).TS)
    (hd : ∀ x, (g'.nodes x).DIST = (g.nodes x).DIST)
    (hm : ∀ x, (g.nodes x).is_marked = false → (g'.nodes x).is_marked = false)
    (hp : ∀ x, (g'.nodes x).parent = (g.nodes x).parent ∨
      ((∀ a, (g'.nodes x).parent ≠ ArcPtr.arc a) ∧ (x < g.node_num → (g.nodes x).TS ≠ g.TIME))) :
    ReuseL g' := by
  refine ⟨?_, ?_, ?_⟩
  · intro x hx hs
    rw [hn] at hx
    rw [hts, hT] at hs
    obtain ⟨r1, r2, r3⟩ := h.root x hx hs
    refine ⟨?_, by rw [hd, r2], hm x r3⟩
    rcases hp x with q | q
    · rw [q, r1]
    · exact absurd hs (q.2 hx)
  · intro x hx hs a ha
    rw [hn] at hx
    rw [hts, hT] at hs
    have ha' : (g.nodes x).parent = ArcPtr.arc a := by
      rcases hp x with q | q
      · rw [← q]
        exact ha
      · exact absurd ha (q.1 a)
    have := h.mono x hx hs a ha'
    rw [hh, hts, hts, hd, hd]
    exact this
  · intro x hx
    rw [hn] at hx
    rw [hts, hT]
    exact h.ts_le x hx

theorem reuseL_of_writes {K : List Field} {g g' : Graph} (hwr : Writes K g g')
    (h1 : Field.parent ∉ K) (h2 : Field.TS ∉ K) (h3 : Field.DIST ∉ K) (h4 : Field.TIME ∉ K)
    (h5 : Field.is_marked ∉ K) (h : ReuseL g) : ReuseL g' :=
  reuseL_sub h (writes_shape hwr).node_num (writes_keep_TIME hwr h4) (writes_shape hwr).head
    (writes_keep_TS hwr h2) (writes_keep_DIST hwr h3)
    (fun x hx => by rw [writes_keep_is_marked hwr h5]; exact hx)
    (fun x => Or.inl (writes_keep_parent hwr h1 x))

theorem reuseL_enter {g : Graph} (i : Nat) (h : ReuseL g) : ReuseL (reuse_enter g i) := by
  have hwr := writes_reuse_enter g i
  refine reuseL_sub h (writes_shape hwr).node_num ?_ (writes_shape hwr).head ?_ ?_ ?_ ?_
  · simp [reuse_enter]
  · intro x
    simp [reuse_enter]
  · intro x
    simp [reuse_enter]
  · intro x hx
    rw [reuse_enter_nodes_is_marked]
    split
    · rfl
    · exact hx
  · intro x
    left
    simp [reuse_enter]

theorem reuseL_orphan {g : Graph} (j : Nat) (h : ReuseL g)
    (hj : j < g.node_num → (g.nodes j).TS ≠ g.TIME) : ReuseL (set_orphan_rear g j) := by
  refine reuseL_sub h (by simp [set_orphan_rear]) (by simp [set_orphan_rear])
    (by simp [set_orphan_rear]) (by simp [set_orphan_rear]) (by simp [set_orphan_rear])
    (by simp [set_orphan_rear]) ?_
  intro x
  by_cases q : x = j
  · right
    subst q
    exact ⟨by simp [set_orphan_rear], hj⟩
  · left
    simp [set_orphan_rear, q]

theorem reuseL_unstamped_of_arc {g : Graph} (h : ReuseL g) {j a : Nat}
    (hp : (g.nodes j).parent = ArcPtr.arc a) : j < g.node_num → (g.nodes j).TS ≠ g.TIME := by
  intro hj hs
  have := (h.root j hj hs).1
  rw [hp] at this
  simp at this

theorem reuseL_make_root {g : Graph} (i : Nat) (h : ReuseL g)
    (hm : (g.nodes i).is_marked = false) : ReuseL (make_root g i) := by
  refine ⟨?_, ?_, ?_⟩
  · intro x hx hs
    by_cases q : x = i
    · subst q
      simp [make_root, hm]
    · have hs' : (g.nodes x).TS = g.TIME := by simpa [make_root, q] using hs
      have := h.root x (by simpa [make_root] using hx) hs'
      simpa [make_root, q] using this
  · intro x hx hs a ha
    have q : x ≠ i := by
      intro q
      subst q
      simp [make_root] at hs
    have hs' : (g.nodes x).TS ≠ g.TIME := by simpa [make_root, q] using hs
    have ha' : (g.nodes x).parent = ArcPtr.arc a := by simpa [make_root, q] using ha
    have hxn : x < g.node_num := by simpa [make_root] using hx
    obtain ⟨m1, m2⟩ := h.mono x hxn hs' a ha'
    by_cases q2 : (g.arcs a).head = i
    · have hle := h.ts_le x hxn
      have hlt : (g.nodes x).TS < g.TIME := lt_of_le_of_ne hle hs'
      constructor
      · simpa [make_root, q, q2] using hle
      · intro e1
        simp [make_root, q, q2] at e1
        omega
    · simpa [make_root, q, q2] using And.intro m1 m2
  · intro x hx
    by_cases q : x = i
    · subst q
      simp [make_root]
    · simpa [make_root, q] using h.ts_le x (by simpa [make_root] using hx)

theorem reuseL_step {g : Graph} (sink : Bool) (a : Nat) (h : ReuseL g) :
    ReuseL (reuse_step g sink a) := by
  have hoc : ReuseL (reuse_orphan_child g a) := by
    unfold reuse_orphan_child
    split
    · rename_i hc
      exact reuseL_orphan _ h (reuseL_unstamped_of_arc h hc)
    · exact h
  unfold reuse_step
  split
  · split
    · exact reuseL_of_writes (writes_set_active (K := [Field.next, Field.queue1]) (by decide)
        (by decide) _ _) (by decide) (by decide) (by decide) (by decide) (by decide) hoc
    · exact hoc
  · exact h

theorem reuse_neighbors_labels {sink : Bool} {f : Nat} {g r : Graph} {a : Option Nat} (i : Nat)
    (hr : reuse_neighbors sink f g a = Res.ok r) (h : ReuseL g)
    (hm : (g.nodes i).is_marked = false) : ReuseL r ∧ (r.nodes i).is_marked = false :=
  reuse_neighbors_rule (fun g' _ => ReuseL g' ∧ (g'.nodes i).is_marked = false)
    (fun g' a hP => ⟨reuseL_step sink a hP.1, by simpa using hP.2⟩) hr ⟨h, hm⟩

/-- The invariants of the queue loop give the label invariants of the adoption
stage. -/
theorem adL_of_reuseL {g : Graph} (h : ReuseL g) : AdL g none := by
  refine ⟨?_, h.mono, h.ts_le, ?_⟩
  · intro x hx hs
    obtain ⟨r1, r2, _⟩ := h.root x hx hs
    exact ⟨[], x, by simp [IsPath, r1], by simp [r2]⟩
  · intro x hx _ hs a ha
    have := (h.root x hx hs).1
    rw [ha] at this
    simp at this

end Maxflow

namespace Maxflow

/-- The queue loop of the tree-reuse initialisation keeps its label
invariants. -/
theorem reuse_queue_labels {F f : Nat} {g r : Graph} {q : Option Nat} {R : List Nat}
    (h : reuse_queue F f g q = Res.ok r) (hI : ReuseInv g q R) (hL : ReuseL g) : ReuseL r := by
  have hmark : ∀ (g' : Graph) (i : Nat) (R' : List Nat), ReuseInv g' (some i) R' → ReuseL g' →
      ∃ rest, ReuseNbInv (reuse_enter g' i)
          (if (g'.nodes i).next = some i then none else (g'.nodes i).next) rest i
          (g'.nodes i).is_sink [] ∧
        ReuseL (reuse_enter g' i) ∧ ((reuse_enter g' i).nodes i).is_marked = false ∧
        ((reuse_enter g' i).nodes i).TS ≠ (reuse_enter g' i).TIME := by
    intro g' i R' hR hL'
    obtain ⟨rest, hRe, hN⟩ := reuse_enter_inv hR
    have hi : i < g'.node_num := by
      have := hN.bound
      rwa [(writes_shape (writes_reuse_enter g' i)).node_num] at this
    have hm : (g'.nodes i).is_marked = true := (hR.core.marks i hi).2 (by rw [hRe]; simp)
    refine ⟨rest, hN, reuseL_enter i hL', by simp [reuse_enter_nodes_is_marked], ?_⟩
    intro hs
    have hs' : (g'.nodes i).TS = g'.TIME := by simpa [reuse_enter] using hs
    have := (hL'.root i hi hs').2.2
    rw [hm] at this
    simp at this
  have key := reuse_queue_rule (fun g q => (∃ R, ReuseInv g q R) ∧ ReuseL g) ?_ ?_ ?_ h
    ⟨⟨R, hI⟩, hL⟩
  · exact key.2
  · rintro g' i ⟨⟨R', hR⟩, hL'⟩ _
    obtain ⟨rest, hN, l1, _, l3⟩ := hmark g' i R' hR hL'
    refine ⟨⟨rest, reuse_zero hN⟩, ?_⟩
    split
    · exact reuseL_orphan i l1 (fun _ => l3)
    · exact l1
  · rintro g' i g3 ⟨⟨R', hR⟩, hL'⟩ ht hmv hnb
    obtain ⟨rest, hN, l1, l2, _⟩ := hmark g' i R' hR hL'
    have hN2 := @reuse_move_start _ _ _ _ _ (decide (((reuse_enter g' i).nodes i).tr_cap < 0)) hN
      (by
        rcases hmv with q | q
        · exact Or.inl q
        · exact Or.inr (by simpa using q))
    have hfirst : ((reuse_enter g' i).nodes i).first =
        (((reuse_enter g' i).setSink i
          (decide (((reuse_enter g' i).nodes i).tr_cap < 0))).nodes i).first := by simp
    have hnb0 := hnb
    rw [hfirst] at hnb
    have hs : SameShape (reuse_enter g' i) ((reuse_enter g' i).setSink i
        (decide (((reuse_enter g' i).nodes i).tr_cap < 0))) :=
      writes_shape (writes_setSink (K := [Field.is_sink]) (by decide) _ i _)
    rw [← arcs_of_sameShape hs] at hN2
    have hN3 := reuse_neighbors_inv hnb hN2
    have htr : ((add_to_changed_list g3 i).nodes i).tr_cap =
        ((reuse_enter g' i).nodes i).tr_cap := by
      have := writes_keep_tr_cap (reuse_neighbors_writes hnb) (by decide) i
      simp only [add_to_changed_list_nodes_tr_cap, this, setSink_nodes_tr_cap]
    refine ⟨⟨rest, reuse_root (reuseNb_changed i hN3) (by rw [htr]; exact ht) (by rw [htr])⟩, ?_⟩
    have l4 : ReuseL ((reuse_enter g' i).setSink i
        (decide (((reuse_enter g' i).nodes i).tr_cap < 0))) :=
      reuseL_of_writes (writes_setSink (K := [Field.is_sink]) (by decide) _ i _) (by decide)
        (by decide) (by decide) (by decide) (by decide) l1
    obtain ⟨l5, l6⟩ := reuse_neighbors_labels i hnb0 l4 (by simpa using l2)
    have l7 : ReuseL (add_to_changed_list g3 i) :=
      reuseL_of_writes (writes_add_to_changed_list (K := [Field.changed, Field.in_changed])
        (by decide) (by decide) g3 i) (by decide) (by decide) (by decide) (by decide)
        (by decide) l5
    exact reuseL_make_root i l7 (by simpa using l6)
  · rintro g' i ⟨⟨R', hR⟩, hL'⟩ ht _ hk
    obtain ⟨rest, hN, l1, l2, _⟩ := hmark g' i R' hR hL'
    refine ⟨⟨rest, reuse_root hN ht ?_⟩, reuseL_make_root i l1 l2⟩
    simpa using hk

/-- The tree-reuse initialisation leaves monotone labels, from monotone labels
at entry. -/
theorem reuse_init_labels {F : Nat} {g g1 : Graph} {q : List Nat} (hE : ReuseEntry g q)
    (hL : Mono g ∧ TSle g) (h : maxflow_reuse_trees_init F g = Res.ok g1) :
    Mono g1 ∧ TSle g1 := by
  obtain ⟨⟨hI1, _⟩, _, _⟩ := reuse_init_ext hE h
  simp only [maxflow_reuse_trees_init, Res.bind_eq_ok] at h
  obtain ⟨g2, h1, h2⟩ := h
  have hI0 := reuseEntry_inv hE
  have hL0 : ReuseL
      ((((g.setQueue0 none none).setQueue1 none none).setOrphans []).setTIME (g.TIME + 1)) := by
    refine ⟨?_, ?_, ?_⟩
    · intro x hx hs
      have := hL.2 x (by simpa using hx)
      have e : (g.nodes x).TS = g.TIME + 1 := by simpa using hs
      omega
    · intro x hx _ a ha
      have := hL.1 x (by simpa using hx) a (by simpa using ha)
      simpa using this
    · intro x hx
      have := hL.2 x (by simpa using hx)
      have e1 : (((((g.setQueue0 none none).setQueue1 none none).setOrphans []).setTIME
          (g.TIME + 1)).nodes x).TS = (g.nodes x).TS := by simp
      have e2 : ((((g.setQueue0 none none).setQueue1 none none).setOrphans []).setTIME
          (g.TIME + 1)).TIME = g.TIME + 1 := by simp
      rw [e1, e2]
      omega
  have hL2 := reuse_queue_labels h1 hI0 hL0
  obtain ⟨hA, _, _⟩ := reuseInv_exit (reuse_queue_inv h1 hI0)
  have hL3 := drain_labels h2 hA (adL_of_reuseL hL2)
  exact ⟨mono_of_adL hL3 (chain_of_treeInv hI1.1.wf hI1.1.tree), hL3.ts_le⟩

/-- The initialisation of a solve establishes monotone labels. -/
theorem solveEntry_labels {F : Nat} {g g1 : Graph} {reuse_trees : Bool}
    (hR : SolveReady g reuse_trees) (hL : LabelReady g reuse_trees)
    (h : SolveEntry F g reuse_trees g1) :
    (LoopInv g1 none ∧ Resid g1) ∧ Mono g1 ∧ TSle g1 := by
  refine ⟨(solveEntry_ext hR h).1, ?_⟩
  unfold SolveReady at hR
  unfold SolveEntry at h
  unfold LabelReady at hL
  cases reuse_trees with
  | false =>
    simp only [Bool.false_eq_true, if_false] at hR h
    subst h
    exact maxflow_init_labels g hR.1 hR.2
  | true =>
    simp only [if_true] at hR h
    obtain ⟨q, hq⟩ := hR
    exact reuse_init_labels hq (hL rfl) h

theorem labelReady_setChanged {g : Graph} {reuse_trees : Bool} (cl : Option (List Nat))
    (h : LabelReady g reuse_trees) : LabelReady (g.setChanged cl) reuse_trees := by
  intro hr
  obtain ⟨a, b⟩ := h hr
  have hwr := writes_setChanged (K := [Field.changed]) (by decide) g cl
  exact ⟨mono_of_writes hwr (by decide) (by decide) (by decide) a,
    tsle_of_writes hwr (by decide) (by decide) b⟩

/-- Monotone labels hold in the state a solve returns. -/
theorem solve_exit_labels {F : Nat} {g r : Graph} {reuse_trees : Bool}
    (hR : SolveReady g reuse_trees) (hL : LabelReady g reuse_trees)
    (h : solve F g reuse_trees = Res.ok r) : Mono r ∧ TSle r := by
  obtain ⟨g1, g2, c2, hE, hT, hp⟩ := solve_exit h
  obtain ⟨_, hM, hT2⟩ := loopTop_labels hT (solveEntry_labels hR hL hE)
  have hwr := pick_active_writes hp
  exact ⟨mono_of_writes hwr (by decide) (by decide) (by decide) hM,
    tsle_of_writes hwr (by decide) (by decide) hT2⟩

end Maxflow

namespace Maxflow

theorem labelReady_cold (g : Graph) : LabelReady g false := by
  intro h
  simp at h

/-- C18: monotone labels. In a solve entered as the interface requires (for a
tree-reuse solve, from monotone labels), for every node `i` whose parent is a
real arc, `i.TS ≤ i.parent.head.TS`, and `i.DIST > i.parent.head.DIST` when the
two stamps are equal: after the initialisation, at the top of every iteration of
the main loop, after the growth scan of an iteration (with its rewires), after
`augment`, after the adoption stage, and in the state `maxflow` returns, where
moreover no stamp is ahead of `TIME`. -/
theorem monotone_labels_invariant (F : Nat) (g : Graph) (reuse_trees : Bool)
    (cl : Option (List Nat)) (hR : SolveReady g reuse_trees) (hL : LabelReady g reuse_trees) :
    (∀ g1, SolveEntry F (g.setChanged cl) reuse_trees g1 → Mono g1) ∧
    (∀ g1 g2 c, SolveEntry F (g.setChanged cl) reuse_trees g1 → LoopTop F g1 none g2 c →
      Mono g2 ∧
      ∀ g3 i r, pick_active F g2 c = Res.ok (g3, some i) →
        grow (g3.nodes i).is_sink i F g3 (g3.nodes i).first = Res.ok r →
        Mono r.1 ∧
        ∀ m g5, r.2 = some m →
          augment F ((r.1.setTIME (r.1.TIME + 1)).setNext i (some i)) m = Res.ok g5 →
          Mono g5 ∧ ∀ g6, adoption F F g5 = Res.ok g6 → Mono g6) ∧
    (∀ g' fl, maxflow F g reuse_trees cl = Outcome.returned g' fl → Mono g' ∧ TSle g') := by
  have hR2 := solveReady_setChanged cl hR
  have hL2 := labelReady_setChanged cl hL
  refine ⟨?_, ?_, ?_⟩
  · intro g1 hE
    exact (solveEntry_labels hR2 hL2 hE).2.1
  · intro g1 g2 c hE hT
    have h2 := loopTop_labels hT (solveEntry_labels hR2 hL2 hE)
    refine ⟨h2.2.1, ?_⟩
    intro g3 i r hp hg
    have hwr := pick_active_writes hp
    have hB3 := base_pick h2.1 hp
    have hL3 : Mono g3 ∧ TSle g3 :=
      ⟨mono_of_writes hwr (by decide) (by decide) (by decide) h2.2.1,
        tsle_of_writes hwr (by decide) (by decide) h2.2.2⟩
    have hL4 := grow_labels hg hB3.1 hL3
    refine ⟨hL4.1, ?_⟩
    intro m g5 hm ha
    obtain ⟨r1, r2⟩ := r
    simp only at hm
    subst hm
    obtain ⟨hA, hBd, hmr, _, _⟩ := base_found hB3 hg
    obtain ⟨hrel, _, _, _, _⟩ := augment_inv ha hA hBd hmr
    obtain ⟨a, b⟩ := labels_found i hL4
    obtain ⟨a5, b5⟩ := augment_labels hrel a b
    refine ⟨a5, ?_⟩
    intro g6 h6
    exact (loopTop_labels (LoopTop.augmented hT hp hg ha h6)
      (solveEntry_labels hR2 hL2 hE)).2.1
  · intro g' fl h
    obtain ⟨_, _, g2, h2, rfl, _⟩ := maxflow_returned_iff.1 h
    have key : Mono g2 ∧ TSle g2 := solve_exit_labels hR2 hL2 h2
    exact key

theorem monotone_labels_invariant_witness :
    SolveReady diamond false ∧ LabelReady diamond false ∧
      ∃ g', maxflow 8 diamond false none = Outcome.returned g' 9 ∧ Mono g' ∧ TSle g' := by
  obtain ⟨g', hg⟩ := diamond_returns
  exact ⟨solveReady_diamond, labelReady_cold diamond, g', hg,
    (monotone_labels_invariant 8 diamond false none solveReady_diamond
      (labelReady_cold diamond)).2.2 g' 9 hg⟩

end Maxflow

namespace Maxflow

/-! ### Acyclic parent links -/

/-- With monotone labels, chains of parents and no orphan, every node with a
parent has a parent walk to a root. -/
theorem walk_exists {g : Graph} (hM : Mono g) (hc : Chain g)
    (ho : ∀ x < g.node_num, (g.nodes x).parent ≠ ArcPtr.orphan) :
    ∀ x < g.node_num, (g.nodes x).parent ≠ ArcPtr.null →
      ∃ l r, IsPath g x l r ∧ l.length < g.node_num := by
  have key : ∀ k x, rank g x < k → x < g.node_num → (g.nodes x).parent ≠ ArcPtr.null →
      ∃ l r, IsPath g x l r := by
    intro k
    induction k with
    | zero =>
      intro x hk
      omega
    | succ n ih =>
      intro x hk hx hp
      cases hq : (g.nodes x).parent with
      | null => exact absurd hq hp
      | orphan => exact absurd hq (ho x hx)
      | terminal => exact ⟨[], x, by simp [IsPath, hq]⟩
      | arc a =>
        obtain ⟨hb, hpn⟩ := hc x hx a hq
        obtain ⟨m1, m2⟩ := hM x hx a hq
        have hab : above g (g.arcs a).head x := by
          unfold above
          rcases lt_or_eq_of_le m1 with q | q
          · exact Or.inl q
          · exact Or.inr ⟨q, m2 q⟩
        have hr := rank_lt_of_above hb hab
        obtain ⟨l, r, hl⟩ := ih (g.arcs a).head (by omega) hb hpn
        exact ⟨a :: l, r, by simp [IsPath, hq, hl]⟩
  intro x hx hp
  obtain ⟨l, r, hl⟩ := key (rank g x + 1) x (by omega) hx hp
  exact ⟨l, r, hl, isPath_length_lt_chain hc hl hx⟩

theorem no_orphan_of_listed {g : Graph} (hO : OrphansListed g []) (ho : g.orphans = []) :
    ∀ x < g.node_num, (g.nodes x).parent ≠ ArcPtr.orphan := by
  intro x hx hp
  rcases hO x hx hp with q | q
  · rw [ho] at q
    simp at q
  · simp at q

/-- C20: parent links never form a cycle and the walks of `augment` are safe.
In a solve entered as the interface requires: at the top of every iteration of
the main loop, and after the growth scan of an iteration (with its rewires),
every node with a parent has a parent walk, shorter than the number of nodes,
to a node whose parent is `TERMINAL`; at every call `augment(m)` of the main
loop this holds of `m.sister.head` and of `m.head`, and `augment` returns as
soon as its fuel covers the number of nodes. -/
theorem augment_walks_safe (F : Nat) (g : Graph) (reuse_trees : Bool)
    (cl : Option (List Nat)) (hR : SolveReady g reuse_trees) (hL : LabelReady g reuse_trees) :
    ∀ g1 g2 c, SolveEntry F (g.setChanged cl) reuse_trees g1 → LoopTop F g1 none g2 c →
      (∀ x < g2.node_num, (g2.nodes x).parent ≠ ArcPtr.null →
        ∃ l r, IsPath g2 x l r ∧ l.length < g2.node_num) ∧
      ∀ g3 i r, pick_active F g2 c = Res.ok (g3, some i) →
        grow (g3.nodes i).is_sink i F g3 (g3.nodes i).first = Res.ok r →
        (∀ x < r.1.node_num, (r.1.nodes x).parent ≠ ArcPtr.null →
          ∃ l rt, IsPath r.1 x l rt ∧ l.length < r.1.node_num) ∧
        ∀ m, r.2 = some m →
          ∃ ls rs lt rt,
            IsPath ((r.1.setTIME (r.1.TIME + 1)).setNext i (some i))
              (((r.1.setTIME (r.1.TIME + 1)).setNext i (some i)).arcs
                ((((r.1.setTIME (r.1.TIME + 1)).setNext i (some i)).arcs m).sister)).head
              ls rs ∧
            IsPath ((r.1.setTIME (r.1.TIME + 1)).setNext i (some i))
              (((r.1.setTIME (r.1.TIME + 1)).setNext i (some i)).arcs m).head lt rt ∧
            ls.length < r.1.node_num ∧ lt.length < r.1.node_num ∧
            ∀ F', r.1.node_num ≤ F' →
              ∃ g5, augment F' ((r.1.setTIME (r.1.TIME + 1)).setNext i (some i)) m =
                Res.ok g5 := by
  have hR2 := solveReady_setChanged cl hR
  have hL2 := labelReady_setChanged cl hL
  intro g1 g2 c hE hT
  have hE1 := solveEntry_ext hR2 hE
  have hE2 := solveEntry_labels hR2 hL2 hE
  obtain ⟨hB, hU, hO⟩ := loopTop_ext hT hE1
  obtain ⟨_, hM, hTS⟩ := loopTop_labels hT hE2
  refine ⟨walk_exists hM (chain_of_treeInv hB.1.1.wf hB.1.1.tree)
    (no_orphan_of_listed hO hB.1.2.1), ?_⟩
  intro g3 i r hp hg
  have hwr := pick_active_writes hp
  have hB3 := base_pick hB hp
  have hL3 : Mono g3 ∧ TSle g3 :=
    ⟨mono_of_writes hwr (by decide) (by decide) (by decide) hM,
      tsle_of_writes hwr (by decide) (by decide) hTS⟩
  have hU3 := unsat_of_writes hwr (by decide) (by decide) (by decide) hU
  have hO3 := orphansListed_of_writes hwr (by decide) (by decide) hO
  have hL4 := grow_labels hg hB3.1 hL3
  obtain ⟨_, hO4⟩ := grow_ext hg hB3.1 hB3.2 hU3 hO3
  obtain ⟨hG4, _, _⟩ := grow_growInv hg hB3.1
  have hno4 := no_orphan_of_listed hO4 hG4.orphans
  refine ⟨walk_exists hL4.1 (chain_of_treeInv hG4.inv.wf hG4.inv.tree) hno4, ?_⟩
  intro m hm
  obtain ⟨r1, r2⟩ := r
  simp only at hm
  subst hm
  obtain ⟨hA, hBd, _, _, _⟩ := base_found hB3 hg
  obtain ⟨a, _⟩ := labels_found i hL4
  have hw := hA.inv.wf
  have hc := chain_of_treeInv hw hA.inv.tree
  have hnoA : ∀ x < ((r1.setTIME (r1.TIME + 1)).setNext i (some i)).node_num,
      (((r1.setTIME (r1.TIME + 1)).setNext i (some i)).nodes x).parent ≠ ArcPtr.orphan := by
    intro x hx
    simpa using hno4 x (by simpa using hx)
  obtain ⟨ls, rs, p1, p2⟩ := walk_exists a hc hnoA _ (hw.tail_lt hBd.bound) hBd.tail.1
  obtain ⟨lt, rt, p3, p4⟩ := walk_exists a hc hnoA _ (hw.head m hBd.bound) hBd.head.1
  have e : ((r1.setTIME (r1.TIME + 1)).setNext i (some i)).node_num = r1.node_num := by simp
  rw [e] at p2 p4
  refine ⟨ls, rs, lt, rt, p1, p3, p2, p4, ?_⟩
  intro F' hF'
  have hF2 : r1.node_num ≤ F' := hF'
  obtain ⟨g5, _, _, h5, _⟩ := @augment_spec F' _ m ls lt rs rt hw hA.inv.tree hBd p1 p3
    (lt_of_lt_of_le p2 hF2) (lt_of_lt_of_le p4 hF2)
  exact ⟨g5, h5⟩

theorem res_found_eq {x : Res (Graph × Option Nat)} {o : Option Nat} (d : Graph × Option Nat)
    (h : x.found? = some o) : x = Res.ok ((x.getD d).1, o) := by
  cases x with
  | ok r =>
    simp only [Res.found?, Option.some.injEq] at h
    subst h
    rfl
  | fuel => simp [Res.found?] at h
  | fault => simp [Res.found?] at h

theorem wellFormed_rewire_demo : WellFormed rewire_demo :=
  ⟨by decide, by decide, by decide, by decide, by decide⟩

theorem loopTop_rewire_top2 : LoopTop 9 rewire_init none rewire_top2 none := by
  have hp1 : pick_active 9 rewire_init none = Res.ok (rewire_pick1, some 0) :=
    res_found_eq (rewire_init, none) (by decide)
  have hg1 : grow (rewire_pick1.nodes 0).is_sink 0 9 rewire_pick1 (rewire_pick1.nodes 0).first =
      Res.ok (rewire_grow1, none) := res_found_eq (rewire_pick1, none) (by decide)
  have hp2 : pick_active 9 rewire_top1 none = Res.ok (rewire_pick2, some 2) :=
    res_found_eq (rewire_top1, none) (by decide)
  have hg2 : grow (rewire_pick2.nodes 2).is_sink 2 9 rewire_pick2 (rewire_pick2.nodes 2).first =
      Res.ok (rewire_grow2, none) := res_found_eq (rewire_pick2, none) (by decide)
  exact LoopTop.grown (LoopTop.grown LoopTop.entry hp1 hg1) hp2 hg2

theorem rewire_pick3_spec :
    pick_active 9 rewire_top2 none = Res.ok (rewire_pick3, some 3) :=
  res_found_eq (rewire_top2, none) (by decide)

theorem rewire_grow3_spec :
    grow (rewire_pick3.nodes 3).is_sink 3 9 rewire_pick3 (rewire_pick3.nodes 3).first =
      Res.ok (rewire_grow3, some 4) :=
  res_found_eq (rewire_pick3, none) (by decide)

theorem augment_walks_safe_witness :
    SolveReady rewire_demo false ∧ LabelReady rewire_demo false ∧
      LoopTop 9 rewire_init none rewire_top2 none ∧
      (rewire_top1.nodes 1).parent = ArcPtr.arc 1 ∧
      (rewire_top2.nodes 1).parent = ArcPtr.arc 3 ∧
      pick_active 9 rewire_top2 none = Res.ok (rewire_pick3, some 3) ∧
      grow (rewire_pick3.nodes 3).is_sink 3 9 rewire_pick3 (rewire_pick3.nodes 3).first =
        Res.ok (rewire_grow3, some 4) ∧
      (rewire_call.arcs (rewire_call.arcs 4).sister).head = 1 ∧ (rewire_call.arcs 4).head = 3 ∧
      IsPath rewire_call 1 [3] 2 ∧ IsPath rewire_call 3 [] 3 ∧
      (∀ x < rewire_top2.node_num, (rewire_top2.nodes x).parent ≠ ArcPtr.null →
        ∃ l r, IsPath rewire_top2 x l r ∧ l.length < rewire_top2.node_num) ∧
      ∃ ls rs lt rt,
        IsPath rewire_call (rewire_call.arcs (rewire_call.arcs 4).sister).head ls rs ∧
        IsPath rewire_call (rewire_call.arcs 4).head lt rt ∧
        ls.length < rewire_grow3.node_num ∧ lt.length < rewire_grow3.node_num ∧
        ∀ F', rewire_grow3.node_num ≤ F' → ∃ g5, augment F' rewire_call 4 = Res.ok g5 := by
  have hR : SolveReady rewire_demo false := solveReady_cold wellFormed_rewire_demo (by decide)
  have key := augment_walks_safe 9 rewire_demo false none hR (labelReady_cold rewire_demo)
    rewire_init rewire_top2 none (by simp [SolveEntry, rewire_init]) loopTop_rewire_top2
  refine ⟨hR, labelReady_cold rewire_demo, loopTop_rewire_top2, by decide, by decide,
    rewire_pick3_spec, rewire_grow3_spec, by decide, by decide, ⟨by decide, by decide, by decide⟩,
    ⟨by decide, by decide⟩, key.1, ?_⟩
  exact (key.2 rewire_pick3 3 (rewire_grow3, some 4) rewire_pick3_spec rewire_grow3_spec).2 4 rfl

end Maxflow

namespace Maxflow

/-- C14: the choice of a new parent. Let `i` be an orphan of a well-formed state
that satisfies the label invariants of the adoption stage, with parent links
that form chains and fewer than `INFINITE_D` nodes. With fuel above the numbers
of nodes and of arcs, `process_source_orphan` and `process_sink_orphan` return.
If some arc `a0` out of `i` has residual towards `i` (`a0.sister.r_cap ≠ 0` for
the source tree, `a0.r_cap ≠ 0` for the sink tree) and a head in the tree whose
parent walk reaches `TERMINAL`, then `i` ends with such an arc as parent, of
least distance `dmin` among them, with `TS = TIME` and `DIST = dmin + 1`;
otherwise `i` ends with a null parent. -/
theorem orphan_adopts_nearest (F : Nat) (g : Graph) (i : Nat) (hw : WellFormed g)
    (hA : AdL g none) (hc : Chain g) (hi : i < g.node_num)
    (hpi : (g.nodes i).parent = ArcPtr.orphan) (hF : g.node_num < F) (hF2 : g.arc_num < F)
    (hD : (g.node_num : Int) < INFINITE_D) :
    (∃ g1, process_source_orphan F g i = Res.ok g1 ∧ AdoptionResult g false i g1) ∧
    (∃ g1, process_sink_orphan F g i = Res.ok g1 ∧ AdoptionResult g true i g1) := by
  have key : ∀ sink, ∃ g1, process_orphan F sink g i = Res.ok g1 ∧
      AdoptionResult g sink i g1 := by
    intro sink
    obtain ⟨g1, h1, _, _, h3⟩ := @process_orphan_spec F sink g i hw hA hc hi hpi hF hF2
    refine ⟨g1, h1, ?_⟩
    rcases h3 with ⟨am, dmin, q1, q2, _, q4, q5, q6, q7⟩ | ⟨q1, q2⟩
    · exact ⟨fun _ => ⟨am, dmin, q1, q2, q4, q5, q6, q7⟩,
        fun hn => absurd ⟨am, q1, dmin, q2⟩ hn⟩
    · refine ⟨?_, fun _ => q2⟩
      rintro ⟨a0, ha0, d, hd⟩
      exfalso
      have h5 := q1 a0 ha0 d hd
      obtain ⟨_, _, l, r, p1, p2⟩ := hd
      have hb : (g.arcs a0).head < g.node_num := hw.head a0 (hw.owner i hi a0 ha0).1
      have := isPath_length_lt_chain hc p1 hb
      have h6 : d ≤ (g.node_num : Int) := by
        rw [p2]
        have : (l.length : Int) < (g.node_num : Int) := by exact_mod_cast this
        omega
      omega
  exact ⟨key false, key true⟩

theorem wellFormed_diamond_orphan : WellFormed diamond_orphan :=
  ⟨by decide, by decide, by decide, by decide, by decide⟩

theorem parents_diamond_orphan :
    (diamond_orphan.nodes 0).parent = ArcPtr.terminal ∧
      (diamond_orphan.nodes 1).parent = ArcPtr.arc 1 ∧
      (diamond_orphan.nodes 2).parent = ArcPtr.orphan ∧
      (diamond_orphan.nodes 3).parent = ArcPtr.terminal :=
  ⟨by decide, by decide, by decide, by decide⟩

theorem chain_diamond_orphan : Chain diamond_orphan := by
  intro x hx a ha
  have hx2 : x < 4 := hx
  obtain ⟨h0, h1, h2, h3⟩ := parents_diamond_orphan
  interval_cases x
  · rw [h0] at ha
    exact absurd ha (by simp)
  · rw [h1] at ha
    simp only [ArcPtr.arc.injEq] at ha
    subst ha
    exact ⟨by decide, by decide⟩
  · rw [h2] at ha
    exact absurd ha (by simp)
  · rw [h3] at ha
    exact absurd ha (by simp)

theorem adL_diamond_orphan : AdL diamond_orphan none := by
  refine adL_of_mono ?_ (by decide)
  intro x hx a ha
  have hx2 : x < 4 := hx
  obtain ⟨h0, h1, h2, h3⟩ := parents_diamond_orphan
  interval_cases x
  · rw [h0] at ha
    exact absurd ha (by simp)
  · rw [h1] at ha
    simp only [ArcPtr.arc.injEq] at ha
    subst ha
    exact ⟨by decide, by decide⟩
  · rw [h2] at ha
    exact absurd ha (by simp)
  · rw [h3] at ha
    exact absurd ha (by simp)

theorem orphan_adopts_nearest_witness :
    Cand diamond_orphan false 9 2 ∧
      ∃ g1, process_source_orphan 11 diamond_orphan 2 = Res.ok g1 ∧
        AdoptionResult diamond_orphan false 2 g1 :=
  ⟨⟨by decide, by decide, [1], 0, ⟨by decide, by decide, rfl⟩, by decide⟩,
    (orphan_adopts_nearest 11 diamond_orphan 2 wellFormed_diamond_orphan adL_diamond_orphan
      chain_diamond_orphan (by decide) (by decide) (by decide) (by decide) (by decide)).1⟩

end Maxflow

namespace Maxflow

/-! ### Terminal invariants and label bounds through the main loop -/

/-- The processing of an orphan keeps the label bounds. -/
theorem process_orphan_bounds {F : Nat} {sink : Bool} {g g1 : Graph} {i : Nat}
    (hr : process_orphan F sink g i = Res.ok g1) (hw : WellFormed g) (h : AdL g none)
    (hc : Chain g) (hi : i < g.node_num) (hpi : (g.nodes i).parent = ArcPtr.orphan)
    (hL : Labels g) : Labels g1 := by
  obtain ⟨g2, h2, _, h4, _⟩ := @process_orphan_spec (F + g.node_num + g.arc_num + 1) sink g i
    hw h hc hi hpi (by omega) (by omega)
  have := process_orphan_mono (show F ≤ F + g.node_num + g.arc_num + 1 by omega) hr
  rw [this] at h2
  simp only [Res.ok.injEq] at h2
  rw [h2]
  exact h4 hL

theorem labels_of_writes {K : List Field} {g g' : Graph} (hwr : Writes K g g')
    (h1 : Field.parent ∉ K) (h3 : Field.DIST ∉ K) (h : Labels g) : Labels g' :=
  labels_sub (writes_shape hwr).node_num (writes_keep_DIST hwr h3)
    (fun x hx => by rw [← writes_keep_parent hwr h1 x]; exact hx)
    (fun x hx => by rw [← writes_keep_parent hwr h1 x]; exact hx) h

/-- The adoption stage keeps the label invariants and the label bounds. -/
theorem adoption_bounds {F f : Nat} {g r : Graph} {c : Option Nat}
    (hr : adoption F f g = Res.ok r) (hA : AdInv g c []) (h : AdL g none) (hL : Labels g) :
    Labels r := by
  have key := adoption_with (fun g' _ => AdL g' none ∧ Labels g') ?_ ?_ ?_ hr hA ⟨h, hL⟩
  · exact key.2
  · intro g' i rest _ hP _
    exact ⟨adL_setOrphans _ hP.1, labels_of_writes
      (writes_setOrphans (K := [Field.orphans]) (by decide) g' _) (by decide) (by decide) hP.2⟩
  · intro g' rest _ _ hP
    exact ⟨adL_setOrphans _ hP.1, labels_of_writes
      (writes_setOrphans (K := [Field.orphans]) (by decide) g' _) (by decide) (by decide) hP.2⟩
  · intro pend g' i rest g1 _ hP _ hA2 hi hpi _ hp
    have hw := hA2.inv.wf
    have hc := chain_of_treeInv hw hA2.inv.tree
    have hL2 : Labels (g'.setOrphans rest) := labels_of_writes
      (writes_setOrphans (K := [Field.orphans]) (by decide) g' _) (by decide) (by decide) hP.2
    exact ⟨process_orphan_labels hp hw (adL_setOrphans _ hP.1) hc (by simpa using hi)
        (by simpa using hpi),
      process_orphan_bounds hp hw (adL_setOrphans _ hP.1) hc (by simpa using hi)
        (by simpa using hpi) hL2⟩

/-- The drain of the orphan list keeps the label bounds. -/
theorem drain_bounds {F f : Nat} {g r : Graph} {c : Option Nat} {pend : List Nat}
    (hr : drain_orphans F f g = Res.ok r) (hA : AdInv g c pend) (h : AdL g none)
    (hL : Labels g) : Labels r := by
  have key := drain_with (fun g' => AdL g' none ∧ Labels g') ?_ hr hA ⟨h, hL⟩
  · exact key.2
  · intro g' i rest g1 _ hP _ hA2 hi hpi _ hp
    have hw := hA2.inv.wf
    have hc := chain_of_treeInv hw hA2.inv.tree
    have hL2 : Labels (g'.setOrphans rest) := labels_of_writes
      (writes_setOrphans (K := [Field.orphans]) (by decide) g' _) (by decide) (by decide) hP.2
    exact ⟨process_orphan_labels hp hw (adL_setOrphans _ hP.1) hc (by simpa using hi)
        (by simpa using hpi),
      process_orphan_bounds hp hw (adL_setOrphans _ hP.1) hc (by simpa using hi)
        (by simpa using hpi) hL2⟩

/-- A free node and a node below a parent arc have no terminal residual. -/
theorem Terminals.zero_of_not_root {g : Graph} (ht : Terminals g) {j : Nat}
    (hj : j < g.node_num) (hp : (g.nodes j).parent ≠ ArcPtr.terminal) :
    (g.nodes j).tr_cap = 0 := by
  by_contra hne
  rcases lt_or_gt_of_ne hne with h1 | h1
  · exact hp (ht.neg j hj h1).1
  · exact hp (ht.pos j hj h1).1

/-- Changing the side and the parent of a node without terminal residual keeps
the terminal invariants. -/
theorem terminals_at {g g' : Graph} {j : Nat} (hn : g'.node_num = g.node_num)
    (ht : ∀ x, (g'.nodes x).tr_cap = (g.nodes x).tr_cap)
    (hk : ∀ x, x ≠ j → (g'.nodes x).is_sink = (g.nodes x).is_sink)
    (hp : ∀ x, x ≠ j → (g'.nodes x).parent = (g.nodes x).parent)
    (hj : (g.nodes j).tr_cap = 0) (h : Terminals g) : Terminals g' := by
  refine ⟨?_, ?_⟩
  · intro x hx hpx
    rw [hn] at hx
    rw [ht] at hpx
    have q : x ≠ j := by
      intro q
      subst q
      omega
    rw [hk x q, hp x q]
    exact h.pos x hx hpx
  · intro x hx hpx
    rw [hn] at hx
    rw [ht] at hpx
    have q : x ≠ j := by
      intro q
      subst q
      omega
    rw [hk x q, hp x q]
    exact h.neg x hx hpx

theorem labels_attach {g : Graph} {i j a : Nat} (h : Labels g) (hi : i < g.node_num)
    (hij : j ≠ i) (hpi : (g.nodes i).parent ≠ ArcPtr.null) : Labels (attach g i j a) := by
  have hdi := h.tree i hi hpi
  refine ⟨?_, ?_⟩
  · intro x hx hp
    have q : x ≠ j := by
      intro q
      subst q
      simp [attach] at hp
    have := h.root x (by simpa [attach] using hx) (by simpa [attach, q] using hp)
    simpa [attach, q] using this
  · intro x hx hp
    by_cases q : x = j
    · subst q
      simp only [attach, setDIST_nodes_DIST, if_true]
      omega
    · have := h.tree x (by simpa [attach] using hx) (by simpa [attach, q] using hp)
      simpa [attach, q] using this

/-- The growth scan keeps the terminal invariants and the label bounds: it
never rewires a root, whose `DIST` is 1. -/
theorem grow_bounds {sink : Bool} {i f : Nat} {g : Graph} {r : Graph × Option Nat}
    (hr : grow sink i f g (g.nodes i).first = Res.ok r) (hG : GrowInv g i sink)
    (h : Terminals g ∧ Labels g) : Terminals r.1 ∧ Labels r.1 := by
  refine grow_with (fun g' => Terminals g' ∧ Labels g') ?_ ?_ hr hG h
  · intro g' a hG' ha ⟨hT, hL⟩ _ hp
    have hw := hG'.inv.wf
    obtain ⟨ha1, _⟩ := hw.owner i hG'.bound a ha
    have hjb : (g'.arcs a).head < g'.node_num := hw.head a ha1
    have hji : (g'.arcs a).head ≠ i := by
      intro q
      rw [q] at hp
      exact hG'.parent hp
    have hz : (g'.nodes (g'.arcs a).head).tr_cap = 0 :=
      hT.zero_of_not_root hjb (by rw [hp]; simp)
    constructor
    · refine terminals_at (j := (g'.arcs a).head) (by simp) (by simp) ?_ ?_ hz hT
      · intro x hx
        simp [grow_adopt, attach, hx]
      · intro x hx
        simp [grow_adopt, attach, hx]
    · have hwr : Writes [Field.is_sink] g' (g'.setSink (g'.arcs a).head sink) :=
        writes_setSink (by decide) _ _ _
      have hL0 := labels_of_writes hwr (by decide) (by decide) hL
      have hL1 : Labels (attach (g'.setSink (g'.arcs a).head sink) i (g'.arcs a).head a) :=
        labels_attach hL0 (by simpa using hG'.bound) hji (by simpa using hG'.parent)
      have hwr2 := writes_trans
        (writes_set_active (K := [Field.next, Field.queue1, Field.changed, Field.in_changed])
          (by decide) (by decide)
          (attach (g'.setSink (g'.arcs a).head sink) i (g'.arcs a).head a) (g'.arcs a).head)
        (writes_add_to_changed_list (by decide) (by decide) _ (g'.arcs a).head)
      exact labels_of_writes hwr2 (by decide) (by decide) hL1
  · intro g' a hG' ha ⟨hT, hL⟩ _ hin _ h2
    have hw := hG'.inv.wf
    obtain ⟨ha1, _⟩ := hw.owner i hG'.bound a ha
    have hjb : (g'.arcs a).head < g'.node_num := hw.head a ha1
    have hji : (g'.arcs a).head ≠ i := by
      intro q
      rw [q] at h2
      omega
    have hdi := hL.tree i hG'.bound hG'.parent
    have hnr : (g'.nodes (g'.arcs a).head).parent ≠ ArcPtr.terminal := by
      intro q
      have := hL.root _ hjb q
      omega
    have hz := hT.zero_of_not_root hjb hnr
    constructor
    · refine terminals_at (j := (g'.arcs a).head) (by simp [attach]) (by simp [attach]) ?_ ?_
        hz hT
      · intro x hx
        simp [attach]
      · intro x hx
        simp [attach, hx]
    · exact labels_attach hL hG'.bound hji hG'.parent

theorem labels_augment {g g5 : Graph} (hrel : AugRel g g5) (h : Labels g) : Labels g5 := by
  have hwr := hrel.writes
  refine labels_sub (writes_shape hwr).node_num (writes_keep_DIST hwr (by decide)) ?_ ?_ h
  · intro x hx
    rcases hrel.parent x with q | q
    · rw [← q]
      exact hx
    · rw [q.2.2] at hx
      simp at hx
  · intro x _
    rcases hrel.parent x with q | q
    · rw [← q]
      assumption
    · exact q.1

theorem terminals_of_writes {K : List Field} {g g' : Graph} (hwr : Writes K g g')
    (h1 : Field.tr_cap ∉ K) (h2 : Field.is_sink ∉ K) (h3 : Field.parent ∉ K)
    (h : Terminals g) : Terminals g' :=
  terminals_mono (writes_shape hwr) (writes_keep_tr_cap hwr h1) (writes_keep_is_sink hwr h2)
    (fun x hx => by rw [writes_keep_parent hwr h3]; exact hx) h

end Maxflow

namespace Maxflow

/-! ### The flow and the capacity of the final cut -/

theorem potential_of_writes {K : List Field} {g0 g g' : Graph} (hwr : Writes K g g')
    (h1 : Field.r_cap ∉ K) (h2 : Field.tr_cap ∉ K) (h3 : Field.flow ∉ K)
    (h : ∀ S, g.flow + cutCap g S = g0.flow + cutCap g0 S) :
    ∀ S, g'.flow + cutCap g' S = g0.flow + cutCap g0 S := by
  intro S
  rw [writes_keep_flow hwr h3, cutCap_of_writes hwr h1 h2 S]
  exact h S

/-- The invariants for the value of the flow hold at the top of every iteration
of the main loop. -/
theorem loopTop_flow {F : Nat} {g0 g1 g : Graph} {c0 c : Option Nat}
    (h : LoopTop F g1 c0 g c) (h0 : FlowInv g0 g1 c0) : FlowInv g0 g c := by
  refine loopTop_rule (fun g c => FlowInv g0 g c)
    (fun g i => (GrowInv g i (g.nodes i).is_sink ∧ Resid g) ∧ (Mono g ∧ TSle g) ∧
      (Terminals g ∧ Labels g) ∧ ∀ S, g.flow + cutCap g S = g0.flow + cutCap g0 S)
    ?_ ?_ ?_ h h0
  · rintro g c g1 i ⟨hB, ⟨hM, hT⟩, ⟨hTe, hLb⟩, hPhi⟩ h1
    have hwr := pick_active_writes h1
    exact ⟨base_pick hB h1, ⟨mono_of_writes hwr (by decide) (by decide) (by decide) hM,
      tsle_of_writes hwr (by decide) (by decide) hT⟩,
      ⟨terminals_of_writes hwr (by decide) (by decide) (by decide) hTe,
        labels_of_writes hwr (by decide) (by decide) hLb⟩,
      potential_of_writes hwr (by decide) (by decide) (by decide) hPhi⟩
  · rintro g1 i g3 ⟨hB, hL, hTL, hPhi⟩ h1
    have hL3 := grow_labels h1 hB.1 hL
    have hTL3 := grow_bounds h1 hB.1 hTL
    obtain ⟨a, b⟩ := labels_setTIME_succ hL3
    have hwt := writes_setTIME (K := [Field.TIME]) (by decide) g3 (g3.TIME + 1)
    exact ⟨base_grown hB h1, ⟨a, fun x hx => le_of_lt (b x hx)⟩,
      ⟨terminals_of_writes hwt (by decide) (by decide) (by decide) hTL3.1,
        labels_of_writes hwt (by decide) (by decide) hTL3.2⟩,
      potential_of_writes hwt (by decide) (by decide) (by decide)
        (potential_of_writes (grow_writes h1) (by decide) (by decide) (by decide) hPhi)⟩
  · rintro g1 i g3 m g5 g6 ⟨hB, hL, hTL, hPhi⟩ h1 h2 h3
    have hL3 := grow_labels h1 hB.1 hL
    have hTL3 := grow_bounds h1 hB.1 hTL
    obtain ⟨hA, hBd, hm, _, _⟩ := base_found hB h1
    obtain ⟨hrel, _, hT5, _, hPhi5⟩ := augment_inv h2 hA hBd hm
    obtain ⟨hI6, hAd⟩ := base_augmented hB h1 h2 h3
    obtain ⟨a, b⟩ := labels_found i hL3
    obtain ⟨a5, b5⟩ := augment_labels hrel a b
    have hwA := writes_trans
      (writes_setTIME (K := [Field.TIME, Field.next]) (by decide) g3 (g3.TIME + 1))
      (writes_setNext (by decide) _ i (some i))
    have hTA := terminals_of_writes hwA (by decide) (by decide) (by decide) hTL3.1
    have hLA := labels_of_writes hwA (by decide) (by decide) hTL3.2
    have hPA := potential_of_writes hwA (by decide) (by decide) (by decide)
      (potential_of_writes (grow_writes h1) (by decide) (by decide) (by decide) hPhi)
    have hAdL := adL_of_mono a5 b5
    have hL6 := adoption_labels h3 hAd hAdL
    have hLb6 := adoption_bounds h3 hAd hAdL (labels_augment hrel hLA)
    obtain ⟨⟨_, hrel6⟩, _⟩ := adoption_inv h3 hAd
    refine ⟨hI6, ⟨mono_of_adL hL6 (chain_of_treeInv hI6.1.1.wf hI6.1.1.tree), hL6.ts_le⟩,
      ⟨terminals_of_stepRel hrel6 (by decide) (by decide) (hT5 hTA), hLb6⟩, ?_⟩
    refine potential_of_writes (adoption_writes h3) (by decide) (by decide) (by decide) ?_
    intro S
    rw [hPhi5 S]
    exact hPA S

/-- In a state with every node passive, the capacity of the cut around the
source tree is zero. -/
theorem cutCap_final {g : Graph} (hI : Inv g none none none []) (hQ : QueueInv g none [] [])
    (hR : Resid g) (hT : Terminals g) : cutCap g (inSource g) = 0 := by
  have hw := hI.wf
  unfold cutCap arcCut termCut
  have h1 : ∑ a ∈ Finset.range g.arc_num,
      (if inSource g (g.tail a) = true ∧ inSource g (g.arcs a).head = false
        then (g.arcs a).r_cap else 0) = 0 := by
    refine Finset.sum_eq_zero ?_
    intro a ha
    have ha' : a < g.arc_num := by simpa using ha
    split
    · rename_i hc
      obtain ⟨c1, c2⟩ := hc
      have ht : g.tail a < g.node_num := hw.tail_lt ha'
      simp only [inSource, Bool.and_eq_true, decide_eq_true_eq, Bool.not_eq_true'] at c1
      by_contra hne
      have hpos : 0 < (g.arcs a).r_cap := lt_of_le_of_ne (hR.nonneg a ha') (Ne.symm hne)
      have key := hI.frontier (g.tail a) ht (by simp) (queueInv_empty_next hQ _ ht) c1.1 a
        (hw.listed a ha') (by simpa [grow_rcap, c1.2] using hpos)
      rcases key with q | q
      · rw [c1.2] at q
        have : inSource g (g.arcs a).head = true := by
          simp [inSource, q.1, q.2]
        rw [this] at c2
        simp at c2
      · simp at q
    · rfl
  have h2 : ∑ x ∈ Finset.range g.node_num,
      (if inSource g x = true then max (- (g.nodes x).tr_cap) 0
        else max (g.nodes x).tr_cap 0) = 0 := by
    refine Finset.sum_eq_zero ?_
    intro x hx
    have hx' : x < g.node_num := by simpa using hx
    split
    · rename_i hc
      simp only [inSource, Bool.and_eq_true, decide_eq_true_eq, Bool.not_eq_true'] at hc
      have : 0 ≤ (g.nodes x).tr_cap := by
        by_contra hneg
        have := (hT.neg x hx' (by omega)).2
        rw [hc.2] at this
        simp at this
      simp [this]
    · rename_i hc
      have : (g.nodes x).tr_cap ≤ 0 := by
        by_contra hpos
        obtain ⟨p1, p2⟩ := hT.pos x hx' (by omega)
        apply hc
        simp [inSource, p1, p2]
      simp [this]
  rw [h1, h2]
  rfl

/-- A solve entered with the invariants for the value of the flow returns with
a flow increased by the capacity, in the residuals of `g0`, of the cut around
its source tree. -/
theorem main_loop_flow {F f : Nat} {g0 g1 r : Graph}
    (h : main_loop F f g1 none = Res.ok r) (h0 : FlowInv g0 g1 none) :
    r.flow - g0.flow = cutCap g0 (inSource r) ∧ Terminals r ∧ Labels r := by
  obtain ⟨g2, c2, hT, hp⟩ := main_loop_exit h
  obtain ⟨hB, _, hTL, hPhi⟩ := loopTop_flow hT h0
  obtain ⟨⟨hI, _, hQ⟩, hR⟩ := base_exit hB hp
  have hwr := pick_active_writes hp
  have hTr := terminals_of_writes hwr (by decide) (by decide) (by decide) hTL.1
  have hLr := labels_of_writes hwr (by decide) (by decide) hTL.2
  have hP : r.flow + cutCap r (inSource r) = g0.flow + cutCap g0 (inSource r) :=
    potential_of_writes hwr (by decide) (by decide) (by decide) hPhi (inSource r)
  have hz : cutCap r (inSource r) = 0 := cutCap_final hI hQ hR hTr
  rw [hz] at hP
  refine ⟨by omega, hTr, hLr⟩

end Maxflow

namespace Maxflow

/-- The cold initialisation establishes the invariants for the value of the
flow. -/
theorem maxflow_init_flow (g : Graph) (hw : WellFormed g)
    (hnn : ∀ a < g.arc_num, 0 ≤ (g.arcs a).r_cap) : FlowInv g (maxflow_init g) none := by
  obtain ⟨h1, h2, h3, h4, _⟩ := maxflow_init_inv g hw hnn
  refine ⟨⟨h1, h2⟩, maxflow_init_labels g hw hnn, ⟨h3, h4⟩, ?_⟩
  exact potential_of_writes (maxflow_init_writes g) (by decide) (by decide) (by decide)
    (fun _ => rfl)

/-- C1: the flow of a cold solve is the capacity of the cut it leaves. For a
well-formed graph with non-negative residuals, when `maxflow(reuse_trees=false)`
returns, the increase of `flow` over its value at entry is the capacity, in the
residuals at entry, of the cut `S = {i : i.parent ≠ null ∧ ¬ i.is_sink}` of the
returned state: the sum of `r_cap` over the arcs from `S` to its complement,
plus `max(tr_cap, 0)` over the nodes outside `S`, plus `max(-tr_cap, 0)` over
the nodes of `S`. -/
theorem flow_equals_cut (F : Nat) (g : Graph) (cl : Option (List Nat)) (g' : Graph) (fl : Int)
    (hw : WellFormed g) (hnn : ∀ a < g.arc_num, 0 ≤ (g.arcs a).r_cap)
    (h : maxflow F g false cl = Outcome.returned g' fl) :
    fl - g.flow = cutCap g (inSource g') ∧
      cutCap g (inSource g') =
        (∑ a ∈ Finset.range g.arc_num,
          if inSource g' (g.tail a) = true ∧ inSource g' (g.arcs a).head = false
            then (g.arcs a).r_cap else 0) +
        ∑ x ∈ Finset.range g.node_num,
          if inSource g' x = true then max (- (g.nodes x).tr_cap) 0
            else max (g.nodes x).tr_cap 0 := by
  refine ⟨?_, rfl⟩
  obtain ⟨_, _, g2, h2, rfl, rfl⟩ := maxflow_returned_iff.1 h
  simp only [solve, Bool.false_eq_true, if_false, Res.bind_eq_ok, Res.ok.injEq] at h2
  obtain ⟨g1, h1, h3⟩ := h2
  subst h1
  have hwc : WellFormed (g.setChanged cl) :=
    wellFormed_sameShape (writes_shape (writes_setChanged (K := [Field.changed])
      (by decide) g cl)) hw
  have h0 := maxflow_init_flow (g.setChanged cl) hwc (fun a ha => by simpa using hnn a ha)
  have key := (main_loop_flow h3 h0).1
  exact key

theorem flow_equals_cut_witness :
    ∃ g', maxflow 8 diamond false none = Outcome.returned g' 9 ∧
      (9 : Int) - diamond.flow = cutCap diamond (inSource g') := by
  obtain ⟨g', hg⟩ := diamond_returns
  exact ⟨g', hg, (flow_equals_cut 8 diamond none g' 9 wellFormed_diamond (by decide) hg).1⟩

end Maxflow

namespace Maxflow

/-! ### Terminal invariants and label bounds through the tree-reuse initialisation -/

theorem reuse_step_parent_cases (g : Graph) (sink : Bool) (a x : Nat) :
    ((reuse_step g sink a).nodes x).parent = (g.nodes x).parent ∨
      ((∃ b, (g.nodes x).parent = ArcPtr.arc b) ∧
        ((reuse_step g sink a).nodes x).parent = ArcPtr.orphan) := by
  have hoc : ((reuse_orphan_child g a).nodes x).parent = (g.nodes x).parent ∨
      ((∃ b, (g.nodes x).parent = ArcPtr.arc b) ∧
        ((reuse_orphan_child g a).nodes x).parent = ArcPtr.orphan) := by
    unfold reuse_orphan_child
    split
    · rename_i hc
      by_cases q : x = (g.arcs a).head
      · right
        subst q
        exact ⟨⟨_, hc⟩, by simp [set_orphan_rear]⟩
      · left
        simp [set_orphan_rear, q]
    · exact Or.inl rfl
  unfold reuse_step
  split
  · split
    · simpa using hoc
    · exact hoc
  · exact Or.inl rfl

/-- What the neighbour loop of the tree-reuse initialisation keeps: terminal
residuals, sides and `DIST`; a parent is only replaced, a parent arc by
`ORPHAN`. -/
theorem reuse_neighbors_keeps {sink : Bool} {f : Nat} {g r : Graph} {a : Option Nat}
    (hr : reuse_neighbors sink f g a = Res.ok r) :
    r.node_num = g.node_num ∧ (∀ x, (r.nodes x).tr_cap = (g.nodes x).tr_cap) ∧
      (∀ x, (r.nodes x).is_sink = (g.nodes x).is_sink) ∧
      (∀ x, (r.nodes x).DIST = (g.nodes x).DIST) ∧
      ∀ x, (r.nodes x).parent = (g.nodes x).parent ∨
        ((∃ b, (g.nodes x).parent = ArcPtr.arc b) ∧ (r.nodes x).parent = ArcPtr.orphan) := by
  refine reuse_neighbors_rule (fun g' _ => g'.node_num = g.node_num ∧
      (∀ x, (g'.nodes x).tr_cap = (g.nodes x).tr_cap) ∧
      (∀ x, (g'.nodes x).is_sink = (g.nodes x).is_sink) ∧
      (∀ x, (g'.nodes x).DIST = (g.nodes x).DIST) ∧
      ∀ x, (g'.nodes x).parent = (g.nodes x).parent ∨
        ((∃ b, (g.nodes x).parent = ArcPtr.arc b) ∧ (g'.nodes x).parent = ArcPtr.orphan))
    ?_ hr ⟨rfl, fun _ => rfl, fun _ => rfl, fun _ => rfl, fun _ => Or.inl rfl⟩
  rintro g' a0 ⟨h1, h2, h3, h4, h5⟩
  refine ⟨by simpa using h1, fun x => by simpa using h2 x, fun x => by simpa using h3 x,
    fun x => by simpa using h4 x, ?_⟩
  intro x
  rcases reuse_step_parent_cases g' sink a0 x with q | ⟨⟨b, hb⟩, q⟩
  · rw [q]
    exact h5 x
  · rcases h5 x with p | p
    · right
      exact ⟨⟨b, by rw [← p]; exact hb⟩, q⟩
    · rw [p.2] at hb
      simp at hb

theorem termOn_step {g g' : Graph} {P P' : Nat → Prop} (hn : g'.node_num = g.node_num)
    (h : TermOn g P)
    (hx : ∀ x < g.node_num, P' x →
      (P x ∧ (g'.nodes x).tr_cap = (g.nodes x).tr_cap ∧
        (g'.nodes x).is_sink = (g.nodes x).is_sink ∧
        ((g.nodes x).parent = ArcPtr.terminal → (g'.nodes x).parent = ArcPtr.terminal)) ∨
      ((0 < (g'.nodes x).tr_cap →
          (g'.nodes x).parent = ArcPtr.terminal ∧ (g'.nodes x).is_sink = false) ∧
        ((g'.nodes x).tr_cap < 0 →
          (g'.nodes x).parent = ArcPtr.terminal ∧ (g'.nodes x).is_sink = true))) :
    TermOn g' P' := by
  intro x hxn hP'
  rw [hn] at hxn
  rcases hx x hxn hP' with ⟨p, e1, e2, e3⟩ | q
  · obtain ⟨t1, t2⟩ := h x hxn p
    rw [e1, e2]
    exact ⟨fun hp => ⟨e3 (t1 hp).1, (t1 hp).2⟩, fun hp => ⟨e3 (t2 hp).1, (t2 hp).2⟩⟩
  · exact q

theorem labels_make_root {g : Graph} (i : Nat) (h : Labels g) : Labels (make_root g i) := by
  refine ⟨?_, ?_⟩
  · intro x hx hp
    by_cases q : x = i
    · subst q
      simp [make_root]
    · have := h.root x (by simpa [make_root] using hx) (by simpa [q] using hp)
      simpa [make_root, q] using this
  · intro x hx hp
    by_cases q : x = i
    · subst q
      simp [make_root]
    · have := h.tree x (by simpa [make_root] using hx) (by simpa [q] using hp)
      simpa [make_root, q] using this

theorem labels_orphan {g : Graph} (j : Nat) (h : Labels g)
    (hj : (g.nodes j).parent ≠ ArcPtr.null) : Labels (set_orphan_rear g j) := by
  refine labels_sub (by simp [set_orphan_rear]) (by simp [set_orphan_rear]) ?_ ?_ h
  · intro x hx
    by_cases q : x = j
    · subst q
      simp [set_orphan_rear] at hx
    · simpa [set_orphan_rear, q] using hx
  · intro x hx
    by_cases q : x = j
    · subst q
      exact hj
    · simpa [set_orphan_rear, q] using hx

end Maxflow

namespace Maxflow

/-- The queue loop of the tree-reuse initialisation establishes the terminal
invariants at the nodes it has processed and keeps the label bounds. -/
theorem reuse_queue_bounds {F f : Nat} {g r : Graph} {q : Option Nat} {R : List Nat}
    (h : reuse_queue F f g q = Res.ok r) (hI : ReuseInv g q R)
    (hT : TermOn g fun x => x ∉ R) (hL : Labels g) : Terminals r ∧ Labels r := by
  have key := reuse_queue_rule
    (fun g q => ∃ R, ReuseInv g q R ∧ TermOn g (fun x => x ∉ R) ∧ Labels g) ?_ ?_ ?_ h
    ⟨R, hI, hT, hL⟩
  · obtain ⟨R', hR, hT', hL'⟩ := key
    obtain ⟨q1, l, hq⟩ := hR.core.queue
    have : R' = [] := isQueue_first_none (by simpa using hq.queue0)
    subst this
    refine ⟨⟨?_, ?_⟩, hL'⟩
    · intro x hx hp
      exact (hT' x hx (by simp)).1 hp
    · intro x hx hp
      exact (hT' x hx (by simp)).2 hp
  · -- a node without terminal residual
    rintro g' i ⟨R', hR, hT', hL'⟩ hz
    obtain ⟨rest, hRe, hN⟩ := reuse_enter_inv hR
    subst hRe
    have hLe : Labels (reuse_enter g' i) :=
      labels_sub (by simp) (by simp) (fun x hx => by simpa using hx)
        (fun x hx => by simpa using hx) hL'
    refine ⟨rest, reuse_zero hN, ?_, ?_⟩
    · refine termOn_step ?_ hT' ?_
      · split <;> simp [set_orphan_rear]
      · intro x hx hxr
        by_cases q : x = i
        · right
          subst q
          have e : ((if ((reuse_enter g' x).nodes x).parent ≠ ArcPtr.null then
              set_orphan_rear (reuse_enter g' x) x else reuse_enter g' x).nodes x).tr_cap = 0 := by
            split
            · simpa [set_orphan_rear] using hz
            · exact hz
          rw [e]
          simp
        · left
          refine ⟨by simp [q, hxr], ?_, ?_, ?_⟩
          · split <;> simp [set_orphan_rear]
          · split <;> simp [set_orphan_rear]
          · intro hp
            split
            · simp [set_orphan_rear, q, hp]
            · simpa using hp
    · split
      · rename_i hp
        exact labels_orphan i hLe hp
      · exact hLe
  · -- a node moved to the other tree, or attached to a terminal
    rintro g' i g3 ⟨R', hR, hT', hL'⟩ ht hmv hnb
    obtain ⟨rest, hRe, hN⟩ := reuse_enter_inv hR
    subst hRe
    have hN2 := @reuse_move_start _ _ _ _ _ (decide (((reuse_enter g' i).nodes i).tr_cap < 0)) hN
      (by
        rcases hmv with q | q
        · exact Or.inl q
        · exact Or.inr (by simpa using q))
    have hfirst : ((reuse_enter g' i).nodes i).first =
        (((reuse_enter g' i).setSink i
          (decide (((reuse_enter g' i).nodes i).tr_cap < 0))).nodes i).first := by simp
    have hnb0 := hnb
    rw [hfirst] at hnb
    have hs : SameShape (reuse_enter g' i) ((reuse_enter g' i).setSink i
        (decide (((reuse_enter g' i).nodes i).tr_cap < 0))) :=
      writes_shape (writes_setSink (K := [Field.is_sink]) (by decide) _ i _)
    rw [← arcs_of_sameShape hs] at hN2
    have hN3 := reuse_neighbors_inv hnb hN2
    have htr : ((add_to_changed_list g3 i).nodes i).tr_cap =
        ((reuse_enter g' i).nodes i).tr_cap := by
      have := writes_keep_tr_cap (reuse_neighbors_writes hnb) (by decide) i
      simp only [add_to_changed_list_nodes_tr_cap, this, setSink_nodes_tr_cap]
    obtain ⟨f1, f2, f3, f4, f5⟩ := reuse_neighbors_keeps hnb0
    refine ⟨rest, reuse_root (reuseNb_changed i hN3) (by rw [htr]; exact ht) (by rw [htr]),
      ?_, ?_⟩
    · refine termOn_step (by simpa using f1) hT' ?_
      intro x hx hxr
      by_cases q : x = i
      · right
        subst q
        have e1 : ((make_root (add_to_changed_list g3 x) x).nodes x).tr_cap = (g'.nodes x).tr_cap := by
          simp [f2]
        have e2 : ((make_root (add_to_changed_list g3 x) x).nodes x).is_sink =
            decide ((g'.nodes x).tr_cap < 0) := by
          simp [f3]
        rw [e1, e2]
        refine ⟨fun hp => ⟨by simp, ?_⟩, fun hp => ⟨by simp, ?_⟩⟩
        · simp
          omega
        · simpa using hp
      · left
        refine ⟨by simp [q, hxr], by simp [f2], by simp [f3, q], ?_⟩
        intro hp
        simp only [make_root_nodes_parent, q, if_false, add_to_changed_list_nodes_parent]
        rcases f5 x with p | p
        · rw [p]
          simpa using hp
        · obtain ⟨⟨b, hb⟩, _⟩ := p
          have hb' : (g'.nodes x).parent = ArcPtr.arc b := by simpa using hb
          rw [hp] at hb'
          simp at hb'
    · refine labels_make_root i ?_
      refine labels_of_writes (writes_add_to_changed_list (K := [Field.changed, Field.in_changed])
        (by decide) (by decide) g3 i) (by decide) (by decide) ?_
      refine labels_sub (by simpa using f1) (fun x => by simp [f4]) ?_ ?_ hL'
      · intro x hx
        rcases f5 x with p | p
        · rw [p] at hx
          simpa using hx
        · rw [p.2] at hx
          simp at hx
      · intro x hx
        rcases f5 x with p | p
        · rw [p] at hx
          simpa using hx
        · obtain ⟨⟨b, hb⟩, _⟩ := p
          have hb' : (g'.nodes x).parent = ArcPtr.arc b := by simpa using hb
          rw [hb']
          simp
  · -- a root that stays in its tree
    rintro g' i ⟨R', hR, hT', hL'⟩ ht _ hk
    obtain ⟨rest, hRe, hN⟩ := reuse_enter_inv hR
    subst hRe
    have hLe : Labels (reuse_enter g' i) :=
      labels_sub (by simp) (by simp) (fun x hx => by simpa using hx)
        (fun x hx => by simpa using hx) hL'
    refine ⟨rest, reuse_root hN ht (by simpa using hk), ?_, labels_make_root i hLe⟩
    refine termOn_step (by simp) hT' ?_
    intro x hx hxr
    by_cases q : x = i
    · right
      subst q
      have e2 : ((make_root (reuse_enter g' x) x).nodes x).is_sink =
          decide ((g'.nodes x).tr_cap < 0) := by
        simpa using hk
      have e1 : ((make_root (reuse_enter g' x) x).nodes x).tr_cap = (g'.nodes x).tr_cap := by
        simp
      rw [e1, e2]
      refine ⟨fun hp => ⟨by simp, ?_⟩, fun hp => ⟨by simp, ?_⟩⟩
      · simp
        omega
      · simpa using hp
    · left
      refine ⟨by simp [q, hxr], by simp, by simp, ?_⟩
      intro hp
      simpa [q] using hp

end Maxflow

namespace Maxflow

/-! ### Completed solves -/

/-- The tree-reuse initialisation establishes the invariants for the value of
the flow. -/
theorem reuse_init_flow {F : Nat} {g g1 : Graph} {q : List Nat} (hE : ReuseReady g q)
    (h : maxflow_reuse_trees_init F g = Res.ok g1) : FlowInv g g1 none := by
  have hbase := (reuse_init_ext hE.entry h).1
  have hlab := reuse_init_labels hE.entry ⟨hE.mono, hE.ts_le⟩ h
  have hwr := maxflow_reuse_trees_init_writes h
  refine ⟨hbase, hlab, ?_, potential_of_writes hwr (by decide) (by decide) (by decide)
    (fun _ => rfl)⟩
  simp only [maxflow_reuse_trees_init, Res.bind_eq_ok] at h
  obtain ⟨g2, h1, h2⟩ := h
  have hI0 := reuseEntry_inv hE.entry
  have hw0 : Writes [Field.queue0, Field.queue1, Field.orphans, Field.TIME] g
      ((((g.setQueue0 none none).setQueue1 none none).setOrphans []).setTIME (g.TIME + 1)) :=
    writes_trans (writes_trans (writes_trans (writes_setQueue0 (by decide) _ _ _)
      (writes_setQueue1 (by decide) _ _ _)) (writes_setOrphans (by decide) _ _))
      (writes_setTIME (by decide) _ _)
  have hT0 : TermOn
      ((((g.setQueue0 none none).setQueue1 none none).setOrphans []).setTIME (g.TIME + 1))
      (fun x => x ∉ q) := by
    intro x hx hq
    have := hE.terminals x (by simpa using hx) hq
    simpa using this
  have hL0 := labels_of_writes hw0 (by decide) (by decide) hE.labels
  obtain ⟨hT2, hLb2⟩ := reuse_queue_bounds h1 hI0 hT0 hL0
  have hRL0 : ReuseL
      ((((g.setQueue0 none none).setQueue1 none none).setOrphans []).setTIME (g.TIME + 1)) := by
    refine ⟨?_, ?_, ?_⟩
    · intro x hx hs
      have := hE.ts_le x (by simpa using hx)
      have e : (g.nodes x).TS = g.TIME + 1 := by simpa using hs
      omega
    · intro x hx _ a ha
      have := hE.mono x (by simpa using hx) a (by simpa using ha)
      simpa using this
    · exact fun x hx => le_of_lt (by
        have := hE.ts_le x (by simpa using hx)
        have e1 : (((((g.setQueue0 none none).setQueue1 none none).setOrphans []).setTIME
            (g.TIME + 1)).nodes x).TS = (g.nodes x).TS := by simp
        have e2 : ((((g.setQueue0 none none).setQueue1 none none).setOrphans []).setTIME
            (g.TIME + 1)).TIME = g.TIME + 1 := by simp
        rw [e1, e2]
        omega)
  have hRL2 := reuse_queue_labels h1 hI0 hRL0
  obtain ⟨hA, _, _⟩ := reuseInv_exit (reuse_queue_inv h1 hI0)
  obtain ⟨⟨_, hrel⟩, _⟩ := drain_orphans_inv h2 hA
  exact ⟨terminals_of_stepRel hrel (by decide) (by decide) hT2,
    drain_bounds h2 hA (adL_of_reuseL hRL2) hLb2⟩

/-- The main loop, entered with the invariants of the solve, returns a solved
state, and its flow is the flow of `g0` plus the capacity of the final cut in the
residuals of `g0`, which is at most the capacity of any cut. -/
theorem main_loop_solved {F f : Nat} {g0 g1 r : Graph}
    (h : main_loop F f g1 none = Res.ok r) (h0 : FlowInv g0 g1 none)
    (hU : Unsat g1) (hO : OrphansListed g1 []) :
    Solved r ∧ r.flow - g0.flow = cutCap g0 (inSource r) ∧
      ∀ S, r.flow + cutCap r S = g0.flow + cutCap g0 S := by
  obtain ⟨hfl, hTr, hLr⟩ := main_loop_flow h h0
  obtain ⟨g2, c2, hT, hp⟩ := main_loop_exit h
  obtain ⟨hB, hLab, _, hPhi⟩ := loopTop_flow hT h0
  obtain ⟨_, hU2, hO2⟩ := loopTop_ext hT ⟨h0.1, hU, hO⟩
  obtain ⟨⟨hI, ho, hQ⟩, hR⟩ := base_exit hB hp
  have hwr := pick_active_writes hp
  refine ⟨⟨hI, ho, hQ, hR, unsat_of_writes hwr (by decide) (by decide) (by decide) hU2,
    orphansListed_of_writes hwr (by decide) (by decide) hO2,
    mono_of_writes hwr (by decide) (by decide) (by decide) hLab.1,
    tsle_of_writes hwr (by decide) (by decide) hLab.2, hTr, hLr⟩, hfl, ?_⟩
  exact potential_of_writes hwr (by decide) (by decide) (by decide) hPhi

theorem solved_setIteration {s : Graph} (k : Nat) (h : Solved s) : Solved (s.setIteration k) := by
  have hwr : Writes [Field.iteration] s (s.setIteration k) :=
    writes_one (by decide) (Write.setIteration s k)
  have hs := writes_shape hwr
  obtain ⟨hw, ⟨q0, q1, hq⟩, hf, ht, hoi⟩ := h.inv
  refine ⟨⟨wellFormed_sameShape hs hw, ⟨q0, q1, queueInv_of_writes hq hwr (by decide)
      (by decide) (by decide)⟩, ?_, ?_, ?_⟩, h.orphans,
    queueInv_of_writes h.queue hwr (by decide) (by decide) (by decide),
    resid_of_writes hwr (by decide) (by decide) (by decide) (by decide) h.resid,
    unsat_of_writes hwr (by decide) (by decide) (by decide) h.unsat,
    orphansListed_of_writes hwr (by decide) (by decide) h.listed,
    mono_of_writes hwr (by decide) (by decide) (by decide) h.mono,
    tsle_of_writes hwr (by decide) (by decide) h.ts_le,
    terminals_of_writes hwr (by decide) (by decide) (by decide) h.terminals,
    labels_of_writes hwr (by decide) (by decide) h.labels⟩
  · exact passiveFrontier_mono hs (fun a => rfl) (fun x hx => hx) (fun x => Iff.rfl)
      (fun x => rfl) hf
  · exact treeInv_mono hs (fun x => rfl) (fun x a hx => hx) (fun x hx => hx) ht
  · exact @orphanInv_congr s (s.setIteration k) [] rfl rfl (fun x hx => hx) hoi

end Maxflow

namespace Maxflow

theorem cutCap_nonneg {g : Graph} (hn : ∀ a < g.arc_num, 0 ≤ (g.arcs a).r_cap)
    (S : Nat → Bool) : 0 ≤ cutCap g S := by
  unfold cutCap arcCut termCut
  refine add_nonneg (Finset.sum_nonneg ?_) (Finset.sum_nonneg ?_)
  · intro a ha
    split
    · exact hn a (by simpa using ha)
    · exact le_refl _
  · intro x _
    split
    · exact le_max_right _ _
    · exact le_max_right _ _

/-- What a completed solve leaves and returns, from the invariants at the entry
of its main loop. -/
theorem solve_value {F : Nat} {g0 g1 r : Graph} {k : Nat}
    (h : main_loop F F g1 none = Res.ok r) (h0 : FlowInv g0 g1 none)
    (hU : Unsat g1) (hO : OrphansListed g1 []) :
    Solved (r.setIteration k) ∧
      r.flow - g0.flow = cutCap g0 (inSource (r.setIteration k)) ∧
      ∀ S, r.flow - g0.flow ≤ cutCap g0 S := by
  obtain ⟨hS, hfl, hPhi⟩ := main_loop_solved h h0 hU hO
  refine ⟨solved_setIteration k hS, hfl, ?_⟩
  intro S
  have := hPhi S
  have hnn := cutCap_nonneg hS.resid.nonneg S
  omega

/-- A cold solve of a well-formed graph with non-negative residuals leaves a
solved state; its flow increase is the capacity of the final cut and at most
the capacity of any cut. -/
theorem cold_solved {F : Nat} {g s : Graph} {cl : Option (List Nat)} {fl : Int}
    (hw : WellFormed g) (hnn : ∀ a < g.arc_num, 0 ≤ (g.arcs a).r_cap)
    (h : maxflow F g false cl = Outcome.returned s fl) :
    Solved s ∧ fl - g.flow = cutCap g (inSource s) ∧ ∀ S, fl - g.flow ≤ cutCap g S := by
  obtain ⟨_, _, g2, h2, rfl, rfl⟩ := maxflow_returned_iff.1 h
  simp only [solve, Bool.false_eq_true, if_false, Res.bind_eq_ok, Res.ok.injEq] at h2
  obtain ⟨g1, h1, h3⟩ := h2
  subst h1
  have hwc : WellFormed (g.setChanged cl) :=
    wellFormed_sameShape (writes_shape (writes_setChanged (K := [Field.changed])
      (by decide) g cl)) hw
  have hnc : ∀ a < (g.setChanged cl).arc_num, 0 ≤ ((g.setChanged cl).arcs a).r_cap :=
    fun a ha => by simpa using hnn a ha
  have h0 := maxflow_init_flow (g.setChanged cl) hwc hnc
  obtain ⟨_, hU, hO⟩ := maxflow_init_ext (g.setChanged cl) hwc hnc
  exact solve_value h3 h0 hU hO

theorem reuseReady_setChanged {g : Graph} {q : List Nat} (cl : Option (List Nat))
    (h : ReuseReady g q) : ReuseReady (g.setChanged cl) q := by
  have hwr := writes_setChanged (K := [Field.changed]) (by decide) g cl
  obtain ⟨hq⟩ := h.entry
  refine ⟨⟨wellFormed_sameShape (writes_shape hwr) h.entry.wf, h.entry.nonneg, h.entry.queue,
    h.entry.nodup, h.entry.bound, h.entry.active, h.entry.marks, h.entry.tree, h.entry.no_loop,
    h.entry.no_orphan, h.entry.frontier, h.entry.source, h.entry.sink, h.entry.unsat⟩,
    mono_of_writes hwr (by decide) (by decide) (by decide) h.mono,
    tsle_of_writes hwr (by decide) (by decide) h.ts_le,
    labels_of_writes hwr (by decide) (by decide) h.labels, h.terminals⟩

/-- A tree-reuse solve entered as required leaves a solved state; its flow
increase is the capacity of the final cut and at most the capacity of any
cut. -/
theorem reuse_solved {F : Nat} {g s : Graph} {q : List Nat} {cl : Option (List Nat)} {fl : Int}
    (hE : ReuseReady g q) (h : maxflow F g true cl = Outcome.returned s fl) :
    Solved s ∧ fl - g.flow = cutCap g (inSource s) ∧ ∀ S, fl - g.flow ≤ cutCap g S := by
  obtain ⟨_, _, g2, h2, rfl, rfl⟩ := maxflow_returned_iff.1 h
  simp only [solve, if_true, Res.bind_eq_ok] at h2
  obtain ⟨g1, h1, h3⟩ := h2
  have hE2 := reuseReady_setChanged cl hE
  have h0 := reuse_init_flow hE2 h1
  obtain ⟨_, hU, hO⟩ := reuse_init_ext hE2.entry h1
  have key := @solve_value F (g.setChanged cl) g1 g2 (g2.maxflow_iteration + 1) h3 h0 hU hO
  exact key

end Maxflow

namespace Maxflow

/-- A solved state after edits with the edited nodes marked satisfies the entry
condition of a tree-reuse solve. -/
theorem reuseReady_of_edited {s g : Graph} {q : List Nat} (hS : Solved s)
    (e : EditedFrom s g q) : ReuseReady g q := by
  have hs := e.shape
  have hw : WellFormed g := wellFormed_sameShape hs hS.inv.wf
  have hnq : ∀ x, x ∈ q → (g.nodes x).next ≠ none := isQueue_next_ne_none e.queue
  have hrc : ∀ a < g.arc_num, (g.tail a ∉ q ∨ (g.arcs a).head ∉ q) →
      (g.arcs a).r_cap = (s.arcs a).r_cap := by
    intro a ha hq
    by_contra hne
    obtain ⟨c1, c2⟩ := e.r_cap a ha hne
    rcases hq with hq | hq
    · exact hq c1
    · exact hq c2
  have htc : ∀ x < g.node_num, x ∉ q → (g.nodes x).tr_cap = (s.nodes x).tr_cap := by
    intro x hx hq
    by_contra hne
    exact hq (e.tr_cap x hx hne)
  have htree : TreeInv g none :=
    treeInv_mono hs e.is_sink (fun x a hx => by rw [← e.parent]; exact hx)
      (fun x hx => by rw [e.parent]; exact hx) hS.inv.tree
  have hno := no_orphan_of_listed hS.listed hS.orphans
  have hn := hs.node_num
  refine ⟨⟨hw, e.nonneg, e.queue, e.nodup, e.bound, e.active, e.marks, htree, ?_, ?_, ?_, ?_,
    ?_, ?_⟩, ?_, ?_, ?_, ?_⟩
  · -- no node is its own parent
    intro x hx a ha hh
    rw [hn] at hx
    rw [e.parent] at ha
    obtain ⟨_, m2⟩ := hS.mono x hx a ha
    rw [hs.head] at hh
    rw [hh] at m2
    have := m2 rfl
    omega
  · intro x hx
    rw [hn] at hx
    rw [e.parent]
    exact hno x hx
  · -- the passive frontier
    intro x hx _ hnx hpx a ha hpos
    have hxq : x ∉ q := fun hq => hnq x hq hnx
    obtain ⟨a1, a2, _, a4, _, _, a7⟩ := hw.mem_arcs_of hx ha
    have hsame : grow_rcap g (g.nodes x).is_sink a = grow_rcap s (s.nodes x).is_sink a := by
      unfold grow_rcap
      rw [e.is_sink]
      split
      · rw [hrc _ a4 (Or.inr (by rw [a7]; exact hxq)), hs.sister]
      · rw [hrc a a1 (Or.inl (by rw [a2]; exact hxq))]
    rw [hsame] at hpos
    rw [hn] at hx
    rw [arcs_of_sameShape hs] at ha
    have key := hS.inv.frontier x hx (by simp) (queueInv_empty_next hS.queue x hx)
      (by rw [← e.parent]; exact hpx) a ha hpos
    rcases key with k | k
    · left
      unfold InTree at k ⊢
      rw [hs.head, e.parent, e.is_sink, e.is_sink]
      exact k
    · simp at k
  · intro x hx hq hp hk
    rw [htc x hx hq]
    rw [hn] at hx
    exact hS.resid.source x hx (by rw [← e.parent]; exact hp) (by rw [← e.is_sink]; exact hk)
  · intro x hx hq hp hk
    rw [htc x hx hq]
    rw [hn] at hx
    exact hS.resid.sink x hx (by rw [← e.parent]; exact hp) (by rw [← e.is_sink]; exact hk)
  · intro x hx hq a ha
    obtain ⟨t1, t2, _, _⟩ := htree x hx a ha
    obtain ⟨t5, t6⟩ := hw.sister a t1
    have e1 : (g.arcs a).r_cap = (s.arcs a).r_cap :=
      hrc a t1 (Or.inl (by rw [t2]; exact hq))
    have e2 : (g.arcs (g.arcs a).sister).r_cap = (s.arcs (g.arcs a).sister).r_cap :=
      hrc _ t5 (Or.inr (by
        have : (g.arcs (g.arcs a).sister).head = x := t2
        rw [this]
        exact hq))
    rw [e1, e2, hs.sister, e.is_sink]
    rw [hn] at hx
    exact hS.unsat x hx a (by rw [← e.parent]; exact ha)
  · exact mono_sub hn hs.head e.TS e.DIST (fun x a hx => by rw [← e.parent]; exact hx) hS.mono
  · intro x hx
    rw [hn] at hx
    rw [e.TS, e.TIME]
    exact hS.ts_le x hx
  · exact labels_sub hn e.DIST (fun x hx => by rw [← e.parent]; exact hx)
      (fun x hx => by rw [← e.parent]; exact hx) hS.labels
  · intro x hx hq
    rw [htc x hx hq, e.parent, e.is_sink]
    rw [hn] at hx
    exact ⟨hS.terminals.pos x hx, hS.terminals.neg x hx⟩

/-- Every completed solve leaves a solved state. -/
theorem completed_solved {s : Graph} (h : Completed s) : Solved s := by
  induction h with
  | cold hw hnn hm => exact (cold_solved hw hnn hm).1
  | reuse _ he hm ih => exact (reuse_solved (reuseReady_of_edited ih he) hm).1

end Maxflow

namespace Maxflow

/-! ### Counting nodes -/

theorem count_le {n : Nat} {P P' : Nat → Prop} [DecidablePred P] [DecidablePred P']
    (h : ∀ x < n, P' x → P x) :
    ((Finset.range n).filter P').card ≤ ((Finset.range n).filter P).card := by
  apply Finset.card_le_card
  intro x hx
  simp only [Finset.mem_filter, Finset.mem_range] at hx ⊢
  exact ⟨hx.1, h x hx.1 hx.2⟩

theorem count_lt {n : Nat} {P P' : Nat → Prop} [DecidablePred P] [DecidablePred P']
    (h : ∀ x < n, P' x → P x) {i : Nat} (hi : i < n) (hp : P i) (hn : ¬ P' i) :
    ((Finset.range n).filter P').card < ((Finset.range n).filter P).card := by
  apply Finset.card_lt_card
  rw [Finset.ssubset_iff_of_subset]
  · exact ⟨i, by simp [hi, hp], by simp [hn]⟩
  · intro x hx
    simp only [Finset.mem_filter, Finset.mem_range] at hx ⊢
    exact ⟨hx.1, h x hx.1 hx.2⟩

theorem count_le_succ {n : Nat} {P P' : Nat → Prop} [DecidablePred P] [DecidablePred P']
    (j : Nat) (h : ∀ x < n, P' x → P x ∨ x = j) :
    ((Finset.range n).filter P').card ≤ ((Finset.range n).filter P).card + 1 := by
  have hsub : (Finset.range n).filter P' ⊆ insert j ((Finset.range n).filter P) := by
    intro x hx
    simp only [Finset.mem_filter, Finset.mem_range, Finset.mem_insert] at hx ⊢
    rcases h x hx.1 hx.2 with q | q
    · exact Or.inr ⟨hx.1, q⟩
    · exact Or.inl q
  exact le_trans (Finset.card_le_card hsub) (Finset.card_insert_le _ _)

theorem count_le_n (n : Nat) (P : Nat → Prop) [DecidablePred P] :
    ((Finset.range n).filter P).card ≤ n := by
  calc _ ≤ (Finset.range n).card := Finset.card_filter_le _ _
    _ = n := Finset.card_range n

theorem count_add_count (n : Nat) (P : Nat → Prop) [DecidablePred P] :
    ((Finset.range n).filter P).card + ((Finset.range n).filter fun x => ¬ P x).card = n := by
  rw [Finset.filter_card_add_filter_neg_card_eq_card]
  exact Finset.card_range n

end Maxflow

namespace Maxflow

/-! ### The orphan drain returns -/

theorem nodup_length_le {l : List Nat} {n : Nat} (hnd : l.Nodup) (hb : ∀ x ∈ l, x < n) :
    l.length ≤ n := by
  have h1 : l.toFinset ⊆ Finset.range n := by
    intro x hx
    simp only [List.mem_toFinset] at hx
    simpa using hb x hx
  have h2 := Finset.card_le_card h1
  rw [List.toFinset_card_of_nodup hnd, Finset.card_range] at h2
  exact h2

theorem orphanCount_le (g : Graph) : orphanCount g ≤ g.node_num :=
  count_le_n _ _

theorem nonnullCount_le (g : Graph) : nonnullCount g ≤ g.node_num :=
  count_le_n _ _

theorem drainMeasure_lt (g : Graph) : drainMeasure g < (g.node_num + 1) * (g.node_num + 1) := by
  unfold drainMeasure
  have h1 := orphanCount_le g
  have h2 := nonnullCount_le g
  have h3 : (g.node_num + 1) * nonnullCount g ≤ (g.node_num + 1) * g.node_num :=
    Nat.mul_le_mul_left _ h2
  have h4 : (g.node_num + 1) * (g.node_num + 1) = (g.node_num + 1) * g.node_num +
      (g.node_num + 1) := by ring
  omega

/-- The measure of the orphan drain does not depend on the orphan list. -/
theorem drainMeasure_setOrphans (g : Graph) (l : List Nat) :
    drainMeasure (g.setOrphans l) = drainMeasure g := by
  simp [drainMeasure, nonnullCount, orphanCount]

/-- Processing an orphan lowers the measure of the drain: the orphan is adopted
(one orphan less), or freed (one node with a parent less). -/
theorem process_orphan_measure {F : Nat} {sink : Bool} {g g1 : Graph} {i : Nat}
    (h : process_orphan F sink g i = Res.ok g1) (hw : WellFormed g) (hi : i < g.node_num)
    (hpi : (g.nodes i).parent = ArcPtr.orphan) (hn : g1.node_num = g.node_num) :
    drainMeasure g1 < drainMeasure g := by
  unfold drainMeasure nonnullCount orphanCount
  rw [hn]
  rcases process_orphan_parents h hw hi with ⟨am, _, _, _, _, _, hp⟩ | ⟨cs, _, hics, hcs, hp⟩
  · have h1 : ((Finset.range g.node_num).filter
        fun x => (g1.nodes x).parent ≠ ArcPtr.null).card ≤
        ((Finset.range g.node_num).filter fun x => (g.nodes x).parent ≠ ArcPtr.null).card := by
      apply count_le
      intro x _ hx
      rw [hp x] at hx
      by_cases q : x = i
      · subst q
        rw [hpi]
        simp
      · simpa [q] using hx
    have h2 : ((Finset.range g.node_num).filter
        fun x => (g1.nodes x).parent = ArcPtr.orphan).card <
        ((Finset.range g.node_num).filter fun x => (g.nodes x).parent = ArcPtr.orphan).card := by
      apply count_lt _ hi hpi
      · rw [hp i]
        simp
      · intro x _ hx
        rw [hp x] at hx
        by_cases q : x = i
        · subst q
          exact hpi
        · simpa [q] using hx
    have h3 := Nat.mul_le_mul_left (g.node_num + 1) h1
    omega
  · have h1 : ((Finset.range g.node_num).filter
        fun x => (g1.nodes x).parent ≠ ArcPtr.null).card <
        ((Finset.range g.node_num).filter fun x => (g.nodes x).parent ≠ ArcPtr.null).card := by
      apply count_lt _ hi (by rw [hpi]; simp)
      · rw [hp i]
        simp [hics]
      · intro x _ hx
        rw [hp x] at hx
        by_cases q : x ∈ cs
        · obtain ⟨p, hp1, _⟩ := hcs x q
          rw [hp1]
          simp
        · by_cases q2 : x = i
          · subst q2
            rw [hpi]
            simp
          · simpa [q, q2] using hx
    have h2 : ((Finset.range g.node_num).filter
        fun x => (g1.nodes x).parent = ArcPtr.orphan).card ≤ g.node_num := count_le_n _ _
    have h3 := Nat.mul_le_mul_left (g.node_num + 1) (Nat.succ_le_of_lt h1)
    have h4 : (g.node_num + 1) * (((Finset.range g.node_num).filter
        fun x => (g1.nodes x).parent ≠ ArcPtr.null).card).succ =
        (g.node_num + 1) * ((Finset.range g.node_num).filter
          fun x => (g1.nodes x).parent ≠ ArcPtr.null).card + (g.node_num + 1) := by
      rw [Nat.mul_succ]
    omega

/-- The orphan drain returns: with the invariants of the adoption stage, every
call of the orphan procedure returns, and the drain has emptied the list after
at most `drainMeasure` calls. -/
theorem drain_total {F : Nat} {c : Option Nat} {pend : List Nat} :
    ∀ (k f : Nat) (g : Graph), AdInv g c pend → AdL g none → g.node_num < F →
      g.arc_num < F → drainMeasure g ≤ k → k < f → ∃ r, drain_orphans F f g = Res.ok r := by
  intro k
  induction k with
  | zero =>
    intro f g hA hL hF hF2 hk hf
    obtain ⟨f, rfl⟩ : ∃ f', f = f' + 1 := ⟨f - 1, by omega⟩
    cases ho : g.orphans with
    | nil => exact ⟨g, by simp [drain_orphans, ho]⟩
    | cons i rest =>
      exfalso
      have hi : i < g.node_num := hA.inv.orphans.bound i (Or.inl (by rw [ho]; simp))
      have hpi : (g.nodes i).parent = ArcPtr.orphan :=
        hA.inv.orphans.parent i (Or.inl (by rw [ho]; simp))
      have : 0 < orphanCount g := by
        unfold orphanCount
        rw [Finset.card_pos]
        exact ⟨i, by simp [hi, hpi]⟩
      unfold drainMeasure at hk
      omega
  | succ k ih =>
    intro f g hA hL hF hF2 hk hf
    obtain ⟨f, rfl⟩ : ∃ f', f = f' + 1 := ⟨f - 1, by omega⟩
    cases ho : g.orphans with
    | nil => exact ⟨g, by simp [drain_orphans, ho]⟩
    | cons i rest =>
      have hnd := hA.inv.orphans.nodup
      rw [ho] at hnd
      simp only [List.cons_append, List.nodup_cons, List.mem_append, not_or] at hnd
      obtain ⟨A2, _⟩ := adInv_setOrphans rest pend hA
        (by
          intro x hx
          rw [ho]
          rcases hx with hx | hx
          · exact Or.inl (by simp [hx])
          · exact Or.inr hx) hnd.2
      have hi : i < g.node_num := hA.inv.orphans.bound i (Or.inl (by rw [ho]; simp))
      have hpi : (g.nodes i).parent = ArcPtr.orphan :=
        hA.inv.orphans.parent i (Or.inl (by rw [ho]; simp))
      have hw := A2.inv.wf
      have hL2 : AdL (g.setOrphans rest) none := adL_setOrphans _ hL
      obtain ⟨g1, h1, hL1, _⟩ := @process_orphan_spec F (g.nodes i).is_sink (g.setOrphans rest) i
        hw hL2 (chain_of_treeInv hw A2.inv.tree) (by simpa using hi) (by simpa using hpi)
        (by simpa using hF) (by simpa using hF2)
      obtain ⟨A3, hrel⟩ := process_orphan_inv h1 A2 (by simpa using hi) (by simp)
        (by simpa using hpi) (by simpa using hnd.1)
      have hs := writes_shape hrel.writes
      have hn1 : g1.node_num = g.node_num := by simpa using hs.node_num
      have ha1 : g1.arc_num = g.arc_num := by simpa using hs.arc_num
      have hm := process_orphan_measure h1 hw (by simpa using hi) (by simpa using hpi)
        (by simpa using hn1)
      rw [drainMeasure_setOrphans] at hm
      obtain ⟨r, hr⟩ := ih f g1 A3 hL1 (by omega) (by omega) (by omega) (by omega)
      refine ⟨r, ?_⟩
      have e : (if (g.nodes i).is_sink = true then process_sink_orphan F (g.setOrphans rest) i
          else process_source_orphan F (g.setOrphans rest) i) = Res.ok g1 := by
        rw [← h1]
        unfold process_sink_orphan process_source_orphan
        cases (g.nodes i).is_sink <;> simp
      simp only [drain_orphans, ho, e]
      exact hr

/-- The adoption stage returns. -/
theorem adoption_total {F : Nat} {c : Option Nat} :
    ∀ (f : Nat) (g : Graph), AdInv g c [] → AdL g none → g.arc_num < F →
      (g.node_num + 1) * (g.node_num + 1) ≤ F → g.orphans.length < f →
      ∃ r, adoption F f g = Res.ok r := by
  intro f
  induction f with
  | zero =>
    intro g _ _ _ _ hf
    omega
  | succ f ih =>
    intro g hA hL hF2 hF hf
    cases ho : g.orphans with
    | nil => exact ⟨g, by simp [adoption, ho]⟩
    | cons i rest =>
      have hnd := hA.inv.orphans.nodup
      rw [ho] at hnd
      simp only [List.append_nil] at hnd
      obtain ⟨A2, _⟩ := adInv_setOrphans [i] rest hA
        (by
          intro x hx
          rw [ho]
          left
          rcases hx with hx | hx
          · simp only [List.mem_singleton] at hx
            simp [hx]
          · simp [hx]) (by simpa using hnd)
      have hL2 : AdL (g.setOrphans [i]) none := adL_setOrphans _ hL
      have hn : g.node_num < F := by
        have : g.node_num < (g.node_num + 1) * (g.node_num + 1) := by nlinarith
        omega
      have hm := drainMeasure_lt (g.setOrphans [i])
      obtain ⟨g1, h1⟩ := @drain_total F c rest (drainMeasure (g.setOrphans [i])) F
        (g.setOrphans [i]) A2 hL2 (by simpa using hn) (by simpa using hF2) (le_refl _)
        (by
          have e : (g.setOrphans [i]).node_num = g.node_num := by simp
          rw [e] at hm
          omega)
      obtain ⟨⟨A3, hrel⟩, ho3⟩ := drain_orphans_inv h1 A2
      have hL3 := drain_labels h1 A2 hL2
      obtain ⟨A4, _⟩ := adInv_setOrphans rest [] A3
        (by
          intro x hx
          rcases hx with hx | hx
          · exact Or.inr hx
          · simp at hx)
        (by
          have := A3.inv.orphans.nodup
          rw [ho3] at this
          simpa using this)
      have hs := writes_shape hrel.writes
      have hn1 : g1.node_num = g.node_num := by simpa using hs.node_num
      have ha1 : g1.arc_num = g.arc_num := by simpa using hs.arc_num
      obtain ⟨r, hr⟩ := ih (g1.setOrphans rest) A4 (adL_setOrphans _ hL3)
        (by simpa [ha1] using hF2) (by simpa [hn1] using hF)
        (by
          rw [ho] at hf
          simpa using hf)
      refine ⟨r, ?_⟩
      simp only [adoption, ho, h1]
      exact hr

end Maxflow

namespace Maxflow

/-! ### The measure of the iterations without augmentation -/

theorem growMeasure_le (g : Graph) : growMeasure g ≤ 3 * g.node_num := by
  unfold growMeasure activeCount freeCount
  have h1 := count_le_n g.node_num fun x => (g.nodes x).next ≠ none
  have h2 := count_le_n g.node_num fun x => (g.nodes x).parent = ArcPtr.null
  omega

/-- The measure depends on the number of nodes, on the parents and on which
nodes have an active flag only. -/
theorem growMeasure_le_of {g g' : Graph} (hn : g'.node_num = g.node_num)
    (hp : ∀ x < g.node_num, (g'.nodes x).parent = ArcPtr.null → (g.nodes x).parent = ArcPtr.null)
    (ha : ∀ x < g.node_num, (g'.nodes x).next ≠ none → (g.nodes x).next ≠ none) :
    growMeasure g' ≤ growMeasure g := by
  unfold growMeasure activeCount freeCount
  rw [hn]
  have h1 : ((Finset.range g.node_num).filter fun x => (g'.nodes x).next ≠ none).card ≤
      ((Finset.range g.node_num).filter fun x => (g.nodes x).next ≠ none).card :=
    count_le ha
  have h2 : ((Finset.range g.node_num).filter
      fun x => (g'.nodes x).parent = ArcPtr.null).card ≤
      ((Finset.range g.node_num).filter fun x => (g.nodes x).parent = ArcPtr.null).card :=
    count_le hp
  omega

/-- A step that takes the active flag of node `i` and sets none lowers the
measure. -/
theorem growMeasure_lt_of {g g' : Graph} {i : Nat} (hn : g'.node_num = g.node_num)
    (hp : ∀ x < g.node_num, (g'.nodes x).parent = ArcPtr.null → (g.nodes x).parent = ArcPtr.null)
    (ha : ∀ x < g.node_num, (g'.nodes x).next ≠ none → (g.nodes x).next ≠ none)
    (hi : i < g.node_num) (h1 : (g.nodes i).next ≠ none) (h2 : (g'.nodes i).next = none) :
    growMeasure g' < growMeasure g := by
  unfold growMeasure activeCount freeCount
  rw [hn]
  have h1 : ((Finset.range g.node_num).filter fun x => (g'.nodes x).next ≠ none).card <
      ((Finset.range g.node_num).filter fun x => (g.nodes x).next ≠ none).card :=
    count_lt ha hi h1 (by simp [h2])
  have h2 : ((Finset.range g.node_num).filter
      fun x => (g'.nodes x).parent = ArcPtr.null).card ≤
      ((Finset.range g.node_num).filter fun x => (g.nodes x).parent = ArcPtr.null).card :=
    count_le hp
  omega

/-- The adoption of a free node by the growth scan lowers the measure: one
free node less, one active flag more at most. -/
theorem grow_adopt_measure {g : Graph} {i : Nat} {sink : Bool} (hG : GrowInv g i sink)
    {a : Nat} (ha : a ∈ arcs_of g i)
    (hp : (g.nodes (g.arcs a).head).parent = ArcPtr.null) :
    growMeasure (grow_adopt g sink i a) < growMeasure g := by
  obtain ⟨_, _, hj, _⟩ := hG.inv.wf.mem_arcs_of hG.bound ha
  obtain ⟨q0, q1, hQ⟩ := hG.inv.queue
  have hc : some i ≠ some (g.arcs a).head := by
    intro hh
    simp only [Option.some.injEq] at hh
    exact hG.parent (hh ▸ hp)
  obtain ⟨q1', _, hnx⟩ := grow_adopt_queue sink i a hQ hj hc
  unfold growMeasure activeCount freeCount
  rw [grow_adopt_node_num]
  have h1 : ((Finset.range g.node_num).filter
      fun x => ((grow_adopt g sink i a).nodes x).next ≠ none).card ≤
      ((Finset.range g.node_num).filter fun x => (g.nodes x).next ≠ none).card + 1 := by
    apply count_le_succ (g.arcs a).head
    intro x _ hx
    by_cases q : x = (g.arcs a).head
    · exact Or.inr q
    · left
      by_cases q2 : x ∈ q1
      · exact queueInv_mem_next hQ (Or.inr q2)
      · rw [hnx x q2 q] at hx
        exact hx
  have h2 : ((Finset.range g.node_num).filter
      fun x => ((grow_adopt g sink i a).nodes x).parent = ArcPtr.null).card <
      ((Finset.range g.node_num).filter fun x => (g.nodes x).parent = ArcPtr.null).card := by
    apply count_lt _ hj hp
    · simp
    · intro x _ hx
      rw [grow_adopt_nodes_parent] at hx
      by_cases q : x = (g.arcs a).head
      · simp [q] at hx
      · simpa [q] using hx
  omega

/-- The growth scan does not raise the measure. -/
theorem grow_measure {sink : Bool} {i f : Nat} {g : Graph} {r : Graph × Option Nat}
    (h : grow sink i f g (g.nodes i).first = Res.ok r) (hG : GrowInv g i sink) :
    growMeasure r.1 ≤ growMeasure g := by
  refine grow_with (fun g' => growMeasure g' ≤ growMeasure g) ?_ ?_ h hG (le_refl _)
  · intro g' a hG' ha hP _ hp
    exact le_trans (le_of_lt (grow_adopt_measure hG' ha hp)) hP
  · intro g' a hG' ha hP _ hT _ _
    refine le_trans (growMeasure_le_of (by simp [attach]) ?_ ?_) hP
    · intro x _ hx
      rw [attach_nodes_parent] at hx
      by_cases q : x = (g'.arcs a).head
      · simp [q] at hx
      · simpa [q] using hx
    · intro x _ hx
      simpa using hx

/-! ### The selection of the active node returns -/

theorem queue_length_le {g : Graph} {cur : Option Nat} {q0 q1 : List Nat}
    (h : QueueInv g cur q0 q1) : (q0 ++ q1).length ≤ g.node_num :=
  nodup_length_le h.nodup fun x hx => h.bound x (by simpa using hx)

/-- The queue invariant of the state handed to `next_active` by `pick_active`. -/
theorem queueInv_clear_current {g : Graph} {c : Option Nat} (hL : LoopInv g c)
    (hk : keep_current g c = none) : ∃ q0 q1, QueueInv (clear_current g c) none q0 q1 := by
  cases c with
  | none => exact hL.1.queue
  | some i =>
    have hp : (g.nodes i).parent = ArcPtr.null := by
      unfold keep_current at hk
      simp only [clear_current] at hk
      by_contra q
      simp [q] at hk
    exact ((inv_clear_current hL.1 hL.2.1 (hL.2.2 i rfl).2).2 hp).queue

theorem pick_active_total {F : Nat} {g : Graph} {c : Option Nat} (hL : LoopInv g c)
    (hF : g.node_num < F) : ∃ r, pick_active F g c = Res.ok r := by
  unfold pick_active
  cases hk : keep_current g c with
  | some i => exact ⟨_, rfl⟩
  | none =>
    obtain ⟨q0, q1, hQ⟩ := queueInv_clear_current hL hk
    have hlen := queue_length_le hQ
    have hn : (clear_current g c).node_num = g.node_num := by
      cases c <;> simp [clear_current]
    obtain ⟨g', r, hr, _⟩ := next_active_spec _ F (clear_current g c) q0 q1 hQ rfl
      (by omega)
    exact ⟨(g', r), hr⟩

/-- Clearing the flag of `current_node` raises no flag. -/
theorem clear_current_next {g : Graph} {c : Option Nat} (x : Nat)
    (h : ((clear_current g c).nodes x).next ≠ none) : (g.nodes x).next ≠ none := by
  cases c with
  | none => exact h
  | some i =>
    simp only [clear_current] at h
    by_cases q : x = i
    · subst q
      simp at h
    · simpa [q] using h

/-- The selection of the active node lowers the measure: it takes the active
flag of the node it returns. -/
theorem pick_active_measure {F : Nat} {g g1 : Graph} {c : Option Nat} {i : Nat}
    (h : pick_active F g c = Res.ok (g1, some i)) (hL : LoopInv g c) :
    growMeasure g1 < growMeasure g := by
  have hn : g1.node_num = g.node_num := (writes_shape (pick_active_writes h)).node_num
  rcases pick_active_cases h with ⟨j, hc, _, hr⟩ | ⟨hc, hr⟩
  · simp only [Prod.mk.injEq, Option.some.injEq] at hr
    obtain ⟨rfl, rfl⟩ := hr
    refine growMeasure_lt_of hn ?_ ?_ (hL.2.2 i hc).2 (hL.2.2 i hc).1 (by simp)
    · intro x _ hx
      simpa using hx
    · intro x _ hx
      by_cases q : x = i
      · subst q
        simp at hx
      · simpa [q] using hx
  · have hk : keep_current g c = none := by
      rcases hc with rfl | ⟨j, rfl, hp⟩
      · rfl
      · simp [keep_current, clear_current, hp]
    obtain ⟨q0, q1, hQ⟩ := queueInv_clear_current hL hk
    obtain ⟨g', r, hr', hpar, hnone, _, hsome⟩ := next_active_spec _ (q0 ++ q1).length.succ
      (clear_current g c) q0 q1 hQ rfl (Nat.lt_succ_self _)
    have e1 := next_active_mono (le_max_left F (q0 ++ q1).length.succ) hr
    have e2 := next_active_mono (le_max_right F (q0 ++ q1).length.succ) hr'
    rw [e1] at e2
    simp only [Res.ok.injEq, Prod.mk.injEq] at e2
    obtain ⟨rfl, rfl⟩ := e2
    obtain ⟨pre, post, hq, _, _, hcl, _⟩ := hsome i rfl
    have hmem : i ∈ q0 ∨ i ∈ q1 := by
      have : i ∈ q0 ++ q1 := by
        rw [hq]
        simp
      simpa using this
    have hi : i < g.node_num := by
      have := hQ.bound i hmem
      cases c <;> simpa [clear_current] using this
    have hpc : ∀ x, ((clear_current g c).nodes x).parent = (g.nodes x).parent := by
      intro x
      cases c <;> simp [clear_current]
    refine growMeasure_lt_of hn ?_ ?_ hi (clear_current_next i (queueInv_mem_next hQ hmem))
      (hcl i (by simp))
    · intro x _ hx
      rw [hpar x, hpc x] at hx
      exact hx
    · intro x _ hx
      apply clear_current_next x
      intro q
      exact hx (hnone x q)

end Maxflow

namespace Maxflow

/-! ### The main loop returns -/

/-- Within the main loop the flow still to be found is the capacity, in the
residuals, of the cut around the source terminal alone. -/
theorem flowRoom_spec {g0 g : Graph} (hR : Resid g)
    (hP : ∀ S, g.flow + cutCap g S = g0.flow + cutCap g0 S) :
    ((flowRoom g0 g : Nat) : Int) = g0.flow + cutCap g0 (fun _ => false) - g.flow := by
  unfold flowRoom
  have h1 := cutCap_nonneg hR.nonneg (fun _ => false)
  have h2 := hP (fun _ => false)
  rw [Int.toNat_of_nonneg]
  omega

theorem growMeasure_setTIME (g : Graph) (t : Int) :
    growMeasure (g.setTIME t) = growMeasure g := by
  simp [growMeasure, activeCount, freeCount]

/-- An iteration of the main loop whose growth scan finds no boundary arc keeps
the invariants and lowers the measure of the loop. -/
theorem iteration_grown {F : Nat} {g0 g g1 g3 : Graph} {c : Option Nat} {i : Nat}
    (hI : FullInv g0 g c) (hp : pick_active F g c = Res.ok (g1, some i))
    (hg : grow (g1.nodes i).is_sink i F g1 (g1.nodes i).first = Res.ok (g3, none)) :
    FullInv g0 (g3.setTIME (g3.TIME + 1)) none ∧
      loopMeasure g0 (g3.setTIME (g3.TIME + 1)) < loopMeasure g0 g ∧
      (g3.setTIME (g3.TIME + 1)).node_num = g.node_num ∧
      (g3.setTIME (g3.TIME + 1)).arc_num = g.arc_num := by
  have hT : LoopTop F g c (g3.setTIME (g3.TIME + 1)) none := LoopTop.grown LoopTop.entry hp hg
  have hFl := loopTop_flow hT hI.1
  have hE := loopTop_ext hT ⟨hI.1.1, hI.2⟩
  have hB3 := base_pick hI.1.1 hp
  have m1 := pick_active_measure hp hI.1.1.1
  have m2 : growMeasure g3 ≤ growMeasure g1 := grow_measure hg hB3.1
  have s1 := writes_shape (pick_active_writes hp)
  have s2 := writes_shape (grow_writes hg)
  have f1 : g1.flow = g.flow := writes_keep_flow (pick_active_writes hp) (by decide)
  have f2 : g3.flow = g1.flow := writes_keep_flow (grow_writes hg) (by decide)
  have hn : (g3.setTIME (g3.TIME + 1)).node_num = g.node_num := by
    have a := s1.node_num
    have b := s2.node_num
    simp only at a b
    simp [a, b]
  have ha : (g3.setTIME (g3.TIME + 1)).arc_num = g.arc_num := by
    have a := s1.arc_num
    have b := s2.arc_num
    simp only at a b
    simp [a, b]
  refine ⟨⟨hFl, hE.2⟩, ?_, hn, ha⟩
  have hfr : flowRoom g0 (g3.setTIME (g3.TIME + 1)) = flowRoom g0 g := by
    unfold flowRoom
    have : (g3.setTIME (g3.TIME + 1)).flow = g.flow := by simp [f2, f1]
    rw [this]
  unfold loopMeasure
  rw [hn, hfr, growMeasure_setTIME]
  omega

/-- An iteration of the main loop with an augmentation keeps the invariants and
lowers the measure of the loop: the flow has grown. -/
theorem iteration_augmented {F : Nat} {g0 g g1 g3 g5 g6 : Graph} {c : Option Nat} {i m : Nat}
    (hI : FullInv g0 g c) (hp : pick_active F g c = Res.ok (g1, some i))
    (hg : grow (g1.nodes i).is_sink i F g1 (g1.nodes i).first = Res.ok (g3, some m))
    (h5 : augment F ((g3.setTIME (g3.TIME + 1)).setNext i (some i)) m = Res.ok g5)
    (h6 : adoption F F g5 = Res.ok g6) :
    FullInv g0 g6 (some i) ∧ loopMeasure g0 g6 < loopMeasure g0 g ∧
      g6.node_num = g.node_num ∧ g6.arc_num = g.arc_num ∧ g.flow < g6.flow := by
  have hT : LoopTop F g c g6 (some i) := LoopTop.augmented LoopTop.entry hp hg h5 h6
  have hFl := loopTop_flow hT hI.1
  have hE := loopTop_ext hT ⟨hI.1.1, hI.2⟩
  have hB3 := base_pick hI.1.1 hp
  have hwr := pick_active_writes hp
  have hU3 := unsat_of_writes hwr (by decide) (by decide) (by decide) hI.2.1
  have hO3 := orphansListed_of_writes hwr (by decide) (by decide) hI.2.2
  obtain ⟨q1, q2⟩ := grow_ext hg hB3.1 hB3.2 hU3 hO3
  have hwA : Writes [Field.TIME, Field.next] g3
      ((g3.setTIME (g3.TIME + 1)).setNext i (some i)) :=
    writes_trans (writes_setTIME (by decide) g3 _) (writes_setNext (by decide) _ _ _)
  obtain ⟨hA, hBd, hm, _, _⟩ := base_found hB3 hg
  obtain ⟨_, _, hlt⟩ := augment_ext h5 hA hBd hm
    (unsat_of_writes hwA (by decide) (by decide) (by decide) q1)
    (orphansListed_of_writes hwA (by decide) (by decide) q2)
  have s1 := writes_shape hwr
  have s2 := writes_shape (grow_writes hg)
  have s3 := writes_shape hwA
  have s4 := writes_shape (augment_writes h5)
  have s5 := writes_shape (adoption_writes h6)
  have f1 : g1.flow = g.flow := writes_keep_flow hwr (by decide)
  have f2 : g3.flow = g1.flow := writes_keep_flow (grow_writes hg) (by decide)
  have f3 : ((g3.setTIME (g3.TIME + 1)).setNext i (some i)).flow = g3.flow :=
    writes_keep_flow hwA (by decide)
  have f6 : g6.flow = g5.flow := writes_keep_flow (adoption_writes h6) (by decide)
  have hn : g6.node_num = g.node_num := by
    rw [s5.node_num, s4.node_num, s3.node_num]
    have a := s1.node_num
    have b := s2.node_num
    simp only at a b
    rw [b, a]
  have ha : g6.arc_num = g.arc_num := by
    rw [s5.arc_num, s4.arc_num, s3.arc_num]
    have a := s1.arc_num
    have b := s2.arc_num
    simp only at a b
    rw [b, a]
  have hfl : g.flow < g6.flow := by
    rw [f6]
    rw [f3, f2, f1] at hlt
    exact hlt
  refine ⟨⟨hFl, hE.2⟩, ?_, hn, ha, hfl⟩
  have r1 := flowRoom_spec hI.1.1.2 hI.1.2.2.2
  have r6 := flowRoom_spec hFl.1.2 hFl.2.2.2
  have hfr : flowRoom g0 g6 + 1 ≤ flowRoom g0 g := by omega
  have hgm := growMeasure_le g6
  unfold loopMeasure
  rw [hn] at hgm ⊢
  have h3 := Nat.mul_le_mul_right (3 * g.node_num + 1) hfr
  rw [Nat.succ_mul] at h3
  omega

/-- After a growth scan that found a boundary arc, `augment` and the adoption
stage return. -/
theorem iteration_augment_total {F : Nat} {g0 g g1 g3 : Graph} {c : Option Nat} {i m : Nat}
    (hI : FullInv g0 g c) (hp : pick_active F g c = Res.ok (g1, some i))
    (hg : grow (g1.nodes i).is_sink i F g1 (g1.nodes i).first = Res.ok (g3, some m))
    (hF2 : g.arc_num < F) (hF : (g.node_num + 1) * (g.node_num + 1) ≤ F) :
    ∃ g5 g6, augment F ((g3.setTIME (g3.TIME + 1)).setNext i (some i)) m = Res.ok g5 ∧
      adoption F F g5 = Res.ok g6 := by
  obtain ⟨⟨hB, ⟨hM, hTS⟩, _, _⟩, hU, hO⟩ := hI
  have hwr := pick_active_writes hp
  have hB3 := base_pick hB hp
  have hL3 : Mono g1 ∧ TSle g1 :=
    ⟨mono_of_writes hwr (by decide) (by decide) (by decide) hM,
      tsle_of_writes hwr (by decide) (by decide) hTS⟩
  have hU3 := unsat_of_writes hwr (by decide) (by decide) (by decide) hU
  have hO3 := orphansListed_of_writes hwr (by decide) (by decide) hO
  have hL4 := grow_labels hg hB3.1 hL3
  obtain ⟨_, hO4⟩ := grow_ext hg hB3.1 hB3.2 hU3 hO3
  obtain ⟨hG4, _, _⟩ := grow_growInv hg hB3.1
  have hno4 := no_orphan_of_listed hO4 hG4.orphans
  obtain ⟨hA, hBd, hm, hG3, _⟩ := base_found hB3 hg
  obtain ⟨a, b⟩ := labels_found i hL4
  have hw := hA.inv.wf
  have hc := chain_of_treeInv hw hA.inv.tree
  have hnoA : ∀ x < ((g3.setTIME (g3.TIME + 1)).setNext i (some i)).node_num,
      (((g3.setTIME (g3.TIME + 1)).setNext i (some i)).nodes x).parent ≠ ArcPtr.orphan := by
    intro x hx
    simpa using hno4 x (by simpa using hx)
  obtain ⟨ls, rs, p1, p2⟩ := walk_exists a hc hnoA _ (hw.tail_lt hBd.bound) hBd.tail.1
  obtain ⟨lt, rt, p3, p4⟩ := walk_exists a hc hnoA _ (hw.head m hBd.bound) hBd.head.1
  have s1 := writes_shape hwr
  have s2 := writes_shape (grow_writes hg)
  have hn3 : g3.node_num = g.node_num := by
    have a := s1.node_num
    have b := s2.node_num
    simp only at a b
    rw [b, a]
  have ha3 : g3.arc_num = g.arc_num := by
    have a := s1.arc_num
    have b := s2.arc_num
    simp only at a b
    rw [b, a]
  have e : ((g3.setTIME (g3.TIME + 1)).setNext i (some i)).node_num = g.node_num := by
    simpa using hn3
  have e2 : ((g3.setTIME (g3.TIME + 1)).setNext i (some i)).arc_num = g.arc_num := by
    simpa using ha3
  rw [e] at p2 p4
  have hnF : g.node_num < F := by
    have : g.node_num < (g.node_num + 1) * (g.node_num + 1) := by nlinarith
    omega
  obtain ⟨g5, _, _, h5, _⟩ := @augment_spec F _ m ls lt rs rt hw hA.inv.tree hBd p1 p3
    (lt_trans p2 hnF) (lt_trans p4 hnF)
  obtain ⟨hrel, hA5, _, _, _⟩ := augment_inv h5 hA hBd hm
  have s4 := writes_shape hrel.writes
  have hcur : ∀ j, some i = some j → (g5.nodes j).next ≠ none ∧ j < g5.node_num := by
    intro j hj
    simp only [Option.some.injEq] at hj
    subst hj
    rw [writes_keep_next hrel.writes (by decide), s4.node_num]
    exact ⟨by simp, by simpa using hG3.bound⟩
  have hAd : AdInv g5 (some i) [] := ⟨hA5.inv, hA5.resid, hcur⟩
  obtain ⟨a5, b5⟩ := augment_labels hrel a b
  have hAdL := adL_of_mono a5 b5
  have hn5 : g5.node_num = g.node_num := by rw [s4.node_num, e]
  have ha5 : g5.arc_num = g.arc_num := by rw [s4.arc_num, e2]
  have hlen : g5.orphans.length ≤ g5.node_num :=
    nodup_length_le (by simpa using hAd.inv.orphans.nodup)
      (fun x hx => hAd.inv.orphans.bound x (Or.inl hx))
  obtain ⟨g6, h6⟩ := @adoption_total F (some i) F g5 hAd hAdL (by omega)
    (by rw [hn5]; exact hF) (by omega)
  exact ⟨g5, g6, h5, h6⟩

/-- The main loop returns: with the invariants of the loop, every stage of an
iteration returns, and the loop has left after at most `loopMeasure`
iterations. -/
theorem main_loop_total {F : Nat} {g0 : Graph} :
    ∀ (k f : Nat) (g : Graph) (c : Option Nat), FullInv g0 g c → g.arc_num < F →
      (g.node_num + 1) * (g.node_num + 1) ≤ F → loopMeasure g0 g < k → k ≤ f →
      ∃ r, main_loop F f g c = Res.ok r := by
  intro k
  induction k with
  | zero =>
    intro f g c _ _ _ hk
    omega
  | succ k ih =>
    intro f g c hI hF2 hF hk hf
    obtain ⟨f, rfl⟩ : ∃ f', f = f' + 1 := ⟨f - 1, by omega⟩
    have hnF : g.node_num < F := by
      have : g.node_num < (g.node_num + 1) * (g.node_num + 1) := by nlinarith
      omega
    obtain ⟨⟨g1, o⟩, hp⟩ := pick_active_total hI.1.1.1 hnF
    cases o with
    | none => exact ⟨g1, by simp [main_loop, hp, Res.bind]⟩
    | some i =>
      have hB3 := base_pick hI.1.1 hp
      have s1 := writes_shape (pick_active_writes hp)
      have ha1 : g1.arc_num = g.arc_num := s1.arc_num
      obtain ⟨⟨g3, o2⟩, hg⟩ := @grow_total (g1.nodes i).is_sink i F g1 (g1.nodes i).first
        (arcs_of g1 i) (hB3.1.inv.wf.lists i hB3.1.bound)
        (lt_of_le_of_lt (arcs_of_length_le g1 i) (by omega))
      cases o2 with
      | none =>
        obtain ⟨hI2, hm, hn, ha⟩ := iteration_grown hI hp hg
        obtain ⟨r, hr⟩ := ih f (g3.setTIME (g3.TIME + 1)) none hI2 (by omega)
          (by rw [hn]; exact hF) (by omega) (by omega)
        exact ⟨r, by simp [main_loop, hp, hg, Res.bind, hr]⟩
      | some m =>
        obtain ⟨g5, g6, h5, h6⟩ := iteration_augment_total hI hp hg hF2 hF
        obtain ⟨hI2, hm, hn, ha, _⟩ := iteration_augmented hI hp hg h5 h6
        obtain ⟨r, hr⟩ := ih f g6 (some i) hI2 (by omega) (by rw [hn]; exact hF) (by omega)
          (by omega)
        exact ⟨r, by simp [main_loop, hp, hg, h5, h6, Res.bind, hr]⟩

/-- The arena sizes are the same at the top of every iteration. -/
theorem loopTop_shape {F : Nat} {g0 g : Graph} {c0 c : Option Nat}
    (h : LoopTop F g0 c0 g c) : g.node_num = g0.node_num ∧ g.arc_num = g0.arc_num := by
  refine loopTop_rule (fun g _ => g.node_num = g0.node_num ∧ g.arc_num = g0.arc_num)
    (fun g _ => g.node_num = g0.node_num ∧ g.arc_num = g0.arc_num) ?_ ?_ ?_ h ⟨rfl, rfl⟩
  · rintro g c g1 i ⟨a, b⟩ h1
    have s := writes_shape (pick_active_writes h1)
    exact ⟨s.node_num.trans a, s.arc_num.trans b⟩
  · rintro g1 i g3 ⟨a, b⟩ h1
    have s := writes_shape (grow_writes h1)
    have a2 := s.node_num
    have b2 := s.arc_num
    simp only at a2 b2
    exact ⟨by simpa [a2] using a, by simpa [b2] using b⟩
  · rintro g1 i g3 m g5 g6 ⟨a, b⟩ h1 h2 h3
    have s := writes_shape (grow_writes h1)
    have s4 := writes_shape (augment_writes h2)
    have s5 := writes_shape (adoption_writes h3)
    have a2 := s.node_num
    have b2 := s.arc_num
    have a4 := s4.node_num
    have b4 := s4.arc_num
    simp only at a2 b2
    have a3 : ((g3.setTIME (g3.TIME + 1)).setNext i (some i)).node_num = g3.node_num := by simp
    have b3 : ((g3.setTIME (g3.TIME + 1)).setNext i (some i)).arc_num = g3.arc_num := by simp
    exact ⟨by rw [s5.node_num, a4, a3, a2, a], by rw [s5.arc_num, b4, b3, b2, b]⟩

/-- The cold initialisation establishes all the invariants of the main loop, and
the measure of the loop is below `solveFuel`. -/
theorem maxflow_init_full (g : Graph) (hw : WellFormed g)
    (hnn : ∀ a < g.arc_num, 0 ≤ (g.arcs a).r_cap) :
    FullInv g (maxflow_init g) none ∧ loopMeasure g (maxflow_init g) < solveFuel g ∧
      (maxflow_init g).node_num = g.node_num ∧ (maxflow_init g).arc_num = g.arc_num := by
  have h0 := maxflow_init_flow g hw hnn
  obtain ⟨_, hU, hO⟩ := maxflow_init_ext g hw hnn
  have s := writes_shape (maxflow_init_writes g)
  have hfl : (maxflow_init g).flow = g.flow := writes_keep_flow (maxflow_init_writes g) (by decide)
  refine ⟨⟨h0, hU, hO⟩, ?_, s.node_num, s.arc_num⟩
  have hgm := growMeasure_le (maxflow_init g)
  unfold loopMeasure solveFuel flowRoom
  rw [s.node_num] at hgm ⊢
  rw [hfl]
  have e : g.flow + cutCap g (fun _ => false) - g.flow = cutCap g fun _ => false := by ring
  rw [e]
  have h3 : ((cutCap g fun _ => false).toNat + 1) * (3 * g.node_num + 1) =
      (cutCap g fun _ => false).toNat * (3 * g.node_num + 1) + (3 * g.node_num + 1) :=
    Nat.succ_mul _ _
  omega

/-- The fuel of a solve does not depend on the changed list. -/
theorem solveFuel_setChanged (g : Graph) (cl : Option (List Nat)) :
    solveFuel (g.setChanged cl) = solveFuel g := by
  simp [solveFuel, cutCap, arcCut, termCut, Graph.tail]

end Maxflow

namespace Maxflow

/-! ### The tree-reuse initialisation returns -/

/-- The neighbour loop of `maxflow_reuse_trees_init` returns when its budget
covers the arcs still to scan. -/
theorem reuse_neighbors_total (sink : Bool) {f : Nat} {g : Graph} {p : Option Nat}
    {post : List Nat} (hl : IsArcList g.arcs p post) (hf : post.length < f) :
    ∃ r, reuse_neighbors sink f g p = Res.ok r := by
  induction post generalizing f g p with
  | nil =>
    have : p = none := hl
    subst this
    cases f <;> exact ⟨_, rfl⟩
  | cons a post ih =>
    obtain ⟨hp, hl'⟩ := hl
    subst hp
    obtain ⟨n, rfl⟩ : ∃ n, f = n + 1 := ⟨f - 1, by omega⟩
    simp only [List.length_cons] at hf
    simp only [reuse_neighbors]
    refine ih (isArcList_congr ?_ hl') (by omega)
    intro x
    exact (writes_shape (writes_reuse_step g sink a)).next x

/-- The queue loop of `maxflow_reuse_trees_init` returns: it runs once for each
node of the old queue, and each neighbour loop returns. -/
theorem reuse_queue_total {F : Nat} : ∀ (f : Nat) (g : Graph) (p : Option Nat) (R : List Nat),
    ReuseInv g p R → g.arc_num < F → R.length < f → ∃ r, reuse_queue F f g p = Res.ok r := by
  intro f
  induction f with
  | zero =>
    intro g p R _ _ hf
    omega
  | succ f ih =>
    intro g p R hR hF hf
    cases p with
    | none => exact ⟨g, rfl⟩
    | some i =>
      obtain ⟨rest, hRr, hN⟩ := reuse_enter_inv hR
      subst hRr
      simp only [List.length_cons] at hf
      have hse : SameShape g (reuse_enter g i) := writes_shape (writes_reuse_enter g i)
      have hae : (reuse_enter g i).arc_num = g.arc_num := hse.arc_num
      simp only [reuse_queue]
      by_cases ht : ((reuse_enter g i).nodes i).tr_cap = 0
      · rw [if_pos ht]
        refine ih _ _ rest (reuse_zero hN) ?_ (by omega)
        split
        · have := (writes_shape (writes_set_orphan_rear (K := [Field.parent, Field.orphans])
            (by decide) (by decide) (reuse_enter g i) i)).arc_num
          omega
        · omega
      · rw [if_neg ht]
        by_cases hmv : ((reuse_enter g i).nodes i).parent = ArcPtr.null ∨
            ((reuse_enter g i).nodes i).is_sink ≠
              decide (((reuse_enter g i).nodes i).tr_cap < 0)
        · rw [if_pos hmv]
          have hN2 := @reuse_move_start _ _ _ _ _
            (decide (((reuse_enter g i).nodes i).tr_cap < 0)) hN
            (by
              rcases hmv with q | q
              · exact Or.inl q
              · exact Or.inr (by simpa using q))
          have hfirst : ((reuse_enter g i).nodes i).first =
              (((reuse_enter g i).setSink i
                (decide (((reuse_enter g i).nodes i).tr_cap < 0))).nodes i).first := by simp
          have hs : SameShape (reuse_enter g i) ((reuse_enter g i).setSink i
              (decide (((reuse_enter g i).nodes i).tr_cap < 0))) :=
            writes_shape (writes_setSink (K := [Field.is_sink]) (by decide) _ i _)
          rw [← arcs_of_sameShape hs] at hN2
          have hlist := hN2.core.wf.lists i hN2.bound
          have hlen := arcs_of_length_le ((reuse_enter g i).setSink i
            (decide (((reuse_enter g i).nodes i).tr_cap < 0))) i
          have has : ((reuse_enter g i).setSink i
              (decide (((reuse_enter g i).nodes i).tr_cap < 0))).arc_num = g.arc_num := by
            rw [hs.arc_num, hae]
          obtain ⟨g3, hnb⟩ := reuse_neighbors_total
            (decide (((reuse_enter g i).nodes i).tr_cap < 0)) hlist
            (lt_of_le_of_lt hlen (by rw [has]; exact hF))
          have hN3 := reuse_neighbors_inv hnb hN2
          have htr : ((add_to_changed_list g3 i).nodes i).tr_cap =
              ((reuse_enter g i).nodes i).tr_cap := by
            have := writes_keep_tr_cap (reuse_neighbors_writes hnb) (by decide) i
            simp only [add_to_changed_list_nodes_tr_cap, this, setSink_nodes_tr_cap]
          have hI2 : ReuseInv (make_root (add_to_changed_list g3 i) i)
              (if (g.nodes i).next = some i then none else (g.nodes i).next) rest :=
            reuse_root (reuseNb_changed i hN3) (by rw [htr]; exact ht) (by rw [htr])
          have ha3 : (make_root (add_to_changed_list g3 i) i).arc_num = g.arc_num := by
            have s3 := (writes_shape (reuse_neighbors_writes hnb)).arc_num
            have s4 := (writes_shape (writes_add_to_changed_list
              (K := [Field.changed, Field.in_changed]) (by decide) (by decide) g3 i)).arc_num
            have s5 := (writes_shape (writes_make_root (K := [Field.parent, Field.TS, Field.DIST])
              (by decide) (by decide) (by decide) (add_to_changed_list g3 i) i)).arc_num
            rw [s5, s4, s3, has]
          obtain ⟨r, hr⟩ := ih _ _ rest hI2 (by rw [ha3]; exact hF) (by omega)
          refine ⟨r, ?_⟩
          rw [← hfirst] at hnb
          simp only [hnb, Res.bind]
          exact hr
        · rw [if_neg hmv]
          have hmv2 := not_or.1 hmv
          have hk : ((reuse_enter g i).nodes i).is_sink =
              decide (((reuse_enter g i).nodes i).tr_cap < 0) := by
            by_contra q
            exact hmv2.2 q
          have hI2 : ReuseInv (make_root (reuse_enter g i) i)
              (if (g.nodes i).next = some i then none else (g.nodes i).next) rest :=
            reuse_root hN ht (by simpa using hk)
          have ha3 : (make_root (reuse_enter g i) i).arc_num = g.arc_num := by
            have s5 := (writes_shape (writes_make_root (K := [Field.parent, Field.TS, Field.DIST])
              (by decide) (by decide) (by decide) (reuse_enter g i) i)).arc_num
            rw [s5, hae]
          exact ih _ _ rest hI2 (by rw [ha3]; exact hF) (by omega)

/-- The label invariants of the queue loop hold at its entry. -/
theorem reuseL_entry {g : Graph} (hL : Mono g ∧ TSle g) :
    ReuseL
      ((((g.setQueue0 none none).setQueue1 none none).setOrphans []).setTIME (g.TIME + 1)) := by
  refine ⟨?_, ?_, ?_⟩
  · intro x hx hs
    have := hL.2 x (by simpa using hx)
    have e : (g.nodes x).TS = g.TIME + 1 := by simpa using hs
    omega
  · intro x hx _ a ha
    have := hL.1 x (by simpa using hx) a (by simpa using ha)
    simpa using this
  · intro x hx
    have := hL.2 x (by simpa using hx)
    have e1 : (((((g.setQueue0 none none).setQueue1 none none).setOrphans []).setTIME
        (g.TIME + 1)).nodes x).TS = (g.nodes x).TS := by simp
    have e2 : ((((g.setQueue0 none none).setQueue1 none none).setOrphans []).setTIME
        (g.TIME + 1)).TIME = g.TIME + 1 := by simp
    rw [e1, e2]
    omega

/-- The tree-reuse initialisation returns from the entry state of a tree-reuse
solve. -/
theorem reuse_init_total {F : Nat} {g : Graph} {q : List Nat} (hE : ReuseEntry g q)
    (hL : Mono g ∧ TSle g) (hF2 : g.arc_num < F)
    (hF : (g.node_num + 1) * (g.node_num + 1) ≤ F) :
    ∃ g1, maxflow_reuse_trees_init F g = Res.ok g1 := by
  have hI0 := reuseEntry_inv hE
  have hlen : q.length ≤ g.node_num := nodup_length_le hE.nodup hE.bound
  have hnF : g.node_num < F := by
    have : g.node_num < (g.node_num + 1) * (g.node_num + 1) := by nlinarith
    omega
  obtain ⟨g2, h1⟩ := @reuse_queue_total F F _ g.queue_first1 q hI0 (by simpa using hF2)
    (by omega)
  have hL2 := reuse_queue_labels h1 hI0 (reuseL_entry hL)
  obtain ⟨hA, _, _⟩ := reuseInv_exit (reuse_queue_inv h1 hI0)
  have hs := writes_shape (reuse_queue_writes h1)
  have hn2 : g2.node_num = g.node_num := by simpa using hs.node_num
  have ha2 : g2.arc_num = g.arc_num := by simpa using hs.arc_num
  have hm := drainMeasure_lt g2
  rw [hn2] at hm
  obtain ⟨g1, h2⟩ := @drain_total F none [] (drainMeasure g2) F g2 hA (adL_of_reuseL hL2)
    (by omega) (by omega) (le_refl _) (by omega)
  refine ⟨g1, ?_⟩
  simp only [maxflow_reuse_trees_init, h1, Res.bind]
  exact h2

/-! ### The solve returns -/

/-- At the entry of the main loop the measure of the loop is below
`solveFuel`. -/
theorem loopMeasure_entry {g g1 : Graph} (hn : g1.node_num = g.node_num)
    (hfl : g1.flow = g.flow) : loopMeasure g g1 < solveFuel g := by
  have hgm := growMeasure_le g1
  unfold loopMeasure solveFuel flowRoom
  rw [hn] at hgm ⊢
  rw [hfl]
  have e : g.flow + cutCap g (fun _ => false) - g.flow = cutCap g fun _ => false := by ring
  rw [e]
  have h3 : ((cutCap g fun _ => false).toNat + 1) * (3 * g.node_num + 1) =
      (cutCap g fun _ => false).toNat * (3 * g.node_num + 1) + (3 * g.node_num + 1) :=
    Nat.succ_mul _ _
  omega

/-- The cold solve of a well-formed graph with non-negative residuals returns
when the fuel covers `solveFuel`. -/
theorem cold_solve_total {F : Nat} {g : Graph} (hw : WellFormed g)
    (hnn : ∀ a < g.arc_num, 0 ≤ (g.arcs a).r_cap) (hF : solveFuel g ≤ F) :
    ∃ r, solve F g false = Res.ok r := by
  obtain ⟨hI, hm, hn, ha⟩ := maxflow_init_full g hw hnn
  have hFn : (g.node_num + 1) * (g.node_num + 1) ≤ F := by
    unfold solveFuel at hF
    omega
  have hFa : g.arc_num < F := by
    unfold solveFuel at hF
    omega
  obtain ⟨r, hr⟩ := @main_loop_total F g (loopMeasure g (maxflow_init g) + 1) F
    (maxflow_init g) none hI (by omega) (by rw [hn]; exact hFn) (Nat.lt_succ_self _) (by omega)
  refine ⟨r, ?_⟩
  simp only [solve, Bool.false_eq_true, if_false, Res.bind_eq_ok, Res.ok.injEq]
  exact ⟨_, rfl, hr⟩

/-- The tree-reuse solve returns from the entry state of a tree-reuse solve when
the fuel covers `solveFuel`. -/
theorem reuse_solve_total {F : Nat} {g : Graph} {q : List Nat} (hE : ReuseReady g q)
    (hF : solveFuel g ≤ F) : ∃ r, solve F g true = Res.ok r := by
  have hFn : (g.node_num + 1) * (g.node_num + 1) ≤ F := by
    unfold solveFuel at hF
    omega
  have hFa : g.arc_num < F := by
    unfold solveFuel at hF
    omega
  obtain ⟨g1, h1⟩ := reuse_init_total hE.entry ⟨hE.mono, hE.ts_le⟩ hFa hFn
  have hFl := reuse_init_flow hE h1
  obtain ⟨_, hU, hO⟩ := reuse_init_ext hE.entry h1
  have hwr := maxflow_reuse_trees_init_writes h1
  have hs := writes_shape hwr
  have hn : g1.node_num = g.node_num := hs.node_num
  have ha : g1.arc_num = g.arc_num := hs.arc_num
  have hfl : g1.flow = g.flow := writes_keep_flow hwr (by decide)
  have hm := loopMeasure_entry hn hfl
  obtain ⟨r, hr⟩ := @main_loop_total F g (loopMeasure g g1 + 1) F g1 none ⟨hFl, hU, hO⟩
    (by omega) (by rw [hn]; exact hFn) (Nat.lt_succ_self _) (by omega)
  refine ⟨r, ?_⟩
  simp only [solve, if_true, h1, Res.bind]
  exact hr

end Maxflow

namespace Maxflow

/-- A completed solve has counted its iteration. -/
theorem completed_iteration {s : Graph} (h : Completed s) : s.maxflow_iteration ≠ 0 := by
  cases h with
  | cold _ _ hm =>
    obtain ⟨_, _, g2, _, rfl, _⟩ := maxflow_returned_iff.1 hm
    simp
  | reuse _ _ hm =>
    obtain ⟨_, _, g2, _, rfl, _⟩ := maxflow_returned_iff.1 hm
    simp

/-- C6: reuse equivalence. Let `s` be the state left by a completed solve and
`g` the state after edits of residuals and terminal residuals that keep the
residuals non-negative, with every node whose terminal residual or incident arc
was edited marked (in queue 1 with `is_marked` set). Then
`maxflow(reuse_trees=true)` on `g` and the solve of `g` from scratch
(`maxflow(reuse_trees=false)`, which runs `maxflow_init` instead of
`maxflow_reuse_trees_init`) both return, as soon as the fuel of the loops covers
`solveFuel g`, and they return the same flow; and whatever the fuel, when both
return they return the same flow. -/
theorem reuse_equals_scratch (s g : Graph) (q : List Nat) (cl : Option (List Nat))
    (hs : Completed s) (he : EditedFrom s g q) :
    (∃ fl, ∀ F, solveFuel g ≤ F →
      (∃ g1, maxflow F g true cl = Outcome.returned g1 fl) ∧
      ∃ g2, maxflow F g false none = Outcome.returned g2 fl) ∧
    ∀ F F' g1 g2 fl1 fl2, maxflow F g true cl = Outcome.returned g1 fl1 →
      maxflow F' g false none = Outcome.returned g2 fl2 → fl1 = fl2 := by
  have hS := completed_solved hs
  have hR := reuseReady_of_edited hS he
  have hw := wellFormed_sameShape he.shape hS.inv.wf
  have heq : ∀ F F' g1 g2 fl1 fl2, maxflow F g true cl = Outcome.returned g1 fl1 →
      maxflow F' g false none = Outcome.returned g2 fl2 → fl1 = fl2 := by
    intro F F' g1 g2 fl1 fl2 h1 h2
    obtain ⟨_, a1, a2⟩ := reuse_solved hR h1
    obtain ⟨_, b1, b2⟩ := cold_solved hw he.nonneg h2
    have c1 := a2 (inSource g2)
    have c2 := b2 (inSource g1)
    omega
  have hit : g.maxflow_iteration ≠ 0 := by
    rw [he.iteration]
    exact completed_iteration hs
  have hwc : WellFormed (g.setChanged none) :=
    wellFormed_sameShape (writes_shape (writes_setChanged (K := [Field.changed])
      (by decide) g none)) hw
  have hnc : ∀ a < (g.setChanged none).arc_num, 0 ≤ ((g.setChanged none).arcs a).r_cap :=
    fun a ha => by simpa using he.nonneg a ha
  obtain ⟨r1, hr1⟩ := @reuse_solve_total (solveFuel g) _ _ (reuseReady_setChanged cl hR)
    (by rw [solveFuel_setChanged])
  obtain ⟨r2, hr2⟩ := @cold_solve_total (solveFuel g) _ hwc hnc (by rw [solveFuel_setChanged])
  have m1 : maxflow (solveFuel g) g true cl =
      Outcome.returned (r1.setIteration (r1.maxflow_iteration + 1)) r1.flow :=
    maxflow_returned_iff.2 ⟨by simp [hit], by simp, r1, hr1, rfl, rfl⟩
  have m2 : maxflow (solveFuel g) g false none =
      Outcome.returned (r2.setIteration (r2.maxflow_iteration + 1)) r2.flow :=
    maxflow_returned_iff.2 ⟨by simp, by simp, r2, hr2, rfl, rfl⟩
  have e := heq _ _ _ _ _ _ m1 m2
  refine ⟨⟨r1.flow, ?_⟩, heq⟩
  intro F hF
  refine ⟨⟨_, maxflow_mono hF m1⟩, ⟨r2.setIteration (r2.maxflow_iteration + 1), ?_⟩⟩
  rw [e]
  exact maxflow_mono hF m2

theorem completed_scenario1_solved : Completed scenario1_solved :=
  Completed.cold wellFormed_scenario1 (by decide) scenario1_solved_spec

theorem editedFrom_reuse_edit : EditedFrom scenario1_solved reuse_edit [1] := by
  have hwr : Writes [Field.tr_cap, Field.next, Field.queue1, Field.is_marked] scenario1_solved
      reuse_edit :=
    writes_trans (writes_trans (writes_setTrCap (by decide) _ _ _)
      (writes_set_active (by decide) (by decide) _ _)) (writes_setMarked (by decide) _ _ _)
  refine ⟨writes_shape hwr, writes_keep_parent hwr (by decide),
    writes_keep_is_sink hwr (by decide), writes_keep_TS hwr (by decide),
    writes_keep_DIST hwr (by decide), writes_keep_TIME hwr (by decide), ?_, by decide, ?_,
    by decide, by decide, by decide, by decide, by decide,
    writes_keep_iteration hwr (by decide)⟩
  · simp only [IsQueue]
    decide
  · intro x hx
    simp only [List.mem_singleton] at hx
    subst hx
    decide

theorem reuse_equals_scratch_witness :
    Completed scenario1_solved ∧ EditedFrom scenario1_solved reuse_edit [1] ∧
      solveFuel reuse_edit ≤ 34 ∧
      ∀ F, solveFuel reuse_edit ≤ F →
        (∃ g1, maxflow F reuse_edit true none = Outcome.returned g1 4) ∧
        ∃ g2, maxflow F reuse_edit false none = Outcome.returned g2 4 := by
  obtain ⟨fl, h⟩ := (reuse_equals_scratch scenario1_solved reuse_edit [1] none
    completed_scenario1_solved editedFrom_reuse_edit).1
  obtain ⟨g0, h0⟩ := outcome_of_flow
    (show (maxflow 4 reuse_edit true none).flow? = some 4 by decide)
  have hfl : fl = 4 := by
    obtain ⟨⟨g1, h1⟩, _⟩ := h (max 4 (solveFuel reuse_edit)) (le_max_right _ _)
    rw [maxflow_mono (le_max_left 4 (solveFuel reuse_edit)) h0] at h1
    injection h1 with _ e
    exact e.symm
  subst hfl
  exact ⟨completed_scenario1_solved, editedFrom_reuse_edit, by decide, h⟩

end Maxflow

namespace Maxflow

/-- C3: termination of the cold solve. For a well-formed graph with non-negative
residual capacities, `maxflow(reuse_trees = false)` returns as soon as the fuel
of the loops covers `solveFuel g`; at the top of every iteration of the main loop
`next_active` (with the choice of the current node) returns, the growth scan
returns, and after a scan that found a boundary arc `augment` (its parent walks)
and the adoption stage (its origin walks and the orphan drain) return; and every
augmentation raises the flow, which stays below the entry flow plus the capacity
of the cut around the source terminal, so that there are finitely many. -/
theorem maxflow_terminates (g : Graph) (F : Nat) (hw : WellFormed g)
    (hnn : ∀ a < g.arc_num, 0 ≤ (g.arcs a).r_cap) (hF : solveFuel g ≤ F) :
    (∃ g' fl, maxflow F g false none = Outcome.returned g' fl) ∧
      ∀ g2 c, LoopTop F (maxflow_init (g.setChanged none)) none g2 c →
        g2.flow ≤ g.flow + cutCap g (fun _ => false) ∧
        (∃ r, pick_active F g2 c = Res.ok r) ∧
        ∀ g3 i, pick_active F g2 c = Res.ok (g3, some i) →
          (∃ r, grow (g3.nodes i).is_sink i F g3 (g3.nodes i).first = Res.ok r) ∧
          ∀ g4 m, grow (g3.nodes i).is_sink i F g3 (g3.nodes i).first = Res.ok (g4, some m) →
            ∃ g5 g6, augment F ((g4.setTIME (g4.TIME + 1)).setNext i (some i)) m = Res.ok g5 ∧
              adoption F F g5 = Res.ok g6 ∧ g2.flow < g6.flow := by
  have hwc : WellFormed (g.setChanged none) :=
    wellFormed_sameShape (writes_shape (writes_setChanged (K := [Field.changed])
      (by decide) g none)) hw
  have hnc : ∀ a < (g.setChanged none).arc_num, 0 ≤ ((g.setChanged none).arcs a).r_cap :=
    fun a ha => by simpa using hnn a ha
  obtain ⟨hI, hm, hn, ha⟩ := maxflow_init_full (g.setChanged none) hwc hnc
  rw [solveFuel_setChanged] at hm
  have hn1 : (maxflow_init (g.setChanged none)).node_num = g.node_num := by simpa using hn
  have ha1 : (maxflow_init (g.setChanged none)).arc_num = g.arc_num := by simpa using ha
  have hFn : (g.node_num + 1) * (g.node_num + 1) ≤ F := by
    unfold solveFuel at hF
    omega
  have hFa : g.arc_num < F := by
    unfold solveFuel at hF
    omega
  have hcut : cutCap (g.setChanged none) (fun _ => false) = cutCap g fun _ => false := by
    simp [cutCap, arcCut, termCut, Graph.tail]
  refine ⟨?_, ?_⟩
  · obtain ⟨r, hr⟩ := @main_loop_total F (g.setChanged none)
      (loopMeasure (g.setChanged none) (maxflow_init (g.setChanged none)) + 1) F
      (maxflow_init (g.setChanged none)) none hI (by omega) (by rw [hn1]; exact hFn)
      (Nat.lt_succ_self _) (by omega)
    refine ⟨r.setIteration (r.maxflow_iteration + 1), r.flow, maxflow_returned_iff.2 ?_⟩
    refine ⟨by simp, by simp, r, ?_, rfl, rfl⟩
    simp only [solve, Bool.false_eq_true, if_false, Res.bind_eq_ok, Res.ok.injEq]
    exact ⟨_, rfl, hr⟩
  · intro g2 c hT
    have hFl := loopTop_flow hT hI.1
    have hE := loopTop_ext hT ⟨hI.1.1, hI.2⟩
    have hI2 : FullInv (g.setChanged none) g2 c := ⟨hFl, hE.2⟩
    obtain ⟨hn2, ha2⟩ := loopTop_shape hT
    rw [hn1] at hn2
    rw [ha1] at ha2
    have hnF : g2.node_num < F := by
      have : g2.node_num < (g2.node_num + 1) * (g2.node_num + 1) := by nlinarith
      rw [hn2] at this ⊢
      omega
    refine ⟨?_, pick_active_total hFl.1.1 hnF, ?_⟩
    · have h1 := cutCap_nonneg hFl.1.2.nonneg (fun _ => false)
      have h2 := hFl.2.2.2 (fun _ => false)
      rw [hcut] at h2
      have h3 : (g.setChanged none).flow = g.flow := by simp
      rw [h3] at h2
      omega
    · intro g3 i hp
      have hB3 := base_pick hFl.1 hp
      have s1 := writes_shape (pick_active_writes hp)
      have ha3 : g3.arc_num = g2.arc_num := s1.arc_num
      refine ⟨@grow_total (g3.nodes i).is_sink i F g3 (g3.nodes i).first
        (arcs_of g3 i) (hB3.1.inv.wf.lists i hB3.1.bound)
        (lt_of_le_of_lt (arcs_of_length_le g3 i) (by omega)), ?_⟩
      intro g4 m hg
      obtain ⟨g5, g6, h5, h6⟩ := iteration_augment_total hI2 hp hg (by omega)
        (by rw [hn2]; exact hFn)
      obtain ⟨_, _, _, _, hfl⟩ := iteration_augmented hI2 hp hg h5 h6
      exact ⟨g5, g6, h5, h6, hfl⟩

theorem maxflow_terminates_witness :
    WellFormed diamond ∧ (∀ a < diamond.arc_num, 0 ≤ (diamond.arcs a).r_cap) ∧
      solveFuel diamond ≤ 180 ∧
      ∃ g' fl, maxflow 180 diamond false none = Outcome.returned g' fl :=
  ⟨wellFormed_diamond, by decide, by decide,
    (maxflow_terminates diamond 180 wellFormed_diamond (by decide) (by decide)).1⟩

end Maxflow

namespace Maxflow

theorem entryReady_cold {g : Graph} (hw : WellFormed g)
    (hnn : ∀ a < g.arc_num, 0 ≤ (g.arcs a).r_cap) : EntryReady g false := by
  simp only [EntryReady, Bool.false_eq_true, if_false]
  exact ⟨hw, hnn⟩

theorem entryReady_reuse {g : Graph} {q : List Nat} (h : ReuseReady g q) :
    EntryReady g true := by
  simp only [EntryReady, if_true]
  exact ⟨q, h⟩

/-- C4: `maxflow` ends with a contract violation exactly when `reuse_trees` is set
on the first solve (`maxflow_iteration == 0`) or a changed list comes without
`reuse_trees`; the state at that point is the entry state with only the
`changed_list` pointer stored (no node field, no arc, not `flow` is written) and
the error callback, when there is one, has been given a message; in every
other case the call is the solve (initialisation and main loop), and from the
entry state that the interface requires (`EntryReady`) the solve returns as soon
as the fuel of the loops covers `solveFuel g`: the call hands back the
accumulated `flow` and counts the iteration. -/
theorem maxflow_contract_violation (F : Nat) (g : Graph) (reuse : Bool)
    (cl : Option (List Nat)) :
    ((maxflow F g reuse cl).isExit = true ↔
      (g.maxflow_iteration = 0 ∧ reuse = true) ∨ (cl.isSome = true ∧ reuse = false)) ∧
    (∀ g' msg, maxflow F g reuse cl = Outcome.exit g' msg →
      g' = g.setChanged cl ∧ g'.nodes = g.nodes ∧ g'.arcs = g.arcs ∧ g'.flow = g.flow ∧
      g'.maxflow_iteration = g.maxflow_iteration ∧
      (g.error_function = true → msg.isSome = true)) ∧
    ((maxflow F g reuse cl).isExit = false →
      maxflow F g reuse cl =
        match solve F (g.setChanged cl) reuse with
        | Res.ok g2 => Outcome.returned (g2.setIteration (g2.maxflow_iteration + 1)) g2.flow
        | Res.fuel => Outcome.fuel
        | Res.fault => Outcome.fault) ∧
    ((maxflow F g reuse cl).isExit = false → EntryReady g reuse → solveFuel g ≤ F →
      ∃ g2, solve F (g.setChanged cl) reuse = Res.ok g2 ∧
        maxflow F g reuse cl =
          Outcome.returned (g2.setIteration (g2.maxflow_iteration + 1)) g2.flow) := by
  obtain ⟨h1, h2, h3⟩ := maxflow_option_checks F g reuse cl
  refine ⟨h1, h2, h3, ?_⟩
  intro hne hE hF
  have hsolve : ∃ g2, solve F (g.setChanged cl) reuse = Res.ok g2 := by
    cases reuse with
    | true =>
      simp only [EntryReady, if_true] at hE
      obtain ⟨q, hq⟩ := hE
      exact reuse_solve_total (reuseReady_setChanged cl hq)
        (by rw [solveFuel_setChanged]; exact hF)
    | false =>
      simp only [EntryReady, Bool.false_eq_true, if_false] at hE
      have hwc : WellFormed (g.setChanged cl) :=
        wellFormed_sameShape (writes_shape (writes_setChanged (K := [Field.changed])
          (by decide) g cl)) hE.1
      have hnc : ∀ a < (g.setChanged cl).arc_num, 0 ≤ ((g.setChanged cl).arcs a).r_cap :=
        fun a ha => by simpa using hE.2 a ha
      exact cold_solve_total hwc hnc (by rw [solveFuel_setChanged]; exact hF)
  obtain ⟨g2, hg2⟩ := hsolve
  refine ⟨g2, hg2, ?_⟩
  rw [h3 hne, hg2]

theorem maxflow_contract_violation_witness :
    EntryReady diamond false ∧ solveFuel diamond ≤ 180 ∧
      (∃ g2, solve 180 (diamond.setChanged none) false = Res.ok g2 ∧
        maxflow 180 diamond false none =
          Outcome.returned (g2.setIteration (g2.maxflow_iteration + 1)) g2.flow) ∧
      EntryReady reuse_edit true ∧ solveFuel reuse_edit ≤ 34 ∧
      ∃ g2, solve 34 (reuse_edit.setChanged (some [])) true = Res.ok g2 ∧
        maxflow 34 reuse_edit true (some []) =
          Outcome.returned (g2.setIteration (g2.maxflow_iteration + 1)) g2.flow :=
  ⟨entryReady_cold wellFormed_diamond (by decide), by decide,
    (maxflow_contract_violation 180 diamond false none).2.2.2 (by decide)
      (entryReady_cold wellFormed_diamond (by decide)) (by decide),
    entryReady_reuse (reuseReady_of_edited (completed_solved completed_scenario1_solved)
      editedFrom_reuse_edit), by decide,
    (maxflow_contract_violation 34 reuse_edit true (some [])).2.2.2 (by decide)
      (entryReady_reuse (reuseReady_of_edited (completed_solved completed_scenario1_solved)
        editedFrom_reuse_edit)) (by decide)⟩

end Maxflow
